import Mathlib

/-!
# lab3: ordered containers and weighted graphs

A shallow embedding of `core/structures/binary_tree.h`, `dictionary.h`, `set.h`,
`core/graph/DirectedGraph.h` and `core/graph/UndirectedGraph.h`, followed by the
properties proved about it.

Conventions of the embedding.

* A `Node<T>*` is a value of `Node α`; `Node.null` is `nullptr`.  Deallocation
  (`delete`) has no counterpart: trees are values.
* `T::operator<` and `T::operator==` are the comparisons of a key projection
  `key : α → κ` into a linearly ordered type: for `DictionaryPair` this is
  `PairComparator` (`a.first < b.first`, `a.first == b.first`), for a plain key
  type it is `id`.
* A C++ exception is `Except.error`; `Error` names the `throw` sites.
* `int` counters are `Int`; containers are assumed to hold fewer than `2^30`
  elements, so no `int` computation of the source overflows.
* `double` edge weights are an abstract type `W`: the graph classes store and
  return weights and never compute with them.  `TValue()` is `default`.
* A callback that mutates captured state is a state-passing function.
-/

namespace Lab3

/-- The `throw` sites of the embedded code. -/
inductive Error where
  /-- Embeds `Dictionary::Get`: "Key not found". -/
  | keyNotFound
  /-- Embeds `GetEdgeWeight` / `SetEdgeWeight`: "Edge does not exist". -/
  | edgeNotFound
  /-- Embeds `GetAdjacentVertices`: "Vertex does not exist". -/
  | vertexNotFound
  /-- Embeds `DynamicArray::operator[]`: index outside `[0, size)`. -/
  | indexOutOfRange
  /-- Embeds `Queue::Dequeue` / `Stack::Pop`: "Queue is empty", "Stack is empty". -/
  | emptyContainer
  /-- Embeds `KahnSort` / `DFSSort`: "Graph contains a cycle - topological sort not
  possible". -/
  | cycleDetected
  /-- Embeds `BellmanFord`: "Graph contains negative cycle". -/
  | negativeCycle
  /-- Embeds `DijkstraWithPath` / `ReconstructPath`: "Cannot reconstruct path". -/
  | cannotReconstructPath
  /-- Embeds `PartialOrder`: "Graph is not a partial order". -/
  | notPartialOrder
  /-- Embeds `FindLeastElement` / `FindGreatestElement`: "No unique least element",
  "No unique greatest element". -/
  | noUniqueElement
  /-- Embeds `FindInfimum` / `FindSupremum`: "Elements do not exist". -/
  | elementNotFound
  /-- Embeds `DeserializeFromStream`: "Invalid graph format". -/
  | invalidFormat
  /-- Embeds `DeserializeFromStream`: "Failed to read vertex", "Failed to read edge". -/
  | malformedRecord
  /-- Model only: the budget of a recursion or of a `while` loop ran out. -/
  | outOfFuel
  deriving DecidableEq, Repr

instance instDecidableEqExcept {ε α : Type} [DecidableEq ε] [DecidableEq α] :
    DecidableEq (Except ε α)
  | .ok a, .ok b =>
    if h : a = b then isTrue (by rw [h]) else isFalse (fun h' => h (by cases h'; rfl))
  | .error a, .error b =>
    if h : a = b then isTrue (by rw [h]) else isFalse (fun h' => h (by cases h'; rfl))
  | .ok _, .error _ => isFalse (fun h => by cases h)
  | .error _, .ok _ => isFalse (fun h => by cases h)

/-! ## binary_tree.h -/

/-- Embeds `Node<T>*`: either `nullptr` or a node with `data`, `left`, `right`. -/
inductive Node (α : Type) where
  | null : Node α
  | mk (left : Node α) (data : α) (right : Node α) : Node α
  deriving DecidableEq, Repr

section BinaryTreeCode

variable {α κ σ : Type} [LinearOrder κ]

/-- Embeds `BinaryTree::insertRecursive`. -/
def insertRecursive (key : α → κ) : Node α → α → Node α
  | .null, value => .mk .null value .null
  | .mk left data right, value =>
    if key value < key data then
      .mk (insertRecursive key left value) data right
    else if key data < key value then
      .mk left data (insertRecursive key right value)
    else
      .mk left data right

/-- Embeds `BinaryTree::findMin`: follow `left` links while there is one. -/
def findMin : Node α → Node α
  | .null => .null
  | .mk .null data right => .mk .null data right
  | .mk (.mk ll ld lr) _ _ => findMin (.mk ll ld lr)

/-- Embeds `BinaryTree::removeRecursive`.  In the two-children case `findMin(node->right)`
is applied to a non-null node and so returns a node (`findMin_mk_ne_null`); the
`null` branch of that match is never taken. -/
def removeRecursive (key : α → κ) : Node α → α → Node α
  | .null, _ => .null
  | .mk left data right, value =>
    if key value < key data then
      .mk (removeRecursive key left value) data right
    else if key data < key value then
      .mk left data (removeRecursive key right value)
    else
      match left, right with
      | .null, right => right
      | left, .null => left
      | left, right =>
        match findMin right with
        | .mk _ temp _ => .mk left temp (removeRecursive key right temp)
        | .null => .mk left data right

/-- Embeds `BinaryTree::containsRecursive`. -/
def containsRecursive (key : α → κ) : Node α → α → Bool
  | .null, _ => false
  | .mk left data right, value =>
    if key data = key value then true
    else if key value < key data then containsRecursive key left value
    else containsRecursive key right value

/-- The loop of `BinaryTree::findNode`, started at `current`. -/
def findNodeFrom (key : α → κ) : Node α → α → Node α
  | .null, _ => .null
  | .mk left data right, value =>
    if key data = key value then .mk left data right
    else if key value < key data then findNodeFrom key left value
    else findNodeFrom key right value

/-- Embeds `BinaryTree::storeInOrder`: appends the in-order sequence of `node` to `arr`. -/
def storeInOrder : Node α → List α → List α
  | .null, arr => arr
  | .mk left data right, arr => storeInOrder right (storeInOrder left arr ++ [data])

/-- Embeds `MutableArraySequence::Get(int)`, that is `DynamicArray::operator[]`. -/
def arrGet (arr : List α) (index : Int) : Except Error α :=
  if index < 0 ∨ index ≥ (arr.length : Int) then .error .indexOutOfRange
  else
    match arr[index.toNat]? with
    | some x => .ok x
    | none => .error .indexOutOfRange

/-- Embeds `BinaryTree::buildBalancedTree(arr, start, end)`.  The first argument bounds the
recursion depth; `int` division of the non-negative `start + end` is `Int.tdiv`. -/
def buildBalancedTree (arr : List α) : Nat → Int → Int → Except Error (Node α)
  | 0, _, _ => .error .outOfFuel
  | fuel + 1, start, stop =>
    if start > stop then .ok .null
    else
      let mid := (start + stop).tdiv 2
      match arrGet arr mid with
      | .error e => .error e
      | .ok data =>
        match buildBalancedTree arr fuel start (mid - 1) with
        | .error e => .error e
        | .ok left =>
          match buildBalancedTree arr fuel (mid + 1) stop with
          | .error e => .error e
          | .ok right => .ok (.mk left data right)

/-- Embeds `TraversalHelper::inOrder` of `traverseInOrder`, for a callback that updates the
state it captured. -/
def inOrder : Node α → (σ → α → σ) → σ → σ
  | .null, _, s => s
  | .mk left data right, func, s => inOrder right func (func (inOrder left func s) data)

/-- Embeds `TraversalHelper::inOrder` of `traverseInOrder`, for a callback that may throw:
the first exception ends the traversal. -/
def inOrderE : Node α → (σ → α → Except Error σ) → σ → Except Error σ
  | .null, _, s => .ok s
  | .mk left data right, func, s =>
    match inOrderE left func s with
    | .error e => .error e
    | .ok s1 =>
      match func s1 data with
      | .error e => .error e
      | .ok s2 => inOrderE right func s2

/-- Embeds `BinaryTree<T>`: the owner of a root pointer. -/
structure BinaryTree (α : Type) where
  root : Node α
  deriving DecidableEq, Repr

namespace BinaryTree

/-- Embeds `BinaryTree()`. -/
def empty : BinaryTree α := ⟨.null⟩

/-- Embeds `BinaryTree::insert`. -/
def insert (key : α → κ) (t : BinaryTree α) (value : α) : BinaryTree α :=
  ⟨insertRecursive key t.root value⟩

/-- Embeds `BinaryTree::remove`. -/
def remove (key : α → κ) (t : BinaryTree α) (value : α) : BinaryTree α :=
  ⟨removeRecursive key t.root value⟩

/-- Embeds `BinaryTree::contains`. -/
def contains (key : α → κ) (t : BinaryTree α) (value : α) : Bool :=
  containsRecursive key t.root value

/-- Embeds `BinaryTree::findNode`. -/
def findNode (key : α → κ) (t : BinaryTree α) (value : α) : Node α :=
  findNodeFrom key t.root value

/-- Embeds `BinaryTree::isEmpty`. -/
def isEmpty (t : BinaryTree α) : Bool :=
  match t.root with
  | .null => true
  | .mk _ _ _ => false

/-- Embeds `BinaryTree::clear`. -/
def clear (_t : BinaryTree α) : BinaryTree α := ⟨.null⟩

/-- Embeds `BinaryTree::balance`. -/
def balance (t : BinaryTree α) : Except Error (BinaryTree α) :=
  match t.root with
  | .null => .ok t
  | .mk left data right =>
    let elements := storeInOrder (.mk left data right) []
    match buildBalancedTree elements (elements.length + 1) 0 ((elements.length : Int) - 1) with
    | .error e => .error e
    | .ok root => .ok ⟨root⟩

/-- Embeds `BinaryTree::traverseInOrder`. -/
def traverseInOrder (t : BinaryTree α) (func : σ → α → σ) (s : σ) : σ :=
  inOrder t.root func s

/-- Embeds `BinaryTree::traverseInOrder` with a callback that may throw. -/
def traverseInOrderE (t : BinaryTree α) (func : σ → α → Except Error σ) (s : σ) :
    Except Error σ :=
  inOrderE t.root func s

end BinaryTree

end BinaryTreeCode

/-! ## dictionary.h -/

/-- Embeds `DictionaryPair<TKey, TValue>`: a `std::pair` compared by its first component
(`PairComparator::less`, `PairComparator::equal`). -/
structure DictionaryPair (K V : Type) where
  getKey : K
  getValue : V
  deriving DecidableEq, Repr

/-- Embeds `Dictionary<TKey, TValue>`. -/
structure Dictionary (K V : Type) where
  tree : BinaryTree (DictionaryPair K V)
  deriving DecidableEq, Repr

namespace Dictionary

variable {K V σ : Type} [LinearOrder K]

/-- Embeds `Dictionary()`. -/
def empty : Dictionary K V := ⟨BinaryTree.empty⟩

instance instInhabited : Inhabited (Dictionary K V) := ⟨empty⟩

/-- Embeds `Dictionary::Add`. -/
def Add [Inhabited V] (d : Dictionary K V) (key : K) (value : V) : Dictionary K V :=
  let pair : DictionaryPair K V := ⟨key, value⟩
  let searchPair : DictionaryPair K V := ⟨key, default⟩
  let tree :=
    if d.tree.contains DictionaryPair.getKey searchPair then
      d.tree.remove DictionaryPair.getKey searchPair
    else d.tree
  ⟨tree.insert DictionaryPair.getKey pair⟩

/-- Embeds `Dictionary::ContainsKey`. -/
def ContainsKey [Inhabited V] (d : Dictionary K V) (key : K) : Bool :=
  d.tree.contains DictionaryPair.getKey ⟨key, default⟩

/-- Embeds `Dictionary::Get`: returns a copy of the stored value. -/
def Get [Inhabited V] (d : Dictionary K V) (key : K) : Except Error V :=
  match d.tree.findNode DictionaryPair.getKey ⟨key, default⟩ with
  | .mk _ data _ => .ok data.getValue
  | .null => .error .keyNotFound

/-- Embeds `Dictionary::Remove`. -/
def Remove [Inhabited V] (d : Dictionary K V) (key : K) : Dictionary K V :=
  ⟨d.tree.remove DictionaryPair.getKey ⟨key, default⟩⟩

/-- Embeds `Dictionary::GetCount`. -/
def GetCount (d : Dictionary K V) : Int :=
  d.tree.traverseInOrder (fun count _ => count + 1) 0

/-- Embeds `Dictionary::IsEmpty`. -/
def IsEmpty (d : Dictionary K V) : Bool := d.tree.isEmpty

/-- Embeds `Dictionary::Clear`. -/
def Clear (d : Dictionary K V) : Dictionary K V := ⟨d.tree.clear⟩

/-- Embeds `Dictionary::ForEachKey`. -/
def ForEachKey (d : Dictionary K V) (func : σ → K → σ) (s : σ) : σ :=
  d.tree.traverseInOrder (fun s pair => func s pair.getKey) s

/-- Embeds `Dictionary::ForEachKey` with a callback that may throw. -/
def ForEachKeyE (d : Dictionary K V) (func : σ → K → Except Error σ) (s : σ) :
    Except Error σ :=
  d.tree.traverseInOrderE (fun s pair => func s pair.getKey) s

/-- Embeds `Dictionary::ForEach`. -/
def ForEach (d : Dictionary K V) (func : σ → K → V → σ) (s : σ) : σ :=
  d.tree.traverseInOrder (fun s pair => func s pair.getKey pair.getValue) s

/-- Embeds `Dictionary::Balance`. -/
def Balance (d : Dictionary K V) : Except Error (Dictionary K V) :=
  match d.tree.balance with
  | .error e => .error e
  | .ok tree => .ok ⟨tree⟩

end Dictionary

/-! ## set.h -/

/-- Embeds `Set<T>`. -/
structure Set (T : Type) where
  tree : BinaryTree T
  deriving DecidableEq, Repr

namespace Set

variable {T σ : Type} [LinearOrder T]

/-- Embeds `Set()`. -/
def empty : Set T := ⟨BinaryTree.empty⟩

/-- Embeds `Set::Add`. -/
def Add (s : Set T) (value : T) : Set T :=
  if !s.tree.contains id value then ⟨s.tree.insert id value⟩ else s

/-- Embeds `Set::Remove`. -/
def Remove (s : Set T) (value : T) : Set T := ⟨s.tree.remove id value⟩

/-- Embeds `Set::Contains`. -/
def Contains (s : Set T) (value : T) : Bool := s.tree.contains id value

/-- Embeds `Set::GetCount`. -/
def GetCount (s : Set T) : Int :=
  s.tree.traverseInOrder (fun count _ => count + 1) 0

/-- Embeds `Set::Clear`. -/
def Clear (s : Set T) : Set T := ⟨s.tree.clear⟩

/-- Embeds `Set::ForEach`. -/
def ForEach (s : Set T) (func : σ → T → σ) (st : σ) : σ :=
  s.tree.traverseInOrder func st

/-- Embeds `Set::ForEach` with a callback that may throw. -/
def ForEachE (s : Set T) (func : σ → T → Except Error σ) (st : σ) : Except Error σ :=
  s.tree.traverseInOrderE func st

end Set

/-! ## DirectedGraph.h -/

/-- Embeds `DirectedGraph<T>` with the `vertexCount` and `edgeCount` of `GraphBase<T>`;
`cachedVertices = none` is the null cache pointer. -/
structure DirectedGraph (T W : Type) where
  adjMatrix : Dictionary T (Dictionary T W)
  vertices : Set T
  cachedVertices : Option (List T)
  vertexCount : Int
  edgeCount : Int
  deriving DecidableEq, Repr

namespace DirectedGraph

variable {T W : Type} [LinearOrder T] [Inhabited W]

/-- Embeds `DirectedGraph()`. -/
def empty : DirectedGraph T W :=
  { adjMatrix := Dictionary.empty, vertices := Set.empty, cachedVertices := none,
    vertexCount := 0, edgeCount := 0 }

/-- Embeds `DirectedGraph::invalidateCache`. -/
def invalidateCache (g : DirectedGraph T W) : DirectedGraph T W :=
  { g with cachedVertices := none }

/-- Embeds `GraphBase::GetVertexCount`. -/
def GetVertexCount (g : DirectedGraph T W) : Int := g.vertexCount

/-- Embeds `GraphBase::GetEdgeCount`. -/
def GetEdgeCount (g : DirectedGraph T W) : Int := g.edgeCount

/-- Embeds `DirectedGraph::HasVertex`. -/
def HasVertex (g : DirectedGraph T W) (vertex : T) : Bool :=
  g.vertices.Contains vertex

/-- Embeds `DirectedGraph::HasEdge`.  `adjMatrix.Get(from)` is reached only after
`adjMatrix.ContainsKey(from)` held, so it does not throw (`Dictionary.Get_isOk`); the
`error` branch is never taken. -/
def HasEdge (g : DirectedGraph T W) (vFrom vTo : T) : Bool :=
  if !g.HasVertex vFrom || !g.HasVertex vTo then false
  else if !g.adjMatrix.ContainsKey vFrom then false
  else
    match g.adjMatrix.Get vFrom with
    | .ok adjDict => adjDict.ContainsKey vTo
    | .error _ => false

/-- Embeds `DirectedGraph::AddVertex`. -/
def AddVertex (g : DirectedGraph T W) (vertex : T) : DirectedGraph T W :=
  if !g.vertices.Contains vertex then
    invalidateCache
      { g with
        vertices := g.vertices.Add vertex
        adjMatrix := g.adjMatrix.Add vertex Dictionary.empty
        vertexCount := g.vertexCount + 1 }
  else g

/-- Embeds `DirectedGraph::AddEdge`. -/
def AddEdge (g : DirectedGraph T W) (vFrom vTo : T) (weight : W) :
    Except Error (DirectedGraph T W) :=
  let g1 := (g.AddVertex vFrom).AddVertex vTo
  match g1.adjMatrix.Get vFrom with
  | .error e => .error e
  | .ok adjDict =>
    let g2 := if !adjDict.ContainsKey vTo then { g1 with edgeCount := g1.edgeCount + 1 } else g1
    let adjDict := adjDict.Add vTo weight
    .ok (invalidateCache { g2 with adjMatrix := g2.adjMatrix.Add vFrom adjDict })

/-- The callback of `vertices.ForEach` in `DirectedGraph::RemoveVertex`.
`adjMatrix.Get(v)` returns the inner dictionary by value, so `Remove(vertex)` acts on
a temporary that is dropped: only `edgeCount` changes. -/
def removeIncoming (vertex : T) (g : DirectedGraph T W) (v : T) :
    Except Error (DirectedGraph T W) :=
  if v ≠ vertex ∧ g.adjMatrix.ContainsKey v = true then
    match g.adjMatrix.Get v with
    | .error e => .error e
    | .ok adjDict =>
      if adjDict.ContainsKey vertex then
        match g.adjMatrix.Get v with
        | .error e => .error e
        | .ok temporary =>
          let _dropped := temporary.Remove vertex
          .ok { g with edgeCount := g.edgeCount - 1 }
      else .ok g
  else .ok g

/-- Embeds `DirectedGraph::RemoveVertex`. -/
def RemoveVertex (g : DirectedGraph T W) (vertex : T) : Except Error (DirectedGraph T W) :=
  if !g.HasVertex vertex then .ok g
  else
    let outgoing : Except Error (DirectedGraph T W) :=
      if g.adjMatrix.ContainsKey vertex then
        match g.adjMatrix.Get vertex with
        | .error e => .error e
        | .ok adjDict =>
          .ok { g with
                edgeCount := g.edgeCount - adjDict.GetCount
                adjMatrix := g.adjMatrix.Remove vertex }
      else .ok g
    match outgoing with
    | .error e => .error e
    | .ok g1 =>
      match g1.vertices.ForEachE (removeIncoming vertex) g1 with
      | .error e => .error e
      | .ok g2 =>
        .ok (invalidateCache
          { g2 with
            vertices := g2.vertices.Remove vertex
            vertexCount := g2.vertexCount - 1 })

/-- Embeds `DirectedGraph::RemoveEdge`. -/
def RemoveEdge (g : DirectedGraph T W) (vFrom vTo : T) : Except Error (DirectedGraph T W) :=
  if g.HasEdge vFrom vTo then
    match g.adjMatrix.Get vFrom with
    | .error e => .error e
    | .ok adjDict =>
      let adjDict := adjDict.Remove vTo
      .ok (invalidateCache
        { g with
          adjMatrix := g.adjMatrix.Add vFrom adjDict
          edgeCount := g.edgeCount - 1 })
  else .ok g

/-- Embeds `DirectedGraph::GetEdgeWeight`. -/
def GetEdgeWeight (g : DirectedGraph T W) (vFrom vTo : T) : Except Error W :=
  if !g.HasEdge vFrom vTo then .error .edgeNotFound
  else
    match g.adjMatrix.Get vFrom with
    | .error e => .error e
    | .ok adjDict => adjDict.Get vTo

/-- Embeds `DirectedGraph::SetEdgeWeight`. -/
def SetEdgeWeight (g : DirectedGraph T W) (vFrom vTo : T) (weight : W) :
    Except Error (DirectedGraph T W) :=
  if !g.HasEdge vFrom vTo then .error .edgeNotFound
  else
    match g.adjMatrix.Get vFrom with
    | .error e => .error e
    | .ok adjDict =>
      let adjDict := adjDict.Add vTo weight
      .ok { g with adjMatrix := g.adjMatrix.Add vFrom adjDict }

/-- Embeds `DirectedGraph::GetAdjacentVertices`. -/
def GetAdjacentVertices (g : DirectedGraph T W) (vertex : T) : Except Error (List T) :=
  if !g.HasVertex vertex then .error .vertexNotFound
  else if g.adjMatrix.ContainsKey vertex then
    match g.adjMatrix.Get vertex with
    | .error e => .error e
    | .ok dict => .ok (dict.ForEachKey (fun result key => result ++ [key]) [])
  else .ok []

/-- Embeds `DirectedGraph::GetAllVertices`: the snapshot and the graph with its cache
filled. -/
def GetAllVertices (g : DirectedGraph T W) : List T × DirectedGraph T W :=
  match g.cachedVertices with
  | some cached => (cached, g)
  | none =>
    let cached := g.vertices.ForEach (fun result vertex => result ++ [vertex]) []
    (cached, { g with cachedVertices := some cached })

/-- Embeds `DirectedGraph::Clear`. -/
def Clear (g : DirectedGraph T W) : DirectedGraph T W :=
  invalidateCache
    { g with
      vertices := g.vertices.Clear
      adjMatrix := g.adjMatrix.Clear
      vertexCount := 0
      edgeCount := 0 }

end DirectedGraph

/-! ## UndirectedGraph.h -/

/-- Embeds `UndirectedGraph<T>` with the `vertexCount` and `edgeCount` of
`GraphBase<T>`; `cachedVertices = none` is the null cache pointer. -/
structure UndirectedGraph (T W : Type) where
  adjMatrix : Dictionary T (Dictionary T W)
  vertices : Set T
  cachedVertices : Option (List T)
  vertexCount : Int
  edgeCount : Int
  deriving DecidableEq, Repr

namespace UndirectedGraph

variable {T W : Type} [LinearOrder T] [Inhabited W]

/-- Embeds `UndirectedGraph()`. -/
def empty : UndirectedGraph T W :=
  { adjMatrix := Dictionary.empty, vertices := Set.empty, cachedVertices := none,
    vertexCount := 0, edgeCount := 0 }

/-- Embeds `UndirectedGraph::invalidateCache`. -/
def invalidateCache (g : UndirectedGraph T W) : UndirectedGraph T W :=
  { g with cachedVertices := none }

/-- Embeds `GraphBase::GetVertexCount`. -/
def GetVertexCount (g : UndirectedGraph T W) : Int := g.vertexCount

/-- Embeds `GraphBase::GetEdgeCount`. -/
def GetEdgeCount (g : UndirectedGraph T W) : Int := g.edgeCount

/-- Embeds `UndirectedGraph::HasVertex`. -/
def HasVertex (g : UndirectedGraph T W) (vertex : T) : Bool :=
  g.vertices.Contains vertex

/-- Embeds `UndirectedGraph::HasEdge`.  `adjMatrix.Get(from)` is reached only after
`adjMatrix.ContainsKey(from)` held, so it does not throw (`Dictionary.Get_isOk`); the
`error` branch is never taken. -/
def HasEdge (g : UndirectedGraph T W) (vFrom vTo : T) : Bool :=
  if !g.HasVertex vFrom || !g.HasVertex vTo then false
  else if !g.adjMatrix.ContainsKey vFrom then false
  else
    match g.adjMatrix.Get vFrom with
    | .ok adjDict => adjDict.ContainsKey vTo
    | .error _ => false

/-- Embeds `UndirectedGraph::AddVertex`. -/
def AddVertex (g : UndirectedGraph T W) (vertex : T) : UndirectedGraph T W :=
  if !g.vertices.Contains vertex then
    invalidateCache
      { g with
        vertices := g.vertices.Add vertex
        adjMatrix := g.adjMatrix.Add vertex Dictionary.empty
        vertexCount := g.vertexCount + 1 }
  else g

/-- Embeds `UndirectedGraph::AddEdge`. -/
def AddEdge (g : UndirectedGraph T W) (vFrom vTo : T) (weight : W) :
    Except Error (UndirectedGraph T W) :=
  let g1 := (g.AddVertex vFrom).AddVertex vTo
  match g1.adjMatrix.Get vFrom with
  | .error e => .error e
  | .ok adjDictFrom =>
    match g1.adjMatrix.Get vTo with
    | .error e => .error e
    | .ok adjDictTo =>
      let edgeExists := adjDictFrom.ContainsKey vTo
      let g2 := if !edgeExists then { g1 with edgeCount := g1.edgeCount + 1 } else g1
      let adjDictFrom := adjDictFrom.Add vTo weight
      let adjDictTo := adjDictTo.Add vFrom weight
      let g3 := { g2 with adjMatrix := g2.adjMatrix.Add vFrom adjDictFrom }
      let g4 := { g3 with adjMatrix := g3.adjMatrix.Add vTo adjDictTo }
      .ok (invalidateCache g4)

/-- The callback of `adjDict.ForEachKey` in `UndirectedGraph::RemoveVertex`: the
neighbour's dictionary is copied, changed and written back. -/
def removeFromNeighbor (vertex : T) (g : UndirectedGraph T W) (neighbor : T) :
    Except Error (UndirectedGraph T W) :=
  match g.adjMatrix.Get neighbor with
  | .error e => .error e
  | .ok neighborDict =>
    if neighborDict.ContainsKey vertex then
      let neighborDict := neighborDict.Remove vertex
      .ok { g with adjMatrix := g.adjMatrix.Add neighbor neighborDict }
    else .ok g

/-- Embeds `UndirectedGraph::RemoveVertex`. -/
def RemoveVertex (g : UndirectedGraph T W) (vertex : T) :
    Except Error (UndirectedGraph T W) :=
  if !g.HasVertex vertex then .ok g
  else
    match g.adjMatrix.Get vertex with
    | .error e => .error e
    | .ok adjDict =>
      match adjDict.ForEachKeyE (removeFromNeighbor vertex) g with
      | .error e => .error e
      | .ok g1 =>
        .ok (invalidateCache
          { g1 with
            edgeCount := g1.edgeCount - adjDict.GetCount
            adjMatrix := g1.adjMatrix.Remove vertex
            vertices := g1.vertices.Remove vertex
            vertexCount := g1.vertexCount - 1 })

/-- Embeds `UndirectedGraph::RemoveEdge`. -/
def RemoveEdge (g : UndirectedGraph T W) (vFrom vTo : T) :
    Except Error (UndirectedGraph T W) :=
  if g.HasEdge vFrom vTo then
    match g.adjMatrix.Get vFrom with
    | .error e => .error e
    | .ok adjDictFrom =>
      match g.adjMatrix.Get vTo with
      | .error e => .error e
      | .ok adjDictTo =>
        let adjDictFrom := adjDictFrom.Remove vTo
        let adjDictTo := adjDictTo.Remove vFrom
        let g1 := { g with adjMatrix := g.adjMatrix.Add vFrom adjDictFrom }
        let g2 := { g1 with adjMatrix := g1.adjMatrix.Add vTo adjDictTo }
        .ok (invalidateCache { g2 with edgeCount := g2.edgeCount - 1 })
  else .ok g

/-- Embeds `UndirectedGraph::GetEdgeWeight`. -/
def GetEdgeWeight (g : UndirectedGraph T W) (vFrom vTo : T) : Except Error W :=
  if !g.HasEdge vFrom vTo then .error .edgeNotFound
  else
    match g.adjMatrix.Get vFrom with
    | .error e => .error e
    | .ok adjDict => adjDict.Get vTo

/-- Embeds `UndirectedGraph::SetEdgeWeight`. -/
def SetEdgeWeight (g : UndirectedGraph T W) (vFrom vTo : T) (weight : W) :
    Except Error (UndirectedGraph T W) :=
  if !g.HasEdge vFrom vTo then .error .edgeNotFound
  else
    match g.adjMatrix.Get vFrom with
    | .error e => .error e
    | .ok adjDictFrom =>
      match g.adjMatrix.Get vTo with
      | .error e => .error e
      | .ok adjDictTo =>
        let adjDictFrom := adjDictFrom.Add vTo weight
        let adjDictTo := adjDictTo.Add vFrom weight
        let g1 := { g with adjMatrix := g.adjMatrix.Add vFrom adjDictFrom }
        .ok { g1 with adjMatrix := g1.adjMatrix.Add vTo adjDictTo }

/-- Embeds `UndirectedGraph::GetAdjacentVertices`. -/
def GetAdjacentVertices (g : UndirectedGraph T W) (vertex : T) : Except Error (List T) :=
  if !g.HasVertex vertex then .error .vertexNotFound
  else if g.adjMatrix.ContainsKey vertex then
    match g.adjMatrix.Get vertex with
    | .error e => .error e
    | .ok adjDict => .ok (adjDict.ForEachKey (fun result key => result ++ [key]) [])
  else .ok []

/-- Embeds `UndirectedGraph::GetAllVertices`: the snapshot and the graph with its cache
filled. -/
def GetAllVertices (g : UndirectedGraph T W) : List T × UndirectedGraph T W :=
  match g.cachedVertices with
  | some cached => (cached, g)
  | none =>
    let cached := g.vertices.ForEach (fun result vertex => result ++ [vertex]) []
    (cached, { g with cachedVertices := some cached })

/-- Embeds `UndirectedGraph::Clear`. -/
def Clear (g : UndirectedGraph T W) : UndirectedGraph T W :=
  invalidateCache
    { g with
      vertices := g.vertices.Clear
      adjMatrix := g.adjMatrix.Clear
      vertexCount := 0
      edgeCount := 0 }

end UndirectedGraph

/-! ## Call sequences -/

/-- A call of a mutating operation of `GraphBase<T>`. -/
inductive GraphOp (T W : Type) where
  | addVertex (vertex : T)
  | addEdge (vFrom vTo : T) (weight : W)
  | removeVertex (vertex : T)
  | removeEdge (vFrom vTo : T)
  | setEdgeWeight (vFrom vTo : T) (weight : W)
  | clear
  deriving DecidableEq, Repr

/-- The calls `AddEdge` and `RemoveEdge`. -/
def GraphOp.isEdgeOp {T W : Type} : GraphOp T W → Bool
  | .addEdge _ _ _ => true
  | .removeEdge _ _ => true
  | _ => false

/-- One call on a directed graph. -/
def DirectedGraph.step {T W : Type} [LinearOrder T] [Inhabited W]
    (g : DirectedGraph T W) : GraphOp T W → Except Error (DirectedGraph T W)
  | .addVertex vertex => .ok (g.AddVertex vertex)
  | .addEdge vFrom vTo weight => g.AddEdge vFrom vTo weight
  | .removeVertex vertex => g.RemoveVertex vertex
  | .removeEdge vFrom vTo => g.RemoveEdge vFrom vTo
  | .setEdgeWeight vFrom vTo weight => g.SetEdgeWeight vFrom vTo weight
  | .clear => .ok g.Clear

/-- A sequence of calls on a directed graph.  The result is `error` as soon as a call
throws; a caller that catches the exception of `SetEdgeWeight`, which is thrown at the
guard before any change, continues from the same graph. -/
def DirectedGraph.run {T W : Type} [LinearOrder T] [Inhabited W] :
    DirectedGraph T W → List (GraphOp T W) → Except Error (DirectedGraph T W)
  | g, [] => .ok g
  | g, op :: ops =>
    match g.step op with
    | .error e => .error e
    | .ok g1 => DirectedGraph.run g1 ops

/-- One call on an undirected graph. -/
def UndirectedGraph.step {T W : Type} [LinearOrder T] [Inhabited W]
    (g : UndirectedGraph T W) : GraphOp T W → Except Error (UndirectedGraph T W)
  | .addVertex vertex => .ok (g.AddVertex vertex)
  | .addEdge vFrom vTo weight => g.AddEdge vFrom vTo weight
  | .removeVertex vertex => g.RemoveVertex vertex
  | .removeEdge vFrom vTo => g.RemoveEdge vFrom vTo
  | .setEdgeWeight vFrom vTo weight => g.SetEdgeWeight vFrom vTo weight
  | .clear => .ok g.Clear

/-- A sequence of calls on an undirected graph.  The result is `error` as soon as a call
throws; a caller that catches the exception of `SetEdgeWeight`, which is thrown at the
guard before any change, continues from the same graph (`ug_step_error`: no other call
throws in a reachable state). -/
def UndirectedGraph.run {T W : Type} [LinearOrder T] [Inhabited W] :
    UndirectedGraph T W → List (GraphOp T W) → Except Error (UndirectedGraph T W)
  | g, [] => .ok g
  | g, op :: ops =>
    match g.step op with
    | .error e => .error e
    | .ok g1 => UndirectedGraph.run g1 ops

/-! ## Notions used to state the properties -/

/-- The in-order sequence of a tree: left subtree, node, right subtree. -/
def Node.toList {α : Type} : Node α → List α
  | .null => []
  | .mk left data right => left.toList ++ data :: right.toList

/-- The binary-search-tree property: every key of the left subtree is below the key
of the node, every key of the right subtree is above it, at every node. -/
def IsBST {α κ : Type} [LinearOrder κ] (key : α → κ) : Node α → Prop
  | .null => True
  | .mk left data right =>
    IsBST key left ∧ IsBST key right ∧
      (∀ x ∈ left.toList, key x < key data) ∧ (∀ x ∈ right.toList, key data < key x)

/-- A call of a mutating operation of `BinaryTree<T>`. -/
inductive TreeOp (α : Type) where
  | insert (value : α)
  | remove (value : α)
  | balance
  deriving DecidableEq, Repr

/-- One call on a tree. -/
def BinaryTree.step {α κ : Type} [LinearOrder κ] (key : α → κ) (t : BinaryTree α) :
    TreeOp α → Except Error (BinaryTree α)
  | .insert value => .ok (t.insert key value)
  | .remove value => .ok (t.remove key value)
  | .balance => t.balance

/-- A sequence of calls on a tree. -/
def BinaryTree.run {α κ : Type} [LinearOrder κ] (key : α → κ) :
    BinaryTree α → List (TreeOp α) → Except Error (BinaryTree α)
  | t, [] => .ok t
  | t, op :: ops =>
    match t.step key op with
    | .error e => .error e
    | .ok t1 => BinaryTree.run key t1 ops

/-- A call of a mutating operation of `Dictionary<TKey, TValue>`. -/
inductive DictOp (K V : Type) where
  | add (key : K) (value : V)
  | remove (key : K)
  | clear
  | balance
  deriving DecidableEq, Repr

/-- One call on a dictionary. -/
def Dictionary.step {K V : Type} [LinearOrder K] [Inhabited V] (d : Dictionary K V) :
    DictOp K V → Except Error (Dictionary K V)
  | .add key value => .ok (d.Add key value)
  | .remove key => .ok (d.Remove key)
  | .clear => .ok d.Clear
  | .balance => d.Balance

/-- A sequence of calls on a dictionary. -/
def Dictionary.run {K V : Type} [LinearOrder K] [Inhabited V] :
    Dictionary K V → List (DictOp K V) → Except Error (Dictionary K V)
  | d, [] => .ok d
  | d, op :: ops =>
    match d.step op with
    | .error e => .error e
    | .ok d1 => Dictionary.run d1 ops

/-- The key-value pairs of a dictionary in in-order sequence. -/
def Dictionary.entries {K V : Type} (d : Dictionary K V) : List (DictionaryPair K V) :=
  d.tree.root.toList

/-- The tree of the dictionary is a search tree on the keys. -/
def Dictionary.WF {K V : Type} [LinearOrder K] (d : Dictionary K V) : Prop :=
  IsBST DictionaryPair.getKey d.tree.root

/-- The set of keys of a dictionary. -/
def Dictionary.keys {K V : Type} [DecidableEq K] (d : Dictionary K V) : Finset K :=
  (d.entries.map DictionaryPair.getKey).toFinset

/-- The elements of a set in in-order sequence. -/
def Set.elems {T : Type} (s : Set T) : List T := s.tree.root.toList

/-- The tree of the set is a search tree. -/
def Set.WF {T : Type} [LinearOrder T] (s : Set T) : Prop := IsBST id s.tree.root

/-- The set of elements of a set. -/
def Set.toFinset {T : Type} [DecidableEq T] (s : Set T) : Finset T := s.elems.toFinset

/-- The value that `Get` returns, or `none` when it throws. -/
def Dictionary.find? {K V : Type} [LinearOrder K] [Inhabited V] (d : Dictionary K V)
    (k : K) : Option V :=
  match d.Get k with
  | .ok v => some v
  | .error _ => none

/-- The weight stored in `adjMatrix[x][y]`, if that entry exists. -/
def storedWeight {T W : Type} [LinearOrder T] [Inhabited W]
    (adj : Dictionary T (Dictionary T W)) (x y : T) : Option W :=
  (adj.find? x).bind (fun d => d.find? y)

/-- The storage invariants of the data model: all trees are search trees, `adjMatrix`
has an entry exactly for the vertices, and every adjacency entry points to a vertex. -/
structure Stored {T W : Type} [LinearOrder T] [Inhabited W]
    (adj : Dictionary T (Dictionary T W)) (vs : Set T) : Prop where
  vs_wf : vs.WF
  adj_wf : adj.WF
  inner_wf : ∀ x d, adj.find? x = some d → d.WF
  keys_eq : ∀ x, (adj.find? x).isSome = vs.Contains x
  targets : ∀ x y, (storedWeight adj x y).isSome = true → vs.Contains y = true

/-- The pairs `(x, y)` of vertices with an entry `adjMatrix[x][y]`. -/
def storeEdges {T W : Type} [LinearOrder T] [Inhabited W]
    (adj : Dictionary T (Dictionary T W)) (vs : Set T) : Finset (T × T) :=
  (vs.toFinset ×ˢ vs.toFinset).filter (fun p => (storedWeight adj p.1 p.2).isSome = true)

/-- The invariants of a directed graph: the storage invariants, and the two counters
agree with the vertex set and with the set of stored adjacency entries. -/
structure DirectedGraph.Inv {T W : Type} [LinearOrder T] [Inhabited W]
    (g : DirectedGraph T W) : Prop where
  stored : Stored g.adjMatrix g.vertices
  vcount : g.vertexCount = (g.vertices.toFinset.card : Int)
  ecount : g.edgeCount = ((storeEdges g.adjMatrix g.vertices).card : Int)

/-- The unordered pairs `{x, y}` of vertices with an entry `adjMatrix[x][y]`. -/
def storeLinks {T W : Type} [LinearOrder T] [Inhabited W]
    (adj : Dictionary T (Dictionary T W)) (vs : Set T) : Finset (Sym2 T) :=
  (storeEdges adj vs).image Sym2.mk

/-- The invariants of an undirected graph: the storage invariants, every adjacency entry
has a mirror entry with the same weight, and the two counters agree with the vertex set
and with the set of unordered pairs that have an adjacency entry. -/
structure UndirectedGraph.Inv {T W : Type} [LinearOrder T] [Inhabited W]
    (g : UndirectedGraph T W) : Prop where
  stored : Stored g.adjMatrix g.vertices
  symm : ∀ x y, storedWeight g.adjMatrix x y = storedWeight g.adjMatrix y x
  vcount : g.vertexCount = (g.vertices.toFinset.card : Int)
  ecount : g.edgeCount = ((storeLinks g.adjMatrix g.vertices).card : Int)

/-- A left fold with a step that may throw: the list counterpart of `inOrderE`. -/
def foldlE {α σ : Type} (func : σ → α → Except Error σ) : σ → List α → Except Error σ
  | s, [] => .ok s
  | s, x :: xs =>
    match func s x with
    | .error e => .error e
    | .ok s1 => foldlE func s1 xs

/-- The height of a tree, counted in nodes on the longest path from the root to a leaf;
the empty tree has height `0`. -/
def Node.height {α : Type} : Node α → Nat
  | .null => 0
  | .mk left _ right => max left.height right.height + 1

/-- The number of nodes of a tree. -/
def Node.size {α : Type} : Node α → Nat
  | .null => 0
  | .mk left _ right => left.size + right.size + 1

/-! ## GraphBase.h: the interface, `Queue` and `Stack` -/

/-- Embeds the virtual interface of `GraphBase<T>` as seen through a
`const GraphBase<T>&`: the results of the query methods.  `GetAllVertices` is the
sequence that the call returns; the graph is not changed while an algorithm runs, so
every call returns the same sequence (the first call fills the cache, later calls copy
it). -/
structure GraphBase (T W : Type) where
  HasVertex : T → Bool
  HasEdge : T → T → Bool
  GetEdgeWeight : T → T → Except Error W
  GetAdjacentVertices : T → Except Error (List T)
  GetAllVertices : List T
  GetVertexCount : Int

/-- The interface of a `DirectedGraph<T>` object. -/
def DirectedGraph.toGraphBase {T W : Type} [LinearOrder T] [Inhabited W]
    (g : DirectedGraph T W) : GraphBase T W :=
  { HasVertex := g.HasVertex
    HasEdge := g.HasEdge
    GetEdgeWeight := g.GetEdgeWeight
    GetAdjacentVertices := g.GetAdjacentVertices
    GetAllVertices := g.GetAllVertices.1
    GetVertexCount := g.GetVertexCount }

/-- The interface of an `UndirectedGraph<T>` object. -/
def UndirectedGraph.toGraphBase {T W : Type} [LinearOrder T] [Inhabited W]
    (g : UndirectedGraph T W) : GraphBase T W :=
  { HasVertex := g.HasVertex
    HasEdge := g.HasEdge
    GetEdgeWeight := g.GetEdgeWeight
    GetAdjacentVertices := g.GetAdjacentVertices
    GetAllVertices := g.GetAllVertices.1
    GetVertexCount := g.GetVertexCount }

/-- Embeds `Queue<T>`: a `LinkedList<T>`, first element at the head. -/
structure Queue (T : Type) where
  list : List T
  deriving DecidableEq, Repr

namespace Queue

variable {T : Type}

/-- Embeds `Queue()`. -/
def empty : Queue T := ⟨[]⟩

/-- Embeds `Queue::Enqueue`: `list.Append(value)`. -/
def Enqueue (q : Queue T) (value : T) : Queue T := ⟨q.list ++ [value]⟩

/-- Embeds `Queue::Dequeue`: the first element and the queue without it. -/
def Dequeue (q : Queue T) : Except Error (T × Queue T) :=
  match q.list with
  | [] => .error .emptyContainer
  | value :: rest => .ok (value, ⟨rest⟩)

/-- Embeds `Queue::IsEmpty`. -/
def IsEmpty (q : Queue T) : Bool := q.list.length == 0

end Queue

/-- Embeds `Stack<T>`: a `LinkedList<T>`, top element at the head. -/
structure Stack (T : Type) where
  list : List T
  deriving DecidableEq, Repr

namespace Stack

variable {T : Type}

/-- Embeds `Stack()`. -/
def empty : Stack T := ⟨[]⟩

/-- Embeds `Stack::Push`: `list.Prepend(value)`. -/
def Push (s : Stack T) (value : T) : Stack T := ⟨value :: s.list⟩

/-- Embeds `Stack::Pop`: the first element and the stack without it. -/
def Pop (s : Stack T) : Except Error (T × Stack T) :=
  match s.list with
  | [] => .error .emptyContainer
  | value :: rest => .ok (value, ⟨rest⟩)

/-- Embeds `Stack::IsEmpty`. -/
def IsEmpty (s : Stack T) : Bool := s.list.length == 0

end Stack

/-! ## TopologicalSort.h

A loop `for (i = 0; i < seq->GetLength(); i++)` that reads `seq->Get(i)` from a sequence
it does not change is a fold over the elements of the sequence.  A `while` loop and a
recursion take a budget as first argument; the entry points pass a budget that suffices
on every graph that satisfies the invariants (see the properties). -/

namespace TopologicalSort

variable {T W : Type} [LinearOrder T]

/-- The state of `KahnSort` in its `while` loop. -/
structure KahnState (T : Type) where
  inDegree : Dictionary T Int
  queue : Queue T
  result : List T
  visitedCount : Int

/-- The first loop of `KahnSort`: `inDegree.Add(vertex, 0)` for every vertex. -/
def kahnInit (vertices : List T) : Dictionary T Int :=
  vertices.foldl (fun inDegree vertex => inDegree.Add vertex 0) Dictionary.empty

/-- The body of the inner loop that counts incoming edges. -/
def kahnCountEdge (inDegree : Dictionary T Int) (vTo : T) : Except Error (Dictionary T Int) :=
  match inDegree.Get vTo with
  | .error e => .error e
  | .ok currentDegree => .ok (inDegree.Add vTo (currentDegree + 1))

/-- The second loop of `KahnSort`, for one `from`. -/
def kahnCountFrom (graph : GraphBase T W) (inDegree : Dictionary T Int) (vFrom : T) :
    Except Error (Dictionary T Int) :=
  match graph.GetAdjacentVertices vFrom with
  | .error e => .error e
  | .ok adj => foldlE kahnCountEdge inDegree adj

/-- The callback of `inDegree.ForEachKey` in `KahnSort`. -/
def kahnEnqueueZero (inDegree : Dictionary T Int) (queue : Queue T) (vertex : T) :
    Except Error (Queue T) :=
  match inDegree.Get vertex with
  | .error e => .error e
  | .ok degree => if degree = 0 then .ok (queue.Enqueue vertex) else .ok queue

/-- The body of the loop over the neighbours of `current` in the `while` loop. -/
def kahnRelax (s : Dictionary T Int × Queue T) (neighbor : T) :
    Except Error (Dictionary T Int × Queue T) :=
  match s.1.Get neighbor with
  | .error e => .error e
  | .ok degree =>
    let newDegree := degree - 1
    let inDegree := s.1.Add neighbor newDegree
    if newDegree = 0 then .ok (inDegree, s.2.Enqueue neighbor) else .ok (inDegree, s.2)

/-- The `while (!queue.IsEmpty())` loop of `KahnSort`. -/
def kahnLoop (graph : GraphBase T W) : Nat → KahnState T → Except Error (KahnState T)
  | 0, _ => .error .outOfFuel
  | fuel + 1, s =>
    if s.queue.IsEmpty then .ok s
    else
      match s.queue.Dequeue with
      | .error e => .error e
      | .ok (current, queue) =>
        match graph.GetAdjacentVertices current with
        | .error e => .error e
        | .ok adj =>
          match foldlE kahnRelax (s.inDegree, queue) adj with
          | .error e => .error e
          | .ok (inDegree, queue) =>
            kahnLoop graph fuel
              { inDegree := inDegree
                queue := queue
                result := s.result ++ [current]
                visitedCount := s.visitedCount + 1 }

/-- Embeds `TopologicalSort::KahnSort`. -/
def KahnSort (graph : GraphBase T W) : Except Error (List T) :=
  if graph.GetVertexCount = 0 then .ok []
  else
    let vertices := graph.GetAllVertices
    let inDegree := kahnInit vertices
    match foldlE (kahnCountFrom graph) inDegree vertices with
    | .error e => .error e
    | .ok inDegree =>
      match inDegree.ForEachKeyE (kahnEnqueueZero inDegree) Queue.empty with
      | .error e => .error e
      | .ok queue =>
        match kahnLoop graph (vertices.length + 1)
            { inDegree := inDegree, queue := queue, result := [], visitedCount := 0 } with
        | .error e => .error e
        | .ok s =>
          if s.visitedCount ≠ graph.GetVertexCount then .error .cycleDetected
          else .ok s.result

/-- The variables captured by the `dfs` lambda of `DFSSort`. -/
structure DfsState (T : Type) where
  visited : Set T
  tempMark : Set T
  resultStack : Stack T

/-- The recursive lambda `dfs` of `DFSSort`; the first argument bounds the depth of the
recursion. -/
def dfs (graph : GraphBase T W) : Nat → DfsState T → T → Except Error (DfsState T)
  | 0, _, _ => .error .outOfFuel
  | fuel + 1, s, vertex =>
    if s.tempMark.Contains vertex then .error .cycleDetected
    else if s.visited.Contains vertex then .ok s
    else
      let s1 := { s with tempMark := s.tempMark.Add vertex }
      match graph.GetAdjacentVertices vertex with
      | .error e => .error e
      | .ok adj =>
        match foldlE (dfs graph fuel) s1 adj with
        | .error e => .error e
        | .ok s2 =>
          .ok { visited := s2.visited.Add vertex
                tempMark := s2.tempMark.Remove vertex
                resultStack := s2.resultStack.Push vertex }

/-- The body of the loop over all vertices in `DFSSort`. -/
def dfsFrom (graph : GraphBase T W) (fuel : Nat) (s : DfsState T) (vertex : T) :
    Except Error (DfsState T) :=
  if !s.visited.Contains vertex then dfs graph fuel s vertex else .ok s

/-- The last loop of `DFSSort`: pop the stack into the result; the budget is the number
of elements. -/
def popAll : Nat → Stack T → List T → Except Error (List T)
  | 0, _, _ => .error .outOfFuel
  | fuel + 1, stack, result =>
    if stack.IsEmpty then .ok result
    else
      match stack.Pop with
      | .error e => .error e
      | .ok (top, rest) => popAll fuel rest (result ++ [top])

/-- Embeds `TopologicalSort::DFSSort`. -/
def DFSSort (graph : GraphBase T W) : Except Error (List T) :=
  if graph.GetVertexCount = 0 then .ok []
  else
    let vertices := graph.GetAllVertices
    match foldlE (dfsFrom graph (vertices.length + 1))
        { visited := Set.empty, tempMark := Set.empty, resultStack := Stack.empty }
        vertices with
    | .error e => .error e
    | .ok s => popAll (s.resultStack.list.length + 1) s.resultStack []

/-- Embeds `TopologicalSort::IsAcyclic`.  Every exception that the embedded `KahnSort`
can throw is a `std::runtime_error` in the source (the cycle error, `Key not found` of
`Dictionary::Get`, `Vertex does not exist` of `GetAdjacentVertices`, the empty list of
`Queue::Dequeue`), so `catch (const std::runtime_error&)` catches each of them. -/
def IsAcyclic (graph : GraphBase T W) : Bool :=
  match KahnSort graph with
  | .ok _ => true
  | .error _ => false

end TopologicalSort

/-! ## ConnectedComponents.h -/

namespace ConnectedComponents

variable {T W : Type} [LinearOrder T]

/-- The state of `BFSComponent` in its `while` loop. -/
structure BfsState (T : Type) where
  queue : Queue T
  visited : Set T
  component : List T

/-- The body of the loop over the neighbours of `current` in `BFSComponent`. -/
def bfsVisit (s : Set T × Queue T) (neighbor : T) : Set T × Queue T :=
  if !s.1.Contains neighbor then (s.1.Add neighbor, s.2.Enqueue neighbor) else s

/-- The `while (!queue.IsEmpty())` loop of `BFSComponent`. -/
def bfsLoop (graph : GraphBase T W) : Nat → BfsState T → Except Error (BfsState T)
  | 0, _ => .error .outOfFuel
  | fuel + 1, s =>
    if s.queue.IsEmpty then .ok s
    else
      match s.queue.Dequeue with
      | .error e => .error e
      | .ok (current, queue) =>
        match graph.GetAdjacentVertices current with
        | .error e => .error e
        | .ok adj =>
          let next := adj.foldl bfsVisit (s.visited, queue)
          bfsLoop graph fuel
            { queue := next.2, visited := next.1, component := s.component ++ [current] }

/-- Embeds `ConnectedComponents::BFSComponent`: the new `visited` and `component`. -/
def BFSComponent (graph : GraphBase T W) (startVertex : T) (visited : Set T)
    (component : List T) : Except Error (Set T × List T) :=
  match bfsLoop graph (graph.GetAllVertices.length + 1)
      { queue := Queue.empty.Enqueue startVertex
        visited := visited.Add startVertex
        component := component } with
  | .error e => .error e
  | .ok s => .ok (s.visited, s.component)

/-- The body of the loop over all vertices in `FindComponentsBFS`. -/
def componentFrom (graph : GraphBase T W) (s : Set T × List (List T)) (vertex : T) :
    Except Error (Set T × List (List T)) :=
  if !s.1.Contains vertex then
    match BFSComponent graph vertex s.1 [] with
    | .error e => .error e
    | .ok (visited, component) => .ok (visited, s.2 ++ [component])
  else .ok s

/-- Embeds `ConnectedComponents::FindComponentsBFS`. -/
def FindComponentsBFS (graph : GraphBase T W) : Except Error (List (List T)) :=
  match foldlE (componentFrom graph) (Set.empty, []) graph.GetAllVertices with
  | .error e => .error e
  | .ok s => .ok s.2

/-- Embeds `ConnectedComponents::CountComponents`. -/
def CountComponents (graph : GraphBase T W) : Except Error Int :=
  match FindComponentsBFS graph with
  | .error e => .error e
  | .ok components => .ok (components.length : Int)

end ConnectedComponents

/-! ## Notions used to state the properties of the algorithms -/

/-- The cached vertex list, when there is one, is the in-order sequence of `vertices`. -/
def DirectedGraph.CacheOk {T W : Type} (g : DirectedGraph T W) : Prop :=
  ∀ cached, g.cachedVertices = some cached → cached = g.vertices.elems

/-- A directed graph object that satisfies the invariants of the data model. -/
def DirectedGraph.Valid {T W : Type} [LinearOrder T] [Inhabited W]
    (g : DirectedGraph T W) : Prop :=
  g.Inv ∧ g.CacheOk

/-- The cached vertex list, when there is one, is the in-order sequence of `vertices`. -/
def UndirectedGraph.CacheOk {T W : Type} (g : UndirectedGraph T W) : Prop :=
  ∀ cached, g.cachedVertices = some cached → cached = g.vertices.elems

/-- An undirected graph object that satisfies the invariants of the data model. -/
def UndirectedGraph.Valid {T W : Type} [LinearOrder T] [Inhabited W]
    (g : UndirectedGraph T W) : Prop :=
  g.Inv ∧ g.CacheOk

/-- The queries of the interface agree with each other: `GetAllVertices` lists the
vertices once each, `GetVertexCount` is their number, `GetAdjacentVertices(v)` lists
once each the vertices `u` with `HasEdge(v, u)`, edges join vertices, and
`GetEdgeWeight` succeeds exactly on the edges. -/
structure GraphBase.Valid {T W : Type} (g : GraphBase T W) : Prop where
  all_nodup : g.GetAllVertices.Nodup
  mem_all : ∀ v, v ∈ g.GetAllVertices ↔ g.HasVertex v = true
  count_eq : g.GetVertexCount = (g.GetAllVertices.length : Int)
  adj_ok : ∀ v, g.HasVertex v = true →
    ∃ adj, g.GetAdjacentVertices v = .ok adj ∧ adj.Nodup ∧
      ∀ u, u ∈ adj ↔ g.HasEdge v u = true
  edge_left : ∀ u v, g.HasEdge u v = true → g.HasVertex u = true
  edge_right : ∀ u v, g.HasEdge u v = true → g.HasVertex v = true
  weight_iff : ∀ u v, (∃ w, g.GetEdgeWeight u v = .ok w) ↔ g.HasEdge u v = true

/-- The interface `g` belongs to a directed or to an undirected graph object that
satisfies the invariants of the data model. -/
def GraphBase.IsGraph {T W : Type} [LinearOrder T] [Inhabited W] (g : GraphBase T W) : Prop :=
  (∃ dg : DirectedGraph T W, dg.Valid ∧ g = dg.toGraphBase) ∨
  (∃ ug : UndirectedGraph T W, ug.Valid ∧ g = ug.toGraphBase)

/-- There is an edge from `u` to `v`. -/
def GraphBase.Edge {T W : Type} (g : GraphBase T W) (u v : T) : Prop :=
  g.HasEdge u v = true

/-- The vertex `v` is reached from `u` by a path of one or more edges. -/
def GraphBase.Reaches {T W : Type} (g : GraphBase T W) (u v : T) : Prop :=
  Relation.TransGen g.Edge u v

/-- The graph has a directed cycle: some vertex reaches itself by one or more edges (a
self-loop is a cycle). -/
def GraphBase.HasCycle {T W : Type} (g : GraphBase T W) : Prop :=
  ∃ v, g.Reaches v v

/-- The vertices `u` and `v` are joined by a path of zero or more edges. -/
def GraphBase.Connected {T W : Type} (g : GraphBase T W) (u v : T) : Prop :=
  Relation.ReflTransGen g.Edge u v

/-- A topological order: the sequence holds every vertex exactly once, and for every
edge `u -> v` the vertex `u` stands before `v`. -/
def GraphBase.IsTopologicalOrder {T W : Type} (g : GraphBase T W) (order : List T) : Prop :=
  order.Nodup ∧ (∀ v, v ∈ order ↔ g.HasVertex v = true) ∧
    ∀ u v, g.HasEdge u v = true →
      ∃ i j, i < j ∧ order.get? i = some u ∧ order.get? j = some v

/-- The loop invariant of `BFSComponent`, started at `start` with the set `visited0`
and an empty component. -/
structure ConnectedComponents.BfsInv {T W : Type} [LinearOrder T] (g : GraphBase T W)
    (start : T) (visited0 : Set T) (s : ConnectedComponents.BfsState T) : Prop where
  wf : s.visited.WF
  visited_iff : ∀ x, s.visited.Contains x = true ↔
    (visited0.Contains x = true ∨ x ∈ s.component ∨ x ∈ s.queue.list)
  nodup : (s.component ++ s.queue.list).Nodup
  fresh : ∀ x, x ∈ s.component ++ s.queue.list →
    g.Connected start x ∧ visited0.Contains x = false ∧ g.HasVertex x = true
  closed : ∀ x, x ∈ s.component → ∀ y, g.HasEdge x y = true → s.visited.Contains y = true
  start_mem : start ∈ s.component ++ s.queue.list

/-- The invariant of the loop over all vertices in `FindComponentsBFS`. -/
structure ConnectedComponents.CompInv {T W : Type} [LinearOrder T] (g : GraphBase T W)
    (s : Set T × List (List T)) : Prop where
  wf : s.1.WF
  visited_iff : ∀ x, s.1.Contains x = true ↔ ∃ c, c ∈ s.2 ∧ x ∈ c
  closed : ∀ x y, g.HasEdge x y = true → (s.1.Contains x = true ↔ s.1.Contains y = true)
  nodup : s.2.flatten.Nodup
  comp : ∀ c, c ∈ s.2 → ∃ r, r ∈ c ∧ ∀ x, x ∈ c ↔ g.Connected r x
  vertex : ∀ c, c ∈ s.2 → ∀ x, x ∈ c → g.HasVertex x = true

/-- The calls `AddVertex`, `AddEdge` and `RemoveEdge`. -/
def GraphOp.isBuildOp {T W : Type} : GraphOp T W → Bool
  | .addVertex _ => true
  | .addEdge _ _ _ => true
  | .removeEdge _ _ => true
  | _ => false

/-- A check of all edges: `p u v` holds for every `v` in `GetAdjacentVertices(u)`, for
every `u` in `GetAllVertices()`. -/
def GraphBase.allEdges {T W : Type} (g : GraphBase T W) (p : T → T → Bool) : Bool :=
  g.GetAllVertices.all fun u =>
    match g.GetAdjacentVertices u with
    | .ok adj => adj.all (p u)
    | .error _ => true

/-- The number of vertices `u` outside `done` that have an edge `u -> v`. -/
def GraphBase.inDegreeOutside {T W : Type} [DecidableEq T] (g : GraphBase T W)
    (done : List T) (v : T) : Nat :=
  g.GetAllVertices.countP (fun u => g.HasEdge u v && !decide (u ∈ done))

/-- The invariant of the `while` loop of `KahnSort`: `inDegree` counts for every vertex
the predecessors that are not yet in `result`; the queue holds the vertices outside
`result` whose count is `0`; in `result` every vertex stands after its predecessors. -/
structure TopologicalSort.KahnInv {T W : Type} [LinearOrder T] (g : GraphBase T W)
    (s : TopologicalSort.KahnState T) : Prop where
  wf : s.inDegree.WF
  count : s.visitedCount = (s.result.length : Int)
  nodup : (s.result ++ s.queue.list).Nodup
  vert : ∀ v, v ∈ s.result → g.HasVertex v = true
  deg : ∀ v, s.inDegree.find? v =
    if g.HasVertex v = true then some ((g.inDegreeOutside s.result v : Nat) : Int) else none
  queue_iff : ∀ v, v ∈ s.queue.list ↔
    (g.HasVertex v = true ∧ v ∉ s.result ∧ g.inDegreeOutside s.result v = 0)
  topo : ∀ a v b, s.result = a ++ v :: b → ∀ u, g.HasEdge u v = true → u ∈ a

/-- The invariant of `DFSSort` between calls of `dfs`: the stack holds the visited
vertices once each, every vertex of the stack has all its successors below it, and no
visited vertex carries a temporary mark. -/
structure TopologicalSort.DfsInv {T W : Type} [LinearOrder T] (g : GraphBase T W)
    (s : TopologicalSort.DfsState T) : Prop where
  vwf : s.visited.WF
  twf : s.tempMark.WF
  nodup : s.resultStack.list.Nodup
  stack_iff : ∀ v, v ∈ s.resultStack.list ↔ s.visited.Contains v = true
  vvert : ∀ v, s.visited.Contains v = true → g.HasVertex v = true
  tvert : ∀ v, s.tempMark.Contains v = true → g.HasVertex v = true
  disj : ∀ v, s.visited.Contains v = true → s.tempMark.Contains v = false
  topo : ∀ a v b, s.resultStack.list = a ++ v :: b → ∀ u, g.HasEdge v u = true → u ∈ b

/-- The depth-first search in the words of the specification: `g.postorderFrom fuel
finished v` leaves `finished` as it is when `v` is finished already; otherwise it
searches from the neighbours of `v`, in the order of `GetAdjacentVertices(v)`, and
appends `v` after them.  The first argument bounds the depth. -/
def GraphBase.postorderFrom {T W : Type} [DecidableEq T] (g : GraphBase T W) :
    Nat → List T → T → List T
  | 0, finished, _ => finished
  | fuel + 1, finished, v =>
    if v ∈ finished then finished
    else
      match g.GetAdjacentVertices v with
      | .ok adj => adj.foldl (g.postorderFrom fuel) finished ++ [v]
      | .error _ => finished ++ [v]

/-- The depth-first postorder of the graph: the search starts from every vertex, in the
order of `GetAllVertices()`, and a vertex is listed when the search from it is over. -/
def GraphBase.postorder {T W : Type} [DecidableEq T] (g : GraphBase T W) : List T :=
  g.GetAllVertices.foldl (g.postorderFrom (g.GetAllVertices.length + 1)) []

/-! ## ShortestPath.h

A weight is a number of an ordered ring `R`; a `double` that holds a distance is an
element of `WithTop R`: a number or `⊤`, the value of
`std::numeric_limits<double>::infinity()`.  The arithmetic is exact: rounding, overflow
and NaN are not part of the model, which speaks for the code on the inputs for which
every sum that the code forms is exact in `double`, as it is for integer weights whose
sums stay below `2^53`. -/

namespace ShortestPath

variable {T R : Type} [LinearOrder T] [LinearOrderedRing R] [Inhabited R]

/-- The loop that stores infinity for every vertex, and `distances->Add(startVertex, 0.0)`
after it. -/
def initDistances (vertices : List T) (startVertex : T) : Dictionary T (WithTop R) :=
  (vertices.foldl (fun distances vertex => distances.Add vertex ⊤) Dictionary.empty).Add
    startVertex 0

/-- The body of the loop that selects the unvisited vertex with the least distance.  The
state is `u` and `minDist`; `u` is `none` as long as `found` is false. -/
def selectStep (distances : Dictionary T (WithTop R)) (visited : Set T)
    (s : Option T × WithTop R) (vertex : T) : Except Error (Option T × WithTop R) :=
  if !visited.Contains vertex then
    match distances.Get vertex with
    | .error e => .error e
    | .ok dist => if dist < s.2 then .ok (some vertex, dist) else .ok s
  else .ok s

/-- The selection loop of `Dijkstra` and `DijkstraWithPath`. -/
def selectMin (graph : GraphBase T R) (distances : Dictionary T (WithTop R))
    (visited : Set T) : Except Error (Option T × WithTop R) :=
  foldlE (selectStep distances visited) (none, ⊤) graph.GetAllVertices

/-- The body of the loop over the neighbours of `u` in `Dijkstra`. -/
def relaxStep (graph : GraphBase T R) (u : T) (visited : Set T)
    (distances : Dictionary T (WithTop R)) (v : T) :
    Except Error (Dictionary T (WithTop R)) :=
  if !visited.Contains v then
    match graph.GetEdgeWeight u v with
    | .error e => .error e
    | .ok edgeWeight =>
      match distances.Get u with
      | .error e => .error e
      | .ok du =>
        let alt := du + (edgeWeight : WithTop R)
        match distances.Get v with
        | .error e => .error e
        | .ok dv => if alt < dv then .ok (distances.Add v alt) else .ok distances
  else .ok distances

/-- The loop `for (count = 0; count < totalVertices; count++)` of `Dijkstra`; the first
argument is the number of rounds that remain. -/
def dijkstraLoop (graph : GraphBase T R) :
    Nat → Dictionary T (WithTop R) × Set T → Except Error (Dictionary T (WithTop R) × Set T)
  | 0, s => .ok s
  | n + 1, (distances, visited) =>
    match selectMin graph distances visited with
    | .error e => .error e
    | .ok (none, _) => .ok (distances, visited)
    | .ok (some u, minDist) =>
      if minDist = ⊤ then .ok (distances, visited)
      else
        let visited := visited.Add u
        match graph.GetAdjacentVertices u with
        | .error e => .error e
        | .ok adj =>
          match foldlE (relaxStep graph u visited) distances adj with
          | .error e => .error e
          | .ok distances => dijkstraLoop graph n (distances, visited)

/-- Embeds `ShortestPath::Dijkstra`. -/
def Dijkstra (graph : GraphBase T R) (startVertex : T) :
    Except Error (Dictionary T (WithTop R)) :=
  if !graph.HasVertex startVertex then .error .vertexNotFound
  else
    let distances := initDistances graph.GetAllVertices startVertex
    let totalVertices := graph.GetVertexCount
    match dijkstraLoop graph totalVertices.toNat (distances, Set.empty) with
    | .error e => .error e
    | .ok s => .ok s.1

/-- The body of the loop over the neighbours of `u` in `DijkstraWithPath`. -/
def relaxStepWithPath (graph : GraphBase T R) [Inhabited T] (u : T) (visited : Set T)
    (s : Dictionary T (WithTop R) × Dictionary T T) (v : T) :
    Except Error (Dictionary T (WithTop R) × Dictionary T T) :=
  if !visited.Contains v then
    match graph.GetEdgeWeight u v with
    | .error e => .error e
    | .ok edgeWeight =>
      match s.1.Get u with
      | .error e => .error e
      | .ok du =>
        let alt := du + (edgeWeight : WithTop R)
        match s.1.Get v with
        | .error e => .error e
        | .ok dv => if alt < dv then .ok (s.1.Add v alt, s.2.Add v u) else .ok s
  else .ok s

/-- The state of the main loop of `DijkstraWithPath`. -/
structure PathState (T R : Type) where
  distances : Dictionary T (WithTop R)
  previous : Dictionary T T
  visited : Set T

/-- The loop `for (count = 0; count < totalVertices; count++)` of `DijkstraWithPath`. -/
def dijkstraPathLoop (graph : GraphBase T R) [Inhabited T] (endVertex : T) :
    Nat → PathState T R → Except Error (PathState T R)
  | 0, s => .ok s
  | n + 1, s =>
    match selectMin graph s.distances s.visited with
    | .error e => .error e
    | .ok (none, _) => .ok s
    | .ok (some u, minDist) =>
      if minDist = ⊤ then .ok s
      else if u = endVertex then .ok s
      else
        let visited := s.visited.Add u
        match graph.GetAdjacentVertices u with
        | .error e => .error e
        | .ok adj =>
          match foldlE (relaxStepWithPath graph u visited) (s.distances, s.previous) adj with
          | .error e => .error e
          | .ok (distances, previous) =>
            dijkstraPathLoop graph endVertex n
              { distances := distances, previous := previous, visited := visited }

/-- The loop `while (true)` that walks the predecessors from `endVertex` back to
`startVertex`; the first argument bounds the number of rounds. -/
def reconstruct [Inhabited T] (previous : Dictionary T T) (startVertex : T) :
    Nat → T → List T → Except Error (List T)
  | 0, _, _ => .error .outOfFuel
  | fuel + 1, current, path =>
    let path := current :: path
    if current = startVertex then .ok path
    else if !previous.ContainsKey current then .error .cannotReconstructPath
    else
      match previous.Get current with
      | .error e => .error e
      | .ok prev => reconstruct previous startVertex fuel prev path

/-- Embeds `ShortestPath::DijkstraWithPath`. -/
def DijkstraWithPath (graph : GraphBase T R) [Inhabited T] (startVertex endVertex : T) :
    Except Error (List T) :=
  if !graph.HasVertex startVertex || !graph.HasVertex endVertex then .error .vertexNotFound
  else
    let vertices := graph.GetAllVertices
    let distances := initDistances vertices startVertex
    let totalVertices := graph.GetVertexCount
    match dijkstraPathLoop graph endVertex totalVertices.toNat
        { distances := distances, previous := Dictionary.empty, visited := Set.empty } with
    | .error e => .error e
    | .ok s =>
      match s.distances.Get endVertex with
      | .error e => .error e
      | .ok dEnd =>
        if dEnd = ⊤ then .ok []
        else reconstruct s.previous startVertex (vertices.length + 1) endVertex []

/-- Embeds `ShortestPath::FindShortestPath`. -/
def FindShortestPath (graph : GraphBase T R) [Inhabited T] (startVertex endVertex : T) :
    Except Error (List T) :=
  DijkstraWithPath graph startVertex endVertex

/-- The body of the innermost loop of a relaxation pass of `BellmanFord`; the state is
`distances` and `changed`. -/
def bfRelaxEdge (graph : GraphBase T R) (vFrom : T) (s : Dictionary T (WithTop R) × Bool)
    (vTo : T) : Except Error (Dictionary T (WithTop R) × Bool) :=
  match graph.GetEdgeWeight vFrom vTo with
  | .error e => .error e
  | .ok weight =>
    match s.1.Get vFrom with
    | .error e => .error e
    | .ok dFrom =>
      let newDist := dFrom + (weight : WithTop R)
      if dFrom < ⊤ then
        match s.1.Get vTo with
        | .error e => .error e
        | .ok dTo => if newDist < dTo then .ok (s.1.Add vTo newDist, true) else .ok s
      else .ok s

/-- The loop over the neighbours of `from` in a relaxation pass. -/
def bfRelaxFrom (graph : GraphBase T R) (s : Dictionary T (WithTop R) × Bool) (vFrom : T) :
    Except Error (Dictionary T (WithTop R) × Bool) :=
  match graph.GetAdjacentVertices vFrom with
  | .error e => .error e
  | .ok adj => foldlE (bfRelaxEdge graph vFrom) s adj

/-- The loop `for (i = 0; i < graph.GetVertexCount() - 1; i++)` of `BellmanFord`; the
first argument is the number of passes that remain. -/
def bfLoop (graph : GraphBase T R) (vertices : List T) :
    Nat → Dictionary T (WithTop R) → Except Error (Dictionary T (WithTop R))
  | 0, distances => .ok distances
  | n + 1, distances =>
    match foldlE (bfRelaxFrom graph) (distances, false) vertices with
    | .error e => .error e
    | .ok (distances, changed) =>
      if !changed then .ok distances else bfLoop graph vertices n distances

/-- The body of the innermost loop of the check for negative cycles. -/
def bfCheckEdge (graph : GraphBase T R) (distances : Dictionary T (WithTop R)) (vFrom : T)
    (_ : Unit) (vTo : T) : Except Error Unit :=
  match graph.GetEdgeWeight vFrom vTo with
  | .error e => .error e
  | .ok weight =>
    match distances.Get vFrom with
    | .error e => .error e
    | .ok dFrom =>
      if dFrom < ⊤ then
        match distances.Get vTo with
        | .error e => .error e
        | .ok dTo =>
          if dFrom + (weight : WithTop R) < dTo then .error .negativeCycle else .ok ()
      else .ok ()

/-- The loop over the neighbours of `from` in the check for negative cycles. -/
def bfCheckFrom (graph : GraphBase T R) (distances : Dictionary T (WithTop R)) (_ : Unit)
    (vFrom : T) : Except Error Unit :=
  match graph.GetAdjacentVertices vFrom with
  | .error e => .error e
  | .ok adj => foldlE (bfCheckEdge graph distances vFrom) () adj

/-- Embeds `ShortestPath::BellmanFord`. -/
def BellmanFord (graph : GraphBase T R) (startVertex : T) :
    Except Error (Dictionary T (WithTop R)) :=
  if !graph.HasVertex startVertex then .error .vertexNotFound
  else
    let vertices := graph.GetAllVertices
    let distances := initDistances vertices startVertex
    match bfLoop graph vertices (graph.GetVertexCount - 1).toNat distances with
    | .error e => .error e
    | .ok distances =>
      match foldlE (bfCheckFrom graph distances) () vertices with
      | .error e => .error e
      | .ok _ => .ok distances

/-- The body of the loop over the neighbours of `current` in `BFSShortestPath`. -/
def bfsDistVisit (currentDist : WithTop R) (s : Dictionary T (WithTop R) × Queue T)
    (neighbor : T) : Except Error (Dictionary T (WithTop R) × Queue T) :=
  match s.1.Get neighbor with
  | .error e => .error e
  | .ok d =>
    if d = ⊤ then .ok (s.1.Add neighbor (currentDist + 1), s.2.Enqueue neighbor) else .ok s

/-- The `while (!queue.IsEmpty())` loop of `BFSShortestPath`; the first argument bounds
the number of rounds. -/
def bfsDistLoop (graph : GraphBase T R) :
    Nat → Dictionary T (WithTop R) × Queue T →
      Except Error (Dictionary T (WithTop R) × Queue T)
  | 0, _ => .error .outOfFuel
  | fuel + 1, s =>
    if s.2.IsEmpty then .ok s
    else
      match s.2.Dequeue with
      | .error e => .error e
      | .ok (current, queue) =>
        match s.1.Get current with
        | .error e => .error e
        | .ok currentDist =>
          match graph.GetAdjacentVertices current with
          | .error e => .error e
          | .ok adj =>
            match foldlE (bfsDistVisit currentDist) (s.1, queue) adj with
            | .error e => .error e
            | .ok s1 => bfsDistLoop graph fuel s1

/-- Embeds `ShortestPath::BFSShortestPath`. -/
def BFSShortestPath (graph : GraphBase T R) (startVertex : T) :
    Except Error (Dictionary T (WithTop R)) :=
  if !graph.HasVertex startVertex then .error .vertexNotFound
  else
    let vertices := graph.GetAllVertices
    let distances := initDistances vertices startVertex
    match bfsDistLoop graph (vertices.length + 1)
        (distances, Queue.empty.Enqueue startVertex) with
    | .error e => .error e
    | .ok s => .ok s.1

end ShortestPath

/-- A path with its weight: `g.Walk s p v d` says that `p` is the sequence of the vertices
of a path from `s` to `v`, consecutive vertices joined by edges (a vertex may occur more
than once), and that `d` is the sum of the weights of these edges. -/
inductive GraphBase.Walk {T R : Type} [Zero R] [Add R] (g : GraphBase T R) (s : T) :
    List T → T → R → Prop
  | start : g.HasVertex s = true → GraphBase.Walk g s [s] s 0
  | step {p : List T} {v : T} {d : R} {x : T} {w : R} :
      GraphBase.Walk g s p v d → g.GetEdgeWeight v x = .ok w →
      GraphBase.Walk g s (p ++ [x]) x (d + w)

/-- The distance from `s` to `v`: `d` is the least total weight of a path from `s` to
`v`, reached by a path on which no vertex occurs twice, and `d` is `⊤` when there is no
path. -/
def GraphBase.IsDistance {T R : Type} [LinearOrderedRing R] (g : GraphBase T R) (s v : T)
    (d : WithTop R) : Prop :=
  (∀ p c, g.Walk s p v c → d ≤ (c : WithTop R)) ∧
  (∀ c : R, d = (c : WithTop R) → ∃ p, g.Walk s p v c ∧ p.Nodup)

/-- A cycle of negative total weight that is reached from `s`: a path of negative
weight from a vertex `v` to itself, on which no vertex occurs twice apart from `v` as
first and last vertex, for a vertex `v` joined to `s` by a path. -/
def GraphBase.HasNegativeCycleFrom {T R : Type} [LinearOrderedRing R] (g : GraphBase T R)
    (s : T) : Prop :=
  ∃ v p c, g.Connected s v ∧ g.Walk v p v c ∧ c < 0 ∧ p.tail.Nodup

/-- The distance stored for `v`; `⊤` when `distances` has no entry for `v`. -/
def ShortestPath.distOf {T R : Type} [LinearOrder T] (distances : Dictionary T (WithTop R))
    (v : T) : WithTop R :=
  (distances.find? v).getD ⊤

/-- The invariant of the main loop of `Dijkstra`: stored distances are weights of paths,
the edges that leave visited vertices are relaxed, and no unvisited vertex is nearer
than a visited one. -/
structure ShortestPath.DijkInv {T R : Type} [LinearOrder T] [LinearOrderedRing R]
    (g : GraphBase T R) (start : T) (distances : Dictionary T (WithTop R))
    (visited : Set T) : Prop where
  dwf : distances.WF
  dom : ∀ v, g.HasVertex v = true → (distances.find? v).isSome = true
  vwf : visited.WF
  vvert : ∀ v, visited.Contains v = true → g.HasVertex v = true
  dstart : ShortestPath.distOf distances start = 0
  real : ∀ v (c : R), ShortestPath.distOf distances v = (c : WithTop R) →
    ∃ p, g.Walk start p v c
  vfin : ∀ v, visited.Contains v = true → ShortestPath.distOf distances v ≠ ⊤
  relaxed : ∀ u v w, visited.Contains u = true → g.GetEdgeWeight u v = .ok w →
    ShortestPath.distOf distances v ≤ ShortestPath.distOf distances u + (w : WithTop R)
  mono : ∀ u v, visited.Contains u = true → g.HasVertex v = true →
    visited.Contains v = false →
    ShortestPath.distOf distances u ≤ ShortestPath.distOf distances v

/-- A check of all weights: `p w` holds for the weight `w` of every edge `u -> v` with
`u` in `GetAllVertices()` and `v` in `GetAdjacentVertices(u)`. -/
def GraphBase.allWeights {T R : Type} (g : GraphBase T R) (p : R → Bool) : Bool :=
  g.GetAllVertices.all fun u =>
    match g.GetAdjacentVertices u with
    | .ok adj => adj.all fun v =>
        match g.GetEdgeWeight u v with
        | .ok w => p w
        | .error _ => true
    | .error _ => true

/-- The entries of a map of distances as a list of pairs. -/
def ShortestPath.toList {T R : Type} (distances : Dictionary T (WithTop R)) :
    List (T × WithTop R) :=
  distances.entries.map fun pair => (pair.getKey, pair.getValue)

/-- The sequence that the loop which walks the predecessors builds from `v`:
`PrevChain previous start v p` says that `p` begins with `start`, ends with `v`, and each
element after the first has its predecessor in `previous` right before it. -/
inductive ShortestPath.PrevChain {T : Type} [LinearOrder T] [Inhabited T]
    (previous : Dictionary T T) (start : T) : T → List T → Prop
  | base : ShortestPath.PrevChain previous start start [start]
  | link {v u : T} {p : List T} : v ≠ start → previous.find? v = some u →
      ShortestPath.PrevChain previous start u p →
      ShortestPath.PrevChain previous start v (p ++ [v])

/-- The invariant of the main loop of `DijkstraWithPath`: the invariant of `Dijkstra`,
`endVertex` is not visited, every vertex with a finite distance other than the start
has a visited predecessor through which its distance is reached, and the predecessors
of a visited vertex lead back to the start along a path of visited vertices whose
weight is the stored distance. -/
structure ShortestPath.PathInv {T R : Type} [LinearOrder T] [Inhabited T]
    [LinearOrderedRing R] (g : GraphBase T R) (start endVertex : T)
    (s : ShortestPath.PathState T R) : Prop where
  dijk : ShortestPath.DijkInv g start s.distances s.visited
  pwf : s.previous.WF
  endFresh : s.visited.Contains endVertex = false
  pred : ∀ v, ShortestPath.distOf s.distances v ≠ ⊤ → v ≠ start →
    ∃ u w, s.previous.find? v = some u ∧ s.visited.Contains u = true ∧
      g.GetEdgeWeight u v = .ok w ∧
      ShortestPath.distOf s.distances v = ShortestPath.distOf s.distances u + (w : WithTop R)
  chain : ∀ u, s.visited.Contains u = true →
    ∃ p c, ShortestPath.PrevChain s.previous start u p ∧ g.Walk start p u c ∧
      ShortestPath.distOf s.distances u = (c : WithTop R) ∧ p.Nodup ∧
      ∀ x, x ∈ p → s.visited.Contains x = true

/-- The invariant of `BellmanFord`: a stored distance that is finite is the weight of a
path from the start, and the start is at `0` or below. -/
structure ShortestPath.BfInv {T R : Type} [LinearOrder T] [LinearOrderedRing R]
    (g : GraphBase T R) (start : T) (distances : Dictionary T (WithTop R)) : Prop where
  dwf : distances.WF
  dom : ∀ v, g.HasVertex v = true → (distances.find? v).isSome = true
  real : ∀ v (c : R), ShortestPath.distOf distances v = (c : WithTop R) →
    ∃ p, g.Walk start p v c
  start_le : ShortestPath.distOf distances start ≤ 0

/-- No edge can be relaxed: the test of the check for negative cycles fails on every
edge. -/
def ShortestPath.Relaxed {T R : Type} [LinearOrder T] [LinearOrderedRing R]
    (g : GraphBase T R) (distances : Dictionary T (WithTop R)) : Prop :=
  ∀ u v w, g.GetEdgeWeight u v = .ok w →
    ShortestPath.distOf distances v ≤ ShortestPath.distOf distances u + (w : WithTop R)

/-- The stored distances are lower bounds for the weights of the paths from the start
with at most `k` edges. -/
def ShortestPath.BoundedBy {T R : Type} [LinearOrder T] [LinearOrderedRing R]
    (g : GraphBase T R) (start : T) (distances : Dictionary T (WithTop R)) (k : Nat) : Prop :=
  ∀ p v c, g.Walk start p v c → p.length ≤ k + 1 →
    ShortestPath.distOf distances v ≤ (c : WithTop R)

/-- The invariant of the `while` loop of `BFSShortestPath`; `done` is the sequence of
the vertices taken from the queue so far.  The vertices with a finite distance are
those of `done` and of the queue, the queue is sorted by distance, no finite distance
exceeds the distance of the head of the queue by more than one, and the edges that leave
`done` lead to vertices at most one step farther. -/
structure ShortestPath.BfsDistInv {T R : Type} [LinearOrder T] [LinearOrderedRing R]
    (g : GraphBase T R) (start : T) (distances : Dictionary T (WithTop R))
    (queue : Queue T) (done : List T) : Prop where
  inv : ShortestPath.BfInv g start distances
  nodup : (done ++ queue.list).Nodup
  vert : ∀ v, v ∈ done ++ queue.list → g.HasVertex v = true
  fin_iff : ∀ v, ShortestPath.distOf distances v ≠ ⊤ ↔ v ∈ done ++ queue.list
  sorted : queue.list.Pairwise
    (fun a b => ShortestPath.distOf distances a ≤ ShortestPath.distOf distances b)
  spread : ∀ c, c ∈ queue.list.head? → ∀ v, ShortestPath.distOf distances v ≠ ⊤ →
    ShortestPath.distOf distances v ≤ ShortestPath.distOf distances c + 1
  done_rel : ∀ u, u ∈ done → ∀ v w, g.GetEdgeWeight u v = .ok w →
    ShortestPath.distOf distances v ≤ ShortestPath.distOf distances u + 1

/-- The hop count from `s` to `v`: `d` is the least number of edges of a path from `s`
to `v`, and `⊤` when there is no path. -/
def GraphBase.IsHopCount {T R : Type} [LinearOrderedRing R] (g : GraphBase T R) (s v : T)
    (d : WithTop R) : Prop :=
  (∀ p c, g.Walk s p v c → d ≤ (((p.length - 1 : Nat) : R) : WithTop R)) ∧
  (d ≠ ⊤ → ∃ p c, g.Walk s p v c ∧ d = (((p.length - 1 : Nat) : R) : WithTop R))

/-! ## ConnectedComponents.h: the depth-first search -/

namespace ConnectedComponents

variable {T W : Type} [LinearOrder T]

/-- The state of `DFSComponent` in its `while` loop. -/
structure DfsCompState (T : Type) where
  stack : Stack T
  visited : Set T
  component : List T

/-- The body of the loop over the neighbours of `current` in `DFSComponent`. -/
def dfsPush (visited : Set T) (stack : Stack T) (neighbor : T) : Stack T :=
  if !visited.Contains neighbor then stack.Push neighbor else stack

/-- The `while (!stack.IsEmpty())` loop of `DFSComponent`. -/
def dfsCompLoop (graph : GraphBase T W) : Nat → DfsCompState T → Except Error (DfsCompState T)
  | 0, _ => .error .outOfFuel
  | fuel + 1, s =>
    if s.stack.IsEmpty then .ok s
    else
      match s.stack.Pop with
      | .error e => .error e
      | .ok (current, stack) =>
        if s.visited.Contains current then
          dfsCompLoop graph fuel { s with stack := stack }
        else
          let visited := s.visited.Add current
          match graph.GetAdjacentVertices current with
          | .error e => .error e
          | .ok adj =>
            dfsCompLoop graph fuel
              { stack := adj.foldl (dfsPush visited) stack
                visited := visited
                component := s.component ++ [current] }

/-- Embeds `ConnectedComponents::DFSComponent`: the new `visited` and `component`.  A
vertex is pushed at most once for each edge that enters it, so a budget of
`(|V| + 1)^2 + 1` rounds suffices. -/
def DFSComponent (graph : GraphBase T W) (vertex : T) (visited : Set T)
    (component : List T) : Except Error (Set T × List T) :=
  match dfsCompLoop graph
      ((graph.GetAllVertices.length + 1) * (graph.GetAllVertices.length + 1) + 1)
      { stack := Stack.empty.Push vertex
        visited := visited
        component := component } with
  | .error e => .error e
  | .ok s => .ok (s.visited, s.component)

/-- The body of the loop over all vertices in `FindComponentsDFS`. -/
def componentFromDFS (graph : GraphBase T W) (s : Set T × List (List T)) (vertex : T) :
    Except Error (Set T × List (List T)) :=
  if !s.1.Contains vertex then
    match DFSComponent graph vertex s.1 [] with
    | .error e => .error e
    | .ok (visited, component) => .ok (visited, s.2 ++ [component])
  else .ok s

/-- Embeds `ConnectedComponents::FindComponentsDFS`. -/
def FindComponentsDFS (graph : GraphBase T W) : Except Error (List (List T)) :=
  match foldlE (componentFromDFS graph) (Set.empty, []) graph.GetAllVertices with
  | .error e => .error e
  | .ok s => .ok s.2

end ConnectedComponents

/-- The invariant of the `while` loop of `DFSComponent`, started at `start` with the set
`visited0` and an empty component. -/
structure ConnectedComponents.DfsCompInv {T W : Type} [LinearOrder T] (g : GraphBase T W)
    (start : T) (visited0 : Set T) (s : ConnectedComponents.DfsCompState T) : Prop where
  wf : s.visited.WF
  visited_iff : ∀ x, s.visited.Contains x = true ↔
    (visited0.Contains x = true ∨ x ∈ s.component)
  nodup : s.component.Nodup
  fresh : ∀ x, x ∈ s.component →
    g.Connected start x ∧ visited0.Contains x = false ∧ g.HasVertex x = true
  stacked : ∀ x, x ∈ s.stack.list → g.Connected start x ∧ g.HasVertex x = true
  closed : ∀ x, x ∈ s.component → ∀ y, g.HasEdge x y = true →
    s.visited.Contains y = true ∨ y ∈ s.stack.list
  start_mem : start ∈ s.component ∨ start ∈ s.stack.list

/-- The number of vertices that are not in `visited`. -/
def ConnectedComponents.unvisited {T W : Type} [LinearOrder T] (g : GraphBase T W)
    (visited : Set T) : Nat :=
  (g.GetAllVertices.filter (fun v => !visited.Contains v)).length

/-! ## PartialOrder.h

A loop that leaves a function with `return false`, or that clears a flag and leaves
with `break`, is a check of all elements that stops at the first failure. -/

/-- A loop over a sequence that stops with `false` at the first element whose check
fails and gives `true` after the last element; a check may throw. -/
def allE {α : Type} (check : α → Except Error Bool) : List α → Except Error Bool
  | [] => .ok true
  | x :: xs =>
    match check x with
    | .error e => .error e
    | .ok false => .ok false
    | .ok true => allE check xs

/-- A loop over a sequence that stops with `true` at the first element whose check
holds and gives `false` after the last element; a check may throw. -/
def anyE {α : Type} (check : α → Except Error Bool) : List α → Except Error Bool
  | [] => .ok false
  | x :: xs =>
    match check x with
    | .error e => .error e
    | .ok true => .ok true
    | .ok false => anyE check xs

/-- The operator `a && b` on calls that may throw: `b` counts only when `a` is true. -/
def andE (a b : Except Error Bool) : Except Error Bool :=
  match a with
  | .error e => .error e
  | .ok false => .ok false
  | .ok true => b

namespace PartialOrder

variable {T W : Type} [LinearOrder T]

/-- Embeds `PartialOrder::CheckAntisymmetry`. -/
def CheckAntisymmetry (graph : GraphBase T W) : Except Error Bool :=
  allE (fun u =>
    match graph.GetAdjacentVertices u with
    | .error e => .error e
    | .ok adj => .ok (adj.all fun v => !graph.HasEdge v u)) graph.GetAllVertices

/-- The body of the loop over the neighbours of `current` in `GetReachableVertices`. -/
def reachVisit (s : Set T × Queue T) (neighbor : T) : Set T × Queue T :=
  if !s.1.Contains neighbor then (s.1.Add neighbor, s.2.Enqueue neighbor) else s

/-- The `while (!queue.IsEmpty())` loop of `GetReachableVertices`. -/
def reachLoop (graph : GraphBase T W) : Nat → Set T × Queue T → Except Error (Set T)
  | 0, _ => .error .outOfFuel
  | fuel + 1, (reachable, queue) =>
    if queue.IsEmpty then .ok reachable
    else
      match queue.Dequeue with
      | .error e => .error e
      | .ok (current, queue) =>
        match graph.GetAdjacentVertices current with
        | .error e => .error e
        | .ok adj => reachLoop graph fuel (adj.foldl reachVisit (reachable, queue))

/-- Embeds `PartialOrder::GetReachableVertices`. -/
def GetReachableVertices (graph : GraphBase T W) (start : T) : Except Error (Set T) :=
  if !graph.HasVertex start then .ok Set.empty
  else
    reachLoop graph (graph.GetAllVertices.length + 1)
      (Set.empty.Add start, Queue.empty.Enqueue start)

/-- Embeds `PartialOrder::IsLessOrEqual`. -/
def IsLessOrEqual (partialOrder : GraphBase T W) (a b : T) : Except Error Bool :=
  if a = b then .ok true
  else
    match GetReachableVertices partialOrder a with
    | .error e => .error e
    | .ok reachable => .ok (reachable.Contains b)

/-- The flag `isMaximal` of `FindMaximalElementsInSubset` after the loop over `other`. -/
def isMaximalIn (partialOrder : GraphBase T W) (subset : List T) (candidate : T) :
    Except Error Bool :=
  allE (fun other =>
    if candidate ≠ other then
      (andE (IsLessOrEqual partialOrder candidate other)
        ((IsLessOrEqual partialOrder other candidate).map (fun b => !b))).map (fun b => !b)
    else .ok true) subset

/-- The flag `alreadyAdded` of `FindMaximalElementsInSubset` and of
`FindMinimalElementsInSubset` after the loop over `result`; the test is the same in
both. -/
def alreadyAdded (partialOrder : GraphBase T W) (result : List T) (candidate : T) :
    Except Error Bool :=
  anyE (fun r =>
    andE (IsLessOrEqual partialOrder r candidate) (IsLessOrEqual partialOrder candidate r))
    result

/-- The body of the loop over `candidate` in `FindMaximalElementsInSubset`. -/
def maximalStep (partialOrder : GraphBase T W) (subset : List T) (result : List T)
    (candidate : T) : Except Error (List T) :=
  match isMaximalIn partialOrder subset candidate with
  | .error e => .error e
  | .ok false => .ok result
  | .ok true =>
    match alreadyAdded partialOrder result candidate with
    | .error e => .error e
    | .ok true => .ok result
    | .ok false => .ok (result ++ [candidate])

/-- Embeds `PartialOrder::FindMaximalElementsInSubset`. -/
def FindMaximalElementsInSubset (partialOrder : GraphBase T W) (subset : List T) :
    Except Error (List T) :=
  foldlE (maximalStep partialOrder subset) [] subset

/-- The flag `isMinimal` of `FindMinimalElementsInSubset` after the loop over `other`. -/
def isMinimalIn (partialOrder : GraphBase T W) (subset : List T) (candidate : T) :
    Except Error Bool :=
  allE (fun other =>
    if candidate ≠ other then
      (andE (IsLessOrEqual partialOrder other candidate)
        ((IsLessOrEqual partialOrder candidate other).map (fun b => !b))).map (fun b => !b)
    else .ok true) subset

/-- The body of the loop over `candidate` in `FindMinimalElementsInSubset`.  The source
line `alreadyAdded = true;` is followed by a stray letter; the model reads the line
without it, as the same line of `FindMaximalElementsInSubset`. -/
def minimalStep (partialOrder : GraphBase T W) (subset : List T) (result : List T)
    (candidate : T) : Except Error (List T) :=
  match isMinimalIn partialOrder subset candidate with
  | .error e => .error e
  | .ok false => .ok result
  | .ok true =>
    match alreadyAdded partialOrder result candidate with
    | .error e => .error e
    | .ok true => .ok result
    | .ok false => .ok (result ++ [candidate])

/-- Embeds `PartialOrder::FindMinimalElementsInSubset`. -/
def FindMinimalElementsInSubset (partialOrder : GraphBase T W) (subset : List T) :
    Except Error (List T) :=
  foldlE (minimalStep partialOrder subset) [] subset

/-- Embeds `PartialOrder::IsPartialOrder`.  Every exception that the embedded `KahnSort`
can throw is a `std::runtime_error` in the source, so the `catch` clause catches each
of them; an exception of `CheckAntisymmetry` would leave the function. -/
def IsPartialOrder (graph : GraphBase T W) : Except Error Bool :=
  match CheckAntisymmetry graph with
  | .error e => .error e
  | .ok false => .ok false
  | .ok true =>
    match TopologicalSort.KahnSort graph with
    | .ok _ => .ok true
    | .error _ => .ok false

/-- The flag `isCovering` of `BuildHasseDiagram` after the loop over `k`, for the
positions `i`, `j` and the vertices `u`, `v` at these positions. -/
def hasseCovers (partialOrder : GraphBase T W) (vertices : List T) (i j : Nat) (u v : T) :
    Bool :=
  vertices.enum.all fun kw =>
    kw.1 == i || kw.1 == j || !(partialOrder.HasEdge u kw.2 && partialOrder.HasEdge kw.2 v)

/-- The body of the loop over `j` in `BuildHasseDiagram`; `AddEdge(u, v)` stores the
default weight `1.0`. -/
def hasseEdge [Inhabited W] [One W] (partialOrder : GraphBase T W) (vertices : List T)
    (iu : Nat × T) (hasse : DirectedGraph T W) (jv : Nat × T) :
    Except Error (DirectedGraph T W) :=
  if iu.1 = jv.1 then .ok hasse
  else if partialOrder.HasEdge iu.2 jv.2 then
    if hasseCovers partialOrder vertices iu.1 jv.1 iu.2 jv.2 then hasse.AddEdge iu.2 jv.2 1
    else .ok hasse
  else .ok hasse

/-- The body of the loop over `i` in `BuildHasseDiagram`. -/
def hasseRow [Inhabited W] [One W] (partialOrder : GraphBase T W) (vertices : List T)
    (hasse : DirectedGraph T W) (iu : Nat × T) : Except Error (DirectedGraph T W) :=
  foldlE (hasseEdge partialOrder vertices iu) hasse vertices.enum

/-- Embeds `PartialOrder::BuildHasseDiagram`. -/
def BuildHasseDiagram [Inhabited W] [One W] (partialOrder : GraphBase T W) :
    Except Error (DirectedGraph T W) :=
  match IsPartialOrder partialOrder with
  | .error e => .error e
  | .ok false => .error .notPartialOrder
  | .ok true =>
    let vertices := partialOrder.GetAllVertices
    let hasse := vertices.foldl DirectedGraph.AddVertex DirectedGraph.empty
    foldlE (hasseRow partialOrder vertices) hasse vertices.enum

/-- The body of the loop over `vertex` in `FindMinimalElements`. -/
def minimalCandidate (partialOrder : GraphBase T W) (vertices : List T) (minimal : List T)
    (vertex : T) : List T :=
  if vertices.all (fun other => !(decide (other ≠ vertex) && partialOrder.HasEdge other vertex))
  then minimal ++ [vertex] else minimal

/-- Embeds `PartialOrder::FindMinimalElements`. -/
def FindMinimalElements (partialOrder : GraphBase T W) : Except Error (List T) :=
  match IsPartialOrder partialOrder with
  | .error e => .error e
  | .ok false => .error .notPartialOrder
  | .ok true =>
    let vertices := partialOrder.GetAllVertices
    .ok (vertices.foldl (minimalCandidate partialOrder vertices) [])

/-- The body of the loop over `vertex` in `FindMaximalElements`. -/
def maximalCandidate (partialOrder : GraphBase T W) (vertices : List T) (maximal : List T)
    (vertex : T) : List T :=
  if vertices.all (fun other => !(decide (other ≠ vertex) && partialOrder.HasEdge vertex other))
  then maximal ++ [vertex] else maximal

/-- Embeds `PartialOrder::FindMaximalElements`. -/
def FindMaximalElements (partialOrder : GraphBase T W) : Except Error (List T) :=
  match IsPartialOrder partialOrder with
  | .error e => .error e
  | .ok false => .error .notPartialOrder
  | .ok true =>
    let vertices := partialOrder.GetAllVertices
    .ok (vertices.foldl (maximalCandidate partialOrder vertices) [])

/-- Embeds `PartialOrder::FindLeastElement`. -/
def FindLeastElement (partialOrder : GraphBase T W) : Except Error T :=
  match FindMinimalElements partialOrder with
  | .error e => .error e
  | .ok minimal =>
    if minimal.length ≠ 1 then .error .noUniqueElement else arrGet minimal 0

/-- The body of the loop that collects the common lower bounds in `FindInfimum`. -/
def lowerBoundStep (partialOrder : GraphBase T W) (a b : T) (allLowerBounds : List T)
    (candidate : T) : Except Error (List T) :=
  match andE (IsLessOrEqual partialOrder candidate a)
      (IsLessOrEqual partialOrder candidate b) with
  | .error e => .error e
  | .ok true => .ok (allLowerBounds ++ [candidate])
  | .ok false => .ok allLowerBounds

/-- Embeds `PartialOrder::FindInfimum`. -/
def FindInfimum (partialOrder : GraphBase T W) (a b : T) : Except Error (List T) :=
  if !partialOrder.HasVertex a || !partialOrder.HasVertex b then .error .elementNotFound
  else if a = b then .ok [a]
  else
    match foldlE (lowerBoundStep partialOrder a b) [] partialOrder.GetAllVertices with
    | .error e => .error e
    | .ok allLowerBounds =>
      if allLowerBounds.length = 0 then .ok allLowerBounds
      else FindMaximalElementsInSubset partialOrder allLowerBounds

/-- The body of the loop that collects the common upper bounds in `FindSupremum`. -/
def upperBoundStep (partialOrder : GraphBase T W) (a b : T) (allUpperBounds : List T)
    (candidate : T) : Except Error (List T) :=
  match andE (IsLessOrEqual partialOrder a candidate)
      (IsLessOrEqual partialOrder b candidate) with
  | .error e => .error e
  | .ok true => .ok (allUpperBounds ++ [candidate])
  | .ok false => .ok allUpperBounds

/-- Embeds `PartialOrder::FindSupremum`. -/
def FindSupremum (partialOrder : GraphBase T W) (a b : T) : Except Error (List T) :=
  if !partialOrder.HasVertex a || !partialOrder.HasVertex b then .error .elementNotFound
  else if a = b then .ok [a]
  else
    match foldlE (upperBoundStep partialOrder a b) [] partialOrder.GetAllVertices with
    | .error e => .error e
    | .ok allUpperBounds =>
      if allUpperBounds.length = 0 then .ok allUpperBounds
      else FindMinimalElementsInSubset partialOrder allUpperBounds

/-- The body of the loop over `j` in `IsLattice`: false when the function returns
`false` at the pair `a`, `b`. -/
def latticePair (partialOrder : GraphBase T W) (a b : T) : Except Error Bool :=
  match FindInfimum partialOrder a b with
  | .error e => .error e
  | .ok inf =>
    match FindSupremum partialOrder a b with
    | .error e => .error e
    | .ok sup =>
      let hasSingleInf := decide (inf.length = 1)
      let hasSingleSup := decide (sup.length = 1)
      .ok (!(!hasSingleInf || !hasSingleSup))

/-- The loops over `i` and over `j > i` in `IsLattice`, on the vertices from position
`i` on. -/
def latticeRows (partialOrder : GraphBase T W) : List T → Except Error Bool
  | [] => .ok true
  | a :: rest =>
    match allE (latticePair partialOrder a) rest with
    | .error e => .error e
    | .ok false => .ok false
    | .ok true => latticeRows partialOrder rest

/-- Embeds `PartialOrder::IsLattice`. -/
def IsLattice (partialOrder : GraphBase T W) : Except Error Bool :=
  match IsPartialOrder partialOrder with
  | .error e => .error e
  | .ok false => .ok false
  | .ok true => latticeRows partialOrder partialOrder.GetAllVertices

/-- The body of the loop over `vertex` in the `while` loop of `GetLevels`; the set of
reachable vertices is computed and not used. -/
def levelCandidate (partialOrder : GraphBase T W) (vertices : List T) (placedVertices : Set T)
    (nextLevel : List T) (vertex : T) : Except Error (List T) :=
  if placedVertices.Contains vertex then .ok nextLevel
  else
    match GetReachableVertices partialOrder vertex with
    | .error e => .error e
    | .ok _ =>
      if vertices.all (fun other =>
          !(decide (other ≠ vertex) && partialOrder.HasEdge other vertex) ||
            placedVertices.Contains other)
      then .ok (nextLevel ++ [vertex]) else .ok nextLevel

/-- The `while (placedVertices.GetCount() < partialOrder.GetVertexCount())` loop of
`GetLevels`. -/
def levelsLoop (partialOrder : GraphBase T W) (vertices : List T) :
    Nat → Set T × List (List T) → Except Error (List (List T))
  | 0, _ => .error .outOfFuel
  | fuel + 1, (placedVertices, levels) =>
    if placedVertices.GetCount < partialOrder.GetVertexCount then
      match foldlE (levelCandidate partialOrder vertices placedVertices) [] vertices with
      | .error e => .error e
      | .ok nextLevel =>
        levelsLoop partialOrder vertices fuel
          (nextLevel.foldl Set.Add placedVertices, levels ++ [nextLevel])
    else .ok levels

/-- Embeds `PartialOrder::GetLevels`. -/
def GetLevels (partialOrder : GraphBase T W) : Except Error (List (List T)) :=
  match IsPartialOrder partialOrder with
  | .error e => .error e
  | .ok false => .error .notPartialOrder
  | .ok true =>
    let vertices := partialOrder.GetAllVertices
    match FindMinimalElements partialOrder with
    | .error e => .error e
    | .ok minimal =>
      levelsLoop partialOrder vertices (vertices.length + 1)
        (minimal.foldl Set.Add Set.empty, [minimal])

end PartialOrder

/-! ## Notions used to state the properties of `PartialOrder` -/

/-- The vertex `m` is a greatest common lower bound of `a` and `b` in the order
`x <= y` iff `x = y` or `y` is reached from `x`. -/
def GraphBase.IsInfimum {T W : Type} (g : GraphBase T W) (a b m : T) : Prop :=
  g.Connected m a ∧ g.Connected m b ∧ ∀ y, g.Connected y a → g.Connected y b → g.Connected y m

/-- The vertex `m` is a least common upper bound of `a` and `b` in the order `x <= y`
iff `x = y` or `y` is reached from `x`. -/
def GraphBase.IsSupremum {T W : Type} (g : GraphBase T W) (a b m : T) : Prop :=
  g.Connected a m ∧ g.Connected b m ∧ ∀ y, g.Connected a y → g.Connected b y → g.Connected m y
/-- The vertex `x` is a minimal element: no other vertex reaches it. -/
def GraphBase.IsMinimal {T W : Type} (g : GraphBase T W) (x : T) : Prop :=
  g.HasVertex x = true ∧ ∀ u, u ≠ x → ¬ g.Reaches u x

/-- The vertex `x` is a maximal element: it reaches no other vertex. -/
def GraphBase.IsMaximal {T W : Type} (g : GraphBase T W) (x : T) : Prop :=
  g.HasVertex x = true ∧ ∀ u, u ≠ x → ¬ g.Reaches x u
/-- The vertex `x` is a maximal common lower bound of `a` and `b`: it lies below both,
and below no other common lower bound. -/
def GraphBase.IsMaximalLowerBound {T W : Type} (g : GraphBase T W) (a b x : T) : Prop :=
  g.Connected x a ∧ g.Connected x b ∧
    ∀ y, y ≠ x → g.Connected y a → g.Connected y b → ¬ g.Connected x y

/-- The vertex `x` is a minimal common upper bound of `a` and `b`: it lies above both,
and above no other common upper bound. -/
def GraphBase.IsMinimalUpperBound {T W : Type} (g : GraphBase T W) (a b x : T) : Prop :=
  g.Connected a x ∧ g.Connected b x ∧
    ∀ y, y ≠ x → g.Connected a y → g.Connected b y → ¬ g.Connected y x

/-- The test of `BuildHasseDiagram` at the positions `i`, `j` with the vertices `u`, `v`:
the positions differ, `HasEdge(u, v)` holds and the flag `isCovering` stays set, so that
`AddEdge(u, v)` is called. -/
def PartialOrder.hasseKeeps {T W : Type} [LinearOrder T] (partialOrder : GraphBase T W)
    (vertices : List T) (iu jv : Nat × T) : Bool :=
  decide (iu.1 ≠ jv.1) && partialOrder.HasEdge iu.2 jv.2 &&
    PartialOrder.hasseCovers partialOrder vertices iu.1 jv.1 iu.2 jv.2

/-! ## DirectedGraph.h: the textual snapshot

A stream is modelled as the sequence of the values written to it, separated by white
space in the text.  A value is read back as the value that was written; how a vertex
or a number is printed and parsed is outside the model. -/

/-- A value in a stream: the type tag, a counter, a vertex or a weight. -/
inductive Token (T W : Type) where
  | word (text : String)
  | int (n : Int)
  | vertex (v : T)
  | weight (w : W)
  deriving DecidableEq, Repr

namespace DirectedGraph

variable {T W : Type} [LinearOrder T] [Inhabited W]

/-- The callback of the second `vertices.ForEach` in `SerializeToStream`: the lines
`from to weight` of the entries of `adjMatrix[from]`. -/
def serializeEdges (g : DirectedGraph T W) (os : List (Token T W)) (vFrom : T) :
    Except Error (List (Token T W)) :=
  if g.adjMatrix.ContainsKey vFrom then
    match g.adjMatrix.Get vFrom with
    | .error e => .error e
    | .ok dict =>
      .ok (dict.ForEach
        (fun os vTo weight => os ++ [Token.vertex vFrom, Token.vertex vTo, Token.weight weight])
        os)
  else .ok os

/-- Embeds `DirectedGraph::SerializeToStream`: the values written to the stream. -/
def SerializeToStream (g : DirectedGraph T W) : Except Error (List (Token T W)) :=
  let os : List (Token T W) := [Token.word "D", Token.int g.vertexCount, Token.int g.edgeCount]
  let os := g.vertices.ForEach (fun os vertex => os ++ [Token.vertex vertex]) os
  g.vertices.ForEachE (serializeEdges g) os

/-- The loop `for (int i = 0; i < vCount; i++)` of `DeserializeFromStream`, with the
number of rounds that remain: the graph and the rest of the stream. -/
def readVertices : Nat → List (Token T W) → DirectedGraph T W →
    Except Error (DirectedGraph T W × List (Token T W))
  | 0, is, graph => .ok (graph, is)
  | n + 1, Token.vertex vertex :: is, graph => readVertices n is (graph.AddVertex vertex)
  | _ + 1, _, _ => .error .malformedRecord

/-- The loop `for (int i = 0; i < eCount; i++)` of `DeserializeFromStream`, with the
number of rounds that remain. -/
def readEdges : Nat → List (Token T W) → DirectedGraph T W → Except Error (DirectedGraph T W)
  | 0, _, graph => .ok graph
  | n + 1, Token.vertex vFrom :: Token.vertex vTo :: Token.weight weight :: is, graph =>
    match graph.AddEdge vFrom vTo weight with
    | .error e => .error e
    | .ok graph => readEdges n is graph
  | _ + 1, _, _ => .error .malformedRecord

/-- Embeds `DirectedGraph::DeserializeFromStream`. -/
def DeserializeFromStream (is : List (Token T W)) : Except Error (DirectedGraph T W) :=
  match is with
  | Token.word type :: Token.int vCount :: Token.int eCount :: is =>
    if type ≠ "D" then .error .invalidFormat
    else
      match readVertices vCount.toNat is DirectedGraph.empty with
      | .error e => .error e
      | .ok (graph, is) => readEdges eCount.toNat is graph
  | _ => .error .invalidFormat

/-- The text of `SerializeToStream` read by `DeserializeFromStream`. -/
def roundTrip (g : DirectedGraph T W) : Except Error (DirectedGraph T W) :=
  match g.SerializeToStream with
  | .error e => .error e
  | .ok os => DeserializeFromStream os

end DirectedGraph
/-- The adjacency entries `(from, to, weight)` of `adjMatrix[from]`, in the order of the
keys. -/
def DirectedGraph.entriesOf {T W : Type} [LinearOrder T] [Inhabited W]
    (g : DirectedGraph T W) (vFrom : T) : List (T × T × W) :=
  match g.adjMatrix.find? vFrom with
  | some dict => dict.entries.map fun pair => (vFrom, pair.getKey, pair.getValue)
  | none => []

/-- The adjacency entries `(from, to, weight)` of the vertices, in the order in which
`SerializeToStream` writes them. -/
def DirectedGraph.storedEntries {T W : Type} [LinearOrder T] [Inhabited W]
    (g : DirectedGraph T W) : List (T × T × W) :=
  g.vertices.elems.flatMap g.entriesOf

/-- The values that `SerializeToStream` writes for one adjacency entry. -/
def DirectedGraph.edgeLine {T W : Type} (entry : T × T × W) : List (Token T W) :=
  [Token.vertex entry.1, Token.vertex entry.2.1, Token.weight entry.2.2]

/-- The invariants that a directed graph keeps under all its mutators, `RemoveVertex`
included: those of the data model except that an adjacency entry may point to a removed
vertex and that `edgeCount` may differ from the number of entries (C1, C2). -/
structure DirectedGraph.WeakInv {T W : Type} [LinearOrder T] [Inhabited W]
    (g : DirectedGraph T W) : Prop where
  vs_wf : g.vertices.WF
  adj_wf : g.adjMatrix.WF
  inner_wf : ∀ x d, g.adjMatrix.find? x = some d → d.WF
  keys_eq : ∀ x, (g.adjMatrix.find? x).isSome = g.vertices.Contains x
  vcount : g.vertexCount = (g.vertices.toFinset.card : Int)
  cache : g.CacheOk

/-- A directed graph that a sequence of calls of the mutators builds from the empty
graph. -/
def DirectedGraph.IsReachable {T W : Type} [LinearOrder T] [Inhabited W]
    (g : DirectedGraph T W) : Prop :=
  ∃ ops : List (GraphOp T W), DirectedGraph.run DirectedGraph.empty ops = .ok g

/-! ## Further queries of the graph classes -/

/-- Embeds `DirectedGraph::GetIncomingVertices`: the callback of `vertices.ForEach`
appends `v` when `v != vertex && HasEdge(v, vertex)`. -/
def DirectedGraph.GetIncomingVertices {T W : Type} [LinearOrder T] [Inhabited W]
    (g : DirectedGraph T W) (vertex : T) : Except Error (List T) :=
  if !g.HasVertex vertex then .error .vertexNotFound
  else
    .ok (g.vertices.ForEach
      (fun result v => if v ≠ vertex ∧ g.HasEdge v vertex = true then result ++ [v] else result)
      [])

namespace TopologicalSort

variable {T W : Type} [LinearOrder T]

/-- The body of the loop over `i` in `FindSources`: the loop over `j` clears `isSource`
at the first `other != vertex` with `HasEdge(other, vertex)`. -/
def sourceCandidate (graph : GraphBase T W) (vertices : List T) (result : List T)
    (vertex : T) : List T :=
  if vertices.all (fun other => !(decide (other ≠ vertex) && graph.HasEdge other vertex))
  then result ++ [vertex] else result

/-- Embeds `TopologicalSort::FindSources`. -/
def FindSources (graph : GraphBase T W) : List T :=
  let vertices := graph.GetAllVertices
  vertices.foldl (sourceCandidate graph vertices) []

/-- The body of the loop in `FindSinks`. -/
def sinkCandidate (graph : GraphBase T W) (result : List T) (vertex : T) :
    Except Error (List T) :=
  match graph.GetAdjacentVertices vertex with
  | .error e => .error e
  | .ok adj => if adj.length = 0 then .ok (result ++ [vertex]) else .ok result

/-- Embeds `TopologicalSort::FindSinks`. -/
def FindSinks (graph : GraphBase T W) : Except Error (List T) :=
  foldlE (sinkCandidate graph) [] graph.GetAllVertices

end TopologicalSort

/-! ## Objects in a program: mutators, `GetAllVertices` and assignment in any order -/

/-- Embeds `DirectedGraph::operator=` for `this != &other`: `Clear()`, the copies of the
four data members, `invalidateCache()`.  The containers are copied node by node
(`BinaryTree::copyTree`), so the copy is the same value. -/
def DirectedGraph.assign {T W : Type} [LinearOrder T] [Inhabited W]
    (g other : DirectedGraph T W) : DirectedGraph T W :=
  let g1 := g.Clear
  DirectedGraph.invalidateCache
    { g1 with
      vertices := other.vertices
      adjMatrix := other.adjMatrix
      vertexCount := other.vertexCount
      edgeCount := other.edgeCount }

/-- Embeds `UndirectedGraph::operator=` for `this != &other`. -/
def UndirectedGraph.assign {T W : Type} [LinearOrder T] [Inhabited W]
    (g other : UndirectedGraph T W) : UndirectedGraph T W :=
  let g1 := g.Clear
  UndirectedGraph.invalidateCache
    { g1 with
      vertices := other.vertices
      adjMatrix := other.adjMatrix
      vertexCount := other.vertexCount
      edgeCount := other.edgeCount }

/-- The states of a `DirectedGraph` object in a program that calls the mutators,
`GetAllVertices` (which fills the cache of the object) and the assignment operator in
any order, on objects that start empty.  A call that throws leaves the object as it
was: no constructor is needed for it. -/
inductive DirectedGraph.InSession {T W : Type} [LinearOrder T] [Inhabited W] :
    DirectedGraph T W → Prop
  | init : DirectedGraph.InSession DirectedGraph.empty
  | mutate {g g' : DirectedGraph T W} (op : GraphOp T W) :
      DirectedGraph.InSession g → g.step op = .ok g' → DirectedGraph.InSession g'
  | query {g : DirectedGraph T W} :
      DirectedGraph.InSession g → DirectedGraph.InSession g.GetAllVertices.2
  | assign {g other : DirectedGraph T W} :
      DirectedGraph.InSession g → DirectedGraph.InSession other →
      DirectedGraph.InSession (g.assign other)

/-- The states of an `UndirectedGraph` object in a program that calls the mutators,
`GetAllVertices` and the assignment operator in any order. -/
inductive UndirectedGraph.InSession {T W : Type} [LinearOrder T] [Inhabited W] :
    UndirectedGraph T W → Prop
  | init : UndirectedGraph.InSession UndirectedGraph.empty
  | mutate {g g' : UndirectedGraph T W} (op : GraphOp T W) :
      UndirectedGraph.InSession g → g.step op = .ok g' → UndirectedGraph.InSession g'
  | query {g : UndirectedGraph T W} :
      UndirectedGraph.InSession g → UndirectedGraph.InSession g.GetAllVertices.2
  | assign {g other : UndirectedGraph T W} :
      UndirectedGraph.InSession g → UndirectedGraph.InSession other →
      UndirectedGraph.InSession (g.assign other)

/-- The part of the invariant of the main loop of `DijkstraWithPath` that does not
depend on the sign of the weights: `endVertex` is not visited, every vertex with a
finite distance other than the start has a visited predecessor joined to it by an
edge, and the predecessors of a visited vertex lead back to the start along a path of
visited vertices without repetition. -/
structure ShortestPath.PathInvW {T R : Type} [LinearOrder T] [Inhabited T]
    [LinearOrderedRing R] (g : GraphBase T R) (start endVertex : T)
    (s : ShortestPath.PathState T R) : Prop where
  dwf : s.distances.WF
  dom : ∀ v, g.HasVertex v = true → (s.distances.find? v).isSome = true
  pwf : s.previous.WF
  vwf : s.visited.WF
  vvert : ∀ v, s.visited.Contains v = true → g.HasVertex v = true
  endFresh : s.visited.Contains endVertex = false
  pred : ∀ v, ShortestPath.distOf s.distances v ≠ ⊤ → v ≠ start →
    ∃ u w, s.previous.find? v = some u ∧ s.visited.Contains u = true ∧
      g.GetEdgeWeight u v = .ok w
  chain : ∀ u, s.visited.Contains u = true →
    ∃ p c, ShortestPath.PrevChain s.previous start u p ∧ g.Walk start p u c ∧ p.Nodup ∧
      ∀ x, x ∈ p → s.visited.Contains x = true

/-! ## ShortestPath.h: `ReconstructPath` -/

namespace ShortestPath

variable {T R : Type} [LinearOrder T] [LinearOrderedRing R] [Inhabited R]

/-- The body of the first `for` loop in the `while` loop of `ReconstructPath`, over all
vertices.  The state is the predecessor that was found: after `break` it is `some` and
the remaining rounds do nothing. -/
def findPrevStep (graph : GraphBase T R) (distances : Dictionary T (WithTop R)) (current : T)
    (found : Option T) (candidate : T) : Except Error (Option T) :=
  match found with
  | some prev => .ok (some prev)
  | none =>
    if graph.HasEdge candidate current then
      match graph.GetEdgeWeight candidate current with
      | .error e => .error e
      | .ok edgeWeight =>
        match distances.Get candidate with
        | .error e => .error e
        | .ok candidateDist =>
          match distances.Get current with
          | .error e => .error e
          | .ok currentDist =>
            if candidateDist + (edgeWeight : WithTop R) = currentDist then .ok (some candidate)
            else .ok none
    else .ok none

/-- The body of the second `for` loop in the `while` loop of `ReconstructPath`, over the
neighbours of `current`. -/
def findPrevNeighbor (graph : GraphBase T R) (distances : Dictionary T (WithTop R))
    (current : T) (found : Option T) (neighbor : T) : Except Error (Option T) :=
  match found with
  | some prev => .ok (some prev)
  | none =>
    match graph.GetEdgeWeight neighbor current with
    | .error e => .error e
    | .ok edgeWeight =>
      match distances.Get neighbor with
      | .error e => .error e
      | .ok neighborDist =>
        match distances.Get current with
        | .error e => .error e
        | .ok currentDist =>
          if neighborDist + (edgeWeight : WithTop R) = currentDist then .ok (some neighbor)
          else .ok none

/-- The loop `while (current != startVertex)` of `ReconstructPath`.  The source puts no
bound on the number of rounds; the first argument is the number of rounds that the
model allows, and `outOfFuel` says that the loop has not ended within them. -/
def reconstructPathLoop (graph : GraphBase T R) (startVertex : T)
    (distances : Dictionary T (WithTop R)) : Nat → T → List T → Except Error (List T)
  | 0, _, _ => .error .outOfFuel
  | fuel + 1, current, path =>
    if current = startVertex then .ok path
    else
      match foldlE (findPrevStep graph distances current) none graph.GetAllVertices with
      | .error e => .error e
      | .ok (some prev) => reconstructPathLoop graph startVertex distances fuel prev (prev :: path)
      | .ok none =>
        match graph.GetAdjacentVertices current with
        | .error e => .error e
        | .ok adj =>
          match foldlE (findPrevNeighbor graph distances current) none adj with
          | .error e => .error e
          | .ok (some prev) =>
            reconstructPathLoop graph startVertex distances fuel prev (prev :: path)
          | .ok none => .error .cannotReconstructPath

/-- Embeds `ShortestPath::ReconstructPath`, with the number of rounds allowed to its
`while` loop as first argument. -/
def ReconstructPath (fuel : Nat) (graph : GraphBase T R) (startVertex endVertex : T)
    (distances : Dictionary T (WithTop R)) : Except Error (List T) :=
  if !graph.HasVertex startVertex || !graph.HasVertex endVertex then .error .vertexNotFound
  else
    match distances.Get endVertex with
    | .error e => .error e
    | .ok endDist =>
      if endDist = ⊤ ∨ endDist < 0 then .ok []
      else reconstructPathLoop graph startVertex distances fuel endVertex [endVertex]

/-- The call `ReconstructPath(graph, start, end, distances)` with
`distances = Dijkstra(graph, start)`. -/
def reconstructFromDijkstra (fuel : Nat) (graph : GraphBase T R) (startVertex endVertex : T) :
    Except Error (List T) :=
  match Dijkstra graph startVertex with
  | .error e => .error e
  | .ok distances => ReconstructPath fuel graph startVertex endVertex distances

end ShortestPath

/-! ## UndirectedGraph.h: the textual snapshot -/

namespace UndirectedGraph

variable {T W : Type} [LinearOrder T] [Inhabited W]

/-- The body of the loop over `allVertices` in `SerializeToStream`: of the entries of
`adjMatrix[from]` the callback writes those with `from < to`. -/
def serializeEdges (g : UndirectedGraph T W) (os : List (Token T W)) (vFrom : T) :
    Except Error (List (Token T W)) :=
  if g.adjMatrix.ContainsKey vFrom then
    match g.adjMatrix.Get vFrom with
    | .error e => .error e
    | .ok adjDict =>
      .ok (adjDict.ForEach
        (fun os vTo weight =>
          if vFrom < vTo then os ++ [Token.vertex vFrom, Token.vertex vTo, Token.weight weight]
          else os)
        os)
  else .ok os

/-- Embeds `UndirectedGraph::SerializeToStream`: the values written to the stream.  The
set `savedEdges` of the source is declared and not used. -/
def SerializeToStream (g : UndirectedGraph T W) : Except Error (List (Token T W)) :=
  let os : List (Token T W) := [Token.word "U", Token.int g.vertexCount, Token.int g.edgeCount]
  let os := g.vertices.ForEach (fun os vertex => os ++ [Token.vertex vertex]) os
  let allVertices := g.GetAllVertices.1
  foldlE (serializeEdges g) os allVertices

/-- The loop `for (int i = 0; i < vCount; i++)` of `DeserializeFromStream`, with the
number of rounds that remain: the graph and the rest of the stream. -/
def readVertices : Nat → List (Token T W) → UndirectedGraph T W →
    Except Error (UndirectedGraph T W × List (Token T W))
  | 0, is, graph => .ok (graph, is)
  | n + 1, Token.vertex vertex :: is, graph => readVertices n is (graph.AddVertex vertex)
  | _ + 1, _, _ => .error .malformedRecord

/-- The loop `for (int i = 0; i < eCount; i++)` of `DeserializeFromStream`, with the
number of rounds that remain. -/
def readEdges : Nat → List (Token T W) → UndirectedGraph T W →
    Except Error (UndirectedGraph T W)
  | 0, _, graph => .ok graph
  | n + 1, Token.vertex vFrom :: Token.vertex vTo :: Token.weight weight :: is, graph =>
    match graph.AddEdge vFrom vTo weight with
    | .error e => .error e
    | .ok graph => readEdges n is graph
  | _ + 1, _, _ => .error .malformedRecord

/-- Embeds `UndirectedGraph::DeserializeFromStream`. -/
def DeserializeFromStream (is : List (Token T W)) : Except Error (UndirectedGraph T W) :=
  match is with
  | Token.word type :: Token.int vCount :: Token.int eCount :: is =>
    if type ≠ "U" then .error .invalidFormat
    else
      match readVertices vCount.toNat is UndirectedGraph.empty with
      | .error e => .error e
      | .ok (graph, is) => readEdges eCount.toNat is graph
  | _ => .error .invalidFormat

/-- The text of `SerializeToStream` read by `DeserializeFromStream`. -/
def roundTrip (g : UndirectedGraph T W) : Except Error (UndirectedGraph T W) :=
  match g.SerializeToStream with
  | .error e => .error e
  | .ok os => DeserializeFromStream os

end UndirectedGraph

/-! ## Directed paths counted by their edges -/

/-- The queries of the interface as every graph object answers them, a directed graph
that `RemoveVertex` left with adjacency entries for removed vertices included:
`GetAdjacentVertices(v)` lists every `u` with `HasEdge(v, u)` and may list further
elements that are no vertices; `GetEdgeWeight` throws the edge-not-found error exactly
where `HasEdge` is false. -/
structure GraphBase.WeakValid {T W : Type} (g : GraphBase T W) : Prop where
  all_nodup : g.GetAllVertices.Nodup
  mem_all : ∀ v, v ∈ g.GetAllVertices ↔ g.HasVertex v = true
  count_eq : g.GetVertexCount = (g.GetAllVertices.length : Int)
  adj_ok : ∀ v, g.HasVertex v = true →
    ∃ adj, g.GetAdjacentVertices v = .ok adj ∧ adj.Nodup ∧
      ∀ u, g.HasEdge v u = true ↔ (u ∈ adj ∧ g.HasVertex u = true)
  edge_left : ∀ u v, g.HasEdge u v = true → g.HasVertex u = true
  weight_iff : ∀ u v, (∃ w, g.GetEdgeWeight u v = .ok w) ↔ g.HasEdge u v = true
  weight_err : ∀ u v, g.HasEdge u v = false → g.GetEdgeWeight u v = .error .edgeNotFound

/-- The adjacency list of some vertex of the graph names an element that is no
vertex. -/
def GraphBase.HasStaleEntry {T W : Type} (g : GraphBase T W) : Prop :=
  ∃ u adj v, g.HasVertex u = true ∧ g.GetAdjacentVertices u = .ok adj ∧ v ∈ adj ∧
    g.HasVertex v = false

set_option linter.unusedSectionVars false

section BinaryTreeFacts

variable {α κ σ : Type} [LinearOrder κ] (key : α → κ)

theorem storeInOrder_eq (n : Node α) (arr : List α) :
    storeInOrder n arr = arr ++ n.toList := by
  induction n generalizing arr with
  | null => simp [storeInOrder, Node.toList]
  | mk l d r ihl ihr => simp [storeInOrder, Node.toList, ihl, ihr]

theorem inOrder_eq_foldl (n : Node α) (func : σ → α → σ) (s : σ) :
    inOrder n func s = n.toList.foldl func s := by
  induction n generalizing s with
  | null => simp [inOrder, Node.toList]
  | mk l d r ihl ihr => simp [inOrder, Node.toList, ihl, ihr]

theorem isBST_iff_pairwise (n : Node α) :
    IsBST key n ↔ n.toList.Pairwise (fun a b => key a < key b) := by
  induction n with
  | null => simp [IsBST, Node.toList]
  | mk l d r ihl ihr =>
    simp only [IsBST, Node.toList, List.pairwise_append, List.pairwise_cons, ihl, ihr,
      List.mem_cons]
    constructor
    · rintro ⟨hl, hr, hld, hdr⟩
      refine ⟨hl, ⟨hdr, hr⟩, ?_⟩
      rintro a ha b (rfl | hb)
      · exact hld a ha
      · exact lt_trans (hld a ha) (hdr b hb)
    · rintro ⟨hl, ⟨hdr, hr⟩, h⟩
      exact ⟨hl, hr, fun x hx => h x hx d (Or.inl rfl), hdr⟩

/-- In a search tree two elements with the same key are the same element. -/
theorem IsBST.eq_of_key_eq {n : Node α} (h : IsBST key n) {x y : α}
    (hx : x ∈ n.toList) (hy : y ∈ n.toList) (hxy : key x = key y) : x = y := by
  rw [isBST_iff_pairwise] at h
  by_contra hne
  rcases List.Pairwise.forall (R := fun a b => key a < key b ∨ key b < key a)
      (fun {a b} hab => hab.symm) (h.imp (fun hab => Or.inl hab)) hx hy hne with h1 | h1
  · exact absurd hxy (ne_of_lt h1)
  · exact absurd hxy.symm (ne_of_lt h1)

theorem containsRecursive_iff {n : Node α} (h : IsBST key n) (v : α) :
    containsRecursive key n v = true ↔ ∃ y ∈ n.toList, key y = key v := by
  induction n with
  | null => simp [containsRecursive, Node.toList]
  | mk l d r ihl ihr =>
    obtain ⟨hl, hr, hld, hdr⟩ := h
    simp only [containsRecursive, Node.toList, List.mem_append, List.mem_cons]
    by_cases h1 : key d = key v
    · simp only [h1, if_true, true_iff]
      exact ⟨d, Or.inr (Or.inl rfl), h1⟩
    · simp only [h1, if_false]
      by_cases h2 : key v < key d
      · simp only [h2, if_true, ihl hl]
        constructor
        · rintro ⟨y, hy, hk⟩
          exact ⟨y, Or.inl hy, hk⟩
        · rintro ⟨y, hy | rfl | hy, hk⟩
          · exact ⟨y, hy, hk⟩
          · exact absurd hk h1
          · exact absurd (hk ▸ hdr y hy) (lt_asymm h2)
      · simp only [h2, if_false, ihr hr]
        constructor
        · rintro ⟨y, hy, hk⟩
          exact ⟨y, Or.inr (Or.inr hy), hk⟩
        · rintro ⟨y, hy | rfl | hy, hk⟩
          · exact absurd (hk ▸ hld y hy) (fun h3 => h2 h3)
          · exact absurd hk h1
          · exact ⟨y, hy, hk⟩

/-- The loop of `findNode` and `containsRecursive` take the same decisions. -/
theorem findNodeFrom_eq_null_iff (n : Node α) (v : α) :
    findNodeFrom key n v = .null ↔ containsRecursive key n v = false := by
  induction n with
  | null => simp [findNodeFrom, containsRecursive]
  | mk l d r ihl ihr =>
    simp only [findNodeFrom, containsRecursive]
    split_ifs <;> simp [ihl, ihr]

theorem findNodeFrom_mem {n : Node α} {v : α} {l r : Node α} {y : α}
    (h : findNodeFrom key n v = .mk l y r) : y ∈ n.toList ∧ key y = key v := by
  induction n with
  | null => simp [findNodeFrom] at h
  | mk nl d nr ihl ihr =>
    simp only [findNodeFrom] at h
    simp only [Node.toList, List.mem_append, List.mem_cons]
    split_ifs at h with h1 h2
    · simp only [Node.mk.injEq] at h
      obtain ⟨-, rfl, -⟩ := h
      exact ⟨Or.inr (Or.inl rfl), h1⟩
    · exact ⟨Or.inl (ihl h).1, (ihl h).2⟩
    · exact ⟨Or.inr (Or.inr (ihr h).1), (ihr h).2⟩

theorem findNodeFrom_of_mem {n : Node α} (h : IsBST key n) {y : α} (hy : y ∈ n.toList)
    (v : α) (hk : key y = key v) : ∃ l r, findNodeFrom key n v = .mk l y r := by
  have hc : containsRecursive key n v = true := (containsRecursive_iff key h v).2 ⟨y, hy, hk⟩
  cases hf : findNodeFrom key n v with
  | null => rw [(findNodeFrom_eq_null_iff key n v).1 hf] at hc; cases hc
  | mk l z r =>
    obtain ⟨hz, hzk⟩ := findNodeFrom_mem key hf
    have : z = y := h.eq_of_key_eq key hz hy (hzk.trans hk.symm)
    exact ⟨l, r, by rw [this]⟩

theorem insertRecursive_of_contains (n : Node α) (v : α)
    (h : containsRecursive key n v = true) : insertRecursive key n v = n := by
  induction n with
  | null => simp [containsRecursive] at h
  | mk l d r ihl ihr =>
    simp only [containsRecursive] at h
    simp only [insertRecursive]
    by_cases h1 : key d = key v
    · simp [h1]
    · simp only [h1, if_false] at h
      by_cases h2 : key v < key d
      · simp only [h2, if_true] at h ⊢
        rw [ihl h]
      · simp only [h2, if_false] at h ⊢
        split_ifs
        · rw [ihr h]
        · rfl

theorem insertRecursive_spec {n : Node α} (h : IsBST key n) (v : α) :
    IsBST key (insertRecursive key n v) ∧
      ∀ x, x ∈ (insertRecursive key n v).toList ↔
        x ∈ n.toList ∨ (x = v ∧ ∀ y ∈ n.toList, key y ≠ key v) := by
  induction n with
  | null => simp [insertRecursive, IsBST, Node.toList]
  | mk l d r ihl ihr =>
    obtain ⟨hl, hr, hld, hdr⟩ := h
    simp only [insertRecursive]
    by_cases h1 : key v < key d
    · simp only [h1, if_true]
      obtain ⟨ib, im⟩ := ihl hl
      refine ⟨⟨ib, hr, ?_, hdr⟩, ?_⟩
      · intro x hx
        rcases (im x).1 hx with hx | ⟨rfl, -⟩
        · exact hld x hx
        · exact h1
      · intro x
        simp only [Node.toList, List.mem_append, List.mem_cons, im]
        constructor
        · rintro ((hx | ⟨rfl, hn⟩) | rfl | hx)
          · exact Or.inl (Or.inl hx)
          · refine Or.inr ⟨rfl, ?_⟩
            rintro y (hy | rfl | hy)
            · exact hn y hy
            · exact ne_of_gt h1
            · exact ne_of_gt (lt_trans h1 (hdr y hy))
          · exact Or.inl (Or.inr (Or.inl rfl))
          · exact Or.inl (Or.inr (Or.inr hx))
        · rintro ((hx | rfl | hx) | ⟨rfl, hn⟩)
          · exact Or.inl (Or.inl hx)
          · exact Or.inr (Or.inl rfl)
          · exact Or.inr (Or.inr hx)
          · exact Or.inl (Or.inr ⟨rfl, fun y hy => hn y (Or.inl hy)⟩)
    · simp only [h1, if_false]
      by_cases h2 : key d < key v
      · simp only [h2, if_true]
        obtain ⟨ib, im⟩ := ihr hr
        refine ⟨⟨hl, ib, hld, ?_⟩, ?_⟩
        · intro x hx
          rcases (im x).1 hx with hx | ⟨rfl, -⟩
          · exact hdr x hx
          · exact h2
        · intro x
          simp only [Node.toList, List.mem_append, List.mem_cons, im]
          constructor
          · rintro (hx | rfl | hx | ⟨rfl, hn⟩)
            · exact Or.inl (Or.inl hx)
            · exact Or.inl (Or.inr (Or.inl rfl))
            · exact Or.inl (Or.inr (Or.inr hx))
            · refine Or.inr ⟨rfl, ?_⟩
              rintro y (hy | rfl | hy)
              · exact ne_of_lt (lt_trans (hld y hy) h2)
              · exact ne_of_lt h2
              · exact hn y hy
          · rintro ((hx | rfl | hx) | ⟨rfl, hn⟩)
            · exact Or.inl hx
            · exact Or.inr (Or.inl rfl)
            · exact Or.inr (Or.inr (Or.inl hx))
            · exact Or.inr (Or.inr (Or.inr ⟨rfl, fun y hy => hn y (Or.inr (Or.inr hy))⟩))
      · simp only [h2, if_false]
        refine ⟨⟨hl, hr, hld, hdr⟩, ?_⟩
        intro x
        have hdv : key d = key v := le_antisymm (not_lt.1 h1) (not_lt.1 h2)
        simp only [Node.toList, List.mem_append, List.mem_cons]
        constructor
        · intro hx
          exact Or.inl hx
        · rintro (hx | ⟨rfl, hn⟩)
          · exact hx
          · exact absurd hdv (hn d (Or.inr (Or.inl rfl)))

/-- On a node, `findMin` returns the node that holds the first element of the
in-order sequence; in particular it does not return `nullptr`. -/
theorem findMin_mk (l : Node α) (d : α) (r : Node α) :
    ∃ m mr rest, findMin (.mk l d r) = .mk .null m mr ∧
      (Node.mk l d r).toList = m :: rest := by
  induction l generalizing d r with
  | null => exact ⟨d, r, r.toList, by simp [findMin], by simp [Node.toList]⟩
  | mk ll ld lr ihl _ =>
    obtain ⟨m, mr, rest, h1, h2⟩ := ihl ld lr
    refine ⟨m, mr, rest ++ d :: r.toList, ?_, ?_⟩
    · simpa [findMin] using h1
    · simp only [Node.toList] at h2 ⊢
      simp [h2]

theorem findMin_mk_ne_null (l : Node α) (d : α) (r : Node α) :
    findMin (.mk l d r) ≠ .null := by
  obtain ⟨m, mr, rest, h, -⟩ := findMin_mk l d r
  simp [h]

theorem removeRecursive_mk_lt (l : Node α) (d : α) (r : Node α) (v : α)
    (h : key v < key d) :
    removeRecursive key (.mk l d r) v = .mk (removeRecursive key l v) d r := by
  cases l <;> cases r <;> simp [removeRecursive, h]

theorem removeRecursive_mk_gt (l : Node α) (d : α) (r : Node α) (v : α)
    (h : key d < key v) :
    removeRecursive key (.mk l d r) v = .mk l d (removeRecursive key r v) := by
  cases l <;> cases r <;> simp [removeRecursive, h, lt_asymm h]

theorem removeRecursive_of_not_contains (n : Node α) (v : α)
    (h : containsRecursive key n v = false) : removeRecursive key n v = n := by
  induction n with
  | null => simp [removeRecursive]
  | mk l d r ihl ihr =>
    simp only [containsRecursive] at h
    by_cases h1 : key d = key v
    · simp [h1] at h
    · simp only [h1, if_false] at h
      by_cases h2 : key v < key d
      · simp only [h2, if_true] at h
        rw [removeRecursive_mk_lt key l d r v h2, ihl h]
      · simp only [h2, if_false] at h
        have h3 : key d < key v :=
          lt_of_le_of_ne (not_lt.1 h2) h1
        rw [removeRecursive_mk_gt key l d r v h3, ihr h]

theorem removeRecursive_spec {n : Node α} (h : IsBST key n) (v : α) :
    IsBST key (removeRecursive key n v) ∧
      ∀ x, x ∈ (removeRecursive key n v).toList ↔ x ∈ n.toList ∧ key x ≠ key v := by
  induction n generalizing v with
  | null => simp [removeRecursive, IsBST, Node.toList]
  | mk l d r ihl ihr =>
    obtain ⟨hl, hr, hld, hdr⟩ := h
    by_cases h1 : key v < key d
    · rw [removeRecursive_mk_lt key l d r v h1]
      obtain ⟨ib, im⟩ := ihl hl v
      refine ⟨⟨ib, hr, fun x hx => hld x ((im x).1 hx).1, hdr⟩, ?_⟩
      intro x
      simp only [Node.toList, List.mem_append, List.mem_cons, im]
      constructor
      · rintro (⟨hx, hn⟩ | rfl | hx)
        · exact ⟨Or.inl hx, hn⟩
        · exact ⟨Or.inr (Or.inl rfl), ne_of_gt h1⟩
        · exact ⟨Or.inr (Or.inr hx), ne_of_gt (lt_trans h1 (hdr x hx))⟩
      · rintro ⟨hx | rfl | hx, hn⟩
        · exact Or.inl ⟨hx, hn⟩
        · exact Or.inr (Or.inl rfl)
        · exact Or.inr (Or.inr hx)
    · by_cases h2 : key d < key v
      · rw [removeRecursive_mk_gt key l d r v h2]
        obtain ⟨ib, im⟩ := ihr hr v
        refine ⟨⟨hl, ib, hld, fun x hx => hdr x ((im x).1 hx).1⟩, ?_⟩
        intro x
        simp only [Node.toList, List.mem_append, List.mem_cons, im]
        constructor
        · rintro (hx | rfl | ⟨hx, hn⟩)
          · exact ⟨Or.inl hx, ne_of_lt (lt_trans (hld x hx) h2)⟩
          · exact ⟨Or.inr (Or.inl rfl), ne_of_lt h2⟩
          · exact ⟨Or.inr (Or.inr hx), hn⟩
        · rintro ⟨hx | rfl | hx, hn⟩
          · exact Or.inl hx
          · exact Or.inr (Or.inl rfl)
          · exact Or.inr (Or.inr ⟨hx, hn⟩)
      · have hdv : key d = key v := le_antisymm (not_lt.1 h1) (not_lt.1 h2)
        cases l with
        | null =>
          simp only [removeRecursive, h1, if_false, h2]
          refine ⟨hr, ?_⟩
          intro x
          simp only [Node.toList, List.nil_append, List.mem_cons]
          constructor
          · intro hx
            exact ⟨Or.inr hx, fun hk => absurd (hdr x hx) (by rw [hk, hdv]; exact lt_irrefl _)⟩
          · rintro ⟨rfl | hx, hn⟩
            · exact absurd hdv hn
            · exact hx
        | mk ll ld lr =>
          cases r with
          | null =>
            simp only [removeRecursive, h1, if_false, h2]
            refine ⟨hl, ?_⟩
            intro x
            simp only [Node.toList, List.mem_append, List.mem_cons, List.not_mem_nil, or_false]
            constructor
            · intro hx
              refine ⟨Or.inl hx, fun hk => ?_⟩
              have := hld x (by simpa [Node.toList] using hx)
              rw [hk, hdv] at this
              exact lt_irrefl _ this
            · rintro ⟨hx | rfl, hn⟩
              · exact hx
              · exact absurd hdv hn
          | mk rl rd rr =>
            obtain ⟨m, mr, rest, hm, hrest⟩ := findMin_mk rl rd rr
            simp only [removeRecursive, h1, if_false, h2, hm]
            have hmr : m ∈ (Node.mk rl rd rr).toList := by rw [hrest]; exact List.mem_cons_self _ _
            obtain ⟨ib, im⟩ := ihr hr m
            have hmin : ∀ x ∈ (Node.mk rl rd rr).toList, key x ≠ key m → key m < key x := by
              intro x hx hn
              have hp := (isBST_iff_pairwise key _).1 hr
              rw [hrest] at hp hx
              rcases List.mem_cons.1 hx with rfl | hx
              · exact absurd rfl hn
              · exact (List.pairwise_cons.1 hp).1 x hx
            refine ⟨⟨hl, ib, fun x hx => lt_trans (hld x hx) (hdr m hmr), ?_⟩, ?_⟩
            · intro x hx
              exact hmin x ((im x).1 hx).1 ((im x).1 hx).2
            · intro x
              simp only [Node.toList, List.mem_append, List.mem_cons] at im hld hdr hmr ⊢
              simp only [im]
              constructor
              · rintro (hx | rfl | ⟨hx, hn⟩)
                · refine ⟨Or.inl hx, fun hk => ?_⟩
                  have := hld x hx
                  rw [hk, hdv] at this
                  exact lt_irrefl _ this
                · refine ⟨Or.inr (Or.inr hmr), fun hk => ?_⟩
                  have := hdr x hmr
                  rw [hk, hdv] at this
                  exact lt_irrefl _ this
                · refine ⟨Or.inr (Or.inr hx), fun hk => ?_⟩
                  have := hdr x hx
                  rw [hk, hdv] at this
                  exact lt_irrefl _ this
              · rintro ⟨hx | rfl | hx, hn⟩
                · exact Or.inl hx
                · exact absurd hdv hn
                · by_cases hxm : key x = key m
                  · have : x = m := hr.eq_of_key_eq key
                      (by simpa [Node.toList] using hx) (by simpa [Node.toList] using hmr) hxm
                    exact Or.inr (Or.inl this)
                  · exact Or.inr (Or.inr ⟨hx, hxm⟩)

theorem arrGet_of_lt (arr : List α) (i : Nat) (h : i < arr.length) (m : Int)
    (hm : m = (i : Int)) : arrGet arr m = .ok arr[i] := by
  subst hm
  have h1 : ¬ (((i : Int) < 0) ∨ ((i : Int) ≥ (arr.length : Int))) := by omega
  simp only [arrGet, h1, if_false, Int.toNat_ofNat, List.getElem?_eq_getElem h]

theorem take_drop_split (arr : List α) (s n k : Nat) (hk : k < n) (hn : s + n ≤ arr.length) :
    (arr.drop s).take n =
      (arr.drop s).take k ++ arr[s + k] :: (arr.drop (s + k + 1)).take (n - k - 1) := by
  have h1 : (arr.drop s).take n = (arr.drop s).take k ++ ((arr.drop s).drop k).take (n - k) := by
    have : n = k + (n - k) := by omega
    conv_lhs => rw [this, List.take_add]
  have h2 : (arr.drop s).drop k = arr[s + k] :: arr.drop (s + k + 1) := by
    rw [List.drop_drop, ← List.drop_eq_getElem_cons]
  obtain ⟨m, hm⟩ : ∃ m, n - k = m + 1 := ⟨n - k - 1, by omega⟩
  rw [h1, h2, hm, List.take_succ_cons, Nat.add_sub_cancel]

/-- Given enough budget, `buildBalancedTree(arr, start, end)` returns a tree whose
in-order sequence is the slice `arr[start..end]`. -/
theorem buildBalancedTree_spec (arr : List α) :
    ∀ (fuel : Nat) (start stop : Int) (s n : Nat), n < fuel → s + n ≤ arr.length →
      start = (s : Int) → stop = (s : Int) + (n : Int) - 1 →
      ∃ t, buildBalancedTree arr fuel start stop = .ok t ∧ t.toList = (arr.drop s).take n := by
  intro fuel
  induction fuel with
  | zero => intro start stop s n h; omega
  | succ fuel ih =>
    intro start stop s n hfuel hlen hstart hstop
    rcases Nat.eq_zero_or_pos n with hn | hn
    · subst hn
      have : start > stop := by omega
      exact ⟨.null, by simp [buildBalancedTree, this], by simp [Node.toList]⟩
    · have hle : ¬ start > stop := by omega
      have hmid : (start + stop).tdiv 2 = (((s + (n - 1) / 2 : Nat)) : Int) := by
        rw [Int.tdiv_eq_ediv (by omega) (by omega)]
        omega
      have hk : (n - 1) / 2 < n := by omega
      have hget := arrGet_of_lt arr (s + (n - 1) / 2) (by omega) _ hmid
      obtain ⟨tl, hl, hlt⟩ := ih start ((start + stop).tdiv 2 - 1) s ((n - 1) / 2)
        (by omega) (by omega) hstart (by rw [hmid]; push_cast; omega)
      obtain ⟨tr, hr, hrt⟩ := ih ((start + stop).tdiv 2 + 1) stop (s + (n - 1) / 2 + 1)
        (n - (n - 1) / 2 - 1) (by omega) (by omega) (by rw [hmid]; push_cast; omega)
        (by rw [hstop]; push_cast; omega)
      refine ⟨.mk tl arr[s + (n - 1) / 2] tr, ?_, ?_⟩
      · simp only [buildBalancedTree, hle, if_false, hget, hl, hr]
      · simp only [Node.toList, hlt, hrt]
        exact (take_drop_split arr s n ((n - 1) / 2) hk hlen).symm

/-- The model of `balance` never throws, and the rebuilt tree has the in-order
sequence of the original. -/
theorem BinaryTree.balance_spec (t : BinaryTree α) :
    ∃ t', t.balance = .ok t' ∧ t'.root.toList = t.root.toList := by
  obtain ⟨root⟩ := t
  cases root with
  | null => exact ⟨⟨.null⟩, by simp [BinaryTree.balance], rfl⟩
  | mk l d r =>
    obtain ⟨t', h1, h2⟩ := buildBalancedTree_spec (Node.mk l d r).toList
      ((Node.mk l d r).toList.length + 1) 0 (((Node.mk l d r).toList.length : Int) - 1)
      0 (Node.mk l d r).toList.length (by omega) (by omega) (by simp) (by simp)
    refine ⟨⟨t'⟩, ?_, ?_⟩
    · simp only [BinaryTree.balance, storeInOrder_eq, List.nil_append, h1]
    · simpa using h2

theorem foldl_append_singleton {β : Type} (f : α → β) (l : List α) (init : List β) :
    l.foldl (fun visited x => visited ++ [f x]) init = init ++ l.map f := by
  induction l generalizing init with
  | nil => simp
  | cons a l ih => simp [ih]

theorem foldl_count (l : List α) (init : Int) :
    l.foldl (fun count _ => count + 1) init = init + (l.length : Int) := by
  induction l generalizing init with
  | nil => simp
  | cons a l ih => simp [ih]; omega

theorem BinaryTree.run_isBST (ops : List (TreeOp α)) :
    ∀ t : BinaryTree α, IsBST key t.root →
      ∃ t', BinaryTree.run key t ops = .ok t' ∧ IsBST key t'.root := by
  induction ops with
  | nil => intro t h; exact ⟨t, rfl, h⟩
  | cons op ops ih =>
    intro t h
    cases op with
    | insert v =>
      simpa [BinaryTree.run, BinaryTree.step] using
        ih (t.insert key v) (insertRecursive_spec key h v).1
    | remove v =>
      simpa [BinaryTree.run, BinaryTree.step] using
        ih (t.remove key v) (removeRecursive_spec key h v).1
    | balance =>
      obtain ⟨t1, h1, h2⟩ := t.balance_spec
      have hb : IsBST key t1.root := by
        rw [isBST_iff_pairwise, h2, ← isBST_iff_pairwise]; exact h
      simpa [BinaryTree.run, BinaryTree.step, h1] using ih t1 hb

end BinaryTreeFacts

namespace Dictionary

variable {K V : Type} [LinearOrder K] [Inhabited V]

theorem Get_eq_ok_iff {d : Dictionary K V} (h : d.WF) (k : K) (v : V) :
    d.Get k = .ok v ↔ (⟨k, v⟩ : DictionaryPair K V) ∈ d.entries := by
  unfold Get BinaryTree.findNode entries
  constructor
  · intro hg
    cases hf : findNodeFrom DictionaryPair.getKey d.tree.root ⟨k, default⟩ with
    | null => simp [hf] at hg
    | mk l y r =>
      simp only [hf, Except.ok.injEq] at hg
      obtain ⟨hy, hk⟩ := findNodeFrom_mem _ hf
      have : y = ⟨k, v⟩ := by
        cases y; simp only [DictionaryPair.mk.injEq] at hk hg ⊢; exact ⟨hk, hg⟩
      rw [← this]; exact hy
  · intro hm
    obtain ⟨l, r, hf⟩ := findNodeFrom_of_mem DictionaryPair.getKey h hm ⟨k, default⟩ rfl
    simp [hf]

theorem Get_eq_error_iff (d : Dictionary K V) (k : K) (e : Error) :
    d.Get k = .error e ↔ e = .keyNotFound ∧ d.ContainsKey k = false := by
  unfold Get ContainsKey BinaryTree.findNode BinaryTree.contains
  cases hf : findNodeFrom DictionaryPair.getKey d.tree.root ⟨k, default⟩ with
  | null =>
    have := (findNodeFrom_eq_null_iff _ _ _).1 hf
    simp [this, eq_comm]
  | mk l y r =>
    have : containsRecursive DictionaryPair.getKey d.tree.root ⟨k, default⟩ ≠ false := by
      intro hc
      rw [← findNodeFrom_eq_null_iff, hf] at hc
      cases hc
    simp [this]

/-- After `ContainsKey(key)` held, `Get(key)` does not throw: the two walk the tree in
the same way. -/
theorem Get_isOk (d : Dictionary K V) (k : K) :
    d.ContainsKey k = true ↔ ∃ v, d.Get k = .ok v := by
  cases hg : d.Get k with
  | error e =>
    have := ((Get_eq_error_iff d k e).1 hg).2
    simp [this]
  | ok v =>
    simp only [Except.ok.injEq, exists_eq', iff_true]
    by_contra hc
    have := (Get_eq_error_iff d k .keyNotFound).2 ⟨rfl, by simpa using hc⟩
    rw [hg] at this
    cases this

theorem ContainsKey_iff {d : Dictionary K V} (h : d.WF) (k : K) :
    d.ContainsKey k = true ↔ ∃ v, (⟨k, v⟩ : DictionaryPair K V) ∈ d.entries := by
  rw [Get_isOk]
  simp only [Get_eq_ok_iff h]

theorem ContainsKey_iff_mem_keys {d : Dictionary K V} (h : d.WF) (k : K) :
    d.ContainsKey k = true ↔ k ∈ d.keys := by
  rw [ContainsKey_iff h]
  simp only [keys, List.mem_toFinset, List.mem_map]
  constructor
  · rintro ⟨v, hv⟩
    exact ⟨_, hv, rfl⟩
  · rintro ⟨⟨k', v⟩, hv, rfl⟩
    exact ⟨v, hv⟩

theorem WF_empty : (empty : Dictionary K V).WF := by
  simp [WF, empty, BinaryTree.empty, IsBST]

theorem entries_empty : (empty : Dictionary K V).entries = [] := rfl

theorem WF_Clear (d : Dictionary K V) : d.Clear.WF := by
  simp [WF, Clear, BinaryTree.clear, IsBST]

theorem entries_Clear (d : Dictionary K V) : d.Clear.entries = [] := rfl

theorem WF_Add {d : Dictionary K V} (h : d.WF) (k : K) (v : V) : (d.Add k v).WF := by
  unfold WF Add BinaryTree.insert BinaryTree.remove
  simp only
  split_ifs
  · exact (insertRecursive_spec _ (removeRecursive_spec _ h _).1 _).1
  · exact (insertRecursive_spec _ h _).1

theorem WF_Remove {d : Dictionary K V} (h : d.WF) (k : K) : (d.Remove k).WF :=
  (removeRecursive_spec _ h _).1

theorem mem_entries_Remove {d : Dictionary K V} (h : d.WF) (k : K)
    (x : DictionaryPair K V) :
    x ∈ (d.Remove k).entries ↔ x ∈ d.entries ∧ x.getKey ≠ k :=
  (removeRecursive_spec _ h _).2 x

theorem mem_entries_Add {d : Dictionary K V} (h : d.WF) (k : K) (v : V)
    (x : DictionaryPair K V) :
    x ∈ (d.Add k v).entries ↔ (x ∈ d.entries ∧ x.getKey ≠ k) ∨ x = ⟨k, v⟩ := by
  unfold Add BinaryTree.insert BinaryTree.remove entries
  simp only
  split_ifs with hc
  · have h1 := removeRecursive_spec DictionaryPair.getKey h ⟨k, default⟩
    rw [(insertRecursive_spec _ h1.1 _).2, h1.2]
    simp only [h1.2]
    constructor
    · rintro (hx | ⟨rfl, -⟩)
      · exact Or.inl hx
      · exact Or.inr rfl
    · rintro (hx | rfl)
      · exact Or.inl hx
      · exact Or.inr ⟨rfl, fun y hy => hy.2⟩
  · rw [(insertRecursive_spec _ h _).2]
    have hn : ∀ y ∈ d.tree.root.toList, y.getKey ≠ k := by
      intro y hy hk
      exact hc ((containsRecursive_iff DictionaryPair.getKey h _).2 ⟨y, hy, hk⟩)
    constructor
    · rintro (hx | ⟨rfl, -⟩)
      · exact Or.inl ⟨hx, hn x hx⟩
      · exact Or.inr rfl
    · rintro (hx | rfl)
      · exact Or.inl hx.1
      · exact Or.inr ⟨rfl, hn⟩

theorem mem_keys (d : Dictionary K V) (k : K) :
    k ∈ d.keys ↔ ∃ v, (⟨k, v⟩ : DictionaryPair K V) ∈ d.entries := by
  simp only [keys, List.mem_toFinset, List.mem_map]
  constructor
  · rintro ⟨⟨k', v⟩, hv, rfl⟩
    exact ⟨v, hv⟩
  · rintro ⟨v, hv⟩
    exact ⟨_, hv, rfl⟩

theorem keys_Add {d : Dictionary K V} (h : d.WF) (k : K) (v : V) :
    (d.Add k v).keys = insert k d.keys := by
  ext k'
  simp only [mem_keys, Finset.mem_insert, mem_entries_Add h, DictionaryPair.mk.injEq]
  constructor
  · rintro ⟨v', (⟨hx, -⟩ | ⟨rfl, -⟩)⟩
    · exact Or.inr ⟨v', hx⟩
    · exact Or.inl rfl
  · rintro (rfl | ⟨v', hx⟩)
    · exact ⟨v, Or.inr ⟨rfl, rfl⟩⟩
    · by_cases hk : k' = k
      · exact ⟨v, Or.inr ⟨hk, rfl⟩⟩
      · exact ⟨v', Or.inl ⟨hx, hk⟩⟩

theorem keys_Remove {d : Dictionary K V} (h : d.WF) (k : K) :
    (d.Remove k).keys = d.keys.erase k := by
  ext k'
  simp only [mem_keys, Finset.mem_erase, mem_entries_Remove h]
  constructor
  · rintro ⟨v', hx, hk⟩
    exact ⟨hk, v', hx⟩
  · rintro ⟨hk, v', hx⟩
    exact ⟨v', hx, hk⟩

theorem keys_empty : (empty : Dictionary K V).keys = ∅ := rfl

theorem nodup_keys {d : Dictionary K V} (h : d.WF) :
    (d.entries.map DictionaryPair.getKey).Nodup := by
  have hp := (isBST_iff_pairwise DictionaryPair.getKey _).1 h
  rw [List.Nodup, List.pairwise_map]
  exact hp.imp (fun hab => ne_of_lt hab)

theorem GetCount_eq_length (d : Dictionary K V) : d.GetCount = (d.entries.length : Int) := by
  simp [GetCount, BinaryTree.traverseInOrder, inOrder_eq_foldl, foldl_count, entries]

theorem GetCount_eq_card {d : Dictionary K V} (h : d.WF) : d.GetCount = (d.keys.card : Int) := by
  rw [GetCount_eq_length, keys, List.toFinset_card_of_nodup (nodup_keys h), List.length_map]

theorem ForEachKey_collect (d : Dictionary K V) :
    d.ForEachKey (fun result key => result ++ [key]) [] =
      d.entries.map DictionaryPair.getKey := by
  simp [ForEachKey, BinaryTree.traverseInOrder, inOrder_eq_foldl, entries,
    foldl_append_singleton]

/-- Two lookups agree when the dictionaries hold the same values under the two keys. -/
theorem Get_congr {d d' : Dictionary K V} (h : d.WF) (h' : d'.WF) (k k' : K)
    (hkv : ∀ v, (⟨k, v⟩ : DictionaryPair K V) ∈ d.entries ↔
      (⟨k', v⟩ : DictionaryPair K V) ∈ d'.entries) :
    d.Get k = d'.Get k' := by
  cases hg : d'.Get k' with
  | ok v => exact (Get_eq_ok_iff h k v).2 ((hkv v).2 ((Get_eq_ok_iff h' k' v).1 hg))
  | error e =>
    obtain ⟨rfl, hc⟩ := (Get_eq_error_iff d' k' e).1 hg
    rw [Get_eq_error_iff]
    refine ⟨rfl, ?_⟩
    by_contra hne
    obtain ⟨v, hv⟩ := (ContainsKey_iff h k).1 (by simpa using hne)
    have := (ContainsKey_iff h' k').2 ⟨v, (hkv v).1 hv⟩
    rw [hc] at this
    cases this

theorem Get_Add_self {d : Dictionary K V} (h : d.WF) (k : K) (v : V) :
    (d.Add k v).Get k = .ok v :=
  (Get_eq_ok_iff (WF_Add h k v) k v).2 ((mem_entries_Add h k v _).2 (Or.inr rfl))

theorem Get_Add_of_ne {d : Dictionary K V} (h : d.WF) (k : K) (v : V) {k' : K}
    (hk : k' ≠ k) : (d.Add k v).Get k' = d.Get k' := by
  apply Get_congr (WF_Add h k v) h
  intro v'
  simp [mem_entries_Add h, hk]

theorem Get_Remove_self {d : Dictionary K V} (h : d.WF) (k : K) :
    (d.Remove k).Get k = .error .keyNotFound := by
  rw [Get_eq_error_iff]
  refine ⟨rfl, ?_⟩
  by_contra hne
  obtain ⟨v, hv⟩ := (ContainsKey_iff (WF_Remove h k) k).1 (by simpa using hne)
  exact ((mem_entries_Remove h k _).1 hv).2 rfl

theorem Get_Remove_of_ne {d : Dictionary K V} (h : d.WF) (k : K) {k' : K}
    (hk : k' ≠ k) : (d.Remove k).Get k' = d.Get k' := by
  apply Get_congr (WF_Remove h k) h
  intro v'
  simp [mem_entries_Remove h, hk]

theorem Get_empty (k : K) : (empty : Dictionary K V).Get k = .error .keyNotFound := rfl

theorem ContainsKey_eq_of_Get_eq {d d' : Dictionary K V} {k k' : K}
    (h : d.Get k = d'.Get k') : d.ContainsKey k = d'.ContainsKey k' := by
  rw [Bool.eq_iff_iff, Get_isOk, Get_isOk, h]

theorem WF_Balance {d d' : Dictionary K V} (h : d.WF) (hb : d.Balance = .ok d') :
    d'.WF ∧ d'.entries = d.entries := by
  obtain ⟨t', h1, h2⟩ := d.tree.balance_spec
  simp only [Balance, h1, Except.ok.injEq] at hb
  subst hb
  refine ⟨?_, h2⟩
  unfold WF
  rw [isBST_iff_pairwise, h2, ← isBST_iff_pairwise]
  exact h

theorem Balance_isOk (d : Dictionary K V) : ∃ d', d.Balance = .ok d' := by
  obtain ⟨t', h1, -⟩ := d.tree.balance_spec
  exact ⟨⟨t'⟩, by simp [Balance, h1]⟩

theorem run_WF (ops : List (DictOp K V)) :
    ∀ d : Dictionary K V, d.WF → ∃ d', Dictionary.run d ops = .ok d' ∧ d'.WF := by
  induction ops with
  | nil => intro d h; exact ⟨d, rfl, h⟩
  | cons op ops ih =>
    intro d h
    cases op with
    | add k v => simpa [Dictionary.run, Dictionary.step] using ih _ (WF_Add h k v)
    | remove k => simpa [Dictionary.run, Dictionary.step] using ih _ (WF_Remove h k)
    | clear => simpa [Dictionary.run, Dictionary.step] using ih _ (WF_Clear d)
    | balance =>
      obtain ⟨d1, h1⟩ := d.Balance_isOk
      simpa [Dictionary.run, Dictionary.step, h1] using ih d1 (WF_Balance h h1).1

theorem find?_eq_some_iff (d : Dictionary K V) (k : K) (v : V) :
    d.find? k = some v ↔ d.Get k = .ok v := by
  unfold find?
  cases d.Get k <;> simp

theorem find?_eq_none_iff (d : Dictionary K V) (k : K) :
    d.find? k = none ↔ d.Get k = .error .keyNotFound := by
  unfold find?
  cases hg : d.Get k with
  | ok v => simp
  | error e => simp [((Get_eq_error_iff d k e).1 hg).1]

theorem isSome_find? (d : Dictionary K V) (k : K) :
    (d.find? k).isSome = d.ContainsKey k := by
  rw [Bool.eq_iff_iff, Get_isOk, Option.isSome_iff_exists]
  simp only [find?_eq_some_iff]

theorem find?_Add {d : Dictionary K V} (h : d.WF) (k : K) (v : V) (k' : K) :
    (d.Add k v).find? k' = if k' = k then some v else d.find? k' := by
  by_cases hk : k' = k
  · subst hk
    simp [find?, Get_Add_self h]
  · simp [find?, Get_Add_of_ne h k v hk, hk]

theorem find?_Remove {d : Dictionary K V} (h : d.WF) (k : K) (k' : K) :
    (d.Remove k).find? k' = if k' = k then none else d.find? k' := by
  by_cases hk : k' = k
  · subst hk
    simp [find?, Get_Remove_self h]
  · simp [find?, Get_Remove_of_ne h k hk, hk]

theorem find?_empty (k : K) : (empty : Dictionary K V).find? k = none := rfl

theorem mem_keys_iff_find? {d : Dictionary K V} (h : d.WF) (k : K) :
    k ∈ d.keys ↔ (d.find? k).isSome = true := by
  rw [isSome_find?, ContainsKey_iff_mem_keys h]

theorem Remove_of_not_contains (d : Dictionary K V) (k : K) (h : d.ContainsKey k = false) :
    d.Remove k = d := by
  unfold Remove BinaryTree.remove
  rw [removeRecursive_of_not_contains _ _ _ h]

end Dictionary

namespace Set

variable {T : Type} [LinearOrder T]

theorem set_contains_iff {s : Set T} (h : s.WF) (x : T) :
    s.Contains x = true ↔ x ∈ s.toFinset := by
  simp only [Contains, BinaryTree.contains, containsRecursive_iff id h, toFinset, elems,
    List.mem_toFinset, id]
  constructor
  · rintro ⟨y, hy, rfl⟩
    exact hy
  · intro hx
    exact ⟨x, hx, rfl⟩

theorem set_wf_empty : (empty : Set T).WF := by
  simp [WF, empty, BinaryTree.empty, IsBST]

theorem set_toFinset_empty : (empty : Set T).toFinset = ∅ := rfl

theorem set_wf_clear (s : Set T) : s.Clear.WF := by
  simp [WF, Clear, BinaryTree.clear, IsBST]

theorem set_toFinset_clear (s : Set T) : s.Clear.toFinset = ∅ := rfl

theorem set_wf_add {s : Set T} (h : s.WF) (x : T) : (s.Add x).WF := by
  unfold Add
  split_ifs
  · exact (insertRecursive_spec id h x).1
  · exact h

theorem set_toFinset_add {s : Set T} (h : s.WF) (x : T) :
    (s.Add x).toFinset = insert x s.toFinset := by
  ext y
  unfold Add
  split_ifs with hc
  · simp only [toFinset, elems, BinaryTree.insert, List.mem_toFinset, Finset.mem_insert,
      (insertRecursive_spec id h x).2]
    constructor
    · rintro (hy | ⟨rfl, -⟩)
      · exact Or.inr hy
      · exact Or.inl rfl
    · rintro (rfl | hy)
      · refine Or.inr ⟨rfl, fun z hz hk => ?_⟩
        have : s.tree.contains id y = true :=
          (containsRecursive_iff id h y).2 ⟨z, hz, hk⟩
        simp [this] at hc
      · exact Or.inl hy
  · have : x ∈ s.toFinset := (set_contains_iff h x).1 (by simpa [Contains] using hc)
    simp [Finset.insert_eq_of_mem this]

theorem set_wf_remove {s : Set T} (h : s.WF) (x : T) : (s.Remove x).WF :=
  (removeRecursive_spec id h x).1

theorem set_toFinset_remove {s : Set T} (h : s.WF) (x : T) :
    (s.Remove x).toFinset = s.toFinset.erase x := by
  ext y
  simp only [toFinset, elems, Remove, BinaryTree.remove, List.mem_toFinset, Finset.mem_erase,
    (removeRecursive_spec id h x).2, id]
  exact and_comm

theorem set_nodup {s : Set T} (h : s.WF) : s.elems.Nodup := by
  have hp := (isBST_iff_pairwise id _).1 h
  exact hp.imp (fun hab => ne_of_lt hab)

theorem set_forEach_collect (s : Set T) :
    s.ForEach (fun result vertex => result ++ [vertex]) [] = s.elems := by
  simp [ForEach, BinaryTree.traverseInOrder, inOrder_eq_foldl, elems]
  have := foldl_append_singleton (fun x : T => x) s.tree.root.toList []
  simpa using this

end Set

/-! ## Containers: the claims -/

section ContainerClaims

variable {α κ K V : Type} [LinearOrder κ] [LinearOrder K] [Inhabited V]

/-- C7: for a linearly ordered key type, every sequence of `insert`, `remove` and
`balance` calls on the empty tree runs without throwing and ends in a binary search
tree: the keys visited by `traverseInOrder` are strictly ascending, so no key occurs
twice. -/
theorem C7_reachable_tree_is_search_tree (key : α → κ) (ops : List (TreeOp α)) :
    ∃ t, BinaryTree.run key BinaryTree.empty ops = .ok t ∧
      IsBST key t.root ∧
      List.Sorted (· < ·) (t.traverseInOrder (fun visited x => visited ++ [key x]) []) ∧
      (t.traverseInOrder (fun visited x => visited ++ [key x]) []).Nodup := by
  obtain ⟨t, h1, h2⟩ := BinaryTree.run_isBST key ops BinaryTree.empty (by simp [BinaryTree.empty, IsBST])
  have hs : List.Sorted (· < ·) (t.traverseInOrder (fun visited x => visited ++ [key x]) []) := by
    have hp := (isBST_iff_pairwise key _).1 h2
    simp only [BinaryTree.traverseInOrder, inOrder_eq_foldl, foldl_append_singleton,
      List.nil_append, List.Sorted, List.pairwise_map]
    exact hp
  exact ⟨t, h1, h2, hs, hs.imp (fun hab => ne_of_lt hab)⟩

/-- C8: for every dictionary `d` reached from the empty one by `Add`, `Remove`, `Clear`
and `Balance` calls, after `d.Add(k, v)` the call `Get(k)` returns `v`, `Get` of every
other key is what it was, and `GetCount` has grown by one when `ContainsKey(k)` was
false and is unchanged when it was true. -/
theorem C8_dictionary_add (ops : List (DictOp K V)) (k : K) (v : V) :
    ∃ d, Dictionary.run Dictionary.empty ops = .ok d ∧
      (d.Add k v).Get k = .ok v ∧
      (∀ k', k' ≠ k → (d.Add k v).Get k' = d.Get k') ∧
      (d.Add k v).GetCount = d.GetCount + (if d.ContainsKey k = true then 0 else 1) := by
  obtain ⟨d, h1, h2⟩ := Dictionary.run_WF ops Dictionary.empty Dictionary.WF_empty
  refine ⟨d, h1, Dictionary.Get_Add_self h2 k v,
    fun k' hk => Dictionary.Get_Add_of_ne h2 k v hk, ?_⟩
  rw [Dictionary.GetCount_eq_card (Dictionary.WF_Add h2 k v), Dictionary.GetCount_eq_card h2,
    Dictionary.keys_Add h2]
  have hc := Dictionary.ContainsKey_iff_mem_keys h2 k
  by_cases hk : k ∈ d.keys
  · simp [hk, hc.2 hk]
  · have : ¬ d.ContainsKey k = true := fun h => hk (hc.1 h)
    simp [hk, this]

/-- C9: on a binary search tree, after `remove(x)` the call `contains(y)` holds exactly
when it held before and the key of `y` is not the key of `x`; the result is again a
search tree; and when `contains(x)` is false the tree is returned unchanged.  `remove`
is a total function: it raises no error. -/
theorem C9_remove_contains (key : α → κ) (t : BinaryTree α) (h : IsBST key t.root) (x : α) :
    (∀ y, (t.remove key x).contains key y = true ↔
      (t.contains key y = true ∧ key y ≠ key x)) ∧
    IsBST key (t.remove key x).root ∧
    (t.contains key x = false → t.remove key x = t) := by
  obtain ⟨hb, hm⟩ := removeRecursive_spec key h x
  refine ⟨?_, hb, ?_⟩
  · intro y
    simp only [BinaryTree.contains, BinaryTree.remove, containsRecursive_iff key hb,
      containsRecursive_iff key h, hm]
    constructor
    · rintro ⟨z, ⟨hz, hn⟩, hk⟩
      exact ⟨⟨z, hz, hk⟩, hk ▸ hn⟩
    · rintro ⟨⟨z, hz, hk⟩, hn⟩
      exact ⟨z, ⟨hz, hk ▸ hn⟩, hk⟩
  · intro hc
    simp only [BinaryTree.remove, removeRecursive_of_not_contains key t.root x hc]

/-- C9 at the tree `1 <- 2 -> 3` with the root removed (a node with two children). -/
theorem C9_remove_contains_witness :
    IsBST id (Node.mk (.mk .null 1 .null) (2 : Nat) (.mk .null 3 .null)) ∧
      ((∀ y, (BinaryTree.remove id ⟨Node.mk (.mk .null 1 .null) (2 : Nat) (.mk .null 3 .null)⟩
          2).contains id y = true ↔
        ((BinaryTree.contains id ⟨Node.mk (.mk .null 1 .null) (2 : Nat) (.mk .null 3 .null)⟩
          y = true) ∧ id y ≠ id 2))) :=
  ⟨by simp [IsBST, Node.toList],
    (C9_remove_contains id ⟨Node.mk (.mk .null 1 .null) (2 : Nat) (.mk .null 3 .null)⟩
      (by simp [IsBST, Node.toList]) 2).1⟩

/-- C10: `balance()` does not throw and the sequence visited by `traverseInOrder` after
it equals the sequence visited before it; likewise `Dictionary::Balance` keeps the
sequence of (key, value) pairs visited by `ForEach`. -/
theorem C10_balance_preserves_inorder (t : BinaryTree α) (d : Dictionary K V) :
    (∃ t', t.balance = .ok t' ∧
      t'.traverseInOrder (fun visited x => visited ++ [x]) [] =
        t.traverseInOrder (fun visited x => visited ++ [x]) []) ∧
    (∃ d', d.Balance = .ok d' ∧
      d'.ForEach (fun visited k v => visited ++ [(k, v)]) [] =
        d.ForEach (fun visited k v => visited ++ [(k, v)]) []) := by
  constructor
  · obtain ⟨t', h1, h2⟩ := t.balance_spec
    exact ⟨t', h1, by simp only [BinaryTree.traverseInOrder, inOrder_eq_foldl, h2]⟩
  · obtain ⟨t', h1, h2⟩ := d.tree.balance_spec
    refine ⟨⟨t'⟩, by simp [Dictionary.Balance, h1], ?_⟩
    simp only [Dictionary.ForEach, BinaryTree.traverseInOrder, inOrder_eq_foldl, h2]

end ContainerClaims

/-! ## Storage of a graph -/

section StoreFacts

variable {T W : Type} [LinearOrder T] [Inhabited W]

theorem set_contains_add {s : Set T} (h : s.WF) (x y : T) :
    (s.Add x).Contains y = (decide (y = x) || s.Contains y) := by
  rw [Bool.eq_iff_iff, Set.set_contains_iff (Set.set_wf_add h x), Set.set_toFinset_add h]
  simp [Set.set_contains_iff h]

theorem set_contains_remove {s : Set T} (h : s.WF) (x y : T) :
    (s.Remove x).Contains y = (!decide (y = x) && s.Contains y) := by
  rw [Bool.eq_iff_iff, Set.set_contains_iff (Set.set_wf_remove h x), Set.set_toFinset_remove h]
  simp [Set.set_contains_iff h]

theorem set_contains_empty (y : T) : (Set.empty : Set T).Contains y = false := rfl

theorem storedWeight_put {adj : Dictionary T (Dictionary T W)} (h : adj.WF) (x : T)
    (d : Dictionary T W) (x' y : T) :
    storedWeight (adj.Add x d) x' y = if x' = x then d.find? y else storedWeight adj x' y := by
  unfold storedWeight
  rw [Dictionary.find?_Add h]
  split_ifs <;> simp

theorem storedWeight_drop {adj : Dictionary T (Dictionary T W)} (h : adj.WF) (v x y : T) :
    storedWeight (adj.Remove v) x y = if x = v then none else storedWeight adj x y := by
  unfold storedWeight
  rw [Dictionary.find?_Remove h]
  split_ifs <;> simp

theorem storedWeight_empty (x y : T) :
    storedWeight (Dictionary.empty : Dictionary T (Dictionary T W)) x y = none := rfl

theorem storedWeight_of_find? {adj : Dictionary T (Dictionary T W)} {x : T}
    {d : Dictionary T W} (h : adj.find? x = some d) (y : T) :
    storedWeight adj x y = d.find? y := by
  simp [storedWeight, h]

theorem storedWeight_source {adj : Dictionary T (Dictionary T W)} {x y : T}
    (h : (storedWeight adj x y).isSome = true) : (adj.find? x).isSome = true := by
  unfold storedWeight at h
  cases hf : adj.find? x with
  | none => simp [hf] at h
  | some d => rfl

theorem stored_empty : Stored (Dictionary.empty : Dictionary T (Dictionary T W)) Set.empty where
  vs_wf := Set.set_wf_empty
  adj_wf := Dictionary.WF_empty
  inner_wf := fun x d h => by simp [Dictionary.find?_empty] at h
  keys_eq := fun x => rfl
  targets := fun x y h => by simp [storedWeight_empty] at h

theorem stored_put {adj : Dictionary T (Dictionary T W)} {vs : Set T} (h : Stored adj vs)
    {x : T} (hx : vs.Contains x = true) {d : Dictionary T W} (hd : d.WF)
    (ht : ∀ y, (d.find? y).isSome = true → vs.Contains y = true) :
    Stored (adj.Add x d) vs where
  vs_wf := h.vs_wf
  adj_wf := Dictionary.WF_Add h.adj_wf x d
  inner_wf := by
    intro x' d' hf
    rw [Dictionary.find?_Add h.adj_wf] at hf
    split_ifs at hf with hxx
    · cases hf; exact hd
    · exact h.inner_wf x' d' hf
  keys_eq := by
    intro x'
    rw [Dictionary.find?_Add h.adj_wf]
    split_ifs with hxx
    · subst hxx; simp [hx]
    · exact h.keys_eq x'
  targets := by
    intro x' y hw
    rw [storedWeight_put h.adj_wf] at hw
    split_ifs at hw with hxx
    · exact ht y hw
    · exact h.targets x' y hw

theorem stored_addVertex {adj : Dictionary T (Dictionary T W)} {vs : Set T} (h : Stored adj vs)
    (v : T) : Stored (adj.Add v Dictionary.empty) (vs.Add v) where
  vs_wf := Set.set_wf_add h.vs_wf v
  adj_wf := Dictionary.WF_Add h.adj_wf v _
  inner_wf := by
    intro x' d' hf
    rw [Dictionary.find?_Add h.adj_wf] at hf
    split_ifs at hf with hxx
    · cases hf; exact Dictionary.WF_empty
    · exact h.inner_wf x' d' hf
  keys_eq := by
    intro x'
    rw [Dictionary.find?_Add h.adj_wf, set_contains_add h.vs_wf]
    split_ifs with hxx
    · simp [hxx]
    · simp [hxx, h.keys_eq x']
  targets := by
    intro x' y hw
    rw [storedWeight_put h.adj_wf] at hw
    rw [set_contains_add h.vs_wf]
    split_ifs at hw with hxx
    · simp [Dictionary.find?_empty] at hw
    · simp [h.targets x' y hw]

theorem storedWeight_addVertex {adj : Dictionary T (Dictionary T W)} {vs : Set T}
    (h : Stored adj vs) {v : T} (hv : vs.Contains v = false) (x y : T) :
    storedWeight (adj.Add v Dictionary.empty) x y = storedWeight adj x y := by
  rw [storedWeight_put h.adj_wf]
  split_ifs with hxx
  · subst hxx
    have : adj.find? x = none := by
      have := h.keys_eq x
      rw [hv] at this
      simpa using this
    simp [storedWeight, this, Dictionary.find?_empty]
  · rfl

theorem stored_drop {adj : Dictionary T (Dictionary T W)} {vs : Set T} (h : Stored adj vs)
    (v : T) (hin : ∀ x, x ≠ v → storedWeight adj x v = none) :
    Stored (adj.Remove v) (vs.Remove v) where
  vs_wf := Set.set_wf_remove h.vs_wf v
  adj_wf := Dictionary.WF_Remove h.adj_wf v
  inner_wf := by
    intro x' d' hf
    rw [Dictionary.find?_Remove h.adj_wf] at hf
    split_ifs at hf with hxx
    exact h.inner_wf x' d' hf
  keys_eq := by
    intro x'
    rw [Dictionary.find?_Remove h.adj_wf, set_contains_remove h.vs_wf]
    split_ifs with hxx
    · simp [hxx]
    · simp [hxx, h.keys_eq x']
  targets := by
    intro x' y hw
    rw [storedWeight_drop h.adj_wf] at hw
    rw [set_contains_remove h.vs_wf]
    split_ifs at hw with hxx
    · simp at hw
    · have hy : y ≠ v := by
        rintro rfl
        rw [hin x' hxx] at hw
        simp at hw
      simp [hy, h.targets x' y hw]

theorem mem_storeEdges {adj : Dictionary T (Dictionary T W)} {vs : Set T} (h : Stored adj vs)
    (p : T × T) : p ∈ storeEdges adj vs ↔ (storedWeight adj p.1 p.2).isSome = true := by
  simp only [storeEdges, Finset.mem_filter, Finset.mem_product, and_iff_right_iff_imp]
  intro hw
  refine ⟨?_, ?_⟩
  · rw [← Set.set_contains_iff h.vs_wf, ← h.keys_eq]
    exact storedWeight_source hw
  · rw [← Set.set_contains_iff h.vs_wf]
    exact h.targets _ _ hw

theorem storeEdges_congr {adj adj' : Dictionary T (Dictionary T W)} {vs vs' : Set T}
    (h : Stored adj vs) (h' : Stored adj' vs')
    (hw : ∀ x y, (storedWeight adj' x y).isSome = (storedWeight adj x y).isSome) :
    storeEdges adj' vs' = storeEdges adj vs := by
  ext p
  rw [mem_storeEdges h, mem_storeEdges h', hw]

theorem find?_of_contains {adj : Dictionary T (Dictionary T W)} {vs : Set T}
    (h : Stored adj vs) {x : T} (hx : vs.Contains x = true) :
    ∃ d, adj.Get x = .ok d ∧ adj.find? x = some d ∧ d.WF := by
  have h1 := h.keys_eq x
  rw [hx, Option.isSome_iff_exists] at h1
  obtain ⟨d, hd⟩ := h1
  exact ⟨d, (Dictionary.find?_eq_some_iff _ _ _).1 hd, hd, h.inner_wf x d hd⟩

theorem mem_storeLinks {adj : Dictionary T (Dictionary T W)} {vs : Set T} (h : Stored adj vs)
    (hs : ∀ x y, storedWeight adj x y = storedWeight adj y x) (x y : T) :
    s(x, y) ∈ storeLinks adj vs ↔ (storedWeight adj x y).isSome = true := by
  simp only [storeLinks, Finset.mem_image, mem_storeEdges h, Prod.exists, Sym2.eq_iff]
  constructor
  · rintro ⟨a, b, hab, (⟨rfl, rfl⟩ | ⟨rfl, rfl⟩)⟩
    · exact hab
    · rw [hs]; exact hab
  · intro hxy
    exact ⟨x, y, hxy, Or.inl ⟨rfl, rfl⟩⟩

/-- Writing `w` under `adjMatrix[u][v]` and under `adjMatrix[v][u]`, as `AddEdge` and
`SetEdgeWeight` of the undirected graph do. -/
theorem stored_link {adj : Dictionary T (Dictionary T W)} {vs : Set T} (h : Stored adj vs)
    {u v : T} {du dv : Dictionary T W} (hu : adj.find? u = some du)
    (hv : adj.find? v = some dv) (w : W) :
    Stored ((adj.Add u (du.Add v w)).Add v (dv.Add u w)) vs ∧
      ∀ x y, storedWeight ((adj.Add u (du.Add v w)).Add v (dv.Add u w)) x y =
        if (x = u ∧ y = v) ∨ (x = v ∧ y = u) then some w else storedWeight adj x y := by
  have hcu : vs.Contains u = true := by rw [← h.keys_eq, hu]; rfl
  have hcv : vs.Contains v = true := by rw [← h.keys_eq, hv]; rfl
  have hdu := h.inner_wf u du hu
  have hdv := h.inner_wf v dv hv
  have h1 : Stored (adj.Add u (du.Add v w)) vs := by
    apply stored_put h hcu (Dictionary.WF_Add hdu v w)
    intro y hy
    rw [Dictionary.find?_Add hdu] at hy
    split_ifs at hy with hyv
    · rw [hyv]; exact hcv
    · apply h.targets u y
      rw [storedWeight_of_find? hu]; exact hy
  have h2 : Stored ((adj.Add u (du.Add v w)).Add v (dv.Add u w)) vs := by
    apply stored_put h1 hcv (Dictionary.WF_Add hdv u w)
    intro y hy
    rw [Dictionary.find?_Add hdv] at hy
    split_ifs at hy with hyu
    · rw [hyu]; exact hcu
    · apply h.targets v y
      rw [storedWeight_of_find? hv]; exact hy
  refine ⟨h2, ?_⟩
  intro x y
  rw [storedWeight_put h1.adj_wf, storedWeight_put h.adj_wf, Dictionary.find?_Add hdv,
    Dictionary.find?_Add hdu, ← storedWeight_of_find? hu, ← storedWeight_of_find? hv]
  by_cases hxv : x = v <;> by_cases hxu : x = u <;> by_cases hyu : y = u <;>
    by_cases hyv : y = v <;> simp_all

/-- Deleting `adjMatrix[u][v]` and `adjMatrix[v][u]`, as `RemoveEdge` of the undirected
graph does. -/
theorem stored_unlink {adj : Dictionary T (Dictionary T W)} {vs : Set T} (h : Stored adj vs)
    {u v : T} {du dv : Dictionary T W} (hu : adj.find? u = some du)
    (hv : adj.find? v = some dv) :
    Stored ((adj.Add u (du.Remove v)).Add v (dv.Remove u)) vs ∧
      ∀ x y, storedWeight ((adj.Add u (du.Remove v)).Add v (dv.Remove u)) x y =
        if (x = u ∧ y = v) ∨ (x = v ∧ y = u) then none else storedWeight adj x y := by
  have hcu : vs.Contains u = true := by rw [← h.keys_eq, hu]; rfl
  have hcv : vs.Contains v = true := by rw [← h.keys_eq, hv]; rfl
  have hdu := h.inner_wf u du hu
  have hdv := h.inner_wf v dv hv
  have h1 : Stored (adj.Add u (du.Remove v)) vs := by
    apply stored_put h hcu (Dictionary.WF_Remove hdu v)
    intro y hy
    rw [Dictionary.find?_Remove hdu] at hy
    split_ifs at hy with hyv
    · simp at hy
    · apply h.targets u y
      rw [storedWeight_of_find? hu]; exact hy
  have h2 : Stored ((adj.Add u (du.Remove v)).Add v (dv.Remove u)) vs := by
    apply stored_put h1 hcv (Dictionary.WF_Remove hdv u)
    intro y hy
    rw [Dictionary.find?_Remove hdv] at hy
    split_ifs at hy with hyu
    · simp at hy
    · apply h.targets v y
      rw [storedWeight_of_find? hv]; exact hy
  refine ⟨h2, ?_⟩
  intro x y
  rw [storedWeight_put h1.adj_wf, storedWeight_put h.adj_wf, Dictionary.find?_Remove hdv,
    Dictionary.find?_Remove hdu, ← storedWeight_of_find? hu, ← storedWeight_of_find? hv]
  by_cases hxv : x = v <;> by_cases hxu : x = u <;> by_cases hyu : y = u <;>
    by_cases hyv : y = v <;> simp_all

theorem storeLinks_link {adj adj' : Dictionary T (Dictionary T W)} {vs vs' : Set T}
    (h : Stored adj vs) (hs : ∀ x y, storedWeight adj x y = storedWeight adj y x)
    (h' : Stored adj' vs') (hs' : ∀ x y, storedWeight adj' x y = storedWeight adj' y x)
    (u v : T) (w : W)
    (hw : ∀ x y, storedWeight adj' x y =
      if (x = u ∧ y = v) ∨ (x = v ∧ y = u) then some w else storedWeight adj x y) :
    storeLinks adj' vs' = insert s(u, v) (storeLinks adj vs) := by
  ext e
  induction e using Sym2.ind with
  | _ x y =>
    rw [mem_storeLinks h' hs', hw, Finset.mem_insert, mem_storeLinks h hs, Sym2.eq_iff]
    by_cases hc : (x = u ∧ y = v) ∨ (x = v ∧ y = u)
    · simp [hc]
    · simp [hc]

theorem storeLinks_unlink {adj adj' : Dictionary T (Dictionary T W)} {vs vs' : Set T}
    (h : Stored adj vs) (hs : ∀ x y, storedWeight adj x y = storedWeight adj y x)
    (h' : Stored adj' vs') (hs' : ∀ x y, storedWeight adj' x y = storedWeight adj' y x)
    (u v : T)
    (hw : ∀ x y, storedWeight adj' x y =
      if (x = u ∧ y = v) ∨ (x = v ∧ y = u) then none else storedWeight adj x y) :
    storeLinks adj' vs' = (storeLinks adj vs).erase s(u, v) := by
  ext e
  induction e using Sym2.ind with
  | _ x y =>
    rw [mem_storeLinks h' hs', hw, Finset.mem_erase, mem_storeLinks h hs]
    simp only [ne_eq, Sym2.eq_iff]
    by_cases hc : (x = u ∧ y = v) ∨ (x = v ∧ y = u)
    · simp [hc]
    · simp [hc]

theorem storeLinks_congr {adj adj' : Dictionary T (Dictionary T W)} {vs vs' : Set T}
    (h : Stored adj vs) (h' : Stored adj' vs')
    (hw : ∀ x y, (storedWeight adj' x y).isSome = (storedWeight adj x y).isSome) :
    storeLinks adj' vs' = storeLinks adj vs := by
  rw [storeLinks, storeLinks, storeEdges_congr h h' hw]

end StoreFacts

/-! ## DirectedGraph -/

namespace DirectedGraph

variable {T W : Type} [LinearOrder T] [Inhabited W]

theorem dg_hasEdge_eq (g : DirectedGraph T W) (x y : T) :
    g.HasEdge x y =
      (g.vertices.Contains x && g.vertices.Contains y &&
        (storedWeight g.adjMatrix x y).isSome) := by
  unfold HasEdge HasVertex
  cases hx : g.vertices.Contains x <;> cases hy : g.vertices.Contains y <;>
    simp only [Bool.not_true, Bool.not_false, Bool.or_false, Bool.or_true, Bool.false_and,
      Bool.true_and, Bool.and_false, if_true]
  simp only [Bool.false_eq_true, if_false, ← Dictionary.isSome_find?]
  unfold storedWeight
  cases hg : g.adjMatrix.find? x with
  | none => simp
  | some d =>
    rw [(Dictionary.find?_eq_some_iff _ _ _).1 hg]
    simp [Dictionary.isSome_find?]

theorem dg_hasEdge_iff {g : DirectedGraph T W} (h : Stored g.adjMatrix g.vertices) (x y : T) :
    g.HasEdge x y = (storedWeight g.adjMatrix x y).isSome := by
  rw [dg_hasEdge_eq]
  cases hw : (storedWeight g.adjMatrix x y).isSome
  · simp
  · have h1 := h.targets x y hw
    have h2 := h.keys_eq x
    rw [storedWeight_source hw] at h2
    simp [h1, ← h2]

theorem dg_hasEdge_iff_mem {g : DirectedGraph T W} (h : Stored g.adjMatrix g.vertices)
    (x y : T) : g.HasEdge x y = true ↔ (x, y) ∈ storeEdges g.adjMatrix g.vertices := by
  rw [mem_storeEdges h, dg_hasEdge_iff h]

theorem dg_inv_empty : (empty : DirectedGraph T W).Inv where
  stored := stored_empty
  vcount := rfl
  ecount := rfl

theorem dg_addVertex_spec {g : DirectedGraph T W} (h : g.Inv) (v : T) :
    (g.AddVertex v).Inv ∧
      (∀ x y, storedWeight (g.AddVertex v).adjMatrix x y = storedWeight g.adjMatrix x y) ∧
      (∀ x, (g.AddVertex v).vertices.Contains x = (decide (x = v) || g.vertices.Contains x)) ∧
      (g.AddVertex v).edgeCount = g.edgeCount ∧
      (g.AddVertex v).vertexCount = g.vertexCount + (if g.HasVertex v = true then 0 else 1) := by
  unfold AddVertex
  cases hc : g.vertices.Contains v
  · simp only [Bool.not_false, if_true, invalidateCache, HasVertex, hc, Bool.false_eq_true,
      if_false]
    have hs := stored_addVertex h.stored v
    have hw := storedWeight_addVertex h.stored hc
    refine ⟨⟨hs, ?_, ?_⟩, hw, set_contains_add h.stored.vs_wf v, trivial, trivial⟩
    · have hv : v ∉ g.vertices.toFinset := by
        rw [← Set.set_contains_iff h.stored.vs_wf, hc]; simp
      simp only [Set.set_toFinset_add h.stored.vs_wf, Finset.card_insert_of_not_mem hv, h.vcount]
      push_cast
      trivial
    · simp only [storeEdges_congr h.stored hs (fun x y => by rw [hw]), h.ecount]
  · simp only [Bool.not_true, Bool.false_eq_true, if_false, HasVertex, hc, if_true, add_zero]
    refine ⟨h, fun _ _ => trivial, ?_, trivial, trivial⟩
    intro x
    by_cases hx : x = v
    · simp [hx, hc]
    · simp [hx]

theorem dg_addEdge_eq (g : DirectedGraph T W) (u v : T) (w : W) {d : Dictionary T W}
    (hget : ((g.AddVertex u).AddVertex v).adjMatrix.Get u = .ok d) :
    g.AddEdge u v w = .ok
      { adjMatrix := ((g.AddVertex u).AddVertex v).adjMatrix.Add u (d.Add v w)
        vertices := ((g.AddVertex u).AddVertex v).vertices
        cachedVertices := none
        vertexCount := ((g.AddVertex u).AddVertex v).vertexCount
        edgeCount := ((g.AddVertex u).AddVertex v).edgeCount +
          (if d.ContainsKey v = true then 0 else 1) } := by
  simp only [AddEdge, hget, invalidateCache]
  cases d.ContainsKey v <;> simp

/-- On a graph that satisfies the invariants, `AddEdge(u, v, w)` does not throw, keeps
the invariants, stores `w` under `(u, v)` and nothing else, adds `u` and `v` to the
vertices, and counts the edge when it is new. -/
theorem dg_addEdge_spec {g : DirectedGraph T W} (h : g.Inv) (u v : T) (w : W) :
    ∃ g', g.AddEdge u v w = .ok g' ∧ g'.Inv ∧
      (∀ x y, storedWeight g'.adjMatrix x y =
        if x = u ∧ y = v then some w else storedWeight g.adjMatrix x y) ∧
      (∀ x, g'.vertices.Contains x =
        (decide (x = u) || decide (x = v) || g.vertices.Contains x)) ∧
      g'.edgeCount = g.edgeCount + (if g.HasEdge u v = true then 0 else 1) ∧
      g'.vertexCount = ((g.AddVertex u).AddVertex v).vertexCount := by
  obtain ⟨i1, w1, c1, e1, -⟩ := dg_addVertex_spec h u
  obtain ⟨i2, w2, c2, e2, -⟩ := dg_addVertex_spec i1 v
  have hcu : ((g.AddVertex u).AddVertex v).vertices.Contains u = true := by
    rw [c2, c1]; simp
  have hcv : ((g.AddVertex u).AddVertex v).vertices.Contains v = true := by
    rw [c2]; simp
  obtain ⟨d, hget, hfind, hd⟩ := find?_of_contains i2.stored hcu
  have hsw : ∀ y, d.find? y = storedWeight g.adjMatrix u y := by
    intro y
    rw [← storedWeight_of_find? hfind, w2, w1]
  have hput : Stored (((g.AddVertex u).AddVertex v).adjMatrix.Add u (d.Add v w))
      ((g.AddVertex u).AddVertex v).vertices := by
    apply stored_put i2.stored hcu (Dictionary.WF_Add hd v w)
    intro y hy
    rw [Dictionary.find?_Add hd] at hy
    split_ifs at hy with hyv
    · rw [hyv]; exact hcv
    · apply i2.stored.targets u y
      rw [storedWeight_of_find? hfind]; exact hy
  have hw' : ∀ x y,
      storedWeight (((g.AddVertex u).AddVertex v).adjMatrix.Add u (d.Add v w)) x y =
        if x = u ∧ y = v then some w else storedWeight g.adjMatrix x y := by
    intro x y
    rw [storedWeight_put i2.stored.adj_wf, Dictionary.find?_Add hd, hsw, w2, w1]
    by_cases hx : x = u
    · subst hx
      by_cases hy : y = v
      · simp [hy]
      · simp [hy]
    · simp [hx]
  have hedges : storeEdges (((g.AddVertex u).AddVertex v).adjMatrix.Add u (d.Add v w))
      ((g.AddVertex u).AddVertex v).vertices =
        insert (u, v) (storeEdges g.adjMatrix g.vertices) := by
    ext p
    rw [mem_storeEdges hput, hw', Finset.mem_insert, mem_storeEdges h.stored]
    obtain ⟨x, y⟩ := p
    by_cases hp : x = u ∧ y = v
    · simp [hp]
    · have : ¬ ((x, y) = (u, v)) := by simpa using hp
      simp [hp, this]
  have hkey : d.ContainsKey v = g.HasEdge u v := by
    rw [← Dictionary.isSome_find?, hsw, dg_hasEdge_iff h.stored]
  have hE := dg_hasEdge_iff_mem h.stored u v
  refine ⟨_, dg_addEdge_eq g u v w hget, ⟨hput, i2.vcount, ?_⟩, hw', ?_, ?_, rfl⟩
  · simp only [hedges, hkey, e2, e1, h.ecount]
    cases hk : g.HasEdge u v
    · have hn : (u, v) ∉ storeEdges g.adjMatrix g.vertices := by
        rw [← hE, hk]; simp
      simp [Finset.card_insert_of_not_mem hn]
    · simp [Finset.insert_eq_of_mem (hE.1 hk)]
  · intro x
    show ((g.AddVertex u).AddVertex v).vertices.Contains x = _
    rw [c2, c1]
    cases decide (x = u) <;> cases decide (x = v) <;> simp
  · simp only [hkey, e2, e1]

/-- On a graph that satisfies the invariants, `RemoveEdge(u, v)` does not throw, keeps
the invariants, deletes the entry `(u, v)` and nothing else, and lowers the count when
the edge was there. -/
theorem dg_removeEdge_spec {g : DirectedGraph T W} (h : g.Inv) (u v : T) :
    ∃ g', g.RemoveEdge u v = .ok g' ∧ g'.Inv ∧
      (∀ x y, storedWeight g'.adjMatrix x y =
        if x = u ∧ y = v then none else storedWeight g.adjMatrix x y) ∧
      g'.vertices = g.vertices ∧
      g'.edgeCount = g.edgeCount - (if g.HasEdge u v = true then 1 else 0) ∧
      g'.vertexCount = g.vertexCount ∧
      (g.HasEdge u v = false → g' = g) := by
  cases he : g.HasEdge u v
  · refine ⟨g, by simp [RemoveEdge, he], h, ?_, rfl, by simp, rfl, fun _ => rfl⟩
    intro x y
    split_ifs with hp
    · rw [dg_hasEdge_iff h.stored] at he
      rw [hp.1, hp.2]
      simpa using he
    · rfl
  · have hsome : (storedWeight g.adjMatrix u v).isSome = true := by
      rw [← dg_hasEdge_iff h.stored]; exact he
    have hcu : g.vertices.Contains u = true := by
      rw [← h.stored.keys_eq]; exact storedWeight_source hsome
    obtain ⟨d, hget, hfind, hd⟩ := find?_of_contains h.stored hcu
    have hput : Stored (g.adjMatrix.Add u (d.Remove v)) g.vertices := by
      apply stored_put h.stored hcu (Dictionary.WF_Remove hd v)
      intro y hy
      rw [Dictionary.find?_Remove hd] at hy
      split_ifs at hy with hyv
      · simp at hy
      · apply h.stored.targets u y
        rw [storedWeight_of_find? hfind]; exact hy
    have hw' : ∀ x y, storedWeight (g.adjMatrix.Add u (d.Remove v)) x y =
        if x = u ∧ y = v then none else storedWeight g.adjMatrix x y := by
      intro x y
      rw [storedWeight_put h.stored.adj_wf, Dictionary.find?_Remove hd]
      by_cases hx : x = u
      · subst hx
        by_cases hy : y = v
        · simp [hy]
        · simp [hy, storedWeight_of_find? hfind]
      · simp [hx]
    have hedges : storeEdges (g.adjMatrix.Add u (d.Remove v)) g.vertices =
        (storeEdges g.adjMatrix g.vertices).erase (u, v) := by
      ext p
      rw [mem_storeEdges hput, hw', Finset.mem_erase, mem_storeEdges h.stored]
      obtain ⟨x, y⟩ := p
      by_cases hp : x = u ∧ y = v
      · simp [hp]
      · have : ¬ ((x, y) = (u, v)) := by simpa using hp
        simp [hp, this]
    have hmem : (u, v) ∈ storeEdges g.adjMatrix g.vertices :=
      (dg_hasEdge_iff_mem h.stored u v).1 he
    have heq : g.RemoveEdge u v = .ok
        { adjMatrix := g.adjMatrix.Add u (d.Remove v)
          vertices := g.vertices
          cachedVertices := none
          vertexCount := g.vertexCount
          edgeCount := g.edgeCount - 1 } := by
      simp only [RemoveEdge, he, if_true, hget, invalidateCache]
    refine ⟨_, heq, ⟨hput, h.vcount, ?_⟩, hw', rfl, by simp, rfl, fun hf => by simp at hf⟩
    simp only [hedges, Finset.card_erase_of_mem hmem, h.ecount]
    have : 1 ≤ (storeEdges g.adjMatrix g.vertices).card := Finset.card_pos.2 ⟨_, hmem⟩
    omega

end DirectedGraph

/-! ## UndirectedGraph -/

namespace UndirectedGraph

variable {T W : Type} [LinearOrder T] [Inhabited W]

theorem ug_hasEdge_eq (g : UndirectedGraph T W) (x y : T) :
    g.HasEdge x y =
      (g.vertices.Contains x && g.vertices.Contains y &&
        (storedWeight g.adjMatrix x y).isSome) := by
  unfold HasEdge HasVertex
  cases hx : g.vertices.Contains x <;> cases hy : g.vertices.Contains y <;>
    simp only [Bool.not_true, Bool.not_false, Bool.or_false, Bool.or_true, Bool.false_and,
      Bool.true_and, Bool.and_false, if_true]
  simp only [Bool.false_eq_true, if_false, ← Dictionary.isSome_find?]
  unfold storedWeight
  cases hg : g.adjMatrix.find? x with
  | none => simp
  | some d =>
    rw [(Dictionary.find?_eq_some_iff _ _ _).1 hg]
    simp [Dictionary.isSome_find?]

theorem ug_hasEdge_iff {g : UndirectedGraph T W} (h : Stored g.adjMatrix g.vertices) (x y : T) :
    g.HasEdge x y = (storedWeight g.adjMatrix x y).isSome := by
  rw [ug_hasEdge_eq]
  cases hw : (storedWeight g.adjMatrix x y).isSome
  · simp
  · have h1 := h.targets x y hw
    have h2 := h.keys_eq x
    rw [storedWeight_source hw] at h2
    simp [h1, ← h2]

theorem ug_hasEdge_iff_mem {g : UndirectedGraph T W} (h : g.Inv) (x y : T) :
    g.HasEdge x y = true ↔ s(x, y) ∈ storeLinks g.adjMatrix g.vertices := by
  rw [mem_storeLinks h.stored h.symm, ug_hasEdge_iff h.stored]

theorem ug_inv_empty : (empty : UndirectedGraph T W).Inv where
  stored := stored_empty
  symm := fun _ _ => rfl
  vcount := rfl
  ecount := rfl

theorem ug_inv_clear (g : UndirectedGraph T W) : g.Clear.Inv where
  stored := stored_empty
  symm := fun _ _ => rfl
  vcount := rfl
  ecount := rfl

theorem ug_addVertex_spec {g : UndirectedGraph T W} (h : g.Inv) (v : T) :
    (g.AddVertex v).Inv ∧
      (∀ x y, storedWeight (g.AddVertex v).adjMatrix x y = storedWeight g.adjMatrix x y) ∧
      (∀ x, (g.AddVertex v).vertices.Contains x = (decide (x = v) || g.vertices.Contains x)) ∧
      (g.AddVertex v).edgeCount = g.edgeCount ∧
      (g.AddVertex v).vertexCount = g.vertexCount + (if g.HasVertex v = true then 0 else 1) := by
  unfold AddVertex
  cases hc : g.vertices.Contains v
  · simp only [Bool.not_false, if_true, invalidateCache, HasVertex, hc, Bool.false_eq_true,
      if_false]
    have hs := stored_addVertex h.stored v
    have hw := storedWeight_addVertex h.stored hc
    refine ⟨⟨hs, ?_, ?_, ?_⟩, hw, set_contains_add h.stored.vs_wf v, trivial, trivial⟩
    · intro x y
      rw [hw, hw, h.symm]
    · have hv : v ∉ g.vertices.toFinset := by
        rw [← Set.set_contains_iff h.stored.vs_wf, hc]; simp
      simp only [Set.set_toFinset_add h.stored.vs_wf, Finset.card_insert_of_not_mem hv, h.vcount]
      push_cast
      trivial
    · simp only [storeLinks_congr h.stored hs (fun x y => by rw [hw]), h.ecount]
  · simp only [Bool.not_true, Bool.false_eq_true, if_false, HasVertex, hc, if_true, add_zero]
    refine ⟨h, fun _ _ => trivial, ?_, trivial, trivial⟩
    intro x
    by_cases hx : x = v
    · simp [hx, hc]
    · simp [hx]

theorem ug_addEdge_eq (g : UndirectedGraph T W) (u v : T) (w : W) {du dv : Dictionary T W}
    (hu : ((g.AddVertex u).AddVertex v).adjMatrix.Get u = .ok du)
    (hv : ((g.AddVertex u).AddVertex v).adjMatrix.Get v = .ok dv) :
    g.AddEdge u v w = .ok
      { adjMatrix :=
          (((g.AddVertex u).AddVertex v).adjMatrix.Add u (du.Add v w)).Add v (dv.Add u w)
        vertices := ((g.AddVertex u).AddVertex v).vertices
        cachedVertices := none
        vertexCount := ((g.AddVertex u).AddVertex v).vertexCount
        edgeCount := ((g.AddVertex u).AddVertex v).edgeCount +
          (if du.ContainsKey v = true then 0 else 1) } := by
  simp only [AddEdge, hu, hv, invalidateCache]
  cases du.ContainsKey v <;> simp

/-- On a graph that satisfies the invariants, `AddEdge(u, v, w)` does not throw, keeps
the invariants, stores `w` under `(u, v)` and `(v, u)` and nothing else, adds `u` and `v`
to the vertices, and counts the edge when it is new. -/
theorem ug_addEdge_spec {g : UndirectedGraph T W} (h : g.Inv) (u v : T) (w : W) :
    ∃ g', g.AddEdge u v w = .ok g' ∧ g'.Inv ∧
      (∀ x y, storedWeight g'.adjMatrix x y =
        if (x = u ∧ y = v) ∨ (x = v ∧ y = u) then some w
        else storedWeight g.adjMatrix x y) ∧
      (∀ x, g'.vertices.Contains x =
        (decide (x = u) || decide (x = v) || g.vertices.Contains x)) ∧
      g'.edgeCount = g.edgeCount + (if g.HasEdge u v = true then 0 else 1) := by
  obtain ⟨i1, w1, c1, e1, -⟩ := ug_addVertex_spec h u
  obtain ⟨i2, w2, c2, e2, -⟩ := ug_addVertex_spec i1 v
  have hcu : ((g.AddVertex u).AddVertex v).vertices.Contains u = true := by
    rw [c2, c1]; simp
  have hcv : ((g.AddVertex u).AddVertex v).vertices.Contains v = true := by
    rw [c2]; simp
  obtain ⟨du, hgu, hfu, -⟩ := find?_of_contains i2.stored hcu
  obtain ⟨dv, hgv, hfv, -⟩ := find?_of_contains i2.stored hcv
  obtain ⟨hst, hw0⟩ := stored_link i2.stored hfu hfv w
  have hw' : ∀ x y, storedWeight
      ((((g.AddVertex u).AddVertex v).adjMatrix.Add u (du.Add v w)).Add v (dv.Add u w)) x y =
        if (x = u ∧ y = v) ∨ (x = v ∧ y = u) then some w
        else storedWeight g.adjMatrix x y := by
    intro x y
    rw [hw0, w2, w1]
  have hsym : ∀ x y, storedWeight
      ((((g.AddVertex u).AddVertex v).adjMatrix.Add u (du.Add v w)).Add v (dv.Add u w)) x y =
      storedWeight
      ((((g.AddVertex u).AddVertex v).adjMatrix.Add u (du.Add v w)).Add v (dv.Add u w)) y x := by
    intro x y
    rw [hw', hw', h.symm x y]
    have : ((x = u ∧ y = v) ∨ (x = v ∧ y = u)) ↔ ((y = u ∧ x = v) ∨ (y = v ∧ x = u)) := by
      tauto
    simp only [this]
  have hlinks := storeLinks_link h.stored h.symm hst hsym u v w hw'
  have hkey : du.ContainsKey v = g.HasEdge u v := by
    rw [← Dictionary.isSome_find?, ← storedWeight_of_find? hfu, w2, w1, ug_hasEdge_iff h.stored]
  have hE := ug_hasEdge_iff_mem h u v
  refine ⟨_, ug_addEdge_eq g u v w hgu hgv, ⟨hst, hsym, i2.vcount, ?_⟩, hw', ?_, ?_⟩
  · simp only [hlinks, hkey, e2, e1, h.ecount]
    cases hk : g.HasEdge u v
    · have hn : s(u, v) ∉ storeLinks g.adjMatrix g.vertices := by
        rw [← hE, hk]; simp
      simp [Finset.card_insert_of_not_mem hn]
    · simp [Finset.insert_eq_of_mem (hE.1 hk)]
  · intro x
    show ((g.AddVertex u).AddVertex v).vertices.Contains x = _
    rw [c2, c1]
    cases decide (x = u) <;> cases decide (x = v) <;> simp
  · simp only [hkey, e2, e1]

theorem ug_endpoints {g : UndirectedGraph T W} (h : g.Inv) {u v : T}
    (he : g.HasEdge u v = true) :
    ∃ du dv, g.adjMatrix.Get u = .ok du ∧ g.adjMatrix.find? u = some du ∧
      g.adjMatrix.Get v = .ok dv ∧ g.adjMatrix.find? v = some dv := by
  have hsome : (storedWeight g.adjMatrix u v).isSome = true := by
    rw [← ug_hasEdge_iff h.stored]; exact he
  have hcu : g.vertices.Contains u = true := by
    rw [← h.stored.keys_eq]; exact storedWeight_source hsome
  have hcv : g.vertices.Contains v = true := h.stored.targets u v hsome
  obtain ⟨du, hgu, hfu, -⟩ := find?_of_contains h.stored hcu
  obtain ⟨dv, hgv, hfv, -⟩ := find?_of_contains h.stored hcv
  exact ⟨du, dv, hgu, hfu, hgv, hfv⟩

/-- On a graph that satisfies the invariants, `RemoveEdge(u, v)` does not throw, keeps
the invariants, deletes the entries `(u, v)` and `(v, u)` and nothing else, and lowers
the count when the edge was there; otherwise the graph is returned as it was. -/
theorem ug_removeEdge_spec {g : UndirectedGraph T W} (h : g.Inv) (u v : T) :
    ∃ g', g.RemoveEdge u v = .ok g' ∧ g'.Inv ∧
      (∀ x y, storedWeight g'.adjMatrix x y =
        if (x = u ∧ y = v) ∨ (x = v ∧ y = u) then none else storedWeight g.adjMatrix x y) ∧
      g'.vertices = g.vertices ∧
      g'.edgeCount = g.edgeCount - (if g.HasEdge u v = true then 1 else 0) ∧
      g'.vertexCount = g.vertexCount ∧
      (g.HasEdge u v = false → g' = g) := by
  cases he : g.HasEdge u v
  · refine ⟨g, by simp [RemoveEdge, he], h, ?_, rfl, by simp, rfl, fun _ => rfl⟩
    intro x y
    rw [ug_hasEdge_iff h.stored] at he
    split_ifs with hp
    · rcases hp with ⟨rfl, rfl⟩ | ⟨rfl, rfl⟩
      · simpa using he
      · rw [h.symm]; simpa using he
    · rfl
  · obtain ⟨du, dv, hgu, hfu, hgv, hfv⟩ := ug_endpoints h he
    obtain ⟨hst, hw'⟩ := stored_unlink h.stored hfu hfv
    have hsym : ∀ x y,
        storedWeight ((g.adjMatrix.Add u (du.Remove v)).Add v (dv.Remove u)) x y =
        storedWeight ((g.adjMatrix.Add u (du.Remove v)).Add v (dv.Remove u)) y x := by
      intro x y
      rw [hw', hw', h.symm x y]
      have : ((x = u ∧ y = v) ∨ (x = v ∧ y = u)) ↔ ((y = u ∧ x = v) ∨ (y = v ∧ x = u)) := by
        tauto
      simp only [this]
    have hlinks := storeLinks_unlink h.stored h.symm hst hsym u v hw'
    have hmem : s(u, v) ∈ storeLinks g.adjMatrix g.vertices := (ug_hasEdge_iff_mem h u v).1 he
    have heq : g.RemoveEdge u v = .ok
        { adjMatrix := (g.adjMatrix.Add u (du.Remove v)).Add v (dv.Remove u)
          vertices := g.vertices
          cachedVertices := none
          vertexCount := g.vertexCount
          edgeCount := g.edgeCount - 1 } := by
      simp only [RemoveEdge, he, if_true, hgu, hgv, invalidateCache]
    refine ⟨_, heq, ⟨hst, hsym, h.vcount, ?_⟩, hw', rfl, by simp, rfl, fun hf => by simp at hf⟩
    simp only [hlinks, Finset.card_erase_of_mem hmem, h.ecount]
    have : 1 ≤ (storeLinks g.adjMatrix g.vertices).card := Finset.card_pos.2 ⟨_, hmem⟩
    omega

/-- On a graph that satisfies the invariants, `SetEdgeWeight(u, v, w)` throws
`edgeNotFound` when the edge is missing; otherwise it keeps the invariants, the
vertices and both counters and writes `w` under `(u, v)` and `(v, u)` only. -/
theorem ug_setEdgeWeight_spec {g : UndirectedGraph T W} (h : g.Inv) (u v : T) (w : W) :
    (g.HasEdge u v = false → g.SetEdgeWeight u v w = .error .edgeNotFound) ∧
    (g.HasEdge u v = true → ∃ g', g.SetEdgeWeight u v w = .ok g' ∧ g'.Inv ∧
      (∀ x y, storedWeight g'.adjMatrix x y =
        if (x = u ∧ y = v) ∨ (x = v ∧ y = u) then some w
        else storedWeight g.adjMatrix x y) ∧
      g'.vertices = g.vertices ∧ g'.edgeCount = g.edgeCount ∧
      g'.vertexCount = g.vertexCount) := by
  constructor
  · intro he
    simp [SetEdgeWeight, he]
  · intro he
    obtain ⟨du, dv, hgu, hfu, hgv, hfv⟩ := ug_endpoints h he
    obtain ⟨hst, hw'⟩ := stored_link h.stored hfu hfv w
    have hsym : ∀ x y,
        storedWeight ((g.adjMatrix.Add u (du.Add v w)).Add v (dv.Add u w)) x y =
        storedWeight ((g.adjMatrix.Add u (du.Add v w)).Add v (dv.Add u w)) y x := by
      intro x y
      rw [hw', hw', h.symm x y]
      have : ((x = u ∧ y = v) ∨ (x = v ∧ y = u)) ↔ ((y = u ∧ x = v) ∨ (y = v ∧ x = u)) := by
        tauto
      simp only [this]
    have hlinks := storeLinks_link h.stored h.symm hst hsym u v w hw'
    have hmem : s(u, v) ∈ storeLinks g.adjMatrix g.vertices := (ug_hasEdge_iff_mem h u v).1 he
    have heq : g.SetEdgeWeight u v w = .ok
        { adjMatrix := (g.adjMatrix.Add u (du.Add v w)).Add v (dv.Add u w)
          vertices := g.vertices
          cachedVertices := g.cachedVertices
          vertexCount := g.vertexCount
          edgeCount := g.edgeCount } := by
      simp only [SetEdgeWeight, he, Bool.not_true, Bool.false_eq_true, if_false, hgu, hgv]
    refine ⟨_, heq, ⟨hst, hsym, h.vcount, ?_⟩, hw', rfl, rfl, rfl⟩
    simp only [hlinks, Finset.insert_eq_of_mem hmem, h.ecount]

theorem foldlE_append {α σ : Type} (func : σ → α → Except Error σ) (s : σ) (l1 l2 : List α) :
    foldlE func s (l1 ++ l2) =
      match foldlE func s l1 with
      | .error e => .error e
      | .ok s1 => foldlE func s1 l2 := by
  induction l1 generalizing s with
  | nil => rfl
  | cons a l1 ih =>
    simp only [List.cons_append, foldlE]
    cases func s a with
    | error e => rfl
    | ok s1 => exact ih s1

theorem inOrderE_eq_foldlE {α σ : Type} (n : Node α) (func : σ → α → Except Error σ) (s : σ) :
    inOrderE n func s = foldlE func s n.toList := by
  induction n generalizing s with
  | null => rfl
  | mk l d r ihl ihr =>
    simp only [inOrderE, Node.toList, foldlE_append, ihl]
    cases foldlE func s l.toList with
    | error e => rfl
    | ok s1 =>
      simp only [foldlE]
      cases func s1 d with
      | error e => rfl
      | ok s2 => exact ihr s2

theorem foldlE_map {α β σ : Type} (f : α → β) (func : σ → β → Except Error σ) (s : σ)
    (l : List α) : foldlE (fun s x => func s (f x)) s l = foldlE func s (l.map f) := by
  induction l generalizing s with
  | nil => rfl
  | cons a l ih =>
    simp only [foldlE, List.map_cons]
    cases func s (f a) with
    | error e => rfl
    | ok s1 => exact ih s1

theorem forEachKeyE_eq_foldlE {σ : Type} (d : Dictionary T W) (func : σ → T → Except Error σ)
    (s : σ) :
    d.ForEachKeyE func s = foldlE func s (d.entries.map DictionaryPair.getKey) := by
  simp only [Dictionary.ForEachKeyE, BinaryTree.traverseInOrderE, inOrderE_eq_foldlE, foldlE_map,
    Dictionary.entries]

/-- One step of the loop of `RemoveVertex`: the entry `adjMatrix[n][v]` goes, nothing
else changes. -/
theorem ug_removeFromNeighbor_spec {g : UndirectedGraph T W} (v n : T)
    (h : Stored g.adjMatrix g.vertices) (hn : g.vertices.Contains n = true) :
    ∃ g', removeFromNeighbor v g n = .ok g' ∧ Stored g'.adjMatrix g'.vertices ∧
      g'.vertices = g.vertices ∧ g'.vertexCount = g.vertexCount ∧
      g'.edgeCount = g.edgeCount ∧
      ∀ x y, storedWeight g'.adjMatrix x y =
        if x = n ∧ y = v then none else storedWeight g.adjMatrix x y := by
  obtain ⟨d, hget, hfind, hd⟩ := find?_of_contains h hn
  cases hc : d.ContainsKey v
  · refine ⟨g, by simp [removeFromNeighbor, hget, hc], h, rfl, rfl, rfl, ?_⟩
    intro x y
    split_ifs with hxy
    · rw [hxy.1, hxy.2, storedWeight_of_find? hfind]
      rw [← Dictionary.isSome_find?] at hc
      simpa using hc
    · rfl
  · have hput : Stored (g.adjMatrix.Add n (d.Remove v)) g.vertices := by
      apply stored_put h hn (Dictionary.WF_Remove hd v)
      intro y hy
      rw [Dictionary.find?_Remove hd] at hy
      split_ifs at hy with hyv
      · simp at hy
      · apply h.targets n y
        rw [storedWeight_of_find? hfind]; exact hy
    refine ⟨{ g with adjMatrix := g.adjMatrix.Add n (d.Remove v) },
      by simp [removeFromNeighbor, hget, hc], hput, rfl, rfl, rfl, ?_⟩
    intro x y
    show storedWeight (g.adjMatrix.Add n (d.Remove v)) x y = _
    rw [storedWeight_put h.adj_wf, Dictionary.find?_Remove hd]
    by_cases hx : x = n
    · subst hx
      by_cases hy : y = v
      · simp [hy]
      · simp [hy, storedWeight_of_find? hfind]
    · simp [hx]

/-- The loop of `RemoveVertex` over the neighbours `ns`: it does not throw and deletes
the entries `adjMatrix[n][v]` for `n` in `ns`. -/
theorem ug_removeLoop_spec (v : T) (ns : List T) :
    ∀ g : UndirectedGraph T W, Stored g.adjMatrix g.vertices →
      (∀ n ∈ ns, g.vertices.Contains n = true) →
      ∃ g', foldlE (removeFromNeighbor v) g ns = .ok g' ∧
        Stored g'.adjMatrix g'.vertices ∧
        g'.vertices = g.vertices ∧ g'.vertexCount = g.vertexCount ∧
        g'.edgeCount = g.edgeCount ∧
        ∀ x y, storedWeight g'.adjMatrix x y =
          if x ∈ ns ∧ y = v then none else storedWeight g.adjMatrix x y := by
  induction ns with
  | nil =>
    intro g h _
    exact ⟨g, rfl, h, rfl, rfl, rfl, fun x y => by simp⟩
  | cons n ns ih =>
    intro g h hns
    obtain ⟨g1, h1, s1, v1, vc1, ec1, w1⟩ :=
      ug_removeFromNeighbor_spec v n h (hns n (List.mem_cons_self _ _))
    obtain ⟨g2, h2, s2, v2, vc2, ec2, w2⟩ := ih g1 s1 (by
      intro m hm
      rw [v1]
      exact hns m (List.mem_cons_of_mem _ hm))
    refine ⟨g2, by simp only [foldlE, h1, h2], s2, v2.trans v1, vc2.trans vc1,
      ec2.trans ec1, ?_⟩
    intro x y
    rw [w2, w1]
    by_cases hy : y = v
    · by_cases hx1 : x ∈ ns
      · simp [hx1, hy]
      · by_cases hx2 : x = n
        · simp [hx2, hy]
        · simp [hx1, hx2, hy]
    · simp [hy]

theorem ug_getAdjacentVertices_spec {g : UndirectedGraph T W}
    (h : Stored g.adjMatrix g.vertices) (v : T) :
    (g.HasVertex v = false → g.GetAdjacentVertices v = .error .vertexNotFound) ∧
    (g.HasVertex v = true → ∃ d, g.adjMatrix.find? v = some d ∧ d.WF ∧
      g.GetAdjacentVertices v = .ok (d.entries.map DictionaryPair.getKey)) := by
  constructor
  · intro hv
    simp [GetAdjacentVertices, hv]
  · intro hv
    obtain ⟨d, hget, hfind, hd⟩ := find?_of_contains h hv
    have hc : g.adjMatrix.ContainsKey v = true := by
      rw [← Dictionary.isSome_find?, hfind]; rfl
    exact ⟨d, hfind, hd, by
      simp [GetAdjacentVertices, hv, hc, hget, Dictionary.ForEachKey_collect]⟩

/-- The unordered pairs that contain `v` are the pairs `{v, n}` for the keys `n` of
`adjMatrix[v]`. -/
theorem storeLinks_filter_mem {adj : Dictionary T (Dictionary T W)} {vs : Set T}
    (h : Stored adj vs) (hs : ∀ x y, storedWeight adj x y = storedWeight adj y x)
    {v : T} {d : Dictionary T W} (hf : adj.find? v = some d) :
    (storeLinks adj vs).filter (fun e => v ∈ e) = d.keys.image (fun n => s(v, n)) := by
  have hd := h.inner_wf v d hf
  ext e
  induction e using Sym2.ind with
  | _ x y =>
    simp only [Finset.mem_filter, mem_storeLinks h hs, Sym2.mem_iff, Finset.mem_image,
      Dictionary.mem_keys_iff_find? hd, ← storedWeight_of_find? hf, Sym2.eq_iff]
    constructor
    · rintro ⟨hxy, (rfl | rfl)⟩
      · exact ⟨y, hxy, Or.inl ⟨rfl, rfl⟩⟩
      · exact ⟨x, by rw [hs]; exact hxy, Or.inr ⟨rfl, rfl⟩⟩
    · rintro ⟨n, hn, (⟨rfl, rfl⟩ | ⟨rfl, rfl⟩)⟩
      · exact ⟨hn, Or.inl rfl⟩
      · exact ⟨by rw [hs]; exact hn, Or.inr rfl⟩

/-- On a graph that satisfies the invariants, `RemoveVertex(v)` does not throw, keeps
the invariants, deletes every adjacency entry with `v` at either end and nothing else,
removes `v` from the vertices, and lowers the edge count by `GetCount` of
`adjMatrix[v]`.  When `v` is not a vertex the graph is returned as it was. -/
theorem ug_removeVertex_spec {g : UndirectedGraph T W} (h : g.Inv) (v : T) :
    ∃ g', g.RemoveVertex v = .ok g' ∧ g'.Inv ∧
      (∀ x y, storedWeight g'.adjMatrix x y =
        if x = v ∨ y = v then none else storedWeight g.adjMatrix x y) ∧
      (∀ x, g'.vertices.Contains x = (!decide (x = v) && g.vertices.Contains x)) ∧
      (g.HasVertex v = false → g' = g) ∧
      (g.HasVertex v = true → ∀ d, g.adjMatrix.find? v = some d →
        g'.edgeCount = g.edgeCount - d.GetCount) ∧
      g'.vertexCount = g.vertexCount - (if g.HasVertex v = true then 1 else 0) := by
  cases hv : g.HasVertex v
  · have hcv : g.vertices.Contains v = false := hv
    refine ⟨g, by simp [RemoveVertex, hv], h, ?_, ?_, fun _ => rfl, fun hf => by simp at hf,
      by simp⟩
    · intro x y
      split_ifs with hxy
      · cases hw : storedWeight g.adjMatrix x y with
        | none => rfl
        | some w0 =>
          have hsome : (storedWeight g.adjMatrix x y).isSome = true := by rw [hw]; rfl
          rcases hxy with rfl | rfl
          · have := h.stored.keys_eq x
            rw [storedWeight_source hsome, hcv] at this
            cases this
          · have := h.stored.targets x y hsome
            rw [hcv] at this
            cases this
      · rfl
    · intro x
      by_cases hx : x = v
      · simp [hx, hcv]
      · simp [hx]
  · have hcv : g.vertices.Contains v = true := hv
    obtain ⟨d, hget, hfind, hd⟩ := find?_of_contains h.stored hcv
    have hkeys : ∀ n, n ∈ d.entries.map DictionaryPair.getKey ↔
        (storedWeight g.adjMatrix v n).isSome = true := by
      intro n
      rw [storedWeight_of_find? hfind, ← Dictionary.mem_keys_iff_find? hd, Dictionary.keys,
        List.mem_toFinset]
    obtain ⟨g1, h1, s1, v1, vc1, ec1, w1⟩ :=
      ug_removeLoop_spec v (d.entries.map DictionaryPair.getKey) g h.stored (by
        intro n hn
        exact h.stored.targets v n ((hkeys n).1 hn))
    have w1' : ∀ x y, storedWeight g1.adjMatrix x y =
        if y = v then none else storedWeight g.adjMatrix x y := by
      intro x y
      rw [w1]
      by_cases hy : y = v
      · subst hy
        by_cases hx : x ∈ d.entries.map DictionaryPair.getKey
        · simp [hx]
        · simp only [hx, false_and, if_false, if_true]
          rw [hkeys, h.symm] at hx
          simpa using hx
      · simp [hy]
    have hdrop : Stored (g1.adjMatrix.Remove v) (g1.vertices.Remove v) :=
      stored_drop s1 v (fun x _ => by rw [w1']; simp)
    have hw' : ∀ x y, storedWeight (g1.adjMatrix.Remove v) x y =
        if x = v ∨ y = v then none else storedWeight g.adjMatrix x y := by
      intro x y
      rw [storedWeight_drop s1.adj_wf, w1']
      by_cases hx : x = v <;> by_cases hy : y = v <;> simp [hx, hy]
    have hsym : ∀ x y, storedWeight (g1.adjMatrix.Remove v) x y =
        storedWeight (g1.adjMatrix.Remove v) y x := by
      intro x y
      rw [hw', hw', h.symm x y]
      simp only [or_comm]
    have hlinks : storeLinks (g1.adjMatrix.Remove v) (g1.vertices.Remove v) =
        (storeLinks g.adjMatrix g.vertices).filter (fun e => ¬ v ∈ e) := by
      ext e
      induction e using Sym2.ind with
      | _ x y =>
        rw [mem_storeLinks hdrop hsym, hw', Finset.mem_filter, mem_storeLinks h.stored h.symm,
          Sym2.mem_iff]
        by_cases hc : x = v ∨ y = v
        · have : v = x ∨ v = y := hc.imp Eq.symm Eq.symm
          simp [hc, this]
        · have : ¬ (v = x ∨ v = y) := fun h => hc (h.imp Eq.symm Eq.symm)
          simp [hc, this]
    have hcard : ((storeLinks g.adjMatrix g.vertices).filter (fun e => ¬ v ∈ e)).card +
        d.keys.card = (storeLinks g.adjMatrix g.vertices).card := by
      have h1 := Finset.filter_card_add_filter_neg_card_eq_card
        (s := storeLinks g.adjMatrix g.vertices) (fun e => v ∈ e)
      rw [storeLinks_filter_mem h.stored h.symm hfind,
        Finset.card_image_of_injective _ (fun a b hab => by
          rcases Sym2.eq_iff.1 hab with ⟨-, hab'⟩ | ⟨hva, hbv⟩
          · exact hab'
          · exact hbv.trans hva)] at h1
      omega
    have heq : g.RemoveVertex v = .ok
        { adjMatrix := g1.adjMatrix.Remove v
          vertices := g1.vertices.Remove v
          cachedVertices := none
          vertexCount := g1.vertexCount - 1
          edgeCount := g1.edgeCount - d.GetCount } := by
      simp only [RemoveVertex, hv, Bool.not_true, Bool.false_eq_true, if_false, hget,
        forEachKeyE_eq_foldlE, h1, invalidateCache]
    have hmemv : v ∈ g.vertices.toFinset := (Set.set_contains_iff h.stored.vs_wf v).1 hcv
    refine ⟨_, heq, ⟨hdrop, hsym, ?_, ?_⟩, hw', ?_, fun hf => by simp at hf, ?_, ?_⟩
    · simp only [v1, vc1, Set.set_toFinset_remove h.stored.vs_wf, h.vcount,
        Finset.card_erase_of_mem hmemv]
      have : 1 ≤ g.vertices.toFinset.card := Finset.card_pos.2 ⟨_, hmemv⟩
      omega
    · simp only [hlinks, ec1, h.ecount, Dictionary.GetCount_eq_card hd]
      omega
    · intro x
      show (g1.vertices.Remove v).Contains x = _
      rw [v1, set_contains_remove h.stored.vs_wf]
    · intro _ d' hd'
      rw [hfind] at hd'
      cases hd'
      show g1.edgeCount - d.GetCount = _
      rw [ec1]
    · show g1.vertexCount - 1 = _
      rw [vc1]
      simp

theorem ug_getEdgeWeight_spec {g : UndirectedGraph T W} (h : Stored g.adjMatrix g.vertices)
    (x y : T) :
    g.GetEdgeWeight x y =
      match storedWeight g.adjMatrix x y with
      | some w => .ok w
      | none => .error .edgeNotFound := by
  unfold GetEdgeWeight
  rw [ug_hasEdge_iff h]
  cases hw : storedWeight g.adjMatrix x y with
  | none => simp
  | some w =>
    have hsome : (storedWeight g.adjMatrix x y).isSome = true := by rw [hw]; rfl
    have hcx : g.vertices.Contains x = true := by
      rw [← h.keys_eq]; exact storedWeight_source hsome
    obtain ⟨d, hget, hfind, -⟩ := find?_of_contains h hcx
    rw [storedWeight_of_find? hfind, Dictionary.find?_eq_some_iff] at hw
    simp [hget, hw]

theorem ug_step_inv {g g' : UndirectedGraph T W} (h : g.Inv) (op : GraphOp T W)
    (hs : g.step op = .ok g') : g'.Inv := by
  cases op with
  | addVertex v =>
    simp only [step, Except.ok.injEq] at hs
    subst hs
    exact (ug_addVertex_spec h v).1
  | addEdge u v w =>
    obtain ⟨g1, h1, i1, -⟩ := ug_addEdge_spec h u v w
    simp only [step, h1, Except.ok.injEq] at hs
    subst hs
    exact i1
  | removeVertex v =>
    obtain ⟨g1, h1, i1, -⟩ := ug_removeVertex_spec h v
    simp only [step, h1, Except.ok.injEq] at hs
    subst hs
    exact i1
  | removeEdge u v =>
    obtain ⟨g1, h1, i1, -⟩ := ug_removeEdge_spec h u v
    simp only [step, h1, Except.ok.injEq] at hs
    subst hs
    exact i1
  | setEdgeWeight u v w =>
    cases he : g.HasEdge u v
    · have := (ug_setEdgeWeight_spec h u v w).1 he
      simp only [step, this] at hs
      cases hs
    · obtain ⟨g1, h1, i1, -⟩ := (ug_setEdgeWeight_spec h u v w).2 he
      simp only [step, h1, Except.ok.injEq] at hs
      subst hs
      exact i1
  | clear =>
    simp only [step, Except.ok.injEq] at hs
    subst hs
    exact ug_inv_clear g

/-- On a graph that satisfies the invariants the only call that throws is
`SetEdgeWeight` on a missing edge, and it throws at its guard, before any change. -/
theorem ug_step_error {g : UndirectedGraph T W} (h : g.Inv) (op : GraphOp T W) (e : Error)
    (hs : g.step op = .error e) :
    ∃ u v w, op = .setEdgeWeight u v w ∧ g.HasEdge u v = false ∧ e = .edgeNotFound := by
  cases op with
  | addVertex v => simp [step] at hs
  | addEdge u v w =>
    obtain ⟨g1, h1, -⟩ := ug_addEdge_spec h u v w
    simp [step, h1] at hs
  | removeVertex v =>
    obtain ⟨g1, h1, -⟩ := ug_removeVertex_spec h v
    simp [step, h1] at hs
  | removeEdge u v =>
    obtain ⟨g1, h1, -⟩ := ug_removeEdge_spec h u v
    simp [step, h1] at hs
  | setEdgeWeight u v w =>
    cases he : g.HasEdge u v
    · have := (ug_setEdgeWeight_spec h u v w).1 he
      simp only [step, this, Except.error.injEq] at hs
      exact ⟨u, v, w, rfl, he, hs.symm⟩
    · obtain ⟨g1, h1, -⟩ := (ug_setEdgeWeight_spec h u v w).2 he
      simp [step, h1] at hs
  | clear => simp [step] at hs

/-- Every state reached from the empty undirected graph satisfies the invariants. -/
theorem ug_run_inv (ops : List (GraphOp T W)) :
    ∀ g g' : UndirectedGraph T W, g.Inv → UndirectedGraph.run g ops = .ok g' → g'.Inv := by
  induction ops with
  | nil =>
    intro g g' h hr
    simp only [run, Except.ok.injEq] at hr
    subst hr
    exact h
  | cons op ops ih =>
    intro g g' h hr
    simp only [run] at hr
    cases hs : g.step op with
    | error e => simp [hs] at hr
    | ok g1 =>
      simp only [hs] at hr
      exact ih g1 g' (ug_step_inv h op hs) hr

/-- A sequence of `AddEdge` and `RemoveEdge` calls does not throw. -/
theorem ug_run_edgeOps (ops : List (GraphOp T W)) :
    ∀ g : UndirectedGraph T W, g.Inv → (∀ op ∈ ops, op.isEdgeOp = true) →
      ∃ g', UndirectedGraph.run g ops = .ok g' ∧ g'.Inv := by
  induction ops with
  | nil => intro g h _; exact ⟨g, rfl, h⟩
  | cons op ops ih =>
    intro g h hops
    have hop := hops op (List.mem_cons_self _ _)
    have hrest : ∀ op' ∈ ops, op'.isEdgeOp = true :=
      fun op' h' => hops op' (List.mem_cons_of_mem _ h')
    cases op with
    | addEdge u v w =>
      obtain ⟨g1, h1, i1, -⟩ := ug_addEdge_spec h u v w
      simpa [run, step, h1] using ih g1 i1 hrest
    | removeEdge u v =>
      obtain ⟨g1, h1, i1, -⟩ := ug_removeEdge_spec h u v
      simpa [run, step, h1] using ih g1 i1 hrest
    | addVertex v => simp [GraphOp.isEdgeOp] at hop
    | removeVertex v => simp [GraphOp.isEdgeOp] at hop
    | setEdgeWeight u v w => simp [GraphOp.isEdgeOp] at hop
    | clear => simp [GraphOp.isEdgeOp] at hop

theorem ug_counts {g : UndirectedGraph T W} (h : g.Inv) :
    (∃ vs : Finset T, (∀ v, v ∈ vs ↔ g.HasVertex v = true) ∧
      g.GetVertexCount = (vs.card : Int)) ∧
    (∃ es : Finset (Sym2 T), (∀ u v, s(u, v) ∈ es ↔ g.HasEdge u v = true) ∧
      g.GetEdgeCount = (es.card : Int)) :=
  ⟨⟨g.vertices.toFinset, fun v => (Set.set_contains_iff h.stored.vs_wf v).symm, h.vcount⟩,
    ⟨storeLinks g.adjMatrix g.vertices, fun u v => (ug_hasEdge_iff_mem h u v).symm, h.ecount⟩⟩

end UndirectedGraph

namespace DirectedGraph

variable {T W : Type} [LinearOrder T] [Inhabited W]

/-- A sequence of `AddEdge` and `RemoveEdge` calls does not throw and keeps the
invariants. -/
theorem dg_run_edgeOps (ops : List (GraphOp T W)) :
    ∀ g : DirectedGraph T W, g.Inv → (∀ op ∈ ops, op.isEdgeOp = true) →
      ∃ g', DirectedGraph.run g ops = .ok g' ∧ g'.Inv := by
  induction ops with
  | nil => intro g h _; exact ⟨g, rfl, h⟩
  | cons op ops ih =>
    intro g h hops
    have hop := hops op (List.mem_cons_self _ _)
    have hrest : ∀ op' ∈ ops, op'.isEdgeOp = true :=
      fun op' h' => hops op' (List.mem_cons_of_mem _ h')
    cases op with
    | addEdge u v w =>
      obtain ⟨g1, h1, i1, -⟩ := dg_addEdge_spec h u v w
      simpa [run, step, h1] using ih g1 i1 hrest
    | removeEdge u v =>
      obtain ⟨g1, h1, i1, -⟩ := dg_removeEdge_spec h u v
      simpa [run, step, h1] using ih g1 i1 hrest
    | addVertex v => simp [GraphOp.isEdgeOp] at hop
    | removeVertex v => simp [GraphOp.isEdgeOp] at hop
    | setEdgeWeight u v w => simp [GraphOp.isEdgeOp] at hop
    | clear => simp [GraphOp.isEdgeOp] at hop

end DirectedGraph

/-! ## Graphs: the claims -/

section GraphClaims

variable {T W : Type} [LinearOrder T] [Inhabited W]

/-- C1, the code at the calls `AddEdge(1, 2)`, `RemoveVertex(2)`: vertex `1` remains and
`GetAdjacentVertices(1)` still returns `[2]`, because the incoming entry was removed
from a copy of `adjMatrix[1]`; after a following `AddVertex(2)` the call
`HasEdge(1, 2)` is true again. -/
theorem C1_removeVertex_keeps_incoming_entries :
    (DirectedGraph.run (DirectedGraph.empty : DirectedGraph Nat Nat)
        [.addEdge 1 2 1, .removeVertex 2]).map
      (fun g => (g.HasVertex 1, g.HasVertex 2, g.GetAdjacentVertices 1)) =
        .ok (true, false, .ok [2]) ∧
    (DirectedGraph.run (DirectedGraph.empty : DirectedGraph Nat Nat)
        [.addEdge 1 2 1, .removeVertex 2, .addVertex 2]).map
      (fun g => (g.HasVertex 2, g.HasEdge 1 2)) = .ok (true, true) := by
  decide

/-- C2, the code at the calls `AddEdge(1, 2)`, `RemoveVertex(2)`, `AddVertex(2)`:
`GetVertexCount` is `2`, `HasEdge(1, 2)` is true and `GetEdgeCount` is `0`; one more
`RemoveVertex(2)` makes `GetEdgeCount` equal to `-1`. -/
theorem C2_edgeCount_differs_from_hasEdge_pairs :
    (DirectedGraph.run (DirectedGraph.empty : DirectedGraph Nat Nat)
        [.addEdge 1 2 1, .removeVertex 2, .addVertex 2]).map
      (fun g => (g.GetVertexCount, g.HasEdge 1 2, g.GetEdgeCount)) = .ok (2, true, 0) ∧
    (DirectedGraph.run (DirectedGraph.empty : DirectedGraph Nat Nat)
        [.addEdge 1 2 1, .removeVertex 2, .addVertex 2, .removeVertex 2]).map
      (fun g => g.GetEdgeCount) = .ok (-1) := by
  decide

/-- C3: after any sequence of `AddEdge` and `RemoveEdge` calls on the empty graph (no
call throws), `GetEdgeCount` is the number of ordered pairs with `HasEdge` for a
directed graph, and the number of unordered pairs with `HasEdge` (a self-loop is one
pair) for an undirected graph; `AddEdge` of a present edge and `RemoveEdge` of an absent
edge leave the count as it is. -/
theorem C3_edge_count_after_edge_calls (ops : List (GraphOp T W))
    (hops : ∀ op ∈ ops, op.isEdgeOp = true) :
    (∃ g : DirectedGraph T W, DirectedGraph.run DirectedGraph.empty ops = .ok g ∧
      (∃ es : Finset (T × T), (∀ u v, (u, v) ∈ es ↔ g.HasEdge u v = true) ∧
        g.GetEdgeCount = (es.card : Int)) ∧
      (∀ u v w, g.HasEdge u v = true →
        ∃ g', g.AddEdge u v w = .ok g' ∧ g'.GetEdgeCount = g.GetEdgeCount) ∧
      (∀ u v, g.HasEdge u v = false →
        ∃ g', g.RemoveEdge u v = .ok g' ∧ g'.GetEdgeCount = g.GetEdgeCount)) ∧
    (∃ g : UndirectedGraph T W, UndirectedGraph.run UndirectedGraph.empty ops = .ok g ∧
      (∃ es : Finset (Sym2 T), (∀ u v, s(u, v) ∈ es ↔ g.HasEdge u v = true) ∧
        g.GetEdgeCount = (es.card : Int)) ∧
      (∀ u v w, g.HasEdge u v = true →
        ∃ g', g.AddEdge u v w = .ok g' ∧ g'.GetEdgeCount = g.GetEdgeCount) ∧
      (∀ u v, g.HasEdge u v = false →
        ∃ g', g.RemoveEdge u v = .ok g' ∧ g'.GetEdgeCount = g.GetEdgeCount)) := by
  constructor
  · obtain ⟨g, hr, hi⟩ := DirectedGraph.dg_run_edgeOps ops DirectedGraph.empty
      DirectedGraph.dg_inv_empty hops
    refine ⟨g, hr, ⟨storeEdges g.adjMatrix g.vertices,
      fun u v => (DirectedGraph.dg_hasEdge_iff_mem hi.stored u v).symm, hi.ecount⟩, ?_, ?_⟩
    · intro u v w he
      obtain ⟨g', h1, -, -, -, hc, -⟩ := DirectedGraph.dg_addEdge_spec hi u v w
      exact ⟨g', h1, by simp [DirectedGraph.GetEdgeCount, hc, he]⟩
    · intro u v he
      obtain ⟨g', h1, -, -, -, hc, -⟩ := DirectedGraph.dg_removeEdge_spec hi u v
      exact ⟨g', h1, by simp [DirectedGraph.GetEdgeCount, hc, he]⟩
  · obtain ⟨g, hr, hi⟩ := UndirectedGraph.ug_run_edgeOps ops UndirectedGraph.empty
      UndirectedGraph.ug_inv_empty hops
    refine ⟨g, hr, (UndirectedGraph.ug_counts hi).2, ?_, ?_⟩
    · intro u v w he
      obtain ⟨g', h1, -, -, -, hc⟩ := UndirectedGraph.ug_addEdge_spec hi u v w
      exact ⟨g', h1, by simp [UndirectedGraph.GetEdgeCount, hc, he]⟩
    · intro u v he
      obtain ⟨g', h1, -, -, -, hc, -⟩ := UndirectedGraph.ug_removeEdge_spec hi u v
      exact ⟨g', h1, by simp [UndirectedGraph.GetEdgeCount, hc, he]⟩

/-- C3 at the calls `AddEdge(1, 2)`, `AddEdge(2, 1)`, `AddEdge(3, 3)`, `AddEdge(1, 2)`,
`RemoveEdge(2, 1)`, `RemoveEdge(4, 5)`. -/
theorem C3_edge_count_after_edge_calls_witness :
    (∀ op ∈ ([.addEdge 1 2 1, .addEdge 2 1 1, .addEdge 3 3 1, .addEdge 1 2 4,
        .removeEdge 2 1, .removeEdge 4 5] : List (GraphOp Nat Nat)), op.isEdgeOp = true) ∧
    (∃ g : UndirectedGraph Nat Nat,
      UndirectedGraph.run UndirectedGraph.empty
        [.addEdge 1 2 1, .addEdge 2 1 1, .addEdge 3 3 1, .addEdge 1 2 4,
          .removeEdge 2 1, .removeEdge 4 5] = .ok g ∧
      ∃ es : Finset (Sym2 Nat), (∀ u v, s(u, v) ∈ es ↔ g.HasEdge u v = true) ∧
        g.GetEdgeCount = (es.card : Int)) :=
  ⟨by decide,
    (C3_edge_count_after_edge_calls
      ([.addEdge 1 2 1, .addEdge 2 1 1, .addEdge 3 3 1, .addEdge 1 2 4,
        .removeEdge 2 1, .removeEdge 4 5] : List (GraphOp Nat Nat)) (by decide)).2.imp
      (fun _ hg => ⟨hg.1, hg.2.1⟩)⟩

/-- C4: in every state of an undirected graph reached from the empty graph by `AddVertex`,
`AddEdge`, `RemoveVertex`, `RemoveEdge`, `SetEdgeWeight` and `Clear` calls,
`GetVertexCount` is the number of vertices with `HasVertex` and `GetEdgeCount` is the
number of unordered pairs with `HasEdge`; and for a vertex `v`, `RemoveVertex(v)` does
not throw, lowers `GetEdgeCount` by the number of vertices that
`GetAdjacentVertices(v)` lists (each once), and afterwards no vertex lists `v`. -/
theorem C4_undirected_counts (ops : List (GraphOp T W)) (g : UndirectedGraph T W)
    (hrun : UndirectedGraph.run UndirectedGraph.empty ops = .ok g) :
    (∃ vs : Finset T, (∀ v, v ∈ vs ↔ g.HasVertex v = true) ∧
      g.GetVertexCount = (vs.card : Int)) ∧
    (∃ es : Finset (Sym2 T), (∀ u v, s(u, v) ∈ es ↔ g.HasEdge u v = true) ∧
      g.GetEdgeCount = (es.card : Int)) ∧
    (∀ v, g.HasVertex v = true →
      ∃ neighbours g', g.GetAdjacentVertices v = .ok neighbours ∧ neighbours.Nodup ∧
        g.RemoveVertex v = .ok g' ∧
        g'.GetEdgeCount = g.GetEdgeCount - (neighbours.length : Int) ∧
        ∀ u, g'.HasVertex u = true →
          ∃ l, g'.GetAdjacentVertices u = .ok l ∧ v ∉ l) := by
  have hi := UndirectedGraph.ug_run_inv ops _ g UndirectedGraph.ug_inv_empty hrun
  refine ⟨(UndirectedGraph.ug_counts hi).1, (UndirectedGraph.ug_counts hi).2, ?_⟩
  intro v hv
  obtain ⟨d, hfind, hd, hadj⟩ := (UndirectedGraph.ug_getAdjacentVertices_spec hi.stored v).2 hv
  obtain ⟨g', hrem, hi', hw', -, -, hec, -⟩ := UndirectedGraph.ug_removeVertex_spec hi v
  refine ⟨_, g', hadj, Dictionary.nodup_keys hd, hrem, ?_, ?_⟩
  · rw [UndirectedGraph.GetEdgeCount, hec hv d hfind, Dictionary.GetCount_eq_length,
      List.length_map]
    rfl
  · intro u hu
    obtain ⟨du, hfu, hdu, hadju⟩ :=
      (UndirectedGraph.ug_getAdjacentVertices_spec hi'.stored u).2 hu
    refine ⟨_, hadju, ?_⟩
    intro hmem
    have h1 : v ∈ du.keys := by simpa [Dictionary.keys] using hmem
    rw [Dictionary.mem_keys_iff_find? hdu, ← storedWeight_of_find? hfu, hw'] at h1
    simp at h1

/-- C4 at the calls `AddEdge(1, 2)`, `AddEdge(1, 3)`, `AddEdge(3, 3)`, `RemoveVertex(3)`. -/
theorem C4_undirected_counts_witness :
    ∃ g : UndirectedGraph Nat Nat,
      UndirectedGraph.run UndirectedGraph.empty
        [.addEdge 1 2 1, .addEdge 1 3 1, .addEdge 3 3 1, .removeVertex 3] = .ok g ∧
      ∃ es : Finset (Sym2 Nat), (∀ u v, s(u, v) ∈ es ↔ g.HasEdge u v = true) ∧
        g.GetEdgeCount = (es.card : Int) := by
  obtain ⟨g, hg⟩ : ∃ g : UndirectedGraph Nat Nat,
      UndirectedGraph.run UndirectedGraph.empty
        [.addEdge 1 2 1, .addEdge 1 3 1, .addEdge 3 3 1, .removeVertex 3] = .ok g :=
    ⟨_, rfl⟩
  exact ⟨g, hg, (C4_undirected_counts _ g hg).2.1⟩

/-- C5: in every state of an undirected graph reached from the empty graph by `AddVertex`,
`AddEdge`, `RemoveVertex`, `RemoveEdge`, `SetEdgeWeight` and `Clear` calls, and for all
`u`, `v`: `HasEdge(u, v)` equals `HasEdge(v, u)`, and the results of
`GetEdgeWeight(u, v)` and `GetEdgeWeight(v, u)` are the same: the same weight when the
edge exists, the same error when it does not. -/
theorem C5_undirected_symmetry (ops : List (GraphOp T W)) (g : UndirectedGraph T W)
    (hrun : UndirectedGraph.run UndirectedGraph.empty ops = .ok g) (u v : T) :
    g.HasEdge u v = g.HasEdge v u ∧
    g.GetEdgeWeight u v = g.GetEdgeWeight v u ∧
    (g.HasEdge u v = true → ∃ w, g.GetEdgeWeight u v = .ok w ∧ g.GetEdgeWeight v u = .ok w) := by
  have hi := UndirectedGraph.ug_run_inv ops _ g UndirectedGraph.ug_inv_empty hrun
  refine ⟨?_, ?_, ?_⟩
  · rw [UndirectedGraph.ug_hasEdge_iff hi.stored, UndirectedGraph.ug_hasEdge_iff hi.stored,
      hi.symm]
  · rw [UndirectedGraph.ug_getEdgeWeight_spec hi.stored,
      UndirectedGraph.ug_getEdgeWeight_spec hi.stored, hi.symm]
  · intro he
    rw [UndirectedGraph.ug_hasEdge_iff hi.stored, Option.isSome_iff_exists] at he
    obtain ⟨w, hw⟩ := he
    refine ⟨w, ?_, ?_⟩
    · rw [UndirectedGraph.ug_getEdgeWeight_spec hi.stored, hw]
    · rw [UndirectedGraph.ug_getEdgeWeight_spec hi.stored, ← hi.symm, hw]

/-- C5 at the calls `AddEdge(1, 2, 5)`, `SetEdgeWeight(2, 1, 7)`, `AddEdge(2, 3, 1)`,
`RemoveVertex(3)`, for the pair `(1, 2)`. -/
theorem C5_undirected_symmetry_witness :
    ∃ g : UndirectedGraph Nat Nat,
      UndirectedGraph.run UndirectedGraph.empty
        [.addEdge 1 2 5, .setEdgeWeight 2 1 7, .addEdge 2 3 1, .removeVertex 3] = .ok g ∧
      g.HasEdge 1 2 = g.HasEdge 2 1 ∧ g.GetEdgeWeight 1 2 = g.GetEdgeWeight 2 1 := by
  obtain ⟨g, hg⟩ : ∃ g : UndirectedGraph Nat Nat,
      UndirectedGraph.run UndirectedGraph.empty
        [.addEdge 1 2 5, .setEdgeWeight 2 1 7, .addEdge 2 3 1, .removeVertex 3] = .ok g :=
    ⟨_, rfl⟩
  exact ⟨g, hg, (C5_undirected_symmetry _ g hg 1 2).1, (C5_undirected_symmetry _ g hg 1 2).2.1⟩

/-- C6, the code at the graph left by `AddEdge(1, 2)`, `AddEdge(3, 2)`,
`RemoveVertex(2)`: there `HasEdge(1, 2)` and `HasEdge(3, 2)` are false and
`GetEdgeCount` is `0`; after `AddEdge(1, 2, 5)` the edge `(1, 2)` has weight `5`, but
`GetEdgeCount` is still `0` and `HasEdge(3, 2)` has become true. -/
theorem C6_addEdge_after_removeVertex :
    (DirectedGraph.run (DirectedGraph.empty : DirectedGraph Nat Nat)
        [.addEdge 1 2 1, .addEdge 3 2 1, .removeVertex 2]).map
      (fun g => (g.HasEdge 1 2, g.HasEdge 3 2, g.GetEdgeCount)) = .ok (false, false, 0) ∧
    (DirectedGraph.run (DirectedGraph.empty : DirectedGraph Nat Nat)
        [.addEdge 1 2 1, .addEdge 3 2 1, .removeVertex 2, .addEdge 1 2 5]).map
      (fun g => (g.GetEdgeWeight 1 2, g.HasEdge 3 2, g.GetEdgeCount)) =
        .ok (.ok 5, true, 0) := by
  decide

end GraphClaims

/-! ## Height of the balanced tree -/

section HeightFacts

variable {α : Type}

theorem size_eq_length (n : Node α) : n.size = n.toList.length := by
  induction n with
  | null => rfl
  | mk l d r ihl ihr => simp [Node.size, Node.toList, ihl, ihr]; omega

theorem size_lt_two_pow_height (n : Node α) : n.size < 2 ^ n.height := by
  induction n with
  | null => simp [Node.size, Node.height]
  | mk l d r ihl ihr =>
    simp only [Node.size, Node.height]
    have h1 : 2 ^ l.height ≤ 2 ^ max l.height r.height :=
      Nat.pow_le_pow_right (by norm_num) (le_max_left _ _)
    have h2 : 2 ^ r.height ≤ 2 ^ max l.height r.height :=
      Nat.pow_le_pow_right (by norm_num) (le_max_right _ _)
    rw [pow_succ]
    omega

/-- No tree with `n` nodes is lower than `⌈log₂ (n + 1)⌉`. -/
theorem clog_le_height (n : Node α) : Nat.clog 2 (n.size + 1) ≤ n.height :=
  (Nat.le_pow_iff_clog_le (by norm_num)).1 (size_lt_two_pow_height n)

theorem clog_split (n : Nat) (hn : 0 < n) :
    max (Nat.clog 2 ((n - 1) / 2 + 1)) (Nat.clog 2 (n - (n - 1) / 2 - 1 + 1)) + 1 =
      Nat.clog 2 (n + 1) := by
  have hmono : Nat.clog 2 ((n - 1) / 2 + 1) ≤ Nat.clog 2 (n - (n - 1) / 2 - 1 + 1) :=
    Nat.clog_mono_right 2 (by omega)
  rw [max_eq_right hmono, Nat.clog_of_two_le (by norm_num) (by omega : 2 ≤ n + 1)]
  congr 2
  omega

/-- Given enough budget, `buildBalancedTree(arr, start, end)` returns a tree of height
`⌈log₂ (n + 1)⌉` for a slice of `n` elements. -/
theorem buildBalancedTree_height (arr : List α) :
    ∀ (fuel : Nat) (start stop : Int) (s n : Nat), n < fuel → s + n ≤ arr.length →
      start = (s : Int) → stop = (s : Int) + (n : Int) - 1 →
      ∃ t, buildBalancedTree arr fuel start stop = .ok t ∧ t.height = Nat.clog 2 (n + 1) := by
  intro fuel
  induction fuel with
  | zero => intro start stop s n h; omega
  | succ fuel ih =>
    intro start stop s n hfuel hlen hstart hstop
    rcases Nat.eq_zero_or_pos n with hn | hn
    · subst hn
      have : start > stop := by omega
      exact ⟨.null, by simp [buildBalancedTree, this], by simp [Node.height]⟩
    · have hle : ¬ start > stop := by omega
      have hmid : (start + stop).tdiv 2 = (((s + (n - 1) / 2 : Nat)) : Int) := by
        rw [Int.tdiv_eq_ediv (by omega) (by omega)]
        omega
      have hget := arrGet_of_lt arr (s + (n - 1) / 2) (by omega) _ hmid
      obtain ⟨tl, hl, hlt⟩ := ih start ((start + stop).tdiv 2 - 1) s ((n - 1) / 2)
        (by omega) (by omega) hstart (by rw [hmid]; push_cast; omega)
      obtain ⟨tr, hr, hrt⟩ := ih ((start + stop).tdiv 2 + 1) stop (s + (n - 1) / 2 + 1)
        (n - (n - 1) / 2 - 1) (by omega) (by omega) (by rw [hmid]; push_cast; omega)
        (by rw [hstop]; push_cast; omega)
      refine ⟨.mk tl arr[s + (n - 1) / 2] tr, ?_, ?_⟩
      · simp only [buildBalancedTree, hle, if_false, hget, hl, hr]
      · simp only [Node.height, hlt, hrt]
        exact clog_split n hn

end HeightFacts

/-- C11: for every tree, with `n` the number of its nodes, `balance()` returns a tree
with `n` nodes whose height is exactly `⌈log₂ (n + 1)⌉` (`Nat.clog 2 (n + 1)`), height
counted in nodes on the longest path from the root to a leaf and `0` for the empty tree;
no tree with `n` nodes has a smaller height. -/
theorem C11_balance_height {α : Type} (t : BinaryTree α) :
    ∃ t', t.balance = .ok t' ∧
      t'.root.height = Nat.clog 2 (t.root.size + 1) ∧
      t'.root.size = t.root.size ∧
      ∀ s : Node α, s.size = t.root.size → t'.root.height ≤ s.height := by
  have key : ∃ t', t.balance = .ok t' ∧ t'.root.toList = t.root.toList ∧
      t'.root.height = Nat.clog 2 (t.root.size + 1) := by
    obtain ⟨root⟩ := t
    cases root with
    | null => exact ⟨⟨.null⟩, by simp [BinaryTree.balance], rfl, by simp [Node.height, Node.size]⟩
    | mk l d r =>
      obtain ⟨t1, h1, h2⟩ := buildBalancedTree_spec (Node.mk l d r).toList
        ((Node.mk l d r).toList.length + 1) 0 (((Node.mk l d r).toList.length : Int) - 1)
        0 (Node.mk l d r).toList.length (by omega) (by omega) (by simp) (by simp)
      obtain ⟨t2, h3, h4⟩ := buildBalancedTree_height (Node.mk l d r).toList
        ((Node.mk l d r).toList.length + 1) 0 (((Node.mk l d r).toList.length : Int) - 1)
        0 (Node.mk l d r).toList.length (by omega) (by omega) (by simp) (by simp)
      rw [h1] at h3
      cases h3
      refine ⟨⟨t1⟩, ?_, by simpa using h2, ?_⟩
      · simp only [BinaryTree.balance, storeInOrder_eq, List.nil_append, h1]
      · rw [h4, size_eq_length]
  obtain ⟨t', h1, h2, h3⟩ := key
  have hsize : t'.root.size = t.root.size := by rw [size_eq_length, size_eq_length, h2]
  refine ⟨t', h1, h3, hsize, ?_⟩
  intro s hs
  rw [h3, ← hs]
  exact clog_le_height s

/-! ## The interface of a graph object -/

section InterfaceFacts

variable {T W : Type} [LinearOrder T] [Inhabited W]

theorem set_mem_elems_iff {s : Set T} (h : s.WF) (x : T) :
    x ∈ s.elems ↔ s.Contains x = true := by
  rw [Set.set_contains_iff h, Set.toFinset, List.mem_toFinset]

theorem set_card_eq_length {s : Set T} (h : s.WF) : s.toFinset.card = s.elems.length := by
  rw [Set.toFinset, List.toFinset_card_of_nodup (Set.set_nodup h)]

theorem dg_getAllVertices_eq {g : DirectedGraph T W} (h : g.CacheOk) :
    g.GetAllVertices.1 = g.vertices.elems := by
  unfold DirectedGraph.GetAllVertices
  cases hc : g.cachedVertices with
  | none => simp [Set.set_forEach_collect]
  | some c => simp [h c hc]

theorem ug_getAllVertices_eq {g : UndirectedGraph T W} (h : g.CacheOk) :
    g.GetAllVertices.1 = g.vertices.elems := by
  unfold UndirectedGraph.GetAllVertices
  cases hc : g.cachedVertices with
  | none => simp [Set.set_forEach_collect]
  | some c => simp [h c hc]

theorem dg_getAdjacentVertices_spec {g : DirectedGraph T W}
    (h : Stored g.adjMatrix g.vertices) (v : T) :
    (g.HasVertex v = false → g.GetAdjacentVertices v = .error .vertexNotFound) ∧
    (g.HasVertex v = true → ∃ d, g.adjMatrix.find? v = some d ∧ d.WF ∧
      g.GetAdjacentVertices v = .ok (d.entries.map DictionaryPair.getKey)) := by
  constructor
  · intro hv
    simp [DirectedGraph.GetAdjacentVertices, hv]
  · intro hv
    obtain ⟨d, hget, hfind, hd⟩ := find?_of_contains h hv
    have hc : g.adjMatrix.ContainsKey v = true := by
      rw [← Dictionary.isSome_find?, hfind]; rfl
    exact ⟨d, hfind, hd, by
      simp [DirectedGraph.GetAdjacentVertices, hv, hc, hget, Dictionary.ForEachKey_collect]⟩

theorem dg_getEdgeWeight_spec {g : DirectedGraph T W} (h : Stored g.adjMatrix g.vertices)
    (x y : T) :
    g.GetEdgeWeight x y =
      match storedWeight g.adjMatrix x y with
      | some w => .ok w
      | none => .error .edgeNotFound := by
  unfold DirectedGraph.GetEdgeWeight
  rw [DirectedGraph.dg_hasEdge_iff h]
  cases hw : storedWeight g.adjMatrix x y with
  | none => simp
  | some w =>
    have hsome : (storedWeight g.adjMatrix x y).isSome = true := by rw [hw]; rfl
    have hcx : g.vertices.Contains x = true := by
      rw [← h.keys_eq]; exact storedWeight_source hsome
    obtain ⟨d, hget, hfind, -⟩ := find?_of_contains h hcx
    rw [storedWeight_of_find? hfind, Dictionary.find?_eq_some_iff] at hw
    simp [hget, hw]

/-- The interface of a valid directed graph object is consistent. -/
theorem dg_valid_toGraphBase {g : DirectedGraph T W} (h : g.Valid) : g.toGraphBase.Valid where
  all_nodup := by
    show (g.GetAllVertices.1).Nodup
    rw [dg_getAllVertices_eq h.2]
    exact Set.set_nodup h.1.stored.vs_wf
  mem_all := by
    intro v
    show v ∈ g.GetAllVertices.1 ↔ g.vertices.Contains v = true
    rw [dg_getAllVertices_eq h.2, set_mem_elems_iff h.1.stored.vs_wf]
  count_eq := by
    show g.vertexCount = ((g.GetAllVertices.1).length : Int)
    rw [dg_getAllVertices_eq h.2, h.1.vcount, set_card_eq_length h.1.stored.vs_wf]
  adj_ok := by
    intro v hv
    obtain ⟨d, hfind, hd, hadj⟩ := (dg_getAdjacentVertices_spec h.1.stored v).2 hv
    refine ⟨_, hadj, Dictionary.nodup_keys hd, ?_⟩
    intro u
    show _ ↔ g.HasEdge v u = true
    rw [DirectedGraph.dg_hasEdge_iff h.1.stored, storedWeight_of_find? hfind,
      ← Dictionary.mem_keys_iff_find? hd, Dictionary.keys, List.mem_toFinset]
  edge_left := by
    intro u v he
    have he' : g.HasEdge u v = true := he
    rw [DirectedGraph.dg_hasEdge_iff h.1.stored] at he'
    show g.vertices.Contains u = true
    rw [← h.1.stored.keys_eq]
    exact storedWeight_source he'
  edge_right := by
    intro u v he
    have he' : g.HasEdge u v = true := he
    rw [DirectedGraph.dg_hasEdge_iff h.1.stored] at he'
    exact h.1.stored.targets u v he'
  weight_iff := by
    intro u v
    show (∃ w, g.GetEdgeWeight u v = .ok w) ↔ g.HasEdge u v = true
    rw [dg_getEdgeWeight_spec h.1.stored, DirectedGraph.dg_hasEdge_iff h.1.stored]
    cases storedWeight g.adjMatrix u v <;> simp

/-- The interface of a valid undirected graph object is consistent. -/
theorem ug_valid_toGraphBase {g : UndirectedGraph T W} (h : g.Valid) :
    g.toGraphBase.Valid where
  all_nodup := by
    show (g.GetAllVertices.1).Nodup
    rw [ug_getAllVertices_eq h.2]
    exact Set.set_nodup h.1.stored.vs_wf
  mem_all := by
    intro v
    show v ∈ g.GetAllVertices.1 ↔ g.vertices.Contains v = true
    rw [ug_getAllVertices_eq h.2, set_mem_elems_iff h.1.stored.vs_wf]
  count_eq := by
    show g.vertexCount = ((g.GetAllVertices.1).length : Int)
    rw [ug_getAllVertices_eq h.2, h.1.vcount, set_card_eq_length h.1.stored.vs_wf]
  adj_ok := by
    intro v hv
    obtain ⟨d, hfind, hd, hadj⟩ :=
      (UndirectedGraph.ug_getAdjacentVertices_spec h.1.stored v).2 hv
    refine ⟨_, hadj, Dictionary.nodup_keys hd, ?_⟩
    intro u
    show _ ↔ g.HasEdge v u = true
    rw [UndirectedGraph.ug_hasEdge_iff h.1.stored, storedWeight_of_find? hfind,
      ← Dictionary.mem_keys_iff_find? hd, Dictionary.keys, List.mem_toFinset]
  edge_left := by
    intro u v he
    have he' : g.HasEdge u v = true := he
    rw [UndirectedGraph.ug_hasEdge_iff h.1.stored] at he'
    show g.vertices.Contains u = true
    rw [← h.1.stored.keys_eq]
    exact storedWeight_source he'
  edge_right := by
    intro u v he
    have he' : g.HasEdge u v = true := he
    rw [UndirectedGraph.ug_hasEdge_iff h.1.stored] at he'
    exact h.1.stored.targets u v he'
  weight_iff := by
    intro u v
    show (∃ w, g.GetEdgeWeight u v = .ok w) ↔ g.HasEdge u v = true
    rw [UndirectedGraph.ug_getEdgeWeight_spec h.1.stored,
      UndirectedGraph.ug_hasEdge_iff h.1.stored]
    cases storedWeight g.adjMatrix u v <;> simp

theorem ug_edge_symm {g : UndirectedGraph T W} (h : g.Valid) (u v : T) :
    g.toGraphBase.HasEdge u v = g.toGraphBase.HasEdge v u := by
  show g.HasEdge u v = g.HasEdge v u
  rw [UndirectedGraph.ug_hasEdge_iff h.1.stored, UndirectedGraph.ug_hasEdge_iff h.1.stored,
    h.1.symm]

theorem isGraph_valid {g : GraphBase T W} (h : g.IsGraph) : g.Valid := by
  rcases h with ⟨dg, hd, rfl⟩ | ⟨ug, hu, rfl⟩
  · exact dg_valid_toGraphBase hd
  · exact ug_valid_toGraphBase hu

end InterfaceFacts

/-! ## ConnectedComponents -/

section ComponentFacts

variable {T W : Type} [LinearOrder T]

theorem queue_isEmpty_iff (q : Queue T) : q.IsEmpty = true ↔ q.list = [] := by
  cases q with
  | mk l => cases l <;> simp [Queue.IsEmpty]

theorem length_le_of_nodup_of_vertices {g : GraphBase T W} (hg : g.Valid) {l : List T}
    (hn : l.Nodup) (hv : ∀ x, x ∈ l → g.HasVertex x = true) :
    l.length ≤ g.GetAllVertices.length :=
  (hn.subperm (fun x hx => (hg.mem_all x).2 (hv x hx))).length_le

theorem bfsVisit_foldl (adj : List T) :
    ∀ (visited : Set T) (queue : Queue T), visited.WF → adj.Nodup →
      (adj.foldl ConnectedComponents.bfsVisit (visited, queue)).1.WF ∧
      (∀ x, (adj.foldl ConnectedComponents.bfsVisit (visited, queue)).1.Contains x =
        (visited.Contains x || decide (x ∈ adj))) ∧
      (adj.foldl ConnectedComponents.bfsVisit (visited, queue)).2.list =
        queue.list ++ adj.filter (fun n => !visited.Contains n) := by
  induction adj with
  | nil => intro visited queue h _; simp [h]
  | cons n adj ih =>
    intro visited queue h hn
    obtain ⟨hnot, hnd⟩ := List.nodup_cons.1 hn
    simp only [List.foldl_cons]
    cases hc : visited.Contains n
    · have hstep : ConnectedComponents.bfsVisit (visited, queue) n =
          (visited.Add n, queue.Enqueue n) := by
        simp [ConnectedComponents.bfsVisit, hc]
      rw [hstep]
      obtain ⟨h1, h2, h3⟩ := ih (visited.Add n) (queue.Enqueue n) (Set.set_wf_add h n) hnd
      refine ⟨h1, ?_, ?_⟩
      · intro x
        rw [h2, set_contains_add h]
        simp only [List.mem_cons, Bool.decide_or]
        cases decide (x = n) <;> cases visited.Contains x <;> cases decide (x ∈ adj) <;> rfl
      · rw [h3]
        have hf : adj.filter (fun m => !(visited.Add n).Contains m) =
            adj.filter (fun m => !visited.Contains m) := by
          apply List.filter_congr
          intro m hm
          have : m ≠ n := fun hmn => hnot (hmn ▸ hm)
          simp [set_contains_add h, this]
        simp [Queue.Enqueue, hf, List.filter_cons, hc]
    · have hstep : ConnectedComponents.bfsVisit (visited, queue) n = (visited, queue) := by
        simp [ConnectedComponents.bfsVisit, hc]
      rw [hstep]
      obtain ⟨h1, h2, h3⟩ := ih visited queue h hnd
      refine ⟨h1, ?_, ?_⟩
      · intro x
        rw [h2]
        by_cases hx : x = n
        · subst hx; simp [hc]
        · simp [hx]
      · rw [h3]
        simp [List.filter_cons, hc]

/-- The `while` loop of `BFSComponent` ends within its budget with an empty queue and
keeps the invariant. -/
theorem bfsLoop_spec {g : GraphBase T W} (hg : g.Valid) (start : T) (visited0 : Set T) :
    ∀ (fuel : Nat) (s : ConnectedComponents.BfsState T),
      ConnectedComponents.BfsInv g start visited0 s →
      g.GetAllVertices.length < fuel + s.component.length →
      ∃ s', ConnectedComponents.bfsLoop g fuel s = .ok s' ∧
        ConnectedComponents.BfsInv g start visited0 s' ∧ s'.queue.list = [] := by
  intro fuel
  induction fuel with
  | zero =>
    intro s hs hf
    have := length_le_of_nodup_of_vertices hg (List.nodup_append.1 hs.nodup).1
      (fun x hx => (hs.fresh x (List.mem_append_left _ hx)).2.2)
    omega
  | succ fuel ih =>
    intro s hs hf
    cases hq : s.queue.list with
    | nil =>
      refine ⟨s, ?_, hs, hq⟩
      have : s.queue.IsEmpty = true := (queue_isEmpty_iff _).2 hq
      simp [ConnectedComponents.bfsLoop, this]
    | cons current rest =>
      have hne : s.queue.IsEmpty = false := by
        cases h : s.queue.IsEmpty
        · rfl
        · rw [(queue_isEmpty_iff _).1 h] at hq; cases hq
      have hdq : s.queue.Dequeue = .ok (current, ⟨rest⟩) := by
        simp [Queue.Dequeue, hq]
      have hcur := hs.fresh current (by rw [hq]; simp)
      obtain ⟨adj, hadj, hadjn, hadjm⟩ := hg.adj_ok current hcur.2.2
      obtain ⟨f1, f2, f3⟩ := bfsVisit_foldl adj s.visited ⟨rest⟩ hs.wf hadjn
      have hnd := hs.nodup
      rw [hq] at hnd
      have hinv : ConnectedComponents.BfsInv g start visited0
          { queue := (adj.foldl ConnectedComponents.bfsVisit (s.visited, ⟨rest⟩)).2
            visited := (adj.foldl ConnectedComponents.bfsVisit (s.visited, ⟨rest⟩)).1
            component := s.component ++ [current] } := by
        refine ⟨f1, ?_, ?_, ?_, ?_, ?_⟩
        · intro x
          simp only [f2, f3, Bool.or_eq_true, decide_eq_true_eq, hs.visited_iff, hq,
            List.mem_append, List.mem_cons, List.mem_singleton, List.mem_filter,
            Bool.not_eq_true', List.not_mem_nil, or_false]
          constructor
          · rintro ((h0 | hc | rfl | hr) | hx)
            · exact Or.inl h0
            · exact Or.inr (Or.inl (Or.inl hc))
            · exact Or.inr (Or.inl (Or.inr rfl))
            · exact Or.inr (Or.inr (Or.inl hr))
            · by_cases hv : s.visited.Contains x = true
              · rcases (hs.visited_iff x).1 hv with h0 | hc | hqx
                · exact Or.inl h0
                · exact Or.inr (Or.inl (Or.inl hc))
                · rw [hq] at hqx
                  rcases List.mem_cons.1 hqx with rfl | hr
                  · exact Or.inr (Or.inl (Or.inr rfl))
                  · exact Or.inr (Or.inr (Or.inl hr))
              · exact Or.inr (Or.inr (Or.inr ⟨hx, by simpa using hv⟩))
          · rintro (h0 | (hc | rfl) | hr | ⟨hx, -⟩)
            · exact Or.inl (Or.inl h0)
            · exact Or.inl (Or.inr (Or.inl hc))
            · exact Or.inl (Or.inr (Or.inr (Or.inl rfl)))
            · exact Or.inl (Or.inr (Or.inr (Or.inr hr)))
            · exact Or.inr hx
        · simp only [f3, ← List.append_assoc]
          rw [List.nodup_append]
          refine ⟨by simpa using hnd, (hadjn.filter _), ?_⟩
          intro x hx1 hx2
          have hvx : s.visited.Contains x = true := by
            rw [hs.visited_iff, hq]
            simp only [List.mem_append, List.mem_cons, List.mem_singleton, List.not_mem_nil,
              or_false] at hx1 ⊢
            rcases hx1 with (hc | rfl) | hr
            · exact Or.inr (Or.inl hc)
            · exact Or.inr (Or.inr (Or.inl rfl))
            · exact Or.inr (Or.inr (Or.inr hr))
          have := (List.mem_filter.1 hx2).2
          simp [hvx] at this
        · intro x hx
          simp only [f3, List.mem_append, List.mem_singleton, List.mem_filter] at hx
          rcases hx with (hc | rfl) | hr | ⟨hxa, hxv⟩
          · exact hs.fresh x (List.mem_append_left _ hc)
          · exact hcur
          · exact hs.fresh x (by rw [hq]; simp [hr])
          · have he : g.HasEdge current x = true := (hadjm x).1 hxa
            refine ⟨hcur.1.tail he, ?_, hg.edge_right _ _ he⟩
            have hnv : ¬ s.visited.Contains x = true := by simpa using hxv
            cases h0 : visited0.Contains x
            · rfl
            · exact absurd ((hs.visited_iff x).2 (Or.inl h0)) hnv
        · intro x hx y he
          rw [f2]
          rcases List.mem_append.1 hx with hc | hc
          · simp [hs.closed x hc y he]
          · have : x = current := by simpa using hc
            subst this
            simp [(hadjm y).2 he]
        · have := hs.start_mem
          rw [hq] at this
          simp only [f3, List.mem_append, List.mem_cons, List.mem_singleton, List.not_mem_nil,
            or_false] at this ⊢
          rcases this with hc | rfl | hr
          · exact Or.inl (Or.inl hc)
          · exact Or.inl (Or.inr rfl)
          · exact Or.inr (Or.inl hr)
      obtain ⟨s', h1, h2, h3⟩ := ih _ hinv (by simp; omega)
      refine ⟨s', ?_, h2, h3⟩
      simp only [ConnectedComponents.bfsLoop, hne, Bool.false_eq_true, if_false, hdq, hadj]
      exact h1

end ComponentFacts

section ComponentFacts2

variable {T W : Type} [LinearOrder T]

/-- A fold with a step that may throw keeps an invariant that may mention the elements
already processed. -/
theorem foldlE_prefix_invariant {α σ : Type} (P : List α → σ → Prop)
    (f : σ → α → Except Error σ) (l : List α)
    (hstep : ∀ pre x suf s, l = pre ++ x :: suf → P pre s →
      ∃ s', f s x = .ok s' ∧ P (pre ++ [x]) s')
    (s0 : σ) (h0 : P [] s0) : ∃ s', foldlE f s0 l = .ok s' ∧ P l s' := by
  have key : ∀ (suf pre : List α) (s : σ), l = pre ++ suf → P pre s →
      ∃ s', foldlE f s suf = .ok s' ∧ P l s' := by
    intro suf
    induction suf with
    | nil =>
      intro pre s hl hp
      rw [List.append_nil] at hl
      exact ⟨s, rfl, hl ▸ hp⟩
    | cons x suf ih =>
      intro pre s hl hp
      obtain ⟨s1, h1, h2⟩ := hstep pre x suf s hl hp
      obtain ⟨s', h3, h4⟩ := ih (pre ++ [x]) s1 (by simp [hl]) h2
      exact ⟨s', by simp only [foldlE, h1, h3], h4⟩
  exact key l [] s0 rfl h0

theorem connected_symm {g : GraphBase T W} (hsym : ∀ u v, g.HasEdge u v = g.HasEdge v u)
    {u v : T} (h : g.Connected u v) : g.Connected v u := by
  have hs : Symmetric g.Edge := by
    intro a b hab
    show g.HasEdge b a = true
    rw [hsym]; exact hab
  exact Relation.ReflTransGen.symmetric hs h

/-- The component that `BFSComponent` returns for a fresh `start` is the set of vertices
joined to `start`, each once, and `visited` grows by exactly that set. -/
theorem BFSComponent_spec {g : GraphBase T W} (hg : g.Valid) (start : T)
    (visited0 : Set T) (hwf : visited0.WF)
    (hclosed : ∀ x y, g.HasEdge x y = true →
      (visited0.Contains x = true ↔ visited0.Contains y = true))
    (hstart : g.HasVertex start = true) (hfresh : visited0.Contains start = false) :
    ∃ visited component,
      ConnectedComponents.BFSComponent g start visited0 [] = .ok (visited, component) ∧
      visited.WF ∧
      (∀ x, visited.Contains x = true ↔ (visited0.Contains x = true ∨ x ∈ component)) ∧
      component.Nodup ∧
      (∀ x, x ∈ component ↔ g.Connected start x) ∧
      (∀ x, x ∈ component → visited0.Contains x = false ∧ g.HasVertex x = true) := by
  have h0 : ConnectedComponents.BfsInv g start visited0
      { queue := Queue.empty.Enqueue start
        visited := visited0.Add start
        component := [] } := by
    refine ⟨Set.set_wf_add hwf start, ?_, ?_, ?_, ?_, ?_⟩
    · intro x
      rw [set_contains_add hwf]
      simp only [Queue.Enqueue, Queue.empty, List.nil_append, List.mem_singleton,
        List.not_mem_nil, false_or, Bool.or_eq_true, decide_eq_true_eq]
      exact or_comm
    · simp [Queue.Enqueue, Queue.empty]
    · intro x hx
      have : x = start := by simpa [Queue.Enqueue, Queue.empty] using hx
      subst this
      exact ⟨Relation.ReflTransGen.refl, hfresh, hstart⟩
    · intro x hx
      simp at hx
    · simp [Queue.Enqueue, Queue.empty]
  obtain ⟨s', h1, h2, h3⟩ := bfsLoop_spec hg start visited0
    (g.GetAllVertices.length + 1) _ h0 (by simp)
  have hvis : ∀ x, s'.visited.Contains x = true ↔
      (visited0.Contains x = true ∨ x ∈ s'.component) := by
    intro x
    rw [h2.visited_iff, h3]
    simp
  have hmem : ∀ x, g.Connected start x → x ∈ s'.component := by
    intro x hx
    induction hx with
    | refl =>
      have := h2.start_mem
      rw [h3] at this
      simpa using this
    | @tail y z _ he ih =>
      have hz := h2.closed y ih z he
      rcases (hvis z).1 hz with h0z | hc
      · have hy0 : visited0.Contains y = true := (hclosed y z he).2 h0z
        have := (h2.fresh y (List.mem_append_left _ ih)).2.1
        rw [hy0] at this
        cases this
      · exact hc
  refine ⟨s'.visited, s'.component, ?_, h2.wf, hvis, (List.nodup_append.1 h2.nodup).1, ?_, ?_⟩
  · simp only [ConnectedComponents.BFSComponent, h1]
  · intro x
    exact ⟨fun hx => (h2.fresh x (List.mem_append_left _ hx)).1, hmem x⟩
  · intro x hx
    exact (h2.fresh x (List.mem_append_left _ hx)).2

/-- The loop over all vertices of `FindComponentsBFS` does not throw and keeps its
invariant; at the end every vertex is visited. -/
theorem findComponentsBFS_spec {g : GraphBase T W} (hg : g.Valid)
    (hsym : ∀ u v, g.HasEdge u v = g.HasEdge v u) :
    ∃ s, foldlE (ConnectedComponents.componentFrom g) (Set.empty, []) g.GetAllVertices = .ok s ∧
      ConnectedComponents.CompInv g s ∧ ∀ v, v ∈ g.GetAllVertices → s.1.Contains v = true := by
  apply foldlE_prefix_invariant
    (fun pre s => ConnectedComponents.CompInv g s ∧ ∀ v, v ∈ pre → s.1.Contains v = true)
  · rintro pre x suf ⟨vis, comps⟩ hl ⟨hinv, hpre⟩
    have hxv : g.HasVertex x = true := (hg.mem_all x).1 (by rw [hl]; simp)
    cases hc : vis.Contains x
    · obtain ⟨vis', comp, h1, h2, h3, h4, h5, h6⟩ :=
        BFSComponent_spec hg x vis hinv.wf hinv.closed hxv hc
      refine ⟨(vis', comps ++ [comp]), ?_, ⟨h2, ?_, ?_, ?_, ?_, ?_⟩, ?_⟩
      · simp [ConnectedComponents.componentFrom, hc, h1]
      · intro y
        rw [h3, hinv.visited_iff]
        simp only [List.mem_append, List.mem_singleton]
        constructor
        · rintro (⟨c, hc1, hc2⟩ | hy)
          · exact ⟨c, Or.inl hc1, hc2⟩
          · exact ⟨comp, Or.inr rfl, hy⟩
        · rintro ⟨c, hc1 | rfl, hc2⟩
          · exact Or.inl ⟨c, hc1, hc2⟩
          · exact Or.inr hc2
      · intro a b he
        rw [h3, h3, hinv.closed a b he, h5, h5]
        have hba : g.HasEdge b a = true := by rw [hsym]; exact he
        constructor
        · rintro (h | h)
          · exact Or.inl h
          · exact Or.inr (h.tail he)
        · rintro (h | h)
          · exact Or.inl h
          · exact Or.inr (h.tail hba)
      · simp only [List.flatten_append, List.flatten_cons, List.flatten_nil, List.append_nil]
        rw [List.nodup_append]
        refine ⟨hinv.nodup, h4, ?_⟩
        intro y hy1 hy2
        obtain ⟨c, hc1, hc2⟩ := List.mem_flatten.1 hy1
        have := (hinv.visited_iff y).2 ⟨c, hc1, hc2⟩
        rw [(h6 y hy2).1] at this
        cases this
      · intro c hc1
        rcases List.mem_append.1 hc1 with hc1 | hc1
        · exact hinv.comp c hc1
        · have : c = comp := by simpa using hc1
          subst this
          exact ⟨x, (h5 x).2 Relation.ReflTransGen.refl, h5⟩
      · intro c hc1 y hy
        rcases List.mem_append.1 hc1 with hc1 | hc1
        · exact hinv.vertex c hc1 y hy
        · have : c = comp := by simpa using hc1
          subst this
          exact (h6 y hy).2
      · intro v hv
        show vis'.Contains v = true
        rw [h3]
        rcases List.mem_append.1 hv with hv | hv
        · exact Or.inl (hpre v hv)
        · have : v = x := by simpa using hv
          subst this
          exact Or.inr ((h5 v).2 Relation.ReflTransGen.refl)
    · refine ⟨(vis, comps), by simp [ConnectedComponents.componentFrom, hc], hinv, ?_⟩
      intro v hv
      rcases List.mem_append.1 hv with hv | hv
      · exact hpre v hv
      · have : v = x := by simpa using hv
        subst this
        exact hc
  · refine ⟨⟨Set.set_wf_empty, ?_, ?_, ?_, ?_, ?_⟩, ?_⟩
    · intro x
      simp [set_contains_empty]
    · intro x y _
      simp [set_contains_empty]
    · simp
    · intro c hc
      simp at hc
    · intro c hc
      simp at hc
    · intro v hv
      simp at hv

end ComponentFacts2

section ValidRuns

variable {T W : Type} [LinearOrder T] [Inhabited W]

theorem ug_cacheOk_of_none {g : UndirectedGraph T W} (h : g.cachedVertices = none) :
    g.CacheOk := by
  intro c hc
  rw [h] at hc
  cases hc

theorem dg_cacheOk_of_none {g : DirectedGraph T W} (h : g.cachedVertices = none) :
    g.CacheOk := by
  intro c hc
  rw [h] at hc
  cases hc

theorem ug_addVertex_cacheOk {g : UndirectedGraph T W} (h : g.CacheOk) (v : T) :
    (g.AddVertex v).CacheOk := by
  unfold UndirectedGraph.AddVertex
  split
  · exact ug_cacheOk_of_none rfl
  · exact h

theorem dg_addVertex_cacheOk {g : DirectedGraph T W} (h : g.CacheOk) (v : T) :
    (g.AddVertex v).CacheOk := by
  unfold DirectedGraph.AddVertex
  split
  · exact dg_cacheOk_of_none rfl
  · exact h

theorem ug_step_cacheOk {g g' : UndirectedGraph T W} (h : g.CacheOk) (op : GraphOp T W)
    (hs : g.step op = .ok g') : g'.CacheOk := by
  cases op with
  | addVertex v =>
    simp only [UndirectedGraph.step, Except.ok.injEq] at hs
    exact hs ▸ ug_addVertex_cacheOk h v
  | addEdge u v w =>
    simp only [UndirectedGraph.step, UndirectedGraph.AddEdge] at hs
    split at hs
    · cases hs
    · split at hs
      · cases hs
      · simp only [Except.ok.injEq] at hs
        exact hs ▸ ug_cacheOk_of_none rfl
  | removeVertex v =>
    simp only [UndirectedGraph.step, UndirectedGraph.RemoveVertex] at hs
    split at hs
    · simp only [Except.ok.injEq] at hs
      exact hs ▸ h
    · split at hs
      · cases hs
      · split at hs
        · cases hs
        · simp only [Except.ok.injEq] at hs
          exact hs ▸ ug_cacheOk_of_none rfl
  | removeEdge u v =>
    simp only [UndirectedGraph.step, UndirectedGraph.RemoveEdge] at hs
    split at hs
    · split at hs
      · cases hs
      · split at hs
        · cases hs
        · simp only [Except.ok.injEq] at hs
          exact hs ▸ ug_cacheOk_of_none rfl
    · simp only [Except.ok.injEq] at hs
      exact hs ▸ h
  | setEdgeWeight u v w =>
    simp only [UndirectedGraph.step, UndirectedGraph.SetEdgeWeight] at hs
    split at hs
    · cases hs
    · split at hs
      · cases hs
      · split at hs
        · cases hs
        · simp only [Except.ok.injEq] at hs
          subst hs
          exact h
  | clear =>
    simp only [UndirectedGraph.step, Except.ok.injEq] at hs
    exact hs ▸ ug_cacheOk_of_none rfl

/-- Every state that an undirected graph reaches through its mutators satisfies the
invariants of the data model. -/
theorem ug_run_valid (ops : List (GraphOp T W)) :
    ∀ g g' : UndirectedGraph T W, g.Valid → UndirectedGraph.run g ops = .ok g' →
      g'.Valid := by
  induction ops with
  | nil =>
    intro g g' h hr
    simp only [UndirectedGraph.run, Except.ok.injEq] at hr
    exact hr ▸ h
  | cons op ops ih =>
    intro g g' h hr
    simp only [UndirectedGraph.run] at hr
    cases hs : g.step op with
    | error e => rw [hs] at hr; cases hr
    | ok g1 =>
      rw [hs] at hr
      exact ih g1 g' ⟨UndirectedGraph.ug_step_inv h.1 op hs, ug_step_cacheOk h.2 op hs⟩ hr

theorem ug_valid_empty : (UndirectedGraph.empty : UndirectedGraph T W).Valid :=
  ⟨UndirectedGraph.ug_inv_empty, ug_cacheOk_of_none rfl⟩

theorem dg_valid_empty : (DirectedGraph.empty : DirectedGraph T W).Valid :=
  ⟨DirectedGraph.dg_inv_empty, dg_cacheOk_of_none rfl⟩

theorem dg_step_buildOp {g : DirectedGraph T W} (h : g.Valid) (op : GraphOp T W)
    (hop : op.isBuildOp = true) : ∃ g', g.step op = .ok g' ∧ g'.Valid := by
  cases op with
  | addVertex v =>
    exact ⟨g.AddVertex v, rfl, (DirectedGraph.dg_addVertex_spec h.1 v).1,
      dg_addVertex_cacheOk h.2 v⟩
  | addEdge u v w =>
    obtain ⟨g1, h1, i1, -⟩ := DirectedGraph.dg_addEdge_spec h.1 u v w
    refine ⟨g1, h1, i1, ?_⟩
    simp only [DirectedGraph.AddEdge] at h1
    split at h1
    · cases h1
    · simp only [Except.ok.injEq] at h1
      exact h1 ▸ dg_cacheOk_of_none rfl
  | removeEdge u v =>
    obtain ⟨g1, h1, i1, -⟩ := DirectedGraph.dg_removeEdge_spec h.1 u v
    refine ⟨g1, h1, i1, ?_⟩
    simp only [DirectedGraph.RemoveEdge] at h1
    split at h1
    · split at h1
      · cases h1
      · simp only [Except.ok.injEq] at h1
        exact h1 ▸ dg_cacheOk_of_none rfl
    · simp only [Except.ok.injEq] at h1
      exact h1 ▸ h.2
  | removeVertex v => simp [GraphOp.isBuildOp] at hop
  | setEdgeWeight u v w => simp [GraphOp.isBuildOp] at hop
  | clear => simp [GraphOp.isBuildOp] at hop

/-- A sequence of `AddVertex`, `AddEdge` and `RemoveEdge` calls on a directed graph does
not throw and leaves a graph that satisfies the invariants of the data model. -/
theorem dg_run_buildOps (ops : List (GraphOp T W)) :
    ∀ g : DirectedGraph T W, g.Valid → (∀ op ∈ ops, op.isBuildOp = true) →
      ∃ g', DirectedGraph.run g ops = .ok g' ∧ g'.Valid := by
  induction ops with
  | nil => intro g h _; exact ⟨g, rfl, h⟩
  | cons op ops ih =>
    intro g h hops
    obtain ⟨g1, h1, v1⟩ := dg_step_buildOp h op (hops op (List.mem_cons_self _ _))
    obtain ⟨g2, h2, v2⟩ := ih g1 v1 (fun op' h' => hops op' (List.mem_cons_of_mem _ h'))
    exact ⟨g2, by simp only [DirectedGraph.run, h1, h2], v2⟩

theorem dg_run_buildOps_valid (ops : List (GraphOp T W)) (g : DirectedGraph T W)
    (hops : ∀ op ∈ ops, op.isBuildOp = true)
    (hr : DirectedGraph.run DirectedGraph.empty ops = .ok g) : g.Valid := by
  obtain ⟨g', h1, h2⟩ := dg_run_buildOps ops _ dg_valid_empty hops
  rw [hr] at h1
  simp only [Except.ok.injEq] at h1
  exact h1 ▸ h2

/-- What `allEdges` checks holds for every edge. -/
theorem allEdges_spec {T W : Type} {g : GraphBase T W} (hg : g.Valid) (p : T → T → Bool)
    (h : g.allEdges p = true) (u v : T) (he : g.HasEdge u v = true) : p u v = true := by
  obtain ⟨adj, h1, -, h2⟩ := hg.adj_ok u (hg.edge_left u v he)
  have hu := (hg.mem_all u).2 (hg.edge_left u v he)
  simp only [GraphBase.allEdges, List.all_eq_true] at h
  have := h u hu
  rw [h1] at this
  simp only [List.all_eq_true] at this
  exact this v ((h2 v).2 he)

end ValidRuns

section ComponentClaims

variable {T W : Type} [LinearOrder T] [Inhabited W]

/-- In a list of lists whose concatenation has no repetition, an element lies in one
position only. -/
theorem flatten_nodup_index {α : Type} {L : List (List α)} (h : L.flatten.Nodup)
    {i j : Nat} {c c' : List α} (hi : L.get? i = some c) (hj : L.get? j = some c')
    {v : α} (hv : v ∈ c) (hv' : v ∈ c') : j = i := by
  induction L generalizing i j with
  | nil => simp at hi
  | cons l L ih =>
    rw [List.flatten_cons, List.nodup_append] at h
    obtain ⟨-, h2, h3⟩ := h
    cases i with
    | zero =>
      cases j with
      | zero => rfl
      | succ j =>
        simp only [List.get?_cons_zero, Option.some.injEq] at hi
        simp only [List.get?_cons_succ] at hj
        subst hi
        exact absurd (List.mem_flatten.2 ⟨c', List.get?_mem hj, hv'⟩) (fun hm => h3 hv hm)
    | succ i =>
      cases j with
      | zero =>
        simp only [List.get?_cons_zero, Option.some.injEq] at hj
        simp only [List.get?_cons_succ] at hi
        subst hj
        exact absurd (List.mem_flatten.2 ⟨c, List.get?_mem hi, hv⟩) (fun hm => h3 hv' hm)
      | succ j =>
        simp only [List.get?_cons_succ] at hi hj
        rw [ih h2 hi hj]

/-- C20: for an undirected graph `FindComponentsBFS` returns a list of components such
that every vertex lies in exactly one component, at one position of the list, and
occurs once in it; the components are non-empty and hold vertices only; two vertices
lie in the same component iff a path of edges joins them; `CountComponents` returns
the number of components, which is `0` when the graph has no vertex. -/
theorem C20_components_partition (ug : UndirectedGraph T W) (h : ug.Valid) :
    ∃ comps : List (List T),
      ConnectedComponents.FindComponentsBFS ug.toGraphBase = .ok comps ∧
      (∀ v, ug.HasVertex v = true →
        ∃ i c, comps.get? i = some c ∧ c.count v = 1 ∧
          ∀ j c', comps.get? j = some c' → v ∈ c' → j = i) ∧
      (∀ c ∈ comps, c ≠ [] ∧ ∀ v ∈ c, ug.HasVertex v = true) ∧
      (∀ u v, ug.HasVertex u = true → ug.HasVertex v = true →
        ((∃ c ∈ comps, u ∈ c ∧ v ∈ c) ↔ ug.toGraphBase.Connected u v)) ∧
      ConnectedComponents.CountComponents ug.toGraphBase = .ok (comps.length : Int) ∧
      (ug.GetVertexCount = 0 → comps = []) := by
  have hg := ug_valid_toGraphBase h
  have hsym : ∀ u v, ug.toGraphBase.HasEdge u v = ug.toGraphBase.HasEdge v u :=
    fun u v => ug_edge_symm h u v
  obtain ⟨⟨vis, comps⟩, h1, hinv, hall⟩ := findComponentsBFS_spec hg hsym
  have hF : ConnectedComponents.FindComponentsBFS ug.toGraphBase = .ok comps := by
    simp only [ConnectedComponents.FindComponentsBFS, h1]
  have hvert : ∀ c ∈ comps, ∀ v ∈ c, ug.HasVertex v = true := hinv.vertex
  have hne : ∀ c ∈ comps, c ≠ [] := by
    intro c hc
    obtain ⟨r, hr, -⟩ := hinv.comp c hc
    exact List.ne_nil_of_mem hr
  refine ⟨comps, hF, ?_, fun c hc => ⟨hne c hc, hvert c hc⟩, ?_, ?_, ?_⟩
  · intro v hv
    obtain ⟨c, hc, hvc⟩ := (hinv.visited_iff v).1 (hall v ((hg.mem_all v).2 hv))
    obtain ⟨i, hi⟩ := List.get?_of_mem hc
    refine ⟨i, c, hi, ?_, ?_⟩
    · have hcn : c.Nodup := (List.nodup_flatten.1 hinv.nodup).1 c hc
      exact List.count_eq_one_of_mem hcn hvc
    · intro j c' hj hv'
      exact flatten_nodup_index hinv.nodup hi hj hvc hv'
  · intro u v hu _
    constructor
    · rintro ⟨c, hc, huc, hvc⟩
      obtain ⟨r, -, hr⟩ := hinv.comp c hc
      exact (connected_symm hsym ((hr u).1 huc)).trans ((hr v).1 hvc)
    · intro huv
      obtain ⟨c, hc, huc⟩ := (hinv.visited_iff u).1 (hall u ((hg.mem_all u).2 hu))
      obtain ⟨r, -, hr⟩ := hinv.comp c hc
      exact ⟨c, hc, huc, (hr v).2 (((hr u).1 huc).trans huv)⟩
  · simp only [ConnectedComponents.CountComponents, hF]
  · intro h0
    have hlen : ug.toGraphBase.GetAllVertices = [] := by
      have := hg.count_eq
      rw [show ug.toGraphBase.GetVertexCount = ug.GetVertexCount from rfl, h0] at this
      exact List.length_eq_zero.1 (by exact_mod_cast this.symm)
    cases comps with
    | nil => rfl
    | cons c cs =>
      obtain ⟨r, hr, -⟩ := hinv.comp c (List.mem_cons_self _ _)
      have := (hg.mem_all r).2 (hvert c (List.mem_cons_self _ _) r hr)
      rw [hlen] at this
      cases this

/-- C20 at the undirected graph with the edges `1-2`, `3-4`, `4-5` and the isolated
vertex `6`: the components are `[1, 2]`, `[3, 4, 5]`, `[6]`. -/
theorem C20_components_partition_witness :
    ∃ g : UndirectedGraph Nat Nat,
      UndirectedGraph.run UndirectedGraph.empty
        [.addEdge 1 2 1, .addEdge 3 4 1, .addEdge 4 5 1, .addVertex 6] = .ok g ∧
      g.Valid ∧
      ConnectedComponents.FindComponentsBFS g.toGraphBase = .ok [[1, 2], [3, 4, 5], [6]] ∧
      ∃ comps : List (List Nat),
        ConnectedComponents.FindComponentsBFS g.toGraphBase = .ok comps ∧
        (∀ v, g.HasVertex v = true →
          ∃ i c, comps.get? i = some c ∧ c.count v = 1 ∧
            ∀ j c', comps.get? j = some c' → v ∈ c' → j = i) ∧
        (∀ c ∈ comps, c ≠ [] ∧ ∀ v ∈ c, g.HasVertex v = true) ∧
        (∀ u v, g.HasVertex u = true → g.HasVertex v = true →
          ((∃ c ∈ comps, u ∈ c ∧ v ∈ c) ↔ g.toGraphBase.Connected u v)) ∧
        ConnectedComponents.CountComponents g.toGraphBase = .ok (comps.length : Int) ∧
        (g.GetVertexCount = 0 → comps = []) := by
  obtain ⟨g, hg⟩ : ∃ g : UndirectedGraph Nat Nat,
      UndirectedGraph.run UndirectedGraph.empty
        [.addEdge 1 2 1, .addEdge 3 4 1, .addEdge 4 5 1, .addVertex 6] = .ok g :=
    ⟨_, rfl⟩
  have hv : g.Valid := ug_run_valid _ _ g ug_valid_empty hg
  have he : (UndirectedGraph.run UndirectedGraph.empty
        [.addEdge 1 2 1, .addEdge 3 4 1, .addEdge 4 5 1, .addVertex 6]).map
      (fun g : UndirectedGraph Nat Nat =>
        ConnectedComponents.FindComponentsBFS g.toGraphBase) =
      .ok (.ok [[1, 2], [3, 4, 5], [6]]) := by decide
  rw [hg] at he
  exact ⟨g, hg, hv, by simpa [Except.map] using he, C20_components_partition g hv⟩

end ComponentClaims

section KahnFacts

variable {T W : Type} [LinearOrder T]

theorem dict_get_of_find? {K V : Type} [LinearOrder K] [Inhabited V] {d : Dictionary K V}
    {k : K} {v : V} (h : d.find? k = some v) : d.Get k = .ok v :=
  (Dictionary.find?_eq_some_iff d k v).1 h

theorem mem_entries_keys_iff {K V : Type} [LinearOrder K] [Inhabited V] {d : Dictionary K V}
    (h : d.WF) (k : K) :
    k ∈ d.entries.map DictionaryPair.getKey ↔ (d.find? k).isSome = true := by
  rw [← Dictionary.mem_keys_iff_find? h, Dictionary.keys, List.mem_toFinset]

/-- The first loop of `KahnSort` gives every vertex the count `0`. -/
theorem kahnInit_spec (vs : List T) :
    (TopologicalSort.kahnInit vs).WF ∧
    ∀ v, (TopologicalSort.kahnInit vs).find? v = if v ∈ vs then some 0 else none := by
  have key : ∀ (vs : List T) (d : Dictionary T Int), d.WF →
      (vs.foldl (fun inDegree vertex => inDegree.Add vertex 0) d).WF ∧
      ∀ v, (vs.foldl (fun inDegree vertex => inDegree.Add vertex 0) d).find? v =
        if v ∈ vs then some 0 else d.find? v := by
    intro vs
    induction vs with
    | nil => intro d hd; exact ⟨hd, fun v => by simp⟩
    | cons x xs ih =>
      intro d hd
      obtain ⟨h1, h2⟩ := ih (d.Add x 0) (Dictionary.WF_Add hd x 0)
      refine ⟨h1, fun v => ?_⟩
      simp only [List.foldl_cons, h2, Dictionary.find?_Add hd, List.mem_cons]
      by_cases hv : v ∈ xs
      · simp [hv]
      · by_cases hx : v = x <;> simp [hv, hx]
  obtain ⟨h1, h2⟩ := key vs Dictionary.empty Dictionary.WF_empty
  exact ⟨h1, fun v => by rw [TopologicalSort.kahnInit, h2, Dictionary.find?_empty]⟩

/-- The inner counting loop adds to the count of `v` the number of occurrences of `v` in
the adjacency list. -/
theorem kahnCountEdge_foldlE (adj : List T) :
    ∀ d : Dictionary T Int, d.WF → (∀ n, n ∈ adj → (d.find? n).isSome = true) →
      ∃ d', foldlE TopologicalSort.kahnCountEdge d adj = .ok d' ∧ d'.WF ∧
        ∀ v, d'.find? v = (d.find? v).map (fun k => k + (adj.count v : Int)) := by
  induction adj with
  | nil =>
    intro d hd _
    exact ⟨d, rfl, hd, fun v => by simp⟩
  | cons n adj ih =>
    intro d hd hs
    obtain ⟨k, hk⟩ := Option.isSome_iff_exists.1 (hs n (List.mem_cons_self _ _))
    have hd1 := Dictionary.WF_Add hd n (k + 1)
    have hs1 : ∀ m, m ∈ adj → ((d.Add n (k + 1)).find? m).isSome = true := by
      intro m hm
      rw [Dictionary.find?_Add hd]
      split_ifs
      · rfl
      · exact hs m (List.mem_cons_of_mem _ hm)
    obtain ⟨d', h1, h2, h3⟩ := ih (d.Add n (k + 1)) hd1 hs1
    refine ⟨d', ?_, h2, fun v => ?_⟩
    · simp only [foldlE, TopologicalSort.kahnCountEdge, dict_get_of_find? hk, h1]
    · rw [h3, Dictionary.find?_Add hd]
      by_cases hv : v = n
      · subst hv
        simp [hk, List.count_cons_self]
        ring
      · have : (n == v) = false := by simpa using fun h => hv h.symm
        simp [hv, List.count_cons, this]

theorem count_adj_eq {g : GraphBase T W} {u : T} {adj : List T} (hn : adj.Nodup)
    (hm : ∀ v, v ∈ adj ↔ g.HasEdge u v = true) (v : T) :
    adj.count v = if g.HasEdge u v = true then 1 else 0 := by
  by_cases h : g.HasEdge u v = true
  · rw [if_pos h]
    exact List.count_eq_one_of_mem hn ((hm v).2 h)
  · rw [if_neg h]
    exact List.count_eq_zero_of_not_mem (fun hv => h ((hm v).1 hv))

/-- The second loop of `KahnSort` leaves in `inDegree` the number of incoming edges of
every vertex. -/
theorem kahnCount_spec {g : GraphBase T W} (hg : g.Valid) :
    ∃ d, foldlE (TopologicalSort.kahnCountFrom g)
        (TopologicalSort.kahnInit g.GetAllVertices) g.GetAllVertices = .ok d ∧ d.WF ∧
      ∀ v, d.find? v =
        if g.HasVertex v = true then some ((g.inDegreeOutside [] v : Nat) : Int) else none := by
  obtain ⟨d, h1, h2, h3⟩ := foldlE_prefix_invariant
    (fun pre (d : Dictionary T Int) => d.WF ∧ ∀ v, d.find? v =
      if g.HasVertex v = true then
        some ((pre.countP (fun u => g.HasEdge u v) : Nat) : Int) else none)
    (TopologicalSort.kahnCountFrom g) g.GetAllVertices
    (by
      rintro pre x suf d hl ⟨hd, hf⟩
      have hx : g.HasVertex x = true := (hg.mem_all x).1 (by rw [hl]; simp)
      obtain ⟨adj, ha1, ha2, ha3⟩ := hg.adj_ok x hx
      have hs : ∀ n, n ∈ adj → (d.find? n).isSome = true := by
        intro n hn
        rw [hf, if_pos (hg.edge_right x n ((ha3 n).1 hn))]
        rfl
      obtain ⟨d', h1, h2, h3⟩ := kahnCountEdge_foldlE adj d hd hs
      refine ⟨d', by simp only [TopologicalSort.kahnCountFrom, ha1, h1], h2, fun v => ?_⟩
      rw [h3, hf, count_adj_eq ha2 ha3]
      by_cases hv : g.HasVertex v = true
      · simp only [hv, if_true, Option.map_some', List.countP_append, List.countP_cons,
          List.countP_nil, Option.some.injEq]
        by_cases he : g.HasEdge x v = true <;> simp [he]
      · simp [hv])
    (TopologicalSort.kahnInit g.GetAllVertices)
    (by
      obtain ⟨h1, h2⟩ := kahnInit_spec g.GetAllVertices
      refine ⟨h1, fun v => ?_⟩
      rw [h2]
      by_cases hv : g.HasVertex v = true
      · simp [hv, (hg.mem_all v).2 hv]
      · have hn : v ∉ g.GetAllVertices := fun h => hv ((hg.mem_all v).1 h)
        simp [hv, hn])
  refine ⟨d, h1, h2, fun v => ?_⟩
  rw [h3]
  simp [GraphBase.inDegreeOutside]

/-- The loop over the keys of `inDegree` enqueues, in key order, the keys with count
`0`. -/
theorem kahnEnqueueZero_foldlE (d : Dictionary T Int) (keys : List T) :
    ∀ q : Queue T, (∀ n, n ∈ keys → (d.find? n).isSome = true) →
      ∃ q', foldlE (TopologicalSort.kahnEnqueueZero d) q keys = .ok q' ∧
        q'.list = q.list ++ keys.filter (fun v => decide (d.find? v = some 0)) := by
  induction keys with
  | nil => intro q _; exact ⟨q, rfl, by simp⟩
  | cons n keys ih =>
    intro q hs
    obtain ⟨k, hk⟩ := Option.isSome_iff_exists.1 (hs n (List.mem_cons_self _ _))
    by_cases h0 : k = 0
    · obtain ⟨q', h1, h2⟩ := ih (q.Enqueue n) (fun m hm => hs m (List.mem_cons_of_mem _ hm))
      refine ⟨q', ?_, ?_⟩
      · simp only [foldlE, TopologicalSort.kahnEnqueueZero, dict_get_of_find? hk, h0,
          if_true, h1]
      · rw [h2, List.filter_cons, hk, h0]
        simp [Queue.Enqueue]
    · obtain ⟨q', h1, h2⟩ := ih q (fun m hm => hs m (List.mem_cons_of_mem _ hm))
      refine ⟨q', ?_, ?_⟩
      · simp only [foldlE, TopologicalSort.kahnEnqueueZero, dict_get_of_find? hk, h0,
          if_false, h1]
      · rw [h2, List.filter_cons, hk]
        simp [h0]

end KahnFacts

section KahnLoopFacts

variable {T W : Type} [LinearOrder T]

theorem countP_remove_one {α : Type} [DecidableEq α] (p : α → Bool) (c : α) :
    ∀ L : List α, L.Nodup → c ∈ L →
      L.countP p = L.countP (fun u => p u && !decide (u = c)) + (if p c = true then 1 else 0) := by
  intro L
  induction L with
  | nil => intro _ h; cases h
  | cons x xs ih =>
    intro hn hc
    rw [List.nodup_cons] at hn
    by_cases hx : x = c
    · subst hx
      have hcongr : xs.countP p = xs.countP (fun u => p u && !decide (u = x)) := by
        apply List.countP_congr
        intro u hu
        have : u ≠ x := fun h => hn.1 (h ▸ hu)
        simp [this]
      rw [List.countP_cons, List.countP_cons, hcongr]
      simp
    · have hc' : c ∈ xs := by
        rcases List.mem_cons.1 hc with h | h
        · exact absurd h.symm hx
        · exact h
      rw [List.countP_cons, List.countP_cons, ih hn.2 hc']
      simp [hx]
      omega

theorem inDegreeOutside_snoc {g : GraphBase T W} (hg : g.Valid) {done : List T} {c : T}
    (hc : g.HasVertex c = true) (hcn : c ∉ done) (v : T) :
    g.inDegreeOutside done v =
      g.inDegreeOutside (done ++ [c]) v + (if g.HasEdge c v = true then 1 else 0) := by
  unfold GraphBase.inDegreeOutside
  rw [countP_remove_one _ c g.GetAllVertices hg.all_nodup ((hg.mem_all c).2 hc)]
  congr 1
  · apply List.countP_congr
    intro u _
    by_cases h1 : u ∈ done <;> by_cases h2 : u = c <;> simp [h1, h2]
  · simp [hcn]

theorem inDegreeOutside_eq_zero {g : GraphBase T W} (hg : g.Valid) {done : List T} {v : T}
    (h : g.inDegreeOutside done v = 0) (u : T) (he : g.HasEdge u v = true) : u ∈ done := by
  unfold GraphBase.inDegreeOutside at h
  rw [List.countP_eq_zero] at h
  have := h u ((hg.mem_all u).2 (hg.edge_left u v he))
  simpa [he] using this

/-- The loop over the neighbours of `current` in `KahnSort` lowers the count of every
neighbour by one and enqueues, in order, those whose count was `1`. -/
theorem kahnRelax_foldlE (adj : List T) :
    ∀ (d : Dictionary T Int) (q : Queue T), adj.Nodup → d.WF →
      (∀ n, n ∈ adj → (d.find? n).isSome = true) →
      ∃ d' q', foldlE TopologicalSort.kahnRelax (d, q) adj = .ok (d', q') ∧ d'.WF ∧
        (∀ v, d'.find? v =
          if v ∈ adj then (d.find? v).map (fun k => k - 1) else d.find? v) ∧
        q'.list = q.list ++ adj.filter (fun n => decide (d.find? n = some 1)) := by
  induction adj with
  | nil => intro d q _ hd _; exact ⟨d, q, rfl, hd, fun v => by simp, by simp⟩
  | cons n adj ih =>
    intro d q hn hd hs
    rw [List.nodup_cons] at hn
    obtain ⟨k, hk⟩ := Option.isSome_iff_exists.1 (hs n (List.mem_cons_self _ _))
    have hd1 := Dictionary.WF_Add hd n (k - 1)
    have hne : ∀ m, m ∈ adj → m ≠ n := fun m hm h => hn.1 (h ▸ hm)
    have hf1 : ∀ m, m ∈ adj → (d.Add n (k - 1)).find? m = d.find? m := by
      intro m hm
      rw [Dictionary.find?_Add hd, if_neg (hne m hm)]
    have hs1 : ∀ m, m ∈ adj → ((d.Add n (k - 1)).find? m).isSome = true := by
      intro m hm
      rw [hf1 m hm]
      exact hs m (List.mem_cons_of_mem _ hm)
    have hfilter : adj.filter (fun m => decide ((d.Add n (k - 1)).find? m = some 1)) =
        adj.filter (fun m => decide (d.find? m = some 1)) := by
      apply List.filter_congr
      intro m hm
      rw [hf1 m hm]
    have hfind : ∀ (d' : Dictionary T Int),
        (∀ v, d'.find? v = if v ∈ adj then ((d.Add n (k - 1)).find? v).map (fun k => k - 1)
          else (d.Add n (k - 1)).find? v) →
        ∀ v, d'.find? v =
          if v ∈ n :: adj then (d.find? v).map (fun k => k - 1) else d.find? v := by
      intro d' h3 v
      rw [h3]
      by_cases hv : v ∈ adj
      · rw [if_pos hv, if_pos (List.mem_cons_of_mem _ hv), hf1 v hv]
      · rw [if_neg hv, Dictionary.find?_Add hd]
        by_cases hvn : v = n
        · subst hvn
          simp [hk]
        · simp [hv, hvn]
    by_cases h0 : k - 1 = 0
    · obtain ⟨d', q', h1, h2, h3, h4⟩ := ih (d.Add n (k - 1)) (q.Enqueue n) hn.2 hd1 hs1
      refine ⟨d', q', ?_, h2, hfind d' h3, ?_⟩
      · have hstep : TopologicalSort.kahnRelax (d, q) n =
            .ok (d.Add n (k - 1), q.Enqueue n) := by
          simp [TopologicalSort.kahnRelax, dict_get_of_find? hk, h0]
        simp only [foldlE, hstep, h1]
      · have hk1 : k = 1 := by omega
        rw [h4, hfilter, List.filter_cons, hk, hk1]
        simp [Queue.Enqueue]
    · obtain ⟨d', q', h1, h2, h3, h4⟩ := ih (d.Add n (k - 1)) q hn.2 hd1 hs1
      refine ⟨d', q', ?_, h2, hfind d' h3, ?_⟩
      · have hstep : TopologicalSort.kahnRelax (d, q) n = .ok (d.Add n (k - 1), q) := by
          simp [TopologicalSort.kahnRelax, dict_get_of_find? hk, h0]
        simp only [foldlE, hstep, h1]
      · have hk1 : k ≠ 1 := by omega
        rw [h4, hfilter, List.filter_cons, hk]
        simp [hk1]

end KahnLoopFacts

section KahnLoopSpec

variable {T W : Type} [LinearOrder T]

/-- One round of the `while` loop of `KahnSort` keeps the invariant. -/
theorem kahnInv_step {g : GraphBase T W} (hg : g.Valid) {s : TopologicalSort.KahnState T}
    (hs : TopologicalSort.KahnInv g s) {current : T} {rest adj : List T}
    (hq : s.queue.list = current :: rest)
    (hadjn : adj.Nodup) (hadjm : ∀ u, u ∈ adj ↔ g.HasEdge current u = true)
    {d' : Dictionary T Int} {q' : Queue T} (hd' : d'.WF)
    (hfind : ∀ v, d'.find? v =
      if v ∈ adj then (s.inDegree.find? v).map (fun k => k - 1) else s.inDegree.find? v)
    (hq' : q'.list = rest ++ adj.filter (fun n => decide (s.inDegree.find? n = some 1))) :
    TopologicalSort.KahnInv g
      { inDegree := d', queue := q', result := s.result ++ [current],
        visitedCount := s.visitedCount + 1 } := by
  have hnd := hs.nodup
  rw [hq] at hnd
  have hcq := (hs.queue_iff current).1 (by rw [hq]; exact List.mem_cons_self _ _)
  obtain ⟨hcv, hcn, hc0⟩ := hcq
  have hsplit := fun v => inDegreeOutside_snoc hg hcv hcn v
  have hrestq : ∀ v, v ∈ rest → v ≠ current ∧ v ∉ s.result ∧ g.HasVertex v = true ∧
      g.inDegreeOutside s.result v = 0 := by
    intro v hv
    have h1 := (hs.queue_iff v).1 (by rw [hq]; exact List.mem_cons_of_mem _ hv)
    refine ⟨?_, h1.2.1, h1.1, h1.2.2⟩
    rintro rfl
    have := (List.nodup_append.1 hnd).2.1
    exact (List.nodup_cons.1 this).1 hv
  have hfilt : ∀ v, v ∈ adj.filter (fun n => decide (s.inDegree.find? n = some 1)) ↔
      (g.HasEdge current v = true ∧ g.inDegreeOutside s.result v = 1) := by
    intro v
    rw [List.mem_filter, hadjm]
    constructor
    · rintro ⟨he, h1⟩
      refine ⟨he, ?_⟩
      rw [hs.deg, if_pos (hg.edge_right _ _ he)] at h1
      simpa using h1
    · rintro ⟨he, h1⟩
      refine ⟨he, ?_⟩
      rw [hs.deg, if_pos (hg.edge_right _ _ he), h1]
      simp
  have hfiltq : ∀ v, g.HasEdge current v = true → g.inDegreeOutside s.result v = 1 →
      v ≠ current ∧ v ∉ s.result ∧ v ∉ rest := by
    intro v he h1
    refine ⟨?_, ?_, ?_⟩
    · rintro rfl
      rw [hc0] at h1
      cases h1
    · intro hv
      obtain ⟨a, b, hab⟩ := List.append_of_mem hv
      have := hs.topo a v b hab current he
      exact hcn (by rw [hab]; exact List.mem_append_left _ this)
    · intro hv
      rw [(hrestq v hv).2.2.2] at h1
      cases h1
  refine ⟨hd', ?_, ?_, ?_, ?_, ?_, ?_⟩
  · show s.visitedCount + 1 = ((s.result ++ [current]).length : Int)
    rw [hs.count]
    simp
  · show ((s.result ++ [current]) ++ q'.list).Nodup
    rw [hq', ← List.append_assoc]
    rw [List.nodup_append]
    refine ⟨by simpa using hnd, (hadjn.sublist (List.filter_sublist _)), ?_⟩
    intro v hv1 hv2
    obtain ⟨he, h1⟩ := (hfilt v).1 hv2
    obtain ⟨n1, n2, n3⟩ := hfiltq v he h1
    simp only [List.mem_append, List.mem_singleton] at hv1
    rcases hv1 with (hv1 | hv1) | hv1
    · exact n2 hv1
    · exact n1 hv1
    · exact n3 hv1
  · intro v hv
    rcases List.mem_append.1 hv with hv | hv
    · exact hs.vert v hv
    · have : v = current := by simpa using hv
      exact this ▸ hcv
  · intro v
    show d'.find? v = if g.HasVertex v = true then
      some ((g.inDegreeOutside (s.result ++ [current]) v : Nat) : Int) else none
    rw [hfind, hs.deg]
    have h1 := hsplit v
    by_cases hv : g.HasVertex v = true
    · by_cases he : g.HasEdge current v = true
      · rw [if_pos ((hadjm v).2 he), if_pos hv, if_pos hv]
        rw [if_pos he] at h1
        rw [h1]
        simp
      · rw [if_neg (fun h => he ((hadjm v).1 h)), if_pos hv, if_pos hv]
        rw [if_neg he] at h1
        rw [h1]
        simp
    · rw [if_neg hv, if_neg hv]
      simp
  · intro v
    show v ∈ q'.list ↔ (g.HasVertex v = true ∧ v ∉ s.result ++ [current] ∧
      g.inDegreeOutside (s.result ++ [current]) v = 0)
    rw [hq', List.mem_append, hfilt]
    have h1 := hsplit v
    constructor
    · rintro (hv | ⟨he, hdeg⟩)
      · obtain ⟨n1, n2, n3, n4⟩ := hrestq v hv
        refine ⟨n3, ?_, by omega⟩
        simp only [List.mem_append, List.mem_singleton, not_or]
        exact ⟨n2, n1⟩
      · obtain ⟨n1, n2, -⟩ := hfiltq v he hdeg
        refine ⟨hg.edge_right _ _ he, ?_, ?_⟩
        · simp only [List.mem_append, List.mem_singleton, not_or]
          exact ⟨n2, n1⟩
        · rw [if_pos he] at h1
          omega
    · rintro ⟨hv, hn, hdeg⟩
      simp only [List.mem_append, List.mem_singleton, not_or] at hn
      by_cases he : g.HasEdge current v = true
      · right
        rw [if_pos he] at h1
        exact ⟨he, by omega⟩
      · left
        rw [if_neg he] at h1
        have hvq := (hs.queue_iff v).2 ⟨hv, hn.1, by omega⟩
        rw [hq] at hvq
        rcases List.mem_cons.1 hvq with h | h
        · exact absurd h hn.2
        · exact h
  · intro a v b hab u he
    change s.result ++ [current] = a ++ v :: b at hab
    rcases List.eq_nil_or_concat b with rfl | ⟨b', x, rfl⟩
    · have := List.append_inj' hab (by simp)
      obtain ⟨h1, h2⟩ := this
      simp only [List.cons.injEq, and_true] at h2
      subst h1 h2
      exact inDegreeOutside_eq_zero hg hc0 u he
    · have hab' : s.result ++ [current] = (a ++ v :: b') ++ [x] := by
        rw [hab]; simp
      have := List.append_inj' hab' (by simp)
      exact hs.topo a v b' this.1 u he

/-- The `while` loop of `KahnSort` ends within its budget, does not throw, keeps the
invariant and leaves the queue empty. -/
theorem kahnLoop_spec {g : GraphBase T W} (hg : g.Valid) :
    ∀ (fuel : Nat) (s : TopologicalSort.KahnState T),
      TopologicalSort.KahnInv g s →
      g.GetAllVertices.length < fuel + s.result.length →
      ∃ s', TopologicalSort.kahnLoop g fuel s = .ok s' ∧
        TopologicalSort.KahnInv g s' ∧ s'.queue.list = [] := by
  intro fuel
  induction fuel with
  | zero =>
    intro s hs hf
    have := length_le_of_nodup_of_vertices hg (List.nodup_append.1 hs.nodup).1 hs.vert
    omega
  | succ fuel ih =>
    intro s hs hf
    cases hq : s.queue.list with
    | nil =>
      refine ⟨s, ?_, hs, hq⟩
      have : s.queue.IsEmpty = true := (queue_isEmpty_iff _).2 hq
      simp [TopologicalSort.kahnLoop, this]
    | cons current rest =>
      have hne : s.queue.IsEmpty = false := by
        cases h : s.queue.IsEmpty
        · rfl
        · rw [(queue_isEmpty_iff _).1 h] at hq; cases hq
      have hdq : s.queue.Dequeue = .ok (current, ⟨rest⟩) := by
        simp [Queue.Dequeue, hq]
      have hcv := ((hs.queue_iff current).1 (by rw [hq]; exact List.mem_cons_self _ _)).1
      obtain ⟨adj, hadj, hadjn, hadjm⟩ := hg.adj_ok current hcv
      have hsome : ∀ n, n ∈ adj → (s.inDegree.find? n).isSome = true := by
        intro n hn
        rw [hs.deg, if_pos (hg.edge_right _ _ ((hadjm n).1 hn))]
        rfl
      obtain ⟨d', q', h1, h2, h3, h4⟩ :=
        kahnRelax_foldlE adj s.inDegree ⟨rest⟩ hadjn hs.wf hsome
      have hinv := kahnInv_step hg hs hq hadjn hadjm h2 h3 h4
      have hlen : (s.result ++ [current]).length ≤ g.GetAllVertices.length :=
        length_le_of_nodup_of_vertices hg (List.nodup_append.1 hinv.nodup).1 hinv.vert
      obtain ⟨s', e1, e2, e3⟩ := ih _ hinv (by
        show g.GetAllVertices.length < fuel + (s.result ++ [current]).length
        simp only [List.length_append, List.length_singleton] at hlen ⊢
        omega)
      refine ⟨s', ?_, e2, e3⟩
      simp only [TopologicalSort.kahnLoop, hne, hdq, hadj, h1, Bool.false_eq_true, if_false]
      exact e1

end KahnLoopSpec

section TopologicalFacts

variable {T W : Type} [LinearOrder T]

/-- The position of `v` after the prefix `a` in `a ++ v :: b`. -/
theorem get?_split {α : Type} (a : List α) (v : α) (b : List α) :
    (a ++ v :: b).get? a.length = some v := by
  rw [List.get?_eq_getElem?, List.getElem?_append_right (le_refl _)]
  simp

/-- A sequence in which every vertex stands after its predecessors (or before its
successors) is a topological order. -/
theorem isTopologicalOrder_of_split {g : GraphBase T W} {order : List T}
    (hn : order.Nodup) (hm : ∀ v, v ∈ order ↔ g.HasVertex v = true)
    (hg : ∀ u v, g.HasEdge u v = true → g.HasVertex u = true ∧ g.HasVertex v = true)
    (h : ∀ a v b, order = a ++ v :: b → ∀ u, g.HasEdge u v = true → u ∈ a) :
    g.IsTopologicalOrder order := by
  refine ⟨hn, hm, ?_⟩
  intro u v he
  obtain ⟨a, b, hab⟩ := List.append_of_mem ((hm v).2 (hg u v he).2)
  obtain ⟨a1, a2, ha⟩ := List.append_of_mem (h a v b hab u he)
  refine ⟨a1.length, a.length, ?_, ?_, ?_⟩
  · rw [ha]; simp
  · rw [hab, ha, List.append_assoc]
    exact get?_split a1 u (a2 ++ v :: b)
  · rw [hab]
    exact get?_split a v b

/-- A graph with a topological order has no directed cycle. -/
theorem no_cycle_of_isTopologicalOrder {g : GraphBase T W} {order : List T}
    (h : g.IsTopologicalOrder order) : ¬ g.HasCycle := by
  obtain ⟨hn, -, he⟩ := h
  have hlt : ∀ u v, g.Reaches u v →
      ∃ i j, i < j ∧ order.get? i = some u ∧ order.get? j = some v := by
    intro u v huv
    induction huv with
    | single h1 => exact he _ _ h1
    | tail _ h2 ih =>
      obtain ⟨i, j, hij, hi, hj⟩ := ih
      obtain ⟨j', k, hjk, hj', hk⟩ := he _ _ h2
      have hjj : j = j' := by
        have h1 : j < order.length := by
          by_contra hc
          rw [List.get?_eq_none.2 (not_lt.1 hc)] at hj
          cases hj
        have h2 : j' < order.length := by
          by_contra hc
          rw [List.get?_eq_none.2 (not_lt.1 hc)] at hj'
          cases hj'
        rcases lt_trichotomy j j' with hl | hl | hl
        · exact absurd (hj.trans hj'.symm) (List.nodup_iff_get?_ne_get?.1 hn j j' hl h2)
        · exact hl
        · exact absurd (hj'.trans hj.symm) (List.nodup_iff_get?_ne_get?.1 hn j' j hl h1)
      exact ⟨i, k, by omega, hi, hk⟩
  rintro ⟨v, hv⟩
  obtain ⟨i, j, hij, hi, hj⟩ := hlt v v hv
  have h2 : j < order.length := by
    by_contra hc
    rw [List.get?_eq_none.2 (not_lt.1 hc)] at hj
    cases hj
  exact List.nodup_iff_get?_ne_get?.1 hn i j hij h2 (hi.trans hj.symm)

/-- In a graph without a directed cycle, a set of vertices that holds every vertex all
of whose predecessors it holds is the set of all vertices. -/
theorem all_vertices_of_no_cycle {g : GraphBase T W} (hg : g.Valid) (hc : ¬ g.HasCycle)
    (P : T → Prop)
    (h : ∀ v, g.HasVertex v = true → (∀ u, g.HasEdge u v = true → P u) → P v) :
    ∀ v, g.HasVertex v = true → P v := by
  let α := {x // x ∈ g.GetAllVertices.toFinset}
  let r : α → α → Prop := fun a b => g.Reaches a.1 b.1
  have htrans : IsTrans α r := ⟨fun a b c hab hbc => Relation.TransGen.trans hab hbc⟩
  have hirr : IsIrrefl α r := ⟨fun a ha => hc ⟨a.1, ha⟩⟩
  have hwf : WellFounded r := Finite.wellFounded_of_trans_of_irrefl r
  have key : ∀ a : α, P a.1 := by
    intro a
    induction a using hwf.induction with
    | _ a ih =>
      apply h a.1 ((hg.mem_all _).1 (List.mem_toFinset.1 a.2))
      intro u hu
      have hmem : u ∈ g.GetAllVertices.toFinset :=
        List.mem_toFinset.2 ((hg.mem_all u).2 (hg.edge_left u _ hu))
      exact ih ⟨u, hmem⟩ (Relation.TransGen.single hu)
  intro v hv
  exact key ⟨v, List.mem_toFinset.2 ((hg.mem_all v).2 hv)⟩

theorem eq_length_of_all_vertices {g : GraphBase T W} (hg : g.Valid) {l : List T}
    (hn : l.Nodup) (hv : ∀ x, x ∈ l ↔ g.HasVertex x = true) :
    l.length = g.GetAllVertices.length := by
  apply le_antisymm (length_le_of_nodup_of_vertices hg hn (fun x hx => (hv x).1 hx))
  exact (hg.all_nodup.subperm (fun x hx => (hv x).2 ((hg.mem_all x).1 hx))).length_le

theorem all_vertices_of_length {g : GraphBase T W} (hg : g.Valid) {l : List T}
    (hn : l.Nodup) (hv : ∀ x, x ∈ l → g.HasVertex x = true)
    (hl : l.length = g.GetAllVertices.length) (x : T) (hx : g.HasVertex x = true) :
    x ∈ l := by
  have hsub : l.Subperm g.GetAllVertices :=
    hn.subperm (fun y hy => (hg.mem_all y).2 (hv y hy))
  exact (hsub.perm_of_length_le (le_of_eq hl.symm)).mem_iff.2 ((hg.mem_all x).2 hx)

/-- The result of `KahnSort`: a topological order of the graph, or the cycle error when
the graph has a directed cycle. -/
theorem kahnSort_spec {g : GraphBase T W} (hg : g.Valid) :
    (∃ order, TopologicalSort.KahnSort g = .ok order ∧ g.IsTopologicalOrder order) ∨
    (TopologicalSort.KahnSort g = .error .cycleDetected ∧ g.HasCycle) := by
  have hedge : ∀ u v, g.HasEdge u v = true → g.HasVertex u = true ∧ g.HasVertex v = true :=
    fun u v he => ⟨hg.edge_left u v he, hg.edge_right u v he⟩
  by_cases h0 : g.GetVertexCount = 0
  · left
    have hnil : g.GetAllVertices = [] := by
      have := hg.count_eq
      rw [h0] at this
      exact List.length_eq_zero.1 (by exact_mod_cast this.symm)
    have hnv : ∀ v, ¬ g.HasVertex v = true := by
      intro v hv
      have := (hg.mem_all v).2 hv
      rw [hnil] at this
      cases this
    refine ⟨[], by simp [TopologicalSort.KahnSort, h0], List.nodup_nil, ?_, ?_⟩
    · intro v
      simp [hnv v]
    · intro u v he
      exact absurd (hg.edge_left u v he) (hnv u)
  · obtain ⟨d, hd1, hd2, hd3⟩ := kahnCount_spec hg
    have hkeys : ∀ n, n ∈ d.entries.map DictionaryPair.getKey ↔ g.HasVertex n = true := by
      intro n
      rw [mem_entries_keys_iff hd2, hd3]
      by_cases hv : g.HasVertex n = true <;> simp [hv]
    obtain ⟨q, hq1, hq2⟩ := kahnEnqueueZero_foldlE d (d.entries.map DictionaryPair.getKey)
      Queue.empty (fun n hn => (mem_entries_keys_iff hd2 n).1 hn)
    have hq3 : q.list = (d.entries.map DictionaryPair.getKey).filter
        (fun v => decide (d.find? v = some 0)) := by
      rw [hq2]; rfl
    have hinv : TopologicalSort.KahnInv g
        { inDegree := d, queue := q, result := [], visitedCount := 0 } := by
      refine ⟨hd2, rfl, ?_, ?_, hd3, ?_, ?_⟩
      · show ([] ++ q.list).Nodup
        rw [List.nil_append, hq3]
        exact (Dictionary.nodup_keys hd2).sublist (List.filter_sublist _)
      · intro v hv
        cases hv
      · intro v
        show v ∈ q.list ↔ _
        rw [hq3, List.mem_filter, hkeys, hd3]
        by_cases hv : g.HasVertex v = true
        · simp [hv]
        · simp [hv]
      · intro a v b hab
        exact absurd hab (by simp)
    obtain ⟨s, hs1, hs2, hs3⟩ := kahnLoop_spec hg (g.GetAllVertices.length + 1) _ hinv
      (by simp)
    have hrn : s.result.Nodup := (List.nodup_append.1 hs2.nodup).1
    have hrun : ∀ r, (if s.visitedCount ≠ g.GetVertexCount then
          (.error .cycleDetected : Except Error (List T)) else .ok s.result) = r →
        TopologicalSort.KahnSort g = r := by
      intro r hr
      rw [← hr]
      simp only [TopologicalSort.KahnSort, h0, if_false, hd1,
        UndirectedGraph.forEachKeyE_eq_foldlE, hq1, hs1]
    by_cases hlen : s.result.length = g.GetAllVertices.length
    · left
      have hcnt : s.visitedCount = g.GetVertexCount := by
        rw [hs2.count, hg.count_eq, hlen]
      refine ⟨s.result, hrun _ (by simp [hcnt]), ?_⟩
      apply isTopologicalOrder_of_split hrn _ hedge hs2.topo
      intro v
      exact ⟨hs2.vert v, all_vertices_of_length hg hrn hs2.vert hlen v⟩
    · right
      have hcnt : s.visitedCount ≠ g.GetVertexCount := by
        rw [hs2.count, hg.count_eq]
        exact_mod_cast hlen
      refine ⟨hrun _ (by simp [hcnt]), ?_⟩
      by_contra hc
      apply hlen
      apply eq_length_of_all_vertices hg hrn
      intro x
      refine ⟨hs2.vert x, ?_⟩
      apply all_vertices_of_no_cycle hg hc (fun v => v ∈ s.result)
      intro v hv hpred
      by_contra hvn
      have hq := (hs2.queue_iff v).not.1 (by rw [hs3]; simp)
      apply hq
      refine ⟨hv, hvn, ?_⟩
      by_contra hne
      have hpos : 0 < g.inDegreeOutside s.result v := Nat.pos_of_ne_zero hne
      unfold GraphBase.inDegreeOutside at hpos
      obtain ⟨u, -, hu⟩ := List.countP_pos_iff.1 hpos
      simp only [Bool.and_eq_true, Bool.not_eq_true', decide_eq_false_iff_not] at hu
      exact hu.2 (hpred u hu.1)

end TopologicalFacts

section DfsFacts

variable {T W : Type} [LinearOrder T]

/-- A fold with a step that may throw: either it keeps an invariant, which may mention
the elements already processed, or it ends with an error of the kind `E`. -/
theorem foldlE_prefix_invariant_or {α σ : Type} (P : List α → σ → Prop) (E : Error → Prop)
    (f : σ → α → Except Error σ) (l : List α)
    (hstep : ∀ pre x suf s, l = pre ++ x :: suf → P pre s →
      (∃ s', f s x = .ok s' ∧ P (pre ++ [x]) s') ∨ (∃ e, f s x = .error e ∧ E e))
    (s0 : σ) (h0 : P [] s0) :
    (∃ s', foldlE f s0 l = .ok s' ∧ P l s') ∨ (∃ e, foldlE f s0 l = .error e ∧ E e) := by
  have key : ∀ (suf pre : List α) (s : σ), l = pre ++ suf → P pre s →
      (∃ s', foldlE f s suf = .ok s' ∧ P l s') ∨ (∃ e, foldlE f s suf = .error e ∧ E e) := by
    intro suf
    induction suf with
    | nil =>
      intro pre s hl hp
      rw [List.append_nil] at hl
      exact Or.inl ⟨s, rfl, hl ▸ hp⟩
    | cons x suf ih =>
      intro pre s hl hp
      rcases hstep pre x suf s hl hp with ⟨s1, h1, h2⟩ | ⟨e, h1, h2⟩
      · rcases ih (pre ++ [x]) s1 (by simp [hl]) h2 with ⟨s', h3, h4⟩ | ⟨e, h3, h4⟩
        · exact Or.inl ⟨s', by simp only [foldlE, h1, h3], h4⟩
        · exact Or.inr ⟨e, by simp only [foldlE, h1, h3], h4⟩
      · exact Or.inr ⟨e, by simp only [foldlE, h1], h2⟩
  exact key l [] s0 rfl h0

theorem set_toFinset_congr {s t : Set T} (hs : s.WF) (ht : t.WF)
    (h : ∀ x, s.Contains x = t.Contains x) : s.toFinset = t.toFinset := by
  ext x
  rw [← Set.set_contains_iff hs, ← Set.set_contains_iff ht, h]

theorem set_card_le_vertices {g : GraphBase T W} (hg : g.Valid) {s : Set T} (hs : s.WF)
    (hv : ∀ x, s.Contains x = true → g.HasVertex x = true) :
    s.toFinset.card ≤ g.GetAllVertices.length := by
  rw [← List.toFinset_card_of_nodup hg.all_nodup]
  apply Finset.card_le_card
  intro x hx
  exact List.mem_toFinset.2 ((hg.mem_all x).2 (hv x ((Set.set_contains_iff hs x).2 hx)))

theorem postorderFrom_of_mem {g : GraphBase T W} (fuel : Nat) {finished : List T} {v : T}
    (h : v ∈ finished) : g.postorderFrom (fuel + 1) finished v = finished := by
  simp only [GraphBase.postorderFrom, h, if_true]

/-- A call of `dfs` within its budget either throws the cycle error, and then the graph
has a directed cycle, or returns with `vertex` visited, the temporary marks as before
and the invariant kept. -/
theorem dfs_spec {g : GraphBase T W} (hg : g.Valid) :
    ∀ (fuel : Nat) (s : TopologicalSort.DfsState T) (vertex : T),
      TopologicalSort.DfsInv g s → g.HasVertex vertex = true →
      (∀ t, s.tempMark.Contains t = true → g.Reaches t vertex) →
      g.GetAllVertices.length < fuel + s.tempMark.toFinset.card →
      (∃ s', TopologicalSort.dfs g fuel s vertex = .ok s' ∧ TopologicalSort.DfsInv g s' ∧
        (∀ x, s'.tempMark.Contains x = s.tempMark.Contains x) ∧
        (∀ x, s.visited.Contains x = true → s'.visited.Contains x = true) ∧
        s'.visited.Contains vertex = true ∧
        s'.resultStack.list =
          (g.postorderFrom fuel s.resultStack.list.reverse vertex).reverse) ∨
      (∃ e, TopologicalSort.dfs g fuel s vertex = .error e ∧
        (e = .cycleDetected ∧ g.HasCycle)) := by
  intro fuel
  induction fuel with
  | zero =>
    intro s v hs _ _ hf
    have := set_card_le_vertices hg hs.twf hs.tvert
    omega
  | succ fuel ih =>
    intro s v hs hv hpath hf
    by_cases ht : s.tempMark.Contains v = true
    · right
      exact ⟨_, by simp [TopologicalSort.dfs, ht], rfl, v, hpath v ht⟩
    by_cases hvis : s.visited.Contains v = true
    · left
      refine ⟨s, by simp [TopologicalSort.dfs, ht, hvis], hs, fun _ => rfl, fun _ h => h, hvis, ?_⟩
      have hmem : v ∈ s.resultStack.list.reverse :=
        List.mem_reverse.2 ((hs.stack_iff v).2 hvis)
      simp [GraphBase.postorderFrom, hmem]
    have ht' : s.tempMark.Contains v = false := by simpa using ht
    have hvis' : s.visited.Contains v = false := by simpa using hvis
    obtain ⟨adj, hadj, -, hadjm⟩ := hg.adj_ok v hv
    have htm1 : ∀ x, (s.tempMark.Add v).Contains x = (decide (x = v) || s.tempMark.Contains x) :=
      fun x => set_contains_add hs.twf v x
    have hcard1 : (s.tempMark.Add v).toFinset.card = s.tempMark.toFinset.card + 1 := by
      rw [Set.set_toFinset_add hs.twf, Finset.card_insert_of_not_mem]
      rw [← Set.set_contains_iff hs.twf]
      exact ht
    have hinv1 : TopologicalSort.DfsInv g { s with tempMark := s.tempMark.Add v } := by
      refine ⟨hs.vwf, Set.set_wf_add hs.twf v, hs.nodup, hs.stack_iff, hs.vvert, ?_, ?_, hs.topo⟩
      · intro x hx
        rw [htm1] at hx
        simp only [Bool.or_eq_true, decide_eq_true_eq] at hx
        rcases hx with rfl | hx
        · exact hv
        · exact hs.tvert x hx
      · intro x hx
        show (s.tempMark.Add v).Contains x = false
        rw [htm1, hs.disj x hx]
        have : x ≠ v := by
          rintro rfl
          rw [hvis'] at hx
          cases hx
        simp [this]
    have hfold := foldlE_prefix_invariant_or
      (fun pre (s2 : TopologicalSort.DfsState T) => TopologicalSort.DfsInv g s2 ∧
        (∀ x, s2.tempMark.Contains x = (s.tempMark.Add v).Contains x) ∧
        (∀ x, s.visited.Contains x = true → s2.visited.Contains x = true) ∧
        (∀ u, u ∈ pre → s2.visited.Contains u = true) ∧
        s2.resultStack.list =
          (pre.foldl (g.postorderFrom fuel) s.resultStack.list.reverse).reverse)
      (fun e => e = .cycleDetected ∧ g.HasCycle)
      (TopologicalSort.dfs g fuel) adj
      (by
        rintro pre u suf s2 hl ⟨i1, i2, i3, i4, i5⟩
        have hu : g.HasEdge v u = true := (hadjm u).1 (by rw [hl]; simp)
        have hcard2 : s2.tempMark.toFinset.card = s.tempMark.toFinset.card + 1 := by
          rw [set_toFinset_congr i1.twf (Set.set_wf_add hs.twf v) i2, hcard1]
        rcases ih s2 u i1 (hg.edge_right v u hu)
            (by
              intro t htm
              rw [i2, htm1] at htm
              simp only [Bool.or_eq_true, decide_eq_true_eq] at htm
              rcases htm with rfl | htm
              · exact Relation.TransGen.single hu
              · exact (hpath t htm).tail hu)
            (by omega) with ⟨s3, h1, h2, h3, h4, h5, h6⟩ | ⟨e, h1, h2⟩
        · left
          refine ⟨s3, h1, h2, fun x => (h3 x).trans (i2 x), fun x hx => h4 x (i3 x hx), ?_, ?_⟩
          · intro w hw
            rcases List.mem_append.1 hw with hw | hw
            · exact h4 w (i4 w hw)
            · have : w = u := by simpa using hw
              exact this ▸ h5
          · rw [h6, i5, List.reverse_reverse, List.foldl_append]
            rfl
        · right
          exact ⟨e, h1, h2⟩)
      { s with tempMark := s.tempMark.Add v }
      ⟨hinv1, fun _ => rfl, fun _ h => h, fun u hu => (nomatch hu), by simp⟩
    rcases hfold with ⟨s2, h1, i1, i2, i3, i4, i5⟩ | ⟨e, h1, h2⟩
    · left
      have hv2 : s2.visited.Contains v = false := by
        cases h : s2.visited.Contains v
        · rfl
        · have := i1.disj v h
          rw [i2, htm1] at this
          simp at this
      have hrm : ∀ x, (s2.tempMark.Remove v).Contains x = s.tempMark.Contains x := by
        intro x
        rw [set_contains_remove i1.twf, i2, htm1]
        by_cases hx : x = v
        · subst hx
          simp [ht']
        · simp [hx]
      have hadd : ∀ x, (s2.visited.Add v).Contains x =
          (decide (x = v) || s2.visited.Contains x) := fun x => set_contains_add i1.vwf v x
      refine ⟨{ visited := s2.visited.Add v, tempMark := s2.tempMark.Remove v,
                resultStack := s2.resultStack.Push v }, ?_, ?_, hrm, ?_, ?_, ?_⟩
      · simp [TopologicalSort.dfs, ht', hvis', hadj, h1]
      · refine ⟨Set.set_wf_add i1.vwf v, Set.set_wf_remove i1.twf v, ?_, ?_, ?_, ?_, ?_, ?_⟩
        · show (v :: s2.resultStack.list).Nodup
          rw [List.nodup_cons]
          refine ⟨?_, i1.nodup⟩
          rw [i1.stack_iff, hv2]
          simp
        · intro x
          show x ∈ v :: s2.resultStack.list ↔ _
          rw [hadd, List.mem_cons, i1.stack_iff]
          simp
        · intro x hx
          rw [hadd] at hx
          simp only [Bool.or_eq_true, decide_eq_true_eq] at hx
          rcases hx with rfl | hx
          · exact hv
          · exact i1.vvert x hx
        · intro x hx
          rw [hrm] at hx
          exact hs.tvert x hx
        · intro x hx
          show (s2.tempMark.Remove v).Contains x = false
          rw [hadd] at hx
          simp only [Bool.or_eq_true, decide_eq_true_eq] at hx
          rcases hx with rfl | hx
          · rw [hrm]; exact ht'
          · rw [set_contains_remove i1.twf, i1.disj x hx]
            simp
        · intro a w b hab u hu
          change v :: s2.resultStack.list = a ++ w :: b at hab
          cases a with
          | nil =>
            simp only [List.nil_append, List.cons.injEq] at hab
            obtain ⟨rfl, rfl⟩ := hab
            exact (i1.stack_iff u).2 (i4 u ((hadjm u).2 hu))
          | cons a0 a' =>
            simp only [List.cons_append, List.cons.injEq] at hab
            exact i1.topo a' w b hab.2 u hu
      · intro x hx
        show (s2.visited.Add v).Contains x = true
        rw [hadd, i3 x hx]
        simp
      · show (s2.visited.Add v).Contains v = true
        rw [hadd]
        simp
      · show v :: s2.resultStack.list = _
        have hmem : v ∉ s.resultStack.list.reverse := by
          rw [List.mem_reverse, hs.stack_iff, hvis']
          simp
        rw [i5]
        simp [GraphBase.postorderFrom, hmem, hadj]
    · right
      exact ⟨e, by simp [TopologicalSort.dfs, ht', hvis', hadj, h1], h2⟩

end DfsFacts

section DfsSortFacts

variable {T W : Type} [LinearOrder T]

theorem stack_isEmpty_iff (q : Stack T) : q.IsEmpty = true ↔ q.list = [] := by
  cases q with
  | mk l => cases l <;> simp [Stack.IsEmpty]

/-- The last loop of `DFSSort` moves the stack, from its top, to the end of `result`. -/
theorem popAll_spec :
    ∀ (fuel : Nat) (stack : Stack T) (result : List T), stack.list.length < fuel →
      TopologicalSort.popAll fuel stack result = .ok (result ++ stack.list) := by
  intro fuel
  induction fuel with
  | zero => intro stack result h; omega
  | succ fuel ih =>
    intro stack result h
    cases stack with
    | mk l =>
      cases l with
      | nil => simp [TopologicalSort.popAll, Stack.IsEmpty]
      | cons x xs =>
        have := ih ⟨xs⟩ (result ++ [x]) (by simpa using h)
        simp [TopologicalSort.popAll, Stack.IsEmpty, Stack.Pop, this]

/-- A sequence in which every vertex stands before its successors is a topological
order. -/
theorem isTopologicalOrder_of_split_right {g : GraphBase T W} {order : List T}
    (hn : order.Nodup) (hm : ∀ v, v ∈ order ↔ g.HasVertex v = true)
    (hg : ∀ u v, g.HasEdge u v = true → g.HasVertex u = true ∧ g.HasVertex v = true)
    (h : ∀ a v b, order = a ++ v :: b → ∀ u, g.HasEdge v u = true → u ∈ b) :
    g.IsTopologicalOrder order := by
  refine ⟨hn, hm, ?_⟩
  intro u v he
  obtain ⟨a, b, hab⟩ := List.append_of_mem ((hm u).2 (hg u v he).1)
  obtain ⟨b1, b2, hb⟩ := List.append_of_mem (h a u b hab v he)
  refine ⟨a.length, (a ++ u :: b1).length, ?_, ?_, ?_⟩
  · simp
  · rw [hab]
    exact get?_split a u b
  · have : order = (a ++ u :: b1) ++ v :: b2 := by rw [hab, hb]; simp
    rw [this]
    exact get?_split (a ++ u :: b1) v b2

/-- The result of `DFSSort`: a topological order of the graph, or the cycle error when
the graph has a directed cycle. -/
theorem dfsSort_spec {g : GraphBase T W} (hg : g.Valid) :
    (∃ order, TopologicalSort.DFSSort g = .ok order ∧ g.IsTopologicalOrder order ∧
      order = g.postorder.reverse) ∨
    (TopologicalSort.DFSSort g = .error .cycleDetected ∧ g.HasCycle) := by
  have hedge : ∀ u v, g.HasEdge u v = true → g.HasVertex u = true ∧ g.HasVertex v = true :=
    fun u v he => ⟨hg.edge_left u v he, hg.edge_right u v he⟩
  by_cases h0 : g.GetVertexCount = 0
  · left
    have hnil : g.GetAllVertices = [] := by
      have := hg.count_eq
      rw [h0] at this
      exact List.length_eq_zero.1 (by exact_mod_cast this.symm)
    have hnv : ∀ v, ¬ g.HasVertex v = true := by
      intro v hv
      have := (hg.mem_all v).2 hv
      rw [hnil] at this
      cases this
    refine ⟨[], by simp [TopologicalSort.DFSSort, h0], ⟨List.nodup_nil, ?_, ?_⟩, ?_⟩
    · intro v
      simp [hnv v]
    · intro u v he
      exact absurd (hg.edge_left u v he) (hnv u)
    · simp [GraphBase.postorder, hnil]
  · have hfold := foldlE_prefix_invariant_or
      (fun pre (s : TopologicalSort.DfsState T) => TopologicalSort.DfsInv g s ∧
        (∀ x, s.tempMark.Contains x = false) ∧
        (∀ u, u ∈ pre → s.visited.Contains u = true) ∧
        s.resultStack.list =
          (pre.foldl (g.postorderFrom (g.GetAllVertices.length + 1)) []).reverse)
      (fun e => e = .cycleDetected ∧ g.HasCycle)
      (TopologicalSort.dfsFrom g (g.GetAllVertices.length + 1)) g.GetAllVertices
      (by
        rintro pre x suf s hl ⟨i1, i2, i3, i5⟩
        have hx : g.HasVertex x = true := (hg.mem_all x).1 (by rw [hl]; simp)
        have hmem : ∀ (s' : TopologicalSort.DfsState T),
            (∀ y, s.visited.Contains y = true → s'.visited.Contains y = true) →
            s'.visited.Contains x = true →
            ∀ u, u ∈ pre ++ [x] → s'.visited.Contains u = true := by
          intro s' hmono hxs u hu
          rcases List.mem_append.1 hu with hu | hu
          · exact hmono u (i3 u hu)
          · have : u = x := by simpa using hu
            exact this ▸ hxs
        cases hvis : s.visited.Contains x
        · rcases dfs_spec hg (g.GetAllVertices.length + 1) s x i1 hx
              (by
                intro t ht
                rw [i2] at ht
                cases ht)
              (by omega) with ⟨s', h1, h2, h3, h4, h5, h6⟩ | ⟨e, h1, h2⟩
          · left
            refine ⟨s', by simp [TopologicalSort.dfsFrom, hvis, h1], h2,
              fun y => (h3 y).trans (i2 y), hmem s' h4 h5, ?_⟩
            rw [h6, i5, List.reverse_reverse, List.foldl_append]
            rfl
          · right
            exact ⟨e, by simp [TopologicalSort.dfsFrom, hvis, h1], h2⟩
        · left
          refine ⟨s, by simp [TopologicalSort.dfsFrom, hvis], i1, i2,
            hmem s (fun _ h => h) hvis, ?_⟩
          have hx' : x ∈ pre.foldl (g.postorderFrom (g.GetAllVertices.length + 1)) [] := by
            have := (i1.stack_iff x).2 hvis
            rw [i5] at this
            exact List.mem_reverse.1 this
          rw [List.foldl_append, i5, List.foldl_cons, List.foldl_nil,
            postorderFrom_of_mem _ hx'])
      { visited := Set.empty, tempMark := Set.empty, resultStack := Stack.empty }
      (by
        refine ⟨⟨Set.set_wf_empty, Set.set_wf_empty, List.nodup_nil, ?_, ?_, ?_, ?_, ?_⟩,
          fun x => set_contains_empty x, fun u hu => (nomatch hu), by simp [Stack.empty]⟩
        · intro v
          simp [Stack.empty, set_contains_empty]
        · intro v hv
          simp [set_contains_empty] at hv
        · intro v hv
          simp [set_contains_empty] at hv
        · intro v _
          exact set_contains_empty v
        · intro a v b hab
          exact absurd hab (by simp [Stack.empty]))
    rcases hfold with ⟨s, h1, i1, -, i3, i5⟩ | ⟨e, h1, rfl, h2⟩
    · left
      refine ⟨s.resultStack.list, ?_, ?_, i5⟩
      · simp only [TopologicalSort.DFSSort, h0, if_false, h1]
        rw [popAll_spec _ _ _ (Nat.lt_succ_self _)]
        simp
      · apply isTopologicalOrder_of_split_right i1.nodup _ hedge i1.topo
        intro v
        rw [i1.stack_iff]
        exact ⟨i1.vvert v, fun hv => i3 v ((hg.mem_all v).2 hv)⟩
    · right
      exact ⟨by simp only [TopologicalSort.DFSSort, h0, if_false, h1], h2⟩

/-- A graph in which every edge leads to a greater vertex has no directed cycle. -/
theorem no_cycle_of_allEdges_lt {g : GraphBase T W} (hg : g.Valid)
    (h : g.allEdges (fun u v => decide (u < v)) = true) : ¬ g.HasCycle := by
  have hlt : ∀ u v, g.Reaches u v → u < v := by
    intro u v huv
    induction huv with
    | single h1 => simpa using allEdges_spec hg _ h _ _ h1
    | tail _ h2 ih => exact lt_trans ih (by simpa using allEdges_spec hg _ h _ _ h2)
  rintro ⟨v, hv⟩
  exact lt_irrefl v (hlt v v hv)

end DfsSortFacts

section TopologicalClaims

variable {T W : Type} [LinearOrder T] [Inhabited W]

/-- Holds on graph objects that satisfy the invariants of the data model, which
`DirectedGraph::RemoveVertex` does not keep (C1): for a directed graph without a
directed cycle `KahnSort` returns a sequence in which every vertex of the graph occurs
exactly once, which holds vertices only, and in which for every edge `u -> v` the vertex
`u` stands at an earlier position than `v`. -/
theorem kahnSort_topological_order_of_valid (dg : DirectedGraph T W) (h : dg.Valid)
    (hacyclic : ¬ dg.toGraphBase.HasCycle) :
    ∃ order : List T, TopologicalSort.KahnSort dg.toGraphBase = .ok order ∧
      (∀ v, dg.HasVertex v = true → order.count v = 1) ∧
      (∀ v, v ∈ order → dg.HasVertex v = true) ∧
      ∀ u v, dg.HasEdge u v = true →
        ∃ i j, i < j ∧ order.get? i = some u ∧ order.get? j = some v := by
  rcases kahnSort_spec (dg_valid_toGraphBase h) with ⟨order, h1, h2, h3, h4⟩ | ⟨-, hc⟩
  · exact ⟨order, h1, fun v hv => List.count_eq_one_of_mem h2 ((h3 v).2 hv),
      fun v hv => (h3 v).1 hv, h4⟩
  · exact absurd hc hacyclic

/-- At the directed graph with the edges `1 -> 2`, `1 -> 3`, `2 -> 4`, `3 -> 4`:
`KahnSort` returns `[1, 2, 3, 4]`. -/
theorem kahnSort_topological_order_of_valid_witness :
    ∃ g : DirectedGraph Nat Nat,
      DirectedGraph.run DirectedGraph.empty
        [.addEdge 1 2 1, .addEdge 1 3 1, .addEdge 2 4 1, .addEdge 3 4 1] = .ok g ∧
      g.Valid ∧ ¬ g.toGraphBase.HasCycle ∧
      TopologicalSort.KahnSort g.toGraphBase = .ok [1, 2, 3, 4] ∧
      ∃ order : List Nat, TopologicalSort.KahnSort g.toGraphBase = .ok order ∧
        (∀ v, g.HasVertex v = true → order.count v = 1) ∧
        (∀ v, v ∈ order → g.HasVertex v = true) ∧
        ∀ u v, g.HasEdge u v = true →
          ∃ i j, i < j ∧ order.get? i = some u ∧ order.get? j = some v := by
  obtain ⟨g, hg⟩ : ∃ g : DirectedGraph Nat Nat,
      DirectedGraph.run DirectedGraph.empty
        [.addEdge 1 2 1, .addEdge 1 3 1, .addEdge 2 4 1, .addEdge 3 4 1] = .ok g :=
    ⟨_, rfl⟩
  have hv : g.Valid := dg_run_buildOps_valid _ g (by decide) hg
  have he : (DirectedGraph.run DirectedGraph.empty
        [.addEdge 1 2 1, .addEdge 1 3 1, .addEdge 2 4 1, .addEdge 3 4 1]).map
      (fun g : DirectedGraph Nat Nat =>
        (g.toGraphBase.allEdges (fun u v => decide (u < v)),
          TopologicalSort.KahnSort g.toGraphBase)) =
      .ok (true, .ok [1, 2, 3, 4]) := by decide
  rw [hg] at he
  simp only [Except.map, Except.ok.injEq, Prod.mk.injEq] at he
  have hac : ¬ g.toGraphBase.HasCycle := no_cycle_of_allEdges_lt (dg_valid_toGraphBase hv) he.1
  exact ⟨g, hg, hv, hac, he.2, kahnSort_topological_order_of_valid g hv hac⟩

/-- Holds on graph objects that satisfy the invariants of the data model, which
`DirectedGraph::RemoveVertex` does not keep (C1): for a directed graph without a
directed cycle `DFSSort` returns a sequence in which every vertex of the graph occurs
exactly once, which holds vertices only, and in which for every edge `u -> v` the vertex
`u` stands at an earlier position than `v`; the sequence is the reverse of the
depth-first postorder of the graph. -/
theorem dfsSort_topological_order_of_valid (dg : DirectedGraph T W) (h : dg.Valid)
    (hacyclic : ¬ dg.toGraphBase.HasCycle) :
    ∃ order : List T, TopologicalSort.DFSSort dg.toGraphBase = .ok order ∧
      (∀ v, dg.HasVertex v = true → order.count v = 1) ∧
      (∀ v, v ∈ order → dg.HasVertex v = true) ∧
      (∀ u v, dg.HasEdge u v = true →
        ∃ i j, i < j ∧ order.get? i = some u ∧ order.get? j = some v) ∧
      order = dg.toGraphBase.postorder.reverse := by
  rcases dfsSort_spec (dg_valid_toGraphBase h) with ⟨order, h1, ⟨h2, h3, h4⟩, h5⟩ | ⟨-, hc⟩
  · exact ⟨order, h1, fun v hv => List.count_eq_one_of_mem h2 ((h3 v).2 hv),
      fun v hv => (h3 v).1 hv, h4, h5⟩
  · exact absurd hc hacyclic

/-- At the directed graph with the edges `1 -> 2`, `1 -> 3`, `2 -> 4`, `3 -> 4`:
the depth-first postorder is `[4, 2, 3, 1]` and `DFSSort` returns `[1, 3, 2, 4]`. -/
theorem dfsSort_topological_order_of_valid_witness :
    ∃ g : DirectedGraph Nat Nat,
      DirectedGraph.run DirectedGraph.empty
        [.addEdge 1 2 1, .addEdge 1 3 1, .addEdge 2 4 1, .addEdge 3 4 1] = .ok g ∧
      g.Valid ∧ ¬ g.toGraphBase.HasCycle ∧
      g.toGraphBase.postorder = [4, 2, 3, 1] ∧
      TopologicalSort.DFSSort g.toGraphBase = .ok [1, 3, 2, 4] ∧
      ∃ order : List Nat, TopologicalSort.DFSSort g.toGraphBase = .ok order ∧
        (∀ v, g.HasVertex v = true → order.count v = 1) ∧
        (∀ v, v ∈ order → g.HasVertex v = true) ∧
        (∀ u v, g.HasEdge u v = true →
          ∃ i j, i < j ∧ order.get? i = some u ∧ order.get? j = some v) ∧
        order = g.toGraphBase.postorder.reverse := by
  obtain ⟨g, hg⟩ : ∃ g : DirectedGraph Nat Nat,
      DirectedGraph.run DirectedGraph.empty
        [.addEdge 1 2 1, .addEdge 1 3 1, .addEdge 2 4 1, .addEdge 3 4 1] = .ok g :=
    ⟨_, rfl⟩
  have hv : g.Valid := dg_run_buildOps_valid _ g (by decide) hg
  have he : (DirectedGraph.run DirectedGraph.empty
        [.addEdge 1 2 1, .addEdge 1 3 1, .addEdge 2 4 1, .addEdge 3 4 1]).map
      (fun g : DirectedGraph Nat Nat =>
        (g.toGraphBase.allEdges (fun u v => decide (u < v)),
          TopologicalSort.DFSSort g.toGraphBase)) =
      .ok (true, .ok [1, 3, 2, 4]) := by decide
  have hp : (DirectedGraph.run DirectedGraph.empty
        [.addEdge 1 2 1, .addEdge 1 3 1, .addEdge 2 4 1, .addEdge 3 4 1]).map
      (fun g : DirectedGraph Nat Nat => g.toGraphBase.postorder) = .ok [4, 2, 3, 1] := by
    decide
  rw [hg] at he hp
  simp only [Except.map, Except.ok.injEq, Prod.mk.injEq] at he hp
  have hac : ¬ g.toGraphBase.HasCycle := no_cycle_of_allEdges_lt (dg_valid_toGraphBase hv) he.1
  exact ⟨g, hg, hv, hac, hp, he.2, dfsSort_topological_order_of_valid g hv hac⟩

/-- Holds on graph objects that satisfy the invariants of the data model, which
`DirectedGraph::RemoveVertex` does not keep (C1): for a directed graph, `KahnSort`
throws the cycle error iff the graph has a directed cycle, `DFSSort` throws the cycle
error iff the graph has a directed cycle, and `IsAcyclic` returns false iff the graph
has a directed cycle; a self-loop is a directed cycle. -/
theorem cycle_error_iff_cycle_of_valid (dg : DirectedGraph T W) (h : dg.Valid) :
    (TopologicalSort.KahnSort dg.toGraphBase = .error .cycleDetected ↔
      dg.toGraphBase.HasCycle) ∧
    (TopologicalSort.DFSSort dg.toGraphBase = .error .cycleDetected ↔
      dg.toGraphBase.HasCycle) ∧
    (TopologicalSort.IsAcyclic dg.toGraphBase = false ↔ dg.toGraphBase.HasCycle) ∧
    (∀ v, dg.HasEdge v v = true → dg.toGraphBase.HasCycle) := by
  have hg := dg_valid_toGraphBase h
  refine ⟨?_, ?_, ?_, fun v hv => ⟨v, Relation.TransGen.single hv⟩⟩
  · rcases kahnSort_spec hg with ⟨order, h1, h2⟩ | ⟨h1, hc⟩
    · have hn := no_cycle_of_isTopologicalOrder h2
      rw [h1]
      exact ⟨fun hx => (nomatch hx), fun hx => absurd hx hn⟩
    · exact ⟨fun _ => hc, fun _ => h1⟩
  · rcases dfsSort_spec hg with ⟨order, h1, h2, -⟩ | ⟨h1, hc⟩
    · have hn := no_cycle_of_isTopologicalOrder h2
      rw [h1]
      exact ⟨fun hx => (nomatch hx), fun hx => absurd hx hn⟩
    · exact ⟨fun _ => hc, fun _ => h1⟩
  · rcases kahnSort_spec hg with ⟨order, h1, h2⟩ | ⟨h1, hc⟩
    · have hn := no_cycle_of_isTopologicalOrder h2
      have ha : TopologicalSort.IsAcyclic dg.toGraphBase = true := by
        simp only [TopologicalSort.IsAcyclic, h1]
      rw [ha]
      exact ⟨fun hx => (nomatch hx), fun hx => absurd hx hn⟩
    · have ha : TopologicalSort.IsAcyclic dg.toGraphBase = false := by
        simp only [TopologicalSort.IsAcyclic, h1]
      rw [ha]
      exact ⟨fun _ => hc, fun _ => rfl⟩

/-- At the directed cycle `1 -> 2 -> 3 -> 1`: `KahnSort` and `DFSSort` throw the
cycle error and `IsAcyclic` is false. -/
theorem cycle_error_iff_cycle_of_valid_witness :
    ∃ g : DirectedGraph Nat Nat,
      DirectedGraph.run DirectedGraph.empty
        [.addEdge 1 2 1, .addEdge 2 3 1, .addEdge 3 1 1] = .ok g ∧
      g.Valid ∧
      TopologicalSort.KahnSort g.toGraphBase = .error .cycleDetected ∧
      TopologicalSort.DFSSort g.toGraphBase = .error .cycleDetected ∧
      TopologicalSort.IsAcyclic g.toGraphBase = false ∧
      g.toGraphBase.HasCycle := by
  obtain ⟨g, hg⟩ : ∃ g : DirectedGraph Nat Nat,
      DirectedGraph.run DirectedGraph.empty
        [.addEdge 1 2 1, .addEdge 2 3 1, .addEdge 3 1 1] = .ok g :=
    ⟨_, rfl⟩
  have hv : g.Valid := dg_run_buildOps_valid _ g (by decide) hg
  have he : (DirectedGraph.run DirectedGraph.empty
        [.addEdge 1 2 1, .addEdge 2 3 1, .addEdge 3 1 1]).map
      (fun g : DirectedGraph Nat Nat => TopologicalSort.KahnSort g.toGraphBase) =
      .ok (.error .cycleDetected) := by decide
  rw [hg] at he
  simp only [Except.map, Except.ok.injEq] at he
  have hc := (cycle_error_iff_cycle_of_valid g hv).1.1 he
  exact ⟨g, hg, hv, he, (cycle_error_iff_cycle_of_valid g hv).2.1.2 hc,
    (cycle_error_iff_cycle_of_valid g hv).2.2.1.2 hc, hc⟩

end TopologicalClaims

section DistanceFacts

variable {T R : Type} [LinearOrder T] [LinearOrderedRing R] [Inhabited R]

theorem distOf_add {d : Dictionary T (WithTop R)} (h : d.WF) (k : T) (x : WithTop R) (v : T) :
    ShortestPath.distOf (d.Add k x) v = if v = k then x else ShortestPath.distOf d v := by
  unfold ShortestPath.distOf
  rw [Dictionary.find?_Add h]
  split_ifs <;> rfl

theorem get_eq_distOf {d : Dictionary T (WithTop R)} {v : T}
    (h : (d.find? v).isSome = true) : d.Get v = .ok (ShortestPath.distOf d v) := by
  obtain ⟨x, hx⟩ := Option.isSome_iff_exists.1 h
  rw [dict_get_of_find? hx, ShortestPath.distOf, hx]
  rfl

/-- The start of the four algorithms: a well-formed map that holds `0` for the start and
infinity for every other vertex. -/
theorem initDistances_spec (vs : List T) (start : T) :
    (ShortestPath.initDistances vs start : Dictionary T (WithTop R)).WF ∧
    (∀ v, v ∈ vs → ((ShortestPath.initDistances vs start :
      Dictionary T (WithTop R)).find? v).isSome = true) ∧
    (∀ v, ShortestPath.distOf (ShortestPath.initDistances vs start :
      Dictionary T (WithTop R)) v = if v = start then 0 else ⊤) := by
  have key : ∀ (vs : List T) (d : Dictionary T (WithTop R)), d.WF →
      (vs.foldl (fun distances vertex => distances.Add vertex ⊤) d).WF ∧
      ∀ v, (vs.foldl (fun distances vertex => distances.Add vertex ⊤) d).find? v =
        if v ∈ vs then some ⊤ else d.find? v := by
    intro vs
    induction vs with
    | nil => intro d hd; exact ⟨hd, fun v => by simp⟩
    | cons x xs ih =>
      intro d hd
      obtain ⟨h1, h2⟩ := ih (d.Add x ⊤) (Dictionary.WF_Add hd x ⊤)
      refine ⟨h1, fun v => ?_⟩
      simp only [List.foldl_cons, h2, Dictionary.find?_Add hd, List.mem_cons]
      by_cases hv : v ∈ xs
      · simp [hv]
      · by_cases hx : v = x <;> simp [hv, hx]
  obtain ⟨h1, h2⟩ := key vs Dictionary.empty Dictionary.WF_empty
  refine ⟨Dictionary.WF_Add h1 start 0, ?_, ?_⟩
  · intro v hv
    rw [ShortestPath.initDistances, Dictionary.find?_Add h1, h2, if_pos hv]
    split_ifs <;> rfl
  · intro v
    rw [ShortestPath.initDistances, distOf_add h1]
    by_cases hv : v = start
    · simp [hv]
    · rw [if_neg hv, if_neg hv, ShortestPath.distOf, h2, Dictionary.find?_empty]
      split_ifs <;> rfl

theorem walk_vertex {g : GraphBase T R} (hg : g.Valid) {s v : T} {p : List T} {c : R}
    (h : g.Walk s p v c) : g.HasVertex s = true ∧ g.HasVertex v = true := by
  induction h with
  | start hs => exact ⟨hs, hs⟩
  | step _ he ih =>
    exact ⟨ih.1, hg.edge_right _ _ ((hg.weight_iff _ _).1 ⟨_, he⟩)⟩

theorem walk_connected {g : GraphBase T R} (hg : g.Valid) {s v : T} {p : List T} {c : R}
    (h : g.Walk s p v c) : g.Connected s v := by
  induction h with
  | start _ => exact Relation.ReflTransGen.refl
  | step _ he ih => exact ih.tail ((hg.weight_iff _ _).1 ⟨_, he⟩)

theorem walk_of_connected {g : GraphBase T R} (hg : g.Valid) {s v : T}
    (hs : g.HasVertex s = true) (h : g.Connected s v) : ∃ p c, g.Walk s p v c := by
  induction h with
  | refl => exact ⟨[s], 0, .start hs⟩
  | tail _ he ih =>
    obtain ⟨p, c, hp⟩ := ih
    obtain ⟨w, hw⟩ := (hg.weight_iff _ _).2 he
    exact ⟨_, _, .step hp hw⟩

theorem walk_nonneg {g : GraphBase T R}
    (hw : ∀ u v w, g.GetEdgeWeight u v = .ok w → 0 ≤ w) {s v : T} {p : List T} {c : R}
    (h : g.Walk s p v c) : 0 ≤ c := by
  induction h with
  | start _ => exact le_refl _
  | step _ he ih => exact add_nonneg ih (hw _ _ _ he)

/-- The selection loop returns the first unvisited vertex with the least distance, when
that distance is finite, and no vertex when every unvisited vertex is at infinity. -/
theorem selectMin_spec {g : GraphBase T R} (d : Dictionary T (WithTop R)) (visited : Set T)
    (hdom : ∀ v, v ∈ g.GetAllVertices → (d.find? v).isSome = true) :
    ∃ r, ShortestPath.selectMin g d visited = .ok r ∧
      (∀ x, x ∈ g.GetAllVertices → visited.Contains x = false →
        r.2 ≤ ShortestPath.distOf d x) ∧
      ((r.1 = none ∧ r.2 = ⊤) ∨
       (∃ u, r.1 = some u ∧ u ∈ g.GetAllVertices ∧ visited.Contains u = false ∧
         ShortestPath.distOf d u = r.2 ∧ r.2 ≠ ⊤)) := by
  unfold ShortestPath.selectMin
  apply foldlE_prefix_invariant
    (fun pre (r : Option T × WithTop R) =>
      (∀ x, x ∈ pre → visited.Contains x = false → r.2 ≤ ShortestPath.distOf d x) ∧
      ((r.1 = none ∧ r.2 = ⊤) ∨
       (∃ u, r.1 = some u ∧ u ∈ g.GetAllVertices ∧ visited.Contains u = false ∧
         ShortestPath.distOf d u = r.2 ∧ r.2 ≠ ⊤)))
  · rintro pre x suf ⟨ru, rm⟩ hl ⟨h1, h2⟩
    have hx : x ∈ g.GetAllVertices := by rw [hl]; simp
    have hget := get_eq_distOf (hdom x hx)
    cases hvis : visited.Contains x
    · by_cases hlt : ShortestPath.distOf d x < rm
      · refine ⟨(some x, ShortestPath.distOf d x), ?_, ?_, ?_⟩
        · simp [ShortestPath.selectStep, hvis, hget, hlt]
        · intro y hy hyv
          rcases List.mem_append.1 hy with hy | hy
          · exact le_trans (le_of_lt hlt) (h1 y hy hyv)
          · have : y = x := by simpa using hy
            rw [this]
        · right
          exact ⟨x, rfl, hx, hvis, rfl, ne_top_of_lt hlt⟩
      · refine ⟨(ru, rm), ?_, ?_, h2⟩
        · simp [ShortestPath.selectStep, hvis, hget, hlt]
        · intro y hy hyv
          rcases List.mem_append.1 hy with hy | hy
          · exact h1 y hy hyv
          · have : y = x := by simpa using hy
            rw [this]
            exact not_lt.1 hlt
    · refine ⟨(ru, rm), ?_, ?_, h2⟩
      · simp [ShortestPath.selectStep, hvis]
      · intro y hy hyv
        rcases List.mem_append.1 hy with hy | hy
        · exact h1 y hy hyv
        · have : y = x := by simpa using hy
          rw [this, hvis] at hyv
          cases hyv
  · exact ⟨fun x hx => (nomatch hx), Or.inl ⟨rfl, rfl⟩⟩

end DistanceFacts

section WalkFacts

variable {T R : Type} [LinearOrder T] [LinearOrderedRing R] [Inhabited R]

theorem isDistance_unique {g : GraphBase T R} {s v : T} {d1 d2 : WithTop R}
    (h1 : g.IsDistance s v d1) (h2 : g.IsDistance s v d2) : d1 = d2 := by
  have key : ∀ {a b : WithTop R}, g.IsDistance s v a → g.IsDistance s v b → a ≤ b := by
    intro a b ha hb
    cases hb' : b with
    | top => exact le_top
    | coe c =>
      obtain ⟨p, hp, -⟩ := hb.2 c hb'
      exact ha.1 p c hp
  exact le_antisymm (key h1 h2) (key h2 h1)

theorem walk_head_last {g : GraphBase T R} (hg : g.Valid) {s v : T} {p : List T} {c : R}
    (h : g.Walk s p v c) :
    p.head? = some s ∧ p.getLast? = some v ∧
      p.Chain' (fun a b => g.HasEdge a b = true) := by
  induction h with
  | start _ => simp
  | @step p y c x w hwalk he ih =>
    obtain ⟨h1, h2, h3⟩ := ih
    refine ⟨?_, by simp, ?_⟩
    · cases p with
      | nil => simp at h1
      | cons a p => simpa using h1
    · rw [List.chain'_append]
      refine ⟨h3, by simp, ?_⟩
      intro a ha b hb
      rw [h2] at ha
      simp only [Option.mem_def, Option.some.injEq] at ha
      simp only [List.head?_cons, Option.mem_def, Option.some.injEq] at hb
      subst ha hb
      exact (hg.weight_iff _ _).1 ⟨w, he⟩

theorem walk_ne_nil {g : GraphBase T R} {s v : T} {p : List T} {c : R}
    (h : g.Walk s p v c) : p ≠ [] := by
  cases h with
  | start _ => simp
  | step _ _ => simp

/-- A path with one vertex is the empty path at the start. -/
theorem walk_length_one {g : GraphBase T R} {s v : T} {p : List T} {c : R}
    (h : g.Walk s p v c) (hl : p.length ≤ 1) : v = s ∧ c = 0 := by
  cases h with
  | start _ => exact ⟨rfl, rfl⟩
  | step h1 _ =>
    have := List.length_pos.2 (walk_ne_nil h1)
    simp only [List.length_append, List.length_singleton] at hl
    omega

/-- Two paths that meet can be joined. -/
theorem walk_append {g : GraphBase T R} {s v x : T} {p q : List T} {c c' : R}
    (h1 : g.Walk s p v c) (h2 : g.Walk v q x c') : g.Walk s (p ++ q.tail) x (c + c') := by
  induction h2 with
  | start _ => simpa using h1
  | @step q y d z w hq he ih =>
    have hq' : q ≠ [] := walk_ne_nil hq
    have : (q ++ [z]).tail = q.tail ++ [z] := by
      cases q with
      | nil => exact absurd rfl hq'
      | cons a q => simp
    rw [this, ← List.append_assoc, ← add_assoc]
    exact .step ih he

/-- A path can be cut at any of its vertices. -/
theorem walk_split {g : GraphBase T R} (hg : g.Valid) {s v : T} {p : List T} {c : R}
    (h : g.Walk s p v c) :
    ∀ (p1 : List T) (x : T) (p2 : List T), p = p1 ++ x :: p2 →
      ∃ c1 c2, g.Walk s (p1 ++ [x]) x c1 ∧ g.Walk x (x :: p2) v c2 ∧ c = c1 + c2 := by
  induction h with
  | start hs =>
    intro p1 x p2 hp
    cases p1 with
    | nil =>
      simp only [List.nil_append, List.cons.injEq] at hp
      obtain ⟨rfl, rfl⟩ := hp
      exact ⟨0, 0, .start hs, .start hs, by simp⟩
    | cons a p1 =>
      simp only [List.cons_append, List.cons.injEq] at hp
      exact absurd hp.2 (by simp)
  | @step p y d z w hp he ih =>
    intro p1 x p2 hsplit
    rcases List.eq_nil_or_concat p2 with rfl | ⟨p2', z', rfl⟩
    · have := List.append_inj' hsplit (by simp)
      obtain ⟨h1, h2⟩ := this
      simp only [List.cons.injEq, and_true] at h2
      subst h1 h2
      have hz : g.HasVertex z = true := hg.edge_right _ _ ((hg.weight_iff _ _).1 ⟨w, he⟩)
      exact ⟨d + w, 0, .step hp he, .start hz, by simp⟩
    · simp only [List.concat_eq_append] at hsplit ⊢
      have hsplit' : p ++ [z] = (p1 ++ x :: p2') ++ [z'] := by
        rw [hsplit]; simp
      have := List.append_inj' hsplit' (by simp)
      obtain ⟨h1, h2⟩ := this
      simp only [List.cons.injEq, and_true] at h2
      subst h2
      obtain ⟨c1, c2, w1, w2, w3⟩ := ih p1 x p2' h1
      refine ⟨c1, c2 + w, w1, ?_, by rw [w3, add_assoc]⟩
      have : x :: (p2' ++ [z]) = (x :: p2') ++ [z] := by simp
      rw [this]
      exact .step w2 he

theorem exists_dup_split {α : Type} [DecidableEq α] :
    ∀ l : List α, ¬ l.Nodup → ∃ a x b e, l = a ++ x :: (b ++ x :: e) := by
  intro l
  induction l with
  | nil => intro h; exact absurd List.nodup_nil h
  | cons y l ih =>
    intro h
    by_cases hy : y ∈ l
    · obtain ⟨b, e, hbe⟩ := List.append_of_mem hy
      exact ⟨[], y, b, e, by rw [hbe]; simp⟩
    · have hn : ¬ l.Nodup := fun hn => h (List.nodup_cons.2 ⟨hy, hn⟩)
      obtain ⟨a, x, b, e, hl⟩ := ih hn
      exact ⟨y :: a, x, b, e, by rw [hl]; simp⟩

/-- A closed path of negative weight holds a cycle of negative weight. -/
theorem negative_cycle_of_closed_walk {g : GraphBase T R} (hg : g.Valid) :
    ∀ (n : Nat) (x : T) (p : List T) (c : R), p.length ≤ n → g.Walk x p x c → c < 0 →
      ∃ y q c', g.Connected x y ∧ g.Walk y q y c' ∧ c' < 0 ∧ q.tail.Nodup := by
  intro n
  induction n with
  | zero =>
    intro x p c hl hp _
    have := List.length_pos.2 (walk_ne_nil hp)
    omega
  | succ n ih =>
    intro x p c hl hp hc
    by_cases hn : p.tail.Nodup
    · exact ⟨x, p, c, Relation.ReflTransGen.refl, hp, hc, hn⟩
    · obtain ⟨a, y, b, e, ht⟩ := exists_dup_split p.tail hn
      have hhead := (walk_head_last hg hp).1
      have hpx : p = (x :: a) ++ y :: (b ++ y :: e) := by
        cases p with
        | nil => exact absurd rfl (walk_ne_nil hp)
        | cons z t =>
          simp only [List.head?_cons, Option.some.injEq] at hhead
          simp only [List.tail_cons] at ht
          rw [hhead, ht]
          simp
      obtain ⟨c1, c23, w1, w23, e1⟩ := walk_split hg hp (x :: a) y (b ++ y :: e) hpx
      obtain ⟨c2, c3, w2, w3, e2⟩ := walk_split hg w23 (y :: b) y e (by simp)
      have hxy : g.Connected x y := walk_connected hg w1
      by_cases h2 : c2 < 0
      · obtain ⟨z, q, c', r1, r2, r3, r4⟩ := ih y ((y :: b) ++ [y]) c2
          (by
            rw [hpx] at hl
            simp only [List.length_append, List.length_cons, List.length_singleton, List.length_nil] at hl ⊢
            omega) w2 h2
        exact ⟨z, q, c', hxy.trans r1, r2, r3, r4⟩
      · have hjoin := walk_append w1 w3
        simp only [List.tail_cons] at hjoin
        have hle : c1 + c3 < 0 := by
          have h2' : 0 ≤ c2 := not_lt.1 h2
          have : c1 + c3 ≤ c := by
            rw [e1, e2]
            exact add_le_add_left (le_add_of_nonneg_left h2') c1
          exact lt_of_le_of_lt this hc
        exact ih x _ (c1 + c3)
          (by
            rw [hpx] at hl
            simp only [List.length_append, List.length_cons, List.length_singleton, List.length_nil] at hl ⊢
            omega) hjoin hle

/-- Where no cycle of negative weight is reached from the start, every path from the
start can be replaced by one that is not heavier and visits no vertex twice. -/
theorem walk_shorten {g : GraphBase T R} (hg : g.Valid) {start : T}
    (hneg : ¬ g.HasNegativeCycleFrom start) :
    ∀ (n : Nat) (p : List T) (v : T) (c : R), p.length ≤ n → g.Walk start p v c →
      ∃ p' c', g.Walk start p' v c' ∧ c' ≤ c ∧ p'.Nodup := by
  intro n
  induction n with
  | zero =>
    intro p v c hl hp
    have := List.length_pos.2 (walk_ne_nil hp)
    omega
  | succ n ih =>
    intro p v c hl hp
    by_cases hn : p.Nodup
    · exact ⟨p, c, hp, le_refl _, hn⟩
    · obtain ⟨a, y, b, e, hpx⟩ := exists_dup_split p hn
      obtain ⟨c1, c23, w1, w23, e1⟩ := walk_split hg hp a y (b ++ y :: e) hpx
      obtain ⟨c2, c3, w2, w3, e2⟩ := walk_split hg w23 (y :: b) y e (by simp)
      have hsy : g.Connected start y := walk_connected hg w1
      have h2 : 0 ≤ c2 := by
        by_contra h
        obtain ⟨z, q, c', r1, r2, r3, r4⟩ :=
          negative_cycle_of_closed_walk hg _ y _ c2 (le_refl _) w2 (not_le.1 h)
        exact hneg ⟨z, q, c', hsy.trans r1, r2, r3, r4⟩
      have hjoin := walk_append w1 w3
      simp only [List.tail_cons] at hjoin
      obtain ⟨p', c', r1, r2, r3⟩ := ih _ v (c1 + c3)
        (by
          rw [hpx] at hl
          simp only [List.length_append, List.length_cons, List.length_singleton, List.length_nil] at hl ⊢
          omega) hjoin
      refine ⟨p', c', r1, le_trans r2 ?_, r3⟩
      rw [e1, e2]
      exact add_le_add_left (le_add_of_nonneg_left h2) c1

/-- With weights that are all non-negative there is no cycle of negative weight. -/
theorem no_negative_cycle_of_nonneg {g : GraphBase T R}
    (hw : ∀ u v w, g.GetEdgeWeight u v = .ok w → 0 ≤ w) (s : T) :
    ¬ g.HasNegativeCycleFrom s := by
  rintro ⟨v, p, c, -, hp, hc, -⟩
  exact absurd hc (not_lt.2 (walk_nonneg hw hp))

/-- A lower bound for the weights of all paths that is the weight of a path is the
weight of a path on which no vertex occurs twice. -/
theorem attained_simple {g : GraphBase T R} (hg : g.Valid) {start v : T}
    (hneg : ¬ g.HasNegativeCycleFrom start) {c : R}
    (hlow : ∀ p c', g.Walk start p v c' → c ≤ c') {p : List T} (hp : g.Walk start p v c) :
    ∃ p', g.Walk start p' v c ∧ p'.Nodup := by
  obtain ⟨p', c', h1, h2, h3⟩ := walk_shorten hg hneg _ p v c (le_refl _) hp
  have : c' = c := le_antisymm h2 (hlow p' c' h1)
  exact ⟨p', this ▸ h1, h3⟩


end WalkFacts

section RelaxFacts

variable {T R : Type} [LinearOrder T] [LinearOrderedRing R] [Inhabited R]

/-- One round of the loop over the neighbours in `Dijkstra`: the distance of an unvisited
neighbour `x` becomes the smaller one of its old value and the distance through `u`. -/
theorem relaxStep_spec {g : GraphBase T R} (hg : g.Valid) {u x : T} (visited : Set T)
    {d : Dictionary T (WithTop R)} (hd : d.WF)
    (hdom : ∀ v, g.HasVertex v = true → (d.find? v).isSome = true)
    (he : g.HasEdge u x = true) :
    ∃ d1, ShortestPath.relaxStep g u visited d x = .ok d1 ∧ d1.WF ∧
      (∀ v, (d1.find? v).isSome = (d.find? v).isSome) ∧
      (∀ v, v ≠ x → ShortestPath.distOf d1 v = ShortestPath.distOf d v) ∧
      (visited.Contains x = true → ShortestPath.distOf d1 x = ShortestPath.distOf d x) ∧
      (visited.Contains x = false → ∀ w, g.GetEdgeWeight u x = .ok w →
        ShortestPath.distOf d1 x =
          min (ShortestPath.distOf d x) (ShortestPath.distOf d u + (w : WithTop R))) := by
  cases hvis : visited.Contains x
  · obtain ⟨w, hw⟩ := (hg.weight_iff u x).2 he
    have hgu := get_eq_distOf (hdom u (hg.edge_left u x he))
    have hgx := get_eq_distOf (hdom x (hg.edge_right u x he))
    by_cases hlt : ShortestPath.distOf d u + (w : WithTop R) < ShortestPath.distOf d x
    · refine ⟨d.Add x (ShortestPath.distOf d u + (w : WithTop R)), ?_,
        Dictionary.WF_Add hd _ _, ?_, ?_, ?_, ?_⟩
      · simp [ShortestPath.relaxStep, hvis, hw, hgu, hgx, hlt]
      · intro v
        rw [Dictionary.find?_Add hd]
        by_cases hv : v = x
        · rw [if_pos hv, hv, hdom x (hg.edge_right u x he)]
          rfl
        · rw [if_neg hv]
      · intro v hv
        rw [distOf_add hd, if_neg hv]
      · intro h
        cases h
      · intro _ w' hw'
        rw [hw] at hw'
        cases hw'
        rw [distOf_add hd, if_pos rfl, min_eq_right (le_of_lt hlt)]
    · refine ⟨d, ?_, hd, fun _ => rfl, fun _ _ => rfl, fun _ => rfl, ?_⟩
      · simp [ShortestPath.relaxStep, hvis, hw, hgu, hgx, hlt]
      · intro _ w' hw'
        rw [hw] at hw'
        cases hw'
        rw [min_eq_left (not_lt.1 hlt)]
  · refine ⟨d, ?_, hd, fun _ => rfl, fun _ _ => rfl, fun _ => rfl, ?_⟩
    · simp [ShortestPath.relaxStep, hvis]
    · intro h
      cases h

/-- The loop over the neighbours of `u` in `Dijkstra`. -/
theorem relax_foldlE {g : GraphBase T R} (hg : g.Valid) {u : T} (visited : Set T)
    (hu : visited.Contains u = true) (adj : List T) :
    ∀ d : Dictionary T (WithTop R), d.WF →
      (∀ v, g.HasVertex v = true → (d.find? v).isSome = true) →
      adj.Nodup → (∀ v, v ∈ adj → g.HasEdge u v = true) →
      ∃ d', foldlE (ShortestPath.relaxStep g u visited) d adj = .ok d' ∧ d'.WF ∧
        (∀ v, (d'.find? v).isSome = (d.find? v).isSome) ∧
        (∀ v, ¬ (v ∈ adj ∧ visited.Contains v = false) →
          ShortestPath.distOf d' v = ShortestPath.distOf d v) ∧
        (∀ v w, v ∈ adj → visited.Contains v = false → g.GetEdgeWeight u v = .ok w →
          ShortestPath.distOf d' v =
            min (ShortestPath.distOf d v) (ShortestPath.distOf d u + (w : WithTop R))) := by
  induction adj with
  | nil =>
    intro d hd _ _ _
    exact ⟨d, rfl, hd, fun _ => rfl, fun _ _ => rfl, fun v w hv => (nomatch hv)⟩
  | cons x xs ih =>
    intro d hd hdom hn hadj
    rw [List.nodup_cons] at hn
    obtain ⟨d1, e1, e2, e3, e4, e5, e6⟩ :=
      relaxStep_spec hg visited hd hdom (hadj x (List.mem_cons_self _ _))
    have hdu : ShortestPath.distOf d1 u = ShortestPath.distOf d u := by
      by_cases hux : u = x
      · subst hux
        exact e5 hu
      · exact e4 u hux
    obtain ⟨d', f1, f2, f3, f4, f5⟩ := ih d1 e2
      (fun v hv => by rw [e3]; exact hdom v hv) hn.2
      (fun v hv => hadj v (List.mem_cons_of_mem _ hv))
    refine ⟨d', by simp only [foldlE, e1, f1], f2, fun v => (f3 v).trans (e3 v), ?_, ?_⟩
    · intro v hv
      have hv' : ¬ (v ∈ xs ∧ visited.Contains v = false) :=
        fun h => hv ⟨List.mem_cons_of_mem _ h.1, h.2⟩
      rw [f4 v hv']
      by_cases hvx : v = x
      · subst hvx
        cases hvis : visited.Contains v
        · exact absurd ⟨List.mem_cons_self _ _, hvis⟩ hv
        · exact e5 hvis
      · exact e4 v hvx
    · intro v w hv hvis hw
      rcases List.mem_cons.1 hv with rfl | hv
      · rw [f4 v (fun h => hn.1 h.1)]
        exact e6 hvis w hw
      · have hvx : v ≠ x := fun h => hn.1 (h ▸ hv)
        rw [f5 v w hv hvis hw, e4 v hvx, hdu]

end RelaxFacts

section DijkstraFacts

variable {T R : Type} [LinearOrder T] [LinearOrderedRing R] [Inhabited R]

/-- Under the invariant of `Dijkstra` the stored distance of a visited vertex is a lower
bound for the weight of every path to it, and a path to an unvisited vertex weighs at
least as much as the stored distance of some unvisited vertex. -/
theorem dijk_lower {g : GraphBase T R} (hg : g.Valid)
    (hw : ∀ u v w, g.GetEdgeWeight u v = .ok w → 0 ≤ w) {start : T}
    {d : Dictionary T (WithTop R)} {visited : Set T}
    (hi : ShortestPath.DijkInv g start d visited) {p : List T} {v : T} {c : R}
    (h : g.Walk start p v c) :
    (visited.Contains v = true → ShortestPath.distOf d v ≤ (c : WithTop R)) ∧
    (visited.Contains v = false → ∃ x, g.HasVertex x = true ∧ visited.Contains x = false ∧
      ShortestPath.distOf d x ≤ (c : WithTop R)) := by
  induction h with
  | start hs =>
    refine ⟨fun _ => ?_, fun hv => ⟨start, hs, hv, ?_⟩⟩
    · rw [hi.dstart]; rfl
    · rw [hi.dstart]; rfl
  | @step p y c x w hwalk he ih =>
    have hx : g.HasVertex x = true := hg.edge_right _ _ ((hg.weight_iff _ _).1 ⟨_, he⟩)
    have hcw : (c : WithTop R) ≤ ((c + w : R) : WithTop R) := by
      rw [WithTop.coe_le_coe]
      exact le_add_of_nonneg_right (hw _ _ _ he)
    cases hy : visited.Contains y
    · obtain ⟨z, hz1, hz2, hz3⟩ := ih.2 hy
      refine ⟨fun hv => ?_, fun _ => ⟨z, hz1, hz2, le_trans hz3 hcw⟩⟩
      exact le_trans (hi.mono x z hv hz1 hz2) (le_trans hz3 hcw)
    · have h1 : ShortestPath.distOf d x ≤ ((c + w : R) : WithTop R) := by
        rw [WithTop.coe_add]
        exact le_trans (hi.relaxed y x w hy he) (add_le_add_right (ih.1 hy) _)
      exact ⟨fun _ => h1, fun hv => ⟨x, hx, hv, h1⟩⟩

theorem distOf_nonneg {g : GraphBase T R}
    (hw : ∀ u v w, g.GetEdgeWeight u v = .ok w → 0 ≤ w) {start : T}
    {d : Dictionary T (WithTop R)} {visited : Set T}
    (hi : ShortestPath.DijkInv g start d visited) (v : T) :
    0 ≤ ShortestPath.distOf d v := by
  cases hc : ShortestPath.distOf d v with
  | top => exact le_top
  | coe c =>
    obtain ⟨p, hp⟩ := hi.real v c hc
    exact WithTop.coe_nonneg.2 (walk_nonneg hw hp)

/-- One round of the main loop of `Dijkstra` keeps the invariant. -/
theorem dijkInv_step {g : GraphBase T R} (hg : g.Valid)
    (hw : ∀ u v w, g.GetEdgeWeight u v = .ok w → 0 ≤ w) {start : T}
    {d : Dictionary T (WithTop R)} {visited : Set T}
    (hi : ShortestPath.DijkInv g start d visited) {u : T} (huv : g.HasVertex u = true)
    (hun : visited.Contains u = false) (hfin : ShortestPath.distOf d u ≠ ⊤)
    (hmin : ∀ x, g.HasVertex x = true → visited.Contains x = false →
      ShortestPath.distOf d u ≤ ShortestPath.distOf d x)
    {adj : List T} (hadjm : ∀ v, v ∈ adj ↔ g.HasEdge u v = true)
    {d' : Dictionary T (WithTop R)} (hd' : d'.WF)
    (hdom : ∀ v, (d'.find? v).isSome = (d.find? v).isSome)
    (hsame : ∀ v, ¬ (v ∈ adj ∧ (visited.Add u).Contains v = false) →
      ShortestPath.distOf d' v = ShortestPath.distOf d v)
    (hnew : ∀ v w, v ∈ adj → (visited.Add u).Contains v = false →
      g.GetEdgeWeight u v = .ok w →
      ShortestPath.distOf d' v =
        min (ShortestPath.distOf d v) (ShortestPath.distOf d u + (w : WithTop R))) :
    ShortestPath.DijkInv g start d' (visited.Add u) := by
  have hvis : ∀ x, (visited.Add u).Contains x = (decide (x = u) || visited.Contains x) :=
    fun x => set_contains_add hi.vwf u x
  have hvsame : ∀ v, (visited.Add u).Contains v = true →
      ShortestPath.distOf d' v = ShortestPath.distOf d v := by
    intro v hv
    apply hsame
    rintro ⟨-, h2⟩
    rw [hv] at h2
    cases h2
  have hcase : ∀ v, ShortestPath.distOf d' v = ShortestPath.distOf d v ∨
      ∃ w, g.GetEdgeWeight u v = .ok w ∧
        ShortestPath.distOf d' v = ShortestPath.distOf d u + (w : WithTop R) := by
    intro v
    by_cases hv : v ∈ adj ∧ (visited.Add u).Contains v = false
    · obtain ⟨w, hw1⟩ := (hg.weight_iff u v).2 ((hadjm v).1 hv.1)
      rcases min_cases (ShortestPath.distOf d v) (ShortestPath.distOf d u + (w : WithTop R))
        with h | h
      · left; rw [hnew v w hv.1 hv.2 hw1, h.1]
      · right; exact ⟨w, hw1, by rw [hnew v w hv.1 hv.2 hw1, h.1]⟩
    · exact Or.inl (hsame v hv)
  have hdec : ∀ v, ShortestPath.distOf d' v ≤ ShortestPath.distOf d v := by
    intro v
    by_cases hv : v ∈ adj ∧ (visited.Add u).Contains v = false
    · obtain ⟨w, hw1⟩ := (hg.weight_iff u v).2 ((hadjm v).1 hv.1)
      rw [hnew v w hv.1 hv.2 hw1]
      exact min_le_left _ _
    · exact le_of_eq (hsame v hv)
  have hle : ∀ v w, (visited.Add u).Contains v = false → g.GetEdgeWeight u v = .ok w →
      ShortestPath.distOf d' v ≤ ShortestPath.distOf d u + (w : WithTop R) := by
    intro v w hv hw1
    rw [hnew v w ((hadjm v).2 ((hg.weight_iff u v).1 ⟨w, hw1⟩)) hv hw1]
    exact min_le_right _ _
  have hnn := distOf_nonneg hw hi
  have hwnn : ∀ {a b : T} {w : R}, g.GetEdgeWeight a b = .ok w → (0 : WithTop R) ≤ (w : WithTop R) :=
    fun h => WithTop.coe_nonneg.2 (hw _ _ _ h)
  have hold : ∀ x, (visited.Add u).Contains x = true → x ≠ u → visited.Contains x = true := by
    intro x hx hxu
    rw [hvis] at hx
    simpa [hxu] using hx
  have hunv : ∀ x, (visited.Add u).Contains x = false → visited.Contains x = false := by
    intro x hx
    rw [hvis] at hx
    simp only [Bool.or_eq_false_iff] at hx
    exact hx.2
  refine ⟨hd', fun v hv => by rw [hdom]; exact hi.dom v hv, Set.set_wf_add hi.vwf u, ?_, ?_,
    ?_, ?_, ?_, ?_⟩
  · intro v hv
    by_cases hvu : v = u
    · exact hvu ▸ huv
    · exact hi.vvert v (hold v hv hvu)
  · rcases hcase start with h | ⟨w, hw1, h⟩
    · rw [h, hi.dstart]
    · apply le_antisymm
      · rw [← hi.dstart]; exact hdec start
      · rw [h]; exact add_nonneg (hnn u) (hwnn hw1)
  · intro v c hc
    rcases hcase v with h | ⟨w, hw1, h⟩
    · exact hi.real v c (h ▸ hc)
    · obtain ⟨cu, hcu⟩ := WithTop.ne_top_iff_exists.1 hfin
      obtain ⟨pu, hpu⟩ := hi.real u cu hcu.symm
      have : c = cu + w := by
        rw [h, ← hcu, ← WithTop.coe_add] at hc
        exact (WithTop.coe_injective hc).symm
      exact ⟨_, this ▸ GraphBase.Walk.step hpu hw1⟩
  · intro v hv
    rw [hvsame v hv]
    by_cases hvu : v = u
    · rw [hvu]; exact hfin
    · exact hi.vfin v (hold v hv hvu)
  · intro x v w hx hw1
    rw [hvsame x hx]
    by_cases hxu : x = u
    · subst hxu
      cases hv : (visited.Add x).Contains v
      · exact hle v w hv hw1
      · rw [hvsame v hv]
        by_cases hvx : v = x
        · rw [hvx]; exact le_add_of_nonneg_right (hwnn hw1)
        · exact le_trans (hi.mono v x (hold v hv hvx) huv hun)
            (le_add_of_nonneg_right (hwnn hw1))
    · exact le_trans (hdec v) (hi.relaxed x v w (hold x hx hxu) hw1)
  · intro x y hx hyv hy
    rw [hvsame x hx]
    have hxu : ShortestPath.distOf d x ≤ ShortestPath.distOf d u := by
      by_cases h : x = u
      · rw [h]
      · exact hi.mono x u (hold x hx h) huv hun
    rcases hcase y with h | ⟨w, hw1, h⟩
    · rw [h]
      exact le_trans hxu (hmin y hyv (hunv y hy))
    · rw [h]
      exact le_trans hxu (le_add_of_nonneg_right (hwnn hw1))

end DijkstraFacts

section DijkstraLoop

variable {T R : Type} [LinearOrder T] [LinearOrderedRing R] [Inhabited R]

/-- A set of vertices with as many elements as the graph has vertices holds every
vertex. -/
theorem set_holds_all_vertices {g : GraphBase T R} (hg : g.Valid) {s : Set T} (hs : s.WF)
    (hv : ∀ x, s.Contains x = true → g.HasVertex x = true)
    (hc : g.GetAllVertices.length ≤ s.toFinset.card) (x : T) (hx : g.HasVertex x = true) :
    s.Contains x = true := by
  have hsub : s.toFinset ⊆ g.GetAllVertices.toFinset := by
    intro y hy
    exact List.mem_toFinset.2 ((hg.mem_all y).2 (hv y ((Set.set_contains_iff hs y).2 hy)))
  have heq := Finset.eq_of_subset_of_card_le hsub
    (by rw [List.toFinset_card_of_nodup hg.all_nodup]; exact hc)
  rw [Set.set_contains_iff hs, heq]
  exact List.mem_toFinset.2 ((hg.mem_all x).2 hx)

/-- The main loop of `Dijkstra` does not throw, keeps the invariant, and leaves every
unvisited vertex at infinity. -/
theorem dijkstraLoop_spec {g : GraphBase T R} (hg : g.Valid)
    (hw : ∀ u v w, g.GetEdgeWeight u v = .ok w → 0 ≤ w) (start : T) :
    ∀ (n : Nat) (d : Dictionary T (WithTop R)) (visited : Set T),
      ShortestPath.DijkInv g start d visited →
      g.GetAllVertices.length ≤ n + visited.toFinset.card →
      ∃ d' visited', ShortestPath.dijkstraLoop g n (d, visited) = .ok (d', visited') ∧
        ShortestPath.DijkInv g start d' visited' ∧
        ∀ x, g.HasVertex x = true → visited'.Contains x = false →
          ShortestPath.distOf d' x = ⊤ := by
  intro n
  induction n with
  | zero =>
    intro d visited hi hc
    refine ⟨d, visited, rfl, hi, ?_⟩
    intro x hx hxv
    have := set_holds_all_vertices hg hi.vwf hi.vvert (by simpa using hc) x hx
    rw [hxv] at this
    cases this
  | succ n ih =>
    intro d visited hi hc
    obtain ⟨⟨ru, rm⟩, hr, hmin, hcase⟩ := selectMin_spec (g := g) d visited
      (fun v hv => hi.dom v ((hg.mem_all v).1 hv))
    rcases hcase with ⟨h1, h2⟩ | ⟨u, h1, h2, h3, h4, h5⟩
    · simp only at h1 h2
      subst h1 h2
      refine ⟨d, visited, by simp only [ShortestPath.dijkstraLoop, hr], hi, ?_⟩
      intro x hx hxv
      exact top_le_iff.1 (hmin x ((hg.mem_all x).2 hx) hxv)
    · simp only at h1 h4 h5
      subst h1
      have huv : g.HasVertex u = true := (hg.mem_all u).1 h2
      obtain ⟨adj, hadj, hadjn, hadjm⟩ := hg.adj_ok u huv
      have hua : (visited.Add u).Contains u = true := by
        rw [set_contains_add hi.vwf]; simp
      obtain ⟨d', f1, f2, f3, f4, f5⟩ := relax_foldlE hg (visited.Add u) hua adj d hi.dwf
        hi.dom hadjn (fun v hv => (hadjm v).1 hv)
      have hfin : ShortestPath.distOf d u ≠ ⊤ := by rw [h4]; exact h5
      have hinv := dijkInv_step hg hw hi huv h3 hfin
        (fun x hx hxv => by rw [h4]; exact hmin x ((hg.mem_all x).2 hx) hxv)
        hadjm f2 f3 f4 f5
      have hcard : (visited.Add u).toFinset.card = visited.toFinset.card + 1 := by
        rw [Set.set_toFinset_add hi.vwf, Finset.card_insert_of_not_mem]
        rw [← Set.set_contains_iff hi.vwf, h3]
        simp
      obtain ⟨d2, v2, g1, g2, g3⟩ := ih d' (visited.Add u) hinv (by omega)
      refine ⟨d2, v2, ?_, g2, g3⟩
      simp only [ShortestPath.dijkstraLoop, hr, h5, if_false, hadj, f1]
      exact g1

/-- The result of `Dijkstra`: the map holds for every vertex its distance from the
start. -/
theorem dijkstra_spec {g : GraphBase T R} (hg : g.Valid)
    (hw : ∀ u v w, g.GetEdgeWeight u v = .ok w → 0 ≤ w) {start : T}
    (hs : g.HasVertex start = true) :
    ∃ dist, ShortestPath.Dijkstra g start = .ok dist ∧
      ∀ v, g.HasVertex v = true →
        dist.Get v = .ok (ShortestPath.distOf dist v) ∧
        g.IsDistance start v (ShortestPath.distOf dist v) ∧
        (ShortestPath.distOf dist v = ⊤ ↔ ¬ g.Connected start v) := by
  obtain ⟨i1, i2, i3⟩ := initDistances_spec (R := R) g.GetAllVertices start
  have hinit : ShortestPath.DijkInv g start
      (ShortestPath.initDistances g.GetAllVertices start) Set.empty := by
    refine ⟨i1, fun v hv => i2 v ((hg.mem_all v).2 hv), Set.set_wf_empty, ?_, ?_, ?_, ?_, ?_, ?_⟩
    · intro v hv
      rw [set_contains_empty] at hv
      cases hv
    · rw [i3, if_pos rfl]
    · intro v c hc
      rw [i3] at hc
      by_cases hv : v = start
      · rw [if_pos hv] at hc
        have : c = 0 := (WithTop.coe_injective hc).symm
        rw [this, hv]
        exact ⟨[start], .start hs⟩
      · rw [if_neg hv] at hc
        exact absurd hc.symm WithTop.coe_ne_top
    · intro v hv
      rw [set_contains_empty] at hv
      cases hv
    · intro u v w hu
      rw [set_contains_empty] at hu
      cases hu
    · intro u v hu
      rw [set_contains_empty] at hu
      cases hu
  obtain ⟨d', v', h1, h2, h3⟩ := dijkstraLoop_spec hg hw start g.GetVertexCount.toNat _ _ hinit
    (by rw [hg.count_eq]; simp)
  refine ⟨d', by simp [ShortestPath.Dijkstra, hs, h1], ?_⟩
  intro v hv
  refine ⟨get_eq_distOf (h2.dom v hv), ?_⟩
  cases hvis : v'.Contains v
  · have htop := h3 v hv hvis
    have hno : ∀ p c, ¬ g.Walk start p v c := by
      intro p c hp
      obtain ⟨x, hx1, hx2, hx3⟩ := (dijk_lower hg hw h2 hp).2 hvis
      rw [h3 x hx1 hx2] at hx3
      exact WithTop.coe_ne_top (top_le_iff.1 hx3)
    refine ⟨⟨fun p c hp => absurd hp (hno p c), fun c hc => ?_⟩, ?_⟩
    · rw [htop] at hc
      exact absurd hc.symm WithTop.coe_ne_top
    · refine ⟨fun _ hc => ?_, fun _ => htop⟩
      obtain ⟨p, c, hp⟩ := walk_of_connected hg hs hc
      exact hno p c hp
  · have hfin := h2.vfin v hvis
    have hlow : ∀ p c, g.Walk start p v c → ShortestPath.distOf d' v ≤ (c : WithTop R) :=
      fun p c hp => (dijk_lower hg hw h2 hp).1 hvis
    refine ⟨⟨hlow, fun c hc => ?_⟩, ?_⟩
    · obtain ⟨p, hp⟩ := h2.real v c hc
      exact attained_simple hg (no_negative_cycle_of_nonneg hw start)
        (fun p' c' hp' => WithTop.coe_le_coe.1 (hc ▸ hlow p' c' hp')) hp
    refine ⟨fun h => absurd h hfin, fun hn => ?_⟩
    obtain ⟨c, hc⟩ := WithTop.ne_top_iff_exists.1 hfin
    obtain ⟨p, hp⟩ := h2.real v c hc.symm
    exact absurd (walk_connected hg hp) hn

end DijkstraLoop

section DijkstraClaim

variable {T R : Type} [LinearOrder T] [LinearOrderedRing R] [Inhabited R]

/-- What `allWeights` checks holds for the weight of every edge. -/
theorem allWeights_spec {g : GraphBase T R} (hg : g.Valid) (p : R → Bool)
    (h : g.allWeights p = true) (u v : T) (w : R) (he : g.GetEdgeWeight u v = .ok w) :
    p w = true := by
  have hedge := (hg.weight_iff u v).1 ⟨w, he⟩
  obtain ⟨adj, h1, -, h2⟩ := hg.adj_ok u (hg.edge_left u v hedge)
  have hu := (hg.mem_all u).2 (hg.edge_left u v hedge)
  simp only [GraphBase.allWeights, List.all_eq_true] at h
  have := h u hu
  rw [h1] at this
  simp only [List.all_eq_true] at this
  have := this v ((h2 v).2 hedge)
  rw [he] at this
  exact this

/-- Holds on graph objects that satisfy the invariants of the data model, which
`DirectedGraph::RemoveVertex` does not keep (C1), and for weights whose sums are exact:
for a graph whose edge weights are all non-negative and a vertex `start` of it,
`Dijkstra(graph, start)` returns a map that has a value for every vertex `v`; the value
is the least total weight of a path from `start` to `v`, it is infinity exactly when no
path leads from `start` to `v`, and the value for `start` is `0`. -/
theorem dijkstra_distances_of_isGraph (g : GraphBase T R) (hg : g.IsGraph)
    (hw : ∀ u v w, g.GetEdgeWeight u v = .ok w → 0 ≤ w) (start : T)
    (hs : g.HasVertex start = true) :
    ∃ dist, ShortestPath.Dijkstra g start = .ok dist ∧
      (∀ v, g.HasVertex v = true →
        ∃ d, dist.Get v = .ok d ∧ g.IsDistance start v d ∧
          (d = ⊤ ↔ ¬ g.Connected start v)) ∧
      dist.Get start = .ok 0 := by
  have hv := isGraph_valid hg
  obtain ⟨dist, h1, h2⟩ := dijkstra_spec hv hw hs
  refine ⟨dist, h1, fun v hvv => ⟨_, h2 v hvv⟩, ?_⟩
  obtain ⟨e1, e2, -⟩ := h2 start hs
  rw [e1]
  have hle : ShortestPath.distOf dist start ≤ ((0 : R) : WithTop R) :=
    e2.1 [start] 0 (.start hs)
  obtain ⟨c, hc⟩ := WithTop.ne_top_iff_exists.1 (ne_top_of_le_ne_top WithTop.coe_ne_top hle)
  obtain ⟨p, hp, -⟩ := e2.2 c hc.symm
  have : (0 : WithTop R) ≤ ShortestPath.distOf dist start := by
    rw [← hc]
    exact WithTop.coe_nonneg.2 (walk_nonneg hw hp)
  rw [le_antisymm hle this]
  rfl

/-- At the directed graph with the edges `1 -> 2` (1), `1 -> 3` (4), `2 -> 3` (2),
`2 -> 4` (5), `3 -> 4` (1) and the isolated vertex `7`, from the vertex `1`: the
distances are `0`, `1`, `3`, `4`, and infinity for `7`. -/
theorem dijkstra_distances_of_isGraph_witness :
    ∃ g : DirectedGraph Nat Int,
      DirectedGraph.run DirectedGraph.empty
        [.addEdge 1 2 1, .addEdge 1 3 4, .addEdge 2 3 2, .addEdge 2 4 5, .addEdge 3 4 1,
          .addVertex 7] = .ok g ∧
      g.toGraphBase.IsGraph ∧
      (∀ u v w, g.toGraphBase.GetEdgeWeight u v = .ok w → 0 ≤ w) ∧
      g.toGraphBase.HasVertex 1 = true ∧
      (ShortestPath.Dijkstra g.toGraphBase 1).map ShortestPath.toList =
        .ok [(1, 0), (2, 1), (3, 3), (4, 4), (7, ⊤)] ∧
      ∃ dist, ShortestPath.Dijkstra g.toGraphBase 1 = .ok dist ∧
        (∀ v, g.toGraphBase.HasVertex v = true →
          ∃ d, dist.Get v = .ok d ∧ g.toGraphBase.IsDistance 1 v d ∧
            (d = ⊤ ↔ ¬ g.toGraphBase.Connected 1 v)) ∧
        dist.Get 1 = .ok 0 := by
  obtain ⟨g, hg⟩ : ∃ g : DirectedGraph Nat Int,
      DirectedGraph.run DirectedGraph.empty
        [.addEdge 1 2 1, .addEdge 1 3 4, .addEdge 2 3 2, .addEdge 2 4 5, .addEdge 3 4 1,
          .addVertex 7] = .ok g :=
    ⟨_, rfl⟩
  have hv : g.Valid := dg_run_buildOps_valid _ g (by decide) hg
  have he1 : (DirectedGraph.run DirectedGraph.empty
        [.addEdge 1 2 1, .addEdge 1 3 4, .addEdge 2 3 2, .addEdge 2 4 5, .addEdge 3 4 1,
          .addVertex 7]).map
      (fun g : DirectedGraph Nat Int =>
        (g.toGraphBase.allWeights (fun w => decide (0 ≤ w)) && g.toGraphBase.HasVertex 1)) =
      .ok true := by decide
  have he2 : (DirectedGraph.run DirectedGraph.empty
        [.addEdge 1 2 1, .addEdge 1 3 4, .addEdge 2 3 2, .addEdge 2 4 5, .addEdge 3 4 1,
          .addVertex 7]).map
      (fun g : DirectedGraph Nat Int =>
        (ShortestPath.Dijkstra g.toGraphBase 1).map ShortestPath.toList) =
      .ok (.ok [(1, 0), (2, 1), (3, 3), (4, 4), (7, ⊤)]) := by decide
  rw [hg] at he1 he2
  simp only [Except.map, Except.ok.injEq, Bool.and_eq_true] at he1 he2
  have hgr : g.toGraphBase.IsGraph := Or.inl ⟨g, hv, rfl⟩
  have hw : ∀ u v w, g.toGraphBase.GetEdgeWeight u v = .ok w → 0 ≤ w := fun u v w h =>
    of_decide_eq_true (allWeights_spec (dg_valid_toGraphBase hv) _ he1.1 u v w h)
  exact ⟨g, hg, hgr, hw, he1.2, he2, dijkstra_distances_of_isGraph g.toGraphBase hgr hw 1 he1.2⟩

end DijkstraClaim

section PathRelaxFacts

variable {T R : Type} [LinearOrder T] [Inhabited T] [LinearOrderedRing R] [Inhabited R]

/-- One round of the loop over the neighbours in `DijkstraWithPath` changes `distances`
as the round of `Dijkstra` does, and stores `u` as predecessor exactly when the distance
changes. -/
theorem relaxStepWithPath_spec {g : GraphBase T R} (hg : g.Valid) {u x : T} (visited : Set T)
    {d : Dictionary T (WithTop R)} {prev : Dictionary T T} (hd : d.WF) (hp : prev.WF)
    (hdom : ∀ v, g.HasVertex v = true → (d.find? v).isSome = true)
    (he : g.HasEdge u x = true) :
    ∃ d1 prev1, ShortestPath.relaxStepWithPath g u visited (d, prev) x = .ok (d1, prev1) ∧
      ShortestPath.relaxStep g u visited d x = .ok d1 ∧ prev1.WF ∧
      (∀ v, v ≠ x → prev1.find? v = prev.find? v) ∧
      (ShortestPath.distOf d1 x = ShortestPath.distOf d x → prev1.find? x = prev.find? x) ∧
      (ShortestPath.distOf d1 x ≠ ShortestPath.distOf d x → prev1.find? x = some u) := by
  cases hvis : visited.Contains x
  · obtain ⟨w, hw⟩ := (hg.weight_iff u x).2 he
    have hgu := get_eq_distOf (hdom u (hg.edge_left u x he))
    have hgx := get_eq_distOf (hdom x (hg.edge_right u x he))
    by_cases hlt : ShortestPath.distOf d u + (w : WithTop R) < ShortestPath.distOf d x
    · refine ⟨d.Add x (ShortestPath.distOf d u + (w : WithTop R)), prev.Add x u, ?_, ?_,
        Dictionary.WF_Add hp _ _, ?_, ?_, ?_⟩
      · simp [ShortestPath.relaxStepWithPath, hvis, hw, hgu, hgx, hlt]
      · simp [ShortestPath.relaxStep, hvis, hw, hgu, hgx, hlt]
      · intro v hv
        rw [Dictionary.find?_Add hp, if_neg hv]
      · intro h
        rw [distOf_add hd, if_pos rfl] at h
        exact absurd h (ne_of_lt hlt)
      · intro _
        rw [Dictionary.find?_Add hp, if_pos rfl]
    · refine ⟨d, prev, ?_, ?_, hp, fun _ _ => rfl, fun _ => rfl, fun h => absurd rfl h⟩
      · simp [ShortestPath.relaxStepWithPath, hvis, hw, hgu, hgx, hlt]
      · simp [ShortestPath.relaxStep, hvis, hw, hgu, hgx, hlt]
  · refine ⟨d, prev, ?_, ?_, hp, fun _ _ => rfl, fun _ => rfl, fun h => absurd rfl h⟩
    · simp [ShortestPath.relaxStepWithPath, hvis]
    · simp [ShortestPath.relaxStep, hvis]

/-- The loop over the neighbours of `u` in `DijkstraWithPath`. -/
theorem relaxWithPath_foldlE {g : GraphBase T R} (hg : g.Valid) {u : T} (visited : Set T)
    (hu : visited.Contains u = true) (adj : List T) :
    ∀ (d : Dictionary T (WithTop R)) (prev : Dictionary T T), d.WF → prev.WF →
      (∀ v, g.HasVertex v = true → (d.find? v).isSome = true) →
      adj.Nodup → (∀ v, v ∈ adj → g.HasEdge u v = true) →
      ∃ d' prev', foldlE (ShortestPath.relaxStepWithPath g u visited) (d, prev) adj =
          .ok (d', prev') ∧
        foldlE (ShortestPath.relaxStep g u visited) d adj = .ok d' ∧ prev'.WF ∧
        (∀ v, ShortestPath.distOf d' v = ShortestPath.distOf d v →
          prev'.find? v = prev.find? v) ∧
        (∀ v, ShortestPath.distOf d' v ≠ ShortestPath.distOf d v →
          prev'.find? v = some u) := by
  induction adj with
  | nil =>
    intro d prev _ hp _ _ _
    exact ⟨d, prev, rfl, rfl, hp, fun _ _ => rfl, fun _ h => absurd rfl h⟩
  | cons x xs ih =>
    intro d prev hd hp hdom hn hadj
    rw [List.nodup_cons] at hn
    have hex := hadj x (List.mem_cons_self _ _)
    obtain ⟨d1, prev1, e1, e2, e3, e4, e5, e6⟩ :=
      relaxStepWithPath_spec hg visited hd hp hdom hex
    obtain ⟨d1', r1, r2, r3, r4, -, -⟩ := relaxStep_spec hg visited hd hdom hex
    rw [e2] at r1
    cases r1
    have hdom1 : ∀ v, g.HasVertex v = true → (d1.find? v).isSome = true :=
      fun v hv => by rw [r3]; exact hdom v hv
    have hadj1 : ∀ v, v ∈ xs → g.HasEdge u v = true :=
      fun v hv => hadj v (List.mem_cons_of_mem _ hv)
    obtain ⟨d', prev', f1, f2, f3, f4, f5⟩ := ih d1 prev1 r2 e3 hdom1 hn.2 hadj1
    obtain ⟨d'', s1, -, -, s4, -⟩ := relax_foldlE hg visited hu xs d1 r2 hdom1 hn.2 hadj1
    rw [f2] at s1
    cases s1
    have hx' : ShortestPath.distOf d' x = ShortestPath.distOf d1 x :=
      s4 x (fun h => hn.1 h.1)
    refine ⟨d', prev', by simp only [foldlE, e1, f1], by simp only [foldlE, e2, f2], f3, ?_, ?_⟩
    · intro v hv
      by_cases hvx : v = x
      · subst hvx
        rw [f4 v hx']
        exact e5 (hx' ▸ hv)
      · rw [← e4 v hvx]
        apply f4
        rw [hv, r4 v hvx]
    · intro v hv
      by_cases hvx : v = x
      · subst hvx
        rw [f4 v hx']
        exact e6 (hx' ▸ hv)
      · apply f5
        rw [r4 v hvx]
        exact hv

theorem prevChain_congr {prev prev' : Dictionary T T} {start v : T} {p : List T}
    (h : ShortestPath.PrevChain prev start v p)
    (hsame : ∀ x, x ∈ p → prev'.find? x = prev.find? x) :
    ShortestPath.PrevChain prev' start v p := by
  induction h with
  | base => exact .base
  | link hne hf _ ih =>
    refine .link hne ?_ (ih (fun x hx => hsame x (List.mem_append_left _ hx)))
    rw [hsame _ (by simp)]
    exact hf

/-- The loop that walks the predecessors returns the chain of `current`. -/
theorem reconstruct_spec {prev : Dictionary T T} {start v : T} {p : List T}
    (h : ShortestPath.PrevChain prev start v p) :
    ∀ (fuel : Nat) (acc : List T), p.length ≤ fuel →
      ShortestPath.reconstruct prev start fuel v acc = .ok (p ++ acc) := by
  induction h with
  | base =>
    intro fuel acc hf
    cases fuel with
    | zero => simp at hf
    | succ fuel => simp [ShortestPath.reconstruct]
  | @link v u p hne hf _ ih =>
    intro fuel acc hfu
    cases fuel with
    | zero => simp at hfu
    | succ fuel =>
      have hc : prev.ContainsKey v = true := by
        rw [← Dictionary.isSome_find?, hf]
        rfl
      have := ih fuel (v :: acc) (by simpa using hfu)
      simp [ShortestPath.reconstruct, hne, hc, dict_get_of_find? hf, this]

end PathRelaxFacts

section PathLoopFacts

variable {T R : Type} [LinearOrder T] [Inhabited T] [LinearOrderedRing R] [Inhabited R]

/-- After the loop over the neighbours of `u` a distance is the old one or the distance
of `u` plus the weight of the edge from `u`. -/
theorem relax_cases {g : GraphBase T R} (hg : g.Valid) {u : T} {visited : Set T}
    {d d' : Dictionary T (WithTop R)} {adj : List T}
    (hadjm : ∀ v, v ∈ adj ↔ g.HasEdge u v = true)
    (hsame : ∀ v, ¬ (v ∈ adj ∧ visited.Contains v = false) →
      ShortestPath.distOf d' v = ShortestPath.distOf d v)
    (hnew : ∀ v w, v ∈ adj → visited.Contains v = false → g.GetEdgeWeight u v = .ok w →
      ShortestPath.distOf d' v =
        min (ShortestPath.distOf d v) (ShortestPath.distOf d u + (w : WithTop R))) (v : T) :
    ShortestPath.distOf d' v = ShortestPath.distOf d v ∨
      ∃ w, g.GetEdgeWeight u v = .ok w ∧
        ShortestPath.distOf d' v = ShortestPath.distOf d u + (w : WithTop R) := by
  by_cases hv : v ∈ adj ∧ visited.Contains v = false
  · obtain ⟨w, hw1⟩ := (hg.weight_iff u v).2 ((hadjm v).1 hv.1)
    rcases min_cases (ShortestPath.distOf d v) (ShortestPath.distOf d u + (w : WithTop R))
      with h | h
    · left; rw [hnew v w hv.1 hv.2 hw1, h.1]
    · right; exact ⟨w, hw1, by rw [hnew v w hv.1 hv.2 hw1, h.1]⟩
  · exact Or.inl (hsame v hv)

/-- One round of the main loop of `DijkstraWithPath` keeps the invariant. -/
theorem pathInv_step {g : GraphBase T R} (hg : g.Valid)
    (hw : ∀ u v w, g.GetEdgeWeight u v = .ok w → 0 ≤ w) {start endVertex : T}
    (hs : g.HasVertex start = true)
    {s : ShortestPath.PathState T R} (hi : ShortestPath.PathInv g start endVertex s) {u : T}
    (huv : g.HasVertex u = true) (hun : s.visited.Contains u = false)
    (hfin : ShortestPath.distOf s.distances u ≠ ⊤)
    (hmin : ∀ x, g.HasVertex x = true → s.visited.Contains x = false →
      ShortestPath.distOf s.distances u ≤ ShortestPath.distOf s.distances x)
    (hue : u ≠ endVertex)
    {adj : List T} (hadjm : ∀ v, v ∈ adj ↔ g.HasEdge u v = true)
    {d' : Dictionary T (WithTop R)} {prev' : Dictionary T T} (hd' : d'.WF) (hp' : prev'.WF)
    (hdom : ∀ v, (d'.find? v).isSome = (s.distances.find? v).isSome)
    (hsame : ∀ v, ¬ (v ∈ adj ∧ (s.visited.Add u).Contains v = false) →
      ShortestPath.distOf d' v = ShortestPath.distOf s.distances v)
    (hnew : ∀ v w, v ∈ adj → (s.visited.Add u).Contains v = false →
      g.GetEdgeWeight u v = .ok w →
      ShortestPath.distOf d' v = min (ShortestPath.distOf s.distances v)
        (ShortestPath.distOf s.distances u + (w : WithTop R)))
    (hpsame : ∀ v, ShortestPath.distOf d' v = ShortestPath.distOf s.distances v →
      prev'.find? v = s.previous.find? v)
    (hpnew : ∀ v, ShortestPath.distOf d' v ≠ ShortestPath.distOf s.distances v →
      prev'.find? v = some u) :
    ShortestPath.PathInv g start endVertex
      { distances := d', previous := prev', visited := s.visited.Add u } := by
  have hdijk := dijkInv_step hg hw hi.dijk huv hun hfin hmin hadjm hd' hdom hsame hnew
  have hvis : ∀ x, (s.visited.Add u).Contains x = (decide (x = u) || s.visited.Contains x) :=
    fun x => set_contains_add hi.dijk.vwf u x
  have hvsame : ∀ v, (s.visited.Add u).Contains v = true →
      ShortestPath.distOf d' v = ShortestPath.distOf s.distances v := by
    intro v hv
    apply hsame
    rintro ⟨-, h2⟩
    rw [hv] at h2
    cases h2
  have hup : ∀ x, s.visited.Contains x = true → (s.visited.Add u).Contains x = true := by
    intro x hx
    rw [hvis, hx]
    simp
  have hua : (s.visited.Add u).Contains u = true := by
    rw [hvis]; simp
  have hchain_old : ∀ x, s.visited.Contains x = true →
      ∃ p c, ShortestPath.PrevChain prev' start x p ∧ g.Walk start p x c ∧
        ShortestPath.distOf d' x = (c : WithTop R) ∧ p.Nodup ∧
        ∀ y, y ∈ p → s.visited.Contains y = true := by
    intro x hx
    obtain ⟨p, c, c1, c2, c3, c4, c5⟩ := hi.chain x hx
    refine ⟨p, c, prevChain_congr c1 (fun y hy => hpsame y (hvsame y (hup y (c5 y hy)))),
      c2, ?_, c4, c5⟩
    rw [hvsame x (hup x hx), c3]
  refine ⟨hdijk, hp', ?_, ?_, ?_⟩
  · show (s.visited.Add u).Contains endVertex = false
    rw [hvis, hi.endFresh]
    have : ¬ endVertex = u := fun h => hue h.symm
    simp [this]
  · intro v hv hvs
    show ∃ y w, prev'.find? v = some y ∧ (s.visited.Add u).Contains y = true ∧
      g.GetEdgeWeight y v = .ok w ∧
      ShortestPath.distOf d' v = ShortestPath.distOf d' y + (w : WithTop R)
    change ShortestPath.distOf d' v ≠ ⊤ at hv
    by_cases hsm : ShortestPath.distOf d' v = ShortestPath.distOf s.distances v
    · obtain ⟨y, w, q1, q2, q3, q4⟩ := hi.pred v (hsm ▸ hv) hvs
      refine ⟨y, w, by rw [hpsame v hsm, q1], hup y q2, q3, ?_⟩
      rw [hsm, q4, hvsame y (hup y q2)]
    · rcases relax_cases hg hadjm hsame hnew v with h | ⟨w, hw1, h⟩
      · exact absurd h hsm
      · exact ⟨u, w, hpnew v hsm, hua, hw1, by rw [h, hvsame u hua]⟩
  · intro x hx
    show ∃ p c, ShortestPath.PrevChain prev' start x p ∧ g.Walk start p x c ∧
      ShortestPath.distOf d' x = (c : WithTop R) ∧ p.Nodup ∧
      ∀ y, y ∈ p → (s.visited.Add u).Contains y = true
    change (s.visited.Add u).Contains x = true at hx
    by_cases hxu : x = u
    · subst hxu
      by_cases hxs : x = start
      · subst hxs
        refine ⟨[x], 0, .base, .start hs, ?_, by simp, ?_⟩
        · rw [hdijk.dstart]; rfl
        · intro y hy
          have : y = x := by simpa using hy
          rw [this]; exact hua
      · obtain ⟨y, w, q1, q2, q3, q4⟩ := hi.pred x hfin hxs
        obtain ⟨p, c, c1, c2, c3, c4, c5⟩ := hchain_old y q2
        have hxp : x ∉ p := by
          intro h
          have := c5 x h
          rw [hun] at this
          cases this
        refine ⟨p ++ [x], c + w, .link hxs ?_ c1, .step c2 q3, ?_, ?_, ?_⟩
        · rw [hpsame x (hvsame x hua), q1]
        · rw [hvsame x hua, q4, WithTop.coe_add, ← c3, hvsame y (hup y q2)]
        · rw [List.nodup_append]
          refine ⟨c4, by simp, ?_⟩
          intro z hz1 hz2
          have : z = x := by simpa using hz2
          exact hxp (this ▸ hz1)
        · intro z hz
          rcases List.mem_append.1 hz with hz | hz
          · exact hup z (c5 z hz)
          · have : z = x := by simpa using hz
            rw [this]; exact hua
    · have hxo : s.visited.Contains x = true := by
        rw [hvis] at hx
        simpa [hxu] using hx
      obtain ⟨p, c, c1, c2, c3, c4, c5⟩ := hchain_old x hxo
      exact ⟨p, c, c1, c2, c3, c4, fun y hy => hup y (c5 y hy)⟩

/-- The main loop of `DijkstraWithPath` does not throw and keeps the invariant; when it
ends, every unvisited vertex is at infinity, or `endVertex` has a finite distance that
no unvisited vertex undercuts. -/
theorem dijkstraPathLoop_spec {g : GraphBase T R} (hg : g.Valid)
    (hw : ∀ u v w, g.GetEdgeWeight u v = .ok w → 0 ≤ w) {start endVertex : T}
    (hs : g.HasVertex start = true) (he : g.HasVertex endVertex = true) :
    ∀ (n : Nat) (s : ShortestPath.PathState T R),
      ShortestPath.PathInv g start endVertex s →
      g.GetAllVertices.length ≤ n + s.visited.toFinset.card →
      ∃ s', ShortestPath.dijkstraPathLoop g endVertex n s = .ok s' ∧
        ShortestPath.PathInv g start endVertex s' ∧
        ((∀ x, g.HasVertex x = true → s'.visited.Contains x = false →
            ShortestPath.distOf s'.distances x = ⊤) ∨
         (ShortestPath.distOf s'.distances endVertex ≠ ⊤ ∧
          ∀ x, g.HasVertex x = true → s'.visited.Contains x = false →
            ShortestPath.distOf s'.distances endVertex ≤
              ShortestPath.distOf s'.distances x)) := by
  intro n
  induction n with
  | zero =>
    intro s hi hc
    have := set_holds_all_vertices hg hi.dijk.vwf hi.dijk.vvert (by simpa using hc)
      endVertex he
    rw [hi.endFresh] at this
    cases this
  | succ n ih =>
    intro s hi hc
    obtain ⟨⟨ru, rm⟩, hr, hmin, hcase⟩ := selectMin_spec (g := g) s.distances s.visited
      (fun v hv => hi.dijk.dom v ((hg.mem_all v).1 hv))
    rcases hcase with ⟨h1, h2⟩ | ⟨u, h1, h2, h3, h4, h5⟩
    · simp only at h1 h2
      subst h1 h2
      refine ⟨s, by simp only [ShortestPath.dijkstraPathLoop, hr], hi, Or.inl ?_⟩
      intro x hx hxv
      exact top_le_iff.1 (hmin x ((hg.mem_all x).2 hx) hxv)
    · simp only at h1 h4 h5
      subst h1
      have hfin : ShortestPath.distOf s.distances u ≠ ⊤ := by rw [h4]; exact h5
      have hmin' : ∀ x, g.HasVertex x = true → s.visited.Contains x = false →
          ShortestPath.distOf s.distances u ≤ ShortestPath.distOf s.distances x :=
        fun x hx hxv => by rw [h4]; exact hmin x ((hg.mem_all x).2 hx) hxv
      by_cases hue : u = endVertex
      · refine ⟨s, ?_, hi, Or.inr ⟨hue ▸ hfin, fun x hx hxv => hue ▸ hmin' x hx hxv⟩⟩
        simp only [ShortestPath.dijkstraPathLoop, hr, h5, if_false, hue, if_true]
      · have huv : g.HasVertex u = true := (hg.mem_all u).1 h2
        obtain ⟨adj, hadj, hadjn, hadjm⟩ := hg.adj_ok u huv
        have hua : (s.visited.Add u).Contains u = true := by
          rw [set_contains_add hi.dijk.vwf]; simp
        obtain ⟨d', prev', f1, f2, f3, f4, f5⟩ := relaxWithPath_foldlE hg (s.visited.Add u) hua
          adj s.distances s.previous hi.dijk.dwf hi.pwf hi.dijk.dom hadjn
          (fun v hv => (hadjm v).1 hv)
        obtain ⟨d'', r1, r2, r3, r4, r5⟩ := relax_foldlE hg (s.visited.Add u) hua adj
          s.distances hi.dijk.dwf hi.dijk.dom hadjn (fun v hv => (hadjm v).1 hv)
        rw [f2] at r1
        cases r1
        have hinv := pathInv_step hg hw hs hi huv h3 hfin hmin' hue hadjm r2 f3 r3 r4 r5 f4 f5
        have hcard : (s.visited.Add u).toFinset.card = s.visited.toFinset.card + 1 := by
          rw [Set.set_toFinset_add hi.dijk.vwf, Finset.card_insert_of_not_mem]
          rw [← Set.set_contains_iff hi.dijk.vwf, h3]
          simp
        obtain ⟨s', g1, g2, g3⟩ := ih _ hinv (by
          show g.GetAllVertices.length ≤ n + (s.visited.Add u).toFinset.card
          omega)
        refine ⟨s', ?_, g2, g3⟩
        simp only [ShortestPath.dijkstraPathLoop, hr, h5, if_false, hue, hadj, f1]
        exact g1

end PathLoopFacts

section PathClaim

variable {T R : Type} [LinearOrder T] [Inhabited T] [LinearOrderedRing R] [Inhabited R]

/-- The invariant of `Dijkstra` holds before the first round. -/
theorem dijkInv_init {g : GraphBase T R} (hg : g.Valid) {start : T}
    (hs : g.HasVertex start = true) :
    ShortestPath.DijkInv g start (ShortestPath.initDistances g.GetAllVertices start)
      Set.empty := by
  obtain ⟨i1, i2, i3⟩ := initDistances_spec (R := R) g.GetAllVertices start
  refine ⟨i1, fun v hv => i2 v ((hg.mem_all v).2 hv), Set.set_wf_empty, ?_, ?_, ?_, ?_, ?_, ?_⟩
  · intro v hv
    rw [set_contains_empty] at hv
    cases hv
  · rw [i3, if_pos rfl]
  · intro v c hc
    rw [i3] at hc
    by_cases hv : v = start
    · rw [if_pos hv] at hc
      have : c = 0 := (WithTop.coe_injective hc).symm
      rw [this, hv]
      exact ⟨[start], .start hs⟩
    · rw [if_neg hv] at hc
      exact absurd hc.symm WithTop.coe_ne_top
  · intro v hv
    rw [set_contains_empty] at hv
    cases hv
  · intro u v w hu
    rw [set_contains_empty] at hu
    cases hu
  · intro u v hu
    rw [set_contains_empty] at hu
    cases hu

/-- The result of `DijkstraWithPath`: the empty sequence when no path leads from the
start to the end, and otherwise a path from the start to the end whose weight is the
distance. -/
theorem dijkstraWithPath_spec {g : GraphBase T R} (hg : g.Valid)
    (hw : ∀ u v w, g.GetEdgeWeight u v = .ok w → 0 ≤ w) {start endVertex : T}
    (hs : g.HasVertex start = true) (he : g.HasVertex endVertex = true) :
    ∃ path, ShortestPath.DijkstraWithPath g start endVertex = .ok path ∧
      ((path = [] ∧ ¬ g.Connected start endVertex) ∨
       (∃ c, g.Walk start path endVertex c ∧
          g.IsDistance start endVertex (c : WithTop R))) := by
  obtain ⟨-, -, i3⟩ := initDistances_spec (R := R) g.GetAllVertices start
  have hinit : ShortestPath.PathInv g start endVertex
      { distances := ShortestPath.initDistances g.GetAllVertices start
        previous := Dictionary.empty, visited := Set.empty } := by
    refine ⟨dijkInv_init hg hs, Dictionary.WF_empty, set_contains_empty _, ?_, ?_⟩
    · intro v hv hvs
      change ShortestPath.distOf (ShortestPath.initDistances g.GetAllVertices start) v ≠ ⊤ at hv
      rw [i3, if_neg hvs] at hv
      exact absurd rfl hv
    · intro u hu
      change (Set.empty : Set T).Contains u = true at hu
      rw [set_contains_empty] at hu
      cases hu
  obtain ⟨s, h1, h2, h3⟩ := dijkstraPathLoop_spec hg hw hs he g.GetVertexCount.toNat _ hinit
    (by rw [hg.count_eq]; simp)
  have hget := get_eq_distOf (h2.dijk.dom endVertex he)
  have hrun : ∀ r, (if ShortestPath.distOf s.distances endVertex = ⊤ then
        (.ok [] : Except Error (List T))
      else ShortestPath.reconstruct s.previous start (g.GetAllVertices.length + 1)
        endVertex []) = r →
      ShortestPath.DijkstraWithPath g start endVertex = r := by
    intro r hr
    rw [← hr]
    simp only [ShortestPath.DijkstraWithPath, hs, he, h1, hget]
    simp
  rcases h3 with hA | ⟨hB1, hB2⟩
  · have htop := hA endVertex he h2.endFresh
    refine ⟨[], hrun _ (by rw [if_pos htop]), Or.inl ⟨rfl, ?_⟩⟩
    intro hc
    obtain ⟨p, c, hp⟩ := walk_of_connected hg hs hc
    obtain ⟨x, hx1, hx2, hx3⟩ := (dijk_lower hg hw h2.dijk hp).2 h2.endFresh
    rw [hA x hx1 hx2] at hx3
    exact WithTop.coe_ne_top (top_le_iff.1 hx3)
  · have hchain : ∃ p c, ShortestPath.PrevChain s.previous start endVertex p ∧
        g.Walk start p endVertex c ∧
        ShortestPath.distOf s.distances endVertex = (c : WithTop R) ∧ p.Nodup ∧
        ∀ x, x ∈ p → g.HasVertex x = true := by
      by_cases hes : endVertex = start
      · refine ⟨[start], 0, ?_, ?_, ?_, by simp, ?_⟩
        · rw [hes]; exact .base
        · rw [hes]; exact .start hs
        · rw [hes, h2.dijk.dstart]; rfl
        · intro x hx
          have : x = start := by simpa using hx
          rw [this]; exact hs
      · obtain ⟨y, w, q1, q2, q3, q4⟩ := h2.pred endVertex hB1 hes
        obtain ⟨p, c, c1, c2, c3, c4, c5⟩ := h2.chain y q2
        have hxp : endVertex ∉ p := by
          intro h
          have := c5 endVertex h
          rw [h2.endFresh] at this
          cases this
        refine ⟨p ++ [endVertex], c + w, .link hes q1 c1, .step c2 q3, ?_, ?_, ?_⟩
        · rw [q4, WithTop.coe_add, c3]
        · rw [List.nodup_append]
          refine ⟨c4, by simp, ?_⟩
          intro z hz1 hz2
          have : z = endVertex := by simpa using hz2
          exact hxp (this ▸ hz1)
        · intro z hz
          rcases List.mem_append.1 hz with hz | hz
          · exact h2.dijk.vvert z (c5 z hz)
          · have : z = endVertex := by simpa using hz
            rw [this]; exact he
    obtain ⟨p, c, c1, c2, c3, c4, c5⟩ := hchain
    have hlen : p.length ≤ g.GetAllVertices.length + 1 :=
      le_trans (length_le_of_nodup_of_vertices hg c4 c5) (Nat.le_succ _)
    refine ⟨p, hrun _ ?_, Or.inr ⟨c, c2, ?_, ?_⟩⟩
    · rw [if_neg hB1, reconstruct_spec c1 _ [] hlen, List.append_nil]
    · intro p' c' hp'
      obtain ⟨x, hx1, hx2, hx3⟩ := (dijk_lower hg hw h2.dijk hp').2 h2.endFresh
      rw [← c3]
      exact le_trans (hB2 x hx1 hx2) hx3
    · intro c' hc'
      have : c = c' := WithTop.coe_injective hc'
      exact ⟨p, this ▸ c2, c4⟩

/-- Holds on graph objects that satisfy the invariants of the data model, which
`DirectedGraph::RemoveVertex` does not keep (C1), and for weights whose sums are exact:
for a graph whose edge weights are all non-negative and vertices `start` and `end` of
it, `FindShortestPath`, that is `DijkstraWithPath`, returns the empty sequence iff no
path leads from `start` to `end`; a sequence that is not empty begins with `start`, ends
with `end`, has consecutive elements joined by edges, and the total weight of its edges
is the distance that `Dijkstra(graph, start)` holds for `end`. -/
theorem shortest_path_of_isGraph (g : GraphBase T R) (hg : g.IsGraph)
    (hw : ∀ u v w, g.GetEdgeWeight u v = .ok w → 0 ≤ w) (start endVertex : T)
    (hs : g.HasVertex start = true) (he : g.HasVertex endVertex = true) :
    ∃ path, ShortestPath.FindShortestPath g start endVertex = .ok path ∧
      ShortestPath.DijkstraWithPath g start endVertex = .ok path ∧
      (path = [] ↔ ¬ g.Connected start endVertex) ∧
      (path ≠ [] →
        path.head? = some start ∧ path.getLast? = some endVertex ∧
        path.Chain' (fun a b => g.HasEdge a b = true) ∧
        ∃ (c : R) (dist : Dictionary T (WithTop R)), g.Walk start path endVertex c ∧
          ShortestPath.Dijkstra g start = .ok dist ∧
          dist.Get endVertex = .ok (c : WithTop R)) := by
  have hv := isGraph_valid hg
  obtain ⟨path, h1, h2⟩ := dijkstraWithPath_spec hv hw hs he
  refine ⟨path, h1, h1, ?_, ?_⟩
  · rcases h2 with ⟨rfl, hn⟩ | ⟨c, hc, -⟩
    · exact ⟨fun _ => hn, fun _ => rfl⟩
    · constructor
      · intro hp
        rw [hp] at hc
        exact absurd (walk_head_last hv hc).1 (by simp)
      · intro hn
        exact absurd (walk_connected hv hc) hn
  · intro hne
    rcases h2 with ⟨rfl, -⟩ | ⟨c, hc, hd⟩
    · exact absurd rfl hne
    · obtain ⟨w1, w2, w3⟩ := walk_head_last hv hc
      obtain ⟨dist, e1, e2⟩ := dijkstra_spec hv hw hs
      obtain ⟨e3, e4, -⟩ := e2 endVertex he
      refine ⟨w1, w2, w3, c, dist, hc, e1, ?_⟩
      rw [e3, isDistance_unique e4 hd]

/-- At the directed graph with the edges `1 -> 2` (1), `1 -> 3` (4), `2 -> 3` (2),
`2 -> 4` (5), `3 -> 4` (1), from the vertex `1` to the vertex `4`: the path is
`[1, 2, 3, 4]`. -/
theorem shortest_path_of_isGraph_witness :
    ∃ g : DirectedGraph Nat Int,
      DirectedGraph.run DirectedGraph.empty
        [.addEdge 1 2 1, .addEdge 1 3 4, .addEdge 2 3 2, .addEdge 2 4 5, .addEdge 3 4 1] =
          .ok g ∧
      g.toGraphBase.IsGraph ∧
      (∀ u v w, g.toGraphBase.GetEdgeWeight u v = .ok w → 0 ≤ w) ∧
      g.toGraphBase.HasVertex 1 = true ∧ g.toGraphBase.HasVertex 4 = true ∧
      ShortestPath.FindShortestPath g.toGraphBase 1 4 = .ok [1, 2, 3, 4] ∧
      ∃ path, ShortestPath.FindShortestPath g.toGraphBase 1 4 = .ok path ∧
        ShortestPath.DijkstraWithPath g.toGraphBase 1 4 = .ok path ∧
        (path = [] ↔ ¬ g.toGraphBase.Connected 1 4) ∧
        (path ≠ [] →
          path.head? = some 1 ∧ path.getLast? = some 4 ∧
          path.Chain' (fun a b => g.toGraphBase.HasEdge a b = true) ∧
          ∃ (c : Int) (dist : Dictionary Nat (WithTop Int)), g.toGraphBase.Walk 1 path 4 c ∧
            ShortestPath.Dijkstra g.toGraphBase 1 = .ok dist ∧
            dist.Get 4 = .ok (c : WithTop Int)) := by
  obtain ⟨g, hg⟩ : ∃ g : DirectedGraph Nat Int,
      DirectedGraph.run DirectedGraph.empty
        [.addEdge 1 2 1, .addEdge 1 3 4, .addEdge 2 3 2, .addEdge 2 4 5, .addEdge 3 4 1] =
          .ok g :=
    ⟨_, rfl⟩
  have hv : g.Valid := dg_run_buildOps_valid _ g (by decide) hg
  have he1 : (DirectedGraph.run DirectedGraph.empty
        [.addEdge 1 2 1, .addEdge 1 3 4, .addEdge 2 3 2, .addEdge 2 4 5, .addEdge 3 4 1]).map
      (fun g : DirectedGraph Nat Int =>
        (g.toGraphBase.allWeights (fun w => decide (0 ≤ w)) &&
          (g.toGraphBase.HasVertex 1 && g.toGraphBase.HasVertex 4))) =
      .ok true := by decide
  have he2 : (DirectedGraph.run DirectedGraph.empty
        [.addEdge 1 2 1, .addEdge 1 3 4, .addEdge 2 3 2, .addEdge 2 4 5, .addEdge 3 4 1]).map
      (fun g : DirectedGraph Nat Int => ShortestPath.FindShortestPath g.toGraphBase 1 4) =
      .ok (.ok [1, 2, 3, 4]) := by decide
  rw [hg] at he1 he2
  simp only [Except.map, Except.ok.injEq, Bool.and_eq_true] at he1 he2
  have hgr : g.toGraphBase.IsGraph := Or.inl ⟨g, hv, rfl⟩
  have hw : ∀ u v w, g.toGraphBase.GetEdgeWeight u v = .ok w → 0 ≤ w := fun u v w h =>
    of_decide_eq_true (allWeights_spec (dg_valid_toGraphBase hv) _ he1.1 u v w h)
  exact ⟨g, hg, hgr, hw, he1.2.1, he1.2.2, he2,
    shortest_path_of_isGraph g.toGraphBase hgr hw 1 4 he1.2.1 he1.2.2⟩

end PathClaim

section BellmanFordPass

variable {T R : Type} [LinearOrder T] [LinearOrderedRing R] [Inhabited R]

/-- One round of the innermost loop of a relaxation pass. -/
theorem bfRelaxEdge_spec {g : GraphBase T R} (hg : g.Valid) {x t : T}
    {d : Dictionary T (WithTop R)} (ch : Bool) (hd : d.WF)
    (hdom : ∀ v, g.HasVertex v = true → (d.find? v).isSome = true)
    (he : g.HasEdge x t = true) :
    ∃ d1 ch1, ShortestPath.bfRelaxEdge g x (d, ch) t = .ok (d1, ch1) ∧ d1.WF ∧
      (∀ v, (d1.find? v).isSome = (d.find? v).isSome) ∧
      (∀ v, v ≠ t → ShortestPath.distOf d1 v = ShortestPath.distOf d v) ∧
      (∀ w, g.GetEdgeWeight x t = .ok w → ShortestPath.distOf d1 t =
        min (ShortestPath.distOf d t) (ShortestPath.distOf d x + (w : WithTop R))) ∧
      (ch1 = false → d1 = d ∧ ch = false) := by
  obtain ⟨w, hw⟩ := (hg.weight_iff x t).2 he
  have hgx := get_eq_distOf (hdom x (hg.edge_left x t he))
  have hgt := get_eq_distOf (hdom t (hg.edge_right x t he))
  by_cases hfin : ShortestPath.distOf d x < ⊤
  · by_cases hlt : ShortestPath.distOf d x + (w : WithTop R) < ShortestPath.distOf d t
    · refine ⟨d.Add t (ShortestPath.distOf d x + (w : WithTop R)), true, ?_,
        Dictionary.WF_Add hd _ _, ?_, ?_, ?_, fun h => (nomatch h)⟩
      · simp [ShortestPath.bfRelaxEdge, hw, hgx, hgt, hfin, hlt]
      · intro v
        rw [Dictionary.find?_Add hd]
        by_cases hv : v = t
        · rw [if_pos hv, hv, hdom t (hg.edge_right x t he)]
          rfl
        · rw [if_neg hv]
      · intro v hv
        rw [distOf_add hd, if_neg hv]
      · intro w' hw'
        rw [hw] at hw'
        cases hw'
        rw [distOf_add hd, if_pos rfl, min_eq_right (le_of_lt hlt)]
    · refine ⟨d, ch, ?_, hd, fun _ => rfl, fun _ _ => rfl, ?_, fun h => ⟨rfl, h⟩⟩
      · simp [ShortestPath.bfRelaxEdge, hw, hgx, hgt, hfin, hlt]
      · intro w' hw'
        rw [hw] at hw'
        cases hw'
        rw [min_eq_left (not_lt.1 hlt)]
  · refine ⟨d, ch, ?_, hd, fun _ => rfl, fun _ _ => rfl, ?_, fun h => ⟨rfl, h⟩⟩
    · simp [ShortestPath.bfRelaxEdge, hw, hgx, hfin]
    · intro w' _
      have htop : ShortestPath.distOf d x = ⊤ := not_lt_top_iff.1 hfin
      rw [htop, WithTop.top_add, min_eq_left le_top]

/-- A relaxation pass of `BellmanFord` does not throw, does not raise a distance, leaves
every distance at most the distance of a predecessor before the pass plus the weight of
the edge, and reports no change only when nothing changed. -/
theorem bfPass_spec {g : GraphBase T R} (hg : g.Valid) {start : T}
    {d0 : Dictionary T (WithTop R)} (hi : ShortestPath.BfInv g start d0) :
    ∃ d' ch, foldlE (ShortestPath.bfRelaxFrom g) (d0, false) g.GetAllVertices =
        .ok (d', ch) ∧
      ShortestPath.BfInv g start d' ∧
      (∀ v, ShortestPath.distOf d' v ≤ ShortestPath.distOf d0 v) ∧
      (∀ u v w, g.GetEdgeWeight u v = .ok w →
        ShortestPath.distOf d' v ≤ ShortestPath.distOf d0 u + (w : WithTop R)) ∧
      (ch = false → d' = d0) := by
  let Core : Dictionary T (WithTop R) × Bool → Prop := fun st =>
    st.1.WF ∧ (∀ v, g.HasVertex v = true → (st.1.find? v).isSome = true) ∧
    (∀ v (c : R), ShortestPath.distOf st.1 v = (c : WithTop R) → ∃ p, g.Walk start p v c) ∧
    (∀ v, ShortestPath.distOf st.1 v ≤ ShortestPath.distOf d0 v) ∧
    (st.2 = false → st.1 = d0)
  have hinner : ∀ (x : T) (st : Dictionary T (WithTop R) × Bool), g.HasVertex x = true →
      Core st →
      ∃ st', ShortestPath.bfRelaxFrom g st x = .ok st' ∧ Core st' ∧
        (∀ v, ShortestPath.distOf st'.1 v ≤ ShortestPath.distOf st.1 v) ∧
        (∀ v w, g.GetEdgeWeight x v = .ok w →
          ShortestPath.distOf st'.1 v ≤ ShortestPath.distOf d0 x + (w : WithTop R)) := by
    intro x st hx hst
    obtain ⟨adj, hadj, -, hadjm⟩ := hg.adj_ok x hx
    obtain ⟨st', h1, h2, h3, h4⟩ := foldlE_prefix_invariant
      (fun pre (s1 : Dictionary T (WithTop R) × Bool) => Core s1 ∧
        (∀ v, ShortestPath.distOf s1.1 v ≤ ShortestPath.distOf st.1 v) ∧
        (∀ v, v ∈ pre → ∀ w, g.GetEdgeWeight x v = .ok w →
          ShortestPath.distOf s1.1 v ≤ ShortestPath.distOf d0 x + (w : WithTop R)))
      (ShortestPath.bfRelaxEdge g x) adj
      (by
        rintro pre t suf ⟨d, ch⟩ hl ⟨⟨c1, c2, c3, c4, c5⟩, q1, q2⟩
        have het : g.HasEdge x t = true := (hadjm t).1 (by rw [hl]; simp)
        obtain ⟨d1, ch1, e1, e2, e3, e4, e5, e6⟩ := bfRelaxEdge_spec hg ch c1 c2 het
        obtain ⟨w, hw⟩ := (hg.weight_iff x t).2 het
        have hdec : ∀ v, ShortestPath.distOf d1 v ≤ ShortestPath.distOf d v := by
          intro v
          by_cases hv : v = t
          · rw [hv, e5 w hw]; exact min_le_left _ _
          · rw [e4 v hv]
        refine ⟨(d1, ch1), e1, ⟨e2, fun v hv => by rw [e3]; exact c2 v hv, ?_,
          fun v => le_trans (hdec v) (c4 v), ?_⟩, fun v => le_trans (hdec v) (q1 v), ?_⟩
        · intro v c hc
          by_cases hv : v = t
          · subst hv
            rw [e5 w hw] at hc
            rcases min_cases (ShortestPath.distOf d v)
              (ShortestPath.distOf d x + (w : WithTop R)) with h | h
            · rw [h.1] at hc
              exact c3 v c hc
            · rw [h.1] at hc
              have hxfin : ShortestPath.distOf d x ≠ ⊤ := by
                intro htop
                rw [htop, WithTop.top_add] at hc
                exact WithTop.coe_ne_top hc.symm
              obtain ⟨cx, hcx⟩ := WithTop.ne_top_iff_exists.1 hxfin
              obtain ⟨px, hpx⟩ := c3 x cx hcx.symm
              have : c = cx + w := by
                rw [← hcx, ← WithTop.coe_add] at hc
                exact (WithTop.coe_injective hc).symm
              exact ⟨_, this ▸ GraphBase.Walk.step hpx hw⟩
          · rw [e4 v hv] at hc
            exact c3 v c hc
        · intro h
          obtain ⟨h1, h2⟩ := e6 h
          rw [h1]
          exact c5 h2
        · intro v hv w' hw'
          rcases List.mem_append.1 hv with hv | hv
          · exact le_trans (hdec v) (q2 v hv w' hw')
          · have hvt : v = t := by simpa using hv
            subst hvt
            rw [e5 w' hw']
            exact le_trans (min_le_right _ _) (add_le_add_right (c4 x) _))
      st ⟨hst, fun _ => le_refl _, fun v hv => (nomatch hv)⟩
    refine ⟨st', by simp only [ShortestPath.bfRelaxFrom, hadj, h1], h2, h3, ?_⟩
    intro v w hw
    exact h4 v ((hadjm v).2 ((hg.weight_iff x v).1 ⟨w, hw⟩)) w hw
  obtain ⟨⟨d', ch⟩, h1, ⟨c1, c2, c3, c4, c5⟩, h3⟩ := foldlE_prefix_invariant
    (fun pre (s1 : Dictionary T (WithTop R) × Bool) => Core s1 ∧
      (∀ u, u ∈ pre → ∀ v w, g.GetEdgeWeight u v = .ok w →
        ShortestPath.distOf s1.1 v ≤ ShortestPath.distOf d0 u + (w : WithTop R)))
    (ShortestPath.bfRelaxFrom g) g.GetAllVertices
    (by
      rintro pre x suf st hl ⟨hc, hq⟩
      have hx : g.HasVertex x = true := (hg.mem_all x).1 (by rw [hl]; simp)
      obtain ⟨st', e1, e2, e3, e4⟩ := hinner x st hx hc
      refine ⟨st', e1, e2, ?_⟩
      intro u hu v w hw
      rcases List.mem_append.1 hu with hu | hu
      · exact le_trans (e3 v) (hq u hu v w hw)
      · have hux : u = x := by simpa using hu
        subst hux
        exact e4 v w hw)
    (d0, false)
    ⟨⟨hi.dwf, hi.dom, hi.real, fun _ => le_refl _, fun _ => rfl⟩, fun u hu => (nomatch hu)⟩
  refine ⟨d', ch, h1, ⟨c1, c2, c3, le_trans (c4 start) hi.start_le⟩, c4, ?_, c5⟩
  intro u v w hw
  have hu : g.HasVertex u = true := hg.edge_left u v ((hg.weight_iff u v).1 ⟨w, hw⟩)
  exact h3 u ((hg.mem_all u).2 hu) v w hw

end BellmanFordPass

section BellmanFordFacts

variable {T R : Type} [LinearOrder T] [LinearOrderedRing R] [Inhabited R]

theorem walk_mem_vertex {g : GraphBase T R} (hg : g.Valid) {s v : T} {p : List T} {c : R}
    (h : g.Walk s p v c) : ∀ x, x ∈ p → g.HasVertex x = true := by
  induction h with
  | start hs =>
    intro x hx
    have : x = s := by simpa using hx
    rw [this]; exact hs
  | @step p' y c' z w _ he ih =>
    intro x hx
    rcases List.mem_append.1 hx with hx | hx
    · exact ih x hx
    · have : x = z := by simpa using hx
      rw [this]
      exact hg.edge_right _ _ ((hg.weight_iff _ _).1 ⟨_, he⟩)

/-- A path is the empty path or leads along one or more edges. -/
theorem walk_reaches {g : GraphBase T R} (hg : g.Valid) {s v : T} {p : List T} {c : R}
    (h : g.Walk s p v c) : c = 0 ∨ g.Reaches s v := by
  cases h with
  | start _ => exact Or.inl rfl
  | step h1 he =>
    right
    exact Relation.TransGen.tail' (walk_connected hg h1) ((hg.weight_iff _ _).1 ⟨_, he⟩)

theorem no_negative_cycle_of_no_cycle {g : GraphBase T R} (hg : g.Valid)
    (h : ¬ g.HasCycle) (s : T) : ¬ g.HasNegativeCycleFrom s := by
  rintro ⟨v, p, c, -, hp, hc, -⟩
  rcases walk_reaches hg hp with h0 | hr
  · rw [h0] at hc
    exact lt_irrefl _ hc
  · exact h ⟨v, hr⟩

/-- Where no edge can be relaxed, the stored distances are lower bounds for the weights
of all paths from the start. -/
theorem relaxed_lower {g : GraphBase T R} {start : T} {d : Dictionary T (WithTop R)}
    (hi : ShortestPath.BfInv g start d) (hr : ShortestPath.Relaxed g d)
    {p : List T} {v : T} {c : R} (h : g.Walk start p v c) :
    ShortestPath.distOf d v ≤ (c : WithTop R) := by
  induction h with
  | start _ => exact hi.start_le
  | step _ he ih =>
    rw [WithTop.coe_add]
    exact le_trans (hr _ _ _ he) (add_le_add_right ih _)

theorem relaxed_walk_from {g : GraphBase T R} {d : Dictionary T (WithTop R)}
    (hr : ShortestPath.Relaxed g d) {u v : T} {p : List T} {c : R} (h : g.Walk u p v c) :
    ShortestPath.distOf d v ≤ ShortestPath.distOf d u + (c : WithTop R) := by
  induction h with
  | start _ => simp
  | step _ he ih =>
    rw [WithTop.coe_add, ← add_assoc]
    exact le_trans (hr _ _ _ he) (add_le_add_right ih _)

/-- Where no edge can be relaxed, no cycle of negative weight is reached from the
start. -/
theorem relaxed_no_negative_cycle {g : GraphBase T R} (hg : g.Valid) {start : T}
    (hs : g.HasVertex start = true) {d : Dictionary T (WithTop R)}
    (hi : ShortestPath.BfInv g start d) (hr : ShortestPath.Relaxed g d) :
    ¬ g.HasNegativeCycleFrom start := by
  rintro ⟨v, p, c, hconn, hp, hc, -⟩
  obtain ⟨p0, c0, hp0⟩ := walk_of_connected hg hs hconn
  have hfin : ShortestPath.distOf d v ≠ ⊤ :=
    ne_top_of_le_ne_top WithTop.coe_ne_top (relaxed_lower hi hr hp0)
  obtain ⟨a, ha⟩ := WithTop.ne_top_iff_exists.1 hfin
  have := relaxed_walk_from hr hp
  rw [← ha, ← WithTop.coe_add, WithTop.coe_le_coe] at this
  have h0 : 0 ≤ c := by
    by_contra hn
    have : a + c < a + 0 := add_lt_add_left (not_le.1 hn) a
    rw [add_zero] at this
    exact absurd this (not_lt.2 ‹a ≤ a + c›)
  exact absurd hc (not_lt.2 h0)

/-- Lower bounds for the paths with fewer edges than the graph has vertices are lower
bounds for all paths, and no edge can be relaxed, where no cycle of negative weight is
reached from the start. -/
theorem bounded_relaxed {g : GraphBase T R} (hg : g.Valid) {start : T}
    {d : Dictionary T (WithTop R)} (hi : ShortestPath.BfInv g start d)
    (hb : ShortestPath.BoundedBy g start d (g.GetAllVertices.length - 1))
    (hneg : ¬ g.HasNegativeCycleFrom start) : ShortestPath.Relaxed g d := by
  intro u v w hw
  cases hu : ShortestPath.distOf d u with
  | top => rw [WithTop.top_add]; exact le_top
  | coe cu =>
    obtain ⟨pu, hpu⟩ := hi.real u cu hu
    have hwalk := GraphBase.Walk.step hpu hw
    obtain ⟨p', c', r1, r2, r3⟩ := walk_shorten hg hneg _ _ v _ (le_refl _) hwalk
    have hlen := length_le_of_nodup_of_vertices hg r3 (walk_mem_vertex hg r1)
    have := hb p' v c' r1 (by omega)
    rw [← WithTop.coe_add]
    exact le_trans this (WithTop.coe_le_coe.2 r2)

/-- The loop of relaxation passes does not throw and keeps the invariant; at its end no
edge can be relaxed, or the distances are lower bounds for the paths with at most as
many edges as passes were made. -/
theorem bfLoop_spec {g : GraphBase T R} (hg : g.Valid) {start : T} :
    ∀ (n k : Nat) (d : Dictionary T (WithTop R)), ShortestPath.BfInv g start d →
      ShortestPath.BoundedBy g start d k →
      ∃ d', ShortestPath.bfLoop g g.GetAllVertices n d = .ok d' ∧
        ShortestPath.BfInv g start d' ∧
        (ShortestPath.Relaxed g d' ∨ ShortestPath.BoundedBy g start d' (k + n)) := by
  intro n
  induction n with
  | zero =>
    intro k d hi hb
    exact ⟨d, rfl, hi, Or.inr hb⟩
  | succ n ih =>
    intro k d hi hb
    obtain ⟨d1, ch, h1, h2, h3, h4, h5⟩ := bfPass_spec hg hi
    cases ch with
    | false =>
      have hd : d1 = d := h5 rfl
      refine ⟨d1, by simp [ShortestPath.bfLoop, h1], h2, Or.inl ?_⟩
      intro u v w hw
      have := h4 u v w hw
      rw [hd] at this ⊢
      exact this
    | true =>
      have hb1 : ShortestPath.BoundedBy g start d1 (k + 1) := by
        intro p v c hp hl
        cases hp with
        | start _ => exact h2.start_le
        | @step p' y c' x w hp' he =>
          have hl' : p'.length ≤ k + 1 := by
            simp only [List.length_append, List.length_singleton] at hl
            omega
          rw [WithTop.coe_add]
          exact le_trans (h4 y v w he) (add_le_add_right (hb p' y c' hp' hl') _)
      obtain ⟨d', e1, e2, e3⟩ := ih (k + 1) d1 h2 hb1
      refine ⟨d', by simp [ShortestPath.bfLoop, h1, e1], e2, ?_⟩
      rcases e3 with e3 | e3
      · exact Or.inl e3
      · right
        have : k + (n + 1) = k + 1 + n := by omega
        rw [this]
        exact e3

/-- The check for negative cycles passes when no edge can be relaxed and throws
otherwise. -/
theorem bfCheck_spec {g : GraphBase T R} (hg : g.Valid) {start : T}
    {d : Dictionary T (WithTop R)} (hi : ShortestPath.BfInv g start d) :
    (ShortestPath.Relaxed g d ∧
      foldlE (ShortestPath.bfCheckFrom g d) () g.GetAllVertices = .ok ()) ∨
    (¬ ShortestPath.Relaxed g d ∧
      foldlE (ShortestPath.bfCheckFrom g d) () g.GetAllVertices = .error .negativeCycle) := by
  have hinner : ∀ x, g.HasVertex x = true →
      (ShortestPath.bfCheckFrom g d () x = .ok () ∧ ∀ v w, g.GetEdgeWeight x v = .ok w →
        ShortestPath.distOf d v ≤ ShortestPath.distOf d x + (w : WithTop R)) ∨
      (∃ e, ShortestPath.bfCheckFrom g d () x = .error e ∧
        (e = .negativeCycle ∧ ¬ ShortestPath.Relaxed g d)) := by
    intro x hx
    obtain ⟨adj, hadj, -, hadjm⟩ := hg.adj_ok x hx
    have := foldlE_prefix_invariant_or
      (fun pre (_ : Unit) => ∀ v, v ∈ pre → ∀ w, g.GetEdgeWeight x v = .ok w →
        ShortestPath.distOf d v ≤ ShortestPath.distOf d x + (w : WithTop R))
      (fun e => e = .negativeCycle ∧ ¬ ShortestPath.Relaxed g d)
      (ShortestPath.bfCheckEdge g d x) adj
      (by
        rintro pre t suf ⟨⟩ hl hq
        have het : g.HasEdge x t = true := (hadjm t).1 (by rw [hl]; simp)
        obtain ⟨w, hw⟩ := (hg.weight_iff x t).2 het
        have hgx := get_eq_distOf (hi.dom x (hg.edge_left x t het))
        have hgt := get_eq_distOf (hi.dom t (hg.edge_right x t het))
        have hkeep : ShortestPath.distOf d t ≤ ShortestPath.distOf d x + (w : WithTop R) →
            ∀ v, v ∈ pre ++ [t] → ∀ w', g.GetEdgeWeight x v = .ok w' →
              ShortestPath.distOf d v ≤ ShortestPath.distOf d x + (w' : WithTop R) := by
          intro hle v hv w' hw'
          rcases List.mem_append.1 hv with hv | hv
          · exact hq v hv w' hw'
          · have hvt : v = t := by simpa using hv
            subst hvt
            rw [hw] at hw'
            cases hw'
            exact hle
        by_cases hfin : ShortestPath.distOf d x < ⊤
        · by_cases hlt : ShortestPath.distOf d x + (w : WithTop R) < ShortestPath.distOf d t
          · right
            refine ⟨.negativeCycle, ?_, rfl, fun hr => absurd (hr x t w hw) (not_le.2 hlt)⟩
            simp [ShortestPath.bfCheckEdge, hw, hgx, hgt, hfin, hlt]
          · left
            refine ⟨(), ?_, hkeep (not_lt.1 hlt)⟩
            simp [ShortestPath.bfCheckEdge, hw, hgx, hgt, hfin, hlt]
        · left
          refine ⟨(), ?_, hkeep ?_⟩
          · simp [ShortestPath.bfCheckEdge, hw, hgx, hfin]
          · rw [not_lt_top_iff.1 hfin, WithTop.top_add]
            exact le_top)
      () (fun v hv => (nomatch hv))
    rcases this with ⟨⟨⟩, h1, h2⟩ | ⟨e, h1, h2⟩
    · left
      refine ⟨by simp only [ShortestPath.bfCheckFrom, hadj, h1], ?_⟩
      intro v w hw
      exact h2 v ((hadjm v).2 ((hg.weight_iff x v).1 ⟨w, hw⟩)) w hw
    · right
      exact ⟨e, by simp only [ShortestPath.bfCheckFrom, hadj, h1], h2⟩
  have := foldlE_prefix_invariant_or
    (fun pre (_ : Unit) => ∀ u, u ∈ pre → ∀ v w, g.GetEdgeWeight u v = .ok w →
      ShortestPath.distOf d v ≤ ShortestPath.distOf d u + (w : WithTop R))
    (fun e => e = .negativeCycle ∧ ¬ ShortestPath.Relaxed g d)
    (ShortestPath.bfCheckFrom g d) g.GetAllVertices
    (by
      rintro pre x suf ⟨⟩ hl hq
      have hx : g.HasVertex x = true := (hg.mem_all x).1 (by rw [hl]; simp)
      rcases hinner x hx with ⟨h1, h2⟩ | ⟨e, h1, h2⟩
      · left
        refine ⟨(), h1, ?_⟩
        intro u hu v w hw
        rcases List.mem_append.1 hu with hu | hu
        · exact hq u hu v w hw
        · have hux : u = x := by simpa using hu
          subst hux
          exact h2 v w hw
      · right
        exact ⟨e, h1, h2⟩)
    () (fun u hu => (nomatch hu))
  rcases this with ⟨⟨⟩, h1, h2⟩ | ⟨e, h1, rfl, h2⟩
  · left
    refine ⟨?_, h1⟩
    intro u v w hw
    have hu : g.HasVertex u = true := hg.edge_left u v ((hg.weight_iff u v).1 ⟨w, hw⟩)
    exact h2 u ((hg.mem_all u).2 hu) v w hw
  · right
    exact ⟨h2, h1⟩

/-- The result of `BellmanFord`: a map on which no edge can be relaxed, or the error for
a negative cycle, and then the distances after the passes are lower bounds for the
paths with fewer edges than the graph has vertices, and an edge can still be relaxed. -/
theorem bellmanFord_spec {g : GraphBase T R} (hg : g.Valid) {start : T}
    (hs : g.HasVertex start = true) :
    (∃ dist, ShortestPath.BellmanFord g start = .ok dist ∧
      ShortestPath.BfInv g start dist ∧ ShortestPath.Relaxed g dist) ∨
    (ShortestPath.BellmanFord g start = .error .negativeCycle ∧
      ∃ dist, ShortestPath.BfInv g start dist ∧ ¬ ShortestPath.Relaxed g dist ∧
        ShortestPath.BoundedBy g start dist (g.GetAllVertices.length - 1)) := by
  obtain ⟨i1, i2, i3⟩ := initDistances_spec (R := R) g.GetAllVertices start
  have hinit : ShortestPath.BfInv g start
      (ShortestPath.initDistances g.GetAllVertices start) := by
    refine ⟨i1, fun v hv => i2 v ((hg.mem_all v).2 hv), ?_, ?_⟩
    · intro v c hc
      rw [i3] at hc
      by_cases hv : v = start
      · rw [if_pos hv] at hc
        have : c = 0 := (WithTop.coe_injective hc).symm
        rw [this, hv]
        exact ⟨[start], .start hs⟩
      · rw [if_neg hv] at hc
        exact absurd hc.symm WithTop.coe_ne_top
    · rw [i3, if_pos rfl]
  have hb0 : ShortestPath.BoundedBy g start
      (ShortestPath.initDistances g.GetAllVertices start) 0 := by
    intro p v c hp hl
    obtain ⟨rfl, rfl⟩ := walk_length_one hp (by simpa using hl)
    rw [i3, if_pos rfl]
    rfl
  obtain ⟨d', h1, h2, h3⟩ := bfLoop_spec hg (g.GetVertexCount - 1).toNat 0 _ hinit hb0
  have hn : (g.GetVertexCount - 1).toNat = g.GetAllVertices.length - 1 := by
    rw [hg.count_eq]
    omega
  rcases bfCheck_spec hg h2 with ⟨c1, c2⟩ | ⟨c1, c2⟩
  · left
    refine ⟨d', ?_, h2, c1⟩
    simp only [ShortestPath.BellmanFord, hs, Bool.not_true, Bool.false_eq_true, if_false, h1,
      c2]
  · right
    refine ⟨by simp only [ShortestPath.BellmanFord, hs, Bool.not_true, Bool.false_eq_true,
      if_false, h1, c2], d', h2, c1, ?_⟩
    rcases h3 with h3 | h3
    · exact absurd h3 c1
    · rw [zero_add, hn] at h3
      exact h3

end BellmanFordFacts

section BellmanFordClaims

variable {T R : Type} [LinearOrder T] [LinearOrderedRing R] [Inhabited R]

/-- Holds on graph objects that satisfy the invariants of the data model, which
`DirectedGraph::RemoveVertex` does not keep (C1), and for weights whose sums are exact:
for a directed graph with weights of any sign and a vertex `start` of it,
`BellmanFord(graph, start)` throws the error for a negative cycle iff a cycle of
negative total weight is reached from `start`; in that case it returns no map, and
without such a cycle it does not throw this error. -/
theorem bellmanFord_negative_cycle_of_valid (dg : DirectedGraph T R) (h : dg.Valid) (start : T)
    (hs : dg.HasVertex start = true) :
    (ShortestPath.BellmanFord dg.toGraphBase start = .error .negativeCycle ↔
      dg.toGraphBase.HasNegativeCycleFrom start) ∧
    (dg.toGraphBase.HasNegativeCycleFrom start →
      ∀ dist, ShortestPath.BellmanFord dg.toGraphBase start ≠ .ok dist) ∧
    (¬ dg.toGraphBase.HasNegativeCycleFrom start →
      ShortestPath.BellmanFord dg.toGraphBase start ≠ .error .negativeCycle) := by
  have hg := dg_valid_toGraphBase h
  have hs' : dg.toGraphBase.HasVertex start = true := hs
  have key : ShortestPath.BellmanFord dg.toGraphBase start = .error .negativeCycle ↔
      dg.toGraphBase.HasNegativeCycleFrom start := by
    rcases bellmanFord_spec hg hs' with ⟨dist, h1, h2, h3⟩ | ⟨h1, dist, h2, h3, h4⟩
    · have hn := relaxed_no_negative_cycle hg hs' h2 h3
      rw [h1]
      exact ⟨fun hx => (nomatch hx), fun hx => absurd hx hn⟩
    · refine ⟨fun _ => ?_, fun _ => h1⟩
      by_contra hn
      exact h3 (bounded_relaxed hg h2 h4 hn)
  refine ⟨key, ?_, fun hn hx => hn (key.1 hx)⟩
  intro hc dist hd
  rw [key.2 hc] at hd
  cases hd

/-- At the directed graph with the edges `1 -> 2` (1), `2 -> 3` (-1), `3 -> 2` (-1),
from the vertex `1`: `BellmanFord` throws the error for a negative cycle. -/
theorem bellmanFord_negative_cycle_of_valid_witness :
    ∃ g : DirectedGraph Nat Int,
      DirectedGraph.run DirectedGraph.empty
        [.addEdge 1 2 1, .addEdge 2 3 (-1), .addEdge 3 2 (-1)] = .ok g ∧
      g.Valid ∧ g.HasVertex 1 = true ∧
      ShortestPath.BellmanFord g.toGraphBase 1 = .error .negativeCycle ∧
      g.toGraphBase.HasNegativeCycleFrom 1 := by
  obtain ⟨g, hg⟩ : ∃ g : DirectedGraph Nat Int,
      DirectedGraph.run DirectedGraph.empty
        [.addEdge 1 2 1, .addEdge 2 3 (-1), .addEdge 3 2 (-1)] = .ok g :=
    ⟨_, rfl⟩
  have hv : g.Valid := dg_run_buildOps_valid _ g (by decide) hg
  have he1 : (DirectedGraph.run DirectedGraph.empty
        [.addEdge 1 2 1, .addEdge 2 3 (-1), .addEdge 3 2 (-1)]).map
      (fun g : DirectedGraph Nat Int => g.HasVertex 1) = .ok true := by decide
  have he2 : (DirectedGraph.run DirectedGraph.empty
        [.addEdge 1 2 1, .addEdge 2 3 (-1), .addEdge 3 2 (-1)]).map
      (fun g : DirectedGraph Nat Int =>
        (ShortestPath.BellmanFord g.toGraphBase 1).map ShortestPath.toList) =
      .ok (.error .negativeCycle) := by decide
  rw [hg] at he1 he2
  simp only [Except.map, Except.ok.injEq] at he1 he2
  have hbf : ShortestPath.BellmanFord g.toGraphBase 1 = .error .negativeCycle := by
    cases hr : ShortestPath.BellmanFord g.toGraphBase 1 with
    | ok d => rw [hr] at he2; cases he2
    | error e =>
      rw [hr] at he2
      simp only [Except.error.injEq] at he2
      rw [he2]
  exact ⟨g, hg, hv, he1, hbf, (bellmanFord_negative_cycle_of_valid g hv 1 he1).1.1 hbf⟩

/-- Holds on graph objects that satisfy the invariants of the data model, which
`DirectedGraph::RemoveVertex` does not keep (C1), and for weights whose sums are exact:
for a directed graph in which no cycle of negative total weight is reached from `start`,
`BellmanFord(graph, start)` returns a map that holds for every vertex `v` the least
total weight of a path from `start` to `v`, and infinity exactly when no path leads from
`start` to `v`; the weights may have any sign. -/
theorem bellmanFord_distances_of_valid (dg : DirectedGraph T R) (h : dg.Valid) (start : T)
    (hs : dg.HasVertex start = true)
    (hneg : ¬ dg.toGraphBase.HasNegativeCycleFrom start) :
    ∃ dist, ShortestPath.BellmanFord dg.toGraphBase start = .ok dist ∧
      ∀ v, dg.HasVertex v = true →
        ∃ d, dist.Get v = .ok d ∧ dg.toGraphBase.IsDistance start v d ∧
          (d = ⊤ ↔ ¬ dg.toGraphBase.Connected start v) := by
  have hg := dg_valid_toGraphBase h
  have hs' : dg.toGraphBase.HasVertex start = true := hs
  rcases bellmanFord_spec hg hs' with ⟨dist, h1, h2, h3⟩ | ⟨-, dist, h2, h3, h4⟩
  · refine ⟨dist, h1, ?_⟩
    intro v hv
    refine ⟨_, get_eq_distOf (h2.dom v hv),
      ⟨fun p c hp => relaxed_lower h2 h3 hp, fun c hc => ?_⟩, ?_⟩
    · obtain ⟨p, hp⟩ := h2.real v c hc
      exact attained_simple hg hneg
        (fun p' c' hp' => WithTop.coe_le_coe.1 (hc ▸ relaxed_lower h2 h3 hp')) hp
    constructor
    · intro htop hc
      obtain ⟨p, c, hp⟩ := walk_of_connected hg hs' hc
      have := relaxed_lower h2 h3 hp
      rw [htop] at this
      exact WithTop.coe_ne_top (top_le_iff.1 this)
    · intro hn
      by_contra hfin
      obtain ⟨c, hc⟩ := WithTop.ne_top_iff_exists.1 hfin
      obtain ⟨p, hp⟩ := h2.real v c hc.symm
      exact hn (walk_connected hg hp)
  · exact absurd (bounded_relaxed hg h2 h4 hneg) h3

/-- At the directed graph with the edges `1 -> 3` (4), `1 -> 2` (5), `2 -> 3` (-3),
`3 -> 4` (2) and the isolated vertex `7`, from the vertex `1`: the distances are `0`,
`5`, `2`, `4`, and infinity for `7`. -/
theorem bellmanFord_distances_of_valid_witness :
    ∃ g : DirectedGraph Nat Int,
      DirectedGraph.run DirectedGraph.empty
        [.addEdge 1 3 4, .addEdge 1 2 5, .addEdge 2 3 (-3), .addEdge 3 4 2, .addVertex 7] =
          .ok g ∧
      g.Valid ∧ g.HasVertex 1 = true ∧ ¬ g.toGraphBase.HasNegativeCycleFrom 1 ∧
      (ShortestPath.BellmanFord g.toGraphBase 1).map ShortestPath.toList =
        .ok [(1, 0), (2, 5), (3, 2), (4, 4), (7, ⊤)] ∧
      ∃ dist, ShortestPath.BellmanFord g.toGraphBase 1 = .ok dist ∧
        ∀ v, g.HasVertex v = true →
          ∃ d, dist.Get v = .ok d ∧ g.toGraphBase.IsDistance 1 v d ∧
            (d = ⊤ ↔ ¬ g.toGraphBase.Connected 1 v) := by
  obtain ⟨g, hg⟩ : ∃ g : DirectedGraph Nat Int,
      DirectedGraph.run DirectedGraph.empty
        [.addEdge 1 3 4, .addEdge 1 2 5, .addEdge 2 3 (-3), .addEdge 3 4 2, .addVertex 7] =
          .ok g :=
    ⟨_, rfl⟩
  have hv : g.Valid := dg_run_buildOps_valid _ g (by decide) hg
  have he1 : (DirectedGraph.run DirectedGraph.empty
        [.addEdge 1 3 4, .addEdge 1 2 5, .addEdge 2 3 (-3), .addEdge 3 4 2, .addVertex 7]).map
      (fun g : DirectedGraph Nat Int =>
        (g.toGraphBase.allEdges (fun u v => decide (u < v)) && g.HasVertex 1)) =
      .ok true := by decide
  have he2 : (DirectedGraph.run DirectedGraph.empty
        [.addEdge 1 3 4, .addEdge 1 2 5, .addEdge 2 3 (-3), .addEdge 3 4 2, .addVertex 7]).map
      (fun g : DirectedGraph Nat Int =>
        (ShortestPath.BellmanFord g.toGraphBase 1).map ShortestPath.toList) =
      .ok (.ok [(1, 0), (2, 5), (3, 2), (4, 4), (7, ⊤)]) := by decide
  rw [hg] at he1 he2
  simp only [Except.map, Except.ok.injEq, Bool.and_eq_true] at he1 he2
  have hgv := dg_valid_toGraphBase hv
  have hneg : ¬ g.toGraphBase.HasNegativeCycleFrom 1 :=
    no_negative_cycle_of_no_cycle hgv (no_cycle_of_allEdges_lt hgv he1.1) 1
  exact ⟨g, hg, hv, he1.2, hneg, he2, bellmanFord_distances_of_valid g hv 1 he1.2 hneg⟩

end BellmanFordClaims

section BfsDistFacts

variable {T R : Type} [LinearOrder T] [LinearOrderedRing R] [Inhabited R]

/-- The loop over the neighbours of `current` in `BFSShortestPath`: a neighbour at
infinity gets the distance of `current` plus one and joins the queue. -/
theorem bfsDistVisit_foldlE (cd : WithTop R) (adj : List T) :
    ∀ (d : Dictionary T (WithTop R)) (q : Queue T), adj.Nodup → d.WF →
      (∀ n, n ∈ adj → (d.find? n).isSome = true) →
      ∃ d' q', foldlE (ShortestPath.bfsDistVisit cd) (d, q) adj = .ok (d', q') ∧ d'.WF ∧
        (∀ v, (d.find? v).isSome = true → (d'.find? v).isSome = true) ∧
        (∀ v, ShortestPath.distOf d' v =
          if v ∈ adj ∧ ShortestPath.distOf d v = ⊤ then cd + 1
          else ShortestPath.distOf d v) ∧
        q'.list = q.list ++ adj.filter (fun n => decide (ShortestPath.distOf d n = ⊤)) := by
  induction adj with
  | nil =>
    intro d q _ hd _
    exact ⟨d, q, rfl, hd, fun _ h => h, fun v => by simp, by simp⟩
  | cons t adj ih =>
    intro d q hn hd hs
    rw [List.nodup_cons] at hn
    have hgt := get_eq_distOf (hs t (List.mem_cons_self _ _))
    have hne : ∀ m, m ∈ adj → m ≠ t := fun m hm h => hn.1 (h ▸ hm)
    by_cases htop : ShortestPath.distOf d t = ⊤
    · have hd1 := Dictionary.WF_Add hd t (cd + 1)
      have hsome1 : ∀ v, (d.find? v).isSome = true →
          ((d.Add t (cd + 1)).find? v).isSome = true := by
        intro v hv
        rw [Dictionary.find?_Add hd]
        split_ifs
        · rfl
        · exact hv
      have hdo : ∀ m, m ≠ t → ShortestPath.distOf (d.Add t (cd + 1)) m =
          ShortestPath.distOf d m := fun m hm => by rw [distOf_add hd, if_neg hm]
      obtain ⟨d', q', h1, h2, h3, h4, h5⟩ := ih (d.Add t (cd + 1)) (q.Enqueue t) hn.2 hd1
        (fun m hm => hsome1 m (hs m (List.mem_cons_of_mem _ hm)))
      refine ⟨d', q', ?_, h2, fun v hv => h3 v (hsome1 v hv), ?_, ?_⟩
      · simp [foldlE, ShortestPath.bfsDistVisit, hgt, htop, h1]
      · intro v
        rw [h4]
        by_cases hvt : v = t
        · subst hvt
          have : v ∉ adj := hn.1
          simp [this, htop, distOf_add hd]
        · rw [hdo v hvt]
          simp [hvt]
      · rw [h5, List.filter_cons]
        have hf : adj.filter (fun n => decide (ShortestPath.distOf (d.Add t (cd + 1)) n = ⊤)) =
            adj.filter (fun n => decide (ShortestPath.distOf d n = ⊤)) := by
          apply List.filter_congr
          intro m hm
          rw [hdo m (hne m hm)]
        rw [hf]
        simp [htop, Queue.Enqueue]
    · obtain ⟨d', q', h1, h2, h3, h4, h5⟩ := ih d q hn.2 hd
        (fun m hm => hs m (List.mem_cons_of_mem _ hm))
      refine ⟨d', q', ?_, h2, h3, ?_, ?_⟩
      · simp [foldlE, ShortestPath.bfsDistVisit, hgt, htop, h1]
      · intro v
        rw [h4]
        by_cases hvt : v = t
        · subst hvt
          simp [htop]
        · simp [hvt]
      · rw [h5, List.filter_cons]
        simp [htop]

end BfsDistFacts

section BfsDistLoop

variable {T R : Type} [LinearOrder T] [LinearOrderedRing R] [Inhabited R]

theorem pairwise_of_forall_mem {α : Type} {r : α → α → Prop} :
    ∀ l : List α, (∀ a, a ∈ l → ∀ b, b ∈ l → r a b) → l.Pairwise r := by
  intro l
  induction l with
  | nil => intro _; exact List.Pairwise.nil
  | cons x xs ih =>
    intro h
    refine List.Pairwise.cons (fun b hb => h x (List.mem_cons_self _ _) b
      (List.mem_cons_of_mem _ hb)) (ih fun a ha b hb => h a (List.mem_cons_of_mem _ ha) b
      (List.mem_cons_of_mem _ hb))

/-- One round of the `while` loop of `BFSShortestPath` keeps the invariant. -/
theorem bfsDistInv_step {g : GraphBase T R} (hg : g.Valid)
    (hunit : ∀ u v w, g.GetEdgeWeight u v = .ok w → w = 1) {start : T}
    {d : Dictionary T (WithTop R)} {q : Queue T} {done : List T}
    (hi : ShortestPath.BfsDistInv g start d q done) {c : T} {rest adj : List T}
    (hq : q.list = c :: rest)
    (hadjn : adj.Nodup) (hadjm : ∀ u, u ∈ adj ↔ g.HasEdge c u = true)
    {d' : Dictionary T (WithTop R)} {q' : Queue T} (hd' : d'.WF)
    (hdom : ∀ v, (d.find? v).isSome = true → (d'.find? v).isSome = true)
    (hval : ∀ v, ShortestPath.distOf d' v =
      if v ∈ adj ∧ ShortestPath.distOf d v = ⊤ then ShortestPath.distOf d c + 1
      else ShortestPath.distOf d v)
    (hq' : q'.list = rest ++ adj.filter (fun n => decide (ShortestPath.distOf d n = ⊤))) :
    ShortestPath.BfsDistInv g start d' q' (done ++ [c]) := by
  have hnd := hi.nodup
  rw [hq] at hnd
  have hcq : c ∈ done ++ q.list := by rw [hq]; simp
  have hcfin : ShortestPath.distOf d c ≠ ⊤ := (hi.fin_iff c).2 hcq
  obtain ⟨a, ha⟩ := WithTop.ne_top_iff_exists.1 hcfin
  have hc1fin : ShortestPath.distOf d c + 1 ≠ ⊤ := by
    rw [← ha, ← WithTop.coe_one, ← WithTop.coe_add]
    exact WithTop.coe_ne_top
  have hle1 : ∀ x : WithTop R, x ≤ x + 1 := fun x =>
    le_add_of_nonneg_right (by rw [← WithTop.coe_one]; exact WithTop.coe_nonneg.2 zero_le_one)
  have hF : ∀ v, v ∈ adj.filter (fun n => decide (ShortestPath.distOf d n = ⊤)) ↔
      (v ∈ adj ∧ ShortestPath.distOf d v = ⊤) := by
    intro v
    simp [List.mem_filter]
  have hsame : ∀ v, ShortestPath.distOf d v ≠ ⊤ →
      ShortestPath.distOf d' v = ShortestPath.distOf d v := by
    intro v hv
    rw [hval, if_neg (fun h => hv h.2)]
  have hnew : ∀ v, v ∈ adj → ShortestPath.distOf d v = ⊤ →
      ShortestPath.distOf d' v = ShortestPath.distOf d c + 1 := by
    intro v h1 h2
    rw [hval, if_pos ⟨h1, h2⟩]
  have hdec : ∀ v, ShortestPath.distOf d' v ≤ ShortestPath.distOf d v := by
    intro v
    by_cases hv : ShortestPath.distOf d v = ⊤
    · rw [hv]; exact le_top
    · rw [hsame v hv]
  have hfin' : ∀ v, ShortestPath.distOf d' v ≠ ⊤ ↔
      (ShortestPath.distOf d v ≠ ⊤ ∨ (v ∈ adj ∧ ShortestPath.distOf d v = ⊤)) := by
    intro v
    by_cases hv : ShortestPath.distOf d v = ⊤
    · by_cases hva : v ∈ adj
      · rw [hnew v hva hv]
        simp [hc1fin, hva, hv]
      · rw [hval, if_neg (fun h => hva h.1)]
        simp [hv, hva]
    · rw [hsame v hv]
      simp [hv]
  have hsorted_old := hi.sorted
  rw [hq, List.pairwise_cons] at hsorted_old
  have hrest_fin : ∀ r, r ∈ rest → ShortestPath.distOf d r ≠ ⊤ := fun r hr =>
    (hi.fin_iff r).2 (by rw [hq]; simp [hr])
  have hspread := hi.spread c (by rw [hq]; simp)
  refine ⟨⟨hd', fun v hv => hdom v (hi.inv.dom v hv), ?_, le_trans (hdec start) hi.inv.start_le⟩,
    ?_, ?_, ?_, ?_, ?_, ?_⟩
  · intro v c' hc'
    by_cases hv : v ∈ adj ∧ ShortestPath.distOf d v = ⊤
    · rw [hnew v hv.1 hv.2, ← ha, ← WithTop.coe_one, ← WithTop.coe_add] at hc'
      obtain ⟨w, hw⟩ := (hg.weight_iff c v).2 ((hadjm v).1 hv.1)
      obtain ⟨p, hp⟩ := hi.inv.real c a ha.symm
      have h1 : w = 1 := hunit c v w hw
      have : c' = a + w := by rw [h1]; exact (WithTop.coe_injective hc').symm
      exact ⟨_, this ▸ GraphBase.Walk.step hp hw⟩
    · rw [hval, if_neg hv] at hc'
      exact hi.inv.real v c' hc'
  · show ((done ++ [c]) ++ q'.list).Nodup
    rw [hq', ← List.append_assoc, List.nodup_append]
    refine ⟨by simpa using hnd, hadjn.sublist (List.filter_sublist _), ?_⟩
    intro v hv1 hv2
    have hvtop := ((hF v).1 hv2).2
    have : v ∈ done ++ q.list := by
      rw [hq]
      simpa using hv1
    exact (hi.fin_iff v).2 this hvtop
  · intro v hv
    change v ∈ (done ++ [c]) ++ q'.list at hv
    rw [hq', ← List.append_assoc] at hv
    rcases List.mem_append.1 hv with hv | hv
    · exact hi.vert v (by rw [hq]; simpa using hv)
    · exact hg.edge_right c v ((hadjm v).1 ((hF v).1 hv).1)
  · intro v
    show _ ↔ v ∈ (done ++ [c]) ++ q'.list
    rw [hfin', hq', ← List.append_assoc, List.mem_append, hF, hi.fin_iff, hq]
    simp
  · show q'.list.Pairwise _
    rw [hq', List.pairwise_append]
    refine ⟨?_, ?_, ?_⟩
    · refine hsorted_old.2.imp_of_mem ?_
      intro x y hx hy hxy
      rw [hsame x (hrest_fin x hx), hsame y (hrest_fin y hy)]
      exact hxy
    · apply pairwise_of_forall_mem
      intro x hx y hy
      rw [hnew x ((hF x).1 hx).1 ((hF x).1 hx).2, hnew y ((hF y).1 hy).1 ((hF y).1 hy).2]
    · intro x hx y hy
      rw [hsame x (hrest_fin x hx), hnew y ((hF y).1 hy).1 ((hF y).1 hy).2]
      exact hspread x (hrest_fin x hx)
  · intro c' hc' v hv
    change c' ∈ q'.list.head? at hc'
    rw [hq'] at hc'
    have hvle : ShortestPath.distOf d' v ≤ ShortestPath.distOf d c + 1 := by
      rcases (hfin' v).1 hv with h | h
      · rw [hsame v h]; exact hspread v h
      · rw [hnew v h.1 h.2]
    cases rest with
    | nil =>
      simp only [List.nil_append] at hc'
      have hcF := List.mem_of_mem_head? hc'
      rw [hnew c' ((hF c').1 hcF).1 ((hF c').1 hcF).2]
      exact le_trans hvle (hle1 _)
    | cons r rest' =>
      simp only [List.cons_append, List.head?_cons, Option.mem_def, Option.some.injEq] at hc'
      subst hc'
      have hr : ShortestPath.distOf d r ≠ ⊤ := hrest_fin r (List.mem_cons_self _ _)
      rw [hsame r hr]
      exact le_trans hvle (add_le_add_right (hsorted_old.1 r (List.mem_cons_self _ _)) _)
  · intro u hu v w hw
    rcases List.mem_append.1 hu with hu | hu
    · have hufin : ShortestPath.distOf d u ≠ ⊤ := (hi.fin_iff u).2 (List.mem_append_left _ hu)
      rw [hsame u hufin]
      exact le_trans (hdec v) (hi.done_rel u hu v w hw)
    · have huc : u = c := by simpa using hu
      subst huc
      rw [hsame u hcfin]
      have hva : v ∈ adj := (hadjm v).2 ((hg.weight_iff u v).1 ⟨w, hw⟩)
      by_cases hv : ShortestPath.distOf d v = ⊤
      · rw [hnew v hva hv]
      · rw [hsame v hv]
        exact hspread v hv

/-- The `while` loop of `BFSShortestPath` ends within its budget, does not throw, and
leaves distances on which no edge can be relaxed. -/
theorem bfsDistLoop_spec {g : GraphBase T R} (hg : g.Valid)
    (hunit : ∀ u v w, g.GetEdgeWeight u v = .ok w → w = 1) {start : T} :
    ∀ (fuel : Nat) (d : Dictionary T (WithTop R)) (q : Queue T) (done : List T),
      ShortestPath.BfsDistInv g start d q done →
      g.GetAllVertices.length < fuel + done.length →
      ∃ d' q', ShortestPath.bfsDistLoop g fuel (d, q) = .ok (d', q') ∧
        ShortestPath.BfInv g start d' ∧ ShortestPath.Relaxed g d' := by
  intro fuel
  induction fuel with
  | zero =>
    intro d q done hi hf
    have := length_le_of_nodup_of_vertices hg (List.nodup_append.1 hi.nodup).1
      (fun x hx => hi.vert x (List.mem_append_left _ hx))
    omega
  | succ fuel ih =>
    intro d q done hi hf
    cases hq : q.list with
    | nil =>
      have hemp : q.IsEmpty = true := (queue_isEmpty_iff _).2 hq
      refine ⟨d, q, by simp [ShortestPath.bfsDistLoop, hemp], hi.inv, ?_⟩
      intro u v w hw
      by_cases hu : ShortestPath.distOf d u = ⊤
      · rw [hu, WithTop.top_add]; exact le_top
      · have hud : u ∈ done := by
          have := (hi.fin_iff u).1 hu
          rwa [hq, List.append_nil] at this
        rw [hunit u v w hw, WithTop.coe_one]
        exact hi.done_rel u hud v w hw
    | cons c rest =>
      have hne : q.IsEmpty = false := by
        cases h : q.IsEmpty
        · rfl
        · rw [(queue_isEmpty_iff _).1 h] at hq; cases hq
      have hdq : q.Dequeue = .ok (c, ⟨rest⟩) := by
        simp [Queue.Dequeue, hq]
      have hcv : g.HasVertex c = true := hi.vert c (by rw [hq]; simp)
      have hgc := get_eq_distOf (hi.inv.dom c hcv)
      obtain ⟨adj, hadj, hadjn, hadjm⟩ := hg.adj_ok c hcv
      obtain ⟨d', q', h1, h2, h3, h4, h5⟩ := bfsDistVisit_foldlE (ShortestPath.distOf d c) adj d
        ⟨rest⟩ hadjn hi.inv.dwf
        (fun n hn => hi.inv.dom n (hg.edge_right c n ((hadjm n).1 hn)))
      have hinv := bfsDistInv_step hg hunit hi hq hadjn hadjm h2 h3 h4 h5
      have hlen : (done ++ [c]).length ≤ g.GetAllVertices.length :=
        length_le_of_nodup_of_vertices hg (List.nodup_append.1 hinv.nodup).1
          (fun x hx => hinv.vert x (List.mem_append_left _ hx))
      obtain ⟨d2, q2, e1, e2, e3⟩ := ih d' q' (done ++ [c]) hinv (by
        simp only [List.length_append, List.length_singleton] at hlen ⊢
        omega)
      refine ⟨d2, q2, ?_, e2, e3⟩
      simp only [ShortestPath.bfsDistLoop, hne, hdq, hgc, hadj, h1, Bool.false_eq_true,
        if_false]
      exact e1

end BfsDistLoop

section BfsDistClaim

variable {T R : Type} [LinearOrder T] [LinearOrderedRing R] [Inhabited R]

/-- The invariant of `BellmanFord` holds for the initial distances. -/
theorem bfInv_init {g : GraphBase T R} (hg : g.Valid) {start : T}
    (hs : g.HasVertex start = true) :
    ShortestPath.BfInv g start (ShortestPath.initDistances g.GetAllVertices start) := by
  obtain ⟨i1, i2, i3⟩ := initDistances_spec (R := R) g.GetAllVertices start
  refine ⟨i1, fun v hv => i2 v ((hg.mem_all v).2 hv), ?_, ?_⟩
  · intro v c hc
    rw [i3] at hc
    by_cases hv : v = start
    · rw [if_pos hv] at hc
      have : c = 0 := (WithTop.coe_injective hc).symm
      rw [this, hv]
      exact ⟨[start], .start hs⟩
    · rw [if_neg hv] at hc
      exact absurd hc.symm WithTop.coe_ne_top
  · rw [i3, if_pos rfl]

/-- Distances that are weights of paths and on which no edge can be relaxed are the
distances from the start. -/
theorem isDistance_of_relaxed {g : GraphBase T R} (hg : g.Valid) {start : T}
    (hs : g.HasVertex start = true) {d : Dictionary T (WithTop R)}
    (hi : ShortestPath.BfInv g start d) (hr : ShortestPath.Relaxed g d) (v : T) :
    g.IsDistance start v (ShortestPath.distOf d v) ∧
      (ShortestPath.distOf d v = ⊤ ↔ ¬ g.Connected start v) := by
  refine ⟨⟨fun p c hp => relaxed_lower hi hr hp, fun c hc => ?_⟩, ?_⟩
  · obtain ⟨p, hp⟩ := hi.real v c hc
    exact attained_simple hg (relaxed_no_negative_cycle hg hs hi hr)
      (fun p' c' hp' => WithTop.coe_le_coe.1 (hc ▸ relaxed_lower hi hr hp')) hp
  constructor
  · intro htop hc
    obtain ⟨p, c, hp⟩ := walk_of_connected hg hs hc
    have := relaxed_lower hi hr hp
    rw [htop] at this
    exact WithTop.coe_ne_top (top_le_iff.1 this)
  · intro hn
    by_contra hfin
    obtain ⟨c, hc⟩ := WithTop.ne_top_iff_exists.1 hfin
    obtain ⟨p, hp⟩ := hi.real v c hc.symm
    exact hn (walk_connected hg hp)

/-- The result of `BFSShortestPath` on a graph whose edges all have weight `1`. -/
theorem bfsShortestPath_spec {g : GraphBase T R} (hg : g.Valid)
    (hunit : ∀ u v w, g.GetEdgeWeight u v = .ok w → w = 1) {start : T}
    (hs : g.HasVertex start = true) :
    ∃ dist, ShortestPath.BFSShortestPath g start = .ok dist ∧
      ShortestPath.BfInv g start dist ∧ ShortestPath.Relaxed g dist := by
  obtain ⟨-, -, i3⟩ := initDistances_spec (R := R) g.GetAllVertices start
  have hfin : ∀ v, ShortestPath.distOf (ShortestPath.initDistances g.GetAllVertices start :
      Dictionary T (WithTop R)) v ≠ ⊤ ↔ v = start := by
    intro v
    rw [i3]
    by_cases hv : v = start
    · simp [hv]
    · simp [hv]
  have hinit : ShortestPath.BfsDistInv g start
      (ShortestPath.initDistances g.GetAllVertices start) (Queue.empty.Enqueue start) [] := by
    refine ⟨bfInv_init hg hs, by simp [Queue.Enqueue, Queue.empty], ?_, ?_, ?_, ?_, ?_⟩
    · intro v hv
      have : v = start := by simpa [Queue.Enqueue, Queue.empty] using hv
      rw [this]; exact hs
    · intro v
      rw [hfin]
      simp [Queue.Enqueue, Queue.empty]
    · simp [Queue.Enqueue, Queue.empty]
    · intro c hc v hv
      have hcs : c = start := by
        simpa [Queue.Enqueue, Queue.empty, eq_comm] using hc
      rw [(hfin v).1 hv, hcs]
      exact le_add_of_nonneg_right
        (by rw [← WithTop.coe_one]; exact WithTop.coe_nonneg.2 zero_le_one)
    · intro u hu
      cases hu
  obtain ⟨d', q', h1, h2, h3⟩ := bfsDistLoop_spec hg hunit (g.GetAllVertices.length + 1) _ _ _
    hinit (by simp)
  exact ⟨d', by simp [ShortestPath.BFSShortestPath, hs, h1], h2, h3⟩

/-- On a graph whose edges all have weight `1` the weight of a path is the number of
its edges. -/
theorem walk_unit_weight {g : GraphBase T R}
    (hunit : ∀ u v w, g.GetEdgeWeight u v = .ok w → w = 1) {s v : T} {p : List T} {c : R}
    (h : g.Walk s p v c) : c = ((p.length - 1 : Nat) : R) := by
  induction h with
  | start _ => simp
  | @step p y c x w hp he ih =>
    have hpos := List.length_pos.2 (walk_ne_nil hp)
    have : (p ++ [x]).length - 1 = (p.length - 1) + 1 := by
      simp only [List.length_append, List.length_singleton]
      omega
    rw [this, Nat.cast_add, Nat.cast_one, ← ih, hunit _ _ _ he]

/-- Holds on graph objects that satisfy the invariants of the data model, which
`DirectedGraph::RemoveVertex` does not keep (C1): for a directed or undirected graph
whose edges all have weight `1` and a vertex `start` of it, `Dijkstra(graph, start)` and
`BFSShortestPath(graph, start)` hold the same value for every vertex: the hop count from
`start`, the least number of edges of a path, and infinity exactly when no path leads
from `start` to the vertex. -/
theorem dijkstra_equals_bfs_of_isGraph (g : GraphBase T R) (hg : g.IsGraph)
    (hunit : ∀ u v w, g.GetEdgeWeight u v = .ok w → w = 1) (start : T)
    (hs : g.HasVertex start = true) :
    ∃ distD distB, ShortestPath.Dijkstra g start = .ok distD ∧
      ShortestPath.BFSShortestPath g start = .ok distB ∧
      ∀ v, g.HasVertex v = true →
        ∃ d, distD.Get v = .ok d ∧ distB.Get v = .ok d ∧ g.IsHopCount start v d ∧
          (d = ⊤ ↔ ¬ g.Connected start v) := by
  have hv := isGraph_valid hg
  have hw : ∀ u v w, g.GetEdgeWeight u v = .ok w → 0 ≤ w := by
    intro u v w h
    rw [hunit u v w h]
    exact zero_le_one
  obtain ⟨distD, d1, d2⟩ := dijkstra_spec hv hw hs
  obtain ⟨distB, b1, b2, b3⟩ := bfsShortestPath_spec hv hunit hs
  refine ⟨distD, distB, d1, b1, ?_⟩
  intro v hvv
  obtain ⟨e1, e2, e3⟩ := d2 v hvv
  obtain ⟨f2, -⟩ := isDistance_of_relaxed hv hs b2 b3 v
  have heq := isDistance_unique f2 e2
  refine ⟨ShortestPath.distOf distD v, e1, ?_, ⟨?_, ?_⟩, e3⟩
  · rw [← heq]
    exact get_eq_distOf (b2.dom v hvv)
  · intro p c hp
    rw [← walk_unit_weight hunit hp]
    exact e2.1 p c hp
  · intro hfin
    obtain ⟨c, hc⟩ := WithTop.ne_top_iff_exists.1 hfin
    obtain ⟨p, hp, -⟩ := e2.2 c hc.symm
    exact ⟨p, c, hp, by rw [← hc, walk_unit_weight hunit hp]⟩

/-- At the undirected graph with the edges `1 - 2`, `2 - 3`, `1 - 4`, `4 - 3`,
`3 - 5` of weight `1` and the isolated vertex `6`, from the vertex `1`: both functions
return `0`, `1`, `2`, `1`, `3`, and infinity for `6`. -/
theorem dijkstra_equals_bfs_of_isGraph_witness :
    ∃ g : UndirectedGraph Nat Int,
      UndirectedGraph.run UndirectedGraph.empty
        [.addEdge 1 2 1, .addEdge 2 3 1, .addEdge 1 4 1, .addEdge 4 3 1, .addEdge 3 5 1,
          .addVertex 6] = .ok g ∧
      g.toGraphBase.IsGraph ∧
      (∀ u v w, g.toGraphBase.GetEdgeWeight u v = .ok w → w = 1) ∧
      g.toGraphBase.HasVertex 1 = true ∧
      (ShortestPath.Dijkstra g.toGraphBase 1).map ShortestPath.toList =
        .ok [(1, 0), (2, 1), (3, 2), (4, 1), (5, 3), (6, ⊤)] ∧
      (ShortestPath.BFSShortestPath g.toGraphBase 1).map ShortestPath.toList =
        .ok [(1, 0), (2, 1), (3, 2), (4, 1), (5, 3), (6, ⊤)] ∧
      ∃ distD distB, ShortestPath.Dijkstra g.toGraphBase 1 = .ok distD ∧
        ShortestPath.BFSShortestPath g.toGraphBase 1 = .ok distB ∧
        ∀ v, g.toGraphBase.HasVertex v = true →
          ∃ d, distD.Get v = .ok d ∧ distB.Get v = .ok d ∧
            g.toGraphBase.IsHopCount 1 v d ∧ (d = ⊤ ↔ ¬ g.toGraphBase.Connected 1 v) := by
  obtain ⟨g, hg⟩ : ∃ g : UndirectedGraph Nat Int,
      UndirectedGraph.run UndirectedGraph.empty
        [.addEdge 1 2 1, .addEdge 2 3 1, .addEdge 1 4 1, .addEdge 4 3 1, .addEdge 3 5 1,
          .addVertex 6] = .ok g :=
    ⟨_, rfl⟩
  have hv : g.Valid := ug_run_valid _ _ g ug_valid_empty hg
  have he1 : (UndirectedGraph.run UndirectedGraph.empty
        [.addEdge 1 2 1, .addEdge 2 3 1, .addEdge 1 4 1, .addEdge 4 3 1, .addEdge 3 5 1,
          .addVertex 6]).map
      (fun g : UndirectedGraph Nat Int =>
        (g.toGraphBase.allWeights (fun w => decide (w = 1)) && g.toGraphBase.HasVertex 1)) =
      .ok true := by decide
  have he2 : (UndirectedGraph.run UndirectedGraph.empty
        [.addEdge 1 2 1, .addEdge 2 3 1, .addEdge 1 4 1, .addEdge 4 3 1, .addEdge 3 5 1,
          .addVertex 6]).map
      (fun g : UndirectedGraph Nat Int =>
        (ShortestPath.Dijkstra g.toGraphBase 1).map ShortestPath.toList) =
      .ok (.ok [(1, 0), (2, 1), (3, 2), (4, 1), (5, 3), (6, ⊤)]) := by decide
  have he3 : (UndirectedGraph.run UndirectedGraph.empty
        [.addEdge 1 2 1, .addEdge 2 3 1, .addEdge 1 4 1, .addEdge 4 3 1, .addEdge 3 5 1,
          .addVertex 6]).map
      (fun g : UndirectedGraph Nat Int =>
        (ShortestPath.BFSShortestPath g.toGraphBase 1).map ShortestPath.toList) =
      .ok (.ok [(1, 0), (2, 1), (3, 2), (4, 1), (5, 3), (6, ⊤)]) := by decide
  rw [hg] at he1 he2 he3
  simp only [Except.map, Except.ok.injEq, Bool.and_eq_true] at he1 he2 he3
  have hgr : g.toGraphBase.IsGraph := Or.inr ⟨g, hv, rfl⟩
  have hunit : ∀ u v w, g.toGraphBase.GetEdgeWeight u v = .ok w → w = 1 := fun u v w h =>
    of_decide_eq_true (allWeights_spec (ug_valid_toGraphBase hv) _ he1.1 u v w h)
  exact ⟨g, hg, hgr, hunit, he1.2, he2, he3,
    dijkstra_equals_bfs_of_isGraph g.toGraphBase hgr hunit 1 he1.2⟩

end BfsDistClaim

/-! ## The algorithms on a directed graph after `RemoveVertex`

The theorems on the algorithms assume a graph object that satisfies the invariants of
the data model.  `DirectedGraph::RemoveVertex` leaves the incoming entries of the
removed vertex in `adjMatrix` (C1), and on such an object the algorithms meet a
neighbour that is no vertex. -/

/-- After `AddEdge(1, 2)`, `RemoveVertex(2)` the graph has the vertex `1` and no edge,
`GetAdjacentVertices(1)` is `[2]`, and `KahnSort` throws `Key not found`, `DFSSort`
throws `Vertex does not exist`, `IsAcyclic` is false, `Dijkstra(1)` and `BellmanFord(1)`
throw `Edge does not exist`, `BFSShortestPath(1)` throws `Key not found`. -/
theorem algorithms_after_removeVertex :
    (DirectedGraph.run (DirectedGraph.empty : DirectedGraph Nat Int)
        [.addEdge 1 2 1, .removeVertex 2]).map
      (fun g => (g.GetAllVertices.1, g.HasEdge 1 2, g.GetAdjacentVertices 1)) =
        .ok ([1], false, .ok [2]) ∧
    (DirectedGraph.run (DirectedGraph.empty : DirectedGraph Nat Int)
        [.addEdge 1 2 1, .removeVertex 2]).map
      (fun g => TopologicalSort.KahnSort g.toGraphBase) = .ok (.error .keyNotFound) ∧
    (DirectedGraph.run (DirectedGraph.empty : DirectedGraph Nat Int)
        [.addEdge 1 2 1, .removeVertex 2]).map
      (fun g => TopologicalSort.DFSSort g.toGraphBase) = .ok (.error .vertexNotFound) ∧
    (DirectedGraph.run (DirectedGraph.empty : DirectedGraph Nat Int)
        [.addEdge 1 2 1, .removeVertex 2]).map
      (fun g => TopologicalSort.IsAcyclic g.toGraphBase) = .ok false ∧
    (DirectedGraph.run (DirectedGraph.empty : DirectedGraph Nat Int)
        [.addEdge 1 2 1, .removeVertex 2]).map
      (fun g => (ShortestPath.Dijkstra g.toGraphBase 1).map ShortestPath.toList) =
        .ok (.error .edgeNotFound) ∧
    (DirectedGraph.run (DirectedGraph.empty : DirectedGraph Nat Int)
        [.addEdge 1 2 1, .removeVertex 2]).map
      (fun g => (ShortestPath.BellmanFord g.toGraphBase 1).map ShortestPath.toList) =
        .ok (.error .edgeNotFound) ∧
    (DirectedGraph.run (DirectedGraph.empty : DirectedGraph Nat Int)
        [.addEdge 1 2 1, .removeVertex 2]).map
      (fun g => (ShortestPath.BFSShortestPath g.toGraphBase 1).map ShortestPath.toList) =
        .ok (.error .keyNotFound) := by
  refine ⟨?_, ?_, ?_, ?_, ?_, ?_, ?_⟩ <;> decide

/-! ## ConnectedComponents: the depth-first search -/

section DfsComponentFacts

variable {T W : Type} [LinearOrder T]

theorem dfsPush_foldl (visited : Set T) (adj : List T) :
    ∀ stack : Stack T, (adj.foldl (ConnectedComponents.dfsPush visited) stack).list =
      (adj.filter (fun n => !visited.Contains n)).reverse ++ stack.list := by
  induction adj with
  | nil => intro stack; simp
  | cons n adj ih =>
    intro stack
    simp only [List.foldl_cons, ih]
    cases hc : visited.Contains n <;>
      simp [ConnectedComponents.dfsPush, hc, Stack.Push, List.filter_cons]

theorem unvisited_add {g : GraphBase T W} (hg : g.Valid) {visited : Set T} (hwf : visited.WF)
    {c : T} (hc : visited.Contains c = false) (hv : g.HasVertex c = true) :
    ConnectedComponents.unvisited g (visited.Add c) + 1 =
      ConnectedComponents.unvisited g visited := by
  unfold ConnectedComponents.unvisited
  rw [← List.countP_eq_length_filter, ← List.countP_eq_length_filter,
    countP_remove_one (fun v => !visited.Contains v) c _ hg.all_nodup ((hg.mem_all c).2 hv)]
  simp only [hc, Bool.not_false, if_true]
  congr 1
  apply List.countP_congr
  intro u _
  rw [set_contains_add hwf]
  cases decide (u = c) <;> cases visited.Contains u <;> rfl

theorem unvisited_le (g : GraphBase T W) (visited : Set T) :
    ConnectedComponents.unvisited g visited ≤ g.GetAllVertices.length :=
  List.length_filter_le _ _

/-- The `while` loop of `DFSComponent` ends within its budget with an empty stack and
keeps the invariant. -/
theorem dfsCompLoop_spec {g : GraphBase T W} (hg : g.Valid) (start : T) (visited0 : Set T)
    (hfresh : visited0.Contains start = false) :
    ∀ (fuel : Nat) (s : ConnectedComponents.DfsCompState T),
      ConnectedComponents.DfsCompInv g start visited0 s →
      s.stack.list.length +
        (g.GetAllVertices.length + 1) * ConnectedComponents.unvisited g s.visited < fuel →
      ∃ s', ConnectedComponents.dfsCompLoop g fuel s = .ok s' ∧
        ConnectedComponents.DfsCompInv g start visited0 s' ∧ s'.stack.list = [] := by
  intro fuel
  induction fuel with
  | zero => intro s _ hf; omega
  | succ fuel ih =>
    intro s hs hf
    cases hq : s.stack.list with
    | nil =>
      refine ⟨s, ?_, hs, hq⟩
      have : s.stack.IsEmpty = true := (stack_isEmpty_iff _).2 hq
      simp [ConnectedComponents.dfsCompLoop, this]
    | cons current rest =>
      have hne : s.stack.IsEmpty = false := by
        cases h : s.stack.IsEmpty
        · rfl
        · rw [(stack_isEmpty_iff _).1 h] at hq; cases hq
      have hpop : s.stack.Pop = .ok (current, ⟨rest⟩) := by
        simp [Stack.Pop, hq]
      have hcur := hs.stacked current (by rw [hq]; simp)
      rw [hq] at hf
      cases hc : s.visited.Contains current with
      | true =>
        have hinv : ConnectedComponents.DfsCompInv g start visited0
            { s with stack := ⟨rest⟩ } := by
          refine ⟨hs.wf, hs.visited_iff, hs.nodup, hs.fresh, ?_, ?_, ?_⟩
          · intro x hx
            exact hs.stacked x (by rw [hq]; exact List.mem_cons_of_mem _ hx)
          · intro x hx y he
            rcases hs.closed x hx y he with h1 | h1
            · exact Or.inl h1
            · rw [hq] at h1
              rcases List.mem_cons.1 h1 with rfl | h2
              · exact Or.inl hc
              · exact Or.inr h2
          · rcases hs.start_mem with h1 | h1
            · exact Or.inl h1
            · rw [hq] at h1
              rcases List.mem_cons.1 h1 with h2 | h2
              · subst h2
                rcases (hs.visited_iff start).1 hc with h3 | h3
                · rw [hfresh] at h3; cases h3
                · exact Or.inl h3
              · exact Or.inr h2
        obtain ⟨s', h1, h2, h3⟩ := ih _ hinv (by simp only [List.length_cons] at hf ⊢; omega)
        refine ⟨s', ?_, h2, h3⟩
        simp only [ConnectedComponents.dfsCompLoop, hne, Bool.false_eq_true, if_false, hpop,
          hc, if_true]
        exact h1
      | false =>
        obtain ⟨adj, hadj, hadjn, hadjm⟩ := hg.adj_ok current hcur.2
        have hst := dfsPush_foldl (s.visited.Add current) adj ⟨rest⟩
        have hnc : current ∉ s.component := by
          intro hmem
          have := (hs.visited_iff current).2 (Or.inr hmem)
          rw [hc] at this; cases this
        have hv0 : visited0.Contains current = false := by
          cases h0 : visited0.Contains current
          · rfl
          · have := (hs.visited_iff current).2 (Or.inl h0)
            rw [hc] at this; cases this
        have hinv : ConnectedComponents.DfsCompInv g start visited0
            { stack := adj.foldl (ConnectedComponents.dfsPush (s.visited.Add current)) ⟨rest⟩
              visited := s.visited.Add current
              component := s.component ++ [current] } := by
          refine ⟨Set.set_wf_add hs.wf current, ?_, ?_, ?_, ?_, ?_, ?_⟩
          · intro x
            rw [set_contains_add hs.wf]
            simp only [Bool.or_eq_true, decide_eq_true_eq, hs.visited_iff, List.mem_append,
              List.mem_singleton]
            constructor
            · rintro (h1 | h1 | h1)
              · exact Or.inr (Or.inr h1)
              · exact Or.inl h1
              · exact Or.inr (Or.inl h1)
            · rintro (h1 | h1 | h1)
              · exact Or.inr (Or.inl h1)
              · exact Or.inr (Or.inr h1)
              · exact Or.inl h1
          · rw [List.nodup_append]
            refine ⟨hs.nodup, List.nodup_singleton _, ?_⟩
            intro x hx1 hx2
            have : x = current := by simpa using hx2
            exact hnc (this ▸ hx1)
          · intro x hx
            rcases List.mem_append.1 hx with h1 | h1
            · exact hs.fresh x h1
            · have : x = current := by simpa using h1
              subst this
              exact ⟨hcur.1, hv0, hcur.2⟩
          · intro x hx
            rw [hst] at hx
            rcases List.mem_append.1 hx with h1 | h1
            · have hxa : x ∈ adj := (List.mem_filter.1 (List.mem_reverse.1 h1)).1
              have he : g.HasEdge current x = true := (hadjm x).1 hxa
              exact ⟨hcur.1.tail he, hg.edge_right _ _ he⟩
            · exact hs.stacked x (by rw [hq]; exact List.mem_cons_of_mem _ h1)
          · intro x hx y he
            rw [hst]
            rcases List.mem_append.1 hx with h1 | h1
            · rcases hs.closed x h1 y he with h2 | h2
              · left
                rw [set_contains_add hs.wf, h2]; simp
              · rw [hq] at h2
                rcases List.mem_cons.1 h2 with h3 | h3
                · left
                  rw [set_contains_add hs.wf, h3]; simp
                · exact Or.inr (List.mem_append_right _ h3)
            · have : x = current := by simpa using h1
              subst this
              cases hy : (s.visited.Add x).Contains y
              · right
                apply List.mem_append_left
                rw [List.mem_reverse, List.mem_filter]
                exact ⟨(hadjm y).2 he, by simp [hy]⟩
              · exact Or.inl rfl
          · rcases hs.start_mem with h1 | h1
            · exact Or.inl (List.mem_append_left _ h1)
            · rw [hq] at h1
              rcases List.mem_cons.1 h1 with h2 | h2
              · exact Or.inl (by rw [h2]; simp)
              · right
                rw [hst]
                exact List.mem_append_right _ h2
        have hlen : adj.length ≤ g.GetAllVertices.length :=
          length_le_of_nodup_of_vertices hg hadjn
            (fun x hx => hg.edge_right _ _ ((hadjm x).1 hx))
        have hfl : (adj.filter (fun n => !(s.visited.Add current).Contains n)).length ≤
            adj.length := List.length_filter_le _ _
        have hU := unvisited_add hg hs.wf hc hcur.2
        obtain ⟨s', h1, h2, h3⟩ := ih _ hinv (by
          show (adj.foldl (ConnectedComponents.dfsPush (s.visited.Add current)) ⟨rest⟩).list.length
            + (g.GetAllVertices.length + 1) *
              ConnectedComponents.unvisited g (s.visited.Add current) < fuel
          rw [hst, List.length_append, List.length_reverse]
          show _ + rest.length + _ < fuel
          rw [← hU, Nat.mul_succ] at hf
          simp only [List.length_cons] at hf
          omega)
        refine ⟨s', ?_, h2, h3⟩
        simp only [ConnectedComponents.dfsCompLoop, hne, Bool.false_eq_true, if_false, hpop,
          hc, hadj]
        exact h1

/-- The component that `DFSComponent` returns for a fresh `start` is the set of vertices
joined to `start`, each once, and `visited` grows by exactly that set. -/
theorem DFSComponent_spec {g : GraphBase T W} (hg : g.Valid) (start : T)
    (visited0 : Set T) (hwf : visited0.WF)
    (hclosed : ∀ x y, g.HasEdge x y = true →
      (visited0.Contains x = true ↔ visited0.Contains y = true))
    (hstart : g.HasVertex start = true) (hfresh : visited0.Contains start = false) :
    ∃ visited component,
      ConnectedComponents.DFSComponent g start visited0 [] = .ok (visited, component) ∧
      visited.WF ∧
      (∀ x, visited.Contains x = true ↔ (visited0.Contains x = true ∨ x ∈ component)) ∧
      component.Nodup ∧
      (∀ x, x ∈ component ↔ g.Connected start x) ∧
      (∀ x, x ∈ component → visited0.Contains x = false ∧ g.HasVertex x = true) := by
  have h0 : ConnectedComponents.DfsCompInv g start visited0
      { stack := Stack.empty.Push start
        visited := visited0
        component := [] } := by
    refine ⟨hwf, ?_, List.nodup_nil, ?_, ?_, ?_, ?_⟩
    · intro x; simp
    · intro x hx; cases hx
    · intro x hx
      have : x = start := by simpa [Stack.Push, Stack.empty] using hx
      subst this
      exact ⟨Relation.ReflTransGen.refl, hstart⟩
    · intro x hx; cases hx
    · right; simp [Stack.Push, Stack.empty]
  have hbudget : (Stack.empty.Push start).list.length +
      (g.GetAllVertices.length + 1) * ConnectedComponents.unvisited g visited0 <
      (g.GetAllVertices.length + 1) * (g.GetAllVertices.length + 1) + 1 := by
    have h1 := Nat.mul_le_mul_left (g.GetAllVertices.length + 1) (unvisited_le g visited0)
    have h2 : (g.GetAllVertices.length + 1) * (g.GetAllVertices.length + 1) =
        (g.GetAllVertices.length + 1) * g.GetAllVertices.length +
          (g.GetAllVertices.length + 1) := Nat.mul_succ _ _
    simp only [Stack.Push, Stack.empty, List.length_singleton]
    omega
  obtain ⟨s', h1, h2, h3⟩ := dfsCompLoop_spec hg start visited0 hfresh _ _ h0 hbudget
  have hmem : ∀ x, g.Connected start x → x ∈ s'.component := by
    intro x hx
    induction hx with
    | refl =>
      rcases h2.start_mem with h | h
      · exact h
      · rw [h3] at h; cases h
    | @tail y z _ he ih =>
      rcases h2.closed y ih z he with hz | hz
      · rcases (h2.visited_iff z).1 hz with h0z | hc
        · have hy0 : visited0.Contains y = true := (hclosed y z he).2 h0z
          have := (h2.fresh y ih).2.1
          rw [hy0] at this
          cases this
        · exact hc
      · rw [h3] at hz; cases hz
  refine ⟨s'.visited, s'.component, ?_, h2.wf, h2.visited_iff, h2.nodup, ?_, ?_⟩
  · simp only [ConnectedComponents.DFSComponent, h1]
  · intro x
    exact ⟨fun hx => (h2.fresh x hx).1, hmem x⟩
  · intro x hx
    exact (h2.fresh x hx).2

/-- The loops over all vertices of `FindComponentsBFS` and of `FindComponentsDFS` run in
step: neither throws, they start a component at the same vertices, and the components
that they append have the same members. -/
theorem components_fold_agree {g : GraphBase T W} (hg : g.Valid)
    (hsym : ∀ u v, g.HasEdge u v = g.HasEdge v u) :
    ∀ (l : List T) (sB sD : Set T × List (List T)),
      (∀ v, v ∈ l → g.HasVertex v = true) → sB.1.WF → sD.1.WF →
      (∀ x y, g.HasEdge x y = true → (sB.1.Contains x = true ↔ sB.1.Contains y = true)) →
      (∀ x, sB.1.Contains x = sD.1.Contains x) →
      List.Forall₂ (fun c d : List T => ∀ x, x ∈ c ↔ x ∈ d) sB.2 sD.2 →
      (∀ d, d ∈ sD.2 → d.Nodup) →
      ∃ sB' sD', foldlE (ConnectedComponents.componentFrom g) sB l = .ok sB' ∧
        foldlE (ConnectedComponents.componentFromDFS g) sD l = .ok sD' ∧
        List.Forall₂ (fun c d : List T => ∀ x, x ∈ c ↔ x ∈ d) sB'.2 sD'.2 ∧
        (∀ d, d ∈ sD'.2 → d.Nodup) := by
  intro l
  induction l with
  | nil =>
    intro sB sD _ _ _ _ _ hrel hnd
    exact ⟨sB, sD, rfl, rfl, hrel, hnd⟩
  | cons v l ih =>
    rintro ⟨visB, compsB⟩ ⟨visD, compsD⟩ hl hwB hwD hcl hag hrel hnd
    have hv : g.HasVertex v = true := hl v (List.mem_cons_self _ _)
    have hl' : ∀ u, u ∈ l → g.HasVertex u = true := fun u hu => hl u (List.mem_cons_of_mem _ hu)
    have hclD : ∀ x y, g.HasEdge x y = true →
        (visD.Contains x = true ↔ visD.Contains y = true) := by
      intro x y he
      have := hcl x y he
      simp only [hag] at this
      exact this
    cases hc : visB.Contains v with
    | false =>
      have hcD : visD.Contains v = false := by rw [← hag]; exact hc
      obtain ⟨vB, cB, b1, b2, b3, -, b5, -⟩ := BFSComponent_spec hg v visB hwB hcl hv hc
      obtain ⟨vD, cD, d1, d2, d3, d4, d5, -⟩ := DFSComponent_spec hg v visD hwD hclD hv hcD
      have hstepB : ConnectedComponents.componentFrom g (visB, compsB) v =
          .ok (vB, compsB ++ [cB]) := by
        simp [ConnectedComponents.componentFrom, hc, b1]
      have hstepD : ConnectedComponents.componentFromDFS g (visD, compsD) v =
          .ok (vD, compsD ++ [cD]) := by
        simp [ConnectedComponents.componentFromDFS, hcD, d1]
      obtain ⟨sB', sD', e1, e2, e3, e4⟩ := ih (vB, compsB ++ [cB]) (vD, compsD ++ [cD]) hl'
        b2 d2
        (by
          intro a b he
          show vB.Contains a = true ↔ vB.Contains b = true
          rw [b3, b3, hcl a b he, b5, b5]
          have hba : g.HasEdge b a = true := by rw [hsym]; exact he
          constructor
          · rintro (h | h)
            · exact Or.inl h
            · exact Or.inr (h.tail he)
          · rintro (h | h)
            · exact Or.inl h
            · exact Or.inr (h.tail hba))
        (by
          intro x
          show vB.Contains x = vD.Contains x
          rw [Bool.eq_iff_iff, b3, d3, b5, d5, hag])
        (List.rel_append hrel (List.Forall₂.cons (fun x => by rw [b5, d5]) List.Forall₂.nil))
        (by
          intro d hd
          rcases List.mem_append.1 hd with h | h
          · exact hnd d h
          · have : d = cD := by simpa using h
            exact this ▸ d4)
      exact ⟨sB', sD', by simp only [foldlE, hstepB, e1], by simp only [foldlE, hstepD, e2],
        e3, e4⟩
    | true =>
      have hcD : visD.Contains v = true := by rw [← hag]; exact hc
      have hstepB : ConnectedComponents.componentFrom g (visB, compsB) v =
          .ok (visB, compsB) := by
        simp [ConnectedComponents.componentFrom, hc]
      have hstepD : ConnectedComponents.componentFromDFS g (visD, compsD) v =
          .ok (visD, compsD) := by
        simp [ConnectedComponents.componentFromDFS, hcD]
      obtain ⟨sB', sD', e1, e2, e3, e4⟩ := ih (visB, compsB) (visD, compsD) hl' hwB hwD hcl
        hag hrel hnd
      exact ⟨sB', sD', by simp only [foldlE, hstepB, e1], by simp only [foldlE, hstepD, e2],
        e3, e4⟩

end DfsComponentFacts

section DfsComponentClaim

variable {T W : Type} [LinearOrder T] [Inhabited W]

/-- Two lists related element by element are related at every position. -/
theorem forall2_get? {α β : Type} {R : α → β → Prop} {l₁ : List α} {l₂ : List β}
    (h : List.Forall₂ R l₁ l₂) :
    ∀ (i : Nat) (a : α) (b : β), l₁.get? i = some a → l₂.get? i = some b → R a b := by
  induction h with
  | nil => intro i a b ha; simp at ha
  | cons hab _ ih =>
    intro i a b ha hb
    cases i with
    | zero =>
      simp only [List.get?_cons_zero, Option.some.injEq] at ha hb
      rw [← ha, ← hb]; exact hab
    | succ i =>
      simp only [List.get?_cons_succ] at ha hb
      exact ih i a b ha hb

/-- C21: for an undirected graph `FindComponentsBFS` and `FindComponentsDFS` both
return, they return the same number of components, and the component at position `i`
of the one has the same members as the component at position `i` of the other; a
component of `FindComponentsDFS` lists each of its members once. -/
theorem C21_bfs_dfs_same_partition (ug : UndirectedGraph T W) (h : ug.Valid) :
    ∃ bfs dfs : List (List T),
      ConnectedComponents.FindComponentsBFS ug.toGraphBase = .ok bfs ∧
      ConnectedComponents.FindComponentsDFS ug.toGraphBase = .ok dfs ∧
      bfs.length = dfs.length ∧
      (∀ i c d, bfs.get? i = some c → dfs.get? i = some d → ∀ x, x ∈ c ↔ x ∈ d) ∧
      (∀ d, d ∈ dfs → d.Nodup) := by
  have hg := ug_valid_toGraphBase h
  have hsym : ∀ u v, ug.toGraphBase.HasEdge u v = ug.toGraphBase.HasEdge v u :=
    fun u v => ug_edge_symm h u v
  obtain ⟨sB, sD, h1, h2, h3, h4⟩ := components_fold_agree hg hsym
    ug.toGraphBase.GetAllVertices (Set.empty, []) (Set.empty, [])
    (fun v hv => (hg.mem_all v).1 hv) Set.set_wf_empty Set.set_wf_empty
    (fun x y _ => by simp [set_contains_empty]) (fun _ => rfl) List.Forall₂.nil
    (fun d hd => by cases hd)
  refine ⟨sB.2, sD.2, ?_, ?_, h3.length_eq, forall2_get? h3, h4⟩
  · simp only [ConnectedComponents.FindComponentsBFS, h1]
  · simp only [ConnectedComponents.FindComponentsDFS, h2]

/-- C21 at the undirected graph with the edges `1-2`, `1-3`, `2-4`, `5-6`: the
breadth-first components are `[1, 2, 3, 4]`, `[5, 6]`, the depth-first components are
`[1, 3, 2, 4]`, `[5, 6]`. -/
theorem C21_bfs_dfs_same_partition_witness :
    ∃ g : UndirectedGraph Nat Nat,
      UndirectedGraph.run UndirectedGraph.empty
        [.addEdge 1 2 1, .addEdge 1 3 1, .addEdge 2 4 1, .addEdge 5 6 1] = .ok g ∧
      g.Valid ∧
      ConnectedComponents.FindComponentsBFS g.toGraphBase = .ok [[1, 2, 3, 4], [5, 6]] ∧
      ConnectedComponents.FindComponentsDFS g.toGraphBase = .ok [[1, 3, 2, 4], [5, 6]] ∧
      ∃ bfs dfs : List (List Nat),
        ConnectedComponents.FindComponentsBFS g.toGraphBase = .ok bfs ∧
        ConnectedComponents.FindComponentsDFS g.toGraphBase = .ok dfs ∧
        bfs.length = dfs.length ∧
        (∀ i c d, bfs.get? i = some c → dfs.get? i = some d → ∀ x, x ∈ c ↔ x ∈ d) ∧
        (∀ d, d ∈ dfs → d.Nodup) := by
  obtain ⟨g, hg⟩ : ∃ g : UndirectedGraph Nat Nat,
      UndirectedGraph.run UndirectedGraph.empty
        [.addEdge 1 2 1, .addEdge 1 3 1, .addEdge 2 4 1, .addEdge 5 6 1] = .ok g :=
    ⟨_, rfl⟩
  have hv : g.Valid := ug_run_valid _ _ g ug_valid_empty hg
  have hb : (UndirectedGraph.run UndirectedGraph.empty
        [.addEdge 1 2 1, .addEdge 1 3 1, .addEdge 2 4 1, .addEdge 5 6 1]).map
      (fun g : UndirectedGraph Nat Nat =>
        ConnectedComponents.FindComponentsBFS g.toGraphBase) =
      .ok (.ok [[1, 2, 3, 4], [5, 6]]) := by decide
  have hd : (UndirectedGraph.run UndirectedGraph.empty
        [.addEdge 1 2 1, .addEdge 1 3 1, .addEdge 2 4 1, .addEdge 5 6 1]).map
      (fun g : UndirectedGraph Nat Nat =>
        ConnectedComponents.FindComponentsDFS g.toGraphBase) =
      .ok (.ok [[1, 3, 2, 4], [5, 6]]) := by decide
  rw [hg] at hb hd
  exact ⟨g, hg, hv, by simpa [Except.map] using hb, by simpa [Except.map] using hd,
    C21_bfs_dfs_same_partition g hv⟩

end DfsComponentClaim

/-! ## PartialOrder: reachability -/

section ReachFacts

variable {T W : Type} [LinearOrder T]

theorem reachVisit_eq : (PartialOrder.reachVisit : Set T × Queue T → T → Set T × Queue T) =
    ConnectedComponents.bfsVisit := rfl

/-- The loop of `GetReachableVertices` is the loop of `BFSComponent` without the
component. -/
theorem reachLoop_eq_bfsLoop (g : GraphBase T W) :
    ∀ (fuel : Nat) (s : ConnectedComponents.BfsState T),
      PartialOrder.reachLoop g fuel (s.visited, s.queue) =
        (ConnectedComponents.bfsLoop g fuel s).map (fun s' => s'.visited) := by
  intro fuel
  induction fuel with
  | zero => intro s; rfl
  | succ fuel ih =>
    intro s
    simp only [PartialOrder.reachLoop, ConnectedComponents.bfsLoop]
    cases hq : s.queue.IsEmpty
    · simp only [Bool.false_eq_true, if_false]
      cases hd : s.queue.Dequeue with
      | error e => rfl
      | ok cq =>
        obtain ⟨current, queue⟩ := cq
        simp only
        cases ha : g.GetAdjacentVertices current with
        | error e => rfl
        | ok adj =>
          simp only [reachVisit_eq]
          exact ih { queue := (adj.foldl ConnectedComponents.bfsVisit (s.visited, queue)).2
                     visited := (adj.foldl ConnectedComponents.bfsVisit (s.visited, queue)).1
                     component := s.component ++ [current] }
    · simp only [if_true]
      rfl

theorem connected_source {g : GraphBase T W} (hg : g.Valid) {a b : T}
    (h : g.Connected a b) : a = b ∨ g.HasVertex a = true := by
  rcases Relation.ReflTransGen.cases_head h with h1 | ⟨c, h1, -⟩
  · exact Or.inl h1
  · exact Or.inr (hg.edge_left a c h1)

theorem connected_target {g : GraphBase T W} (hg : g.Valid) {a b : T}
    (h : g.Connected a b) : a = b ∨ g.HasVertex b = true := by
  rcases Relation.ReflTransGen.cases_tail h with h1 | ⟨c, -, h1⟩
  · exact Or.inl h1.symm
  · exact Or.inr (hg.edge_right c b h1)

/-- The set that `GetReachableVertices` returns: the vertices reached from `start` by
zero or more edges when `start` is a vertex, the empty set otherwise. -/
theorem getReachableVertices_spec {g : GraphBase T W} (hg : g.Valid) (start : T) :
    ∃ r, PartialOrder.GetReachableVertices g start = .ok r ∧ r.WF ∧
      ∀ x, r.Contains x = true ↔ (g.HasVertex start = true ∧ g.Connected start x) := by
  cases hs : g.HasVertex start with
  | false =>
    refine ⟨Set.empty, by simp [PartialOrder.GetReachableVertices, hs], Set.set_wf_empty, ?_⟩
    intro x
    simp [set_contains_empty]
  | true =>
    obtain ⟨vis, comp, h1, h2, h3, -, h5, -⟩ := BFSComponent_spec hg start Set.empty
      Set.set_wf_empty (fun x y _ => by simp [set_contains_empty]) hs rfl
    refine ⟨vis, ?_, h2, ?_⟩
    · have := reachLoop_eq_bfsLoop g (g.GetAllVertices.length + 1)
        { queue := Queue.empty.Enqueue start
          visited := Set.empty.Add start
          component := [] }
      simp only [PartialOrder.GetReachableVertices, hs, Bool.not_true, Bool.false_eq_true,
        if_false]
      rw [this]
      simp only [ConnectedComponents.BFSComponent] at h1
      cases hl : ConnectedComponents.bfsLoop g (g.GetAllVertices.length + 1)
          { queue := Queue.empty.Enqueue start
            visited := Set.empty.Add start
            component := [] } with
      | error e => rw [hl] at h1; cases h1
      | ok s =>
        rw [hl] at h1
        simp only [Except.ok.injEq, Prod.mk.injEq] at h1
        simp only [Except.map, h1.1]
    · intro x
      rw [h3, h5]
      simp [set_contains_empty]

/-- The result of `IsLessOrEqual`: `a = b` or `b` is reached from `a`. -/
theorem isLessOrEqual_spec {g : GraphBase T W} (hg : g.Valid) (a b : T) :
    ∃ r, PartialOrder.IsLessOrEqual g a b = .ok r ∧ (r = true ↔ g.Connected a b) := by
  by_cases hab : a = b
  · subst hab
    exact ⟨true, by simp [PartialOrder.IsLessOrEqual], by simp [GraphBase.Connected,
      Relation.ReflTransGen.refl]⟩
  · obtain ⟨r, h1, -, h3⟩ := getReachableVertices_spec hg a
    refine ⟨r.Contains b, by simp [PartialOrder.IsLessOrEqual, hab, h1], ?_⟩
    rw [h3]
    constructor
    · exact fun h => h.2
    · intro h
      rcases connected_source hg h with h' | h'
      · exact absurd h' hab
      · exact ⟨h', h⟩

/-- In a graph without a directed cycle two vertices that reach each other are equal. -/
theorem connected_antisymm {g : GraphBase T W} (hac : ¬ g.HasCycle) {a b : T}
    (h1 : g.Connected a b) (h2 : g.Connected b a) : a = b := by
  by_contra hne
  rcases Relation.reflTransGen_iff_eq_or_transGen.1 h1 with h | h
  · exact hne h.symm
  · exact hac ⟨a, Relation.TransGen.trans_left h h2⟩

theorem reaches_ne {g : GraphBase T W} (hac : ¬ g.HasCycle) {a b : T}
    (h : g.Reaches a b) : a ≠ b := by
  rintro rfl
  exact hac ⟨a, h⟩

theorem reaches_iff_connected_ne {g : GraphBase T W} (hac : ¬ g.HasCycle) (a b : T) :
    g.Reaches a b ↔ (g.Connected a b ∧ a ≠ b) := by
  constructor
  · intro h
    exact ⟨Relation.TransGen.to_reflTransGen h, reaches_ne hac h⟩
  · rintro ⟨h, hne⟩
    rcases Relation.reflTransGen_iff_eq_or_transGen.1 h with h' | h'
    · exact absurd h'.symm hne
    · exact h'

end ReachFacts

/-! ## PartialOrder: `IsPartialOrder` -/

section PartialOrderFacts

variable {T W : Type} [LinearOrder T]

/-- A checking loop whose checks do not throw returns whether all elements pass. -/
theorem allE_spec {α : Type} (check : α → Except Error Bool) (P : α → Prop) :
    ∀ l : List α, (∀ x, x ∈ l → ∃ b, check x = .ok b ∧ (b = true ↔ P x)) →
      ∃ b, allE check l = .ok b ∧ (b = true ↔ ∀ x, x ∈ l → P x) := by
  intro l
  induction l with
  | nil => intro _; exact ⟨true, rfl, by simp⟩
  | cons a l ih =>
    intro h
    obtain ⟨b, hb, hP⟩ := h a (List.mem_cons_self _ _)
    cases b with
    | false =>
      refine ⟨false, by simp [allE, hb], ?_⟩
      simp only [Bool.false_eq_true, false_iff]
      intro hall
      have := hP.2 (hall a (List.mem_cons_self _ _))
      cases this
    | true =>
      obtain ⟨b', hb', hP'⟩ := ih (fun x hx => h x (List.mem_cons_of_mem _ hx))
      refine ⟨b', by simp [allE, hb, hb'], ?_⟩
      rw [hP']
      constructor
      · intro hall x hx
        rcases List.mem_cons.1 hx with rfl | hx
        · exact hP.1 rfl
        · exact hall x hx
      · intro hall x hx
        exact hall x (List.mem_cons_of_mem _ hx)

/-- A searching loop whose checks do not throw returns whether some element passes. -/
theorem anyE_spec {α : Type} (check : α → Except Error Bool) (P : α → Prop) :
    ∀ l : List α, (∀ x, x ∈ l → ∃ b, check x = .ok b ∧ (b = true ↔ P x)) →
      ∃ b, anyE check l = .ok b ∧ (b = true ↔ ∃ x, x ∈ l ∧ P x) := by
  intro l
  induction l with
  | nil => intro _; exact ⟨false, rfl, by simp⟩
  | cons a l ih =>
    intro h
    obtain ⟨b, hb, hP⟩ := h a (List.mem_cons_self _ _)
    cases b with
    | true =>
      refine ⟨true, by simp [anyE, hb], ?_⟩
      simp only [true_iff]
      exact ⟨a, List.mem_cons_self _ _, hP.1 rfl⟩
    | false =>
      obtain ⟨b', hb', hP'⟩ := ih (fun x hx => h x (List.mem_cons_of_mem _ hx))
      refine ⟨b', by simp [anyE, hb, hb'], ?_⟩
      rw [hP']
      constructor
      · rintro ⟨x, hx, hpx⟩
        exact ⟨x, List.mem_cons_of_mem _ hx, hpx⟩
      · rintro ⟨x, hx, hpx⟩
        rcases List.mem_cons.1 hx with rfl | hx
        · have := hP.2 hpx
          cases this
        · exact ⟨x, hx, hpx⟩

/-- The result of `CheckAntisymmetry`: no edge has a reverse edge (a self-loop is its
own reverse edge). -/
theorem checkAntisymmetry_spec {g : GraphBase T W} (hg : g.Valid) :
    ∃ b, PartialOrder.CheckAntisymmetry g = .ok b ∧
      (b = true ↔ ∀ u v, g.HasEdge u v = true → g.HasEdge v u = false) := by
  obtain ⟨b, h1, h2⟩ := allE_spec
    (fun u =>
      match g.GetAdjacentVertices u with
      | .error e => .error e
      | .ok adj => .ok (adj.all fun v => !g.HasEdge v u))
    (fun u => ∀ v, g.HasEdge u v = true → g.HasEdge v u = false) g.GetAllVertices
    (by
      intro u hu
      obtain ⟨adj, ha, -, hm⟩ := hg.adj_ok u ((hg.mem_all u).1 hu)
      refine ⟨adj.all fun v => !g.HasEdge v u, by simp only [ha], ?_⟩
      simp only [List.all_eq_true, Bool.not_eq_true', hm])
  refine ⟨b, h1, ?_⟩
  rw [h2]
  constructor
  · intro h u v he
    exact h u ((hg.mem_all u).2 (hg.edge_left u v he)) v he
  · intro h u _ v he
    exact h u v he

/-- The result of `IsPartialOrder`: the graph has no directed cycle. -/
theorem isPartialOrder_spec {g : GraphBase T W} (hg : g.Valid) :
    ∃ b, PartialOrder.IsPartialOrder g = .ok b ∧ (b = true ↔ ¬ g.HasCycle) := by
  obtain ⟨b, h1, h2⟩ := checkAntisymmetry_spec hg
  cases b with
  | false =>
    refine ⟨false, by simp [PartialOrder.IsPartialOrder, h1], ?_⟩
    simp only [Bool.false_eq_true, false_iff, not_not]
    by_contra hac
    have : (false = true) := h2.2 (by
      intro u v he
      cases hr : g.HasEdge v u
      · rfl
      · exact absurd ⟨u, Relation.TransGen.tail (Relation.TransGen.single he) hr⟩ hac)
    cases this
  | true =>
    rcases kahnSort_spec hg with ⟨order, k1, k2⟩ | ⟨k1, hc⟩
    · exact ⟨true, by simp [PartialOrder.IsPartialOrder, h1, k1],
        by simp [no_cycle_of_isTopologicalOrder k2]⟩
    · exact ⟨false, by simp [PartialOrder.IsPartialOrder, h1, k1], by simp [hc]⟩

theorem isPartialOrder_acyclic {g : GraphBase T W} (hg : g.Valid)
    (h : PartialOrder.IsPartialOrder g = .ok true) : ¬ g.HasCycle := by
  obtain ⟨b, h1, h2⟩ := isPartialOrder_spec hg
  rw [h] at h1
  simp only [Except.ok.injEq] at h1
  exact h2.1 h1.symm

theorem isPartialOrder_of_acyclic {g : GraphBase T W} (hg : g.Valid)
    (h : ¬ g.HasCycle) : PartialOrder.IsPartialOrder g = .ok true := by
  obtain ⟨b, h1, h2⟩ := isPartialOrder_spec hg
  rw [h1, h2.2 h]

theorem isPartialOrder_cases {g : GraphBase T W} (hg : g.Valid) :
    (PartialOrder.IsPartialOrder g = .ok true ∧ ¬ g.HasCycle) ∨
    (PartialOrder.IsPartialOrder g = .ok false ∧ g.HasCycle) := by
  by_cases h : g.HasCycle
  · right
    obtain ⟨b, h1, h2⟩ := isPartialOrder_spec hg
    cases b with
    | true => exact absurd h (h2.1 rfl)
    | false => exact ⟨h1, h⟩
  · exact Or.inl ⟨isPartialOrder_of_acyclic hg h, h⟩

end PartialOrderFacts

section PartialOrderClaim

variable {T W : Type} [LinearOrder T] [Inhabited W]

/-- The result of `IsPartialOrder` on an object that satisfies the invariants of the
data model: true iff no two distinct vertices have edges in both directions and the
graph has no directed cycle. -/
theorem isPartialOrder_iff_of_valid (dg : DirectedGraph T W) (h : dg.Valid) :
    ∃ b, PartialOrder.IsPartialOrder dg.toGraphBase = .ok b ∧
      (b = true ↔
        ((∀ u v, u ≠ v → ¬ (dg.HasEdge u v = true ∧ dg.HasEdge v u = true)) ∧
          ¬ dg.toGraphBase.HasCycle)) := by
  obtain ⟨b, h1, h2⟩ := isPartialOrder_spec (dg_valid_toGraphBase h)
  refine ⟨b, h1, ?_⟩
  rw [h2]
  constructor
  · intro hac
    refine ⟨?_, hac⟩
    rintro u v - ⟨he1, he2⟩
    exact hac ⟨u, Relation.TransGen.tail (Relation.TransGen.single he1) he2⟩
  · exact fun hh => hh.2

end PartialOrderClaim

/-! ## PartialOrder: minimal and maximal elements -/

section ExtremalFacts

variable {T W : Type} [LinearOrder T]

/-- In a relation without cycles whose sources lie in a finite set, below every
element of a class there is a minimal element of the class. -/
theorem exists_minimal_of_finite {α : Type} (r : α → α → Prop) (V : Finset α)
    (hV : ∀ a b, r a b → a ∈ V) (hirr : ∀ a, ¬ Relation.TransGen r a a)
    (S : α → Prop) (y : α) (hy : S y) :
    ∃ z, S z ∧ Relation.ReflTransGen r z y ∧ ∀ w, S w → ¬ Relation.TransGen r w z := by
  classical
  have key : ∀ (n : Nat) (y : α), S y →
      (V.filter (fun v => Relation.TransGen r v y)).card = n →
      ∃ z, S z ∧ Relation.ReflTransGen r z y ∧ ∀ w, S w → ¬ Relation.TransGen r w z := by
    intro n
    induction n using Nat.strong_induction_on with
    | _ n ih =>
      intro y hy hn
      by_cases hmin : ∀ w, S w → ¬ Relation.TransGen r w y
      · exact ⟨y, hy, Relation.ReflTransGen.refl, hmin⟩
      · push_neg at hmin
        obtain ⟨w, hw, hwy⟩ := hmin
        have hwV : w ∈ V := by
          obtain ⟨c, hc, -⟩ := Relation.TransGen.head'_iff.1 hwy
          exact hV w c hc
        have hsub : V.filter (fun v => Relation.TransGen r v w) ⊆
            V.filter (fun v => Relation.TransGen r v y) := by
          intro v hv
          simp only [Finset.mem_filter] at hv ⊢
          exact ⟨hv.1, hv.2.trans hwy⟩
        have hlt : (V.filter (fun v => Relation.TransGen r v w)).card < n := by
          rw [← hn]
          apply Finset.card_lt_card
          rw [Finset.ssubset_iff_of_subset hsub]
          exact ⟨w, by simp [hwV, hwy], by simp [hirr w]⟩
        obtain ⟨z, hz, hzw, hzmin⟩ := ih _ hlt w hw rfl
        exact ⟨z, hz, hzw.trans hwy.to_reflTransGen, hzmin⟩
  exact key _ y hy rfl

/-- In a graph without a directed cycle, below every element of a class of vertices
there is a minimal element of the class. -/
theorem exists_minimal_below {g : GraphBase T W} (hg : g.Valid) (hac : ¬ g.HasCycle)
    (S : T → Prop) (y : T) (hy : S y) :
    ∃ z, S z ∧ g.Connected z y ∧ ∀ w, S w → ¬ g.Reaches w z :=
  exists_minimal_of_finite g.Edge g.GetAllVertices.toFinset
    (fun a b hab => List.mem_toFinset.2 ((hg.mem_all a).2 (hg.edge_left a b hab)))
    (fun a ha => hac ⟨a, ha⟩) S y hy

/-- In a graph without a directed cycle, above every element of a class of vertices
there is a maximal element of the class. -/
theorem exists_maximal_above {g : GraphBase T W} (hg : g.Valid) (hac : ¬ g.HasCycle)
    (S : T → Prop) (y : T) (hy : S y) :
    ∃ z, S z ∧ g.Connected y z ∧ ∀ w, S w → ¬ g.Reaches z w := by
  obtain ⟨z, h1, h2, h3⟩ := exists_minimal_of_finite (Function.swap g.Edge)
    g.GetAllVertices.toFinset
    (fun a b hab => List.mem_toFinset.2 ((hg.mem_all a).2 (hg.edge_right b a hab)))
    (fun a ha => hac ⟨a, Relation.transGen_swap.1 ha⟩) S y hy
  exact ⟨z, h1, Relation.reflTransGen_swap.1 h2,
    fun w hw hzw => h3 w hw (Relation.transGen_swap.2 hzw)⟩

/-- A loop that appends the elements that pass a test collects the filtered list. -/
theorem foldl_append_if {α : Type} (p : α → Bool) (l : List α) :
    ∀ acc : List α,
      l.foldl (fun acc x => if p x = true then acc ++ [x] else acc) acc = acc ++ l.filter p := by
  induction l with
  | nil => intro acc; simp
  | cons a l ih =>
    intro acc
    simp only [List.foldl_cons, ih, List.filter_cons]
    cases p a <;> simp

theorem isMinimal_iff {g : GraphBase T W} (hg : g.Valid) (hac : ¬ g.HasCycle) (x : T) :
    g.IsMinimal x ↔
      (g.HasVertex x = true ∧ ∀ o, o ∈ g.GetAllVertices → ¬ (o ≠ x ∧ g.HasEdge o x = true)) := by
  constructor
  · rintro ⟨hv, hmin⟩
    exact ⟨hv, fun o _ ho => hmin o ho.1 (Relation.TransGen.single ho.2)⟩
  · rintro ⟨hv, hmin⟩
    refine ⟨hv, ?_⟩
    intro u _ hux
    obtain ⟨c, -, hcx⟩ := Relation.TransGen.tail'_iff.1 hux
    have hne : c ≠ x := by
      rintro rfl
      exact hac ⟨c, Relation.TransGen.single hcx⟩
    exact hmin c ((hg.mem_all c).2 (hg.edge_left c x hcx)) ⟨hne, hcx⟩

theorem isMaximal_iff {g : GraphBase T W} (hg : g.Valid) (hac : ¬ g.HasCycle) (x : T) :
    g.IsMaximal x ↔
      (g.HasVertex x = true ∧ ∀ o, o ∈ g.GetAllVertices → ¬ (o ≠ x ∧ g.HasEdge x o = true)) := by
  constructor
  · rintro ⟨hv, hmax⟩
    exact ⟨hv, fun o _ ho => hmax o ho.1 (Relation.TransGen.single ho.2)⟩
  · rintro ⟨hv, hmax⟩
    refine ⟨hv, ?_⟩
    intro u _ hxu
    obtain ⟨c, hxc, -⟩ := Relation.TransGen.head'_iff.1 hxu
    have hne : c ≠ x := by
      rintro rfl
      exact hac ⟨c, Relation.TransGen.single hxc⟩
    exact hmax c ((hg.mem_all c).2 (hg.edge_right x c hxc)) ⟨hne, hxc⟩

/-- The result of `FindMinimalElements` on a graph that `IsPartialOrder` accepts: the
minimal elements, each once, in the order of `GetAllVertices`. -/
theorem findMinimalElements_spec {g : GraphBase T W} (hg : g.Valid)
    (hpo : PartialOrder.IsPartialOrder g = .ok true) :
    ∃ mins, PartialOrder.FindMinimalElements g = .ok mins ∧ mins.Nodup ∧
      (∀ x, x ∈ mins ↔ g.IsMinimal x) ∧
      mins = g.GetAllVertices.filter (fun vertex =>
        g.GetAllVertices.all (fun other => !(decide (other ≠ vertex) && g.HasEdge other vertex)))
      := by
  have hac := isPartialOrder_acyclic hg hpo
  refine ⟨_, ?_, ?_, ?_, rfl⟩
  · simp only [PartialOrder.FindMinimalElements, hpo]
    unfold PartialOrder.minimalCandidate
    rw [foldl_append_if]
    rfl
  · exact hg.all_nodup.filter _
  · intro x
    rw [isMinimal_iff hg hac, List.mem_filter, hg.mem_all]
    simp only [List.all_eq_true, Bool.not_eq_true', Bool.and_eq_false_imp, decide_eq_true_eq,
      ne_eq, not_and, Bool.not_eq_true]

/-- The result of `FindMaximalElements` on a graph that `IsPartialOrder` accepts: the
maximal elements, each once, in the order of `GetAllVertices`. -/
theorem findMaximalElements_spec {g : GraphBase T W} (hg : g.Valid)
    (hpo : PartialOrder.IsPartialOrder g = .ok true) :
    ∃ maxs, PartialOrder.FindMaximalElements g = .ok maxs ∧ maxs.Nodup ∧
      (∀ x, x ∈ maxs ↔ g.IsMaximal x) ∧
      maxs = g.GetAllVertices.filter (fun vertex =>
        g.GetAllVertices.all (fun other => !(decide (other ≠ vertex) && g.HasEdge vertex other)))
      := by
  have hac := isPartialOrder_acyclic hg hpo
  refine ⟨_, ?_, ?_, ?_, rfl⟩
  · simp only [PartialOrder.FindMaximalElements, hpo]
    unfold PartialOrder.maximalCandidate
    rw [foldl_append_if]
    rfl
  · exact hg.all_nodup.filter _
  · intro x
    rw [isMaximal_iff hg hac, List.mem_filter, hg.mem_all]
    simp only [List.all_eq_true, Bool.not_eq_true', Bool.and_eq_false_imp, decide_eq_true_eq,
      ne_eq, not_and, Bool.not_eq_true]

/-- A list without repetition has one element iff exactly one value is a member. -/
theorem length_eq_one_iff_unique {α : Type} {l : List α} (hn : l.Nodup) (P : α → Prop)
    (hP : ∀ x, x ∈ l ↔ P x) : l.length = 1 ↔ ∃! m, P m := by
  constructor
  · intro hl
    obtain ⟨m, rfl⟩ := List.length_eq_one.1 hl
    exact ⟨m, (hP m).1 (List.mem_singleton_self m),
      fun y hy => List.mem_singleton.1 ((hP y).2 hy)⟩
  · rintro ⟨m, hm, huniq⟩
    match l, hn, hP with
    | [], _, hP => exact absurd ((hP m).2 hm) (List.not_mem_nil m)
    | [_], _, _ => rfl
    | a :: b :: l, hn, hP =>
      have ha := huniq a ((hP a).1 (List.mem_cons_self _ _))
      have hb := huniq b ((hP b).1 (List.mem_cons_of_mem _ (List.mem_cons_self _ _)))
      rw [List.nodup_cons] at hn
      exact absurd (by rw [ha, hb]; exact List.mem_cons_self _ _) hn.1

end ExtremalFacts

section ExtremalClaims

variable {T W : Type} [LinearOrder T] [Inhabited W]

/-- The results of `FindMinimalElements` and `FindMaximalElements` on an object that
satisfies the invariants of the data model. -/
theorem minimal_maximal_of_valid (dg : DirectedGraph T W) (h : dg.Valid) :
    (PartialOrder.IsPartialOrder dg.toGraphBase = .ok true →
      ∃ mins maxs : List T,
        PartialOrder.FindMinimalElements dg.toGraphBase = .ok mins ∧
        PartialOrder.FindMaximalElements dg.toGraphBase = .ok maxs ∧
        (∀ x, x ∈ mins ↔
          (dg.HasVertex x = true ∧ ∀ u, u ≠ x → ¬ dg.toGraphBase.Reaches u x)) ∧
        (∀ x, x ∈ maxs ↔
          (dg.HasVertex x = true ∧ ∀ u, u ≠ x → ¬ dg.toGraphBase.Reaches x u)) ∧
        mins.Nodup ∧ maxs.Nodup) ∧
    (PartialOrder.IsPartialOrder dg.toGraphBase = .ok false →
      PartialOrder.FindMinimalElements dg.toGraphBase = .error .notPartialOrder ∧
      PartialOrder.FindMaximalElements dg.toGraphBase = .error .notPartialOrder) := by
  have hg := dg_valid_toGraphBase h
  constructor
  · intro hpo
    obtain ⟨mins, m1, m2, m3, -⟩ := findMinimalElements_spec hg hpo
    obtain ⟨maxs, x1, x2, x3, -⟩ := findMaximalElements_spec hg hpo
    exact ⟨mins, maxs, m1, x1, m3, x3, m2, x2⟩
  · intro hpo
    simp only [PartialOrder.FindMinimalElements, PartialOrder.FindMaximalElements, hpo,
      and_self]

end ExtremalClaims

/-! ## PartialOrder: infimum and supremum -/

section SubsetFacts

variable {T W : Type} [LinearOrder T]

theorem allE_pure {α : Type} (check : α → Except Error Bool) (p : α → Bool) :
    ∀ l : List α, (∀ x, x ∈ l → check x = .ok (p x)) → allE check l = .ok (l.all p) := by
  intro l
  induction l with
  | nil => intro _; rfl
  | cons a l ih =>
    intro h
    have ha := h a (List.mem_cons_self _ _)
    have hl := ih (fun x hx => h x (List.mem_cons_of_mem _ hx))
    cases hp : p a <;> simp [allE, ha, hp, hl]

theorem anyE_pure {α : Type} (check : α → Except Error Bool) (p : α → Bool) :
    ∀ l : List α, (∀ x, x ∈ l → check x = .ok (p x)) → anyE check l = .ok (l.any p) := by
  intro l
  induction l with
  | nil => intro _; rfl
  | cons a l ih =>
    intro h
    have ha := h a (List.mem_cons_self _ _)
    have hl := ih (fun x hx => h x (List.mem_cons_of_mem _ hx))
    cases hp : p a <;> simp [anyE, ha, hp, hl]

/-- A loop with a step that may throw, and that appends the elements that pass a test,
collects the filtered list. -/
theorem foldlE_append_if {α : Type} (step : List α → α → Except Error (List α))
    (p : α → Bool)
    (hstep : ∀ acc x, step acc x = .ok (if p x = true then acc ++ [x] else acc)) :
    ∀ (l acc : List α), foldlE step acc l = .ok (acc ++ l.filter p) := by
  intro l
  induction l with
  | nil => intro acc; simp [foldlE]
  | cons a l ih =>
    intro acc
    simp only [foldlE, hstep, ih, List.filter_cons]
    cases p a <;> simp

theorem filter_snoc {α : Type} (p : α → Bool) (l : List α) (x : α) :
    (l ++ [x]).filter p = if p x = true then l.filter p ++ [x] else l.filter p := by
  rw [List.filter_append, List.filter_cons, List.filter_nil]
  cases p x <;> simp

theorem andE_ok (a b : Bool) : andE (.ok a) (.ok b) = .ok (a && b) := by
  cases a <;> rfl

variable {g : GraphBase T W} (leB : T → T → Bool)
  (hle : ∀ a b, PartialOrder.IsLessOrEqual g a b = .ok (leB a b))

include hle

theorem isMaximalIn_eq (subset : List T) (c : T) :
    PartialOrder.isMaximalIn g subset c =
      .ok (subset.all (fun o => !(decide (c ≠ o) && (leB c o && !leB o c)))) := by
  unfold PartialOrder.isMaximalIn
  apply allE_pure
  intro o _
  by_cases hco : c = o
  · simp [hco]
  · simp [hco, hle, andE_ok, Except.map]

theorem isMinimalIn_eq (subset : List T) (c : T) :
    PartialOrder.isMinimalIn g subset c =
      .ok (subset.all (fun o => !(decide (c ≠ o) && (leB o c && !leB c o)))) := by
  unfold PartialOrder.isMinimalIn
  apply allE_pure
  intro o _
  by_cases hco : c = o
  · simp [hco]
  · simp [hco, hle, andE_ok, Except.map]

theorem alreadyAdded_eq (result : List T) (c : T) :
    PartialOrder.alreadyAdded g result c =
      .ok (result.any (fun r => leB r c && leB c r)) := by
  unfold PartialOrder.alreadyAdded
  apply anyE_pure
  intro r _
  simp [hle, andE_ok]

variable (hac : ¬ g.HasCycle) (hiff : ∀ a b, leB a b = true ↔ g.Connected a b)

include hac hiff

/-- On a sequence without repetition `FindMaximalElementsInSubset` returns the elements
that lie below no other element of the sequence. -/
theorem findMaximalInSubset_spec (subset : List T) (hn : subset.Nodup) :
    PartialOrder.FindMaximalElementsInSubset g subset =
      .ok (subset.filter (fun c => subset.all (fun o => !(decide (c ≠ o) && leB c o)))) := by
  have hanti : ∀ a b, leB a b = true → leB b a = true → a = b :=
    fun a b h1 h2 => connected_antisymm hac ((hiff a b).1 h1) ((hiff b a).1 h2)
  obtain ⟨r, h1, h2⟩ := foldlE_prefix_invariant
    (fun pre result => result =
      pre.filter (fun c => subset.all (fun o => !(decide (c ≠ o) && leB c o))))
    (PartialOrder.maximalStep g subset) subset
    (by
      intro pre x suf result hl hres
      have hmax : (subset.all (fun o => !(decide (x ≠ o) && (leB x o && !leB o x)))) =
          (subset.all (fun o => !(decide (x ≠ o) && leB x o))) := by
        apply congrArg
        funext o
        by_cases hxo : x = o
        · simp [hxo]
        · cases h1 : leB x o
          · simp
          · cases h2 : leB o x
            · simp
            · exact absurd (hanti x o h1 h2) hxo
      have hxpre : x ∉ pre := by
        intro hx
        rw [hl] at hn
        have := (List.nodup_append.1 hn).2.2 hx (List.mem_cons_self _ _)
        exact this
      have hadded : (result.any (fun r => leB r x && leB x r)) = false := by
        rw [List.any_eq_false]
        intro r hr
        rw [hres] at hr
        have hrpre := (List.mem_filter.1 hr).1
        intro hb
        simp only [Bool.and_eq_true] at hb
        have := hanti r x hb.1 hb.2
        exact hxpre (this ▸ hrpre)
      cases hm : subset.all (fun o => !(decide (x ≠ o) && leB x o))
      · refine ⟨result, ?_, ?_⟩
        · simp only [PartialOrder.maximalStep, isMaximalIn_eq leB hle, hmax, hm]
        · show _ = List.filter _ (pre ++ [x])
          rw [filter_snoc, hres]
          simp only [hm, Bool.false_eq_true, if_false, if_true]
      · refine ⟨result ++ [x], ?_, ?_⟩
        · simp only [PartialOrder.maximalStep, isMaximalIn_eq leB hle, hmax, hm,
            alreadyAdded_eq leB hle, hadded]
        · show _ = List.filter _ (pre ++ [x])
          rw [filter_snoc, hres]
          simp only [hm, Bool.false_eq_true, if_false, if_true])
    [] rfl
  rw [PartialOrder.FindMaximalElementsInSubset, h1, h2]

/-- On a sequence without repetition `FindMinimalElementsInSubset` returns the elements
that lie above no other element of the sequence. -/
theorem findMinimalInSubset_spec (subset : List T) (hn : subset.Nodup) :
    PartialOrder.FindMinimalElementsInSubset g subset =
      .ok (subset.filter (fun c => subset.all (fun o => !(decide (c ≠ o) && leB o c)))) := by
  have hanti : ∀ a b, leB a b = true → leB b a = true → a = b :=
    fun a b h1 h2 => connected_antisymm hac ((hiff a b).1 h1) ((hiff b a).1 h2)
  obtain ⟨r, h1, h2⟩ := foldlE_prefix_invariant
    (fun pre result => result =
      pre.filter (fun c => subset.all (fun o => !(decide (c ≠ o) && leB o c))))
    (PartialOrder.minimalStep g subset) subset
    (by
      intro pre x suf result hl hres
      have hmin : (subset.all (fun o => !(decide (x ≠ o) && (leB o x && !leB x o)))) =
          (subset.all (fun o => !(decide (x ≠ o) && leB o x))) := by
        apply congrArg
        funext o
        by_cases hxo : x = o
        · simp [hxo]
        · cases h1 : leB o x
          · simp
          · cases h2 : leB x o
            · simp
            · exact absurd (hanti x o h2 h1) hxo
      have hxpre : x ∉ pre := by
        intro hx
        rw [hl] at hn
        have := (List.nodup_append.1 hn).2.2 hx (List.mem_cons_self _ _)
        exact this
      have hadded : (result.any (fun r => leB r x && leB x r)) = false := by
        rw [List.any_eq_false]
        intro r hr
        rw [hres] at hr
        have hrpre := (List.mem_filter.1 hr).1
        intro hb
        simp only [Bool.and_eq_true] at hb
        have := hanti r x hb.1 hb.2
        exact hxpre (this ▸ hrpre)
      cases hm : subset.all (fun o => !(decide (x ≠ o) && leB o x))
      · refine ⟨result, ?_, ?_⟩
        · simp only [PartialOrder.minimalStep, isMinimalIn_eq leB hle, hmin, hm]
        · show _ = List.filter _ (pre ++ [x])
          rw [filter_snoc, hres]
          simp only [hm, Bool.false_eq_true, if_false, if_true]
      · refine ⟨result ++ [x], ?_, ?_⟩
        · simp only [PartialOrder.minimalStep, isMinimalIn_eq leB hle, hmin, hm,
            alreadyAdded_eq leB hle, hadded]
        · show _ = List.filter _ (pre ++ [x])
          rw [filter_snoc, hres]
          simp only [hm, Bool.false_eq_true, if_false, if_true])
    [] rfl
  rw [PartialOrder.FindMinimalElementsInSubset, h1, h2]

end SubsetFacts

section BoundFacts

variable {T W : Type} [LinearOrder T]

theorem lowerBoundStep_ok (g : GraphBase T W) (a b : T) (acc : List T) (x : T) (r : Bool)
    (h : andE (PartialOrder.IsLessOrEqual g x a) (PartialOrder.IsLessOrEqual g x b) = .ok r) :
    PartialOrder.lowerBoundStep g a b acc x = .ok (if r = true then acc ++ [x] else acc) := by
  unfold PartialOrder.lowerBoundStep
  rw [h]
  cases r <;> rfl

theorem upperBoundStep_ok (g : GraphBase T W) (a b : T) (acc : List T) (x : T) (r : Bool)
    (h : andE (PartialOrder.IsLessOrEqual g a x) (PartialOrder.IsLessOrEqual g b x) = .ok r) :
    PartialOrder.upperBoundStep g a b acc x = .ok (if r = true then acc ++ [x] else acc) := by
  unfold PartialOrder.upperBoundStep
  rw [h]
  cases r <;> rfl

/-- The result of `FindInfimum` for two vertices of a graph without a directed cycle:
the maximal common lower bounds, each once. -/
theorem findInfimum_spec {g : GraphBase T W} (hg : g.Valid) (hac : ¬ g.HasCycle) (a b : T)
    (ha : g.HasVertex a = true) (hb : g.HasVertex b = true) :
    ∃ l, PartialOrder.FindInfimum g a b = .ok l ∧ l.Nodup ∧
      ∀ x, x ∈ l ↔ g.IsMaximalLowerBound a b x := by
  by_cases hab : a = b
  · subst hab
    refine ⟨[a], by simp [PartialOrder.FindInfimum, ha], List.nodup_singleton a, ?_⟩
    intro x
    rw [List.mem_singleton]
    constructor
    · rintro rfl
      refine ⟨Relation.ReflTransGen.refl, Relation.ReflTransGen.refl, ?_⟩
      intro y hy hya _ hxy
      exact hy (connected_antisymm hac hya hxy)
    · rintro ⟨hxa, -, hmax⟩
      by_contra hne
      exact hmax a (fun h => hne h.symm) Relation.ReflTransGen.refl Relation.ReflTransGen.refl
        hxa
  · choose leB hle hiff using isLessOrEqual_spec hg
    have hfold := foldlE_append_if (PartialOrder.lowerBoundStep g a b)
      (fun c => leB c a && leB c b)
      (fun acc x => lowerBoundStep_ok g a b acc x _ (by rw [hle, hle, andE_ok]))
      g.GetAllVertices []
    rw [List.nil_append] at hfold
    have hLBn : (g.GetAllVertices.filter (fun c => leB c a && leB c b)).Nodup :=
      hg.all_nodup.filter _
    have hmaxs := findMaximalInSubset_spec leB hle hac hiff _ hLBn
    have hres : PartialOrder.FindInfimum g a b = .ok
        ((g.GetAllVertices.filter (fun c => leB c a && leB c b)).filter
          (fun c => (g.GetAllVertices.filter (fun c => leB c a && leB c b)).all
            (fun o => !(decide (c ≠ o) && leB c o)))) := by
      simp only [PartialOrder.FindInfimum, ha, hb, Bool.not_true, Bool.or_self,
        Bool.false_eq_true, if_false, hab, hfold]
      split
      · rename_i h0
        rw [List.length_eq_zero.1 h0]
        rfl
      · exact hmaxs
    refine ⟨_, hres, hLBn.filter _, ?_⟩
    intro x
    simp only [List.mem_filter, hg.mem_all, Bool.and_eq_true, hiff, List.all_eq_true,
      Bool.not_eq_true', Bool.and_eq_false_imp, decide_eq_true_eq, ne_eq]
    constructor
    · rintro ⟨⟨-, hxa, hxb⟩, hmax⟩
      refine ⟨hxa, hxb, ?_⟩
      intro y hy hya hyb hxy
      have hyv : g.HasVertex y = true := by
        rcases connected_source hg hya with h | h
        · rw [h]; exact ha
        · exact h
      have := hmax y ⟨hyv, hya, hyb⟩ (fun h => hy h.symm)
      rw [← Bool.not_eq_true, hiff] at this
      exact this hxy
    · rintro ⟨hxa, hxb, hmax⟩
      have hxv : g.HasVertex x = true := by
        rcases connected_source hg hxa with h | h
        · rw [h]; exact ha
        · exact h
      refine ⟨⟨hxv, hxa, hxb⟩, ?_⟩
      rintro y ⟨-, hya, hyb⟩ hxy
      rw [← Bool.not_eq_true, hiff]
      exact hmax y (fun h => hxy h.symm) hya hyb

/-- The result of `FindSupremum` for two vertices of a graph without a directed cycle:
the minimal common upper bounds, each once. -/
theorem findSupremum_spec {g : GraphBase T W} (hg : g.Valid) (hac : ¬ g.HasCycle) (a b : T)
    (ha : g.HasVertex a = true) (hb : g.HasVertex b = true) :
    ∃ l, PartialOrder.FindSupremum g a b = .ok l ∧ l.Nodup ∧
      ∀ x, x ∈ l ↔ g.IsMinimalUpperBound a b x := by
  by_cases hab : a = b
  · subst hab
    refine ⟨[a], by simp [PartialOrder.FindSupremum, ha], List.nodup_singleton a, ?_⟩
    intro x
    rw [List.mem_singleton]
    constructor
    · rintro rfl
      refine ⟨Relation.ReflTransGen.refl, Relation.ReflTransGen.refl, ?_⟩
      intro y hy hay _ hyx
      exact hy (connected_antisymm hac hyx hay)
    · rintro ⟨hax, -, hmin⟩
      by_contra hne
      exact hmin a (fun h => hne h.symm) Relation.ReflTransGen.refl Relation.ReflTransGen.refl
        hax
  · choose leB hle hiff using isLessOrEqual_spec hg
    have hfold := foldlE_append_if (PartialOrder.upperBoundStep g a b)
      (fun c => leB a c && leB b c)
      (fun acc x => upperBoundStep_ok g a b acc x _ (by rw [hle, hle, andE_ok]))
      g.GetAllVertices []
    rw [List.nil_append] at hfold
    have hUBn : (g.GetAllVertices.filter (fun c => leB a c && leB b c)).Nodup :=
      hg.all_nodup.filter _
    have hmins := findMinimalInSubset_spec leB hle hac hiff _ hUBn
    have hres : PartialOrder.FindSupremum g a b = .ok
        ((g.GetAllVertices.filter (fun c => leB a c && leB b c)).filter
          (fun c => (g.GetAllVertices.filter (fun c => leB a c && leB b c)).all
            (fun o => !(decide (c ≠ o) && leB o c)))) := by
      simp only [PartialOrder.FindSupremum, ha, hb, Bool.not_true, Bool.or_self,
        Bool.false_eq_true, if_false, hab, hfold]
      split
      · rename_i h0
        rw [List.length_eq_zero.1 h0]
        rfl
      · exact hmins
    refine ⟨_, hres, hUBn.filter _, ?_⟩
    intro x
    simp only [List.mem_filter, hg.mem_all, Bool.and_eq_true, hiff, List.all_eq_true,
      Bool.not_eq_true', Bool.and_eq_false_imp, decide_eq_true_eq, ne_eq]
    constructor
    · rintro ⟨⟨-, hax, hbx⟩, hmin⟩
      refine ⟨hax, hbx, ?_⟩
      intro y hy hay hby hyx
      have hyv : g.HasVertex y = true := by
        rcases connected_target hg hay with h | h
        · rw [← h]; exact ha
        · exact h
      have := hmin y ⟨hyv, hay, hby⟩ (fun h => hy h.symm)
      rw [← Bool.not_eq_true, hiff] at this
      exact this hyx
    · rintro ⟨hax, hbx, hmin⟩
      have hxv : g.HasVertex x = true := by
        rcases connected_target hg hax with h | h
        · rw [← h]; exact ha
        · exact h
      refine ⟨⟨hxv, hax, hbx⟩, ?_⟩
      rintro y ⟨-, hay, hby⟩ hxy
      rw [← Bool.not_eq_true, hiff]
      exact hmin y (fun h => hxy h.symm) hay hby

theorem findInfimum_absent {g : GraphBase T W} (a b : T)
    (h : g.HasVertex a = false ∨ g.HasVertex b = false) :
    PartialOrder.FindInfimum g a b = .error .elementNotFound := by
  rcases h with h | h
  · simp [PartialOrder.FindInfimum, h]
  · simp [PartialOrder.FindInfimum, h]

end BoundFacts

section BoundClaim

variable {T W : Type} [LinearOrder T] [Inhabited W]

/-- The result of `FindInfimum` on an object that satisfies the invariants of the data
model and has no directed cycle: the maximal common lower bounds, each once; the call
throws iff one of the two elements is no vertex. -/
theorem findInfimum_of_valid (dg : DirectedGraph T W) (h : dg.Valid)
    (hacyclic : ¬ dg.toGraphBase.HasCycle) (a b : T) :
    (dg.HasVertex a = true → dg.HasVertex b = true →
      ∃ l : List T, PartialOrder.FindInfimum dg.toGraphBase a b = .ok l ∧
        l.Nodup ∧
        ∀ x, x ∈ l ↔
          (dg.toGraphBase.Connected x a ∧ dg.toGraphBase.Connected x b ∧
            ∀ y, y ≠ x → dg.toGraphBase.Connected y a → dg.toGraphBase.Connected y b →
              ¬ dg.toGraphBase.Connected x y)) ∧
    (dg.HasVertex a = true → PartialOrder.FindInfimum dg.toGraphBase a a = .ok [a]) ∧
    ((∃ e, PartialOrder.FindInfimum dg.toGraphBase a b = .error e) ↔
      (dg.HasVertex a = false ∨ dg.HasVertex b = false)) := by
  have hg := dg_valid_toGraphBase h
  refine ⟨fun ha hb => findInfimum_spec hg hacyclic a b ha hb, ?_, ?_⟩
  · intro ha
    have ha' : dg.toGraphBase.HasVertex a = true := ha
    simp [PartialOrder.FindInfimum, ha']
  · constructor
    · rintro ⟨e, he⟩
      by_contra hn
      have ha : dg.HasVertex a = true := by
        cases hx : dg.HasVertex a
        · exact absurd (Or.inl hx) hn
        · rfl
      have hb : dg.HasVertex b = true := by
        cases hx : dg.HasVertex b
        · exact absurd (Or.inr hx) hn
        · rfl
      obtain ⟨l, hl, -⟩ := findInfimum_spec hg hacyclic a b ha hb
      rw [hl] at he
      cases he
    · intro hab
      exact ⟨_, findInfimum_absent a b hab⟩

end BoundClaim

/-! ## PartialOrder: `IsLattice` -/

section LatticeFacts

variable {T W : Type} [LinearOrder T]

/-- In a graph without a directed cycle two elements have exactly one maximal common
lower bound iff they have a greatest common lower bound. -/
theorem unique_maximalLowerBound_iff {g : GraphBase T W} (hg : g.Valid) (hac : ¬ g.HasCycle)
    (a b : T) : (∃! x, g.IsMaximalLowerBound a b x) ↔ ∃ m, g.IsInfimum a b m := by
  constructor
  · rintro ⟨m, hm, huniq⟩
    refine ⟨m, hm.1, hm.2.1, ?_⟩
    intro y hya hyb
    obtain ⟨z, hz, hyz, hmax⟩ := exists_maximal_above hg hac
      (fun z => g.Connected z a ∧ g.Connected z b) y ⟨hya, hyb⟩
    have hzm : z = m := huniq z ⟨hz.1, hz.2, fun w hne hwa hwb hzw =>
      hmax w ⟨hwa, hwb⟩ ((reaches_iff_connected_ne hac z w).2 ⟨hzw, fun h => hne h.symm⟩)⟩
    exact hzm ▸ hyz
  · rintro ⟨m, h1, h2, h3⟩
    refine ⟨m, ⟨h1, h2, ?_⟩, ?_⟩
    · intro y hne hya hyb hmy
      exact hne (connected_antisymm hac (h3 y hya hyb) hmy)
    · rintro x ⟨hxa, hxb, hmax⟩
      by_contra hne
      exact hmax m (fun h => hne h.symm) h1 h2 (h3 x hxa hxb)

/-- In a graph without a directed cycle two elements have exactly one minimal common
upper bound iff they have a least common upper bound. -/
theorem unique_minimalUpperBound_iff {g : GraphBase T W} (hg : g.Valid) (hac : ¬ g.HasCycle)
    (a b : T) : (∃! x, g.IsMinimalUpperBound a b x) ↔ ∃ m, g.IsSupremum a b m := by
  constructor
  · rintro ⟨m, hm, huniq⟩
    refine ⟨m, hm.1, hm.2.1, ?_⟩
    intro y hay hby
    obtain ⟨z, hz, hzy, hmin⟩ := exists_minimal_below hg hac
      (fun z => g.Connected a z ∧ g.Connected b z) y ⟨hay, hby⟩
    have hzm : z = m := huniq z ⟨hz.1, hz.2, fun w hne haw hbw hwz =>
      hmin w ⟨haw, hbw⟩ ((reaches_iff_connected_ne hac w z).2 ⟨hwz, hne⟩)⟩
    exact hzm ▸ hzy
  · rintro ⟨m, h1, h2, h3⟩
    refine ⟨m, ⟨h1, h2, ?_⟩, ?_⟩
    · intro y hne hay hby hym
      exact hne (connected_antisymm hac hym (h3 y hay hby))
    · rintro x ⟨hax, hbx, hmin⟩
      by_contra hne
      exact hmin m (fun h => hne h.symm) h1 h2 (h3 x hax hbx)

/-- The check of one pair in `IsLattice`: the pair has a greatest common lower bound
and a least common upper bound. -/
theorem latticePair_spec {g : GraphBase T W} (hg : g.Valid) (hac : ¬ g.HasCycle) (a b : T)
    (ha : g.HasVertex a = true) (hb : g.HasVertex b = true) :
    ∃ r, PartialOrder.latticePair g a b = .ok r ∧
      (r = true ↔ ((∃ m, g.IsInfimum a b m) ∧ (∃ m, g.IsSupremum a b m))) := by
  obtain ⟨inf, i1, i2, i3⟩ := findInfimum_spec hg hac a b ha hb
  obtain ⟨sup, s1, s2, s3⟩ := findSupremum_spec hg hac a b ha hb
  refine ⟨!(!decide (inf.length = 1) || !decide (sup.length = 1)),
    by simp only [PartialOrder.latticePair, i1, s1], ?_⟩
  rw [← unique_maximalLowerBound_iff hg hac, ← unique_minimalUpperBound_iff hg hac,
    ← length_eq_one_iff_unique i2 _ i3, ← length_eq_one_iff_unique s2 _ s3]
  simp

/-- The loops of `IsLattice` over the pairs of positions `i < j`. -/
theorem latticeRows_spec {g : GraphBase T W} (hg : g.Valid) (hac : ¬ g.HasCycle) :
    ∀ l : List T, (∀ v, v ∈ l → g.HasVertex v = true) →
      ∃ r, PartialOrder.latticeRows g l = .ok r ∧
        (r = true ↔ l.Pairwise
          (fun a b => (∃ m, g.IsInfimum a b m) ∧ (∃ m, g.IsSupremum a b m))) := by
  intro l
  induction l with
  | nil => intro _; exact ⟨true, rfl, by simp⟩
  | cons a l ih =>
    intro hl
    have hl' : ∀ v, v ∈ l → g.HasVertex v = true := fun v hv => hl v (List.mem_cons_of_mem _ hv)
    obtain ⟨b, hb1, hb2⟩ := allE_spec (PartialOrder.latticePair g a)
      (fun x => (∃ m, g.IsInfimum a x m) ∧ (∃ m, g.IsSupremum a x m)) l
      (fun x hx => latticePair_spec hg hac a x (hl a (List.mem_cons_self _ _)) (hl' x hx))
    cases b with
    | false =>
      refine ⟨false, by simp only [PartialOrder.latticeRows, hb1], ?_⟩
      simp only [Bool.false_eq_true, false_iff, List.pairwise_cons, not_and]
      intro hall
      have := hb2.2 hall
      cases this
    | true =>
      obtain ⟨r, hr1, hr2⟩ := ih hl'
      refine ⟨r, by simp only [PartialOrder.latticeRows, hb1, hr1], ?_⟩
      rw [hr2, List.pairwise_cons]
      exact ⟨fun h => ⟨hb2.1 rfl, h⟩, fun h => h.2⟩

theorem isInfimum_symm {g : GraphBase T W} {a b m : T} (h : g.IsInfimum a b m) :
    g.IsInfimum b a m :=
  ⟨h.2.1, h.1, fun y hyb hya => h.2.2 y hya hyb⟩

theorem isSupremum_symm {g : GraphBase T W} {a b m : T} (h : g.IsSupremum a b m) :
    g.IsSupremum b a m :=
  ⟨h.2.1, h.1, fun y hby hay => h.2.2 y hay hby⟩

/-- The result of `IsLattice`. -/
theorem isLattice_spec {g : GraphBase T W} (hg : g.Valid) :
    ∃ r, PartialOrder.IsLattice g = .ok r ∧
      (r = true ↔ (¬ g.HasCycle ∧
        ∀ a b, g.HasVertex a = true → g.HasVertex b = true →
          (∃ m, g.IsInfimum a b m) ∧ (∃ m, g.IsSupremum a b m))) := by
  rcases isPartialOrder_cases hg with ⟨hpo, hac⟩ | ⟨hpo, hc⟩
  · obtain ⟨r, hr1, hr2⟩ := latticeRows_spec hg hac g.GetAllVertices
      (fun v hv => (hg.mem_all v).1 hv)
    refine ⟨r, by simp only [PartialOrder.IsLattice, hpo, hr1], ?_⟩
    rw [hr2]
    constructor
    · intro hp
      refine ⟨hac, ?_⟩
      intro a b ha hb
      exact List.Pairwise.forall_of_forall
        (fun x y hxy => ⟨⟨hxy.1.choose, isInfimum_symm hxy.1.choose_spec⟩,
          ⟨hxy.2.choose, isSupremum_symm hxy.2.choose_spec⟩⟩)
        (fun x _ => ⟨⟨x, Relation.ReflTransGen.refl, Relation.ReflTransGen.refl,
            fun y hy _ => hy⟩,
          ⟨x, Relation.ReflTransGen.refl, Relation.ReflTransGen.refl, fun y hy _ => hy⟩⟩)
        hp ((hg.mem_all a).2 ha) ((hg.mem_all b).2 hb)
    · rintro ⟨-, hall⟩
      exact pairwise_of_forall_mem _
        (fun a ha b hb => hall a b ((hg.mem_all a).1 ha) ((hg.mem_all b).1 hb))
  · refine ⟨false, by simp only [PartialOrder.IsLattice, hpo], ?_⟩
    simp only [Bool.false_eq_true, false_iff, not_and]
    intro hac
    exact absurd hc hac

end LatticeFacts

section LatticeClaim

variable {T W : Type} [LinearOrder T] [Inhabited W]

/-- The result of `IsLattice` on an object that satisfies the invariants of the data
model. -/
theorem isLattice_iff_of_valid (dg : DirectedGraph T W) (h : dg.Valid) :
    ∃ r, PartialOrder.IsLattice dg.toGraphBase = .ok r ∧
      (r = true ↔
        (PartialOrder.IsPartialOrder dg.toGraphBase = .ok true ∧
          ∀ a b, dg.HasVertex a = true → dg.HasVertex b = true →
            (∃ m, dg.toGraphBase.IsInfimum a b m) ∧
              (∃ m, dg.toGraphBase.IsSupremum a b m))) ∧
      (PartialOrder.IsPartialOrder dg.toGraphBase = .ok false → r = false) := by
  have hg := dg_valid_toGraphBase h
  obtain ⟨r, h1, h2⟩ := isLattice_spec hg
  refine ⟨r, h1, ?_, ?_⟩
  · rw [h2]
    constructor
    · rintro ⟨hac, hall⟩
      exact ⟨isPartialOrder_of_acyclic hg hac, hall⟩
    · rintro ⟨hpo, hall⟩
      exact ⟨isPartialOrder_acyclic hg hpo, hall⟩
  · intro hpo
    cases r with
    | false => rfl
    | true =>
      have hac := (h2.1 rfl).1
      rw [isPartialOrder_of_acyclic hg hac] at hpo
      cases hpo

end LatticeClaim

/-! ## PartialOrder: `GetLevels` -/

section LevelFacts

variable {T W : Type} [LinearOrder T]

end LevelFacts

section LevelClaim

variable {T W : Type} [LinearOrder T] [Inhabited W]

end LevelClaim

/-! ## PartialOrder: `BuildHasseDiagram` -/

section AddVerticesFacts

variable {T W : Type} [LinearOrder T] [Inhabited W]

/-- The loop that copies the vertices adds them and no edge. -/
theorem addVertices_spec (l : List T) :
    ∀ h : DirectedGraph T W, h.Inv →
      (l.foldl DirectedGraph.AddVertex h).Inv ∧
      (∀ x y, storedWeight (l.foldl DirectedGraph.AddVertex h).adjMatrix x y =
        storedWeight h.adjMatrix x y) ∧
      (∀ x, (l.foldl DirectedGraph.AddVertex h).vertices.Contains x =
        (decide (x ∈ l) || h.vertices.Contains x)) := by
  induction l with
  | nil => intro h hi; exact ⟨hi, fun _ _ => rfl, fun x => by simp⟩
  | cons a l ih =>
    intro h hi
    obtain ⟨i1, w1, c1, -, -⟩ := DirectedGraph.dg_addVertex_spec hi a
    obtain ⟨i2, w2, c2⟩ := ih (h.AddVertex a) i1
    refine ⟨i2, fun x y => by rw [List.foldl_cons, w2, w1], ?_⟩
    intro x
    rw [List.foldl_cons, c2, c1]
    simp only [List.mem_cons, Bool.decide_or]
    cases decide (x = a) <;> cases decide (x ∈ l) <;> cases h.vertices.Contains x <;> rfl

end AddVerticesFacts

section HasseFacts

variable {T W : Type} [LinearOrder T] [Inhabited W] [One W]

theorem hasseEdge_eq (g : GraphBase T W) (vertices : List T) (iu jv : Nat × T)
    (h : DirectedGraph T W) :
    PartialOrder.hasseEdge g vertices iu h jv =
      if PartialOrder.hasseKeeps g vertices iu jv = true then h.AddEdge iu.2 jv.2 1
      else .ok h := by
  unfold PartialOrder.hasseEdge PartialOrder.hasseKeeps
  by_cases h1 : iu.1 = jv.1
  · simp [h1]
  · cases h2 : g.HasEdge iu.2 jv.2
    · simp [h1]
    · cases h3 : PartialOrder.hasseCovers g vertices iu.1 jv.1 iu.2 jv.2 <;> simp [h1]

/-- One round of the loop over `j` in `BuildHasseDiagram`. -/
theorem hasseEdge_spec (g : GraphBase T W) (vertices : List T) (iu jv : Nat × T)
    {h : DirectedGraph T W} (hi : h.Inv) (hu : h.vertices.Contains iu.2 = true)
    (hv : h.vertices.Contains jv.2 = true) :
    ∃ h', PartialOrder.hasseEdge g vertices iu h jv = .ok h' ∧ h'.Inv ∧
      (∀ x, h'.vertices.Contains x = h.vertices.Contains x) ∧
      ∀ x y, ((storedWeight h'.adjMatrix x y).isSome = true ↔
        ((storedWeight h.adjMatrix x y).isSome = true ∨
          (PartialOrder.hasseKeeps g vertices iu jv = true ∧ x = iu.2 ∧ y = jv.2))) := by
  rw [hasseEdge_eq]
  cases hk : PartialOrder.hasseKeeps g vertices iu jv
  · exact ⟨h, by simp, hi, fun _ => rfl, fun x y => by simp⟩
  · obtain ⟨h', e1, e2, e3, e4, -, -⟩ := DirectedGraph.dg_addEdge_spec hi iu.2 jv.2 (1 : W)
    refine ⟨h', by simp [e1], e2, ?_, ?_⟩
    · intro x
      rw [e4]
      by_cases hxu : x = iu.2
      · simp [hxu, hu]
      · by_cases hxv : x = jv.2
        · simp [hxv, hv]
        · simp [hxu, hxv]
    · intro x y
      rw [e3]
      by_cases hxy : x = iu.2 ∧ y = jv.2
      · simp [hxy]
      · simp only [hxy, if_false, true_and, or_false]

/-- The loop over `j` in `BuildHasseDiagram`, for one `i`. -/
theorem hasseRow_spec (g : GraphBase T W) (vertices : List T) (iu : Nat × T) :
    ∀ (l : List (Nat × T)) (h : DirectedGraph T W), h.Inv →
      h.vertices.Contains iu.2 = true → (∀ jv, jv ∈ l → h.vertices.Contains jv.2 = true) →
      ∃ h', foldlE (PartialOrder.hasseEdge g vertices iu) h l = .ok h' ∧ h'.Inv ∧
        (∀ x, h'.vertices.Contains x = h.vertices.Contains x) ∧
        ∀ x y, ((storedWeight h'.adjMatrix x y).isSome = true ↔
          ((storedWeight h.adjMatrix x y).isSome = true ∨
            ∃ jv, jv ∈ l ∧ PartialOrder.hasseKeeps g vertices iu jv = true ∧
              x = iu.2 ∧ y = jv.2)) := by
  intro l
  induction l with
  | nil => intro h hi _ _; exact ⟨h, rfl, hi, fun _ => rfl, fun x y => by simp⟩
  | cons jv l ih =>
    intro h hi hu hl
    obtain ⟨h1, a1, a2, a3, a4⟩ := hasseEdge_spec g vertices iu jv hi hu
      (hl jv (List.mem_cons_self _ _))
    obtain ⟨h2, b1, b2, b3, b4⟩ := ih h1 a2 (by rw [a3]; exact hu)
      (fun jv' hjv' => by rw [a3]; exact hl jv' (List.mem_cons_of_mem _ hjv'))
    refine ⟨h2, by simp only [foldlE, a1, b1], b2, fun x => by rw [b3, a3], ?_⟩
    intro x y
    rw [b4, a4]
    constructor
    · rintro ((h0 | h0) | ⟨jv', m1, m2⟩)
      · exact Or.inl h0
      · exact Or.inr ⟨jv, List.mem_cons_self _ _, h0⟩
      · exact Or.inr ⟨jv', List.mem_cons_of_mem _ m1, m2⟩
    · rintro (h0 | ⟨jv', m1, m2⟩)
      · exact Or.inl (Or.inl h0)
      · rcases List.mem_cons.1 m1 with rfl | m1
        · exact Or.inl (Or.inr m2)
        · exact Or.inr ⟨jv', m1, m2⟩

/-- The loop over `i` in `BuildHasseDiagram`. -/
theorem hasseRows_spec (g : GraphBase T W) (vertices : List T) :
    ∀ (rows : List (Nat × T)) (h : DirectedGraph T W), h.Inv →
      (∀ iu, iu ∈ rows → h.vertices.Contains iu.2 = true) →
      (∀ jv, jv ∈ vertices.enum → h.vertices.Contains jv.2 = true) →
      ∃ h', foldlE (PartialOrder.hasseRow g vertices) h rows = .ok h' ∧ h'.Inv ∧
        (∀ x, h'.vertices.Contains x = h.vertices.Contains x) ∧
        ∀ x y, ((storedWeight h'.adjMatrix x y).isSome = true ↔
          ((storedWeight h.adjMatrix x y).isSome = true ∨
            ∃ iu jv, iu ∈ rows ∧ jv ∈ vertices.enum ∧
              PartialOrder.hasseKeeps g vertices iu jv = true ∧ x = iu.2 ∧ y = jv.2)) := by
  intro rows
  induction rows with
  | nil => intro h hi _ _; exact ⟨h, rfl, hi, fun _ => rfl, fun x y => by simp⟩
  | cons iu rows ih =>
    intro h hi hr hl
    obtain ⟨h1, a1, a2, a3, a4⟩ := hasseRow_spec g vertices iu vertices.enum h hi
      (hr iu (List.mem_cons_self _ _)) hl
    obtain ⟨h2, b1, b2, b3, b4⟩ := ih h1 a2
      (fun iu' hiu' => by rw [a3]; exact hr iu' (List.mem_cons_of_mem _ hiu'))
      (fun jv hjv => by rw [a3]; exact hl jv hjv)
    refine ⟨h2, ?_, b2, fun x => by rw [b3, a3], ?_⟩
    · simp only [foldlE]
      rw [show PartialOrder.hasseRow g vertices h iu = .ok h1 from a1]
      exact b1
    · intro x y
      rw [b4, a4]
      constructor
      · rintro ((h0 | ⟨jv, m1, m2⟩) | ⟨iu', jv, m0, m1, m2⟩)
        · exact Or.inl h0
        · exact Or.inr ⟨iu, jv, List.mem_cons_self _ _, m1, m2⟩
        · exact Or.inr ⟨iu', jv, List.mem_cons_of_mem _ m0, m1, m2⟩
      · rintro (h0 | ⟨iu', jv, m0, m1, m2⟩)
        · exact Or.inl (Or.inl h0)
        · rcases List.mem_cons.1 m0 with rfl | m0
          · exact Or.inl (Or.inr ⟨jv, m1, m2⟩)
          · exact Or.inr ⟨iu', jv, m0, m1, m2⟩

/-- The test of `BuildHasseDiagram` in terms of the vertices: on a sequence without
repetition the positions differ iff the vertices differ. -/
theorem hasseKeeps_iff (g : GraphBase T W) {vertices : List T} (hn : vertices.Nodup)
    {iu jv : Nat × T} (hiu : iu ∈ vertices.enum) (hjv : jv ∈ vertices.enum) :
    PartialOrder.hasseKeeps g vertices iu jv = true ↔
      (iu.2 ≠ jv.2 ∧ g.HasEdge iu.2 jv.2 = true ∧
        ∀ w, w ∈ vertices → w ≠ iu.2 → w ≠ jv.2 →
          ¬ (g.HasEdge iu.2 w = true ∧ g.HasEdge w jv.2 = true)) := by
  have hi := List.mem_enum_iff_getElem?.1 hiu
  have hj := List.mem_enum_iff_getElem?.1 hjv
  have hinj : ∀ {k : Nat} {w : T} {p : Nat × T}, vertices[k]? = some w →
      vertices[p.1]? = some p.2 → (k = p.1 ↔ w = p.2) := by
    intro k w p hk hp
    constructor
    · intro hkp
      rw [hkp, hp] at hk
      exact (Option.some.inj hk).symm
    · intro hwp
      have hlt : k < vertices.length := by
        by_contra hge
        rw [List.getElem?_eq_none (by omega)] at hk
        cases hk
      exact List.getElem?_inj hlt hn (by rw [hk, hp, hwp])
  unfold PartialOrder.hasseKeeps PartialOrder.hasseCovers
  simp only [Bool.and_eq_true, decide_eq_true_eq, List.all_eq_true, Bool.or_eq_true,
    beq_iff_eq, Bool.not_eq_true', Bool.and_eq_false_imp, ne_eq]
  constructor
  · rintro ⟨⟨h1, h2⟩, h3⟩
    refine ⟨fun h => h1 ((hinj hi hj).2 h), h2, ?_⟩
    rintro w hw hwu hwv ⟨e1, e2⟩
    obtain ⟨k, hk⟩ := List.getElem?_of_mem hw
    rcases h3 (k, w) (List.mem_enum_iff_getElem?.2 hk) with (h4 | h4) | h4
    · exact hwu ((hinj hk hi).1 h4)
    · exact hwv ((hinj hk hj).1 h4)
    · have := h4 e1
      rw [e2] at this
      cases this
  · rintro ⟨h1, h2, h3⟩
    refine ⟨⟨fun h => h1 ((hinj hi hj).1 h), h2⟩, ?_⟩
    rintro ⟨k, w⟩ hkw
    have hk := List.mem_enum_iff_getElem?.1 hkw
    by_cases hku : k = iu.1
    · exact Or.inl (Or.inl hku)
    · by_cases hkv : k = jv.1
      · exact Or.inl (Or.inr hkv)
      · right
        intro e1
        cases e2 : g.HasEdge w jv.2
        · rfl
        · exact absurd ⟨e1, e2⟩ (h3 w (List.snd_mem_of_mem_enum hkw)
            (fun h => hku ((hinj hk hi).2 h)) (fun h => hkv ((hinj hk hj).2 h)))

/-- The result of `BuildHasseDiagram` on a graph that `IsPartialOrder` accepts: a graph
with the same vertices, and with the edge `(x, y)` iff the input has the edge `(x, y)`,
`x` and `y` differ, and no third vertex `w` has the edges `(x, w)` and `(w, y)`. -/
theorem buildHasseDiagram_spec {g : GraphBase T W} (hg : g.Valid)
    (hpo : PartialOrder.IsPartialOrder g = .ok true) :
    ∃ hasse : DirectedGraph T W, PartialOrder.BuildHasseDiagram g = .ok hasse ∧ hasse.Inv ∧
      (∀ x, hasse.HasVertex x = g.HasVertex x) ∧
      ∀ x y, hasse.HasEdge x y = true ↔
        (x ≠ y ∧ g.HasEdge x y = true ∧
          ∀ w, w ≠ x → w ≠ y → ¬ (g.HasEdge x w = true ∧ g.HasEdge w y = true)) := by
  obtain ⟨i0, w0, c0⟩ := addVertices_spec g.GetAllVertices
    (DirectedGraph.empty : DirectedGraph T W) DirectedGraph.dg_inv_empty
  have hc0 : ∀ x, (g.GetAllVertices.foldl DirectedGraph.AddVertex
      (DirectedGraph.empty : DirectedGraph T W)).vertices.Contains x = true ↔
      x ∈ g.GetAllVertices := by
    intro x
    rw [c0]
    simp [DirectedGraph.empty, set_contains_empty]
  have hen : ∀ p : Nat × T, p ∈ g.GetAllVertices.enum →
      (g.GetAllVertices.foldl DirectedGraph.AddVertex
        (DirectedGraph.empty : DirectedGraph T W)).vertices.Contains p.2 = true :=
    fun p hp => (hc0 p.2).2 (List.snd_mem_of_mem_enum hp)
  obtain ⟨hasse, b1, b2, b3, b4⟩ := hasseRows_spec g g.GetAllVertices g.GetAllVertices.enum _
    i0 hen hen
  refine ⟨hasse, by simp only [PartialOrder.BuildHasseDiagram, hpo, b1], b2, ?_, ?_⟩
  · intro x
    show hasse.vertices.Contains x = g.HasVertex x
    rw [b3, Bool.eq_iff_iff, hc0, hg.mem_all]
  · intro x y
    rw [DirectedGraph.dg_hasEdge_iff b2.stored, b4, w0]
    have hnone : (storedWeight (DirectedGraph.empty : DirectedGraph T W).adjMatrix x y).isSome
        = false := by
      show (storedWeight (Dictionary.empty : Dictionary T (Dictionary T W)) x y).isSome = false
      rw [storedWeight_empty]; rfl
    simp only [hnone, Bool.false_eq_true, false_or]
    constructor
    · rintro ⟨iu, jv, m0, m1, m2, rfl, rfl⟩
      obtain ⟨k1, k2, k3⟩ := (hasseKeeps_iff g hg.all_nodup m0 m1).1 m2
      refine ⟨k1, k2, ?_⟩
      rintro w hwx hwy ⟨e1, e2⟩
      exact k3 w ((hg.mem_all w).2 (hg.edge_right _ _ e1)) hwx hwy ⟨e1, e2⟩
    · rintro ⟨k1, k2, k3⟩
      obtain ⟨i, hi⟩ := List.getElem?_of_mem ((hg.mem_all x).2 (hg.edge_left _ _ k2))
      obtain ⟨j, hj⟩ := List.getElem?_of_mem ((hg.mem_all y).2 (hg.edge_right _ _ k2))
      have m0 : (i, x) ∈ g.GetAllVertices.enum := List.mem_enum_iff_getElem?.2 hi
      have m1 : (j, y) ∈ g.GetAllVertices.enum := List.mem_enum_iff_getElem?.2 hj
      exact ⟨(i, x), (j, y), m0, m1,
        (hasseKeeps_iff g hg.all_nodup m0 m1).2 ⟨k1, k2, fun w _ => k3 w⟩, rfl, rfl⟩

end HasseFacts

section HasseClaims

variable {T W : Type} [LinearOrder T] [Inhabited W] [One W]

/-- When the edges of the input are transitive, so that the edge relation is the order
itself, the result of `BuildHasseDiagram` has no edge `(u, v)` with a vertex between
`u` and `v`. -/
theorem hasse_covering_of_transitive {g : GraphBase T W} (hg : g.Valid)
    (hpo : PartialOrder.IsPartialOrder g = .ok true)
    (htrans : ∀ u w v, g.HasEdge u w = true → g.HasEdge w v = true → g.HasEdge u v = true) :
    ∃ hasse : DirectedGraph T W, PartialOrder.BuildHasseDiagram g = .ok hasse ∧
      ∀ u v, hasse.HasEdge u v = true →
        g.HasEdge u v = true ∧ ¬ ∃ w, g.Reaches u w ∧ g.Reaches w v := by
  have hac := isPartialOrder_acyclic hg hpo
  have hedge : ∀ a b, g.Reaches a b → g.HasEdge a b = true := by
    intro a b hab
    induction hab with
    | single h => exact h
    | tail _ h ih => exact htrans _ _ _ ih h
  obtain ⟨hasse, h1, -, -, h4⟩ := buildHasseDiagram_spec hg hpo
  refine ⟨hasse, h1, ?_⟩
  intro u v he
  obtain ⟨-, k2, k3⟩ := (h4 u v).1 he
  refine ⟨k2, ?_⟩
  rintro ⟨w, hw1, hw2⟩
  exact k3 w (fun h => reaches_ne hac hw1 h.symm) (reaches_ne hac hw2)
    ⟨hedge _ _ hw1, hedge _ _ hw2⟩

/-- C22, the code at the graph with the edges `1 -> 2`, `2 -> 3`, `3 -> 4`, `1 -> 4`:
`IsPartialOrder` accepts the graph, `2` is reached from `1` and `4` is reached from
`2`, and the result of `BuildHasseDiagram` has the edge `(1, 4)`; the loop over `w`
tests the direct edges `(1, w)` and `(w, 4)` only. -/
theorem C22_hasse_keeps_shortcut_edge :
    ∃ g : DirectedGraph Nat Nat,
      DirectedGraph.run DirectedGraph.empty
        [.addEdge 1 2 1, .addEdge 2 3 1, .addEdge 3 4 1, .addEdge 1 4 1] = .ok g ∧
      g.Valid ∧ PartialOrder.IsPartialOrder g.toGraphBase = .ok true ∧
      g.toGraphBase.Reaches 1 2 ∧ g.toGraphBase.Reaches 2 4 ∧
      (PartialOrder.BuildHasseDiagram g.toGraphBase).map
        (fun hasse => (hasse.HasEdge 1 4, hasse.HasEdge 1 2, hasse.HasEdge 2 3,
          hasse.HasEdge 3 4)) = .ok (true, true, true, true) := by
  obtain ⟨g, hg⟩ : ∃ g : DirectedGraph Nat Nat,
      DirectedGraph.run DirectedGraph.empty
        [.addEdge 1 2 1, .addEdge 2 3 1, .addEdge 3 4 1, .addEdge 1 4 1] = .ok g :=
    ⟨_, rfl⟩
  have hv : g.Valid := dg_run_buildOps_valid _ g (by decide) hg
  have h0 : (DirectedGraph.run DirectedGraph.empty
        [.addEdge 1 2 1, .addEdge 2 3 1, .addEdge 3 4 1, .addEdge 1 4 1]).map
      (fun g : DirectedGraph Nat Nat => PartialOrder.IsPartialOrder g.toGraphBase) =
      .ok (.ok true) := by decide
  have h1 : (DirectedGraph.run DirectedGraph.empty
        [.addEdge 1 2 1, .addEdge 2 3 1, .addEdge 3 4 1, .addEdge 1 4 1]).map
      (fun g : DirectedGraph Nat Nat =>
        (g.HasEdge 1 2 && g.HasEdge 2 3 && g.HasEdge 3 4)) = .ok true := by decide
  have h2 : (DirectedGraph.run DirectedGraph.empty
        [.addEdge 1 2 1, .addEdge 2 3 1, .addEdge 3 4 1, .addEdge 1 4 1]).map
      (fun g : DirectedGraph Nat Nat =>
        (PartialOrder.BuildHasseDiagram g.toGraphBase).map
          (fun hasse => (hasse.HasEdge 1 4, hasse.HasEdge 1 2, hasse.HasEdge 2 3,
            hasse.HasEdge 3 4))) = .ok (.ok (true, true, true, true)) := by decide
  rw [hg] at h0 h1 h2
  simp only [Except.map, Except.ok.injEq, Bool.and_eq_true] at h0 h1
  have e12 : g.toGraphBase.HasEdge 1 2 = true := h1.1.1
  have e23 : g.toGraphBase.HasEdge 2 3 = true := h1.1.2
  have e34 : g.toGraphBase.HasEdge 3 4 = true := h1.2
  refine ⟨g, hg, hv, h0, Relation.TransGen.single e12,
    Relation.TransGen.tail (Relation.TransGen.single e23) e34, ?_⟩
  simpa [Except.map] using h2

/-- The result of `BuildHasseDiagram` on an object that satisfies the invariants of the
data model and that `IsPartialOrder` accepts has the vertices of the input and an edge
for every covering pair. -/
theorem hasse_covering_pairs_of_valid (dg : DirectedGraph T W) (h : dg.Valid)
    (hpo : PartialOrder.IsPartialOrder dg.toGraphBase = .ok true) :
    ∃ hasse : DirectedGraph T W,
      PartialOrder.BuildHasseDiagram dg.toGraphBase = .ok hasse ∧
      (∀ x, hasse.HasVertex x = dg.HasVertex x) ∧
      ∀ u v, u ≠ v → dg.toGraphBase.Reaches u v →
        (¬ ∃ w, dg.toGraphBase.Reaches u w ∧ dg.toGraphBase.Reaches w v) →
        hasse.HasEdge u v = true := by
  have hg := dg_valid_toGraphBase h
  obtain ⟨hasse, h1, -, h3, h4⟩ := buildHasseDiagram_spec hg hpo
  refine ⟨hasse, h1, h3, ?_⟩
  intro u v huv hr hcov
  have he : dg.toGraphBase.HasEdge u v = true := by
    obtain ⟨c, hc1, hc2⟩ := Relation.TransGen.head'_iff.1 hr
    rcases Relation.reflTransGen_iff_eq_or_transGen.1 hc2 with h0 | h0
    · rw [h0]; exact hc1
    · exact absurd ⟨c, Relation.TransGen.single hc1, h0⟩ hcov
  refine (h4 u v).2 ⟨huv, he, ?_⟩
  rintro w - - ⟨e1, e2⟩
  exact hcov ⟨w, Relation.TransGen.single e1, Relation.TransGen.single e2⟩

end HasseClaims

/-! ## DirectedGraph: the textual snapshot -/

section SnapshotClaim

/-- C30, the code at two graphs that `RemoveVertex` has left with an entry for a removed
vertex (C1).  After `AddEdge(1, 2)`, `RemoveVertex(2)`, `AddVertex(2)` the graph has the
edge `(1, 2)` and `GetEdgeCount` is `0`: the stream announces no edge, and the graph
that is read back has no edge `(1, 2)`.  After `AddEdge(1, 2)`, `AddEdge(1, 3)`,
`RemoveVertex(2)` the graph has the vertices `1`, `3`, the edge `(1, 3)` and
`GetEdgeCount` is `1`: the stream announces one edge and lists the entry `1 2` first,
and the graph that is read back has the vertex `2` and the edge `(1, 2)`, and no edge
`(1, 3)`. -/
theorem C30_roundTrip_after_removeVertex :
    (DirectedGraph.run (DirectedGraph.empty : DirectedGraph Nat Nat)
        [.addEdge 1 2 1, .removeVertex 2, .addVertex 2]).map
      (fun g => (g.HasEdge 1 2, g.GetEdgeCount)) = .ok (true, 0) ∧
    (DirectedGraph.run (DirectedGraph.empty : DirectedGraph Nat Nat)
        [.addEdge 1 2 1, .removeVertex 2, .addVertex 2]).map
      (fun g => g.SerializeToStream) =
        .ok (.ok [.word "D", .int 2, .int 0, .vertex 1, .vertex 2,
          .vertex 1, .vertex 2, .weight 1]) ∧
    (DirectedGraph.run (DirectedGraph.empty : DirectedGraph Nat Nat)
        [.addEdge 1 2 1, .removeVertex 2, .addVertex 2]).map
      (fun g => g.roundTrip.map (fun h => (h.HasEdge 1 2, h.GetEdgeCount))) =
        .ok (.ok (false, 0)) ∧
    (DirectedGraph.run (DirectedGraph.empty : DirectedGraph Nat Nat)
        [.addEdge 1 2 1, .addEdge 1 3 1, .removeVertex 2]).map
      (fun g => (g.HasVertex 2, g.HasEdge 1 3, g.GetVertexCount)) = .ok (false, true, 2) ∧
    (DirectedGraph.run (DirectedGraph.empty : DirectedGraph Nat Nat)
        [.addEdge 1 2 1, .addEdge 1 3 1, .removeVertex 2]).map
      (fun g => g.SerializeToStream) =
        .ok (.ok [.word "D", .int 2, .int 1, .vertex 1, .vertex 3,
          .vertex 1, .vertex 2, .weight 1, .vertex 1, .vertex 3, .weight 1]) ∧
    (DirectedGraph.run (DirectedGraph.empty : DirectedGraph Nat Nat)
        [.addEdge 1 2 1, .addEdge 1 3 1, .removeVertex 2]).map
      (fun g => g.roundTrip.map (fun h => (h.HasVertex 2, h.HasEdge 1 3, h.GetVertexCount))) =
        .ok (.ok (true, false, 3)) := by
  refine ⟨?_, ?_, ?_, ?_, ?_, ?_⟩ <;> decide

end SnapshotClaim

section SnapshotFacts

variable {T W : Type} [LinearOrder T] [Inhabited W]

theorem foldl_append_lines {α β : Type} (f : α → List β) (l : List α) :
    ∀ init : List β, l.foldl (fun os x => os ++ f x) init = init ++ l.flatMap f := by
  induction l with
  | nil => intro init; simp
  | cons a l ih => intro init; simp [ih]

/-- The lines that `SerializeToStream` writes for the entries of one vertex. -/
theorem serializeEdges_eq (g : DirectedGraph T W) (os : List (Token T W)) (u : T) :
    g.serializeEdges os u = .ok (os ++ (g.entriesOf u).flatMap DirectedGraph.edgeLine) := by
  unfold DirectedGraph.serializeEdges DirectedGraph.entriesOf
  cases hc : g.adjMatrix.ContainsKey u
  · have : g.adjMatrix.find? u = none := by
      have := Dictionary.isSome_find? g.adjMatrix u
      rw [hc] at this
      cases hf : g.adjMatrix.find? u with
      | none => rfl
      | some d => rw [hf] at this; cases this
    simp [this]
  · obtain ⟨d, hd⟩ := (Dictionary.Get_isOk g.adjMatrix u).1 hc
    have hf : g.adjMatrix.find? u = some d := (Dictionary.find?_eq_some_iff _ _ _).2 hd
    simp only [if_true, hd, hf, Dictionary.ForEach, BinaryTree.traverseInOrder,
      inOrder_eq_foldl]
    rw [foldl_append_lines (fun pair : DictionaryPair T W =>
      [Token.vertex u, Token.vertex pair.getKey, Token.weight pair.getValue])]
    simp [Dictionary.entries, List.flatMap_map, DirectedGraph.edgeLine]

theorem serializeEdges_foldlE (g : DirectedGraph T W) (l : List T) :
    ∀ os : List (Token T W), foldlE g.serializeEdges os l =
      .ok (os ++ (l.flatMap g.entriesOf).flatMap DirectedGraph.edgeLine) := by
  induction l with
  | nil => intro os; simp [foldlE]
  | cons a l ih =>
    intro os
    simp only [foldlE, serializeEdges_eq, ih, List.flatMap_cons, List.flatMap_append,
      List.append_assoc]

/-- The stream that `SerializeToStream` writes: the header, the vertices, the adjacency
entries. -/
theorem serializeToStream_eq (g : DirectedGraph T W) :
    g.SerializeToStream = .ok
      ([Token.word "D", Token.int g.vertexCount, Token.int g.edgeCount] ++
        g.vertices.elems.map Token.vertex ++ g.storedEntries.flatMap DirectedGraph.edgeLine) := by
  unfold DirectedGraph.SerializeToStream DirectedGraph.storedEntries
  simp only [Set.ForEach, Set.ForEachE, BinaryTree.traverseInOrder,
    BinaryTree.traverseInOrderE, inOrder_eq_foldl, UndirectedGraph.inOrderE_eq_foldlE]
  rw [foldl_append_singleton, serializeEdges_foldlE]
  rfl

theorem readVertices_spec (vs : List T) (rest : List (Token T W)) :
    ∀ h : DirectedGraph T W,
      DirectedGraph.readVertices vs.length (vs.map Token.vertex ++ rest) h =
        .ok (vs.foldl DirectedGraph.AddVertex h, rest) := by
  induction vs with
  | nil => intro h; rfl
  | cons a vs ih =>
    intro h
    show DirectedGraph.readVertices (vs.length + 1)
      (Token.vertex a :: (vs.map Token.vertex ++ rest)) h = _
    simp only [DirectedGraph.readVertices, List.foldl_cons]
    exact ih _

theorem readEdges_spec (entries : List (T × T × W)) (rest : List (Token T W)) :
    ∀ h : DirectedGraph T W,
      DirectedGraph.readEdges entries.length
          (entries.flatMap DirectedGraph.edgeLine ++ rest) h =
        foldlE (fun h entry => h.AddEdge entry.1 entry.2.1 entry.2.2) h entries := by
  induction entries with
  | nil => intro h; rfl
  | cons a entries ih =>
    intro h
    show DirectedGraph.readEdges (entries.length + 1)
      (Token.vertex a.1 :: Token.vertex a.2.1 :: Token.weight a.2.2 ::
        (entries.flatMap DirectedGraph.edgeLine ++ rest)) h = _
    simp only [DirectedGraph.readEdges, foldlE]
    cases h.AddEdge a.1 a.2.1 a.2.2 with
    | error e => rfl
    | ok h1 =>
      simp only
      exact ih h1

/-- A loop of `AddEdge` over entries with different positions stores every entry. -/
theorem addEdges_spec (entries : List (T × T × W)) :
    ∀ h : DirectedGraph T W, h.Inv →
      (entries.map fun e => (e.1, e.2.1)).Nodup →
      (∀ e, e ∈ entries → h.vertices.Contains e.1 = true ∧ h.vertices.Contains e.2.1 = true) →
      ∃ h', foldlE (fun h entry => h.AddEdge entry.1 entry.2.1 entry.2.2) h entries = .ok h' ∧
        h'.Inv ∧ (∀ x, h'.vertices.Contains x = h.vertices.Contains x) ∧
        (∀ e, e ∈ entries → storedWeight h'.adjMatrix e.1 e.2.1 = some e.2.2) ∧
        (∀ x y, (∀ e, e ∈ entries → ¬ (e.1 = x ∧ e.2.1 = y)) →
          storedWeight h'.adjMatrix x y = storedWeight h.adjMatrix x y) := by
  induction entries with
  | nil =>
    intro h hi _ _
    exact ⟨h, rfl, hi, fun _ => rfl, fun e he => (nomatch he), fun _ _ _ => rfl⟩
  | cons a entries ih =>
    intro h hi hn hv
    rw [List.map_cons, List.nodup_cons] at hn
    obtain ⟨h1, a1, a2, a3, a4, -, -⟩ := DirectedGraph.dg_addEdge_spec hi a.1 a.2.1 a.2.2
    have hc1 : ∀ x, h1.vertices.Contains x = h.vertices.Contains x := by
      intro x
      rw [a4]
      by_cases hx1 : x = a.1
      · simp [hx1, (hv a (List.mem_cons_self _ _)).1]
      · by_cases hx2 : x = a.2.1
        · simp [hx2, (hv a (List.mem_cons_self _ _)).2]
        · simp [hx1, hx2]
    obtain ⟨h2, b1, b2, b3, b4, b5⟩ := ih h1 a2 hn.2
      (fun e he => by rw [hc1, hc1]; exact hv e (List.mem_cons_of_mem _ he))
    refine ⟨h2, by simp only [foldlE, a1, b1], b2, fun x => by rw [b3, hc1], ?_, ?_⟩
    · intro e he
      rcases List.mem_cons.1 he with rfl | he
      · rw [b5 e.1 e.2.1, a3]
        · simp
        · intro e' he' heq
          apply hn.1
          rw [List.mem_map]
          exact ⟨e', he', by rw [← heq.1, ← heq.2]⟩
      · exact b4 e he
    · intro x y hxy
      rw [b5 x y (fun e he => hxy e (List.mem_cons_of_mem _ he)), a3, if_neg]
      intro hh
      exact hxy a (List.mem_cons_self _ _) ⟨hh.1.symm, hh.2.symm⟩

/-- The adjacency entries that `SerializeToStream` writes are the stored weights. -/
theorem mem_storedEntries {g : DirectedGraph T W} (h : Stored g.adjMatrix g.vertices)
    (u v : T) (w : W) :
    (u, v, w) ∈ g.storedEntries ↔ storedWeight g.adjMatrix u v = some w := by
  unfold DirectedGraph.storedEntries DirectedGraph.entriesOf
  rw [List.mem_flatMap]
  constructor
  · rintro ⟨x, hx, hm⟩
    cases hf : g.adjMatrix.find? x with
    | none => rw [hf] at hm; cases hm
    | some d =>
      rw [hf] at hm
      simp only [List.mem_map, Prod.mk.injEq] at hm
      obtain ⟨p, hp, rfl, rfl, rfl⟩ := hm
      rw [storedWeight_of_find? hf, Dictionary.find?_eq_some_iff,
        Dictionary.Get_eq_ok_iff (h.inner_wf x d hf)]
      exact hp
  · intro hw
    have hsome : (storedWeight g.adjMatrix u v).isSome = true := by rw [hw]; rfl
    have hu : g.vertices.Contains u = true := by
      rw [← h.keys_eq]; exact storedWeight_source hsome
    obtain ⟨d, -, hf, hd⟩ := find?_of_contains h hu
    refine ⟨u, (set_mem_elems_iff h.vs_wf u).2 hu, ?_⟩
    rw [hf]
    simp only [List.mem_map, Prod.mk.injEq]
    rw [storedWeight_of_find? hf, Dictionary.find?_eq_some_iff,
      Dictionary.Get_eq_ok_iff hd] at hw
    exact ⟨⟨v, w⟩, hw, by simp⟩

/-- No two adjacency entries that `SerializeToStream` writes have the same position. -/
theorem storedEntries_nodup {g : DirectedGraph T W} (h : Stored g.adjMatrix g.vertices) :
    (g.storedEntries.map fun e => (e.1, e.2.1)).Nodup := by
  unfold DirectedGraph.storedEntries DirectedGraph.entriesOf
  rw [List.map_flatMap, List.nodup_flatMap]
  constructor
  · intro x _
    cases hf : g.adjMatrix.find? x with
    | none => simp
    | some d =>
      simp only [List.map_map]
      have := Dictionary.nodup_keys (h.inner_wf x d hf)
      rw [show ((fun e : T × T × W => (e.1, e.2.1)) ∘
          fun pair : DictionaryPair T W => (x, pair.getKey, pair.getValue)) =
          (fun k => (x, k)) ∘ DictionaryPair.getKey from rfl, ← List.map_map]
      exact this.map (fun a b hab => by simpa using hab)
  · apply (Set.set_nodup h.vs_wf).imp
    intro a b hab
    rw [Function.onFun, List.disjoint_left]
    intro p hp1 hp2
    have e1 : p.1 = a := by
      cases hf : g.adjMatrix.find? a with
      | none => rw [hf] at hp1; simp at hp1
      | some d =>
        rw [hf] at hp1
        simp only [List.map_map, List.mem_map, Function.comp] at hp1
        obtain ⟨q, -, rfl⟩ := hp1
        rfl
    have e2 : p.1 = b := by
      cases hf : g.adjMatrix.find? b with
      | none => rw [hf] at hp2; simp at hp2
      | some d =>
        rw [hf] at hp2
        simp only [List.map_map, List.mem_map, Function.comp] at hp2
        obtain ⟨q, -, rfl⟩ := hp2
        rfl
    exact hab (e1.symm.trans e2)

/-- The number of adjacency entries that `SerializeToStream` writes is the number of
stored edges. -/
theorem storedEntries_length {g : DirectedGraph T W} (h : Stored g.adjMatrix g.vertices) :
    g.storedEntries.length = (storeEdges g.adjMatrix g.vertices).card := by
  rw [← List.length_map g.storedEntries (fun e => (e.1, e.2.1)),
    ← List.toFinset_card_of_nodup (storedEntries_nodup h)]
  congr 1
  ext p
  obtain ⟨x, y⟩ := p
  rw [List.mem_toFinset, mem_storeEdges h, List.mem_map, Option.isSome_iff_exists]
  constructor
  · rintro ⟨⟨u, v, w⟩, he, heq⟩
    simp only [Prod.mk.injEq] at heq
    obtain ⟨rfl, rfl⟩ := heq
    exact ⟨w, (mem_storedEntries h u v w).1 he⟩
  · rintro ⟨w, hw⟩
    exact ⟨(x, y, w), (mem_storedEntries h x y w).2 hw, rfl⟩

/-- On a graph that satisfies the invariants of the data model the snapshot is a round
trip: `DeserializeFromStream` reads the stream of `SerializeToStream` without an
exception, and the graph that it builds satisfies the invariants and has the same
vertices, the same edges with the same weights, and the same counts. -/
theorem roundTrip_of_inv {g : DirectedGraph T W} (h : g.Inv) :
    ∃ g', g.roundTrip = .ok g' ∧ g'.Inv ∧
      (∀ x, g'.HasVertex x = g.HasVertex x) ∧
      (∀ x y, g'.HasEdge x y = g.HasEdge x y) ∧
      (∀ x y, g'.GetEdgeWeight x y = g.GetEdgeWeight x y) ∧
      g'.GetVertexCount = g.GetVertexCount ∧ g'.GetEdgeCount = g.GetEdgeCount := by
  obtain ⟨i0, w0, c0⟩ := addVertices_spec g.vertices.elems
    (DirectedGraph.empty : DirectedGraph T W) DirectedGraph.dg_inv_empty
  have hc0 : ∀ x, (g.vertices.elems.foldl DirectedGraph.AddVertex
      (DirectedGraph.empty : DirectedGraph T W)).vertices.Contains x = g.vertices.Contains x := by
    intro x
    rw [c0, Bool.eq_iff_iff]
    simp [DirectedGraph.empty, set_contains_empty, set_mem_elems_iff h.stored.vs_wf]
  obtain ⟨g', e1, e2, e3, e4, e5⟩ := addEdges_spec g.storedEntries _ i0
    (storedEntries_nodup h.stored)
    (by
      rintro ⟨u, v, w⟩ he
      have hw := (mem_storedEntries h.stored u v w).1 he
      have hsome : (storedWeight g.adjMatrix u v).isSome = true := by rw [hw]; rfl
      rw [hc0, hc0]
      exact ⟨by rw [← h.stored.keys_eq]; exact storedWeight_source hsome,
        h.stored.targets u v hsome⟩)
  have hvn : g.vertexCount.toNat = g.vertices.elems.length := by
    rw [h.vcount, set_card_eq_length h.stored.vs_wf]
    simp
  have hen : g.edgeCount.toNat = g.storedEntries.length := by
    rw [h.ecount, storedEntries_length h.stored]
    simp
  have hrun : g.roundTrip = .ok g' := by
    unfold DirectedGraph.roundTrip
    rw [serializeToStream_eq]
    simp only [List.cons_append, List.nil_append, DirectedGraph.DeserializeFromStream, ne_eq,
      not_true_eq_false, if_false, hvn, readVertices_spec, hen]
    rw [← List.append_nil (g.storedEntries.flatMap DirectedGraph.edgeLine), readEdges_spec]
    exact e1
  have hsw : ∀ x y, storedWeight g'.adjMatrix x y = storedWeight g.adjMatrix x y := by
    intro x y
    cases hw : storedWeight g.adjMatrix x y with
    | some w => exact e4 (x, y, w) ((mem_storedEntries h.stored x y w).2 hw)
    | none =>
      rw [e5 x y, w0]
      · rfl
      · rintro ⟨u, v, w⟩ he ⟨rfl, rfl⟩
        have := (mem_storedEntries h.stored u v w).1 he
        rw [hw] at this
        cases this
  have hvs : ∀ x, g'.vertices.Contains x = g.vertices.Contains x := fun x => by rw [e3, hc0]
  refine ⟨g', hrun, e2, hvs, ?_, ?_, ?_, ?_⟩
  · intro x y
    rw [DirectedGraph.dg_hasEdge_iff e2.stored, DirectedGraph.dg_hasEdge_iff h.stored, hsw]
  · intro x y
    rw [dg_getEdgeWeight_spec e2.stored, dg_getEdgeWeight_spec h.stored, hsw]
  · show g'.vertexCount = g.vertexCount
    rw [e2.vcount, h.vcount]
    congr 2
    ext x
    rw [← Set.set_contains_iff e2.stored.vs_wf, ← Set.set_contains_iff h.stored.vs_wf, hvs]
  · show g'.edgeCount = g.edgeCount
    rw [e2.ecount, h.ecount, storeEdges_congr h.stored e2.stored (fun x y => by rw [hsw])]

end SnapshotFacts

/-! ## `PartialOrder` on a directed graph after `RemoveVertex`

The theorems on `PartialOrder` assume a graph object that satisfies the invariants of
the data model.  On an object that `RemoveVertex` has left with an entry for a removed
vertex (C1), `KahnSort` throws, so that `IsPartialOrder` rejects the graph, and the
search of `GetReachableVertices` meets a neighbour that is no vertex. -/

/-- After `AddEdge(1, 2)`, `RemoveVertex(2)` the graph has the vertex `1` and no edge,
and `IsPartialOrder` and `IsLattice` are false; `FindMinimalElements`, `GetLevels`,
`FindLeastElement` and `BuildHasseDiagram` throw "Graph is not a partial order".  After
a further `AddEdge(1, 3)` the vertices are `1` and `3`, and `FindInfimum(1, 3)` throws
"Vertex does not exist". -/
theorem partialOrder_after_removeVertex :
    (DirectedGraph.run (DirectedGraph.empty : DirectedGraph Nat Nat)
        [.addEdge 1 2 1, .removeVertex 2]).map
      (fun g => (PartialOrder.IsPartialOrder g.toGraphBase,
        PartialOrder.IsLattice g.toGraphBase)) = .ok (.ok false, .ok false) ∧
    (DirectedGraph.run (DirectedGraph.empty : DirectedGraph Nat Nat)
        [.addEdge 1 2 1, .removeVertex 2]).map
      (fun g => PartialOrder.FindMinimalElements g.toGraphBase) =
        .ok (.error .notPartialOrder) ∧
    (DirectedGraph.run (DirectedGraph.empty : DirectedGraph Nat Nat)
        [.addEdge 1 2 1, .removeVertex 2]).map
      (fun g => PartialOrder.GetLevels g.toGraphBase) = .ok (.error .notPartialOrder) ∧
    (DirectedGraph.run (DirectedGraph.empty : DirectedGraph Nat Nat)
        [.addEdge 1 2 1, .removeVertex 2]).map
      (fun g => PartialOrder.FindLeastElement g.toGraphBase) =
        .ok (.error .notPartialOrder) ∧
    (DirectedGraph.run (DirectedGraph.empty : DirectedGraph Nat Nat)
        [.addEdge 1 2 1, .removeVertex 2]).map
      (fun g => (PartialOrder.BuildHasseDiagram g.toGraphBase).map
        (fun hasse => hasse.GetVertexCount)) = .ok (.error .notPartialOrder) ∧
    (DirectedGraph.run (DirectedGraph.empty : DirectedGraph Nat Nat)
        [.addEdge 1 2 1, .removeVertex 2, .addEdge 1 3 1]).map
      (fun g => (g.GetAllVertices.1, g.HasEdge 1 2)) = .ok ([1, 3], false) ∧
    (DirectedGraph.run (DirectedGraph.empty : DirectedGraph Nat Nat)
        [.addEdge 1 2 1, .removeVertex 2, .addEdge 1 3 1]).map
      (fun g => PartialOrder.FindInfimum g.toGraphBase 1 3) =
        .ok (.error .vertexNotFound) := by
  refine ⟨?_, ?_, ?_, ?_, ?_, ?_, ?_⟩ <;> decide

/-! ## The directed graph under all its mutators -/

section WeakInvFacts

variable {T W : Type} [LinearOrder T] [Inhabited W]

theorem weakInv_empty : (DirectedGraph.empty : DirectedGraph T W).WeakInv where
  vs_wf := Set.set_wf_empty
  adj_wf := Dictionary.WF_empty
  inner_wf := fun x d h => by simp [DirectedGraph.empty, Dictionary.find?_empty] at h
  keys_eq := fun x => rfl
  vcount := rfl
  cache := dg_cacheOk_of_none rfl

theorem weakInv_of_inv {g : DirectedGraph T W} (h : g.Valid) : g.WeakInv where
  vs_wf := h.1.stored.vs_wf
  adj_wf := h.1.stored.adj_wf
  inner_wf := h.1.stored.inner_wf
  keys_eq := h.1.stored.keys_eq
  vcount := h.1.vcount
  cache := h.2

theorem weakInv_get {g : DirectedGraph T W} (h : g.WeakInv) {x : T}
    (hx : g.vertices.Contains x = true) :
    ∃ d, g.adjMatrix.Get x = .ok d ∧ g.adjMatrix.find? x = some d ∧ d.WF := by
  have h1 := h.keys_eq x
  rw [hx, Option.isSome_iff_exists] at h1
  obtain ⟨d, hd⟩ := h1
  exact ⟨d, (Dictionary.find?_eq_some_iff _ _ _).1 hd, hd, h.inner_wf x d hd⟩

/-- A change of `edgeCount` keeps the invariants. -/
theorem weakInv_congr {g g' : DirectedGraph T W} (h : g.WeakInv)
    (h1 : g'.adjMatrix = g.adjMatrix) (h2 : g'.vertices = g.vertices)
    (h3 : g'.vertexCount = g.vertexCount) (h4 : g'.CacheOk) : g'.WeakInv where
  vs_wf := h2 ▸ h.vs_wf
  adj_wf := h1 ▸ h.adj_wf
  inner_wf := by rw [h1]; exact h.inner_wf
  keys_eq := by rw [h1, h2]; exact h.keys_eq
  vcount := by rw [h2, h3]; exact h.vcount
  cache := h4

/-- Writing a search tree under the key of a vertex keeps the invariants. -/
theorem weakInv_put {g g' : DirectedGraph T W} (h : g.WeakInv) {x : T}
    (hx : g.vertices.Contains x = true) {d : Dictionary T W} (hd : d.WF)
    (h1 : g'.adjMatrix = g.adjMatrix.Add x d) (h2 : g'.vertices = g.vertices)
    (h3 : g'.vertexCount = g.vertexCount) (h4 : g'.CacheOk) : g'.WeakInv where
  vs_wf := h2 ▸ h.vs_wf
  adj_wf := h1 ▸ Dictionary.WF_Add h.adj_wf x d
  inner_wf := by
    intro y d' hf
    rw [h1, Dictionary.find?_Add h.adj_wf] at hf
    split_ifs at hf
    · simp only [Option.some.injEq] at hf
      exact hf ▸ hd
    · exact h.inner_wf y d' hf
  keys_eq := by
    intro y
    rw [h1, h2, Dictionary.find?_Add h.adj_wf]
    split_ifs with hy
    · rw [hy, hx]; rfl
    · exact h.keys_eq y
  vcount := by rw [h2, h3]; exact h.vcount
  cache := h4

theorem weakInv_addVertex {g : DirectedGraph T W} (h : g.WeakInv) (v : T) :
    (g.AddVertex v).WeakInv := by
  unfold DirectedGraph.AddVertex
  cases hc : g.vertices.Contains v
  · simp only [Bool.not_false, if_true, DirectedGraph.invalidateCache]
    refine ⟨Set.set_wf_add h.vs_wf v, Dictionary.WF_Add h.adj_wf v _, ?_, ?_, ?_,
      dg_cacheOk_of_none rfl⟩
    · intro y d' hf
      simp only [Dictionary.find?_Add h.adj_wf] at hf
      split_ifs at hf
      · simp only [Option.some.injEq] at hf
        exact hf ▸ Dictionary.WF_empty
      · exact h.inner_wf y d' hf
    · intro y
      simp only [Dictionary.find?_Add h.adj_wf, set_contains_add h.vs_wf]
      by_cases hy : y = v
      · simp [hy]
      · simp [hy, h.keys_eq y]
    · have hv : v ∉ g.vertices.toFinset := by
        rw [← Set.set_contains_iff h.vs_wf, hc]; simp
      simp only [Set.set_toFinset_add h.vs_wf, Finset.card_insert_of_not_mem hv, h.vcount]
      push_cast
      trivial
  · simp only [Bool.not_true, Bool.false_eq_true, if_false]
    exact h

theorem addVertex_contains {g : DirectedGraph T W} (h : g.WeakInv) (v x : T) :
    (g.AddVertex v).vertices.Contains x = (decide (x = v) || g.vertices.Contains x) := by
  unfold DirectedGraph.AddVertex
  cases hc : g.vertices.Contains v
  · simp only [Bool.not_false, if_true, DirectedGraph.invalidateCache,
      set_contains_add h.vs_wf]
  · simp only [Bool.not_true, Bool.false_eq_true, if_false]
    by_cases hx : x = v
    · simp [hx, hc]
    · simp [hx]

theorem weakInv_addEdge {g g' : DirectedGraph T W} (h : g.WeakInv) (u v : T) (w : W)
    (hs : g.AddEdge u v w = .ok g') : g'.WeakInv := by
  have i2 := weakInv_addVertex (weakInv_addVertex h u) v
  have hcu : ((g.AddVertex u).AddVertex v).vertices.Contains u = true := by
    rw [addVertex_contains (weakInv_addVertex h u), addVertex_contains h]; simp
  obtain ⟨d, hget, -, hd⟩ := weakInv_get i2 hcu
  rw [DirectedGraph.dg_addEdge_eq g u v w hget] at hs
  simp only [Except.ok.injEq] at hs
  subst hs
  exact weakInv_put i2 hcu (Dictionary.WF_Add hd v w) rfl rfl rfl (dg_cacheOk_of_none rfl)

theorem hasEdge_source {g : DirectedGraph T W} {u v : T} (he : g.HasEdge u v = true) :
    g.vertices.Contains u = true := by
  rw [DirectedGraph.dg_hasEdge_eq] at he
  simp only [Bool.and_eq_true] at he
  exact he.1.1

theorem weakInv_removeEdge {g g' : DirectedGraph T W} (h : g.WeakInv) (u v : T)
    (hs : g.RemoveEdge u v = .ok g') : g'.WeakInv := by
  unfold DirectedGraph.RemoveEdge at hs
  cases he : g.HasEdge u v
  · simp only [he, Bool.false_eq_true, if_false, Except.ok.injEq] at hs
    exact hs ▸ h
  · have hcu := hasEdge_source he
    obtain ⟨d, hget, -, hd⟩ := weakInv_get h hcu
    simp only [he, if_true, hget, DirectedGraph.invalidateCache, Except.ok.injEq] at hs
    subst hs
    exact weakInv_put h hcu (Dictionary.WF_Remove hd v) rfl rfl rfl (dg_cacheOk_of_none rfl)

theorem weakInv_setEdgeWeight {g g' : DirectedGraph T W} (h : g.WeakInv) (u v : T) (w : W)
    (hs : g.SetEdgeWeight u v w = .ok g') : g'.WeakInv := by
  unfold DirectedGraph.SetEdgeWeight at hs
  cases he : g.HasEdge u v
  · simp [he] at hs
  · have hcu := hasEdge_source he
    obtain ⟨d, hget, -, hd⟩ := weakInv_get h hcu
    simp only [he, Bool.not_true, Bool.false_eq_true, if_false, hget, Except.ok.injEq] at hs
    subst hs
    exact weakInv_put h hcu (Dictionary.WF_Add hd v w) rfl rfl rfl h.cache

theorem weakInv_clear (g : DirectedGraph T W) : g.Clear.WeakInv where
  vs_wf := Set.set_wf_clear _
  adj_wf := Dictionary.WF_Clear _
  inner_wf := fun x d hf => by
    have : (g.adjMatrix.Clear).find? x = none := rfl
    simp only [DirectedGraph.Clear, DirectedGraph.invalidateCache] at hf
    rw [this] at hf
    cases hf
  keys_eq := fun x => rfl
  vcount := rfl
  cache := dg_cacheOk_of_none rfl

/-- The callback of the loop in `RemoveVertex` changes `edgeCount` only. -/
theorem removeIncoming_fields {g g' : DirectedGraph T W} (vertex v : T)
    (hs : DirectedGraph.removeIncoming vertex g v = .ok g') :
    g'.adjMatrix = g.adjMatrix ∧ g'.vertices = g.vertices ∧
      g'.vertexCount = g.vertexCount ∧ g'.cachedVertices = g.cachedVertices := by
  unfold DirectedGraph.removeIncoming at hs
  split at hs
  · split at hs
    · cases hs
    · split at hs
      · split at hs
        · cases hs
        · simp only [Except.ok.injEq] at hs
          subst hs
          exact ⟨rfl, rfl, rfl, rfl⟩
      · simp only [Except.ok.injEq] at hs
        subst hs
        exact ⟨rfl, rfl, rfl, rfl⟩
  · simp only [Except.ok.injEq] at hs
    subst hs
    exact ⟨rfl, rfl, rfl, rfl⟩

theorem removeIncoming_foldlE (vertex : T) (l : List T) :
    ∀ g g' : DirectedGraph T W, foldlE (DirectedGraph.removeIncoming vertex) g l = .ok g' →
      g'.adjMatrix = g.adjMatrix ∧ g'.vertices = g.vertices ∧
        g'.vertexCount = g.vertexCount ∧ g'.cachedVertices = g.cachedVertices := by
  induction l with
  | nil =>
    intro g g' hs
    simp only [foldlE, Except.ok.injEq] at hs
    subst hs
    exact ⟨rfl, rfl, rfl, rfl⟩
  | cons a l ih =>
    intro g g' hs
    simp only [foldlE] at hs
    cases h1 : DirectedGraph.removeIncoming vertex g a with
    | error e => rw [h1] at hs; cases hs
    | ok g1 =>
      rw [h1] at hs
      obtain ⟨a1, a2, a3, a4⟩ := removeIncoming_fields vertex a h1
      obtain ⟨b1, b2, b3, b4⟩ := ih g1 g' hs
      exact ⟨b1.trans a1, b2.trans a2, b3.trans a3, b4.trans a4⟩

theorem weakInv_removeVertex {g g' : DirectedGraph T W} (h : g.WeakInv) (v : T)
    (hs : g.RemoveVertex v = .ok g') : g'.WeakInv := by
  unfold DirectedGraph.RemoveVertex at hs
  cases hv : g.HasVertex v
  · simp only [hv, Bool.not_false, if_true, Except.ok.injEq] at hs
    exact hs ▸ h
  · have hcv : g.vertices.Contains v = true := hv
    obtain ⟨d, hget, hfind, -⟩ := weakInv_get h hcv
    have hck : g.adjMatrix.ContainsKey v = true := by
      rw [← Dictionary.isSome_find?, hfind]; rfl
    simp only [hv, Bool.not_true, Bool.false_eq_true, if_false, hck, if_true, hget,
      Set.ForEachE, BinaryTree.traverseInOrderE, UndirectedGraph.inOrderE_eq_foldlE] at hs
    split at hs
    · cases hs
    · rename_i g2 hfold
      obtain ⟨b1, b2, b3, -⟩ := removeIncoming_foldlE v _ _ _ hfold
      simp only [DirectedGraph.invalidateCache, Except.ok.injEq] at hs
      subst hs
      refine ⟨?_, ?_, ?_, ?_, ?_, dg_cacheOk_of_none rfl⟩
      · show (g2.vertices.Remove v).WF
        rw [b2]
        exact Set.set_wf_remove h.vs_wf v
      · show g2.adjMatrix.WF
        rw [b1]
        exact Dictionary.WF_Remove h.adj_wf v
      · intro x d' hf
        have hf' : g2.adjMatrix.find? x = some d' := hf
        rw [b1] at hf'
        simp only [Dictionary.find?_Remove h.adj_wf] at hf'
        split_ifs at hf'
        exact h.inner_wf x d' hf'
      · intro x
        show (g2.adjMatrix.find? x).isSome = (g2.vertices.Remove v).Contains x
        rw [b1, b2]
        simp only [Dictionary.find?_Remove h.adj_wf, set_contains_remove h.vs_wf]
        by_cases hx : x = v
        · simp [hx]
        · simp [hx, h.keys_eq x]
      · show g2.vertexCount - 1 = ((g2.vertices.Remove v).toFinset.card : Int)
        rw [b2, b3]
        have hmem : v ∈ g.vertices.toFinset := (Set.set_contains_iff h.vs_wf v).1 hcv
        simp only [Set.set_toFinset_remove h.vs_wf, Finset.card_erase_of_mem hmem, h.vcount]
        have hpos : 0 < g.vertices.toFinset.card := Finset.card_pos.2 ⟨v, hmem⟩
        omega

theorem weakInv_step {g g' : DirectedGraph T W} (h : g.WeakInv) (op : GraphOp T W)
    (hs : g.step op = .ok g') : g'.WeakInv := by
  cases op with
  | addVertex v =>
    simp only [DirectedGraph.step, Except.ok.injEq] at hs
    exact hs ▸ weakInv_addVertex h v
  | addEdge u v w => exact weakInv_addEdge h u v w hs
  | removeVertex v => exact weakInv_removeVertex h v hs
  | removeEdge u v => exact weakInv_removeEdge h u v hs
  | setEdgeWeight u v w => exact weakInv_setEdgeWeight h u v w hs
  | clear =>
    simp only [DirectedGraph.step, Except.ok.injEq] at hs
    exact hs ▸ weakInv_clear g

theorem weakInv_run (ops : List (GraphOp T W)) :
    ∀ g g' : DirectedGraph T W, g.WeakInv → DirectedGraph.run g ops = .ok g' → g'.WeakInv := by
  induction ops with
  | nil =>
    intro g g' h hr
    simp only [DirectedGraph.run, Except.ok.injEq] at hr
    exact hr ▸ h
  | cons op ops ih =>
    intro g g' h hr
    simp only [DirectedGraph.run] at hr
    cases hs : g.step op with
    | error e => rw [hs] at hr; cases hr
    | ok g1 =>
      rw [hs] at hr
      exact ih g1 g' (weakInv_step h op hs) hr

/-- Every directed graph that the mutators build keeps the weak invariants. -/
theorem weakInv_of_reachable {g : DirectedGraph T W} (h : g.IsReachable) : g.WeakInv := by
  obtain ⟨ops, hr⟩ := h
  exact weakInv_run ops _ g weakInv_empty hr

end WeakInvFacts

/-! ## Directed graphs that the mutators build, under the order algorithms -/

section KahnKeys

variable {T W : Type} [LinearOrder T]

/-- When the inner counting loop of `KahnSort` returns, every listed neighbour had an
entry in `inDegree`, and the loop kept the keys. -/
theorem kahnCountEdge_keys (adj : List T) :
    ∀ d d' : Dictionary T Int, d.WF → foldlE TopologicalSort.kahnCountEdge d adj = .ok d' →
      (∀ n, n ∈ adj → (d.find? n).isSome = true) ∧ d'.WF ∧
        ∀ v, (d'.find? v).isSome = (d.find? v).isSome := by
  induction adj with
  | nil =>
    intro d d' hd hf
    simp only [foldlE, Except.ok.injEq] at hf
    subst hf
    exact ⟨fun n hn => (nomatch hn), hd, fun v => rfl⟩
  | cons n adj ih =>
    intro d d' hd hf
    simp only [foldlE, TopologicalSort.kahnCountEdge] at hf
    cases hg : d.Get n with
    | error e => simp [hg] at hf
    | ok k =>
      simp only [hg] at hf
      have hk : d.find? n = some k := (Dictionary.find?_eq_some_iff _ _ _).2 hg
      obtain ⟨h1, h2, h3⟩ := ih _ d' (Dictionary.WF_Add hd n (k + 1)) hf
      have keys : ∀ v, ((d.Add n (k + 1)).find? v).isSome = (d.find? v).isSome := by
        intro v
        rw [Dictionary.find?_Add hd]
        split_ifs with hv
        · rw [hv, hk]; rfl
        · rfl
      refine ⟨?_, h2, fun v => (h3 v).trans (keys v)⟩
      intro m hm
      rcases List.mem_cons.1 hm with rfl | hm
      · rw [hk]; rfl
      · rw [← keys m]; exact h1 m hm

/-- When the counting loop of `KahnSort` returns, every vertex in every adjacency list
had an entry in `inDegree`. -/
theorem kahnCountFrom_keys (g : GraphBase T W) (vs : List T) :
    ∀ d d' : Dictionary T Int, d.WF →
      foldlE (TopologicalSort.kahnCountFrom g) d vs = .ok d' →
      d'.WF ∧ (∀ v, (d'.find? v).isSome = (d.find? v).isSome) ∧
        ∀ x, x ∈ vs → ∃ adj, g.GetAdjacentVertices x = .ok adj ∧
          ∀ n, n ∈ adj → (d.find? n).isSome = true := by
  induction vs with
  | nil =>
    intro d d' hd hf
    simp only [foldlE, Except.ok.injEq] at hf
    subst hf
    exact ⟨hd, fun v => rfl, fun x hx => by cases hx⟩
  | cons a vs ih =>
    intro d d' hd hf
    simp only [foldlE, TopologicalSort.kahnCountFrom] at hf
    cases ha : g.GetAdjacentVertices a with
    | error e => simp [ha] at hf
    | ok adj =>
      simp only [ha] at hf
      cases h1 : foldlE TopologicalSort.kahnCountEdge d adj with
      | error e => simp [h1] at hf
      | ok d1 =>
        simp only [h1] at hf
        obtain ⟨k1, k2, k3⟩ := kahnCountEdge_keys adj d d1 hd h1
        obtain ⟨i1, i2, i3⟩ := ih d1 d' k2 hf
        refine ⟨i1, fun v => (i2 v).trans (k3 v), ?_⟩
        intro x hx
        rcases List.mem_cons.1 hx with rfl | hx
        · exact ⟨adj, ha, k1⟩
        · obtain ⟨adj', e1, e2⟩ := i3 x hx
          exact ⟨adj', e1, fun n hn => by rw [← k3 n]; exact e2 n hn⟩

/-- When `KahnSort` returns on a graph with `GetVertexCount() != 0`, every adjacency list
of a vertex names vertices only. -/
theorem kahnSort_targets {g : GraphBase T W} {order : List T} (hc : g.GetVertexCount ≠ 0)
    (h : TopologicalSort.KahnSort g = .ok order) :
    ∀ x, x ∈ g.GetAllVertices → ∃ adj, g.GetAdjacentVertices x = .ok adj ∧
      ∀ n, n ∈ adj → n ∈ g.GetAllVertices := by
  unfold TopologicalSort.KahnSort at h
  rw [if_neg hc] at h
  simp only at h
  cases hf : foldlE (TopologicalSort.kahnCountFrom g)
      (TopologicalSort.kahnInit g.GetAllVertices) g.GetAllVertices with
  | error e => simp [hf] at h
  | ok d =>
    obtain ⟨i1, i2⟩ := kahnInit_spec g.GetAllVertices
    obtain ⟨-, -, h3⟩ := kahnCountFrom_keys g _ _ _ i1 hf
    intro x hx
    obtain ⟨adj, ha, hm⟩ := h3 x hx
    refine ⟨adj, ha, fun n hn => ?_⟩
    have := hm n hn
    rw [i2] at this
    by_contra hne
    simp [hne] at this

end KahnKeys

section ReachableFacts

variable {T W : Type} [LinearOrder T] [Inhabited W]

theorem weakInv_getAdjacentVertices {g : DirectedGraph T W} (h : g.WeakInv) {v : T}
    (hv : g.vertices.Contains v = true) :
    ∃ d, g.adjMatrix.find? v = some d ∧ d.WF ∧
      g.GetAdjacentVertices v = .ok (d.entries.map DictionaryPair.getKey) := by
  obtain ⟨d, hget, hfind, hd⟩ := weakInv_get h hv
  have hc : g.adjMatrix.ContainsKey v = true := by
    rw [← Dictionary.isSome_find?, hfind]; rfl
  have hv' : g.HasVertex v = true := hv
  exact ⟨d, hfind, hd, by
    simp [DirectedGraph.GetAdjacentVertices, hv', hc, hget, Dictionary.ForEachKey_collect]⟩

/-- A directed graph object whose adjacency lists name vertices only has the interface
of an object that satisfies all the invariants of the data model: the two differ in
`edgeCount` at most, which the interface `GraphBase` does not show. -/
theorem weakInv_twin {g : DirectedGraph T W} (h : g.WeakInv)
    (hadj : ∀ u adj, g.GetAdjacentVertices u = .ok adj → ∀ v, v ∈ adj → g.HasVertex v = true) :
    ∃ g' : DirectedGraph T W, g'.Valid ∧ g'.toGraphBase = g.toGraphBase ∧
      g'.vertices = g.vertices ∧ g'.adjMatrix = g.adjMatrix := by
  have ht : ∀ x y, (storedWeight g.adjMatrix x y).isSome = true →
      g.vertices.Contains y = true := by
    intro x y hs
    have hx : g.vertices.Contains x = true := by
      rw [← h.keys_eq]; exact storedWeight_source hs
    obtain ⟨d, hfind, hd, hadjx⟩ := weakInv_getAdjacentVertices h hx
    rw [storedWeight_of_find? hfind] at hs
    exact hadj x _ hadjx y ((mem_entries_keys_iff hd y).2 hs)
  refine ⟨{ g with edgeCount := ((storeEdges g.adjMatrix g.vertices).card : Int) },
    ⟨⟨⟨h.vs_wf, h.adj_wf, h.inner_wf, h.keys_eq, ht⟩, h.vcount, rfl⟩, h.cache⟩, ?_, rfl, rfl⟩
  simp only [DirectedGraph.toGraphBase, GraphBase.mk.injEq]
  refine ⟨rfl, rfl, rfl, rfl, ?_, rfl⟩
  unfold DirectedGraph.GetAllVertices
  cases g.cachedVertices <;> rfl

/-- On a directed graph that the mutators build `CheckAntisymmetry` returns. -/
theorem weakInv_checkAntisymmetry {g : DirectedGraph T W} (h : g.WeakInv) :
    ∃ b, PartialOrder.CheckAntisymmetry g.toGraphBase = .ok b := by
  obtain ⟨b, h1, -⟩ := allE_spec
    (fun u =>
      match g.toGraphBase.GetAdjacentVertices u with
      | .error e => .error e
      | .ok adj => .ok (adj.all fun v => !g.toGraphBase.HasEdge v u))
    (fun u => ∀ adj, g.toGraphBase.GetAdjacentVertices u = .ok adj →
      (adj.all fun v => !g.toGraphBase.HasEdge v u) = true) g.toGraphBase.GetAllVertices
    (by
      intro u hu
      have hu' : u ∈ g.GetAllVertices.1 := hu
      rw [dg_getAllVertices_eq h.cache, set_mem_elems_iff h.vs_wf] at hu'
      obtain ⟨d, -, -, hadj⟩ := weakInv_getAdjacentVertices h hu'
      have hadj' : g.toGraphBase.GetAdjacentVertices u =
          .ok (d.entries.map DictionaryPair.getKey) := hadj
      refine ⟨(d.entries.map DictionaryPair.getKey).all fun v => !g.toGraphBase.HasEdge v u,
        by simp only [hadj'], ?_⟩
      constructor
      · intro hb adj ha
        rw [hadj'] at ha
        simp only [Except.ok.injEq] at ha
        rw [← ha]
        exact hb
      · intro hb
        exact hb _ hadj')
  exact ⟨b, h1⟩

/-- On a directed graph that the mutators build `IsPartialOrder` returns. -/
theorem weakInv_isPartialOrder_total {g : DirectedGraph T W} (h : g.WeakInv) :
    ∃ b, PartialOrder.IsPartialOrder g.toGraphBase = .ok b := by
  obtain ⟨b, hb⟩ := weakInv_checkAntisymmetry h
  unfold PartialOrder.IsPartialOrder
  rw [hb]
  cases b with
  | false => exact ⟨false, rfl⟩
  | true =>
    cases hk : TopologicalSort.KahnSort g.toGraphBase with
    | error e => exact ⟨false, rfl⟩
    | ok order => exact ⟨true, rfl⟩

/-- A directed graph that the mutators build and on which `KahnSort` returns has
adjacency lists that name vertices only. -/
theorem weakInv_targets_of_kahnSort {g : DirectedGraph T W} (h : g.WeakInv) {order : List T}
    (hk : TopologicalSort.KahnSort g.toGraphBase = .ok order) :
    ∀ u adj, g.GetAdjacentVertices u = .ok adj → ∀ v, v ∈ adj → g.HasVertex v = true := by
  intro u adj hadj v hv
  have hu : g.HasVertex u = true := by
    by_contra hn
    simp only [DirectedGraph.GetAdjacentVertices, Bool.not_eq_true] at hn hadj
    simp [hn] at hadj
  have hall := dg_getAllVertices_eq h.cache
  have hmem : ∀ x, x ∈ g.toGraphBase.GetAllVertices ↔ g.HasVertex x = true := by
    intro x
    show x ∈ g.GetAllVertices.1 ↔ g.vertices.Contains x = true
    rw [hall, set_mem_elems_iff h.vs_wf]
  have hc : g.toGraphBase.GetVertexCount ≠ 0 := by
    show g.vertexCount ≠ 0
    rw [h.vcount]
    have : u ∈ g.vertices.toFinset := (Set.set_contains_iff h.vs_wf u).1 hu
    have hpos : 0 < g.vertices.toFinset.card := Finset.card_pos.2 ⟨u, this⟩
    omega
  obtain ⟨adj', ha, hm⟩ := kahnSort_targets hc hk u ((hmem u).2 hu)
  have ha' : g.GetAdjacentVertices u = .ok adj' := ha
  rw [hadj] at ha'
  simp only [Except.ok.injEq] at ha'
  subst ha'
  exact (hmem v).1 (hm v hv)

/-- A directed graph that the mutators build and that `IsPartialOrder` accepts has
adjacency lists that name vertices only. -/
theorem weakInv_targets_of_partialOrder {g : DirectedGraph T W} (h : g.WeakInv)
    (hpo : PartialOrder.IsPartialOrder g.toGraphBase = .ok true) :
    ∀ u adj, g.GetAdjacentVertices u = .ok adj → ∀ v, v ∈ adj → g.HasVertex v = true := by
  have hk : ∃ order, TopologicalSort.KahnSort g.toGraphBase = .ok order := by
    unfold PartialOrder.IsPartialOrder at hpo
    cases hc : PartialOrder.CheckAntisymmetry g.toGraphBase with
    | error e => simp [hc] at hpo
    | ok b =>
      cases b with
      | false => simp [hc] at hpo
      | true =>
        cases hk : TopologicalSort.KahnSort g.toGraphBase with
        | error e => simp [hc, hk] at hpo
        | ok order => exact ⟨order, rfl⟩
  obtain ⟨order, hk⟩ := hk
  exact weakInv_targets_of_kahnSort h hk

/-- A directed graph that the mutators build and that `IsPartialOrder` accepts has the
interface of an object that satisfies all the invariants of the data model. -/
theorem reachable_twin {g : DirectedGraph T W} (h : g.IsReachable)
    (hpo : PartialOrder.IsPartialOrder g.toGraphBase = .ok true) :
    ∃ g' : DirectedGraph T W, g'.Valid ∧ g'.toGraphBase = g.toGraphBase ∧
      g'.vertices = g.vertices ∧ g'.adjMatrix = g.adjMatrix :=
  weakInv_twin (weakInv_of_reachable h)
    (weakInv_targets_of_partialOrder (weakInv_of_reachable h) hpo)

end ReachableFacts

/-! ## The order algorithms on the directed graphs that the mutators build -/

section ReachableTransfer

variable {T W : Type} [LinearOrder T] [Inhabited W]

/-- The adjacency lists of an object that satisfies the invariants of the data model
name vertices only. -/
theorem valid_adjacent_vertices {g : DirectedGraph T W} (h : g.Valid) :
    ∀ u adj, g.GetAdjacentVertices u = .ok adj → ∀ v, v ∈ adj → g.HasVertex v = true := by
  intro u adj hadj v hv
  have hg := dg_valid_toGraphBase h
  have hu : g.HasVertex u = true := by
    by_contra hn
    simp only [DirectedGraph.GetAdjacentVertices, Bool.not_eq_true] at hn hadj
    simp [hn] at hadj
  obtain ⟨adj', ha, -, hm⟩ := hg.adj_ok u hu
  have ha' : g.GetAdjacentVertices u = .ok adj' := ha
  rw [hadj] at ha'
  simp only [Except.ok.injEq] at ha'
  subst ha'
  exact hg.edge_right u v ((hm v).1 hv)

/-- A directed graph that the mutators build and whose adjacency lists name vertices
only has the interface of an object that satisfies all the invariants. -/
theorem reachable_twin_of_adjacent {g : DirectedGraph T W} (h : g.IsReachable)
    (hadj : ∀ u adj, g.GetAdjacentVertices u = .ok adj → ∀ v, v ∈ adj → g.HasVertex v = true) :
    ∃ g' : DirectedGraph T W, g'.Valid ∧ g'.toGraphBase = g.toGraphBase ∧
      (∀ x, g'.HasVertex x = g.HasVertex x) ∧ ∀ x y, g'.HasEdge x y = g.HasEdge x y := by
  obtain ⟨g', hv, heq, hvs, hadjm⟩ := weakInv_twin (weakInv_of_reachable h) hadj
  refine ⟨g', hv, heq, fun x => ?_, fun x y => ?_⟩
  · show g'.vertices.Contains x = g.vertices.Contains x
    rw [hvs]
  · rw [DirectedGraph.dg_hasEdge_eq, DirectedGraph.dg_hasEdge_eq, hvs, hadjm]

/-- A directed graph that the mutators build and that `IsPartialOrder` accepts has the
interface of an object that satisfies all the invariants. -/
theorem reachable_twin_of_partialOrder {g : DirectedGraph T W} (h : g.IsReachable)
    (hpo : PartialOrder.IsPartialOrder g.toGraphBase = .ok true) :
    ∃ g' : DirectedGraph T W, g'.Valid ∧ g'.toGraphBase = g.toGraphBase ∧
      (∀ x, g'.HasVertex x = g.HasVertex x) ∧ ∀ x y, g'.HasEdge x y = g.HasEdge x y :=
  reachable_twin_of_adjacent h
    (weakInv_targets_of_partialOrder (weakInv_of_reachable h) hpo)

/-- The result of `IsPartialOrder` on every directed graph that the mutators build: true
iff the adjacency lists name vertices only, no two distinct vertices have edges in both
directions, and the graph has no directed cycle. -/
theorem isPartialOrder_iff_reachable (dg : DirectedGraph T W) (h : dg.IsReachable) :
    ∃ b, PartialOrder.IsPartialOrder dg.toGraphBase = .ok b ∧
      (b = true ↔
        ((∀ u adj, dg.GetAdjacentVertices u = .ok adj →
            ∀ v, v ∈ adj → dg.HasVertex v = true) ∧
          (∀ u v, u ≠ v → ¬ (dg.HasEdge u v = true ∧ dg.HasEdge v u = true)) ∧
          ¬ dg.toGraphBase.HasCycle)) := by
  obtain ⟨b, hb⟩ := weakInv_isPartialOrder_total (weakInv_of_reachable h)
  refine ⟨b, hb, ?_⟩
  constructor
  · intro hbt
    subst hbt
    have hadj := weakInv_targets_of_partialOrder (weakInv_of_reachable h) hb
    obtain ⟨g', hv, heq, -, hE⟩ := reachable_twin_of_adjacent h hadj
    obtain ⟨b', h1, h2⟩ := isPartialOrder_iff_of_valid g' hv
    rw [heq, hb] at h1
    simp only [Except.ok.injEq] at h1
    subst h1
    rw [heq] at h2
    simp only [hE] at h2
    exact ⟨hadj, h2.1 trivial⟩
  · rintro ⟨hadj, hrest⟩
    obtain ⟨g', hv, heq, -, hE⟩ := reachable_twin_of_adjacent h hadj
    obtain ⟨b', h1, h2⟩ := isPartialOrder_iff_of_valid g' hv
    rw [heq, hb] at h1
    simp only [Except.ok.injEq] at h1
    subst h1
    rw [heq] at h2
    simp only [hE] at h2
    exact h2.2 hrest

end ReachableTransfer

section ReachableClaims

variable {T W : Type} [LinearOrder T] [Inhabited W]

/-- On every directed graph that the mutators build `IsPartialOrder` returns
without an exception; when the adjacency lists of the graph name vertices only, it
returns true iff no two distinct vertices `u`, `v` have both edges `u -> v` and
`v -> u` and the graph has no directed cycle. -/
theorem isPartialOrder_iff_of_adjacent (dg : DirectedGraph T W) (h : dg.IsReachable)
    (hadj : ∀ u adj, dg.GetAdjacentVertices u = .ok adj →
      ∀ v, v ∈ adj → dg.HasVertex v = true) :
    ∃ b, PartialOrder.IsPartialOrder dg.toGraphBase = .ok b ∧
      (b = true ↔
        ((∀ u v, u ≠ v → ¬ (dg.HasEdge u v = true ∧ dg.HasEdge v u = true)) ∧
          ¬ dg.toGraphBase.HasCycle)) := by
  obtain ⟨b, h1, h2⟩ := isPartialOrder_iff_reachable dg h
  refine ⟨b, h1, ?_⟩
  rw [h2]
  exact ⟨fun hh => hh.2, fun hh => ⟨hadj, hh⟩⟩

/-- At the directed graph with the edges `1 -> 2`, `1 -> 3`, `2 -> 4`, `3 -> 4`,
where `IsPartialOrder` is true, and with the further edge `4 -> 1`, where it is
false. -/
theorem isPartialOrder_iff_of_adjacent_witness :
    ∃ g : DirectedGraph Nat Nat,
      DirectedGraph.run DirectedGraph.empty
        [.addEdge 1 2 1, .addEdge 1 3 1, .addEdge 2 4 1, .addEdge 3 4 1] = .ok g ∧
      g.IsReachable ∧
      (∀ u adj, g.GetAdjacentVertices u = .ok adj → ∀ v, v ∈ adj → g.HasVertex v = true) ∧
      PartialOrder.IsPartialOrder g.toGraphBase = .ok true ∧
      (DirectedGraph.run (DirectedGraph.empty : DirectedGraph Nat Nat)
        [.addEdge 1 2 1, .addEdge 1 3 1, .addEdge 2 4 1, .addEdge 3 4 1, .addEdge 4 1 1]).map
        (fun g => PartialOrder.IsPartialOrder g.toGraphBase) = .ok (.ok false) ∧
      ∃ b, PartialOrder.IsPartialOrder g.toGraphBase = .ok b ∧
        (b = true ↔
          ((∀ u v, u ≠ v → ¬ (g.HasEdge u v = true ∧ g.HasEdge v u = true)) ∧
            ¬ g.toGraphBase.HasCycle)) := by
  obtain ⟨g, hg⟩ : ∃ g : DirectedGraph Nat Nat,
      DirectedGraph.run DirectedGraph.empty
        [.addEdge 1 2 1, .addEdge 1 3 1, .addEdge 2 4 1, .addEdge 3 4 1] = .ok g :=
    ⟨_, rfl⟩
  have hv : g.Valid := dg_run_buildOps_valid _ g (by decide) hg
  have hr : g.IsReachable := ⟨_, hg⟩
  have ha := valid_adjacent_vertices hv
  have he : (DirectedGraph.run DirectedGraph.empty
        [.addEdge 1 2 1, .addEdge 1 3 1, .addEdge 2 4 1, .addEdge 3 4 1]).map
      (fun g : DirectedGraph Nat Nat => PartialOrder.IsPartialOrder g.toGraphBase) =
      .ok (.ok true) := by decide
  rw [hg] at he
  simp only [Except.map, Except.ok.injEq] at he
  exact ⟨g, hg, hr, ha, he, by decide, isPartialOrder_iff_of_adjacent g hr ha⟩

/-- C25: on a directed graph that the mutators build and that `IsPartialOrder` accepts,
`FindMinimalElements` returns exactly the vertices that no other vertex reaches and
`FindMaximalElements` exactly the vertices that reach no other vertex, each vertex
once; on a graph that `IsPartialOrder` rejects both throw "Graph is not a partial
order". -/
theorem C25_minimal_maximal_elements (dg : DirectedGraph T W) (h : dg.IsReachable) :
    (PartialOrder.IsPartialOrder dg.toGraphBase = .ok true →
      ∃ mins maxs : List T,
        PartialOrder.FindMinimalElements dg.toGraphBase = .ok mins ∧
        PartialOrder.FindMaximalElements dg.toGraphBase = .ok maxs ∧
        (∀ x, x ∈ mins ↔
          (dg.HasVertex x = true ∧ ∀ u, u ≠ x → ¬ dg.toGraphBase.Reaches u x)) ∧
        (∀ x, x ∈ maxs ↔
          (dg.HasVertex x = true ∧ ∀ u, u ≠ x → ¬ dg.toGraphBase.Reaches x u)) ∧
        mins.Nodup ∧ maxs.Nodup) ∧
    (PartialOrder.IsPartialOrder dg.toGraphBase = .ok false →
      PartialOrder.FindMinimalElements dg.toGraphBase = .error .notPartialOrder ∧
      PartialOrder.FindMaximalElements dg.toGraphBase = .error .notPartialOrder) := by
  constructor
  · intro hpo
    obtain ⟨g', hv, heq, hV, -⟩ := reachable_twin_of_partialOrder h hpo
    have key := (minimal_maximal_of_valid g' hv).1 (by rw [heq]; exact hpo)
    rw [heq] at key
    simp only [hV] at key
    exact key
  · intro hpo
    simp only [PartialOrder.FindMinimalElements, PartialOrder.FindMaximalElements, hpo,
      and_self]

/-- C25 at the directed graph with the edges `1 -> 2`, `1 -> 3`, `2 -> 4`, `3 -> 4`:
the minimal elements are `[1]`, the maximal elements are `[4]`. -/
theorem C25_minimal_maximal_elements_witness :
    ∃ g : DirectedGraph Nat Nat,
      DirectedGraph.run DirectedGraph.empty
        [.addEdge 1 2 1, .addEdge 1 3 1, .addEdge 2 4 1, .addEdge 3 4 1] = .ok g ∧
      g.IsReachable ∧
      PartialOrder.FindMinimalElements g.toGraphBase = .ok [1] ∧
      PartialOrder.FindMaximalElements g.toGraphBase = .ok [4] ∧
      ((PartialOrder.IsPartialOrder g.toGraphBase = .ok true →
        ∃ mins maxs : List Nat,
          PartialOrder.FindMinimalElements g.toGraphBase = .ok mins ∧
          PartialOrder.FindMaximalElements g.toGraphBase = .ok maxs ∧
          (∀ x, x ∈ mins ↔
            (g.HasVertex x = true ∧ ∀ u, u ≠ x → ¬ g.toGraphBase.Reaches u x)) ∧
          (∀ x, x ∈ maxs ↔
            (g.HasVertex x = true ∧ ∀ u, u ≠ x → ¬ g.toGraphBase.Reaches x u)) ∧
          mins.Nodup ∧ maxs.Nodup) ∧
      (PartialOrder.IsPartialOrder g.toGraphBase = .ok false →
        PartialOrder.FindMinimalElements g.toGraphBase = .error .notPartialOrder ∧
        PartialOrder.FindMaximalElements g.toGraphBase = .error .notPartialOrder)) := by
  obtain ⟨g, hg⟩ : ∃ g : DirectedGraph Nat Nat,
      DirectedGraph.run DirectedGraph.empty
        [.addEdge 1 2 1, .addEdge 1 3 1, .addEdge 2 4 1, .addEdge 3 4 1] = .ok g :=
    ⟨_, rfl⟩
  have hr : g.IsReachable := ⟨_, hg⟩
  have h1 : (DirectedGraph.run DirectedGraph.empty
        [.addEdge 1 2 1, .addEdge 1 3 1, .addEdge 2 4 1, .addEdge 3 4 1]).map
      (fun g : DirectedGraph Nat Nat => PartialOrder.FindMinimalElements g.toGraphBase) =
      .ok (.ok [1]) := by decide
  have h2 : (DirectedGraph.run DirectedGraph.empty
        [.addEdge 1 2 1, .addEdge 1 3 1, .addEdge 2 4 1, .addEdge 3 4 1]).map
      (fun g : DirectedGraph Nat Nat => PartialOrder.FindMaximalElements g.toGraphBase) =
      .ok (.ok [4]) := by decide
  rw [hg] at h1 h2
  simp only [Except.map, Except.ok.injEq] at h1 h2
  exact ⟨g, hg, hr, h1, h2, C25_minimal_maximal_elements g hr⟩

/-- In a directed graph that the mutators build, whose adjacency lists name
vertices only and that has no directed cycle, with `x <= y` iff `x = y` or `y` is
reached from `x`: for vertices `a`, `b` of the graph `FindInfimum(a, b)` returns a
sequence in which `x` occurs iff `x <= a`, `x <= b`, and no other common lower bound
`y` of `a` and `b` has `x <= y`; no element occurs twice; `FindInfimum(a, a)` is `[a]`;
the call throws iff `a` or `b` is no vertex. -/
theorem findInfimum_of_adjacent (dg : DirectedGraph T W) (h : dg.IsReachable)
    (hadj : ∀ u adj, dg.GetAdjacentVertices u = .ok adj →
      ∀ v, v ∈ adj → dg.HasVertex v = true)
    (hacyclic : ¬ dg.toGraphBase.HasCycle) (a b : T) :
    (dg.HasVertex a = true → dg.HasVertex b = true →
      ∃ l : List T, PartialOrder.FindInfimum dg.toGraphBase a b = .ok l ∧
        l.Nodup ∧
        ∀ x, x ∈ l ↔
          (dg.toGraphBase.Connected x a ∧ dg.toGraphBase.Connected x b ∧
            ∀ y, y ≠ x → dg.toGraphBase.Connected y a → dg.toGraphBase.Connected y b →
              ¬ dg.toGraphBase.Connected x y)) ∧
    (dg.HasVertex a = true → PartialOrder.FindInfimum dg.toGraphBase a a = .ok [a]) ∧
    ((∃ e, PartialOrder.FindInfimum dg.toGraphBase a b = .error e) ↔
      (dg.HasVertex a = false ∨ dg.HasVertex b = false)) := by
  obtain ⟨g', hv, heq, hV, -⟩ := reachable_twin_of_adjacent h hadj
  have key := findInfimum_of_valid g' hv (by rw [heq]; exact hacyclic) a b
  rw [heq] at key
  simp only [hV] at key
  exact key

/-- At the directed graph with the edges `1 -> 3`, `1 -> 4`, `2 -> 3`, `2 -> 4`,
`3 -> 5`, `4 -> 5` and the vertices `3` and `4`: `FindInfimum(3, 4)` is `[1, 2]`. -/
theorem findInfimum_of_adjacent_witness :
    ∃ g : DirectedGraph Nat Nat,
      DirectedGraph.run DirectedGraph.empty
        [.addEdge 1 3 1, .addEdge 1 4 1, .addEdge 2 3 1, .addEdge 2 4 1, .addEdge 3 5 1,
          .addEdge 4 5 1] = .ok g ∧
      g.IsReachable ∧
      (∀ u adj, g.GetAdjacentVertices u = .ok adj → ∀ v, v ∈ adj → g.HasVertex v = true) ∧
      ¬ g.toGraphBase.HasCycle ∧
      PartialOrder.FindInfimum g.toGraphBase 3 4 = .ok [1, 2] ∧
      PartialOrder.FindInfimum g.toGraphBase 3 7 = .error .elementNotFound ∧
      ((g.HasVertex 3 = true → g.HasVertex 4 = true →
        ∃ l : List Nat, PartialOrder.FindInfimum g.toGraphBase 3 4 = .ok l ∧
          l.Nodup ∧
          ∀ x, x ∈ l ↔
            (g.toGraphBase.Connected x 3 ∧ g.toGraphBase.Connected x 4 ∧
              ∀ y, y ≠ x → g.toGraphBase.Connected y 3 → g.toGraphBase.Connected y 4 →
                ¬ g.toGraphBase.Connected x y)) ∧
      (g.HasVertex 3 = true → PartialOrder.FindInfimum g.toGraphBase 3 3 = .ok [3]) ∧
      ((∃ e, PartialOrder.FindInfimum g.toGraphBase 3 4 = .error e) ↔
        (g.HasVertex 3 = false ∨ g.HasVertex 4 = false))) := by
  obtain ⟨g, hg⟩ : ∃ g : DirectedGraph Nat Nat,
      DirectedGraph.run DirectedGraph.empty
        [.addEdge 1 3 1, .addEdge 1 4 1, .addEdge 2 3 1, .addEdge 2 4 1, .addEdge 3 5 1,
          .addEdge 4 5 1] = .ok g :=
    ⟨_, rfl⟩
  have hv : g.Valid := dg_run_buildOps_valid _ g (by decide) hg
  have hr : g.IsReachable := ⟨_, hg⟩
  have ha := valid_adjacent_vertices hv
  have h0 : (DirectedGraph.run DirectedGraph.empty
        [.addEdge 1 3 1, .addEdge 1 4 1, .addEdge 2 3 1, .addEdge 2 4 1, .addEdge 3 5 1,
          .addEdge 4 5 1]).map
      (fun g : DirectedGraph Nat Nat =>
        g.toGraphBase.allEdges (fun u v => decide (u < v))) = .ok true := by decide
  have h1 : (DirectedGraph.run DirectedGraph.empty
        [.addEdge 1 3 1, .addEdge 1 4 1, .addEdge 2 3 1, .addEdge 2 4 1, .addEdge 3 5 1,
          .addEdge 4 5 1]).map
      (fun g : DirectedGraph Nat Nat => PartialOrder.FindInfimum g.toGraphBase 3 4) =
      .ok (.ok [1, 2]) := by decide
  have h2 : (DirectedGraph.run DirectedGraph.empty
        [.addEdge 1 3 1, .addEdge 1 4 1, .addEdge 2 3 1, .addEdge 2 4 1, .addEdge 3 5 1,
          .addEdge 4 5 1]).map
      (fun g : DirectedGraph Nat Nat => PartialOrder.FindInfimum g.toGraphBase 3 7) =
      .ok (.error .elementNotFound) := by decide
  rw [hg] at h0 h1 h2
  simp only [Except.map, Except.ok.injEq] at h0 h1 h2
  have hac : ¬ g.toGraphBase.HasCycle := no_cycle_of_allEdges_lt (dg_valid_toGraphBase hv) h0
  exact ⟨g, hg, hr, ha, hac, h1, h2,
    findInfimum_of_adjacent g hr ha hac 3 4⟩

/-- C27: on every directed graph that the mutators build `IsLattice` returns without an
exception; it returns true iff `IsPartialOrder` accepts the graph and every two
vertices `a`, `b` have a greatest common lower bound and a least common upper bound in
the order `x <= y` iff `x = y` or `y` is reached from `x`; it returns false when
`IsPartialOrder` rejects the graph. -/
theorem C27_isLattice_iff (dg : DirectedGraph T W) (h : dg.IsReachable) :
    ∃ r, PartialOrder.IsLattice dg.toGraphBase = .ok r ∧
      (r = true ↔
        (PartialOrder.IsPartialOrder dg.toGraphBase = .ok true ∧
          ∀ a b, dg.HasVertex a = true → dg.HasVertex b = true →
            (∃ m, dg.toGraphBase.IsInfimum a b m) ∧
              (∃ m, dg.toGraphBase.IsSupremum a b m))) ∧
      (PartialOrder.IsPartialOrder dg.toGraphBase = .ok false → r = false) := by
  obtain ⟨b, hb⟩ := weakInv_isPartialOrder_total (weakInv_of_reachable h)
  cases b with
  | false =>
    refine ⟨false, by simp only [PartialOrder.IsLattice, hb], ?_, fun _ => rfl⟩
    simp [hb]
  | true =>
    obtain ⟨g', hv, heq, hV, -⟩ := reachable_twin_of_partialOrder h hb
    have key := isLattice_iff_of_valid g' hv
    rw [heq] at key
    simp only [hV] at key
    exact key

/-- C27 at the directed graph with the edges `1 -> 2`, `1 -> 3`, `2 -> 4`, `3 -> 4`,
where `IsLattice` is true; with the edges `1 -> 2`, `1 -> 3`, `2 -> 4`, `3 -> 5` it is
false. -/
theorem C27_isLattice_iff_witness :
    ∃ g : DirectedGraph Nat Nat,
      DirectedGraph.run DirectedGraph.empty
        [.addEdge 1 2 1, .addEdge 1 3 1, .addEdge 2 4 1, .addEdge 3 4 1] = .ok g ∧
      g.IsReachable ∧
      PartialOrder.IsLattice g.toGraphBase = .ok true ∧
      (DirectedGraph.run (DirectedGraph.empty : DirectedGraph Nat Nat)
        [.addEdge 1 2 1, .addEdge 1 3 1, .addEdge 2 4 1, .addEdge 3 5 1]).map
        (fun g => PartialOrder.IsLattice g.toGraphBase) = .ok (.ok false) ∧
      ∃ r, PartialOrder.IsLattice g.toGraphBase = .ok r ∧
        (r = true ↔
          (PartialOrder.IsPartialOrder g.toGraphBase = .ok true ∧
            ∀ a b, g.HasVertex a = true → g.HasVertex b = true →
              (∃ m, g.toGraphBase.IsInfimum a b m) ∧
                (∃ m, g.toGraphBase.IsSupremum a b m))) ∧
        (PartialOrder.IsPartialOrder g.toGraphBase = .ok false → r = false) := by
  obtain ⟨g, hg⟩ : ∃ g : DirectedGraph Nat Nat,
      DirectedGraph.run DirectedGraph.empty
        [.addEdge 1 2 1, .addEdge 1 3 1, .addEdge 2 4 1, .addEdge 3 4 1] = .ok g :=
    ⟨_, rfl⟩
  have hr : g.IsReachable := ⟨_, hg⟩
  have h1 : (DirectedGraph.run DirectedGraph.empty
        [.addEdge 1 2 1, .addEdge 1 3 1, .addEdge 2 4 1, .addEdge 3 4 1]).map
      (fun g : DirectedGraph Nat Nat => PartialOrder.IsLattice g.toGraphBase) =
      .ok (.ok true) := by decide
  rw [hg] at h1
  simp only [Except.map, Except.ok.injEq] at h1
  exact ⟨g, hg, hr, h1, by decide, C27_isLattice_iff g hr⟩

end ReachableClaims

section ReachableHasse

variable {T W : Type} [LinearOrder T] [Inhabited W] [One W]

/-- C23: on a directed graph that the mutators build and that `IsPartialOrder` accepts,
`BuildHasseDiagram` returns a graph with the vertices of the input, and with the edge
`(u, v)` whenever `v` is reached from `u`, `u` and `v` differ, and no vertex `w` is
reached from `u` and reaches `v`. -/
theorem C23_hasse_keeps_covering_pairs (dg : DirectedGraph T W) (h : dg.IsReachable)
    (hpo : PartialOrder.IsPartialOrder dg.toGraphBase = .ok true) :
    ∃ hasse : DirectedGraph T W,
      PartialOrder.BuildHasseDiagram dg.toGraphBase = .ok hasse ∧
      (∀ x, hasse.HasVertex x = dg.HasVertex x) ∧
      ∀ u v, u ≠ v → dg.toGraphBase.Reaches u v →
        (¬ ∃ w, dg.toGraphBase.Reaches u w ∧ dg.toGraphBase.Reaches w v) →
        hasse.HasEdge u v = true := by
  obtain ⟨g', hv, heq, hV, -⟩ := reachable_twin_of_partialOrder h hpo
  have key := hasse_covering_pairs_of_valid g' hv (by rw [heq]; exact hpo)
  rw [heq] at key
  simp only [hV] at key
  exact key

/-- C23 at the directed graph with the edges `1 -> 2`, `1 -> 3`, `2 -> 4`, `3 -> 4`,
`1 -> 4`: the result has the edges `(1, 2)`, `(1, 3)`, `(2, 4)`, `(3, 4)` and not the
edge `(1, 4)`. -/
theorem C23_hasse_keeps_covering_pairs_witness :
    ∃ g : DirectedGraph Nat Nat,
      DirectedGraph.run DirectedGraph.empty
        [.addEdge 1 2 1, .addEdge 1 3 1, .addEdge 2 4 1, .addEdge 3 4 1, .addEdge 1 4 1] =
          .ok g ∧
      g.IsReachable ∧ PartialOrder.IsPartialOrder g.toGraphBase = .ok true ∧
      (PartialOrder.BuildHasseDiagram g.toGraphBase).map
        (fun hasse => [hasse.HasEdge 1 2, hasse.HasEdge 1 3, hasse.HasEdge 2 4,
          hasse.HasEdge 3 4, hasse.HasEdge 1 4]) = .ok [true, true, true, true, false] ∧
      ∃ hasse : DirectedGraph Nat Nat,
        PartialOrder.BuildHasseDiagram g.toGraphBase = .ok hasse ∧
        (∀ x, hasse.HasVertex x = g.HasVertex x) ∧
        ∀ u v, u ≠ v → g.toGraphBase.Reaches u v →
          (¬ ∃ w, g.toGraphBase.Reaches u w ∧ g.toGraphBase.Reaches w v) →
          hasse.HasEdge u v = true := by
  obtain ⟨g, hg⟩ : ∃ g : DirectedGraph Nat Nat,
      DirectedGraph.run DirectedGraph.empty
        [.addEdge 1 2 1, .addEdge 1 3 1, .addEdge 2 4 1, .addEdge 3 4 1, .addEdge 1 4 1] =
          .ok g :=
    ⟨_, rfl⟩
  have hr : g.IsReachable := ⟨_, hg⟩
  have h0 : (DirectedGraph.run DirectedGraph.empty
        [.addEdge 1 2 1, .addEdge 1 3 1, .addEdge 2 4 1, .addEdge 3 4 1, .addEdge 1 4 1]).map
      (fun g : DirectedGraph Nat Nat => PartialOrder.IsPartialOrder g.toGraphBase) =
      .ok (.ok true) := by decide
  have h2 : (DirectedGraph.run DirectedGraph.empty
        [.addEdge 1 2 1, .addEdge 1 3 1, .addEdge 2 4 1, .addEdge 3 4 1, .addEdge 1 4 1]).map
      (fun g : DirectedGraph Nat Nat =>
        (PartialOrder.BuildHasseDiagram g.toGraphBase).map
          (fun hasse => [hasse.HasEdge 1 2, hasse.HasEdge 1 3, hasse.HasEdge 2 4,
            hasse.HasEdge 3 4, hasse.HasEdge 1 4])) =
      .ok (.ok [true, true, true, true, false]) := by decide
  rw [hg] at h0 h2
  simp only [Except.map, Except.ok.injEq] at h0
  exact ⟨g, hg, hr, h0, by simpa [Except.map] using h2,
    C23_hasse_keeps_covering_pairs g hr h0⟩

/-- The order algorithms on an object that `RemoveVertex` left with a stale adjacency
entry: after `AddEdge(1, 2)`, `RemoveVertex(2)`, `AddVertex(2)` the entry `(1, 2)` is
an edge again while `GetEdgeCount()` is `0`, so the object does not satisfy the
invariants of the data model; `IsPartialOrder` accepts it, and the algorithms see the
edge `1 -> 2`. -/
theorem order_algorithms_on_stale_entry :
    (DirectedGraph.run (DirectedGraph.empty : DirectedGraph Nat Nat)
      [.addEdge 1 2 1, .removeVertex 2, .addVertex 2]).map
      (fun g => (g.HasEdge 1 2, g.GetEdgeCount)) = .ok (true, 0) ∧
    (DirectedGraph.run (DirectedGraph.empty : DirectedGraph Nat Nat)
      [.addEdge 1 2 1, .removeVertex 2, .addVertex 2]).map
      (fun g => PartialOrder.IsPartialOrder g.toGraphBase) = .ok (.ok true) ∧
    (DirectedGraph.run (DirectedGraph.empty : DirectedGraph Nat Nat)
      [.addEdge 1 2 1, .removeVertex 2, .addVertex 2]).map
      (fun g => PartialOrder.FindMinimalElements g.toGraphBase) = .ok (.ok [1]) ∧
    (DirectedGraph.run (DirectedGraph.empty : DirectedGraph Nat Nat)
      [.addEdge 1 2 1, .removeVertex 2, .addVertex 2]).map
      (fun g => PartialOrder.FindMaximalElements g.toGraphBase) = .ok (.ok [2]) ∧
    (DirectedGraph.run (DirectedGraph.empty : DirectedGraph Nat Nat)
      [.addEdge 1 2 1, .removeVertex 2, .addVertex 2]).map
      (fun g => PartialOrder.GetLevels g.toGraphBase) = .ok (.ok [[1], [2]]) := by
  refine ⟨?_, ?_, ?_, ?_, ?_⟩ <;> decide

end ReachableHasse

/-! ## `IsPartialOrder` and `IsAcyclic` -/

section AcyclicClaim

variable {T W : Type} [LinearOrder T] [Inhabited W]

/-- C39: on every directed graph that the mutators build, `IsPartialOrder` returns the
value of `TopologicalSort::IsAcyclic`: when `KahnSort` returns, `CheckAntisymmetry`
has returned true. -/
theorem C39_isPartialOrder_eq_isAcyclic (dg : DirectedGraph T W) (h : dg.IsReachable) :
    PartialOrder.IsPartialOrder dg.toGraphBase =
      .ok (TopologicalSort.IsAcyclic dg.toGraphBase) := by
  have hw := weakInv_of_reachable h
  obtain ⟨b, hb⟩ := weakInv_isPartialOrder_total hw
  cases hk : TopologicalSort.KahnSort dg.toGraphBase with
  | error e =>
    have hf : TopologicalSort.IsAcyclic dg.toGraphBase = false := by
      simp only [TopologicalSort.IsAcyclic, hk]
    rw [hf, hb]
    cases b with
    | false => rfl
    | true =>
      unfold PartialOrder.IsPartialOrder at hb
      cases hc : PartialOrder.CheckAntisymmetry dg.toGraphBase with
      | error e' => simp [hc] at hb
      | ok c => cases c <;> simp [hc, hk] at hb
  | ok order =>
    have ht : TopologicalSort.IsAcyclic dg.toGraphBase = true := by
      simp only [TopologicalSort.IsAcyclic, hk]
    rw [ht]
    obtain ⟨g', hv, heq, -, -⟩ :=
      reachable_twin_of_adjacent h (weakInv_targets_of_kahnSort hw hk)
    have hg := dg_valid_toGraphBase hv
    rw [heq] at hg
    rcases kahnSort_spec hg with ⟨order', k1, k2⟩ | ⟨k1, -⟩
    · exact isPartialOrder_of_acyclic hg (no_cycle_of_isTopologicalOrder k2)
    · rw [hk] at k1
      cases k1

/-- C39 at the directed graph with the edges `1 -> 2`, `2 -> 1`, where both functions
return false, and at the graph with the edges `1 -> 2`, `1 -> 3`, where both return
true. -/
theorem C39_isPartialOrder_eq_isAcyclic_witness :
    ∃ g : DirectedGraph Nat Nat,
      DirectedGraph.run DirectedGraph.empty [.addEdge 1 2 1, .addEdge 2 1 1] = .ok g ∧
      g.IsReachable ∧
      TopologicalSort.IsAcyclic g.toGraphBase = false ∧
      (DirectedGraph.run (DirectedGraph.empty : DirectedGraph Nat Nat)
        [.addEdge 1 2 1, .addEdge 1 3 1]).map
        (fun g => (PartialOrder.IsPartialOrder g.toGraphBase,
          TopologicalSort.IsAcyclic g.toGraphBase)) = .ok (.ok true, true) ∧
      PartialOrder.IsPartialOrder g.toGraphBase =
        .ok (TopologicalSort.IsAcyclic g.toGraphBase) := by
  obtain ⟨g, hg⟩ : ∃ g : DirectedGraph Nat Nat,
      DirectedGraph.run DirectedGraph.empty [.addEdge 1 2 1, .addEdge 2 1 1] = .ok g :=
    ⟨_, rfl⟩
  have hr : g.IsReachable := ⟨_, hg⟩
  have h1 : (DirectedGraph.run DirectedGraph.empty [.addEdge 1 2 1, .addEdge 2 1 1]).map
      (fun g : DirectedGraph Nat Nat => TopologicalSort.IsAcyclic g.toGraphBase) =
      .ok false := by decide
  rw [hg] at h1
  simp only [Except.map, Except.ok.injEq] at h1
  exact ⟨g, hg, hr, h1, by decide, C39_isPartialOrder_eq_isAcyclic g hr⟩

end AcyclicClaim

/-! ## `BuildHasseDiagram`: the weights, and the covering relation of direct edges -/

section HasseWeights

variable {T W : Type} [LinearOrder T] [Inhabited W] [One W]

/-- One round of the loop over `j` in `BuildHasseDiagram` stores the weight `1` only. -/
theorem hasseEdge_weight (g : GraphBase T W) (vertices : List T) (iu jv : Nat × T)
    {h h' : DirectedGraph T W} (hi : h.Inv)
    (hw : ∀ x y w, storedWeight h.adjMatrix x y = some w → w = 1)
    (e : PartialOrder.hasseEdge g vertices iu h jv = .ok h') :
    ∀ x y w, storedWeight h'.adjMatrix x y = some w → w = 1 := by
  rw [hasseEdge_eq] at e
  cases hk : PartialOrder.hasseKeeps g vertices iu jv
  · simp only [hk, Bool.false_eq_true, if_false, Except.ok.injEq] at e
    exact e ▸ hw
  · obtain ⟨h1, e1, -, e3, -⟩ := DirectedGraph.dg_addEdge_spec hi iu.2 jv.2 (1 : W)
    simp only [hk, if_true, e1, Except.ok.injEq] at e
    subst e
    intro x y w hxy
    rw [e3] at hxy
    split_ifs at hxy
    · exact (Option.some.inj hxy).symm
    · exact hw x y w hxy

/-- The loop over `j` in `BuildHasseDiagram` stores the weight `1` only. -/
theorem hasseRow_weight (g : GraphBase T W) (vertices : List T) (iu : Nat × T) :
    ∀ (l : List (Nat × T)) (h h' : DirectedGraph T W), h.Inv →
      h.vertices.Contains iu.2 = true → (∀ jv, jv ∈ l → h.vertices.Contains jv.2 = true) →
      (∀ x y w, storedWeight h.adjMatrix x y = some w → w = 1) →
      foldlE (PartialOrder.hasseEdge g vertices iu) h l = .ok h' →
      ∀ x y w, storedWeight h'.adjMatrix x y = some w → w = 1 := by
  intro l
  induction l with
  | nil =>
    intro h h' _ _ _ hw e
    simp only [foldlE, Except.ok.injEq] at e
    exact e ▸ hw
  | cons jv l ih =>
    intro h h' hi hu hl hw e
    obtain ⟨h1, a1, a2, a3, -⟩ := hasseEdge_spec g vertices iu jv hi hu
      (hl jv (List.mem_cons_self _ _))
    simp only [foldlE, a1] at e
    exact ih h1 h' a2 (by rw [a3]; exact hu)
      (fun jv' hjv' => by rw [a3]; exact hl jv' (List.mem_cons_of_mem _ hjv'))
      (hasseEdge_weight g vertices iu jv hi hw a1) e

/-- The loop over `i` in `BuildHasseDiagram` stores the weight `1` only. -/
theorem hasseRows_weight (g : GraphBase T W) (vertices : List T) :
    ∀ (rows : List (Nat × T)) (h h' : DirectedGraph T W), h.Inv →
      (∀ iu, iu ∈ rows → h.vertices.Contains iu.2 = true) →
      (∀ jv, jv ∈ vertices.enum → h.vertices.Contains jv.2 = true) →
      (∀ x y w, storedWeight h.adjMatrix x y = some w → w = 1) →
      foldlE (PartialOrder.hasseRow g vertices) h rows = .ok h' →
      ∀ x y w, storedWeight h'.adjMatrix x y = some w → w = 1 := by
  intro rows
  induction rows with
  | nil =>
    intro h h' _ _ _ hw e
    simp only [foldlE, Except.ok.injEq] at e
    exact e ▸ hw
  | cons iu rows ih =>
    intro h h' hi hr hl hw e
    obtain ⟨h1, a1, a2, a3, -⟩ := hasseRow_spec g vertices iu vertices.enum h hi
      (hr iu (List.mem_cons_self _ _)) hl
    have a1' : PartialOrder.hasseRow g vertices h iu = .ok h1 := a1
    simp only [foldlE, a1'] at e
    exact ih h1 h' a2
      (fun iu' hiu' => by rw [a3]; exact hr iu' (List.mem_cons_of_mem _ hiu'))
      (fun jv hjv => by rw [a3]; exact hl jv hjv)
      (hasseRow_weight g vertices iu vertices.enum h h1 hi
        (hr iu (List.mem_cons_self _ _)) hl hw a1) e

/-- Every edge of the result of `BuildHasseDiagram` has the weight `1`. -/
theorem buildHasseDiagram_weight {g : GraphBase T W} {hasse : DirectedGraph T W}
    (hi : hasse.Inv) (e : PartialOrder.BuildHasseDiagram g = .ok hasse) :
    ∀ u v, hasse.HasEdge u v = true → hasse.GetEdgeWeight u v = .ok 1 := by
  unfold PartialOrder.BuildHasseDiagram at e
  cases hpo : PartialOrder.IsPartialOrder g with
  | error e' => simp [hpo] at e
  | ok b =>
    cases b with
    | false => simp [hpo] at e
    | true =>
      simp only [hpo] at e
      obtain ⟨i0, w0, c0⟩ := addVertices_spec g.GetAllVertices
        (DirectedGraph.empty : DirectedGraph T W) DirectedGraph.dg_inv_empty
      have hen : ∀ p : Nat × T, p ∈ g.GetAllVertices.enum →
          (g.GetAllVertices.foldl DirectedGraph.AddVertex
            (DirectedGraph.empty : DirectedGraph T W)).vertices.Contains p.2 = true := by
        intro p hp
        rw [c0]
        simp [List.snd_mem_of_mem_enum hp]
      have hw0 : ∀ x y w, storedWeight (g.GetAllVertices.foldl DirectedGraph.AddVertex
          (DirectedGraph.empty : DirectedGraph T W)).adjMatrix x y = some w → w = 1 := by
        intro x y w hxy
        rw [w0] at hxy
        have : storedWeight (Dictionary.empty : Dictionary T (Dictionary T W)) x y = none :=
          storedWeight_empty x y
        rw [show (DirectedGraph.empty : DirectedGraph T W).adjMatrix = Dictionary.empty
          from rfl, this] at hxy
        cases hxy
      have hw := hasseRows_weight g g.GetAllVertices g.GetAllVertices.enum _ hasse i0 hen hen
        hw0 e
      intro u v he
      rw [dg_getEdgeWeight_spec hi.stored]
      rw [DirectedGraph.dg_hasEdge_iff hi.stored, Option.isSome_iff_exists] at he
      obtain ⟨w, hwv⟩ := he
      rw [hwv, hw u v w hwv]

end HasseWeights

section HasseCoveringClaim

variable {T W : Type} [LinearOrder T] [Inhabited W] [One W]

/-- On a directed graph that the mutators build, whose adjacency lists name
vertices only and that has no directed cycle, `BuildHasseDiagram` returns a graph in
which `(u, v)` is an edge iff `(u, v)` is an edge of the input and no vertex `w` has the
input edges `u -> w` and `w -> v`; every edge of the result has the weight `1`.  That
the edges of the input are transitive is not used. -/
theorem hasse_covering_of_adjacent (dg : DirectedGraph T W) (h : dg.IsReachable)
    (hadj : ∀ u adj, dg.GetAdjacentVertices u = .ok adj →
      ∀ v, v ∈ adj → dg.HasVertex v = true)
    (hacyclic : ¬ dg.toGraphBase.HasCycle) :
    ∃ hasse : DirectedGraph T W,
      PartialOrder.BuildHasseDiagram dg.toGraphBase = .ok hasse ∧
      (∀ u v, hasse.HasEdge u v = true ↔
        (dg.HasEdge u v = true ∧
          ¬ ∃ w, dg.HasEdge u w = true ∧ dg.HasEdge w v = true)) ∧
      ∀ u v, hasse.HasEdge u v = true → hasse.GetEdgeWeight u v = .ok 1 := by
  obtain ⟨g', hv, heq, -, hE⟩ := reachable_twin_of_adjacent h hadj
  have hg := dg_valid_toGraphBase hv
  rw [heq] at hg
  have hpo := isPartialOrder_of_acyclic hg hacyclic
  obtain ⟨hasse, h1, h2, -, h4⟩ := buildHasseDiagram_spec hg hpo
  have hloop : ∀ x, dg.HasEdge x x = true → False :=
    fun x hx => hacyclic ⟨x, Relation.TransGen.single hx⟩
  refine ⟨hasse, h1, ?_, buildHasseDiagram_weight h2 h1⟩
  intro u v
  rw [h4]
  constructor
  · rintro ⟨-, he, hno⟩
    refine ⟨he, ?_⟩
    rintro ⟨w, e1, e2⟩
    have hwu : w ≠ u := fun hh => hloop u (hh ▸ e1)
    have hwv : w ≠ v := fun hh => hloop v (hh ▸ e2)
    exact hno w hwu hwv ⟨e1, e2⟩
  · rintro ⟨he, hno⟩
    refine ⟨fun hh => hloop v (hh ▸ he), he, ?_⟩
    rintro w - - ⟨e1, e2⟩
    exact hno ⟨w, e1, e2⟩

/-- At the directed graph with the edges `1 -> 2`, `1 -> 3`, `2 -> 4`, `3 -> 4`,
`1 -> 4`, which is acyclic and transitive: the result has the edges `(1, 2)`, `(1, 3)`,
`(2, 4)`, `(3, 4)` with the weight `1` and not the edge `(1, 4)`. -/
theorem hasse_covering_of_adjacent_witness :
    ∃ g : DirectedGraph Nat Nat,
      DirectedGraph.run DirectedGraph.empty
        [.addEdge 1 2 5, .addEdge 1 3 5, .addEdge 2 4 5, .addEdge 3 4 5, .addEdge 1 4 5] =
          .ok g ∧
      g.IsReachable ∧
      (∀ u adj, g.GetAdjacentVertices u = .ok adj → ∀ v, v ∈ adj → g.HasVertex v = true) ∧
      ¬ g.toGraphBase.HasCycle ∧
      g.toGraphBase.allEdges (fun u v => g.toGraphBase.allEdges
        (fun v' w => !decide (v = v') || g.HasEdge u w)) = true ∧
      (PartialOrder.BuildHasseDiagram g.toGraphBase).map
        (fun hasse => ([hasse.HasEdge 1 2, hasse.HasEdge 1 3, hasse.HasEdge 2 4,
          hasse.HasEdge 3 4, hasse.HasEdge 1 4], hasse.GetEdgeWeight 1 2)) =
        .ok ([true, true, true, true, false], .ok 1) ∧
      ∃ hasse : DirectedGraph Nat Nat,
        PartialOrder.BuildHasseDiagram g.toGraphBase = .ok hasse ∧
        (∀ u v, hasse.HasEdge u v = true ↔
          (g.HasEdge u v = true ∧
            ¬ ∃ w, g.HasEdge u w = true ∧ g.HasEdge w v = true)) ∧
        ∀ u v, hasse.HasEdge u v = true → hasse.GetEdgeWeight u v = .ok 1 := by
  obtain ⟨g, hg⟩ : ∃ g : DirectedGraph Nat Nat,
      DirectedGraph.run DirectedGraph.empty
        [.addEdge 1 2 5, .addEdge 1 3 5, .addEdge 2 4 5, .addEdge 3 4 5, .addEdge 1 4 5] =
          .ok g :=
    ⟨_, rfl⟩
  have hv : g.Valid := dg_run_buildOps_valid _ g (by decide) hg
  have hr : g.IsReachable := ⟨_, hg⟩
  have ha := valid_adjacent_vertices hv
  have h0 : (DirectedGraph.run DirectedGraph.empty
        [.addEdge 1 2 5, .addEdge 1 3 5, .addEdge 2 4 5, .addEdge 3 4 5, .addEdge 1 4 5]).map
      (fun g : DirectedGraph Nat Nat =>
        g.toGraphBase.allEdges (fun u v => decide (u < v))) = .ok true := by decide
  have h1 : (DirectedGraph.run DirectedGraph.empty
        [.addEdge 1 2 5, .addEdge 1 3 5, .addEdge 2 4 5, .addEdge 3 4 5, .addEdge 1 4 5]).map
      (fun g : DirectedGraph Nat Nat =>
        g.toGraphBase.allEdges (fun u v => g.toGraphBase.allEdges
          (fun v' w => !decide (v = v') || g.HasEdge u w))) = .ok true := by decide
  have h2 : (DirectedGraph.run DirectedGraph.empty
        [.addEdge 1 2 5, .addEdge 1 3 5, .addEdge 2 4 5, .addEdge 3 4 5, .addEdge 1 4 5]).map
      (fun g : DirectedGraph Nat Nat =>
        (PartialOrder.BuildHasseDiagram g.toGraphBase).map
          (fun hasse => ([hasse.HasEdge 1 2, hasse.HasEdge 1 3, hasse.HasEdge 2 4,
            hasse.HasEdge 3 4, hasse.HasEdge 1 4], hasse.GetEdgeWeight 1 2))) =
      .ok (.ok ([true, true, true, true, false], .ok 1)) := by decide
  rw [hg] at h0 h1 h2
  simp only [Except.map, Except.ok.injEq] at h0 h1
  have hac : ¬ g.toGraphBase.HasCycle := no_cycle_of_allEdges_lt (dg_valid_toGraphBase hv) h0
  exact ⟨g, hg, hr, ha, hac, h1, by simpa [Except.map] using h2,
    hasse_covering_of_adjacent g hr ha hac⟩

end HasseCoveringClaim

/-! ## `GetIncomingVertices` and `FindSources` -/

section IncomingFacts

variable {T W : Type} [LinearOrder T] [Inhabited W]

/-- The loop of `GetIncomingVertices` keeps the vertices `v != vertex` with
`HasEdge(v, vertex)`, in ascending order. -/
theorem getIncomingVertices_eq (g : DirectedGraph T W) (vertex : T) :
    g.GetIncomingVertices vertex =
      if g.HasVertex vertex = true then
        .ok (g.vertices.elems.filter (fun v => decide (v ≠ vertex) && g.HasEdge v vertex))
      else .error .vertexNotFound := by
  unfold DirectedGraph.GetIncomingVertices
  cases hv : g.HasVertex vertex
  · simp
  · simp only [Bool.not_true, Bool.false_eq_true, if_false, if_true, Set.ForEach,
      BinaryTree.traverseInOrder, inOrder_eq_foldl]
    have := foldl_append_if (fun v => decide (v ≠ vertex) && g.HasEdge v vertex)
      g.vertices.tree.root.toList []
    simp only [Bool.and_eq_true, decide_eq_true_eq, List.nil_append] at this
    rw [this]
    rfl

/-- The loop of `FindSources` keeps the vertices without an edge from another
vertex. -/
theorem findSources_eq (g : GraphBase T W) :
    TopologicalSort.FindSources g =
      g.GetAllVertices.filter (fun vertex =>
        g.GetAllVertices.all (fun other => !(decide (other ≠ vertex) && g.HasEdge other vertex)))
      := by
  unfold TopologicalSort.FindSources TopologicalSort.sourceCandidate
  simp only
  rw [foldl_append_if]
  rfl

/-- What `GetIncomingVertices` computes: on every directed graph that the mutators
build, for a vertex `v` of the graph `GetIncomingVertices(v)` returns exactly the
vertices `u` other than `v` with `HasEdge(u, v)`, each once; `v` itself is left out also
when it has a self-loop. The call throws the vertex-not-found error iff `v` is no
vertex. -/
theorem getIncomingVertices_without_self (dg : DirectedGraph T W) (h : dg.IsReachable)
    (v : T) :
    (dg.HasVertex v = false → dg.GetIncomingVertices v = .error .vertexNotFound) ∧
    (dg.HasVertex v = true →
      ∃ l, dg.GetIncomingVertices v = .ok l ∧ l.Nodup ∧
        ∀ u, u ∈ l ↔ (u ≠ v ∧ dg.HasEdge u v = true)) := by
  have hw := weakInv_of_reachable h
  rw [getIncomingVertices_eq]
  constructor
  · intro hv
    simp [hv]
  · intro hv
    refine ⟨dg.vertices.elems.filter (fun u => decide (u ≠ v) && dg.HasEdge u v),
      by simp only [hv, if_true], (Set.set_nodup hw.vs_wf).filter _, ?_⟩
    intro u
    rw [List.mem_filter, set_mem_elems_iff hw.vs_wf]
    simp only [Bool.and_eq_true, decide_eq_true_eq]
    constructor
    · exact fun hh => hh.2
    · exact fun hh => ⟨hasEdge_source hh.2, hh⟩

/-- At the directed graph with the edges `1 -> 3`, `2 -> 3`, `3 -> 3`:
`GetIncomingVertices(3)` is `[1, 2]`, and `GetIncomingVertices(7)` throws. -/
theorem getIncomingVertices_without_self_witness :
    ∃ g : DirectedGraph Nat Nat,
      DirectedGraph.run DirectedGraph.empty
        [.addEdge 1 3 1, .addEdge 2 3 1, .addEdge 3 3 1] = .ok g ∧
      g.IsReachable ∧
      g.GetIncomingVertices 3 = .ok [1, 2] ∧
      g.GetIncomingVertices 7 = .error .vertexNotFound ∧
      ((g.HasVertex 3 = false → g.GetIncomingVertices 3 = .error .vertexNotFound) ∧
      (g.HasVertex 3 = true →
        ∃ l, g.GetIncomingVertices 3 = .ok l ∧ l.Nodup ∧
          ∀ u, u ∈ l ↔ (u ≠ 3 ∧ g.HasEdge u 3 = true))) := by
  obtain ⟨g, hg⟩ : ∃ g : DirectedGraph Nat Nat,
      DirectedGraph.run DirectedGraph.empty
        [.addEdge 1 3 1, .addEdge 2 3 1, .addEdge 3 3 1] = .ok g :=
    ⟨_, rfl⟩
  have hr : g.IsReachable := ⟨_, hg⟩
  have h1 : (DirectedGraph.run DirectedGraph.empty
        [.addEdge 1 3 1, .addEdge 2 3 1, .addEdge 3 3 1]).map
      (fun g : DirectedGraph Nat Nat => g.GetIncomingVertices 3) = .ok (.ok [1, 2]) := by
    decide
  have h2 : (DirectedGraph.run DirectedGraph.empty
        [.addEdge 1 3 1, .addEdge 2 3 1, .addEdge 3 3 1]).map
      (fun g : DirectedGraph Nat Nat => g.GetIncomingVertices 7) =
      .ok (.error .vertexNotFound) := by
    decide
  rw [hg] at h1 h2
  simp only [Except.map, Except.ok.injEq] at h1 h2
  exact ⟨g, hg, hr, h1, h2, getIncomingVertices_without_self g hr 3⟩

/-- C32: at the graph with the one edge `1 -> 1`, `HasEdge(1, 1)` holds and
`GetIncomingVertices(1)` returns the empty sequence, so the result is not the sequence
of the vertices `u` with `HasEdge(u, 1)`: the edge of the vertex into itself is left
out. -/
theorem C32_getIncomingVertices_omits_self_loop :
    ∃ g : DirectedGraph Nat Nat,
      DirectedGraph.run DirectedGraph.empty [.addEdge 1 1 1] = .ok g ∧
      g.HasVertex 1 = true ∧ g.HasEdge 1 1 = true ∧ g.GetIncomingVertices 1 = .ok [] ∧
      ¬ ∃ l, g.GetIncomingVertices 1 = .ok l ∧ ∀ u, u ∈ l ↔ g.HasEdge u 1 = true := by
  obtain ⟨g, hg⟩ : ∃ g : DirectedGraph Nat Nat,
      DirectedGraph.run DirectedGraph.empty [.addEdge 1 1 1] = .ok g :=
    ⟨_, rfl⟩
  have h1 : (DirectedGraph.run DirectedGraph.empty [.addEdge 1 1 1]).map
      (fun g : DirectedGraph Nat Nat =>
        (g.HasVertex 1, g.HasEdge 1 1, g.GetIncomingVertices 1)) =
      .ok (true, true, .ok []) := by
    decide
  rw [hg] at h1
  simp only [Except.map, Except.ok.injEq, Prod.mk.injEq] at h1
  refine ⟨g, hg, h1.1, h1.2.1, h1.2.2, ?_⟩
  rintro ⟨l, hl, hm⟩
  rw [h1.2.2] at hl
  simp only [Except.ok.injEq] at hl
  subst hl
  exact absurd ((hm 1).2 h1.2.1) (List.not_mem_nil 1)

/-- What `FindSources` computes: on every directed graph that the mutators build
`FindSources` returns
exactly the vertices `v` for which no vertex `u` other than `v` has `HasEdge(u, v)`,
each once; a self-loop of `v` is not counted as an incoming edge. -/
theorem findSources_without_self (dg : DirectedGraph T W) (h : dg.IsReachable) :
    (TopologicalSort.FindSources dg.toGraphBase).Nodup ∧
    ∀ v, v ∈ TopologicalSort.FindSources dg.toGraphBase ↔
      (dg.HasVertex v = true ∧ ∀ u, u ≠ v → dg.HasEdge u v = false) := by
  have hw := weakInv_of_reachable h
  have hall : dg.toGraphBase.GetAllVertices = dg.vertices.elems :=
    dg_getAllVertices_eq hw.cache
  rw [findSources_eq, hall]
  refine ⟨(Set.set_nodup hw.vs_wf).filter _, ?_⟩
  intro v
  rw [List.mem_filter, set_mem_elems_iff hw.vs_wf]
  simp only [List.all_eq_true, Bool.not_eq_true', Bool.and_eq_false_imp, decide_eq_true_eq,
    ne_eq]
  constructor
  · rintro ⟨hv, hno⟩
    refine ⟨hv, fun u hu => ?_⟩
    cases he : dg.HasEdge u v
    · rfl
    · have hcu : dg.vertices.Contains u = true := hasEdge_source he
      have := hno u ((set_mem_elems_iff hw.vs_wf u).2 hcu) hu
      have he' : dg.toGraphBase.HasEdge u v = true := he
      rw [he'] at this
      cases this
  · rintro ⟨hv, hno⟩
    exact ⟨hv, fun u _ hu => hno u hu⟩

/-- At the directed graph of the repository test, with the edges `1 -> 2`, `1 -> 3`,
`2 -> 4`, `3 -> 4`: the sources are `[1]`, the sinks are `[4]`. -/
theorem findSources_without_self_witness :
    ∃ g : DirectedGraph Nat Nat,
      DirectedGraph.run DirectedGraph.empty
        [.addEdge 1 2 1, .addEdge 1 3 1, .addEdge 2 4 1, .addEdge 3 4 1] = .ok g ∧
      g.IsReachable ∧
      TopologicalSort.FindSources g.toGraphBase = [1] ∧
      TopologicalSort.FindSinks g.toGraphBase = .ok [4] ∧
      ((TopologicalSort.FindSources g.toGraphBase).Nodup ∧
      ∀ v, v ∈ TopologicalSort.FindSources g.toGraphBase ↔
        (g.HasVertex v = true ∧ ∀ u, u ≠ v → g.HasEdge u v = false)) := by
  obtain ⟨g, hg⟩ : ∃ g : DirectedGraph Nat Nat,
      DirectedGraph.run DirectedGraph.empty
        [.addEdge 1 2 1, .addEdge 1 3 1, .addEdge 2 4 1, .addEdge 3 4 1] = .ok g :=
    ⟨_, rfl⟩
  have hr : g.IsReachable := ⟨_, hg⟩
  have h1 : (DirectedGraph.run DirectedGraph.empty
        [.addEdge 1 2 1, .addEdge 1 3 1, .addEdge 2 4 1, .addEdge 3 4 1]).map
      (fun g : DirectedGraph Nat Nat => TopologicalSort.FindSources g.toGraphBase) =
      .ok [1] := by
    decide
  have h2 : (DirectedGraph.run DirectedGraph.empty
        [.addEdge 1 2 1, .addEdge 1 3 1, .addEdge 2 4 1, .addEdge 3 4 1]).map
      (fun g : DirectedGraph Nat Nat => TopologicalSort.FindSinks g.toGraphBase) =
      .ok (.ok [4]) := by
    decide
  rw [hg] at h1 h2
  simp only [Except.map, Except.ok.injEq] at h1 h2
  exact ⟨g, hg, hr, h1, h2, findSources_without_self g hr⟩

/-- C33: at the graph with the one edge `1 -> 1`, `HasEdge(1, 1)` holds, so the vertex
`1` has an incoming edge, and `FindSources` returns `[1]`; `FindSinks` returns the empty
sequence there, so it does count the same edge as an outgoing one. -/
theorem C33_findSources_ignores_self_loop :
    ∃ g : DirectedGraph Nat Nat,
      DirectedGraph.run DirectedGraph.empty [.addEdge 1 1 1] = .ok g ∧
      g.HasEdge 1 1 = true ∧ TopologicalSort.FindSources g.toGraphBase = [1] ∧
      TopologicalSort.FindSinks g.toGraphBase = .ok [] ∧
      ¬ ∀ v, v ∈ TopologicalSort.FindSources g.toGraphBase ↔
        (g.HasVertex v = true ∧ ∀ u, g.HasEdge u v = false) := by
  obtain ⟨g, hg⟩ : ∃ g : DirectedGraph Nat Nat,
      DirectedGraph.run DirectedGraph.empty [.addEdge 1 1 1] = .ok g :=
    ⟨_, rfl⟩
  have h1 : (DirectedGraph.run DirectedGraph.empty [.addEdge 1 1 1]).map
      (fun g : DirectedGraph Nat Nat =>
        (g.HasEdge 1 1, TopologicalSort.FindSources g.toGraphBase,
          TopologicalSort.FindSinks g.toGraphBase)) =
      .ok (true, [1], .ok []) := by
    decide
  rw [hg] at h1
  simp only [Except.map, Except.ok.injEq, Prod.mk.injEq] at h1
  refine ⟨g, hg, h1.1, h1.2.1, h1.2.2, ?_⟩
  intro hall
  have := ((hall 1).1 (by rw [h1.2.1]; exact List.mem_singleton_self 1)).2 1
  rw [h1.1] at this
  cases this

end IncomingFacts

/-! ## `GetEdgeWeight` and `SetEdgeWeight` -/

section EdgeWeightFacts

variable {T W : Type} [LinearOrder T] [Inhabited W]

/-- On a directed graph that the mutators build, `GetEdgeWeight` returns the stored
weight of an edge. -/
theorem weakInv_getEdgeWeight {g : DirectedGraph T W} (h : g.WeakInv) {x y : T}
    (he : g.HasEdge x y = true) :
    ∃ w0, storedWeight g.adjMatrix x y = some w0 ∧ g.GetEdgeWeight x y = .ok w0 := by
  have he' := he
  rw [DirectedGraph.dg_hasEdge_eq] at he'
  simp only [Bool.and_eq_true] at he'
  obtain ⟨⟨hx, -⟩, hs⟩ := he'
  obtain ⟨w0, hw0⟩ := Option.isSome_iff_exists.1 hs
  obtain ⟨d, hget, hfind, -⟩ := weakInv_get h hx
  refine ⟨w0, hw0, ?_⟩
  rw [storedWeight_of_find? hfind] at hw0
  simp [DirectedGraph.GetEdgeWeight, he, hget, dict_get_of_find? hw0]

/-- What `SetEdgeWeight` does to a directed graph that the mutators build. -/
theorem weakInv_setEdgeWeight_spec {g : DirectedGraph T W} (h : g.WeakInv) {u v : T} (w : W)
    (he : g.HasEdge u v = true) :
    ∃ g', g.SetEdgeWeight u v w = .ok g' ∧ g'.WeakInv ∧
      (∀ x y, storedWeight g'.adjMatrix x y =
        if x = u ∧ y = v then some w else storedWeight g.adjMatrix x y) ∧
      g'.vertices = g.vertices ∧ g'.vertexCount = g.vertexCount ∧
      g'.edgeCount = g.edgeCount ∧ g'.cachedVertices = g.cachedVertices := by
  have hcu := hasEdge_source he
  obtain ⟨d, hget, hfind, hd⟩ := weakInv_get h hcu
  have heq : g.SetEdgeWeight u v w = .ok { g with adjMatrix := g.adjMatrix.Add u (d.Add v w) } := by
    simp [DirectedGraph.SetEdgeWeight, he, hget]
  refine ⟨_, heq, weakInv_setEdgeWeight h u v w heq, ?_, rfl, rfl, rfl, rfl⟩
  intro x y
  show storedWeight (g.adjMatrix.Add u (d.Add v w)) x y = _
  rw [storedWeight_put h.adj_wf]
  by_cases hx : x = u
  · subst hx
    rw [if_pos rfl, Dictionary.find?_Add hd, storedWeight_of_find? hfind]
    by_cases hy : y = v
    · simp [hy]
    · simp [hy]
  · simp [hx]

/-- The directed part of C35. -/
theorem dg_edgeWeight_contract {dg : DirectedGraph T W} (h : dg.WeakInv) (u v : T) (w : W) :
    (dg.HasEdge u v = false →
      dg.GetEdgeWeight u v = .error .edgeNotFound ∧
      dg.SetEdgeWeight u v w = .error .edgeNotFound) ∧
    (dg.HasEdge u v = true →
      (∃ w0, dg.GetEdgeWeight u v = .ok w0) ∧
      ∃ g', dg.SetEdgeWeight u v w = .ok g' ∧ g'.GetEdgeWeight u v = .ok w ∧
        (∀ x y, ¬ (x = u ∧ y = v) → g'.GetEdgeWeight x y = dg.GetEdgeWeight x y) ∧
        (∀ x y, g'.HasEdge x y = dg.HasEdge x y) ∧
        (∀ x, g'.HasVertex x = dg.HasVertex x) ∧
        g'.GetVertexCount = dg.GetVertexCount ∧ g'.GetEdgeCount = dg.GetEdgeCount ∧
        g'.GetAllVertices.1 = dg.GetAllVertices.1) := by
  constructor
  · intro he
    simp [DirectedGraph.GetEdgeWeight, DirectedGraph.SetEdgeWeight, he]
  · intro he
    obtain ⟨w0, -, hw0⟩ := weakInv_getEdgeWeight h he
    obtain ⟨g', e1, e2, e3, e4, e5, e6, e7⟩ := weakInv_setEdgeWeight_spec h w he
    have hE : ∀ x y, g'.HasEdge x y = dg.HasEdge x y := by
      intro x y
      rw [DirectedGraph.dg_hasEdge_eq, DirectedGraph.dg_hasEdge_eq, e4, e3]
      by_cases hxy : x = u ∧ y = v
      · obtain ⟨rfl, rfl⟩ := hxy
        have he' := he
        rw [DirectedGraph.dg_hasEdge_eq] at he'
        simp only [Bool.and_eq_true] at he'
        simp [he'.2, he'.1.1, he'.1.2]
      · rw [if_neg hxy]
    refine ⟨⟨w0, hw0⟩, g', e1, ?_, ?_, hE, ?_, e5, e6, ?_⟩
    · obtain ⟨w1, s1, g1⟩ := weakInv_getEdgeWeight e2 ((hE u v).trans he)
      rw [e3, if_pos ⟨rfl, rfl⟩] at s1
      rw [g1, ← Option.some.inj s1]
    · intro x y hxy
      cases hxe : dg.HasEdge x y
      · simp [DirectedGraph.GetEdgeWeight, hxe, hE x y]
      · obtain ⟨w1, s1, g1⟩ := weakInv_getEdgeWeight e2 ((hE x y).trans hxe)
        obtain ⟨w2, s2, g2⟩ := weakInv_getEdgeWeight h hxe
        rw [e3, if_neg hxy, s2] at s1
        rw [g1, g2, Option.some.inj s1]
    · intro x
      show g'.vertices.Contains x = dg.vertices.Contains x
      rw [e4]
    · unfold DirectedGraph.GetAllVertices
      rw [e7, e4]
      cases dg.cachedVertices <;> rfl

/-- The undirected part of C35. -/
theorem ug_edgeWeight_contract {ug : UndirectedGraph T W} (h : ug.Inv) (u v : T) (w : W) :
    (ug.HasEdge u v = false →
      ug.GetEdgeWeight u v = .error .edgeNotFound ∧
      ug.SetEdgeWeight u v w = .error .edgeNotFound) ∧
    (ug.HasEdge u v = true →
      (∃ w0, ug.GetEdgeWeight u v = .ok w0) ∧
      ∃ g', ug.SetEdgeWeight u v w = .ok g' ∧ g'.GetEdgeWeight u v = .ok w ∧
        g'.GetEdgeWeight v u = .ok w ∧
        (∀ x y, ¬ (x = u ∧ y = v) → ¬ (x = v ∧ y = u) →
          g'.GetEdgeWeight x y = ug.GetEdgeWeight x y) ∧
        (∀ x y, g'.HasEdge x y = ug.HasEdge x y) ∧
        (∀ x, g'.HasVertex x = ug.HasVertex x) ∧
        g'.GetVertexCount = ug.GetVertexCount ∧ g'.GetEdgeCount = ug.GetEdgeCount) := by
  obtain ⟨s1, s2⟩ := UndirectedGraph.ug_setEdgeWeight_spec h u v w
  constructor
  · intro he
    exact ⟨by simp [UndirectedGraph.GetEdgeWeight, he], s1 he⟩
  · intro he
    obtain ⟨g', e1, e2, e3, e4, e5, e6⟩ := s2 he
    have hs : (storedWeight ug.adjMatrix u v).isSome = true := by
      rw [← UndirectedGraph.ug_hasEdge_iff h.stored]; exact he
    obtain ⟨w0, hw0⟩ := Option.isSome_iff_exists.1 hs
    have hE : ∀ x y, g'.HasEdge x y = ug.HasEdge x y := by
      intro x y
      rw [UndirectedGraph.ug_hasEdge_iff e2.stored, UndirectedGraph.ug_hasEdge_iff h.stored, e3]
      by_cases hxy : (x = u ∧ y = v) ∨ (x = v ∧ y = u)
      · rw [if_pos hxy]
        rcases hxy with ⟨rfl, rfl⟩ | ⟨rfl, rfl⟩
        · rw [hs]; rfl
        · rw [h.symm x y, hs]; rfl
      · rw [if_neg hxy]
    refine ⟨⟨w0, by rw [UndirectedGraph.ug_getEdgeWeight_spec h.stored, hw0]⟩, g', e1, ?_, ?_,
      ?_, hE, ?_, e6, e5⟩
    · rw [UndirectedGraph.ug_getEdgeWeight_spec e2.stored, e3, if_pos (Or.inl ⟨rfl, rfl⟩)]
    · rw [UndirectedGraph.ug_getEdgeWeight_spec e2.stored, e3, if_pos (Or.inr ⟨rfl, rfl⟩)]
    · intro x y h1 h2
      rw [UndirectedGraph.ug_getEdgeWeight_spec e2.stored,
        UndirectedGraph.ug_getEdgeWeight_spec h.stored, e3, if_neg (by tauto)]
    · intro x
      show g'.vertices.Contains x = ug.vertices.Contains x
      rw [e4]

end EdgeWeightFacts

/-! ## The vertex cache in a program -/

section SessionFacts

variable {T W : Type} [LinearOrder T] [Inhabited W]

/-- The elements of a search tree stand in ascending order. -/
theorem set_elems_sorted {s : Set T} (h : s.WF) : s.elems.Pairwise (fun a b => a < b) :=
  (isBST_iff_pairwise id _).1 h

theorem dg_query_weakInv {g : DirectedGraph T W} (h : g.WeakInv) :
    g.GetAllVertices.2.WeakInv := by
  unfold DirectedGraph.GetAllVertices
  cases hc : g.cachedVertices with
  | some c => exact h
  | none =>
    refine weakInv_congr h rfl rfl rfl ?_
    intro c hc'
    simp only [Option.some.injEq] at hc'
    rw [← hc']
    exact Set.set_forEach_collect g.vertices

theorem ug_query_valid {g : UndirectedGraph T W} (h : g.Valid) : g.GetAllVertices.2.Valid := by
  unfold UndirectedGraph.GetAllVertices
  cases hc : g.cachedVertices with
  | some c => exact h
  | none =>
    refine ⟨⟨h.1.stored, h.1.symm, h.1.vcount, h.1.ecount⟩, ?_⟩
    intro c hc'
    simp only [Option.some.injEq] at hc'
    rw [← hc']
    exact Set.set_forEach_collect g.vertices

theorem dg_assign_weakInv (g : DirectedGraph T W) {other : DirectedGraph T W}
    (h : other.WeakInv) : (g.assign other).WeakInv where
  vs_wf := h.vs_wf
  adj_wf := h.adj_wf
  inner_wf := h.inner_wf
  keys_eq := h.keys_eq
  vcount := h.vcount
  cache := dg_cacheOk_of_none rfl

theorem ug_assign_valid (g : UndirectedGraph T W) {other : UndirectedGraph T W}
    (h : other.Valid) : (g.assign other).Valid :=
  ⟨⟨h.1.stored, h.1.symm, h.1.vcount, h.1.ecount⟩, ug_cacheOk_of_none rfl⟩

/-- Every state of a directed graph object in a program keeps the invariants that all
mutators keep, the cache included. -/
theorem dg_inSession_weakInv {g : DirectedGraph T W} (h : g.InSession) : g.WeakInv := by
  induction h with
  | init => exact weakInv_empty
  | mutate op _ hs ih => exact weakInv_step ih op hs
  | query _ ih => exact dg_query_weakInv ih
  | assign _ _ _ ih2 => exact dg_assign_weakInv _ ih2

/-- Every state of an undirected graph object in a program satisfies the invariants of
the data model. -/
theorem ug_inSession_valid {g : UndirectedGraph T W} (h : g.InSession) : g.Valid := by
  induction h with
  | init => exact ug_valid_empty
  | mutate op _ hs ih => exact ⟨UndirectedGraph.ug_step_inv ih.1 op hs, ug_step_cacheOk ih.2 op hs⟩
  | query _ ih => exact ug_query_valid ih
  | assign _ _ _ ih2 => exact ug_assign_valid _ ih2

theorem dg_inSession_of_run (ops : List (GraphOp T W)) :
    ∀ g g' : DirectedGraph T W, g.InSession → DirectedGraph.run g ops = .ok g' →
      g'.InSession := by
  induction ops with
  | nil =>
    intro g g' h hr
    simp only [DirectedGraph.run, Except.ok.injEq] at hr
    exact hr ▸ h
  | cons op ops ih =>
    intro g g' h hr
    simp only [DirectedGraph.run] at hr
    cases hs : g.step op with
    | error e => rw [hs] at hr; cases hr
    | ok g1 =>
      rw [hs] at hr
      exact ih g1 g' (.mutate op h hs) hr

/-- A directed graph that a sequence of mutator calls builds is a state of an object in
a program. -/
theorem dg_inSession_of_reachable {g : DirectedGraph T W} (h : g.IsReachable) :
    g.InSession := by
  obtain ⟨ops, hr⟩ := h
  exact dg_inSession_of_run ops _ g .init hr

theorem ug_inSession_of_run (ops : List (GraphOp T W)) :
    ∀ g g' : UndirectedGraph T W, g.InSession → UndirectedGraph.run g ops = .ok g' →
      g'.InSession := by
  induction ops with
  | nil =>
    intro g g' h hr
    simp only [UndirectedGraph.run, Except.ok.injEq] at hr
    exact hr ▸ h
  | cons op ops ih =>
    intro g g' h hr
    simp only [UndirectedGraph.run] at hr
    cases hs : g.step op with
    | error e => rw [hs] at hr; cases hr
    | ok g1 =>
      rw [hs] at hr
      exact ih g1 g' (.mutate op h hs) hr

/-- In a state of a directed graph object in a program the only call that throws is
`SetEdgeWeight` on a missing edge, which throws at its guard, before any change. -/
theorem dg_step_error {g : DirectedGraph T W} (h : g.WeakInv) (op : GraphOp T W) (e : Error)
    (hs : g.step op = .error e) :
    ∃ u v w, op = .setEdgeWeight u v w ∧ g.HasEdge u v = false ∧ e = .edgeNotFound := by
  cases op with
  | addVertex v => simp [DirectedGraph.step] at hs
  | addEdge u v w =>
    have i2 := weakInv_addVertex (weakInv_addVertex h u) v
    have hcu : ((g.AddVertex u).AddVertex v).vertices.Contains u = true := by
      rw [addVertex_contains (weakInv_addVertex h u), addVertex_contains h]; simp
    obtain ⟨d, hget, -, -⟩ := weakInv_get i2 hcu
    simp [DirectedGraph.step, DirectedGraph.dg_addEdge_eq g u v w hget] at hs
  | removeVertex v =>
    exfalso
    simp only [DirectedGraph.step, DirectedGraph.RemoveVertex] at hs
    cases hv : g.HasVertex v
    · simp [hv] at hs
    · have hcv : g.vertices.Contains v = true := hv
      obtain ⟨d, hget, hfind, -⟩ := weakInv_get h hcv
      have hck : g.adjMatrix.ContainsKey v = true := by
        rw [← Dictionary.isSome_find?, hfind]; rfl
      simp only [hv, Bool.not_true, Bool.false_eq_true, if_false, hck, if_true, hget,
        Set.ForEachE, BinaryTree.traverseInOrderE, UndirectedGraph.inOrderE_eq_foldlE] at hs
      have key : ∀ (l : List T) (g0 : DirectedGraph T W),
          ∃ g1, foldlE (DirectedGraph.removeIncoming v) g0 l = .ok g1 := by
        intro l
        induction l with
        | nil => intro g0; exact ⟨g0, rfl⟩
        | cons a l ih =>
          intro g0
          have hstep : ∃ g1, DirectedGraph.removeIncoming v g0 a = .ok g1 := by
            unfold DirectedGraph.removeIncoming
            by_cases hc : a ≠ v ∧ g0.adjMatrix.ContainsKey a = true
            · obtain ⟨da, hda⟩ := (Dictionary.Get_isOk _ _).1 hc.2
              rw [if_pos hc, hda]
              simp only
              split
              · exact ⟨_, rfl⟩
              · exact ⟨_, rfl⟩
            · rw [if_neg hc]
              exact ⟨_, rfl⟩
          obtain ⟨g1, h1⟩ := hstep
          obtain ⟨g2, h2⟩ := ih g1
          exact ⟨g2, by simp only [foldlE, h1, h2]⟩
      obtain ⟨g1, h1⟩ := key _ _
      rw [h1] at hs
      cases hs
  | removeEdge u v =>
    exfalso
    simp only [DirectedGraph.step, DirectedGraph.RemoveEdge] at hs
    cases he : g.HasEdge u v
    · simp [he] at hs
    · obtain ⟨d, hget, -, -⟩ := weakInv_get h (hasEdge_source he)
      simp [he, hget] at hs
  | setEdgeWeight u v w =>
    cases he : g.HasEdge u v
    · refine ⟨u, v, w, rfl, he, ?_⟩
      simp [DirectedGraph.step, DirectedGraph.SetEdgeWeight, he] at hs
      exact hs.symm
    · obtain ⟨g', e1, -⟩ := weakInv_setEdgeWeight_spec h w he
      simp [DirectedGraph.step, e1] at hs
  | clear => simp [DirectedGraph.step] at hs

end SessionFacts

section SessionClaims

variable {T W : Type} [LinearOrder T] [Inhabited W]

/-- C34: in every state that an object of either graph class takes in a program that
calls the mutators, `GetAllVertices` and the assignment operator in any order,
`GetAllVertices` returns the vertices of that state in strictly ascending order, so
every vertex once: `x` is in the snapshot iff `HasVertex(x)`. -/
theorem C34_getAllVertices_never_stale (dg : DirectedGraph T W) (ug : UndirectedGraph T W)
    (hd : dg.InSession) (hu : ug.InSession) :
    (dg.GetAllVertices.1.Pairwise (fun a b => a < b) ∧
      ∀ x, x ∈ dg.GetAllVertices.1 ↔ dg.HasVertex x = true) ∧
    (ug.GetAllVertices.1.Pairwise (fun a b => a < b) ∧
      ∀ x, x ∈ ug.GetAllVertices.1 ↔ ug.HasVertex x = true) := by
  have h1 := dg_inSession_weakInv hd
  have h2 := ug_inSession_valid hu
  rw [dg_getAllVertices_eq h1.cache, ug_getAllVertices_eq h2.2]
  exact ⟨⟨set_elems_sorted h1.vs_wf, fun x => set_mem_elems_iff h1.vs_wf x⟩,
    ⟨set_elems_sorted h2.1.stored.vs_wf, fun x => set_mem_elems_iff h2.1.stored.vs_wf x⟩⟩

/-- C35: in every state of a directed or an undirected graph object, `GetEdgeWeight(u, v)`
and `SetEdgeWeight(u, v, w)` throw the edge-not-found error when `HasEdge(u, v)` is
false and return when it is true; after a `SetEdgeWeight` that returns,
`GetEdgeWeight(u, v)` is `w` (and `GetEdgeWeight(v, u)` on an undirected graph), the
weight of every other edge, `HasEdge`, `HasVertex` and the two counts are as before. -/
theorem C35_edge_weight_contract (dg : DirectedGraph T W) (ug : UndirectedGraph T W)
    (hd : dg.InSession) (hu : ug.InSession) (u v : T) (w : W) :
    ((dg.HasEdge u v = false →
        dg.GetEdgeWeight u v = .error .edgeNotFound ∧
        dg.SetEdgeWeight u v w = .error .edgeNotFound) ∧
      (dg.HasEdge u v = true →
        (∃ w0, dg.GetEdgeWeight u v = .ok w0) ∧
        ∃ g', dg.SetEdgeWeight u v w = .ok g' ∧ g'.GetEdgeWeight u v = .ok w ∧
          (∀ x y, ¬ (x = u ∧ y = v) → g'.GetEdgeWeight x y = dg.GetEdgeWeight x y) ∧
          (∀ x y, g'.HasEdge x y = dg.HasEdge x y) ∧
          (∀ x, g'.HasVertex x = dg.HasVertex x) ∧
          g'.GetVertexCount = dg.GetVertexCount ∧ g'.GetEdgeCount = dg.GetEdgeCount ∧
          g'.GetAllVertices.1 = dg.GetAllVertices.1)) ∧
    ((ug.HasEdge u v = false →
        ug.GetEdgeWeight u v = .error .edgeNotFound ∧
        ug.SetEdgeWeight u v w = .error .edgeNotFound) ∧
      (ug.HasEdge u v = true →
        (∃ w0, ug.GetEdgeWeight u v = .ok w0) ∧
        ∃ g', ug.SetEdgeWeight u v w = .ok g' ∧ g'.GetEdgeWeight u v = .ok w ∧
          g'.GetEdgeWeight v u = .ok w ∧
          (∀ x y, ¬ (x = u ∧ y = v) → ¬ (x = v ∧ y = u) →
            g'.GetEdgeWeight x y = ug.GetEdgeWeight x y) ∧
          (∀ x y, g'.HasEdge x y = ug.HasEdge x y) ∧
          (∀ x, g'.HasVertex x = ug.HasVertex x) ∧
          g'.GetVertexCount = ug.GetVertexCount ∧ g'.GetEdgeCount = ug.GetEdgeCount)) :=
  ⟨dg_edgeWeight_contract (dg_inSession_weakInv hd) u v w,
    ug_edgeWeight_contract (ug_inSession_valid hu).1 u v w⟩

end SessionClaims

/-- C34 at two programs.  Directed: `AddEdge(3, 1)`, `GetAllVertices` (`[1, 3]`),
`AddVertex(2)`, `GetAllVertices` (`[1, 2, 3]`), `RemoveVertex(3)`, `GetAllVertices`
(`[1, 2]`), the assignment of a graph with the vertex `9` whose cache is filled,
`GetAllVertices` (`[9]`).  Undirected: `AddEdge(3, 1)`, `GetAllVertices`, `RemoveEdge(3,
1)`, `GetAllVertices` (`[1, 3]`), `Clear`, `GetAllVertices` (empty). -/
theorem C34_getAllVertices_never_stale_witness :
    ∃ (d1 d2 dg : DirectedGraph Nat Nat) (u1 u2 ug : UndirectedGraph Nat Nat),
      DirectedGraph.empty.step (.addEdge 3 1 1) = .ok d1 ∧
      d1.GetAllVertices.1 = [1, 3] ∧
      (d1.GetAllVertices.2.AddVertex 2).GetAllVertices.1 = [1, 2, 3] ∧
      (d1.GetAllVertices.2.AddVertex 2).GetAllVertices.2.step (.removeVertex 3) = .ok d2 ∧
      d2.GetAllVertices.1 = [1, 2] ∧
      dg = d2.GetAllVertices.2.assign
        ((DirectedGraph.empty : DirectedGraph Nat Nat).AddVertex 9).GetAllVertices.2 ∧
      dg.GetAllVertices.1 = [9] ∧
      UndirectedGraph.empty.step (.addEdge 3 1 1) = .ok u1 ∧
      u1.GetAllVertices.1 = [1, 3] ∧
      u1.GetAllVertices.2.step (.removeEdge 3 1) = .ok u2 ∧
      u2.GetAllVertices.1 = [1, 3] ∧
      ug = u2.GetAllVertices.2.Clear ∧
      dg.InSession ∧ ug.InSession ∧
      ((dg.GetAllVertices.1.Pairwise (fun a b => a < b) ∧
        ∀ x, x ∈ dg.GetAllVertices.1 ↔ dg.HasVertex x = true) ∧
      (ug.GetAllVertices.1.Pairwise (fun a b => a < b) ∧
        ∀ x, x ∈ ug.GetAllVertices.1 ↔ ug.HasVertex x = true)) := by
  have key : ∃ (d1 d2 : DirectedGraph Nat Nat) (u1 u2 : UndirectedGraph Nat Nat),
      DirectedGraph.empty.step (.addEdge 3 1 1) = .ok d1 ∧
      (d1.GetAllVertices.2.AddVertex 2).GetAllVertices.2.step (.removeVertex 3) = .ok d2 ∧
      UndirectedGraph.empty.step (.addEdge 3 1 1) = .ok u1 ∧
      u1.GetAllVertices.2.step (.removeEdge 3 1) = .ok u2 ∧
      d1.GetAllVertices.1 = [1, 3] ∧
      (d1.GetAllVertices.2.AddVertex 2).GetAllVertices.1 = [1, 2, 3] ∧
      d2.GetAllVertices.1 = [1, 2] ∧
      (d2.GetAllVertices.2.assign
        ((DirectedGraph.empty : DirectedGraph Nat Nat).AddVertex 9).GetAllVertices.2
        ).GetAllVertices.1 = [9] ∧
      u1.GetAllVertices.1 = [1, 3] ∧ u2.GetAllVertices.1 = [1, 3] :=
    ⟨_, _, _, _, rfl, rfl, rfl, rfl, by decide, by decide, by decide, by decide, by decide,
      by decide⟩
  obtain ⟨d1, d2, u1, u2, a1, a2, b1, b2, s1, s2, s3, s4, s5, s6⟩ := key
  have hd1 : d1.InSession := .mutate _ .init a1
  have hd2 : d2.InSession :=
    .mutate _ (.query (.mutate (.addVertex 2) (.query hd1) rfl)) a2
  have hother : (((DirectedGraph.empty : DirectedGraph Nat Nat).AddVertex 9).GetAllVertices.2
      ).InSession := .query (.mutate (.addVertex 9) .init rfl)
  have hdg := DirectedGraph.InSession.assign (.query hd2) hother
  have hu1 : u1.InSession := .mutate _ .init b1
  have hu2 : u2.InSession := .mutate _ (.query hu1) b2
  have hug : (u2.GetAllVertices.2.Clear).InSession := .mutate .clear (.query hu2) rfl
  exact ⟨d1, d2, _, u1, u2, _, a1, s1, s2, a2, s3, rfl, s4, b1, s5, b2, s6, rfl, hdg, hug,
    C34_getAllVertices_never_stale _ _ hdg hug⟩

/-- C35 at the graphs with the edges `1 - 2` (weight `5`) and `2 - 3` (weight `7`), with
`u = 1`, `v = 2`, `w = 9`: after `SetEdgeWeight(1, 2, 9)` the weight of `(1, 2)` is `9`
and that of `(2, 3)` is `7`; `(2, 1)` is no edge of the directed graph and has the
weight `9` in the undirected one; `SetEdgeWeight(1, 3, 9)` throws. -/
theorem C35_edge_weight_contract_witness :
    ∃ (dg : DirectedGraph Nat Nat) (ug : UndirectedGraph Nat Nat),
      DirectedGraph.run DirectedGraph.empty [.addEdge 1 2 5, .addEdge 2 3 7] = .ok dg ∧
      UndirectedGraph.run UndirectedGraph.empty [.addEdge 1 2 5, .addEdge 2 3 7] = .ok ug ∧
      dg.InSession ∧ ug.InSession ∧
      (dg.SetEdgeWeight 1 2 9).map
        (fun g => [g.GetEdgeWeight 1 2, g.GetEdgeWeight 2 3, g.GetEdgeWeight 2 1]) =
        .ok [.ok 9, .ok 7, .error .edgeNotFound] ∧
      (ug.SetEdgeWeight 1 2 9).map
        (fun g => [g.GetEdgeWeight 1 2, g.GetEdgeWeight 2 3, g.GetEdgeWeight 2 1]) =
        .ok [.ok 9, .ok 7, .ok 9] ∧
      dg.SetEdgeWeight 1 3 9 = .error .edgeNotFound ∧
      ug.SetEdgeWeight 1 3 9 = .error .edgeNotFound ∧
      (((dg.HasEdge 1 2 = false →
          dg.GetEdgeWeight 1 2 = .error .edgeNotFound ∧
          dg.SetEdgeWeight 1 2 9 = .error .edgeNotFound) ∧
        (dg.HasEdge 1 2 = true →
          (∃ w0, dg.GetEdgeWeight 1 2 = .ok w0) ∧
          ∃ g', dg.SetEdgeWeight 1 2 9 = .ok g' ∧ g'.GetEdgeWeight 1 2 = .ok 9 ∧
            (∀ x y, ¬ (x = 1 ∧ y = 2) → g'.GetEdgeWeight x y = dg.GetEdgeWeight x y) ∧
            (∀ x y, g'.HasEdge x y = dg.HasEdge x y) ∧
            (∀ x, g'.HasVertex x = dg.HasVertex x) ∧
            g'.GetVertexCount = dg.GetVertexCount ∧ g'.GetEdgeCount = dg.GetEdgeCount ∧
            g'.GetAllVertices.1 = dg.GetAllVertices.1)) ∧
      ((ug.HasEdge 1 2 = false →
          ug.GetEdgeWeight 1 2 = .error .edgeNotFound ∧
          ug.SetEdgeWeight 1 2 9 = .error .edgeNotFound) ∧
        (ug.HasEdge 1 2 = true →
          (∃ w0, ug.GetEdgeWeight 1 2 = .ok w0) ∧
          ∃ g', ug.SetEdgeWeight 1 2 9 = .ok g' ∧ g'.GetEdgeWeight 1 2 = .ok 9 ∧
            g'.GetEdgeWeight 2 1 = .ok 9 ∧
            (∀ x y, ¬ (x = 1 ∧ y = 2) → ¬ (x = 2 ∧ y = 1) →
              g'.GetEdgeWeight x y = ug.GetEdgeWeight x y) ∧
            (∀ x y, g'.HasEdge x y = ug.HasEdge x y) ∧
            (∀ x, g'.HasVertex x = ug.HasVertex x) ∧
            g'.GetVertexCount = ug.GetVertexCount ∧ g'.GetEdgeCount = ug.GetEdgeCount))) := by
  have key : ∃ (dg : DirectedGraph Nat Nat) (ug : UndirectedGraph Nat Nat),
      DirectedGraph.run DirectedGraph.empty [.addEdge 1 2 5, .addEdge 2 3 7] = .ok dg ∧
      UndirectedGraph.run UndirectedGraph.empty [.addEdge 1 2 5, .addEdge 2 3 7] = .ok ug ∧
      (dg.SetEdgeWeight 1 2 9).map
        (fun g => [g.GetEdgeWeight 1 2, g.GetEdgeWeight 2 3, g.GetEdgeWeight 2 1]) =
        .ok [.ok 9, .ok 7, .error .edgeNotFound] ∧
      (ug.SetEdgeWeight 1 2 9).map
        (fun g => [g.GetEdgeWeight 1 2, g.GetEdgeWeight 2 3, g.GetEdgeWeight 2 1]) =
        .ok [.ok 9, .ok 7, .ok 9] ∧
      dg.SetEdgeWeight 1 3 9 = .error .edgeNotFound ∧
      ug.SetEdgeWeight 1 3 9 = .error .edgeNotFound :=
    ⟨_, _, rfl, rfl, by decide, by decide, by decide, by decide⟩
  obtain ⟨dg, ug, a1, a2, s1, s2, s3, s4⟩ := key
  have hd : dg.InSession := dg_inSession_of_reachable ⟨_, a1⟩
  have hu : ug.InSession := ug_inSession_of_run _ _ _ .init a2
  exact ⟨dg, ug, a1, a2, hd, hu, s1, s2, s3, s4, C35_edge_weight_contract dg ug hd hu 1 2 9⟩

/-! ## `DijkstraWithPath` with weights of any sign -/

section PathAnySign

variable {T R : Type} [LinearOrder T] [Inhabited T] [LinearOrderedRing R] [Inhabited R]

/-- One round of the main loop of `DijkstraWithPath` keeps the invariant that does not
depend on the sign of the weights. -/
theorem pathInvW_step {g : GraphBase T R} (hg : g.Valid) {start endVertex : T}
    (hs : g.HasVertex start = true)
    {s : ShortestPath.PathState T R} (hi : ShortestPath.PathInvW g start endVertex s) {u : T}
    (huv : g.HasVertex u = true) (hun : s.visited.Contains u = false)
    (hfin : ShortestPath.distOf s.distances u ≠ ⊤) (hue : u ≠ endVertex)
    {adj : List T} (hadjm : ∀ v, v ∈ adj ↔ g.HasEdge u v = true)
    {d' : Dictionary T (WithTop R)} {prev' : Dictionary T T} (hd' : d'.WF) (hp' : prev'.WF)
    (hdom : ∀ v, (d'.find? v).isSome = (s.distances.find? v).isSome)
    (hsame : ∀ v, ¬ (v ∈ adj ∧ (s.visited.Add u).Contains v = false) →
      ShortestPath.distOf d' v = ShortestPath.distOf s.distances v)
    (hpsame : ∀ v, ShortestPath.distOf d' v = ShortestPath.distOf s.distances v →
      prev'.find? v = s.previous.find? v)
    (hpnew : ∀ v, ShortestPath.distOf d' v ≠ ShortestPath.distOf s.distances v →
      prev'.find? v = some u) :
    ShortestPath.PathInvW g start endVertex
      { distances := d', previous := prev', visited := s.visited.Add u } := by
  have hvis : ∀ x, (s.visited.Add u).Contains x = (decide (x = u) || s.visited.Contains x) :=
    fun x => set_contains_add hi.vwf u x
  have hvsame : ∀ v, (s.visited.Add u).Contains v = true →
      ShortestPath.distOf d' v = ShortestPath.distOf s.distances v := by
    intro v hv
    apply hsame
    rintro ⟨-, h2⟩
    rw [hv] at h2
    cases h2
  have hup : ∀ x, s.visited.Contains x = true → (s.visited.Add u).Contains x = true := by
    intro x hx
    rw [hvis, hx]
    simp
  have hua : (s.visited.Add u).Contains u = true := by
    rw [hvis]; simp
  have hchain_old : ∀ x, s.visited.Contains x = true →
      ∃ p c, ShortestPath.PrevChain prev' start x p ∧ g.Walk start p x c ∧ p.Nodup ∧
        ∀ y, y ∈ p → s.visited.Contains y = true := by
    intro x hx
    obtain ⟨p, c, c1, c2, c4, c5⟩ := hi.chain x hx
    exact ⟨p, c, prevChain_congr c1 (fun y hy => hpsame y (hvsame y (hup y (c5 y hy)))),
      c2, c4, c5⟩
  refine ⟨hd', fun v hv => by rw [hdom]; exact hi.dom v hv, hp', Set.set_wf_add hi.vwf u,
    ?_, ?_, ?_, ?_⟩
  · intro v hv
    change (s.visited.Add u).Contains v = true at hv
    rw [hvis] at hv
    by_cases hvu : v = u
    · rw [hvu]; exact huv
    · exact hi.vvert v (by simpa [hvu] using hv)
  · show (s.visited.Add u).Contains endVertex = false
    rw [hvis, hi.endFresh]
    have : ¬ endVertex = u := fun h => hue h.symm
    simp [this]
  · intro v hv hvs
    show ∃ y w, prev'.find? v = some y ∧ (s.visited.Add u).Contains y = true ∧
      g.GetEdgeWeight y v = .ok w
    change ShortestPath.distOf d' v ≠ ⊤ at hv
    by_cases hsm : ShortestPath.distOf d' v = ShortestPath.distOf s.distances v
    · obtain ⟨y, w, q1, q2, q3⟩ := hi.pred v (hsm ▸ hv) hvs
      exact ⟨y, w, by rw [hpsame v hsm, q1], hup y q2, q3⟩
    · have hin : v ∈ adj := by
        by_contra hn
        exact hsm (hsame v (fun hh => hn hh.1))
      obtain ⟨w, hw1⟩ := (hg.weight_iff u v).2 ((hadjm v).1 hin)
      exact ⟨u, w, hpnew v hsm, hua, hw1⟩
  · intro x hx
    show ∃ p c, ShortestPath.PrevChain prev' start x p ∧ g.Walk start p x c ∧ p.Nodup ∧
      ∀ y, y ∈ p → (s.visited.Add u).Contains y = true
    change (s.visited.Add u).Contains x = true at hx
    by_cases hxu : x = u
    · subst hxu
      by_cases hxs : x = start
      · subst hxs
        refine ⟨[x], 0, .base, .start hs, by simp, ?_⟩
        intro y hy
        have : y = x := by simpa using hy
        rw [this]; exact hua
      · obtain ⟨y, w, q1, q2, q3⟩ := hi.pred x hfin hxs
        obtain ⟨p, c, c1, c2, c4, c5⟩ := hchain_old y q2
        have hxp : x ∉ p := by
          intro h
          have := c5 x h
          rw [hun] at this
          cases this
        refine ⟨p ++ [x], c + w, .link hxs ?_ c1, .step c2 q3, ?_, ?_⟩
        · rw [hpsame x (hvsame x hua), q1]
        · rw [List.nodup_append]
          refine ⟨c4, by simp, ?_⟩
          intro z hz1 hz2
          have : z = x := by simpa using hz2
          exact hxp (this ▸ hz1)
        · intro z hz
          rcases List.mem_append.1 hz with hz | hz
          · exact hup z (c5 z hz)
          · have : z = x := by simpa using hz
            rw [this]; exact hua
    · have hxo : s.visited.Contains x = true := by
        rw [hvis] at hx
        simpa [hxu] using hx
      obtain ⟨p, c, c1, c2, c4, c5⟩ := hchain_old x hxo
      exact ⟨p, c, c1, c2, c4, fun y hy => hup y (c5 y hy)⟩

/-- The main loop of `DijkstraWithPath` does not throw and keeps the invariant, whatever
the sign of the weights. -/
theorem dijkstraPathLoop_total {g : GraphBase T R} (hg : g.Valid) {start endVertex : T}
    (hs : g.HasVertex start = true) :
    ∀ (n : Nat) (s : ShortestPath.PathState T R),
      ShortestPath.PathInvW g start endVertex s →
      ∃ s', ShortestPath.dijkstraPathLoop g endVertex n s = .ok s' ∧
        ShortestPath.PathInvW g start endVertex s' := by
  intro n
  induction n with
  | zero => intro s hi; exact ⟨s, rfl, hi⟩
  | succ n ih =>
    intro s hi
    obtain ⟨⟨ru, rm⟩, hr, -, hcase⟩ := selectMin_spec (g := g) s.distances s.visited
      (fun v hv => hi.dom v ((hg.mem_all v).1 hv))
    rcases hcase with ⟨h1, h2⟩ | ⟨u, h1, h2, h3, h4, h5⟩
    · simp only at h1 h2
      subst h1 h2
      exact ⟨s, by simp only [ShortestPath.dijkstraPathLoop, hr], hi⟩
    · simp only at h1 h4 h5
      subst h1
      have hfin : ShortestPath.distOf s.distances u ≠ ⊤ := by rw [h4]; exact h5
      by_cases hue : u = endVertex
      · refine ⟨s, ?_, hi⟩
        simp only [ShortestPath.dijkstraPathLoop, hr, h5, if_false, hue, if_true]
      · have huv : g.HasVertex u = true := (hg.mem_all u).1 h2
        obtain ⟨adj, hadj, hadjn, hadjm⟩ := hg.adj_ok u huv
        have hua : (s.visited.Add u).Contains u = true := by
          rw [set_contains_add hi.vwf]; simp
        obtain ⟨d', prev', f1, f2, f3, f4, f5⟩ := relaxWithPath_foldlE hg (s.visited.Add u) hua
          adj s.distances s.previous hi.dwf hi.pwf hi.dom hadjn
          (fun v hv => (hadjm v).1 hv)
        obtain ⟨d'', r1, r2, r3, r4, -⟩ := relax_foldlE hg (s.visited.Add u) hua adj
          s.distances hi.dwf hi.dom hadjn (fun v hv => (hadjm v).1 hv)
        rw [f2] at r1
        cases r1
        have hinv := pathInvW_step hg hs hi huv h3 hfin hue hadjm r2 f3 r3 r4 f4 f5
        obtain ⟨s', g1, g2⟩ := ih _ hinv
        refine ⟨s', ?_, g2⟩
        simp only [ShortestPath.dijkstraPathLoop, hr, h5, if_false, hue, hadj, f1]
        exact g1

/-- Whatever the sign of the weights, `DijkstraWithPath` returns: the empty sequence, or
a path from `start` to `endVertex` on which no vertex occurs twice. -/
theorem dijkstraWithPath_total {g : GraphBase T R} (hg : g.Valid) {start endVertex : T}
    (hs : g.HasVertex start = true) (he : g.HasVertex endVertex = true) :
    ∃ path, ShortestPath.DijkstraWithPath g start endVertex = .ok path ∧
      (path = [] ∨ ∃ c, g.Walk start path endVertex c ∧ path.Nodup) := by
  obtain ⟨i1, i2, i3⟩ := initDistances_spec (R := R) g.GetAllVertices start
  have hinit : ShortestPath.PathInvW g start endVertex
      { distances := ShortestPath.initDistances g.GetAllVertices start
        previous := Dictionary.empty, visited := Set.empty } := by
    refine ⟨i1, fun v hv => i2 v ((hg.mem_all v).2 hv), Dictionary.WF_empty,
      Set.set_wf_empty, ?_, set_contains_empty _, ?_, ?_⟩
    · intro v hv
      change (Set.empty : Set T).Contains v = true at hv
      rw [set_contains_empty] at hv
      cases hv
    · intro v hv hvs
      change ShortestPath.distOf (ShortestPath.initDistances g.GetAllVertices start) v ≠ ⊤ at hv
      rw [i3, if_neg hvs] at hv
      exact absurd rfl hv
    · intro u hu
      change (Set.empty : Set T).Contains u = true at hu
      rw [set_contains_empty] at hu
      cases hu
  obtain ⟨s, h1, h2⟩ := dijkstraPathLoop_total hg hs g.GetVertexCount.toNat _ hinit
  have hget := get_eq_distOf (h2.dom endVertex he)
  have hrun : ∀ r, (if ShortestPath.distOf s.distances endVertex = ⊤ then
        (.ok [] : Except Error (List T))
      else ShortestPath.reconstruct s.previous start (g.GetAllVertices.length + 1)
        endVertex []) = r →
      ShortestPath.DijkstraWithPath g start endVertex = r := by
    intro r hr
    rw [← hr]
    simp only [ShortestPath.DijkstraWithPath, hs, he, h1, hget]
    simp
  by_cases htop : ShortestPath.distOf s.distances endVertex = ⊤
  · exact ⟨[], hrun _ (by rw [if_pos htop]), Or.inl rfl⟩
  · have hchain : ∃ p c, ShortestPath.PrevChain s.previous start endVertex p ∧
        g.Walk start p endVertex c ∧ p.Nodup ∧ ∀ x, x ∈ p → g.HasVertex x = true := by
      by_cases hes : endVertex = start
      · refine ⟨[start], 0, ?_, ?_, by simp, ?_⟩
        · rw [hes]; exact .base
        · rw [hes]; exact .start hs
        · intro x hx
          have : x = start := by simpa using hx
          rw [this]; exact hs
      · obtain ⟨y, w, q1, q2, q3⟩ := h2.pred endVertex htop hes
        obtain ⟨p, c, c1, c2, c4, c5⟩ := h2.chain y q2
        have hxp : endVertex ∉ p := by
          intro h
          have := c5 endVertex h
          rw [h2.endFresh] at this
          cases this
        refine ⟨p ++ [endVertex], c + w, .link hes q1 c1, .step c2 q3, ?_, ?_⟩
        · rw [List.nodup_append]
          refine ⟨c4, by simp, ?_⟩
          intro z hz1 hz2
          have : z = endVertex := by simpa using hz2
          exact hxp (this ▸ hz1)
        · intro z hz
          rcases List.mem_append.1 hz with hz | hz
          · exact h2.vvert z (c5 z hz)
          · have : z = endVertex := by simpa using hz
            rw [this]; exact he
    obtain ⟨p, c, c1, c2, c4, c5⟩ := hchain
    have hlen : p.length ≤ g.GetAllVertices.length + 1 :=
      le_trans (length_le_of_nodup_of_vertices hg c4 c5) (Nat.le_succ _)
    refine ⟨p, hrun _ ?_, Or.inr ⟨c, c2, c4⟩⟩
    rw [if_neg htop, reconstruct_spec c1 _ [] hlen, List.append_nil]

/-- The function `DijkstraWithPath` on an object that `RemoveVertex` left with an entry
for a removed vertex: after `AddEdge(1, 2)`, `RemoveVertex(2)`, `AddVertex(3)` the call
from `1` to `3` takes the neighbour `2` of `1` from `GetAdjacentVertices` and throws
"Edge does not exist" at `GetEdgeWeight(1, 2)`; the call from `3` to `1` returns the
empty sequence. -/
theorem dijkstraWithPath_after_removeVertex :
    (DirectedGraph.run (DirectedGraph.empty : DirectedGraph Nat Int)
        [.addEdge 1 2 1, .removeVertex 2, .addVertex 3]).map
      (fun g => ShortestPath.DijkstraWithPath g.toGraphBase 1 3) =
        .ok (.error .edgeNotFound) ∧
    (DirectedGraph.run (DirectedGraph.empty : DirectedGraph Nat Int)
        [.addEdge 1 2 1, .removeVertex 2, .addVertex 3]).map
      (fun g => ShortestPath.DijkstraWithPath g.toGraphBase 3 1) = .ok (.ok []) := by
  refine ⟨?_, ?_⟩ <;> decide

/-- The interface of a directed graph that the mutators build and whose adjacency lists
name vertices only is that of an object that satisfies the invariants of the data
model. -/
theorem isGraph_of_reachable {W : Type} [Inhabited W] {dg : DirectedGraph T W}
    (h : dg.IsReachable)
    (hadj : ∀ u adj, dg.GetAdjacentVertices u = .ok adj →
      ∀ v, v ∈ adj → dg.HasVertex v = true) : dg.toGraphBase.IsGraph := by
  obtain ⟨g', hv, heq, -, -⟩ := reachable_twin_of_adjacent h hadj
  exact Or.inl ⟨g', hv, heq.symm⟩

end PathAnySign

/-! ## `ReconstructPath` -/

section ReconstructFacts

variable {T R : Type} [LinearOrder T] [LinearOrderedRing R] [Inhabited R]

/-- When the search for a predecessor leads from `a` to `b` and from `b` to `a`, and
neither is the start, the `while` loop of `ReconstructPath` does not end: whatever
number of rounds it is allowed, it has not returned within them. -/
theorem reconstructPathLoop_cycle {g : GraphBase T R} (start : T) {a b : T}
    {d : Dictionary T (WithTop R)} (ha : a ≠ start) (hb : b ≠ start)
    (hab : foldlE (ShortestPath.findPrevStep g d a) none g.GetAllVertices = .ok (some b))
    (hba : foldlE (ShortestPath.findPrevStep g d b) none g.GetAllVertices = .ok (some a)) :
    ∀ (fuel : Nat) (path : List T),
      ShortestPath.reconstructPathLoop g start d fuel a path = .error .outOfFuel ∧
      ShortestPath.reconstructPathLoop g start d fuel b path = .error .outOfFuel := by
  intro fuel
  induction fuel with
  | zero => intro path; exact ⟨rfl, rfl⟩
  | succ fuel ih =>
    intro path
    constructor
    · simp only [ShortestPath.reconstructPathLoop, ha, if_false, hab]
      exact (ih (b :: path)).2
    · simp only [ShortestPath.reconstructPathLoop, hb, if_false, hba]
      exact (ih (a :: path)).1

end ReconstructFacts

/-- C36, the code at the undirected graph with the edges `3 - 1` of weight `1` and
`1 - 2` of weight `0`, with `start = 3`, `end = 2` and the distances of
`Dijkstra(graph, 3)`, which are `1` for the vertices `1` and `2`: from `2` the search
finds the predecessor `1`, from `1` it finds `2` again, because the edge of weight `0`
fits in both directions, and the `while` loop does not end within any number of rounds.
The same happens at the directed graph with the edges `2 -> 1` of weight `1` and
`1 -> 1` of weight `0`, from `2` to `1`. -/
theorem C36_reconstructPath_zero_weight_loop :
    (UndirectedGraph.run (UndirectedGraph.empty : UndirectedGraph Nat Int)
        [.addEdge 3 1 1, .addEdge 1 2 0]).map
      (fun g => [g.toGraphBase.allWeights (fun w => decide (0 ≤ w)),
        g.HasVertex 3, g.HasVertex 2]) = .ok [true, true, true] ∧
    (UndirectedGraph.run (UndirectedGraph.empty : UndirectedGraph Nat Int)
        [.addEdge 3 1 1, .addEdge 1 2 0]).map
      (fun g => (ShortestPath.Dijkstra g.toGraphBase 3).map ShortestPath.toList) =
      .ok (.ok [(1, 1), (2, 1), (3, 0)]) ∧
    (∀ fuel, (UndirectedGraph.run (UndirectedGraph.empty : UndirectedGraph Nat Int)
        [.addEdge 3 1 1, .addEdge 1 2 0]).map
      (fun g => ShortestPath.reconstructFromDijkstra fuel g.toGraphBase 3 2) =
      .ok (.error .outOfFuel)) ∧
    (∀ fuel, (DirectedGraph.run (DirectedGraph.empty : DirectedGraph Nat Int)
        [.addEdge 2 1 1, .addEdge 1 1 0]).map
      (fun g => ShortestPath.reconstructFromDijkstra fuel g.toGraphBase 2 1) =
      .ok (.error .outOfFuel)) := by
  refine ⟨by decide, by decide, ?_, ?_⟩
  · intro fuel
    have key : ∃ (g : UndirectedGraph Nat Int) (d : Dictionary Nat (WithTop Int)),
        UndirectedGraph.run UndirectedGraph.empty [.addEdge 3 1 1, .addEdge 1 2 0] = .ok g ∧
        ShortestPath.Dijkstra g.toGraphBase 3 = .ok d ∧
        g.toGraphBase.HasVertex 3 = true ∧ g.toGraphBase.HasVertex 2 = true ∧
        d.Get 2 = .ok 1 ∧
        foldlE (ShortestPath.findPrevStep g.toGraphBase d 2) none
          g.toGraphBase.GetAllVertices = .ok (some 1) ∧
        foldlE (ShortestPath.findPrevStep g.toGraphBase d 1) none
          g.toGraphBase.GetAllVertices = .ok (some 2) :=
      ⟨_, _, rfl, rfl, by decide, by decide, by decide, by decide, by decide⟩
    obtain ⟨g, d, hg, hd, h3, h2, hget, f1, f2⟩ := key
    have hloop := (reconstructPathLoop_cycle 3 (by decide) (by decide) f1 f2
      fuel [2]).1
    rw [hg]
    simp only [Except.map, ShortestPath.reconstructFromDijkstra, hd,
      ShortestPath.ReconstructPath, h3, h2, hget]
    simpa using hloop
  · intro fuel
    have key : ∃ (g : DirectedGraph Nat Int) (d : Dictionary Nat (WithTop Int)),
        DirectedGraph.run DirectedGraph.empty [.addEdge 2 1 1, .addEdge 1 1 0] = .ok g ∧
        ShortestPath.Dijkstra g.toGraphBase 2 = .ok d ∧
        g.toGraphBase.HasVertex 2 = true ∧ g.toGraphBase.HasVertex 1 = true ∧
        d.Get 1 = .ok 1 ∧
        foldlE (ShortestPath.findPrevStep g.toGraphBase d 1) none
          g.toGraphBase.GetAllVertices = .ok (some 1) :=
      ⟨_, _, rfl, rfl, by decide, by decide, by decide, by decide⟩
    obtain ⟨g, d, hg, hd, h2, h1, hget, f1⟩ := key
    have hloop := (reconstructPathLoop_cycle 2 (by decide) (by decide) f1 f1
      fuel [1]).1
    rw [hg]
    simp only [Except.map, ShortestPath.reconstructFromDijkstra, hd,
      ShortestPath.ReconstructPath, h2, h1, hget]
    simpa using hloop

/-! ## The textual snapshot of an undirected graph -/

/-- C31, the code at undirected graphs with a self-loop.  After `AddEdge(1, 1, 5)` the
graph has the edge `(1, 1)` and `GetEdgeCount` is `1`; `SerializeToStream` writes the
header `U 1 1`, the vertex `1` and no edge record, because the callback writes an entry
only when `from < to`; `DeserializeFromStream` asks for one edge record and throws
"Failed to read edge".  After `AddEdge(1, 2, 7)`, `AddEdge(2, 2, 5)`, `AddEdge(3, 4, 1)`
the header announces `3` edges, the stream holds the two records `1 2 7` and `3 4 1`,
and reading it back throws as well. -/
theorem C31_self_loop_breaks_roundTrip :
    (UndirectedGraph.run (UndirectedGraph.empty : UndirectedGraph Nat Nat)
        [.addEdge 1 1 5]).map
      (fun g => (g.HasEdge 1 1, g.GetEdgeCount)) = .ok (true, 1) ∧
    (UndirectedGraph.run (UndirectedGraph.empty : UndirectedGraph Nat Nat)
        [.addEdge 1 1 5]).map
      (fun g => g.SerializeToStream) = .ok (.ok [.word "U", .int 1, .int 1, .vertex 1]) ∧
    (UndirectedGraph.run (UndirectedGraph.empty : UndirectedGraph Nat Nat)
        [.addEdge 1 1 5]).map
      (fun g => g.roundTrip.map (fun h => h.GetEdgeCount)) =
        .ok (.error .malformedRecord) ∧
    (UndirectedGraph.run (UndirectedGraph.empty : UndirectedGraph Nat Nat)
        [.addEdge 1 2 7, .addEdge 2 2 5, .addEdge 3 4 1]).map
      (fun g => g.SerializeToStream) =
        .ok (.ok [.word "U", .int 4, .int 3, .vertex 1, .vertex 2, .vertex 3, .vertex 4,
          .vertex 1, .vertex 2, .weight 7, .vertex 3, .vertex 4, .weight 1]) ∧
    (UndirectedGraph.run (UndirectedGraph.empty : UndirectedGraph Nat Nat)
        [.addEdge 1 2 7, .addEdge 2 2 5, .addEdge 3 4 1]).map
      (fun g => g.roundTrip.map (fun h => h.GetEdgeCount)) =
        .ok (.error .malformedRecord) ∧
    (UndirectedGraph.run (UndirectedGraph.empty : UndirectedGraph Nat Nat)
        [.addEdge 1 2 1, .addEdge 1 3 2, .addEdge 2 3 3]).map
      (fun g => g.roundTrip.map (fun h =>
        ([h.GetVertexCount, h.GetEdgeCount], [h.HasEdge 1 2, h.HasEdge 1 3, h.HasEdge 2 3],
          h.GetEdgeWeight 2 3))) =
        .ok (.ok ([3, 3], [true, true, true], .ok 3)) := by
  refine ⟨?_, ?_, ?_, ?_, ?_, ?_⟩ <;> decide

/-! ## `GetLevels`: the level of a vertex is the length of its longest incoming path -/

section HeightFacts

variable {T W : Type} [LinearOrder T]

end HeightFacts

section HeightClaim

variable {T W : Type} [LinearOrder T] [Inhabited W]

end HeightClaim

/-! ## `ReconstructPath` on graphs with positive weights -/

section ReconstructPositive

variable {T R : Type} [LinearOrder T] [LinearOrderedRing R] [Inhabited R]

/-- A vertex other than the start with a finite distance has a predecessor through
which its distance is reached. -/
theorem distance_pred_exists {g : GraphBase T R} (hg : g.Valid) {start : T}
    {d : Dictionary T (WithTop R)}
    (hD : ∀ v, g.HasVertex v = true → g.IsDistance start v (ShortestPath.distOf d v))
    {x : T} (hx : g.HasVertex x = true) (hxs : x ≠ start) {c : R}
    (hc : ShortestPath.distOf d x = (c : WithTop R)) :
    ∃ p w, g.GetEdgeWeight p x = .ok w ∧
      ShortestPath.distOf d p + (w : WithTop R) = ShortestPath.distOf d x := by
  obtain ⟨P, hP, -⟩ := (hD x hx).2 c hc
  have hlow := (hD x hx).1
  rw [hc] at hlow
  clear hc
  cases hP with
  | start _ => exact absurd rfl hxs
  | @step q v dd _ w hq he =>
    have hv := (walk_vertex hg hq).2
    have hle : ShortestPath.distOf d v ≤ (dd : WithTop R) := (hD v hv).1 q dd hq
    obtain ⟨dv, hdv⟩ := WithTop.ne_top_iff_exists.1 (ne_top_of_le_ne_top WithTop.coe_ne_top hle)
    obtain ⟨P', hP', -⟩ := (hD v hv).2 dv hdv.symm
    have h1 : ((dd + w : R) : WithTop R) ≤ ((dv + w : R) : WithTop R) :=
      hlow _ _ (.step hP' he)
    have h2 : dv ≤ dd := by
      rw [← hdv] at hle
      exact WithTop.coe_le_coe.1 hle
    have h3 : dd + w ≤ dv + w := WithTop.coe_le_coe.1 h1
    have h4 : dv = dd := le_antisymm h2 (le_of_add_le_add_right h3)
    refine ⟨v, w, he, ?_⟩
    have hx' : ShortestPath.distOf d x = ((dd + w : R) : WithTop R) := by
      have := (hD x hx).2
      exact le_antisymm
        (by
          have := (hD x hx).1 _ _ (GraphBase.Walk.step hq he)
          exact this)
        (by
          cases hcx : ShortestPath.distOf d x with
          | top => exact le_top
          | coe cx =>
            obtain ⟨Px, hPx, -⟩ := (hD x hx).2 cx hcx
            exact hlow _ _ hPx)
    rw [hx', ← hdv, h4, WithTop.coe_add]

/-- The first search for a predecessor in `ReconstructPath` does not throw; it stops at
the first vertex through which the distance of `x` is reached. -/
theorem findPrev_fold {g : GraphBase T R} (hg : g.Valid) {d : Dictionary T (WithTop R)}
    (hget : ∀ v, g.HasVertex v = true → d.Get v = .ok (ShortestPath.distOf d v))
    {x : T} (hx : g.HasVertex x = true) :
    ∀ (l : List T), (∀ q, q ∈ l → g.HasVertex q = true) → ∀ found : Option T,
      ∃ r, foldlE (ShortestPath.findPrevStep g d x) found l = .ok r ∧
        (∀ p, found = some p → r = some p) ∧
        (found = none →
          (r = none → ∀ q w, q ∈ l → g.GetEdgeWeight q x = .ok w →
            ShortestPath.distOf d q + (w : WithTop R) ≠ ShortestPath.distOf d x) ∧
          (∀ q, r = some q → ∃ w, g.GetEdgeWeight q x = .ok w ∧
            ShortestPath.distOf d q + (w : WithTop R) = ShortestPath.distOf d x)) := by
  intro l
  induction l with
  | nil =>
    intro _ found
    refine ⟨found, rfl, fun p hp => hp, fun hf => ⟨fun _ q w hq => (nomatch hq), ?_⟩⟩
    intro q hq
    rw [hf] at hq
    cases hq
  | cons a l ih =>
    intro hl found
    have hla : g.HasVertex a = true := hl a (List.mem_cons_self _ _)
    have hl' : ∀ q, q ∈ l → g.HasVertex q = true :=
      fun q hq => hl q (List.mem_cons_of_mem _ hq)
    cases found with
    | some p =>
      obtain ⟨r, h1, h2, -⟩ := ih hl' (some p)
      refine ⟨r, by simp only [foldlE, ShortestPath.findPrevStep, h1], ?_, ?_⟩
      · intro p' hp'
        exact h2 p' hp'
      · intro hf
        cases hf
    | none =>
      cases he : g.HasEdge a x with
      | false =>
        obtain ⟨r, h1, -, h3⟩ := ih hl' none
        refine ⟨r, by simp [foldlE, ShortestPath.findPrevStep, he, h1], ?_, ?_⟩
        · intro p hp
          cases hp
        · intro _
          refine ⟨?_, (h3 rfl).2⟩
          intro hr q w hq hw
          rcases List.mem_cons.1 hq with rfl | hq
          · have := (hg.weight_iff q x).1 ⟨w, hw⟩
            rw [he] at this
            cases this
          · exact (h3 rfl).1 hr q w hq hw
      | true =>
        obtain ⟨w, hw⟩ := (hg.weight_iff a x).2 he
        by_cases heq : ShortestPath.distOf d a + (w : WithTop R) = ShortestPath.distOf d x
        · obtain ⟨r, h1, h2, -⟩ := ih hl' (some a)
          have hr := h2 a rfl
          refine ⟨r, by simp [foldlE, ShortestPath.findPrevStep, he, hw, hget a hla,
            hget x hx, heq, h1], ?_, ?_⟩
          · intro p hp
            cases hp
          · intro _
            refine ⟨?_, ?_⟩
            · intro hn
              rw [hr] at hn
              cases hn
            · intro q hq
              rw [hr] at hq
              cases hq
              exact ⟨w, hw, heq⟩
        · obtain ⟨r, h1, -, h3⟩ := ih hl' none
          refine ⟨r, by simp [foldlE, ShortestPath.findPrevStep, he, hw, hget a hla,
            hget x hx, heq, h1], ?_, ?_⟩
          · intro p hp
            cases hp
          · intro _
            refine ⟨?_, (h3 rfl).2⟩
            intro hr q w' hq hw'
            rcases List.mem_cons.1 hq with rfl | hq
            · rw [hw] at hw'
              cases hw'
              exact heq
            · exact (h3 rfl).1 hr q w' hq hw'

/-- A path continued at its front by an edge. -/
theorem walk_cons {g : GraphBase T R} (hg : g.Valid) {q x e : T} {p : List T} {w c : R}
    (hw : g.GetEdgeWeight q x = .ok w) (hp : g.Walk x p e c) :
    g.Walk q (q :: p) e (w + c) := by
  have hq : g.HasVertex q = true := hg.edge_left q x ((hg.weight_iff q x).1 ⟨w, hw⟩)
  have h1 : g.Walk q ([q] ++ [x]) x (0 + w) := .step (.start hq) hw
  have h2 := walk_append h1 hp
  have hhead := (walk_head_last hg hp).1
  have hpx : p = x :: p.tail := by
    cases p with
    | nil => simp at hhead
    | cons a p =>
      simp only [List.head?_cons, Option.some.injEq] at hhead
      rw [hhead]
      rfl
  have hl : [q] ++ [x] ++ p.tail = q :: p := by
    conv_rhs => rw [hpx]
    rfl
  rw [hl, zero_add] at h2
  exact h2

/-- With positive weights and the distances of the graph, the `while` loop of
`ReconstructPath` ends within as many rounds as there are vertices nearer to the start
than `x`, plus one, and returns a path of the weight `distances[end]`. -/
theorem reconstructPathLoop_positive {g : GraphBase T R} (hg : g.Valid)
    (hpos : ∀ u v w, g.GetEdgeWeight u v = .ok w → 0 < w) {start endVertex : T}
    (hs : g.HasVertex start = true) {d : Dictionary T (WithTop R)}
    (hget : ∀ v, g.HasVertex v = true → d.Get v = .ok (ShortestPath.distOf d v))
    (hD : ∀ v, g.HasVertex v = true → g.IsDistance start v (ShortestPath.distOf d v)) :
    ∀ (fuel : Nat) (x : T) (path : List T) (c : R), g.HasVertex x = true →
      ShortestPath.distOf d x ≠ ⊤ → g.Walk x path endVertex c →
      ShortestPath.distOf d x + (c : WithTop R) = ShortestPath.distOf d endVertex →
      (g.GetAllVertices.toFinset.filter
        (fun v => ShortestPath.distOf d v < ShortestPath.distOf d x)).card < fuel →
      ∃ result c', ShortestPath.reconstructPathLoop g start d fuel x path = .ok result ∧
        g.Walk start result endVertex c' ∧
        (c' : WithTop R) = ShortestPath.distOf d endVertex := by
  have hstart0 : ShortestPath.distOf d start = 0 := by
    have hle : ShortestPath.distOf d start ≤ ((0 : R) : WithTop R) :=
      (hD start hs).1 [start] 0 (.start hs)
    obtain ⟨c0, hc0⟩ := WithTop.ne_top_iff_exists.1
      (ne_top_of_le_ne_top WithTop.coe_ne_top hle)
    obtain ⟨p, hp, -⟩ := (hD start hs).2 c0 hc0.symm
    have h0 : 0 ≤ c0 := walk_nonneg (fun u v w h => le_of_lt (hpos u v w h)) hp
    rw [← hc0] at hle ⊢
    have : c0 ≤ 0 := WithTop.coe_le_coe.1 hle
    rw [le_antisymm this h0]
    rfl
  intro fuel
  induction fuel with
  | zero => intro x path c _ _ _ _ hm; omega
  | succ fuel ih =>
    intro x path c hx hfin hwalk hsum hm
    by_cases hxs : x = start
    · subst hxs
      refine ⟨path, c, by simp [ShortestPath.reconstructPathLoop], hwalk, ?_⟩
      rw [← hsum, hstart0, zero_add]
    · obtain ⟨cx, hcx⟩ := WithTop.ne_top_iff_exists.1 hfin
      obtain ⟨p0, w0, hw0, hp0⟩ := distance_pred_exists hg hD hx hxs hcx.symm
      obtain ⟨r, hr, -, h3⟩ := findPrev_fold hg hget hx g.GetAllVertices
        (fun q hq => (hg.mem_all q).1 hq) none
      obtain ⟨hnone, hsome⟩ := h3 rfl
      cases r with
      | none =>
        have hp0v : g.HasVertex p0 = true :=
          hg.edge_left p0 x ((hg.weight_iff p0 x).1 ⟨w0, hw0⟩)
        exact absurd hp0 (hnone rfl p0 w0 ((hg.mem_all p0).2 hp0v) hw0)
      | some q =>
        obtain ⟨w, hw, hq⟩ := hsome q rfl
        have hqv : g.HasVertex q = true :=
          hg.edge_left q x ((hg.weight_iff q x).1 ⟨w, hw⟩)
        have hwpos := hpos q x w hw
        have hqfin : ShortestPath.distOf d q ≠ ⊤ := by
          intro htop
          rw [htop, WithTop.top_add] at hq
          exact hfin hq.symm
        obtain ⟨cq, hcq⟩ := WithTop.ne_top_iff_exists.1 hqfin
        have hlt : ShortestPath.distOf d q < ShortestPath.distOf d x := by
          rw [← hq, ← hcq, ← WithTop.coe_add, WithTop.coe_lt_coe]
          exact lt_add_of_pos_right cq hwpos
        have hmeasure : (g.GetAllVertices.toFinset.filter
            (fun v => ShortestPath.distOf d v < ShortestPath.distOf d q)).card <
            (g.GetAllVertices.toFinset.filter
            (fun v => ShortestPath.distOf d v < ShortestPath.distOf d x)).card := by
          apply Finset.card_lt_card
          rw [Finset.ssubset_iff_of_subset]
          · refine ⟨q, ?_, ?_⟩
            · rw [Finset.mem_filter, List.mem_toFinset]
              exact ⟨(hg.mem_all q).2 hqv, hlt⟩
            · rw [Finset.mem_filter]
              exact fun hh => lt_irrefl _ hh.2
          · intro v hv
            rw [Finset.mem_filter] at hv ⊢
            exact ⟨hv.1, lt_trans hv.2 hlt⟩
        obtain ⟨result, c', e1, e2, e3⟩ := ih q (q :: path) (w + c) hqv hqfin
          (walk_cons hg hw hwalk)
          (by rw [WithTop.coe_add, ← add_assoc, hq, hsum])
          (by omega)
        refine ⟨result, c', ?_, e2, e3⟩
        simp only [ShortestPath.reconstructPathLoop, hxs, if_false, hr]
        exact e1

/-- On a graph whose edge weights are all positive, with the distances of
`Dijkstra(graph, start)`, `ReconstructPath` returns within `|V|` rounds of its `while`
loop: the empty sequence when `end` is not reached from `start`, and otherwise a path
from `start` to `end` whose weight is `distances[end]`. -/
theorem reconstructPath_of_positive {g : GraphBase T R} (hg : g.Valid)
    (hpos : ∀ u v w, g.GetEdgeWeight u v = .ok w → 0 < w) {start endVertex : T}
    (hs : g.HasVertex start = true) (he : g.HasVertex endVertex = true)
    (fuel : Nat) (hfuel : g.GetAllVertices.length ≤ fuel) :
    ∃ path, ShortestPath.reconstructFromDijkstra fuel g start endVertex = .ok path ∧
      ((path = [] ∧ ¬ g.Connected start endVertex) ∨
        ∃ (c : R) (dist : Dictionary T (WithTop R)), g.Walk start path endVertex c ∧
          ShortestPath.Dijkstra g start = .ok dist ∧ dist.Get endVertex = .ok (c : WithTop R))
      := by
  have hw : ∀ u v w, g.GetEdgeWeight u v = .ok w → 0 ≤ w :=
    fun u v w h => le_of_lt (hpos u v w h)
  obtain ⟨dist, h1, h2⟩ := dijkstra_spec hg hw hs
  have hget : ∀ v, g.HasVertex v = true → dist.Get v = .ok (ShortestPath.distOf dist v) :=
    fun v hv => (h2 v hv).1
  have hD : ∀ v, g.HasVertex v = true → g.IsDistance start v (ShortestPath.distOf dist v) :=
    fun v hv => (h2 v hv).2.1
  by_cases htop : ShortestPath.distOf dist endVertex = ⊤
  · refine ⟨[], ?_, Or.inl ⟨rfl, ((h2 endVertex he).2.2).1 htop⟩⟩
    simp [ShortestPath.reconstructFromDijkstra, h1, ShortestPath.ReconstructPath, hs, he,
      hget endVertex he, htop]
  · have hmeasure : (g.GetAllVertices.toFinset.filter
        (fun v => ShortestPath.distOf dist v < ShortestPath.distOf dist endVertex)).card <
        g.GetAllVertices.length := by
      rw [← List.toFinset_card_of_nodup hg.all_nodup]
      apply Finset.card_lt_card
      rw [Finset.ssubset_iff_of_subset (Finset.filter_subset _ _)]
      refine ⟨endVertex, List.mem_toFinset.2 ((hg.mem_all endVertex).2 he), ?_⟩
      rw [Finset.mem_filter]
      exact fun hh => lt_irrefl _ hh.2
    obtain ⟨result, c', e1, e2, e3⟩ := reconstructPathLoop_positive hg hpos hs hget hD
      fuel endVertex [endVertex] 0 he htop (.start he) (by simp) (by omega)
    have hnneg : ¬ ShortestPath.distOf dist endVertex < 0 := by
      have h0 : 0 ≤ c' := walk_nonneg hw e2
      rw [← e3, not_lt]
      exact_mod_cast h0
    refine ⟨result, ?_, Or.inr ⟨c', dist, e2, h1, by rw [hget endVertex he, e3]⟩⟩
    simp [ShortestPath.reconstructFromDijkstra, h1, ShortestPath.ReconstructPath, hs, he,
      hget endVertex he, htop, hnneg, e1]

end ReconstructPositive

/-! ## The interface of every graph object -/

section WeakValidFacts

variable {T W : Type} [LinearOrder T] [Inhabited W]

/-- The interface of a directed graph object in a program, the objects that
`RemoveVertex` left with entries for removed vertices included. -/
theorem dg_weakValid {dg : DirectedGraph T W} (h : dg.WeakInv) : dg.toGraphBase.WeakValid where
  all_nodup := by
    show (dg.GetAllVertices.1).Nodup
    rw [dg_getAllVertices_eq h.cache]
    exact Set.set_nodup h.vs_wf
  mem_all := by
    intro v
    show v ∈ dg.GetAllVertices.1 ↔ dg.vertices.Contains v = true
    rw [dg_getAllVertices_eq h.cache, set_mem_elems_iff h.vs_wf]
  count_eq := by
    show dg.vertexCount = ((dg.GetAllVertices.1).length : Int)
    rw [dg_getAllVertices_eq h.cache, h.vcount, set_card_eq_length h.vs_wf]
  adj_ok := by
    intro v hv
    have hv' : dg.vertices.Contains v = true := hv
    obtain ⟨d, hfind, hd, hadj⟩ := weakInv_getAdjacentVertices h hv'
    refine ⟨_, hadj, Dictionary.nodup_keys hd, ?_⟩
    intro u
    show dg.HasEdge v u = true ↔ (_ ∧ dg.vertices.Contains u = true)
    rw [DirectedGraph.dg_hasEdge_eq, storedWeight_of_find? hfind, mem_entries_keys_iff hd, hv']
    simp only [Bool.true_and, Bool.and_eq_true]
    exact ⟨fun hh => ⟨hh.2, hh.1⟩, fun hh => ⟨hh.2, hh.1⟩⟩
  edge_left := by
    intro u v he
    have he' : dg.HasEdge u v = true := he
    rw [DirectedGraph.dg_hasEdge_eq] at he'
    simp only [Bool.and_eq_true] at he'
    exact he'.1.1
  weight_iff := by
    intro u v
    show (∃ w, dg.GetEdgeWeight u v = .ok w) ↔ dg.HasEdge u v = true
    constructor
    · rintro ⟨w, hw⟩
      by_contra hn
      simp only [Bool.not_eq_true] at hn
      simp [DirectedGraph.GetEdgeWeight, hn] at hw
    · intro he
      obtain ⟨w0, -, hw0⟩ := weakInv_getEdgeWeight h he
      exact ⟨w0, hw0⟩
  weight_err := by
    intro u v he
    have he' : dg.HasEdge u v = false := he
    show dg.GetEdgeWeight u v = .error .edgeNotFound
    simp [DirectedGraph.GetEdgeWeight, he']

/-- An edge joins two vertices. -/
theorem weakValid_edge_right {g : GraphBase T W} (hg : g.WeakValid) {u v : T}
    (he : g.HasEdge u v = true) : g.HasVertex v = true := by
  obtain ⟨adj, -, -, h3⟩ := hg.adj_ok u (hg.edge_left u v he)
  exact ((h3 v).1 he).2

/-- When no adjacency list names an element that is no vertex, leaving such elements
out changes no adjacency list. -/
theorem prune_adjacent {g : GraphBase T W} (hn : ¬ g.HasStaleEntry) {u : T} {adj : List T}
    (hu : g.HasVertex u = true) (h : g.GetAdjacentVertices u = .ok adj) :
    adj.filter g.HasVertex = adj := by
  rw [List.filter_eq_self]
  intro v hv
  by_contra hc
  simp only [Bool.not_eq_true] at hc
  exact hn ⟨u, adj, v, hu, h, hv, hc⟩

/-- An interface whose queries agree with each other has no adjacency entry for an
element that is no vertex. -/
theorem valid_not_stale {g : GraphBase T W} (hg : g.Valid) : ¬ g.HasStaleEntry := by
  rintro ⟨u, adj, v, hu, h1, h2, h3⟩
  obtain ⟨adj', e1, -, e3⟩ := hg.adj_ok u hu
  rw [h1] at e1
  cases e1
  have := hg.edge_right u v ((e3 v).1 h2)
  rw [h3] at this
  cases this

/-- What `allEdges` checks holds for every edge, on every graph object. -/
theorem allEdges_of_weakValid {g : GraphBase T W} (hg : g.WeakValid) (p : T → T → Bool)
    (h : g.allEdges p = true) (u v : T) (he : g.HasEdge u v = true) : p u v = true := by
  have hu := hg.edge_left u v he
  obtain ⟨adj, h1, -, h3⟩ := hg.adj_ok u hu
  unfold GraphBase.allEdges at h
  rw [List.all_eq_true] at h
  have := h u ((hg.mem_all u).2 hu)
  rw [h1] at this
  simp only [List.all_eq_true] at this
  exact this v ((h3 v).1 he).1

/-- A graph object in which every adjacency entry is greater than its vertex has no
directed cycle. -/
theorem no_cycle_of_weakValid {g : GraphBase T W} (hg : g.WeakValid)
    (h : g.allEdges (fun u v => decide (u < v)) = true) : ¬ g.HasCycle := by
  have hlt : ∀ u v, g.Reaches u v → u < v := by
    intro u v hr
    induction hr with
    | single he => exact of_decide_eq_true (allEdges_of_weakValid hg _ h _ _ he)
    | tail _ he ih => exact lt_trans ih (of_decide_eq_true (allEdges_of_weakValid hg _ h _ _ he))
  rintro ⟨v, hv⟩
  exact lt_irrefl v (hlt v v hv)

end WeakValidFacts

section WeakValidWeights

variable {T R : Type} [LinearOrder T] [LinearOrderedRing R] [Inhabited R]

/-- What `allWeights` checks holds for the weight of every edge, on every graph
object. -/
theorem allWeights_of_weakValid {g : GraphBase T R} (hg : g.WeakValid) (p : R → Bool)
    (h : g.allWeights p = true) (u v : T) (w : R) (he : g.GetEdgeWeight u v = .ok w) :
    p w = true := by
  have hE := (hg.weight_iff u v).1 ⟨w, he⟩
  have hu := hg.edge_left u v hE
  obtain ⟨adj, h1, -, h3⟩ := hg.adj_ok u hu
  unfold GraphBase.allWeights at h
  rw [List.all_eq_true] at h
  have := h u ((hg.mem_all u).2 hu)
  rw [h1] at this
  simp only [List.all_eq_true] at this
  have := this v ((h3 v).1 hE).1
  rw [he] at this
  exact this

end WeakValidWeights

/-! ## `DijkstraWithPath` on every graph object -/

section PathEveryObject

variable {T R : Type} [LinearOrder T] [Inhabited T] [LinearOrderedRing R] [Inhabited R]

end PathEveryObject

section PathClaimEveryObject

variable {T R : Type} [LinearOrder T] [Inhabited T] [LinearOrderedRing R] [Inhabited R]

/-- An undirected graph object has no adjacency entry for an element that is no
vertex. -/
theorem ug_not_stale {W : Type} [Inhabited W] {ug : UndirectedGraph T W}
    (hu : ug.InSession) : ¬ ug.toGraphBase.HasStaleEntry :=
  valid_not_stale (ug_valid_toGraphBase (ug_inSession_valid hu))

end PathClaimEveryObject

/-! ## The algorithms on a directed graph after `RemoveVertex`

`DirectedGraph::RemoveVertex` leaves the adjacency entries that point to the removed
vertex (C1).  On such an object the algorithms take the removed vertex from
`GetAdjacentVertices` and throw where the graph, as `HasVertex` and `HasEdge` describe
it, meets every condition of their contract. -/

section StaleEntryClaims

/-- C12: after `AddEdge(1, 2, 1)`, `AddEdge(1, 3, 4)`, `RemoveVertex(2)` the graph has
the vertices `1` and `3` and the edge `1 -> 3`, no weight is negative, and
`GetAdjacentVertices(1)` still names `2`; `Dijkstra(graph, 1)` throws "Edge does not
exist" and returns no map. -/
theorem C12_dijkstra_throws_on_stale_entry :
    ∃ g : DirectedGraph Nat Int,
      DirectedGraph.run DirectedGraph.empty
        [.addEdge 1 2 1, .addEdge 1 3 4, .removeVertex 2] = .ok g ∧
      g.IsReachable ∧ g.GetAllVertices.1 = [1, 3] ∧ g.HasVertex 1 = true ∧
      g.HasEdge 1 3 = true ∧ g.HasVertex 2 = false ∧
      g.GetAdjacentVertices 1 = .ok [2, 3] ∧
      (∀ u v w, g.toGraphBase.GetEdgeWeight u v = .ok w → 0 ≤ w) ∧
      ShortestPath.Dijkstra g.toGraphBase 1 = .error .edgeNotFound ∧
      ¬ ∃ dist, ShortestPath.Dijkstra g.toGraphBase 1 = .ok dist := by
  obtain ⟨g, hg⟩ : ∃ g : DirectedGraph Nat Int,
      DirectedGraph.run DirectedGraph.empty
        [.addEdge 1 2 1, .addEdge 1 3 4, .removeVertex 2] = .ok g :=
    ⟨_, rfl⟩
  have hr : g.IsReachable := ⟨_, hg⟩
  have hw := dg_weakValid (weakInv_of_reachable hr)
  have h1 : (DirectedGraph.run DirectedGraph.empty
        [.addEdge 1 2 1, .addEdge 1 3 4, .removeVertex 2]).map
      (fun g : DirectedGraph Nat Int =>
        (g.GetAllVertices.1, [g.HasVertex 1, g.HasEdge 1 3, g.HasVertex 2,
          g.toGraphBase.allWeights (fun w => decide (0 ≤ w))])) =
      .ok ([1, 3], [true, true, false, true]) := by decide
  have h2 : (DirectedGraph.run DirectedGraph.empty
        [.addEdge 1 2 1, .addEdge 1 3 4, .removeVertex 2]).map
      (fun g : DirectedGraph Nat Int => g.GetAdjacentVertices 1) = .ok (.ok [2, 3]) := by
    decide
  have h3 : (DirectedGraph.run DirectedGraph.empty
        [.addEdge 1 2 1, .addEdge 1 3 4, .removeVertex 2]).map
      (fun g : DirectedGraph Nat Int =>
        (ShortestPath.Dijkstra g.toGraphBase 1).map ShortestPath.toList) =
      .ok (.error .edgeNotFound) := by decide
  rw [hg] at h1 h2 h3
  simp only [Except.map, Except.ok.injEq, Prod.mk.injEq, List.cons.injEq, and_true]
    at h1 h2 h3
  have herr : ShortestPath.Dijkstra g.toGraphBase 1 = .error .edgeNotFound := by
    cases hd : ShortestPath.Dijkstra g.toGraphBase 1 with
    | ok d => rw [hd] at h3; cases h3
    | error e => rw [hd] at h3; simp only [Except.error.injEq] at h3; rw [h3]
  refine ⟨g, hg, hr, h1.1, h1.2.1, h1.2.2.1, h1.2.2.2.1, h2, ?_, herr, ?_⟩
  · intro u v w he
    exact of_decide_eq_true (allWeights_of_weakValid hw _ h1.2.2.2.2 u v w he)
  · rintro ⟨dist, hd⟩
    rw [herr] at hd
    cases hd

/-- C13: after `AddEdge(1, 2, 1)`, `AddEdge(1, 3, 4)`, `RemoveVertex(2)` the vertices
`1` and `3` are joined by the edge `1 -> 3`, no weight is negative, and
`DijkstraWithPath(graph, 1, 3)`, which `FindShortestPath` calls, throws "Edge does not
exist": it returns neither a path nor the empty sequence. -/
theorem C13_shortestPath_throws_on_stale_entry :
    ∃ g : DirectedGraph Nat Int,
      DirectedGraph.run DirectedGraph.empty
        [.addEdge 1 2 1, .addEdge 1 3 4, .removeVertex 2] = .ok g ∧
      g.IsReachable ∧ g.HasVertex 1 = true ∧ g.HasVertex 3 = true ∧
      g.toGraphBase.Connected 1 3 ∧
      (∀ u v w, g.toGraphBase.GetEdgeWeight u v = .ok w → 0 ≤ w) ∧
      ShortestPath.DijkstraWithPath g.toGraphBase 1 3 = .error .edgeNotFound ∧
      ShortestPath.FindShortestPath g.toGraphBase 1 3 = .error .edgeNotFound ∧
      ¬ ∃ path, ShortestPath.FindShortestPath g.toGraphBase 1 3 = .ok path := by
  obtain ⟨g, hg⟩ : ∃ g : DirectedGraph Nat Int,
      DirectedGraph.run DirectedGraph.empty
        [.addEdge 1 2 1, .addEdge 1 3 4, .removeVertex 2] = .ok g :=
    ⟨_, rfl⟩
  have hr : g.IsReachable := ⟨_, hg⟩
  have hw := dg_weakValid (weakInv_of_reachable hr)
  have h1 : (DirectedGraph.run DirectedGraph.empty
        [.addEdge 1 2 1, .addEdge 1 3 4, .removeVertex 2]).map
      (fun g : DirectedGraph Nat Int =>
        [g.HasVertex 1, g.HasVertex 3, g.HasEdge 1 3,
          g.toGraphBase.allWeights (fun w => decide (0 ≤ w))]) =
      .ok [true, true, true, true] := by decide
  have h3 : (DirectedGraph.run DirectedGraph.empty
        [.addEdge 1 2 1, .addEdge 1 3 4, .removeVertex 2]).map
      (fun g : DirectedGraph Nat Int => ShortestPath.DijkstraWithPath g.toGraphBase 1 3) =
      .ok (.error .edgeNotFound) := by decide
  rw [hg] at h1 h3
  simp only [Except.map, Except.ok.injEq, List.cons.injEq, and_true] at h1 h3
  have hedge : g.toGraphBase.Edge 1 3 := h1.2.2.1
  refine ⟨g, hg, hr, h1.1, h1.2.1, Relation.ReflTransGen.single hedge, ?_, h3, h3, ?_⟩
  · intro u v w he
    exact of_decide_eq_true (allWeights_of_weakValid hw _ h1.2.2.2 u v w he)
  · rintro ⟨path, hp⟩
    have h3' : ShortestPath.FindShortestPath g.toGraphBase 1 3 = .error .edgeNotFound := h3
    rw [h3'] at hp
    cases hp

/-- C14: after `AddEdge(1, 2, -1)`, `AddEdge(2, 1, -1)`, `AddEdge(1, 3, 1)`,
`RemoveVertex(3)` the cycle `1 -> 2 -> 1` of weight `-2` is reached from the vertex `1`,
and `BellmanFord(graph, 1)` throws "Edge does not exist", which is not the error for a
negative cycle. -/
theorem C14_bellmanFord_other_error_on_stale_entry :
    ∃ g : DirectedGraph Nat Int,
      DirectedGraph.run DirectedGraph.empty
        [.addEdge 1 2 (-1), .addEdge 2 1 (-1), .addEdge 1 3 1, .removeVertex 3] = .ok g ∧
      g.IsReachable ∧ g.GetAllVertices.1 = [1, 2] ∧ g.HasVertex 1 = true ∧
      g.GetAdjacentVertices 1 = .ok [2, 3] ∧ g.HasVertex 3 = false ∧
      g.toGraphBase.HasNegativeCycleFrom 1 ∧
      ShortestPath.BellmanFord g.toGraphBase 1 = .error .edgeNotFound ∧
      ShortestPath.BellmanFord g.toGraphBase 1 ≠ .error .negativeCycle := by
  obtain ⟨g, hg⟩ : ∃ g : DirectedGraph Nat Int,
      DirectedGraph.run DirectedGraph.empty
        [.addEdge 1 2 (-1), .addEdge 2 1 (-1), .addEdge 1 3 1, .removeVertex 3] = .ok g :=
    ⟨_, rfl⟩
  have hr : g.IsReachable := ⟨_, hg⟩
  have h1 : (DirectedGraph.run DirectedGraph.empty
        [.addEdge 1 2 (-1), .addEdge 2 1 (-1), .addEdge 1 3 1, .removeVertex 3]).map
      (fun g : DirectedGraph Nat Int =>
        (g.GetAllVertices.1, [g.HasVertex 1, g.HasVertex 3])) =
      .ok ([1, 2], [true, false]) := by decide
  have h2 : (DirectedGraph.run DirectedGraph.empty
        [.addEdge 1 2 (-1), .addEdge 2 1 (-1), .addEdge 1 3 1, .removeVertex 3]).map
      (fun g : DirectedGraph Nat Int =>
        (g.GetAdjacentVertices 1, g.GetEdgeWeight 1 2, g.GetEdgeWeight 2 1)) =
      .ok (.ok [2, 3], .ok (-1), .ok (-1)) := by decide
  have h3 : (DirectedGraph.run DirectedGraph.empty
        [.addEdge 1 2 (-1), .addEdge 2 1 (-1), .addEdge 1 3 1, .removeVertex 3]).map
      (fun g : DirectedGraph Nat Int =>
        (ShortestPath.BellmanFord g.toGraphBase 1).map ShortestPath.toList) =
      .ok (.error .edgeNotFound) := by decide
  rw [hg] at h1 h2 h3
  simp only [Except.map, Except.ok.injEq, Prod.mk.injEq, List.cons.injEq, and_true]
    at h1 h2 h3
  have herr : ShortestPath.BellmanFord g.toGraphBase 1 = .error .edgeNotFound := by
    cases hd : ShortestPath.BellmanFord g.toGraphBase 1 with
    | ok d => rw [hd] at h3; cases h3
    | error e => rw [hd] at h3; simp only [Except.error.injEq] at h3; rw [h3]
  have hwalk0 : g.toGraphBase.Walk 1 ([1] ++ [2] ++ [1]) 1 (0 + (-1) + (-1)) :=
    GraphBase.Walk.step (GraphBase.Walk.step (GraphBase.Walk.start h1.2.1) h2.2.1) h2.2.2
  have hwalk : g.toGraphBase.Walk 1 [1, 2, 1] 1 (-2) := hwalk0
  refine ⟨g, hg, hr, h1.1, h1.2.1, h2.1, h1.2.2, ?_, herr, ?_⟩
  · exact ⟨1, [1, 2, 1], -2, Relation.ReflTransGen.refl, hwalk, by decide, by decide⟩
  · rw [herr]
    intro h
    cases h

/-- C15: after `AddEdge(1, 2, 1)`, `AddEdge(1, 3, -4)`, `RemoveVertex(2)` the graph has
the vertices `1` and `3` and the one edge `1 -> 3`, so it has no cycle at all;
`BellmanFord(graph, 1)` throws "Edge does not exist" and returns no map. -/
theorem C15_bellmanFord_throws_on_stale_entry :
    ∃ g : DirectedGraph Nat Int,
      DirectedGraph.run DirectedGraph.empty
        [.addEdge 1 2 1, .addEdge 1 3 (-4), .removeVertex 2] = .ok g ∧
      g.IsReachable ∧ g.GetAllVertices.1 = [1, 3] ∧ g.HasVertex 1 = true ∧
      g.HasEdge 1 3 = true ∧ ¬ g.toGraphBase.HasCycle ∧
      ¬ g.toGraphBase.HasNegativeCycleFrom 1 ∧
      ShortestPath.BellmanFord g.toGraphBase 1 = .error .edgeNotFound ∧
      ¬ ∃ dist, ShortestPath.BellmanFord g.toGraphBase 1 = .ok dist := by
  obtain ⟨g, hg⟩ : ∃ g : DirectedGraph Nat Int,
      DirectedGraph.run DirectedGraph.empty
        [.addEdge 1 2 1, .addEdge 1 3 (-4), .removeVertex 2] = .ok g :=
    ⟨_, rfl⟩
  have hr : g.IsReachable := ⟨_, hg⟩
  have hw := dg_weakValid (weakInv_of_reachable hr)
  have h1 : (DirectedGraph.run DirectedGraph.empty
        [.addEdge 1 2 1, .addEdge 1 3 (-4), .removeVertex 2]).map
      (fun g : DirectedGraph Nat Int =>
        (g.GetAllVertices.1, [g.HasVertex 1, g.HasEdge 1 3,
          g.toGraphBase.allEdges (fun u v => decide (u < v))])) =
      .ok ([1, 3], [true, true, true]) := by decide
  have h3 : (DirectedGraph.run DirectedGraph.empty
        [.addEdge 1 2 1, .addEdge 1 3 (-4), .removeVertex 2]).map
      (fun g : DirectedGraph Nat Int =>
        (ShortestPath.BellmanFord g.toGraphBase 1).map ShortestPath.toList) =
      .ok (.error .edgeNotFound) := by decide
  rw [hg] at h1 h3
  simp only [Except.map, Except.ok.injEq, Prod.mk.injEq, List.cons.injEq, and_true]
    at h1 h3
  have herr : ShortestPath.BellmanFord g.toGraphBase 1 = .error .edgeNotFound := by
    cases hd : ShortestPath.BellmanFord g.toGraphBase 1 with
    | ok d => rw [hd] at h3; cases h3
    | error e => rw [hd] at h3; simp only [Except.error.injEq] at h3; rw [h3]
  have hac : ¬ g.toGraphBase.HasCycle := no_cycle_of_weakValid hw h1.2.2.2
  refine ⟨g, hg, hr, h1.1, h1.2.1, h1.2.2.1, hac, ?_, herr, ?_⟩
  · rintro ⟨v, p, c, -, hp, hc, -⟩
    cases hp with
    | start _ => exact lt_irrefl _ hc
    | @step q x d _ w hq he =>
      have hxv : g.toGraphBase.Edge x v := (hw.weight_iff x v).1 ⟨w, he⟩
      have hconn : g.toGraphBase.Connected v x := by
        clear hc he hxv
        induction hq with
        | start _ => exact Relation.ReflTransGen.refl
        | step _ he' ih => exact ih.tail ((hw.weight_iff _ _).1 ⟨_, he'⟩)
      exact hac ⟨v, Relation.TransGen.tail' hconn hxv⟩
  · rintro ⟨dist, hd⟩
    rw [herr] at hd
    cases hd

/-- C16: after `AddEdge(1, 2, 1)`, `AddEdge(1, 3, 1)`, `RemoveVertex(2)` every edge of
the graph has the weight `1`; `Dijkstra(graph, 1)` throws "Edge does not exist" and
`BFSShortestPath(graph, 1)` throws "Key not found", so neither returns the hop
counts. -/
theorem C16_unit_weights_throw_on_stale_entry :
    ∃ g : DirectedGraph Nat Int,
      DirectedGraph.run DirectedGraph.empty
        [.addEdge 1 2 1, .addEdge 1 3 1, .removeVertex 2] = .ok g ∧
      g.IsReachable ∧ g.GetAllVertices.1 = [1, 3] ∧ g.HasVertex 1 = true ∧
      g.HasEdge 1 3 = true ∧
      (∀ u v w, g.toGraphBase.GetEdgeWeight u v = .ok w → w = 1) ∧
      ShortestPath.Dijkstra g.toGraphBase 1 = .error .edgeNotFound ∧
      ShortestPath.BFSShortestPath g.toGraphBase 1 = .error .keyNotFound := by
  obtain ⟨g, hg⟩ : ∃ g : DirectedGraph Nat Int,
      DirectedGraph.run DirectedGraph.empty
        [.addEdge 1 2 1, .addEdge 1 3 1, .removeVertex 2] = .ok g :=
    ⟨_, rfl⟩
  have hr : g.IsReachable := ⟨_, hg⟩
  have hw := dg_weakValid (weakInv_of_reachable hr)
  have h1 : (DirectedGraph.run DirectedGraph.empty
        [.addEdge 1 2 1, .addEdge 1 3 1, .removeVertex 2]).map
      (fun g : DirectedGraph Nat Int =>
        (g.GetAllVertices.1, [g.HasVertex 1, g.HasEdge 1 3,
          g.toGraphBase.allWeights (fun w => decide (w = 1))])) =
      .ok ([1, 3], [true, true, true]) := by decide
  have h3 : (DirectedGraph.run DirectedGraph.empty
        [.addEdge 1 2 1, .addEdge 1 3 1, .removeVertex 2]).map
      (fun g : DirectedGraph Nat Int =>
        (ShortestPath.Dijkstra g.toGraphBase 1).map ShortestPath.toList) =
      .ok (.error .edgeNotFound) := by decide
  have h4 : (DirectedGraph.run DirectedGraph.empty
        [.addEdge 1 2 1, .addEdge 1 3 1, .removeVertex 2]).map
      (fun g : DirectedGraph Nat Int =>
        (ShortestPath.BFSShortestPath g.toGraphBase 1).map ShortestPath.toList) =
      .ok (.error .keyNotFound) := by decide
  rw [hg] at h1 h3 h4
  simp only [Except.map, Except.ok.injEq, Prod.mk.injEq, List.cons.injEq, and_true]
    at h1 h3 h4
  have herr : ShortestPath.Dijkstra g.toGraphBase 1 = .error .edgeNotFound := by
    cases hd : ShortestPath.Dijkstra g.toGraphBase 1 with
    | ok d => rw [hd] at h3; cases h3
    | error e => rw [hd] at h3; simp only [Except.error.injEq] at h3; rw [h3]
  have herr' : ShortestPath.BFSShortestPath g.toGraphBase 1 = .error .keyNotFound := by
    cases hd : ShortestPath.BFSShortestPath g.toGraphBase 1 with
    | ok d => rw [hd] at h4; cases h4
    | error e => rw [hd] at h4; simp only [Except.error.injEq] at h4; rw [h4]
  refine ⟨g, hg, hr, h1.1, h1.2.1, h1.2.2.1, ?_, herr, herr'⟩
  intro u v w he
  exact of_decide_eq_true (allWeights_of_weakValid hw _ h1.2.2.2 u v w he)

/-- C17: after `AddEdge(1, 2)`, `AddEdge(1, 3)`, `RemoveVertex(2)` the graph has the
vertices `1` and `3`, the one edge `1 -> 3` and no directed cycle; `KahnSort` throws
"Key not found" where `[1, 3]` is the topological order. -/
theorem C17_kahnSort_throws_on_stale_entry :
    ∃ g : DirectedGraph Nat Nat,
      DirectedGraph.run DirectedGraph.empty
        [.addEdge 1 2 1, .addEdge 1 3 1, .removeVertex 2] = .ok g ∧
      g.IsReachable ∧ g.GetAllVertices.1 = [1, 3] ∧ g.HasEdge 1 3 = true ∧
      g.GetAdjacentVertices 1 = .ok [2, 3] ∧ g.HasVertex 2 = false ∧
      ¬ g.toGraphBase.HasCycle ∧
      TopologicalSort.KahnSort g.toGraphBase = .error .keyNotFound := by
  obtain ⟨g, hg⟩ : ∃ g : DirectedGraph Nat Nat,
      DirectedGraph.run DirectedGraph.empty
        [.addEdge 1 2 1, .addEdge 1 3 1, .removeVertex 2] = .ok g :=
    ⟨_, rfl⟩
  have hr : g.IsReachable := ⟨_, hg⟩
  have hw := dg_weakValid (weakInv_of_reachable hr)
  have h1 : (DirectedGraph.run DirectedGraph.empty
        [.addEdge 1 2 1, .addEdge 1 3 1, .removeVertex 2]).map
      (fun g : DirectedGraph Nat Nat =>
        (g.GetAllVertices.1, [g.HasEdge 1 3, g.HasVertex 2,
          g.toGraphBase.allEdges (fun u v => decide (u < v))])) =
      .ok ([1, 3], [true, false, true]) := by decide
  have h2 : (DirectedGraph.run DirectedGraph.empty
        [.addEdge 1 2 1, .addEdge 1 3 1, .removeVertex 2]).map
      (fun g : DirectedGraph Nat Nat =>
        (g.GetAdjacentVertices 1, TopologicalSort.KahnSort g.toGraphBase)) =
      .ok (.ok [2, 3], .error .keyNotFound) := by decide
  rw [hg] at h1 h2
  simp only [Except.map, Except.ok.injEq, Prod.mk.injEq, List.cons.injEq, and_true]
    at h1 h2
  exact ⟨g, hg, hr, h1.1, h1.2.1, h2.1, h1.2.2.1, no_cycle_of_weakValid hw h1.2.2.2, h2.2⟩

/-- C18: after `AddEdge(1, 2)`, `AddEdge(1, 3)`, `RemoveVertex(2)` the graph has the
vertices `1` and `3`, the one edge `1 -> 3` and no directed cycle; `DFSSort` throws
"Vertex does not exist" where `[1, 3]` is the topological order. -/
theorem C18_dfsSort_throws_on_stale_entry :
    ∃ g : DirectedGraph Nat Nat,
      DirectedGraph.run DirectedGraph.empty
        [.addEdge 1 2 1, .addEdge 1 3 1, .removeVertex 2] = .ok g ∧
      g.IsReachable ∧ g.GetAllVertices.1 = [1, 3] ∧ g.HasEdge 1 3 = true ∧
      g.GetAdjacentVertices 1 = .ok [2, 3] ∧ g.HasVertex 2 = false ∧
      ¬ g.toGraphBase.HasCycle ∧
      TopologicalSort.DFSSort g.toGraphBase = .error .vertexNotFound := by
  obtain ⟨g, hg⟩ : ∃ g : DirectedGraph Nat Nat,
      DirectedGraph.run DirectedGraph.empty
        [.addEdge 1 2 1, .addEdge 1 3 1, .removeVertex 2] = .ok g :=
    ⟨_, rfl⟩
  have hr : g.IsReachable := ⟨_, hg⟩
  have hw := dg_weakValid (weakInv_of_reachable hr)
  have h1 : (DirectedGraph.run DirectedGraph.empty
        [.addEdge 1 2 1, .addEdge 1 3 1, .removeVertex 2]).map
      (fun g : DirectedGraph Nat Nat =>
        (g.GetAllVertices.1, [g.HasEdge 1 3, g.HasVertex 2,
          g.toGraphBase.allEdges (fun u v => decide (u < v))])) =
      .ok ([1, 3], [true, false, true]) := by decide
  have h2 : (DirectedGraph.run DirectedGraph.empty
        [.addEdge 1 2 1, .addEdge 1 3 1, .removeVertex 2]).map
      (fun g : DirectedGraph Nat Nat =>
        (g.GetAdjacentVertices 1, TopologicalSort.DFSSort g.toGraphBase)) =
      .ok (.ok [2, 3], .error .vertexNotFound) := by decide
  rw [hg] at h1 h2
  simp only [Except.map, Except.ok.injEq, Prod.mk.injEq, List.cons.injEq, and_true]
    at h1 h2
  exact ⟨g, hg, hr, h1.1, h1.2.1, h2.1, h1.2.2.1, no_cycle_of_weakValid hw h1.2.2.2, h2.2⟩

/-- C19: after `AddEdge(1, 2)`, `RemoveVertex(2)` the graph has the vertex `1` and no
edge, hence no directed cycle, and `IsAcyclic` returns false: `KahnSort` throws "Key not
found", which `IsAcyclic` catches as it catches the cycle error. -/
theorem C19_isAcyclic_false_without_cycle :
    ∃ g : DirectedGraph Nat Nat,
      DirectedGraph.run DirectedGraph.empty [.addEdge 1 2 1, .removeVertex 2] = .ok g ∧
      g.IsReachable ∧ g.GetAllVertices.1 = [1] ∧ (∀ u v, g.HasEdge u v = false) ∧
      ¬ g.toGraphBase.HasCycle ∧
      TopologicalSort.KahnSort g.toGraphBase = .error .keyNotFound ∧
      TopologicalSort.DFSSort g.toGraphBase = .error .vertexNotFound ∧
      TopologicalSort.IsAcyclic g.toGraphBase = false ∧
      ¬ (TopologicalSort.IsAcyclic g.toGraphBase = false ↔ g.toGraphBase.HasCycle) := by
  obtain ⟨g, hg⟩ : ∃ g : DirectedGraph Nat Nat,
      DirectedGraph.run DirectedGraph.empty [.addEdge 1 2 1, .removeVertex 2] = .ok g :=
    ⟨_, rfl⟩
  have hr : g.IsReachable := ⟨_, hg⟩
  have hw := dg_weakValid (weakInv_of_reachable hr)
  have h1 : (DirectedGraph.run DirectedGraph.empty [.addEdge 1 2 1, .removeVertex 2]).map
      (fun g : DirectedGraph Nat Nat =>
        (g.GetAllVertices.1, [g.HasVertex 2,
          g.toGraphBase.allEdges (fun u v => decide (u < v)),
          TopologicalSort.IsAcyclic g.toGraphBase])) =
      .ok ([1], [false, true, false]) := by decide
  have h2 : (DirectedGraph.run DirectedGraph.empty [.addEdge 1 2 1, .removeVertex 2]).map
      (fun g : DirectedGraph Nat Nat =>
        (g.GetAdjacentVertices 1, TopologicalSort.KahnSort g.toGraphBase,
          TopologicalSort.DFSSort g.toGraphBase)) =
      .ok (.ok [2], .error .keyNotFound, .error .vertexNotFound) := by decide
  rw [hg] at h1 h2
  simp only [Except.map, Except.ok.injEq, Prod.mk.injEq, List.cons.injEq, and_true]
    at h1 h2
  have hac : ¬ g.toGraphBase.HasCycle := no_cycle_of_weakValid hw h1.2.2.1
  have hnone : ∀ u v, g.HasEdge u v = false := by
    intro u v
    by_contra hc
    simp only [Bool.not_eq_false] at hc
    have hc' : g.toGraphBase.HasEdge u v = true := hc
    have hu := hw.edge_left u v hc'
    have hv := weakValid_edge_right hw hc'
    have hu1 : u = 1 := by
      have := (hw.mem_all u).2 hu
      rw [show g.toGraphBase.GetAllVertices = [1] from h1.1] at this
      simpa using this
    have hv1 : v = 1 := by
      have := (hw.mem_all v).2 hv
      rw [show g.toGraphBase.GetAllVertices = [1] from h1.1] at this
      simpa using this
    subst hu1 hv1
    exact hac ⟨1, Relation.TransGen.single hc'⟩
  refine ⟨g, hg, hr, h1.1, hnone, hac, h2.2.1, h2.2.2, h1.2.2.2, ?_⟩
  intro hiff
  exact hac (hiff.1 h1.2.2.2)

/-- C24: after `AddEdge(1, 2)`, `RemoveVertex(2)` the graph has the vertex `1` and no
edge, so no two vertices have edges in both directions and there is no directed cycle,
and `IsPartialOrder` returns false. -/
theorem C24_isPartialOrder_false_on_stale_entry :
    ∃ g : DirectedGraph Nat Nat,
      DirectedGraph.run DirectedGraph.empty [.addEdge 1 2 1, .removeVertex 2] = .ok g ∧
      g.IsReachable ∧ g.GetAllVertices.1 = [1] ∧
      g.GetAdjacentVertices 1 = .ok [2] ∧ g.HasVertex 2 = false ∧
      (∀ u v, u ≠ v → ¬ (g.HasEdge u v = true ∧ g.HasEdge v u = true)) ∧
      ¬ g.toGraphBase.HasCycle ∧
      PartialOrder.IsPartialOrder g.toGraphBase = .ok false := by
  obtain ⟨g, hg⟩ : ∃ g : DirectedGraph Nat Nat,
      DirectedGraph.run DirectedGraph.empty [.addEdge 1 2 1, .removeVertex 2] = .ok g :=
    ⟨_, rfl⟩
  have hr : g.IsReachable := ⟨_, hg⟩
  have hw := dg_weakValid (weakInv_of_reachable hr)
  have h1 : (DirectedGraph.run DirectedGraph.empty [.addEdge 1 2 1, .removeVertex 2]).map
      (fun g : DirectedGraph Nat Nat =>
        (g.GetAllVertices.1, [g.HasVertex 2,
          g.toGraphBase.allEdges (fun u v => decide (u < v))])) =
      .ok ([1], [false, true]) := by decide
  have h2 : (DirectedGraph.run DirectedGraph.empty [.addEdge 1 2 1, .removeVertex 2]).map
      (fun g : DirectedGraph Nat Nat =>
        (g.GetAdjacentVertices 1, PartialOrder.IsPartialOrder g.toGraphBase)) =
      .ok (.ok [2], .ok false) := by decide
  rw [hg] at h1 h2
  simp only [Except.map, Except.ok.injEq, Prod.mk.injEq, List.cons.injEq, and_true]
    at h1 h2
  have hac : ¬ g.toGraphBase.HasCycle := no_cycle_of_weakValid hw h1.2.2
  refine ⟨g, hg, hr, h1.1, h2.1, h1.2.1, ?_, hac, h2.2⟩
  rintro u v - ⟨huv, hvu⟩
  have e1 : g.toGraphBase.Edge u v := huv
  have e2 : g.toGraphBase.Edge v u := hvu
  exact hac ⟨u, (Relation.TransGen.single e1).tail e2⟩

/-- C26: after `AddEdge(1, 2)`, `AddVertex(3)`, `RemoveVertex(2)` the graph has the
vertices `1` and `3` and no directed cycle, and `FindInfimum(1, 3)` throws "Vertex does
not exist" although both arguments are vertices. -/
theorem C26_findInfimum_throws_on_stale_entry :
    ∃ g : DirectedGraph Nat Nat,
      DirectedGraph.run DirectedGraph.empty
        [.addEdge 1 2 1, .addVertex 3, .removeVertex 2] = .ok g ∧
      g.IsReachable ∧ g.GetAllVertices.1 = [1, 3] ∧
      g.HasVertex 1 = true ∧ g.HasVertex 3 = true ∧
      g.GetAdjacentVertices 1 = .ok [2] ∧ g.HasVertex 2 = false ∧
      ¬ g.toGraphBase.HasCycle ∧
      PartialOrder.FindInfimum g.toGraphBase 1 3 = .error .vertexNotFound := by
  obtain ⟨g, hg⟩ : ∃ g : DirectedGraph Nat Nat,
      DirectedGraph.run DirectedGraph.empty
        [.addEdge 1 2 1, .addVertex 3, .removeVertex 2] = .ok g :=
    ⟨_, rfl⟩
  have hr : g.IsReachable := ⟨_, hg⟩
  have hw := dg_weakValid (weakInv_of_reachable hr)
  have h1 : (DirectedGraph.run DirectedGraph.empty
        [.addEdge 1 2 1, .addVertex 3, .removeVertex 2]).map
      (fun g : DirectedGraph Nat Nat =>
        (g.GetAllVertices.1, [g.HasVertex 1, g.HasVertex 3, g.HasVertex 2,
          g.toGraphBase.allEdges (fun u v => decide (u < v))])) =
      .ok ([1, 3], [true, true, false, true]) := by decide
  have h2 : (DirectedGraph.run DirectedGraph.empty
        [.addEdge 1 2 1, .addVertex 3, .removeVertex 2]).map
      (fun g : DirectedGraph Nat Nat =>
        (g.GetAdjacentVertices 1, PartialOrder.FindInfimum g.toGraphBase 1 3)) =
      .ok (.ok [2], .error .vertexNotFound) := by decide
  rw [hg] at h1 h2
  simp only [Except.map, Except.ok.injEq, Prod.mk.injEq, List.cons.injEq, and_true]
    at h1 h2
  exact ⟨g, hg, hr, h1.1, h1.2.1, h1.2.2.1, h2.1, h1.2.2.2.1,
    no_cycle_of_weakValid hw h1.2.2.2.2, h2.2⟩

/-- C38: after `AddEdge(1, 2)`, `AddEdge(1, 3)`, `RemoveVertex(2)` the graph has the
vertices `1` and `3` and the one edge `1 -> 3`: it has no directed cycle and its edges
are transitive; `BuildHasseDiagram` throws "Graph is not a partial order" where the
covering relation is the edge `1 -> 3`. -/
theorem C38_hasse_throws_on_stale_entry :
    ∃ g : DirectedGraph Nat Nat,
      DirectedGraph.run DirectedGraph.empty
        [.addEdge 1 2 1, .addEdge 1 3 1, .removeVertex 2] = .ok g ∧
      g.IsReachable ∧ g.GetAllVertices.1 = [1, 3] ∧ g.HasEdge 1 3 = true ∧
      g.GetAdjacentVertices 1 = .ok [2, 3] ∧ g.HasVertex 2 = false ∧
      ¬ g.toGraphBase.HasCycle ∧
      (∀ u w v, g.HasEdge u w = true → g.HasEdge w v = true → g.HasEdge u v = true) ∧
      (PartialOrder.BuildHasseDiagram g.toGraphBase).map (fun hasse => hasse.HasEdge 1 3) =
        .error .notPartialOrder := by
  obtain ⟨g, hg⟩ : ∃ g : DirectedGraph Nat Nat,
      DirectedGraph.run DirectedGraph.empty
        [.addEdge 1 2 1, .addEdge 1 3 1, .removeVertex 2] = .ok g :=
    ⟨_, rfl⟩
  have hr : g.IsReachable := ⟨_, hg⟩
  have hw := dg_weakValid (weakInv_of_reachable hr)
  have h1 : (DirectedGraph.run DirectedGraph.empty
        [.addEdge 1 2 1, .addEdge 1 3 1, .removeVertex 2]).map
      (fun g : DirectedGraph Nat Nat =>
        (g.GetAllVertices.1, [g.HasEdge 1 3, g.HasVertex 2,
          g.toGraphBase.allEdges (fun u v => decide (u < v)),
          g.toGraphBase.allEdges (fun u v => g.toGraphBase.allEdges
            (fun v' w => !decide (v = v') || g.HasEdge u w))])) =
      .ok ([1, 3], [true, false, true, true]) := by decide
  have h2 : (DirectedGraph.run DirectedGraph.empty
        [.addEdge 1 2 1, .addEdge 1 3 1, .removeVertex 2]).map
      (fun g : DirectedGraph Nat Nat =>
        (g.GetAdjacentVertices 1,
          (PartialOrder.BuildHasseDiagram g.toGraphBase).map
            (fun hasse => hasse.HasEdge 1 3))) =
      .ok (.ok [2, 3], .error .notPartialOrder) := by decide
  rw [hg] at h1 h2
  simp only [Except.map, Except.ok.injEq, Prod.mk.injEq, List.cons.injEq, and_true]
    at h1 h2
  refine ⟨g, hg, hr, h1.1, h1.2.1, h2.1, h1.2.2.1, no_cycle_of_weakValid hw h1.2.2.2.1,
    ?_, by simpa [Except.map] using h2.2⟩
  intro u w v huw hwv
  have hin := allEdges_of_weakValid hw _ h1.2.2.2.2 u w huw
  have := allEdges_of_weakValid hw _ hin w v hwv
  simpa using this

end StaleEntryClaims

end Lab3
